import Mathlib

/-!
# Metikoro game-state engine: a shallow embedding and its verified properties

The definitions follow the C++ sources of `metikoro-lib` function by function.
Conventions of the embedding:

* bit-fields and `uint8_t` values are natural numbers, reduced with an explicit
  `%` wherever the C++ code truncates;
* `std::array` values are lists (their fixed length is part of the
  well-formedness predicates further down);
* a C++ `throw Error(msg)` is `Except.error msg`; an exception that escapes a
  `noexcept` function ends the program and is modelled as an error as well.
-/

set_option autoImplicit false

namespace Metikoro

deriving instance DecidableEq for Except

/-- The result of a test that cannot throw where it is used; `false` if it did. -/
def okTrue (e : Except String Bool) : Bool :=
  match e with
  | .ok b => b
  | .error _ => false

/-! ## Rotation.hpp -/

/-- Rotation angle, `Rotation::Value`. -/
inductive Rotation where
  | None
  | Clockwise90
  | Clockwise180
  | Clockwise270
  | CounterClockwise90
  | CounterClockwise180
  | CounterClockwise270
  deriving DecidableEq, Repr, Fintype

namespace Rotation

/-- The numeric value of the enumerator (`int8_t`). -/
def value : Rotation → Int
  | None => 0
  | Clockwise90 => 1
  | Clockwise180 => 2
  | Clockwise270 => 3
  | CounterClockwise90 => -1
  | CounterClockwise180 => -2
  | CounterClockwise270 => -3

/-- The cast `static_cast<Value>(v)` for the seven enumerator values. -/
def ofValue (v : Int) : Rotation :=
  if v = 1 then Clockwise90
  else if v = 2 then Clockwise180
  else if v = 3 then Clockwise270
  else if v = -1 then CounterClockwise90
  else if v = -2 then CounterClockwise180
  else if v = -3 then CounterClockwise270
  else None

/-- First loop of `wrapValue`: `while (value <= -maximum) value += maximum`. -/
def wrapUp : Nat → Int → Int
  | 0, v => v
  | n + 1, v => if v ≤ -4 then wrapUp n (v + 4) else v

/-- Second loop of `wrapValue`: `while (value >= maximum) value -= maximum`. -/
def wrapDown : Nat → Int → Int
  | 0, v => v
  | n + 1, v => if v ≥ 4 then wrapDown n (v - 4) else v

/-- The function `Rotation::wrapValue`; the loops run at most `|value|` times. -/
def wrapValue (v : Int) : Int :=
  wrapDown v.natAbs (wrapUp v.natAbs v)

def wrapValueToRotation (v : Int) : Rotation := ofValue (wrapValue v)

def isClockwise (r : Rotation) : Bool := decide (r.value ≥ 0)

/-- The function `Rotation::reversed`: the enumerator with the negated value. -/
def reversed (r : Rotation) : Rotation := ofValue (-r.value)

/-- The function `Rotation::wrapToClockwise`. -/
def wrapToClockwise (r : Rotation) : Rotation :=
  if r.isClockwise then r else wrapValueToRotation (r.value + 4)

/-- The list `Rotation::allClockwise()`. -/
def allClockwise : List Rotation := [None, Clockwise90, Clockwise180, Clockwise270]

/-- All seven enumerators. -/
def allValues : List Rotation :=
  [None, Clockwise90, Clockwise180, Clockwise270,
   CounterClockwise90, CounterClockwise180, CounterClockwise270]

end Rotation

/-! ## Orientation.hpp -/

/-- The orientation of a stone on the board, `Orientation::Value`. -/
inductive Orientation where
  | North
  | East
  | South
  | West
  deriving DecidableEq, Repr, Fintype

namespace Orientation

def value : Orientation → Nat
  | North => 0
  | East => 1
  | South => 2
  | West => 3

/-- The cast `static_cast<Value>(n)` of a two-bit value. -/
def ofValue (n : Nat) : Orientation :=
  match n % 4 with
  | 0 => North
  | 1 => East
  | 2 => South
  | _ => West

/-- The operator `orientation + rotation`: `(value + count + rotation) % count`. -/
def add (o : Orientation) (r : Rotation) : Orientation :=
  ofValue (((o.value : Int) + 4 + r.value) % 4).toNat

/-- The operator `orientation - rotation`: `(value + count - rotation) % count`. -/
def sub (o : Orientation) (r : Rotation) : Orientation :=
  ofValue (((o.value : Int) + 4 - r.value) % 4).toNat

def flag (o : Orientation) : Nat := 1 <<< o.value

/-- The function `Orientation::toRotation`. -/
def toRotation (o : Orientation) : Rotation := Rotation.ofValue (o.value : Int)

/-- The one-letter form of `Orientation::toString`. -/
def toChar : Orientation → Char
  | North => 'N'
  | East => 'E'
  | South => 'S'
  | West => 'W'

/-- The function `Orientation::fromData` on a one-character string. -/
def fromData (data : List Char) : Except String Orientation :=
  if data.length ≠ 1 then .error "Orientation: Invalid data size."
  else match data.headD ' ' with
    | 'N' => .ok North
    | 'E' => .ok East
    | 'S' => .ok South
    | 'W' => .ok West
    | _ => .ok North

/-- The list `Orientation::all()`. -/
def all : List Orientation := [North, East, South, West]

end Orientation

/-! ## Utilities.hpp -/

namespace utility

def isHexDigit (c : Char) : Bool :=
  (decide ('0' ≤ c) && decide (c ≤ '9')) || (decide ('a' ≤ c) && decide (c ≤ 'f')) ||
    (decide ('A' ≤ c) && decide (c ≤ 'F'))

/-- The function `valueToHexDigit`: `digits.at(value)`, which throws beyond 15. -/
def valueToHexDigit (v : Nat) : Except String Char :=
  match (['0', '1', '2', '3', '4', '5', '6', '7'] ++
      ['8', '9', 'a', 'b', 'c', 'd', 'e', 'f']).get? v with
  | some c => .ok c
  | none => .error "array::at"

/-- The function `hexDigitToValue`; any other character gives zero. -/
def hexDigitToValue (c : Char) : Nat :=
  if '0' ≤ c ∧ c ≤ '9' then c.toNat - '0'.toNat
  else if 'a' ≤ c ∧ c ≤ 'f' then c.toNat - 'a'.toNat + 10
  else if 'A' ≤ c ∧ c ≤ 'F' then c.toNat - 'A'.toNat + 10
  else 0

end utility

/-! ## Position.hpp -/

/-- A board position; both coordinates are four-bit fields. -/
structure Position where
  x : Nat
  y : Nat
  deriving DecidableEq, Repr

namespace Position

/-- The constructor `Position{x, y}`: the values are stored in four-bit fields. -/
def make (x y : Nat) : Position := ⟨x % 16, y % 16⟩

def maxLength : Nat := 15

/-- The value `Position::invalid()`. -/
def invalid : Position := ⟨maxLength, maxLength⟩

def isInvalid (p : Position) : Bool := p.x == maxLength || p.y == maxLength

/-- The order `operator<`: row-major, `y` first. -/
def lt (p q : Position) : Bool := decide (p.y < q.y) || (p.y == q.y && decide (p.x < q.x))

/-- The operator `p - q`: each difference is cast back to a four-bit length. -/
def sub (p q : Position) : Position :=
  ⟨(p.x + 256 - q.x % 256) % 16, (p.y + 256 - q.y % 256) % 16⟩

/-- The operator `p + q`: each sum is cast back to a four-bit length. -/
def add (p q : Position) : Position := ⟨(p.x + q.x) % 16, (p.y + q.y) % 16⟩

/-- The function `Position::rotated(rotation, size)`; the `switch` has cases for
the four clockwise values and a `default` that returns the position unchanged. -/
def rotated (p : Position) (r : Rotation) (size : Nat) : Position :=
  if p.isInvalid then invalid
  else match r with
    | .None => p
    | .Clockwise90 => ⟨p.y % 16, (size + 256 - 1 - p.x) % 16⟩
    | .Clockwise180 => ⟨(size + 256 - 1 - p.y) % 16, (size + 256 - 1 - p.x) % 16⟩
    | .Clockwise270 => ⟨(size + 256 - 1 - p.x) % 16, p.y % 16⟩
    | _ => p

/-- The function `Position::addToData`. -/
def toData (p : Position) : Except String (List Char) :=
  if p.isInvalid then .ok ['_', '_']
  else do
    let a ← utility.valueToHexDigit p.x
    let b ← utility.valueToHexDigit p.y
    pure [a, b]

/-- The function `Position::fromData`. -/
def fromData (data : List Char) : Position :=
  match data with
  | [a, b] =>
    if utility.isHexDigit a && utility.isHexDigit b then
      make (utility.hexDigitToValue a) (utility.hexDigitToValue b)
    else invalid
  | _ => invalid

end Position

/-! ## Anchor.hpp, Anchor.cpp, OrbTravelPoint.hpp -/

/-- One of the five connection end points of a field, `Anchor::Value`. -/
inductive Anchor where
  | North
  | East
  | South
  | West
  | Stop
  deriving DecidableEq, Repr, Fintype

namespace Anchor

def value : Anchor → Nat
  | North => 0
  | East => 1
  | South => 2
  | West => 3
  | Stop => 4

def flag (a : Anchor) : Nat := 1 <<< a.value

/-- The lookup table of `Anchor::rotated`. -/
def rotationTable : List Anchor :=
  [North, East, South, West, Stop,
   East, South, West, North, Stop,
   South, West, North, East, Stop,
   West, North, East, South, Stop]

/-- The function `Anchor::rotated(Rotation)`:
`table.at(rotation.wrapToClockwise().value() * count + value)`. -/
def rotated (a : Anchor) (r : Rotation) : Anchor :=
  rotationTable.getD ((r.wrapToClockwise.value * 5 + (a.value : Int)).toNat) North

/-- The function `Anchor::rotated(Orientation)`. -/
def rotatedFor (a : Anchor) (o : Orientation) : Anchor := a.rotated o.toRotation

/-- The function `Anchor::normalized(Orientation)`. -/
def normalized (a : Anchor) (o : Orientation) : Anchor := a.rotated o.toRotation.reversed

/-- The list `Anchor::all()`. -/
def all : List Anchor := [North, East, South, West, Stop]

/-- The cast `static_cast<Anchor::Value>(i)` for `i < 5`. -/
def ofValue (i : Nat) : Anchor := all.getD i North

end Anchor

/-- A single point along the travel path of an orb. -/
structure OrbTravelPoint where
  position : Position
  anchor : Anchor
  deriving DecidableEq, Repr

/-- The function `Anchor::nextPoint`. -/
def Anchor.nextPoint (a : Anchor) (pos : Position) : OrbTravelPoint :=
  match a with
  | .North => ⟨pos.sub (Position.make 0 1), .South⟩
  | .East => ⟨pos.add (Position.make 1 0), .West⟩
  | .South => ⟨pos.add (Position.make 0 1), .North⟩
  | .West => ⟨pos.sub (Position.make 1 0), .East⟩
  | .Stop => ⟨Position.invalid, .Stop⟩

/-! ## Anchors.hpp -/

/-- A set of anchors, stored as a bit mask in one byte. -/
structure Anchors where
  points : Nat
  deriving DecidableEq, Repr

namespace Anchors

/-- The default constructor: no anchor. -/
def none : Anchors := ⟨0⟩

/-- The variadic constructor: the flags of the given anchors, or-ed. -/
def of (l : List Anchor) : Anchors := ⟨l.foldl (fun acc a => acc ||| a.flag) 0⟩

/-- The operator `anchors |= anchor`. -/
def insert (s : Anchors) (a : Anchor) : Anchors := ⟨(s.points ||| a.flag) % 256⟩

def empty (s : Anchors) : Bool := s.points == 0

def contains (s : Anchors) (a : Anchor) : Bool := (s.points &&& a.flag) != 0

/-- The loop of `Anchors::first`, over the remaining indices. -/
def firstFrom (s : Anchors) : List Nat → Anchor
  | [] => Anchor.North
  | i :: rest => if (s.points &&& (1 <<< i)) != 0 then Anchor.ofValue i else firstFrom s rest

/-- The function `Anchors::first`: the lowest anchor of the set, `North` if none. -/
def first (s : Anchors) : Anchor := firstFrom s (List.range 5)

/-- The function `Anchors::toVector`. -/
def toVector (s : Anchors) : List Anchor :=
  ((List.range 5).filter fun i => (s.points &&& (1 <<< i)) != 0).map Anchor.ofValue

/-- The function `Anchors::rotated(Rotation)`: the four side bits are rotated
left by the clockwise quarter-turn count, the centre bit stays. -/
def rotated (s : Anchors) (r : Rotation) : Anchors :=
  let sidePart := s.points &&& 0x0f
  let shiftCount := r.wrapToClockwise.value.toNat &&& 0x03
  let rotatedLower := (((sidePart <<< shiftCount) ||| (sidePart >>> (4 - shiftCount))) &&& 0x0f) % 256
  let centerPart := s.points &&& 0x10
  ⟨(rotatedLower ||| centerPart) % 256⟩

/-- The function `Anchors::rotated(Orientation)`. -/
def rotatedFor (s : Anchors) (o : Orientation) : Anchors := s.rotated o.toRotation

/-- The function `Anchors::normalized(Orientation)`. -/
def normalized (s : Anchors) (o : Orientation) : Anchors := s.rotated o.toRotation.reversed

/-- The function `Anchors::remove`: `_points &= ~flag` on a byte. -/
def remove (s : Anchors) (a : Anchor) : Anchors := ⟨s.points &&& (255 - a.flag)⟩

end Anchors

/-! ## Orientations.hpp -/

/-- A set of orientations, stored as a bit mask. -/
structure Orientations where
  bits : Nat
  deriving DecidableEq, Repr

namespace Orientations

def of (l : List Orientation) : Orientations := ⟨l.foldl (fun acc o => acc ||| o.flag) 0⟩

/-- The operator `orientations |= orientation`. -/
def insert (s : Orientations) (o : Orientation) : Orientations := ⟨(s.bits ||| o.flag) % 256⟩

def empty (s : Orientations) : Bool := s.bits == 0

def contains (s : Orientations) (o : Orientation) : Bool := (s.bits &&& o.flag) != 0

end Orientations

/-! ## StoneElement.hpp -/

/-- The kind of a stone element, `StoneElement::Type`. -/
inductive StoneElementType where
  | Straight
  | Stop
  | Curve
  | Bounce
  deriving DecidableEq, Repr

/-- One track element of a stone, rooted at an orientation. -/
structure StoneElement where
  type : StoneElementType
  orientation : Orientation
  deriving DecidableEq, Repr

namespace StoneElement

/-- The second anchor of the element at orientation north:
the array `{South, Stop, East, North}` indexed by the element type. -/
def target : StoneElementType → Anchor
  | .Straight => Anchor.South
  | .Stop => Anchor.Stop
  | .Curve => Anchor.East
  | .Bounce => Anchor.North

/-- The function `StoneElement::connection`. -/
def connection (e : StoneElement) : Anchor × Anchor :=
  (Anchor.North.rotated e.orientation.toRotation, (target e.type).rotated e.orientation.toRotation)

end StoneElement

/-! ## StoneWiring.hpp -/

/-- The wiring of a stone: one anchor set per anchor, and the orientations that
give distinct connection tables. -/
structure StoneWiring where
  connections : List Anchors
  uniqueOrientations : Orientations
  deriving DecidableEq, Repr

namespace StoneWiring

/-- The value-initialised array `Connections{}`. -/
def noConnections : List Anchors := List.replicate 5 Anchors.none

/-- The element access `connections[anchor.value()]`. -/
def conn (c : List Anchors) (a : Anchor) : Anchors := c.getD a.value Anchors.none

/-- The function `rotatedConnections` on a connection table. -/
def rotatedConnections (c : List Anchors) (r : Rotation) : List Anchors :=
  if r = Rotation.None then c
  else Anchor.all.foldl (fun res cp => res.set (cp.rotated r).value ((conn c cp).rotated r))
    noConnections

/-- The function `StoneWiring::isEqual` on a connection table. -/
def isEqualConn (c : List Anchors) (a b : Orientation) : Bool :=
  rotatedConnections c a.toRotation == rotatedConnections c b.toRotation

/-- The function `updateUniqueOrientations`, as a function of the table. -/
def computeUniqueOrientations (c : List Anchors) : Orientations :=
  let u0 := Orientations.of [Orientation.North]
  let u1 := if !isEqualConn c .North .East then u0.insert .East else u0
  let u2 := if !isEqualConn c .North .South then u1.insert .South else u1
  if !isEqualConn c .North .West && !isEqualConn c .East .West then u2.insert .West else u2

/-- The default constructor: no connections, unique orientation north. -/
def default : StoneWiring := ⟨noConnections, Orientations.of [Orientation.North]⟩

/-- The constructor `StoneWiring{element}`. -/
def ofElement (e : StoneElement) : StoneWiring :=
  let st := e.connection
  let c1 := noConnections.set st.1.value (Anchors.of [st.2])
  let c2 := c1.set st.2.value ((conn c1 st.2).insert st.1)
  ⟨c2, computeUniqueOrientations c2⟩

/-- The operator `wiring | element`. -/
def orElement (w : StoneWiring) (e : StoneElement) : StoneWiring :=
  let st := e.connection
  let c1 := w.connections.set st.1.value ((conn w.connections st.1).insert st.2)
  let c2 := c1.set st.2.value ((conn c1 st.2).insert st.1)
  ⟨c2, computeUniqueOrientations c2⟩

/-- The operator `element | element`: `StoneWiring{rhs} | lhs`. -/
def ofElements (lhs rhs : StoneElement) : StoneWiring := (ofElement rhs).orElement lhs

def hasStop (w : StoneWiring) : Bool := !(conn w.connections Anchor.Stop).empty

def isEqual (w : StoneWiring) (a b : Orientation) : Bool := isEqualConn w.connections a b

end StoneWiring

/-! ## Stone.hpp, Stone.cpp -/

/-- The kind of a stone, `Stone::Type`. -/
inductive Stone where
  | Empty
  | Crossing
  | CrossingWithStop
  | TwoCurves
  | SwitchA
  | SwitchB
  | SwitchC
  | CurveWithBounces
  | SwitchWithStop
  | OneCurveWithStop
  | OneCurve
  deriving DecidableEq, Repr, Fintype

namespace Stone

/-- The numeric value of the enumerator. -/
def type : Stone → Nat
  | Empty => 0
  | Crossing => 1
  | CrossingWithStop => 2
  | TwoCurves => 3
  | SwitchA => 4
  | SwitchB => 5
  | SwitchC => 6
  | CurveWithBounces => 7
  | SwitchWithStop => 8
  | OneCurveWithStop => 9
  | OneCurve => 10

def empty (s : Stone) : Bool := s == Empty

/-- The table `Stone::wiring()`, entry by entry. -/
def thisWiring : Stone → StoneWiring
  | Empty => StoneWiring.default
  | Crossing =>
    StoneWiring.ofElements ⟨.Straight, .North⟩ ⟨.Straight, .East⟩
  | CrossingWithStop =>
    (((StoneWiring.ofElements ⟨.Stop, .North⟩ ⟨.Stop, .East⟩).orElement
      ⟨.Stop, .South⟩).orElement ⟨.Stop, .West⟩)
  | TwoCurves =>
    StoneWiring.ofElements ⟨.Curve, .North⟩ ⟨.Curve, .South⟩
  | SwitchA =>
    (StoneWiring.ofElements ⟨.Straight, .North⟩ ⟨.Curve, .North⟩).orElement ⟨.Curve, .South⟩
  | SwitchB =>
    (StoneWiring.ofElements ⟨.Straight, .North⟩ ⟨.Curve, .North⟩).orElement ⟨.Curve, .West⟩
  | SwitchC =>
    (((StoneWiring.ofElements ⟨.Curve, .North⟩ ⟨.Curve, .East⟩).orElement
      ⟨.Curve, .South⟩).orElement ⟨.Curve, .West⟩)
  | CurveWithBounces =>
    (StoneWiring.ofElements ⟨.Curve, .West⟩ ⟨.Bounce, .East⟩).orElement ⟨.Bounce, .South⟩
  | SwitchWithStop =>
    (StoneWiring.ofElements ⟨.Stop, .North⟩ ⟨.Stop, .East⟩).orElement ⟨.Stop, .South⟩
  | OneCurveWithStop =>
    StoneWiring.ofElements ⟨.Stop, .North⟩ ⟨.Stop, .East⟩
  | OneCurve =>
    StoneWiring.ofElement ⟨.Curve, .North⟩

def hasStop (s : Stone) : Bool := s.thisWiring.hasStop

/-- The function `Stone::connectionsFrom`. -/
def connectionsFrom (s : Stone) (side : Anchor) : Anchors :=
  StoneWiring.conn s.thisWiring.connections side

def uniqueOrientations (s : Stone) : Orientations := s.thisWiring.uniqueOrientations

/-- The function `Stone::isEqual`. -/
def isEqual (s : Stone) (a b : Orientation) : Bool :=
  if a = b then true else s.thisWiring.isEqual a b

/-- The function `Stone::canRotate`. -/
def canRotate (s : Stone) : Bool :=
  !s.uniqueOrientations.empty && s.uniqueOrientations != Orientations.of [Orientation.North]

def allOrientationsAreUnique (s : Stone) : Bool :=
  s.uniqueOrientations ==
    Orientations.of [Orientation.North, Orientation.East, Orientation.South, Orientation.West]

/-- The function `Stone::normalizedOrientation`. -/
def normalizedOrientation (s : Stone) (o : Orientation) : Orientation :=
  if s.empty || !s.canRotate then Orientation.North
  else if !s.allOrientationsAreUnique && (o == Orientation.South || o == Orientation.West) then
    o.add Rotation.Clockwise180
  else o

/-- The array `Stone::allNonEmpty()`. -/
def allNonEmpty : List Stone :=
  [Crossing, CrossingWithStop, TwoCurves, SwitchA, SwitchB, SwitchC,
   CurveWithBounces, SwitchWithStop, OneCurveWithStop, OneCurve]

/-- The short form of `Stone::toString`. -/
def toChar : Stone → Char
  | Empty => '_'
  | Crossing => 'A'
  | CrossingWithStop => 'B'
  | TwoCurves => 'C'
  | SwitchA => 'D'
  | SwitchB => 'E'
  | SwitchC => 'F'
  | CurveWithBounces => 'G'
  | SwitchWithStop => 'H'
  | OneCurveWithStop => 'I'
  | OneCurve => 'J'

/-- The function `Stone::fromData` on a one-character string. -/
def fromData (data : List Char) : Except String Stone :=
  if data.length ≠ 1 then .error "Stone: Invalid data size."
  else match data.headD ' ' with
    | '_' => .ok Empty
    | 'A' => .ok Crossing
    | 'B' => .ok CrossingWithStop
    | 'C' => .ok TwoCurves
    | 'D' => .ok SwitchA
    | 'E' => .ok SwitchB
    | 'F' => .ok SwitchC
    | 'G' => .ok CurveWithBounces
    | 'H' => .ok SwitchWithStop
    | 'I' => .ok OneCurveWithStop
    | 'J' => .ok OneCurve
    | _ => .ok Empty

end Stone

/-! ## Field.hpp -/

/-- One field of the game board: stone (4 bits), orientation (2 bits) and
ko-lock (2 bits). -/
structure Field where
  stone : Stone
  orientation : Orientation
  koLock : Nat
  deriving DecidableEq, Repr

namespace Field

/-- The default constructor `Field{}`. -/
def default : Field := ⟨Stone.Empty, Orientation.North, 0⟩

/-- The constructor `Field(stone, orientation, koLock)`. -/
def make (stone : Stone) (orientation : Orientation) (koLock : Nat) : Field :=
  ⟨stone, stone.normalizedOrientation orientation, min 3 koLock⟩

def setStone (f : Field) (stone : Stone) (orientation : Orientation) : Field :=
  { f with stone := stone, orientation := stone.normalizedOrientation orientation }

def setOrientation (f : Field) (orientation : Orientation) : Field :=
  { f with orientation := f.stone.normalizedOrientation orientation }

def hasKoLock (f : Field) : Bool := f.koLock != 0

/-- The function `setKoLock`: the value is stored in a two-bit field. -/
def setKoLock (f : Field) (koLock : Nat) : Field := { f with koLock := koLock % 4 }

def empty (f : Field) : Bool := f.stone.empty

def hasStop (f : Field) : Bool := f.stone.hasStop

def canRotate (f : Field) : Bool := f.stone.canRotate

def uniqueOrientations (f : Field) : Orientations := f.stone.uniqueOrientations

/-- The function `Field::rotated`. -/
def rotated (f : Field) (r : Rotation) : Field :=
  if f.empty || !f.canRotate then f
  else { f with orientation := f.stone.normalizedOrientation (f.orientation.add r) }

/-- The function `Field::connectionsFrom`. -/
def connectionsFrom (f : Field) (connectionPoint : Anchor) : Anchors :=
  (f.stone.connectionsFrom (connectionPoint.normalized f.orientation)).rotatedFor f.orientation

/-- The function `Field::isValidChange`. -/
def isValidChange (f : Field) (newStone : Stone) (newOrientation : Orientation) : Bool :=
  if f.empty || f.hasKoLock then false
  else if f.stone ≠ newStone then true
  else !f.stone.isEqual f.orientation newOrientation

/-- The function `Field::nextTurn`. -/
def nextTurn (f : Field) : Field :=
  if f.hasKoLock then f.setKoLock (f.koLock - 1) else f

/-- The function `Field::addToData`. -/
def toData (f : Field) : Except String (List Char) :=
  if f.empty then .ok ['_', '_', '_']
  else if f.hasKoLock then do
    let k ← utility.valueToHexDigit f.koLock
    pure ([f.stone.toChar] ++ [f.orientation.toChar] ++ [k])
  else .ok ([f.stone.toChar] ++ [f.orientation.toChar] ++ ['_'])

/-- The function `Field::fromData`. -/
def fromData (data : List Char) : Except String Field :=
  match data with
  | [a, b, c] =>
    if a = '_' then .ok Field.default
    else do
      let stone ← Stone.fromData [a]
      let orientation ← Orientation.fromData [b]
      pure (Field.make stone orientation (utility.hexDigitToValue c))
  | _ => .error "Field: Invalid data size."

end Field

/-! ## Player.hpp, BoardArea.hpp, FrameField.hpp -/

/-- The area of the board a frame field belongs to. -/
inductive BoardArea where
  | Player
  | Frame
  | House
  | Garden
  | Source
  deriving DecidableEq, Repr

/-- A field of the static frame: a field with its area and owning player. -/
structure FrameField where
  field : Field
  area : BoardArea
  player : Nat
  deriving DecidableEq, Repr

namespace FrameField

def default : FrameField := ⟨Field.default, BoardArea.Player, 0⟩

def isStatic (f : FrameField) : Bool :=
  f.area == BoardArea.Frame || f.area == BoardArea.House || f.area == BoardArea.Source

def toField (f : FrameField) : Field := f.field

end FrameField

/-! ## FieldGrid.hpp -/

namespace FieldGrid

/-- The function `FieldGrid<F, N>::field`: bounds checks, then `_fields.at(y * N + x)`. -/
def field {F : Type} (N : Nat) (fields : List F) (position : Position) : Except String F :=
  if position.x ≥ N then .error "FieldGrid: X position out of bounds."
  else if position.y ≥ N then .error "FieldGrid: Y position out of bounds."
  else match fields.get? (position.y * N + position.x) with
    | some f => .ok f
    | none => .error "array::at"

/-- Assignment through the reference returned by the non-const `field`. -/
def setAt {F : Type} (N : Nat) (fields : List F) (position : Position) (f : F) :
    Except String (List F) :=
  if position.x ≥ N then .error "FieldGrid: X position out of bounds."
  else if position.y ≥ N then .error "FieldGrid: Y position out of bounds."
  else if position.y * N + position.x < fields.length then
    .ok (fields.set (position.y * N + position.x) f)
  else .error "array::at"

/-- The function `FieldGrid::rotatedPosition`. -/
def rotatedPosition (N : Nat) (r : Rotation) (position : Position) : Position :=
  position.rotated r N

/-- The source positions of the double loop of `FieldGrid::rotated`: rows `y`, then `x`. -/
def loopPositions (N : Nat) : List Position :=
  (List.range N).flatMap fun y => (List.range N).map fun x => Position.make x y

/-- The function `FieldGrid<Field, N>::rotated`: every field is rotated and
stored at the rotated position of a value-initialised grid. -/
def rotated (N : Nat) (fields : List Field) (r : Rotation) : Except String (List Field) :=
  (loopPositions N).foldlM (fun result sourcePosition => do
      let f ← field N fields sourcePosition
      setAt N result (rotatedPosition N r sourcePosition) (f.rotated r))
    (List.replicate (N * N) Field.default)

end FieldGrid

/-! ## Setup.hpp -/

namespace setup

def boardSize : Nat := 10
def sourceOffset : Nat := 4
def actionPoolSize : Nat := 6
def orbCount : Nat := 9
def orbCountToWin : Nat := 3

/-- The table `resourcePoolStones`. -/
def resourcePoolStones : List (Nat × Stone) :=
  [(20, .Crossing), (20, .TwoCurves), (8, .CrossingWithStop), (8, .SwitchA),
   (8, .SwitchB), (8, .SwitchC), (8, .CurveWithBounces)]

/-- The table `actionPoolStones`. -/
def actionPoolStones : List (Nat × Stone) :=
  [(3, .Crossing), (2, .TwoCurves), (1, .CrossingWithStop)]

end setup

/-! ## BoardFrame.hpp -/

/-- The static frame of the board with the house and source orb positions. -/
structure BoardFrame where
  fields : List FrameField
  houseOrbPositions : List (List Position)
  sourceOrbPositions : List Position
  deriving DecidableEq, Repr

namespace BoardFrame

/-- A change of the frame field at a position, through the reference returned by
`field(position)`; every position used by the constructor is on the board. -/
def update (fields : List FrameField) (position : Position) (g : FrameField → FrameField) :
    List FrameField :=
  let i := position.y * setup.boardSize + position.x
  fields.set i (g (fields.getD i FrameField.default))

/-- The lambda `set` of the constructor: `setFieldRotated`, then `setAreaRotated`. -/
def setRotated (fields : List FrameField) (r : Rotation) (position : Position) (stone : Stone)
    (orientation : Orientation) (area : BoardArea) : List FrameField :=
  let target := FieldGrid.rotatedPosition setup.boardSize r position
  let fields1 := update fields target fun f =>
    { f with field := f.field.setStone stone (orientation.sub r) }
  update fields1 target fun f => { f with area := area }

/-- The sixteen `set(...)` calls of the constructor, in their order. -/
def cornerTable : List (Position × Stone × Orientation × BoardArea) :=
  [(Position.make 0 0, .OneCurveWithStop, .East, .House),
   (Position.make 0 1, .SwitchWithStop, .North, .House),
   (Position.make 0 2, .OneCurve, .North, .House),
   (Position.make 0 3, .Empty, .North, .Frame),
   (Position.make 0 4, .Empty, .North, .Frame),
   (Position.make 1 0, .SwitchWithStop, .East, .House),
   (Position.make 2 0, .OneCurve, .South, .House),
   (Position.make 3 0, .Empty, .North, .Frame),
   (Position.make 4 0, .Empty, .North, .Frame),
   (Position.make 1 1, .Empty, .North, .Garden),
   (Position.make 2 1, .Empty, .North, .Garden),
   (Position.make 3 1, .Empty, .North, .Garden),
   (Position.make 1 2, .Empty, .North, .Garden),
   (Position.make 2 2, .Empty, .North, .Garden),
   (Position.make 1 3, .Empty, .North, .Garden),
   (Position.make setup.sourceOffset setup.sourceOffset, .OneCurveWithStop, .West, .Source)]

/-- The positions of the loop that assigns the player areas: `x`, then `y`, below 5. -/
def quarterPositions : List Position :=
  (List.range (setup.boardSize / 2)).flatMap fun x =>
    (List.range (setup.boardSize / 2)).map fun y => Position.make x y

/-- One round of the constructor loop, for one rotation and the current player. -/
def buildStep (acc : BoardFrame × Nat) (r : Rotation) : BoardFrame × Nat :=
  let frame := acc.1
  let player := acc.2
  let fields1 := cornerTable.foldl
    (fun fs e => setRotated fs r e.1 e.2.1 e.2.2.1 e.2.2.2) frame.fields
  let sources := frame.sourceOrbPositions.set r.value.toNat
    (FieldGrid.rotatedPosition setup.boardSize r
      (Position.make setup.sourceOffset setup.sourceOffset))
  let houses := frame.houseOrbPositions.set player
    [FieldGrid.rotatedPosition setup.boardSize r (Position.make 0 0),
     FieldGrid.rotatedPosition setup.boardSize r (Position.make 1 0),
     FieldGrid.rotatedPosition setup.boardSize r (Position.make 0 1)]
  let fields2 := quarterPositions.foldl
    (fun fs q => update fs (FieldGrid.rotatedPosition setup.boardSize r q)
      fun f => { f with player := player }) fields1
  (⟨fields2, houses, sources⟩, (player + 1) % 4)

/-- The constructor `BoardFrame()`. -/
def build : BoardFrame :=
  (Rotation.allClockwise.foldl buildStep
    (⟨List.replicate (setup.boardSize * setup.boardSize) FrameField.default,
      List.replicate 4 (List.replicate 3 (Position.make 0 0)),
      List.replicate 4 (Position.make 0 0)⟩, 0)).1

/-- The function `BoardFrame::field` (inherited from the grid). -/
def field (frame : BoardFrame) (position : Position) : Except String FrameField :=
  FieldGrid.field setup.boardSize frame.fields position

end BoardFrame

/-! ## Board.hpp -/

/-- The board: the mutable 8×8 interior; the frame is shared by all boards. -/
structure Board where
  state : List Field
  deriving DecidableEq, Repr

namespace Board

/-- The static member `Board::_frame`. -/
def frame : BoardFrame := BoardFrame.build

/-- Side length of the interior grid, `State::sideLength`. -/
def stateSize : Nat := setup.boardSize - 2

/-- The default constructor: an interior of value-initialised fields. -/
def default : Board := ⟨List.replicate (stateSize * stateSize) Field.default⟩

def isStatic (position : Position) : Except String Bool := do
  let f ← frame.field position
  pure f.isStatic

def isSource (position : Position) : Except String Bool := do
  let f ← frame.field position
  pure (f.area == BoardArea.Source)

def isHouse (position : Position) : Except String Bool := do
  let f ← frame.field position
  pure (f.area == BoardArea.House)

def isGarden (position : Position) : Except String Bool := do
  let f ← frame.field position
  pure (f.area == BoardArea.Garden)

def playerForField (position : Position) : Except String Nat := do
  let f ← frame.field position
  pure f.player

/-- The function `Board::stateField`; its own two range tests can never be true,
the access `_state.field(position - Position{1, 1})` does the checking. -/
def stateField (b : Board) (position : Position) : Except String Field :=
  FieldGrid.field stateSize b.state (position.sub (Position.make 1 1))

/-- The function `Board::field`: the frame field if it is static, else the state field. -/
def field (b : Board) (position : Position) : Except String Field := do
  let frameField ← frame.field position
  if frameField.isStatic then pure frameField.toField else b.stateField position

/-- Assignment through the reference returned by the non-const `stateField`. -/
def setStateField (b : Board) (position : Position) (f : Field) : Except String Board := do
  let fields ← FieldGrid.setAt stateSize b.state (position.sub (Position.make 1 1)) f
  pure ⟨fields⟩

/-- The function `Board::setNewOrientation`. -/
def setNewOrientation (b : Board) (position : Position) (newOrientation : Orientation) :
    Except String Board := do
  let st ← isStatic position
  if st then throw "Tried to rotate static field."
  let f ← b.stateField position
  if !f.canRotate then throw "Tried to rotate static field."
  b.setStateField position (f.setOrientation newOrientation)

/-- The function `Board::setField`. -/
def setField (b : Board) (position : Position) (stone : Stone) (orientation : Orientation) :
    Except String Board := do
  let st ← isStatic position
  if st then throw "Tried to change static field."
  let f ← b.stateField position
  b.setStateField position (f.setStone stone orientation)

/-- The function `Board::rotated`: only the interior is rotated. -/
def rotated (b : Board) (r : Rotation) : Except String Board := do
  let fields ← FieldGrid.rotated stateSize b.state r
  pure ⟨fields⟩

/-- The function `Board::rotatedPosition`. -/
def rotatedPosition (r : Rotation) (position : Position) : Position :=
  position.rotated r setup.boardSize

/-- The function `Board::canPlayerPlaceStone`. -/
def canPlayerPlaceStone (b : Board) (position : Position) : Except String Bool := do
  let st ← isStatic position
  if st then return false
  let f ← b.field position
  if !f.empty then return false
  let g ← isGarden position
  if !g then return true
  let pl ← playerForField position
  return pl == 0

/-- The function `Board::canPlayerReplaceStone`. -/
def canPlayerReplaceStone (b : Board) (position : Position) (newStone : Stone)
    (orientation : Orientation) : Except String Bool := do
  let st ← isStatic position
  if st then return false
  let f ← b.stateField position
  return f.isValidChange newStone orientation

/-- The function `Board::canPlayerRotateStone`. -/
def canPlayerRotateStone (b : Board) (position : Position) (newOrientation : Orientation) :
    Except String Bool := do
  let st ← isStatic position
  if st then return false
  let f ← b.stateField position
  return f.isValidChange f.stone newOrientation

/-- The function `generateAllPositions`: the interior, rows first. -/
def generateAllPositions : List Position :=
  (List.range (setup.boardSize - 2)).flatMap fun y =>
    (List.range (setup.boardSize - 2)).map fun x => Position.make (x + 1) (y + 1)

/-- The list `allNonStaticPositions()`; the positions are on the board, so
`isStatic` does not throw on them. -/
def allNonStaticPositions : List Position :=
  generateAllPositions.filter fun p => decide (isStatic p = .ok false)

/-- The function `allPlaceOneActionPositions`; both passes of the source select
the same positions. On the non-static positions `canPlayerPlaceStone` throws only
for a grid that does not have its 64 fields. -/
def allPlaceOneActionPositions (b : Board) : List Position :=
  allNonStaticPositions.filter fun p => decide (b.canPlayerPlaceStone p = .ok true)

/-- The function `allNonStaticPositionsIf`. -/
def allNonStaticPositionsIf (b : Board) (testFn : Field → Bool) : List Position :=
  allNonStaticPositions.filter fun p =>
    match b.stateField p with
    | .ok f => testFn f
    | .error _ => false

/-- The function `generateAllCombinedPositionPairs`: the pairs `(pᵢ, pⱼ)`, `i < j`. -/
def generateAllCombinedPositionPairs : List Position → List (Position × Position)
  | [] => []
  | p :: rest => rest.map (fun q => (p, q)) ++ generateAllCombinedPositionPairs rest

def allPlaceTwoActionPositions (b : Board) : List (Position × Position) :=
  generateAllCombinedPositionPairs b.allPlaceOneActionPositions

def allReplaceOneActionPositions (b : Board) : List Position :=
  b.allNonStaticPositionsIf fun f => !f.empty && !f.hasKoLock

def allReplaceTwoActionPositions (b : Board) : List (Position × Position) :=
  generateAllCombinedPositionPairs b.allReplaceOneActionPositions

def allRotateOneActionPositions (b : Board) : List Position :=
  b.allNonStaticPositionsIf fun f => !f.empty && f.canRotate

def allRotateTwoActionPositions (b : Board) : List (Position × Position) :=
  generateAllCombinedPositionPairs b.allRotateOneActionPositions

/-- The function `Board::houseOrbPositions(player)`: `_houseOrbPositions.at(player)`. -/
def houseOrbPositions (player : Nat) : List Position :=
  frame.houseOrbPositions.getD player []

def sourceOrbPositions : List Position := frame.sourceOrbPositions

/-- The function `Board::nextTurn`: every non-static state field takes its turn. -/
def nextTurn (b : Board) : Except String Board :=
  allNonStaticPositions.foldlM (fun acc pos => do
    let f ← acc.stateField pos
    acc.setStateField pos f.nextTurn) b

/-- The function `Board::addToData`. -/
def toData (b : Board) : Except String (List Char) := do
  let parts ← b.state.mapM Field.toData
  pure parts.flatten

end Board

/-! ## StonePool.hpp, ActionPool.hpp -/

/-- A pool of stones, `StonePool<N>`: an array of `N` stones. -/
structure StonePool where
  stones : List Stone
  deriving DecidableEq, Repr

namespace StonePool

/-- The value-initialised pool of `n` empty slots. -/
def default (n : Nat) : StonePool := ⟨List.replicate n Stone.Empty⟩

/-- The function `hasStone`. -/
def hasStone (p : StonePool) (stone : Stone) : Except String Bool :=
  if stone = Stone.Empty then .error "Tried to check for Empty stone."
  else .ok (decide (stone ∈ p.stones))

/-- The function `hasStones`. -/
def hasStones (p : StonePool) (stoneA stoneB : Stone) : Except String Bool :=
  if stoneA = Stone.Empty ∨ stoneB = Stone.Empty then .error "Tried to check for Empty stone."
  else if stoneA = stoneB then .ok (decide (p.stones.count stoneA ≥ 2))
  else .ok (decide (stoneA ∈ p.stones) && decide (stoneB ∈ p.stones))

/-- The function `empty`: the front slot is empty. -/
def empty (p : StonePool) : Bool := p.stones.headD Stone.Empty == Stone.Empty

/-- The function `full`: the back slot is not empty. -/
def full (p : StonePool) : Bool := p.stones.getLastD Stone.Empty != Stone.Empty

/-- The function `stoneCount`: the index of the first empty slot, `N` if none. -/
def stoneCount (p : StonePool) : Nat :=
  match p.stones.indexOf? Stone.Empty with
  | some i => i % 256
  | Option.none => p.stones.length

def freeSlots (p : StonePool) : Nat := p.stones.length - p.stoneCount

/-- The function `add`: the stone goes in front of the first smaller stone and
the stones from there on move one slot to the back. -/
def add (p : StonePool) (stone : Stone) : Except String StonePool :=
  if p.full then .error "Stone pool is full"
  else if stone = Stone.Empty then .error "Tried to add an empty stone to the pool."
  else if p.empty then .ok ⟨p.stones.set 0 stone⟩
  else match p.stones.findIdx? (fun s => decide (s.type < stone.type)) with
    | Option.none => .error "Unexpected error: could not find an insert position"
    | some i => .ok ⟨p.stones.take i ++ [stone] ++ (p.stones.drop i).dropLast⟩

/-- The function `take`: the first occurrence is removed, the stones behind it
move one slot to the front and the back slot becomes empty. -/
def take (p : StonePool) (stone : Stone) : Except String StonePool :=
  match p.stones.indexOf? stone with
  | Option.none => .error "Stone not found in pool"
  | some i => .ok ⟨p.stones.take i ++ p.stones.drop (i + 1) ++ [Stone.Empty]⟩

/-- The stones in front of the first empty slot. -/
def filled (p : StonePool) : List Stone := p.stones.takeWhile fun s => s != Stone.Empty

/-- The function `uniqueStones`: the distinct stones in front of the first empty slot. -/
def uniqueStones (p : StonePool) : List Stone :=
  if p.empty then []
  else p.filled.foldl (fun result s => if s ∈ result then result else result ++ [s]) []

/-- The pairs of different indices below `n`, in the order of the two nested loops. -/
def indexPairs (n : Nat) : List (Nat × Nat) :=
  (List.range n).flatMap fun i => ((List.range n).filter fun j => i != j).map fun j => (i, j)

/-- The function `uniqueStonePairs`: the distinct pairs of stones at two different
slots in front of the first empty slot. -/
def uniqueStonePairs (p : StonePool) : List (Stone × Stone) :=
  if p.stoneCount < 2 then []
  else (indexPairs p.filled.length).foldl (fun result ij =>
      let v := (p.filled.getD ij.1 Stone.Empty, p.filled.getD ij.2 Stone.Empty)
      if v ∈ result then result else result ++ [v]) []

/-- The quadruples of pairwise different indices below `n`, in loop order. -/
def indexQuads (n : Nat) : List (Nat × Nat × Nat × Nat) :=
  (List.range n).flatMap fun a =>
    ((List.range n).filter fun b => a != b).flatMap fun b =>
      ((List.range n).filter fun c => a != c && b != c).flatMap fun c =>
        ((List.range n).filter fun d => a != d && b != d && c != d).map fun d => (a, b, c, d)

/-- The function `uniqueStoneQuads`. -/
def uniqueStoneQuads (p : StonePool) : List (Stone × Stone × Stone × Stone) :=
  if p.stoneCount < 4 then []
  else (indexQuads p.stoneCount).foldl (fun result q =>
      let v := (p.stones.getD q.1 Stone.Empty, p.stones.getD q.2.1 Stone.Empty,
        p.stones.getD q.2.2.1 Stone.Empty, p.stones.getD q.2.2.2 Stone.Empty)
      if v ∈ result then result else result ++ [v]) []

/-- The function `StonePool::addToData`. -/
def toData (p : StonePool) : List Char := p.stones.map Stone.toChar

end StonePool

/-! ## ActionPools.hpp -/

/-- One action pool per player; index 0 is the active player. -/
structure ActionPools where
  pools : List StonePool
  deriving DecidableEq, Repr

namespace ActionPools

def default : ActionPools := ⟨List.replicate 4 (StonePool.default setup.actionPoolSize)⟩

/-- The operator `pools[player]`. -/
def get (a : ActionPools) (player : Nat) : Except String StonePool :=
  match a.pools.get? player with
  | some p => .ok p
  | Option.none => .error "ActionPools::[] Out of bounds"

/-- Assignment through the reference returned by `pools[player]`. -/
def set (a : ActionPools) (player : Nat) (p : StonePool) : ActionPools :=
  ⟨a.pools.set player p⟩

/-- The function `active`: `_actionPools.front()`. -/
def active (a : ActionPools) : StonePool := a.pools.headD (StonePool.default setup.actionPoolSize)

/-- The function `rotatedLeft(arr, rotations)`. -/
def rotatedLeft {α : Type} (arr : List α) (rotations : Nat) : List α :=
  if rotations = 0 ∨ rotations % arr.length = 0 then arr
  else arr.drop (rotations % arr.length) ++ arr.take (rotations % arr.length)

/-- The function `ActionPools::rotated`: the rotation value is converted to `std::size_t`. -/
def rotated (a : ActionPools) (r : Rotation) : ActionPools :=
  ⟨rotatedLeft a.pools (r.value % (2 ^ 64 : Int)).toNat⟩

def toData (a : ActionPools) : List Char := (a.pools.map StonePool.toData).flatten

end ActionPools

/-! ## ResourcePool.hpp -/

/-- The shared reserve of stones: one byte count per non-empty stone kind. -/
structure ResourcePool where
  stoneCounts : List Nat
  deriving DecidableEq, Repr

namespace ResourcePool

def size : Nat := 10

def default : ResourcePool := ⟨List.replicate size 0⟩

/-- The private function `at(stone)`, here `atStone`: index `type - 1` as `std::size_t`. -/
def atStone (p : ResourcePool) (stone : Stone) : Except String Nat :=
  if stone.type = 0 then .error "ResourcePool::at - out of bounds"
  else match p.stoneCounts.get? (stone.type - 1) with
    | some c => .ok c
    | Option.none => .error "ResourcePool::at - out of bounds"

def count (p : ResourcePool) (stone : Stone) : Except String Nat := p.atStone stone

def hasStone (p : ResourcePool) (stone : Stone) : Except String Bool := do
  let c ← p.count stone
  pure (decide (c > 0))

def empty (p : ResourcePool) : Bool := p.stoneCounts.all fun c => c == 0

/-- The function `add(stone, count)`: `at(stone) += count` on a byte. -/
def add (p : ResourcePool) (stone : Stone) (count : Nat := 1) : Except String ResourcePool := do
  let c ← p.atStone stone
  pure ⟨p.stoneCounts.set (stone.type - 1) ((c + count) % 256)⟩

/-- The function `take(stone, count)`. -/
def take (p : ResourcePool) (stone : Stone) (count : Nat := 1) : Except String ResourcePool := do
  let c ← p.atStone stone
  if count > c then
    throw "ResourcePool::take - Cannot take more stones than available in the pool."
  pure ⟨p.stoneCounts.set (stone.type - 1) (c - count)⟩

/-- The function `allActionOneExtraDraw`. -/
def allActionOneExtraDraw (p : ResourcePool) : List Stone :=
  Stone.allNonEmpty.filter fun s => decide (p.hasStone s = .ok true)

/-- The function `allActionTwoExtraDraws`. -/
def allActionTwoExtraDraws (p : ResourcePool) : List (Stone × Stone) :=
  Stone.allNonEmpty.flatMap fun stoneA =>
    (Stone.allNonEmpty.filter fun stoneB =>
      if stoneA = stoneB then
        match p.count stoneA with
        | .ok c => decide (c ≥ 2)
        | .error _ => false
      else decide (stoneA.type < stoneB.type) && decide (p.hasStone stoneA = .ok true) &&
        decide (p.hasStone stoneB = .ok true)).map fun stoneB => (stoneA, stoneB)

/-- The function `allRegularDraws`. -/
def allRegularDraws (p : ResourcePool) : List Stone :=
  if p.empty then [] else Stone.allNonEmpty.filter fun s => decide (p.hasStone s = .ok true)

/-- The function `addByteAsHexDigits`. -/
def byteAsHexDigits (v : Nat) : Except String (List Char) := do
  let a ← utility.valueToHexDigit (v >>> 4)
  let b ← utility.valueToHexDigit (v &&& 0x0f)
  pure [a, b]

def toData (p : ResourcePool) : Except String (List Char) := do
  let parts ← p.stoneCounts.mapM byteAsHexDigits
  pure parts.flatten

end ResourcePool

/-! ## OrbPosition.hpp, OrbPositions.hpp -/

/-- One orb: its position, its ko-lock countdown and its ko-position. -/
structure OrbPosition where
  position : Position
  koLock : Nat
  koPosition : Position
  deriving DecidableEq, Repr

namespace OrbPosition

def default : OrbPosition := ⟨Position.invalid, 0, Position.invalid⟩

/-- The function `OrbPosition::addToData`. -/
def toData (o : OrbPosition) : Except String (List Char) := do
  let p ← o.position.toData
  if o.koLock = 0 then pure (p ++ ['_', '_', '_'])
  else do
    let k ← utility.valueToHexDigit o.koLock
    let kp ← o.koPosition.toData
    pure (p ++ [k] ++ kp)

/-- The function `OrbPosition::fromData`. -/
def fromData (data : List Char) : Except String OrbPosition :=
  match data with
  | [a, b, c, d, e] =>
    if c = '_' then .ok ⟨Position.fromData [a, b], 0, Position.invalid⟩
    else .ok ⟨Position.fromData [a, b], utility.hexDigitToValue c, Position.fromData [d, e]⟩
  | _ => .error "OrbPosition: Invalid data size."

end OrbPosition

/-- The nine orbs of the game, kept sorted by position. -/
structure OrbPositions where
  positions : List OrbPosition
  deriving DecidableEq, Repr

namespace OrbPositions

def default : OrbPositions := ⟨List.replicate setup.orbCount OrbPosition.default⟩

/-- The function `koPosition(orbPosition)`: of the first orb at that position. -/
def koPosition (o : OrbPositions) (orbPosition : Position) : Position :=
  match o.positions.find? (fun op => op.position == orbPosition) with
  | some op => op.koPosition
  | Option.none => Position.invalid

/-- The function `inGameCount`: the index of the first orb with an invalid position. -/
def inGameCount (o : OrbPositions) : Nat :=
  match o.positions.findIdx? (fun op => op.position.isInvalid) with
  | some i => i % 256
  | Option.none => o.positions.length

def hasSpare (o : OrbPositions) : Bool := decide (o.inGameCount < setup.orbCount)

def isOrbAt (o : OrbPositions) (position : Position) : Bool :=
  o.positions.any fun op => op.position == position

/-- Insertion of one orb in front of the first orb that is not smaller. -/
def insertSorted (a : OrbPosition) : List OrbPosition → List OrbPosition
  | [] => [a]
  | b :: l => if b.position.lt a.position then b :: insertSorted a l else a :: b :: l

/-- The function `sort`: a stable sort by `position <`. -/
def sort (o : OrbPositions) : OrbPositions := ⟨o.positions.foldr insertSorted []⟩

/-- The function `OrbPositions::rotated`. -/
def rotated (o : OrbPositions) (r : Rotation) : OrbPositions :=
  sort ⟨o.positions.map fun op =>
    { op with position := op.position.rotated r setup.boardSize,
              koPosition := op.koPosition.rotated r setup.boardSize }⟩

/-- Replace the first element that satisfies `p` by its image under `g`. -/
def modifyFirst {α : Type} (p : α → Bool) (g : α → α) : List α → List α
  | [] => []
  | a :: l => if p a then g a :: l else a :: modifyFirst p g l

/-- The function `OrbPositions::moveOrb`. -/
def moveOrb (o : OrbPositions) (oldPosition newPosition : Position) : Except String OrbPositions :=
  if newPosition.isInvalid then .error "OrbPositions::moveOrb - new position is invalid."
  else if o.isOrbAt newPosition then .error "OrbPositions::moveOrb - collision with existing orb."
  else if !o.isOrbAt oldPosition then .error "OrbPositions::moveOrb - no orb found at old position."
  else .ok (sort ⟨modifyFirst (fun op => op.position == oldPosition)
    (fun op => { op with koPosition := op.position, koLock := 3, position := newPosition })
    o.positions⟩)

/-- The function `OrbPositions::nextTurn`. -/
def nextTurn (o : OrbPositions) : OrbPositions :=
  ⟨o.positions.map fun op =>
    if op.koLock > 0 then
      if op.koLock - 1 = 0 then { op with koLock := 0, koPosition := Position.invalid }
      else { op with koLock := op.koLock - 1 }
    else op⟩

def toData (o : OrbPositions) : Except String (List Char) := do
  let parts ← o.positions.mapM OrbPosition.toData
  pure parts.flatten

end OrbPositions

/-! ## Action.hpp, OrbMove.hpp, ActionSequence.hpp, GameMove.hpp -/

/-- The kind of an action, `Action::Type`. -/
inductive ActionType where
  | None
  | PlaceStone
  | ReplaceStone
  | RotateStone
  | DrawStone
  deriving DecidableEq, Repr

/-- A single board mutation. -/
structure Action where
  type : ActionType
  actionStone : Stone
  droppedStone : Stone
  orientation : Orientation
  position : Position
  deriving DecidableEq, Repr

namespace Action

/-- The default constructor: no action. -/
def none : Action := ⟨.None, .Empty, .Empty, .North, Position.invalid⟩

def isNone (a : Action) : Bool := a.type == ActionType.None

def createRotate (pos : Position) (newOrientation : Orientation) (droppedStone : Stone) : Action :=
  ⟨.RotateStone, .Empty, droppedStone, newOrientation, pos⟩

def createReplace (pos : Position) (stone : Stone) (orientation : Orientation)
    (droppedStone : Stone) : Action :=
  ⟨.ReplaceStone, stone, droppedStone, orientation, pos⟩

def createPlace (pos : Position) (stone : Stone) (orientation : Orientation) : Action :=
  ⟨.PlaceStone, stone, .Empty, orientation, pos⟩

def createDraw (stone : Stone) : Action :=
  ⟨.DrawStone, stone, .Empty, .North, Position.invalid⟩

end Action

/-- A sequence of at most two actions, `std::array<Action, 2>`. -/
structure ActionSequence where
  sequence : List Action
  deriving DecidableEq, Repr

namespace ActionSequence

/-- The constructor from one action: `{action, {}}`. -/
def one (a : Action) : ActionSequence := ⟨[a, Action.none]⟩

/-- The constructor from an array of two actions. -/
def two (a b : Action) : ActionSequence := ⟨[a, b]⟩

/-- The default constructor: two empty actions. -/
def empty : ActionSequence := ⟨[Action.none, Action.none]⟩

end ActionSequence

/-- An orb movement; `start == stop` means no move. -/
structure OrbMove where
  start : Position
  stop : Position
  deriving DecidableEq, Repr

namespace OrbMove

/-- The default constructor: no move. -/
def noMove : OrbMove := ⟨Position.invalid, Position.invalid⟩

def isNoMove (m : OrbMove) : Bool := m.start == m.stop

end OrbMove

/-- A complete move: the actions, the regular draw and the orb move. -/
structure GameMove where
  actions : ActionSequence
  drawnStone : Stone
  orbMove : OrbMove
  deriving DecidableEq, Repr

/-! ## GameState.hpp -/

/-- The game state: board, action pools, orbs and resource pool. -/
structure GameState where
  board : Board
  actionPools : ActionPools
  orbPositions : OrbPositions
  resourcePool : ResourcePool
  deriving DecidableEq, Repr

namespace GameState

/-- The default constructor. -/
def default : GameState :=
  ⟨Board.default, ActionPools.default, OrbPositions.default, ResourcePool.default⟩

/-- The list `Player::all()`, as player indices. -/
def allPlayers : List Nat := [0, 1, 2, 3]

/-- The function `orbsInHouse`: per player, one increment for every house orb
position that holds an orb. -/
def orbsInHouse (g : GameState) : List Nat :=
  allPlayers.map fun player =>
    ((Board.houseOrbPositions player).filter fun pos => g.orbPositions.isOrbAt pos).length % 256

/-- The function `hasWinner`. -/
def hasWinner (g : GameState) : Bool :=
  g.orbsInHouse.any fun count => decide (count ≥ setup.orbCountToWin)

/-- The function `winningPlayer`. -/
def winningPlayer (g : GameState) : Option Nat :=
  allPlayers.find? fun player => decide (g.orbsInHouse.getD player 0 ≥ setup.orbCountToWin)

/-- The function `nextTurn`. -/
def nextTurn (g : GameState) : Except String GameState := do
  let b ← g.board.nextTurn
  pure { g with board := b, orbPositions := g.orbPositions.nextTurn }

/-- The function `moveStoneToPlayer`. -/
def moveStoneToPlayer (g : GameState) (stone : Stone) (player : Nat) : Except String GameState := do
  let has ← g.resourcePool.hasStone stone
  if !has then throw "Not enough stones in resource pool to move one to the player."
  let pool ← g.actionPools.get player
  if pool.full then
    throw "The action board was full when trying to move a stone from the resource pool."
  let rp ← g.resourcePool.take stone
  let pool1 ← pool.add stone
  pure { g with resourcePool := rp, actionPools := g.actionPools.set player pool1 }

/-- The function `rotated`. -/
def rotated (g : GameState) (r : Rotation) : Except String GameState := do
  let b ← g.board.rotated r
  pure ⟨b, g.actionPools.rotated r, g.orbPositions.rotated r, g.resourcePool⟩

/-- Repeat a fallible step `n` times. -/
def repeatM (n : Nat) (step : GameState → Except String GameState) (g : GameState) :
    Except String GameState :=
  match n with
  | 0 => pure g
  | k + 1 => do
    let g1 ← step g
    repeatM k step g1

/-- The function `createStartingGameState`. -/
def createStartingGameState : Except String GameState := do
  let rp ← setup.resourcePoolStones.foldlM
    (fun (acc : ResourcePool) e => acc.add e.2 e.1) GameState.default.resourcePool
  let g0 : GameState := { GameState.default with resourcePool := rp }
  let g1 ← allPlayers.foldlM (fun (acc : GameState) player =>
    setup.actionPoolStones.foldlM (fun (acc1 : GameState) e =>
      repeatM e.1 (fun s => s.moveStoneToPlayer e.2 player) acc1) acc) g0
  let orbs ← Board.sourceOrbPositions.foldlM
    (fun (acc : OrbPositions) pos => acc.moveOrb Position.invalid pos) g1.orbPositions
  pure { g1 with orbPositions := orbs }

end GameState

/-! ## Action.cpp -/

namespace Action

/-- The function `Action::applyPlaceAction`. -/
def applyPlaceAction (a : Action) (state : GameState) : Except String GameState := do
  let pool := state.actionPools.active
  let has ← pool.hasStone a.actionStone
  if !has then throw "Tried to place a stone that is not in the action pool."
  let can ← state.board.canPlayerPlaceStone a.position
  if !can then throw "Tried to place a stone on a position where a stone is already placed."
  let b ← state.board.setField a.position a.actionStone a.orientation
  let pool1 ← pool.take a.actionStone
  pure { state with board := b, actionPools := state.actionPools.set 0 pool1 }

/-- The function `Action::applyReplaceAction`. -/
def applyReplaceAction (a : Action) (state : GameState) : Except String GameState := do
  let pool := state.actionPools.active
  if pool.stoneCount < 2 then
    throw "Replace action requires at least two stones in the action pool."
  let has ← pool.hasStones a.actionStone a.droppedStone
  if !has then throw "The action or dropped stone are missing in the action pool."
  let can ← state.board.canPlayerReplaceStone a.position a.actionStone a.orientation
  if !can then
    throw "Tried to replace a stone on an invalid position or where it does not change the situation."
  let old ← state.board.field a.position
  let rp1 ← state.resourcePool.add old.stone
  let pool1 ← pool.take a.actionStone
  let b ← state.board.setField a.position a.actionStone a.orientation
  let pool2 ← pool1.take a.droppedStone
  let rp2 ← rp1.add a.droppedStone
  pure { state with board := b, actionPools := state.actionPools.set 0 pool2, resourcePool := rp2 }

/-- The function `Action::applyRotateAction`. -/
def applyRotateAction (a : Action) (state : GameState) : Except String GameState := do
  let pool := state.actionPools.active
  if pool.empty then throw "Rotate action requires at least one stone in the action pool."
  let has ← pool.hasStone a.droppedStone
  if !has then throw "Tried to replace a stone that is not in the action pool."
  if !a.actionStone.empty then throw "Rotation action contains an action stone."
  let can ← state.board.canPlayerRotateStone a.position a.orientation
  if !can then throw "Cannot rotate stone on this position or rotation."
  let b ← state.board.setNewOrientation a.position a.orientation
  let pool1 ← pool.take a.droppedStone
  let rp ← state.resourcePool.add a.droppedStone
  pure { state with board := b, actionPools := state.actionPools.set 0 pool1, resourcePool := rp }

/-- The function `Action::applyDrawAction`. -/
def applyDrawAction (a : Action) (state : GameState) : Except String GameState := do
  let pool := state.actionPools.active
  if pool.full then throw "Draw action requires at least one free slot in the action pool."
  let has ← state.resourcePool.hasStone a.actionStone
  if !has then throw "Tried to draw a stone that is not in the resource pool."
  let rp ← state.resourcePool.take a.actionStone
  let pool1 ← pool.add a.actionStone
  pure { state with actionPools := state.actionPools.set 0 pool1, resourcePool := rp }

/-- The function `Action::applyTo`. -/
def applyTo (a : Action) (state : GameState) : Except String GameState :=
  match a.type with
  | .PlaceStone => a.applyPlaceAction state
  | .ReplaceStone => a.applyReplaceAction state
  | .RotateStone => a.applyRotateAction state
  | .DrawStone => a.applyDrawAction state
  | .None => pure state

end Action

/-- The function `ActionSequence::applyTo`. -/
def ActionSequence.applyTo (s : ActionSequence) (state : GameState) : Except String GameState :=
  s.sequence.foldlM (fun st a => if !a.isNone then a.applyTo st else pure st) state

/-! ## OrbMove.cpp -/

/-- The function `OrbMove::applyTo`. -/
def OrbMove.applyTo (m : OrbMove) (state : GameState) : Except String GameState := do
  if m.isNoMove then throw "Tried to apply no move."
  let oldIsSource ← Board.isSource m.start
  let newIsSource ← Board.isSource m.stop
  let startIsHouse ← Board.isHouse m.start
  if startIsHouse then
    let stopIsHouse ← Board.isHouse m.stop
    if !stopIsHouse then throw "Tried to remove an orb from the house."
  if !oldIsSource && newIsSource then throw "Tried to move an orb back to the source."
  let f ← state.board.field m.stop
  if !f.hasStop then throw "Tried to move the orb to a field with no stop."
  if !state.orbPositions.isOrbAt m.start then
    throw "Tried to move an orb at a location where is no orb."
  if state.orbPositions.isOrbAt m.stop then
    throw "Tried to move the orb to a position where an orb is already placed."
  if state.orbPositions.koPosition m.start = m.stop then
    throw "Tried to move the orb back to its previous position (ko lock)."
  let orbs ← state.orbPositions.moveOrb m.start m.stop
  if oldIsSource && !newIsSource && orbs.hasSpare then
    let orbs1 ← orbs.moveOrb Position.invalid m.start
    pure { state with orbPositions := orbs1 }
  else pure { state with orbPositions := orbs }

/-- The function `GameState::executeMove`. -/
def GameState.executeMove (g : GameState) (move : GameMove) : Except String GameState := do
  let g1 ← g.nextTurn
  let g2 ← move.actions.applyTo g1
  let g3 ← if !move.drawnStone.empty then g2.moveStoneToPlayer move.drawnStone 0 else pure g2
  if !move.orbMove.isNoMove then move.orbMove.applyTo g3 else pure g3

/-! ## OrbTravelSegment.hpp, OrbTravelNode.hpp -/

/-- Travel along a segment on a stone: from the anchor `begin` to the anchor `endA`
(the member `_end`). -/
structure OrbTravelSegment where
  position : Position
  begin : Anchor
  endA : Anchor
  deriving DecidableEq, Repr

/-- A node of the orb travel calculation: the current segment and the exits
that are still to be tried. -/
structure OrbTravelNode where
  travel : OrbTravelSegment
  options : Anchors
  deriving DecidableEq, Repr

namespace OrbTravelNode

/-- The default constructor; the position is value-initialised to `(0, 0)`. -/
def default : OrbTravelNode := ⟨⟨⟨0, 0⟩, Anchor.North, Anchor.North⟩, Anchors.none⟩

def position (n : OrbTravelNode) : Position := n.travel.position

def beginPoint (n : OrbTravelNode) : OrbTravelPoint := ⟨n.travel.position, n.travel.begin⟩

def nextPoint (n : OrbTravelNode) : OrbTravelPoint := n.travel.endA.nextPoint n.travel.position

def reachedStop (n : OrbTravelNode) : Bool := n.travel.endA == Anchor.Stop

def isDeadEnd (n : OrbTravelNode) : Bool := n.travel.position == Position.invalid

def hasOptions (n : OrbTravelNode) : Bool := !n.options.empty

def canTravelForward (n : OrbTravelNode) : Bool := n.options.contains n.travel.endA

/-- The function `selectNextOption`: the changed node and the returned flag. -/
def selectNextOption (n : OrbTravelNode) : OrbTravelNode × Bool :=
  let options := n.options.remove n.travel.endA
  if options.empty then (⟨{ n.travel with endA := Anchor.Stop }, options⟩, false)
  else (⟨{ n.travel with endA := options.first }, options⟩, true)

def removeCurrentOption (n : OrbTravelNode) : OrbTravelNode :=
  { n with options := n.options.remove n.travel.endA }

/-- The function `OrbTravelNode::from`. -/
def «from» (point : OrbTravelPoint) (field : Field) : OrbTravelNode :=
  let connections := field.connectionsFrom point.anchor
  if connections.empty then OrbTravelNode.default
  else ⟨⟨point.position, point.anchor, connections.first⟩, connections⟩

end OrbTravelNode

/-! ## OrbMoveGenerator.hpp

The stack `_stack` is a list whose head is the back of the vector. -/

namespace OrbMoveGenerator

def maximumStackSize : Nat := 1024

/-- The function `canTravel`. -/
def canTravel (startPosition stopPosition : Position) : Except String Bool := do
  let startIsHouse ← Board.isHouse startPosition
  let stopIsHouse ← Board.isHouse stopPosition
  if stopIsHouse then
    let pl ← Board.playerForField stopPosition
    if pl != 0 then return false
  if startIsHouse && !stopIsHouse then return false
  let startIsSource ← Board.isSource startPosition
  if !startIsSource then
    let stopIsSource ← Board.isSource stopPosition
    if stopIsSource then return false
  return true

/-- The function `doesLoop`. -/
def doesLoop (stack : List OrbTravelNode) (next : OrbTravelPoint) : Bool :=
  stack.any fun n => n.beginPoint == next

/-- The function `pushNext`: the new stack and the returned flag. -/
def pushNext (board : Board) (stack : List OrbTravelNode) (next : OrbTravelPoint) :
    Except String (List OrbTravelNode × Bool) := do
  let field ← board.field next.position
  if !field.empty then
    let newNode := OrbTravelNode.from next field
    if !newNode.isDeadEnd then
      if stack.length ≥ maximumStackSize then
        throw "OrbMoveGenerator::pushNext(): stack size exceeded."
      return (newNode :: stack, true)
  return (stack, false)

/-- The loop of `travelBack` after a node has been popped. -/
def afterPop : List OrbTravelNode → List OrbTravelNode
  | [] => []
  | parent :: rest =>
    if parent.selectNextOption.2 then parent.selectNextOption.1 :: rest else afterPop rest

/-- The function `travelBack`. -/
def travelBack (stack : List OrbTravelNode) : List OrbTravelNode :=
  match stack with
  | [] => []
  | _ :: rest => afterPop rest

/-- The function `travelForward` for the node at the back of the stack: the new
stack and the returned flag. -/
def travelForward (board : Board) (node : OrbTravelNode) (rest : List OrbTravelNode) :
    Except String (List OrbTravelNode × Bool) := do
  let selected := if !node.canTravelForward then node.selectNextOption else (node, true)
  if !selected.2 then return (selected.1 :: rest, false)
  let node1 := selected.1
  let next := node1.nextPoint
  if !doesLoop (node1 :: rest) next then
    let can ← canTravel node1.position next.position
    if can then
      let pushed ← pushNext board (node1 :: rest) next
      if pushed.2 then return (pushed.1, true)
  return (node1.removeCurrentOption :: rest, false)

/-- The state of `followAllPaths`: the stack and the stop positions reported so far. -/
structure State where
  stack : List OrbTravelNode
  stops : List Position
  deriving DecidableEq, Repr

/-- One pass through the body of the `while` loop of `followAllPaths`
(the stack is not empty). -/
def loopBody (board : Board) (st : State) : Except String State :=
  match st.stack with
  | [] => pure st
  | node :: rest =>
    if node.reachedStop then
      let node1 := node.removeCurrentOption
      let stops := st.stops ++ [node.position]
      if !node1.hasOptions then pure ⟨travelBack (node1 :: rest), stops⟩
      else pure ⟨node1 :: rest, stops⟩
    else do
      let moved ← travelForward board node rest
      if moved.2 then pure ⟨moved.1, st.stops⟩
      else match moved.1 with
        | [] => pure ⟨[], st.stops⟩
        | node1 :: rest1 =>
          if !node1.hasOptions then pure ⟨travelBack (node1 :: rest1), st.stops⟩
          else pure ⟨node1 :: rest1, st.stops⟩

/-- The `while (not _stack.empty())` loop, for at most `fuel` passes; `none` when
the stack is still not empty after that many passes. -/
def runLoop (board : Board) : Nat → State → Except String (Option (List Position))
  | 0, st => if st.stack.isEmpty then pure (some st.stops) else pure Option.none
  | fuel + 1, st =>
    if st.stack.isEmpty then pure (some st.stops)
    else do
      let st1 ← loopBody board st
      runLoop board fuel st1

/-- The state of `followAllPaths` when it enters its loop. -/
def initialState (board : Board) (startPosition : Position) : Except String State := do
  let pushed ← pushNext board [] ⟨startPosition, Anchor.Stop⟩
  pure ⟨pushed.1, []⟩

/-- The function `followAllPaths`: the stop positions passed to `addPathFn`, in order. -/
def followAllPaths (fuel : Nat) (board : Board) (startPosition : Position) :
    Except String (Option (List Position)) := do
  let st ← initialState board startPosition
  runLoop board fuel st

/-- The body of the loop over the found stop positions in `allMoves`. -/
def addStops (orbs : OrbPositions) (startPosition : Position) (result : List OrbMove)
    (stopPositions : List Position) : List OrbMove :=
  stopPositions.foldl (fun acc stopPosition =>
    if orbs.isOrbAt stopPosition then acc
    else if orbs.koPosition startPosition = stopPosition then acc
    else if (⟨startPosition, stopPosition⟩ : OrbMove) ∈ acc then acc
    else acc ++ [⟨startPosition, stopPosition⟩]) result

/-- The loop of `allMoves` over the orb positions; it ends at the first invalid one. -/
def allMovesLoop (fuel : Nat) (g : GameState) :
    List OrbPosition → List OrbMove → Except String (Option (List OrbMove))
  | [], result => pure (some result)
  | orbPosition :: more, result =>
    let startPosition := orbPosition.position
    if startPosition.isInvalid then pure (some result)
    else do
      let house ← Board.isHouse startPosition
      let skip ← if house then do
          let pl ← Board.playerForField startPosition
          pure (pl != 0)
        else pure false
      if skip then allMovesLoop fuel g more result
      else
        let found ← followAllPaths fuel g.board startPosition
        match found with
        | Option.none => pure Option.none
        | some stopPositions =>
          allMovesLoop fuel g more (addStops g.orbPositions startPosition result stopPositions)

/-- The function `allMoves`; `fuel` bounds the passes of each path search. -/
def allMoves (fuel : Nat) (g : GameState) : Except String (Option (List OrbMove)) :=
  allMovesLoop fuel g g.orbPositions.positions [OrbMove.noMove]

end OrbMoveGenerator

/-- The function `GameState::allOrbMoves`. -/
def GameState.allOrbMoves (fuel : Nat) (g : GameState) : Except String (Option (List OrbMove)) :=
  OrbMoveGenerator.allMoves fuel g

/-! ## ActionGenerator.hpp

The generator is `noexcept`; it calls the board only at the non-static positions
the board enumerates, where these calls do not throw for a grid of 64 fields. A
call that throws contributes no sequence in this model. -/

namespace ActionGenerator

/-- The orientations of `Orientation::all()` that the set contains, in order. -/
def orientationsIn (u : Orientations) : List Orientation :=
  Orientation.all.filter fun o => u.contains o

/-- The function `forAllForPlace` for single positions. -/
def forAllForPlaceOne (positions : List Position) (stones : List Stone) :
    List (Position × Stone × Orientation) :=
  positions.flatMap fun position =>
    stones.flatMap fun stone =>
      (orientationsIn stone.uniqueOrientations).map fun orientation =>
        (position, stone, orientation)

/-- The pairs of orientations of the two nested loops over `Orientation::all()`. -/
def orientationPairs (ua ub : Orientations) : List (Orientation × Orientation) :=
  Orientation.all.flatMap fun a =>
    (Orientation.all.filter fun b => ua.contains a && ub.contains b).map fun b => (a, b)

/-- The function `forAllForPlace` for position pairs. -/
def forAllForPlaceTwo (positionPairs : List (Position × Position))
    (stonePairs : List (Stone × Stone)) :
    List ((Position × Position) × (Stone × Stone) × (Orientation × Orientation)) :=
  positionPairs.flatMap fun positionPair =>
    stonePairs.flatMap fun stonePair =>
      (orientationPairs stonePair.1.uniqueOrientations stonePair.2.uniqueOrientations).map
        fun orientationPair => (positionPair, stonePair, orientationPair)

/-- The function `forAllForRotation` for single positions. -/
def forAllForRotationOne (g : GameState) (positions : List Position) (droppedStones : List Stone) :
    List (Position × Orientation × Stone) :=
  positions.flatMap fun position =>
    if g.orbPositions.isOrbAt position then []
    else match g.board.field position with
      | .error _ => []
      | .ok field =>
        if !field.canRotate then []
        else
          (Orientation.all.filter fun orientation =>
            orientation != field.orientation && field.uniqueOrientations.contains orientation).flatMap
            fun orientation => droppedStones.map fun droppedStone =>
              (position, orientation, droppedStone)

/-- The function `forAllForRotation` for position pairs. -/
def forAllForRotationTwo (g : GameState) (positionPairs : List (Position × Position))
    (droppedStonePairs : List (Stone × Stone)) :
    List ((Position × Position) × (Orientation × Orientation) × (Stone × Stone)) :=
  positionPairs.flatMap fun positionPair =>
    if g.orbPositions.isOrbAt positionPair.1 || g.orbPositions.isOrbAt positionPair.2 then []
    else match g.board.field positionPair.1, g.board.field positionPair.2 with
      | .ok fieldA, .ok fieldB =>
        if !fieldA.canRotate || !fieldB.canRotate then []
        else
          (Orientation.all.flatMap fun a =>
            (Orientation.all.filter fun b =>
              a != fieldA.orientation && fieldA.uniqueOrientations.contains a &&
              b != fieldB.orientation && fieldB.uniqueOrientations.contains b).map
              fun b => (a, b)).flatMap
            fun orientationPair => droppedStonePairs.map fun droppedStonePair =>
              (positionPair, orientationPair, droppedStonePair)
      | _, _ => []

/-- The function `forAllForReplace` for single positions. -/
def forAllForReplaceOne (g : GameState) (positions : List Position)
    (stonePairs : List (Stone × Stone)) : List (Position × (Stone × Stone) × Orientation) :=
  positions.flatMap fun position =>
    if g.orbPositions.isOrbAt position then []
    else stonePairs.flatMap fun stonePair =>
      (orientationsIn stonePair.1.uniqueOrientations).map fun orientation =>
        (position, stonePair, orientation)

/-- The function `forAllForReplace` for position pairs. -/
def forAllForReplaceTwo (g : GameState) (positionPairs : List (Position × Position))
    (stoneQuads : List (Stone × Stone × Stone × Stone)) :
    List ((Position × Position) × (Stone × Stone) × (Stone × Stone) ×
      (Orientation × Orientation)) :=
  positionPairs.flatMap fun positionPair =>
    if g.orbPositions.isOrbAt positionPair.1 || g.orbPositions.isOrbAt positionPair.2 then []
    else stoneQuads.flatMap fun q =>
      (orientationPairs q.1.uniqueOrientations q.2.1.uniqueOrientations).map
        fun orientationPair => (positionPair, (q.1, q.2.1), (q.2.2.1, q.2.2.2), orientationPair)

/-- The function `addActionsPlace`. -/
def addActionsPlace (g : GameState) (stoneCount : Nat) : List ActionSequence :=
  if stoneCount < 1 then []
  else
    (forAllForPlaceOne g.board.allPlaceOneActionPositions g.actionPools.active.uniqueStones).map
      (fun e => ActionSequence.one (Action.createPlace e.1 e.2.1 e.2.2)) ++
    (if stoneCount < 2 then []
     else (forAllForPlaceTwo g.board.allPlaceTwoActionPositions
        g.actionPools.active.uniqueStonePairs).map
      fun e => ActionSequence.two (Action.createPlace e.1.1 e.2.1.1 e.2.2.1)
        (Action.createPlace e.1.2 e.2.1.2 e.2.2.2))

/-- The function `addActionsReplace`. -/
def addActionsReplace (g : GameState) (stoneCount : Nat) : List ActionSequence :=
  if stoneCount < 2 then []
  else
    ((forAllForReplaceOne g g.board.allReplaceOneActionPositions
        g.actionPools.active.uniqueStonePairs).filter
      (fun e => decide (g.board.canPlayerReplaceStone e.1 e.2.1.1 e.2.2 = .ok true))).map
      (fun e => ActionSequence.one (Action.createReplace e.1 e.2.1.1 e.2.2 e.2.1.2)) ++
    (if stoneCount < 4 then []
     else ((forAllForReplaceTwo g g.board.allReplaceTwoActionPositions
        g.actionPools.active.uniqueStoneQuads).filter
      (fun e => decide (g.board.canPlayerReplaceStone e.1.1 e.2.1.1 e.2.2.2.1 = .ok true) &&
        decide (g.board.canPlayerReplaceStone e.1.2 e.2.1.2 e.2.2.2.2 = .ok true))).map
      fun e => ActionSequence.two
        (Action.createReplace e.1.1 e.2.1.1 e.2.2.2.1 e.2.2.1.1)
        (Action.createReplace e.1.2 e.2.1.2 e.2.2.2.2 e.2.2.1.2))

/-- The function `addActionsRotate`. -/
def addActionsRotate (g : GameState) (stoneCount : Nat) : List ActionSequence :=
  if stoneCount < 1 then []
  else
    ((forAllForRotationOne g g.board.allRotateOneActionPositions
        g.actionPools.active.uniqueStones).filter
      (fun e => decide (g.board.canPlayerRotateStone e.1 e.2.1 = .ok true))).map
      (fun e => ActionSequence.one (Action.createRotate e.1 e.2.1 e.2.2)) ++
    (if stoneCount ≥ 2 then
      ((forAllForRotationTwo g g.board.allRotateTwoActionPositions
          g.actionPools.active.uniqueStonePairs).filter
        (fun e => decide (g.board.canPlayerRotateStone e.1.1 e.2.1.1 = .ok true) &&
          decide (g.board.canPlayerRotateStone e.1.2 e.2.1.2 = .ok true))).map
        fun e => ActionSequence.two (Action.createRotate e.1.1 e.2.1.1 e.2.2.1)
          (Action.createRotate e.1.2 e.2.1.2 e.2.2.2)
     else [])

/-- The function `addActionsExtraDraw`. -/
def addActionsExtraDraw (g : GameState) : List ActionSequence :=
  let freeSlots := g.actionPools.active.freeSlots
  (if freeSlots > 1 then
    g.resourcePool.allActionOneExtraDraw.map fun stone =>
      ActionSequence.one (Action.createDraw stone)
   else []) ++
  (if freeSlots > 2 then
    g.resourcePool.allActionTwoExtraDraws.map fun e =>
      ActionSequence.two (Action.createDraw e.1) (Action.createDraw e.2)
   else [])

/-- The function `addAllActions`, collecting the sequences passed to `addFn`. -/
def addAllActions (g : GameState) : List ActionSequence :=
  let stoneCount := g.actionPools.active.stoneCount
  addActionsPlace g stoneCount ++ addActionsReplace g stoneCount ++
    addActionsRotate g stoneCount ++ addActionsExtraDraw g

end ActionGenerator

/-- The function `GameState::allActions`. -/
def GameState.allActions (g : GameState) : List ActionSequence := ActionGenerator.addAllActions g

/-! ## Serialization: `toData` and `fromData` of the game state -/

namespace Serialization

/-- The call `data.substr(pos, len)` on a character list. -/
def substr (data : List Char) (pos len : Nat) : List Char := (data.drop pos).take len

/-- The pieces `data.substr(i * size, size)` for `i` below `count`. -/
def pieces (data : List Char) (size count : Nat) : List (List Char) :=
  (List.range count).map fun i => substr data (i * size) size

/-- The function `utility::hexStringToByte`. -/
def hexStringToByte (data : List Char) : Nat :=
  ((utility.hexDigitToValue (data.getD 0 ' ') <<< 4) ||| utility.hexDigitToValue (data.getD 1 ' '))
    % 256

def fieldDataSize : Nat := 3
def boardDataSize : Nat := fieldDataSize * (Board.stateSize * Board.stateSize)
def actionPoolDataSize : Nat := setup.actionPoolSize * 1
def actionPoolsDataSize : Nat := actionPoolDataSize * 4
def orbPositionDataSize : Nat := 2 + 1 + 2
def orbPositionsDataSize : Nat := orbPositionDataSize * setup.orbCount
def resourcePoolDataSize : Nat := ResourcePool.size * 2

/-- The function `Board::fromData` (through `FieldGrid::fromData`). -/
def boardFromData (data : List Char) : Except String Board :=
  if data.length ≠ boardDataSize then .error "Board: Invalid data size."
  else do
    let fields ← (pieces data fieldDataSize (Board.stateSize * Board.stateSize)).mapM Field.fromData
    pure ⟨fields⟩

/-- The function `StonePool::fromData`. -/
def stonePoolFromData (data : List Char) : Except String StonePool :=
  if data.length ≠ actionPoolDataSize then .error "StonePool: Invalid data size."
  else do
    let stones ← (pieces data 1 setup.actionPoolSize).mapM Stone.fromData
    pure ⟨stones⟩

/-- The function `ActionPools::fromData`. -/
def actionPoolsFromData (data : List Char) : Except String ActionPools :=
  if data.length ≠ actionPoolsDataSize then .error "ActionPools: Invalid data size."
  else do
    let pools ← (pieces data actionPoolDataSize 4).mapM stonePoolFromData
    pure ⟨pools⟩

/-- The function `OrbPositions::fromData`. -/
def orbPositionsFromData (data : List Char) : Except String OrbPositions :=
  if data.length ≠ orbPositionsDataSize then .error "OrbPositions: Invalid data size."
  else do
    let positions ← (pieces data orbPositionDataSize setup.orbCount).mapM OrbPosition.fromData
    pure ⟨positions⟩

/-- The function `ResourcePool::fromData`. -/
def resourcePoolFromData (data : List Char) : Except String ResourcePool :=
  if data.length ≠ resourcePoolDataSize then .error "ResourcePool: Invalid data size."
  else .ok ⟨(pieces data 2 ResourcePool.size).map hexStringToByte⟩

end Serialization

namespace GameState

/-- The function `GameState::dataSize`. -/
def dataSize : Nat :=
  3 + Serialization.boardDataSize + Serialization.actionPoolsDataSize +
    Serialization.orbPositionsDataSize + Serialization.resourcePoolDataSize

/-- The function `GameState::toData`. -/
def toData (g : GameState) : Except String (List Char) := do
  let b ← g.board.toData
  let o ← g.orbPositions.toData
  let r ← g.resourcePool.toData
  pure (['S', '1', ':'] ++ b ++ g.actionPools.toData ++ o ++ r)

/-- The function `GameState::fromData`. -/
def fromData (data : List Char) : Except String GameState :=
  if data.length ≠ dataSize then .error "GameState: Invalid data size."
  else if Serialization.substr data 0 3 ≠ ['S', '1', ':'] then
    .error "GameState: Invalid data prefix."
  else do
    let board ← Serialization.boardFromData
      (Serialization.substr data 3 Serialization.boardDataSize)
    let actionPools ← Serialization.actionPoolsFromData
      (Serialization.substr data (3 + Serialization.boardDataSize)
        Serialization.actionPoolsDataSize)
    let orbPositions ← Serialization.orbPositionsFromData
      (Serialization.substr data
        (3 + Serialization.boardDataSize + Serialization.actionPoolsDataSize)
        Serialization.orbPositionsDataSize)
    let resourcePool ← Serialization.resourcePoolFromData
      (Serialization.substr data
        (3 + Serialization.boardDataSize + Serialization.actionPoolsDataSize +
          Serialization.orbPositionsDataSize)
        Serialization.resourcePoolDataSize)
    pure ⟨board, actionPools, orbPositions, resourcePool⟩

end GameState

/-! ## Sample inputs -/

/-- The starting state after one move of the active player: `Crossing` placed at
`(1, 1)`, no regular draw, no orb move. -/
def stateAfterFirstPlace : Except String GameState := do
  let g ← GameState.createStartingGameState
  g.executeMove
    ⟨ActionSequence.one (Action.createPlace ⟨1, 1⟩ .Crossing .North), .Empty, OrbMove.noMove⟩

/-- The empty board with one `SwitchB` stone, orientation north, at `(1, 1)`. -/
def boardWithSwitchB : Except String Board :=
  Board.default.setField ⟨1, 1⟩ .SwitchB .North

/-- The starting state of a game (the default state if the construction failed,
which it does not). -/
def startingState : GameState :=
  match GameState.createStartingGameState with
  | .ok g => g
  | .error _ => GameState.default

/-- The starting state with three spare orbs put on the house cells `(0, 0)`,
`(1, 0)` and `(0, 1)` by `moveOrb`, as in the unit test `testOrbsInHouse`. -/
def stateWithThreeOrbsHome : GameState :=
  match (do
    let o1 ← startingState.orbPositions.moveOrb Position.invalid ⟨0, 0⟩
    let o2 ← o1.moveOrb Position.invalid ⟨1, 0⟩
    o2.moveOrb Position.invalid ⟨0, 1⟩) with
  | .ok o => { startingState with orbPositions := o }
  | .error _ => startingState

/-! ## Notions used in the statements -/

/-- The positions of the orbs that are in play. -/
def inPlayPositions (g : GameState) : List Position :=
  (g.orbPositions.positions.map OrbPosition.position).filter fun p => !p.isInvalid

/-- A state for the ko-lock scenario: the starting state with `CrossingWithStop`
on `(2, 2)` and `(2, 3)` and a spare orb put on `(2, 2)` by `moveOrb`. -/
def koLockState : GameState :=
  match (do
    let b1 ← startingState.board.setField ⟨2, 2⟩ .CrossingWithStop .North
    let b2 ← b1.setField ⟨2, 3⟩ .CrossingWithStop .North
    let o ← startingState.orbPositions.moveOrb Position.invalid ⟨2, 2⟩
    pure { startingState with board := b2, orbPositions := o }) with
  | .ok g => g
  | .error _ => startingState

/-- The ko-lock scenario after the orb move from `(2, 2)` to `(2, 3)`. -/
def koLockStateMoved : GameState :=
  match (OrbMove.mk ⟨2, 2⟩ ⟨2, 3⟩).applyTo koLockState with
  | .ok g => g
  | .error _ => koLockState

/-- Every orb at position `B` has ko-lock `n` and ko-position `P`. -/
def KoState (o : OrbPositions) (B : Position) (n : Nat) (P : Position) : Prop :=
  ∀ x ∈ o.positions, x.position = B → x.koLock = n ∧ x.koPosition = P

/-- The field `f'` carries the same stone in the same orientation as `f`, and its
ko-lock is not larger. -/
def Field.sameStone (f f' : Field) : Prop :=
  f'.stone = f.stone ∧ f'.orientation = f.orientation ∧ f'.koLock ≤ f.koLock

/-- A position that the engine can hold: the invalid position or a cell of the board. -/
def Position.Valid (p : Position) : Prop := p = Position.invalid ∨ (p.x < 10 ∧ p.y < 10)

instance (p : Position) : Decidable p.Valid := by unfold Position.Valid; infer_instance

/-- A board field in the form the engine keeps: normalised orientation, no ko-lock. -/
def Field.WF (f : Field) : Prop :=
  f.orientation = f.stone.normalizedOrientation f.orientation ∧ f.koLock = 0

instance (f : Field) : Decidable f.WF := by unfold Field.WF; infer_instance

/-- An orb record in the form the engine keeps. -/
def OrbPosition.WF (o : OrbPosition) : Prop :=
  o.position.Valid ∧ o.koPosition.Valid ∧ o.koLock ≤ 3 ∧ (o.koLock = 0 → o.koPosition = Position.invalid)

instance (o : OrbPosition) : Decidable o.WF := by unfold OrbPosition.WF; infer_instance

/-- The result is `ok` and its value satisfies `P`. -/
def okAnd {α : Type} (e : Except String α) (P : α → Prop) : Prop :=
  match e with
  | .ok a => P a
  | .error _ => False

instance {α : Type} (e : Except String α) (P : α → Prop) [DecidablePred P] :
    Decidable (okAnd e P) := by
  unfold okAnd
  cases e <;> infer_instance

/-- The form in which the engine keeps a game state: the arrays have their sizes,
board fields are normalised and carry no ko-lock, orb records are valid and the
resource counts are bytes. -/
def GameState.WF (g : GameState) : Prop :=
  g.board.state.length = 64 ∧ (∀ f ∈ g.board.state, f.WF) ∧
  g.actionPools.pools.length = 4 ∧ (∀ p ∈ g.actionPools.pools, p.stones.length = 6) ∧
  g.orbPositions.positions.length = 9 ∧ (∀ o ∈ g.orbPositions.positions, o.WF) ∧
  g.resourcePool.stoneCounts.length = 10 ∧ (∀ c ∈ g.resourcePool.stoneCounts, c < 256)

instance (g : GameState) : Decidable g.WF := by unfold GameState.WF; infer_instance

/-- The index of the state field of a board position. -/
def Board.stateIndex (p : Position) : Nat :=
  (p.sub (Position.make 1 1)).y * Board.stateSize + (p.sub (Position.make 1 1)).x

/-- The states that can be reached from the starting state with `Board.setField`,
`GameState.executeMove`, `OrbPositions.moveOrb` (onto a cell of the board),
`OrbPositions.nextTurn` and `GameState.rotated`. -/
inductive Reachable : GameState → Prop
  | start (g : GameState) : GameState.createStartingGameState = .ok g → Reachable g
  | setField (g : GameState) (b : Board) (p : Position) (s : Stone) (o : Orientation) :
      Reachable g → g.board.setField p s o = .ok b → Reachable { g with board := b }
  | executeMove (g g' : GameState) (m : GameMove) :
      Reachable g → g.executeMove m = .ok g' → Reachable g'
  | moveOrb (g : GameState) (orbs : OrbPositions) (p q : Position) :
      Reachable g → q.x < 10 → q.y < 10 → g.orbPositions.moveOrb p q = .ok orbs →
      Reachable { g with orbPositions := orbs }
  | nextTurn (g : GameState) :
      Reachable g → Reachable { g with orbPositions := g.orbPositions.nextTurn }
  | rotated (g g' : GameState) (r : Rotation) :
      Reachable g → g.rotated r = .ok g' → Reachable g'

/-- The state of `stateAfterFirstPlace` as a value. -/
def firstPlaceState : GameState :=
  match stateAfterFirstPlace with
  | .ok g => g
  | .error _ => startingState

/-- The state after the first placement, rotated by `Clockwise270`. -/
def serializationSample : GameState :=
  match firstPlaceState.rotated Rotation.Clockwise270 with
  | .ok g => g
  | .error _ => startingState

/-- The number of stones of a kind in the resource pool. -/
def ResourcePool.countOf (r : ResourcePool) (s : Stone) : Nat := r.stoneCounts.getD (s.type - 1) 0

/-- The number of stones of a kind on the 64 interior fields. -/
def Board.countOf (b : Board) (s : Stone) : Nat := b.state.countP fun f => f.stone == s

/-- The number of stones of a kind in the four action pools. -/
def ActionPools.countOf (a : ActionPools) (s : Stone) : Nat :=
  (a.pools.map fun p => p.stones.count s).sum

/-- The number of stones of a kind on the board, in the action pools and in the
resource pool together. -/
def GameState.stoneTotal (g : GameState) (s : Stone) : Nat :=
  g.board.countOf s + g.actionPools.countOf s + g.resourcePool.countOf s

/-- The states that can be reached from the starting state by moves and rotations. -/
inductive ReachableByPlay : GameState → Prop
  | start (g : GameState) : GameState.createStartingGameState = .ok g → ReachableByPlay g
  | executeMove (g g' : GameState) (m : GameMove) :
      ReachableByPlay g → g.executeMove m = .ok g' → ReachableByPlay g'
  | rotated (g g' : GameState) (r : Rotation) :
      ReachableByPlay g → g.rotated r = .ok g' → ReachableByPlay g'

/-- The index of a position in a grid of side length 8. -/
def gridIndex (p : Position) : Nat := p.y * 8 + p.x

/-- A second move of the sample game: the `Crossing` at `(1, 1)` is replaced by
`TwoCurves`, orientation east, a `Crossing` is dropped and `SwitchA` is drawn. -/
def replaceMove : GameMove :=
  ⟨ActionSequence.one (Action.createReplace ⟨1, 1⟩ .TwoCurves .East .Crossing), .SwitchA,
    OrbMove.noMove⟩

/-- The state after the first placement and `replaceMove`. -/
def stateAfterReplace : GameState :=
  match firstPlaceState.executeMove replaceMove with
  | .ok g => g
  | .error _ => startingState

/-- The pool is in canonical form: the stones are in descending order of their kind,
so that the empty slots are at the back. -/
def StonePool.Canonical (p : StonePool) : Prop :=
  p.stones.Pairwise fun a b => b.type ≤ a.type

/-- The sequence applies to the state: its two actions apply one after the other. -/
def ActionSequence.AppliesTo (s : ActionSequence) (g : GameState) : Prop :=
  ∃ a b g1 g', s.sequence = [a, b] ∧ a.applyTo g = .ok g1 ∧ b.applyTo g1 = .ok g' ∧
    s.applyTo g = .ok g'

instance (p : StonePool) : Decidable p.Canonical := by
  unfold StonePool.Canonical; infer_instance

/-- The first sequence of two actions that is generated for the starting state: `TwoCurves`
placed at `(1, 1)` and at `(2, 1)`. -/
def firstTwoPlaces : ActionSequence :=
  ActionSequence.two (Action.createPlace ⟨1, 1⟩ .TwoCurves .North)
    (Action.createPlace ⟨2, 1⟩ .TwoCurves .North)

/-- The operator `rotation + rotation`: the sum of the values, wrapped. -/
def Rotation.add (r s : Rotation) : Rotation := Rotation.wrapValueToRotation (r.value + s.value)

/-- The orientations in front of `o` in the order north, east, south, west. -/
def Orientation.preceding (o : Orientation) : List Orientation :=
  Orientation.all.filter fun p => decide (p.value < o.value)

/-- The orientations of a set, in the order north, east, south, west. -/
def Orientations.members (u : Orientations) : List Orientation :=
  Orientation.all.filter u.contains

/-- The position is a cell of the board. -/
def Position.OnBoard (p : Position) : Prop := p.x < setup.boardSize ∧ p.y < setup.boardSize

instance (p : Position) : Decidable p.OnBoard := by unfold Position.OnBoard; infer_instance

/-- The frame fields at `p` and at `p` rotated by `Clockwise90` have the same stone kind
and area, and the second belongs to the next player. -/
def frameKindsAgree (p : Position) : Except String Bool := do
  let a ← Board.frame.field p
  let b ← Board.frame.field (p.rotated Rotation.Clockwise90 setup.boardSize)
  pure (b.field.stone == a.field.stone && b.area == a.area && b.player == (a.player + 1) % 4)

/-- The position map `(x, y) ↦ (y, 9 - x)` of `Clockwise90` turns the direction north
into west: the anchors turn by `CounterClockwise90`. The connection `x → y` at `p` and the
turned connection at the rotated position, as a pair of flags. -/
def frameWiringAt (p : Position) (x y : Anchor) : Except String (Bool × Bool) := do
  let a ← Board.frame.field p
  let b ← Board.frame.field (p.rotated Rotation.Clockwise90 setup.boardSize)
  pure ((a.toField.connectionsFrom x).contains y,
    (b.toField.connectionsFrom (x.rotated Rotation.CounterClockwise90)).contains
      (y.rotated Rotation.CounterClockwise90))

/-- The action is no replace or rotate action, or its position holds no orb and is not
static. -/
def Action.TargetOK (g : GameState) (a : Action) : Prop :=
  (a.type = ActionType.ReplaceStone ∨ a.type = ActionType.RotateStone) →
    g.orbPositions.isOrbAt a.position = false ∧ Board.isStatic a.position = .ok false

/-- The orb records are in order: the positions of the orbs in play are strictly
ascending in the row-major order (`y` first, then `x`), hence pairwise distinct, and the
spare records (position `INVALID`) are last. -/
def OrbPositions.Ordered (o : OrbPositions) : Prop :=
  o.positions.Pairwise fun a b => a.position.lt b.position = true ∨ b.position = Position.invalid

instance (o : OrbPositions) : Decidable o.Ordered := by
  unfold OrbPositions.Ordered; infer_instance

/-- Equal positions occur only on spare records. -/
def OrbPositions.distinctRel (a b : OrbPosition) : Prop :=
  a.position = b.position → a.position = Position.invalid

/-- The number of records with a valid position. -/
def OrbPositions.validCount (o : OrbPositions) : Nat :=
  o.positions.countP fun r => !r.position.isInvalid

/-- The state of the unit test `testOneStop`: the starting state with `Crossing` on
`(3, 4)`, `TwoCurves` on `(2, 4)`, `Crossing` on `(2, 3)` and `CrossingWithStop` on
`(2, 2)`, all with orientation north. -/
def oneStopState : GameState :=
  match (do
    let b1 ← startingState.board.setField ⟨3, 4⟩ .Crossing .North
    let b2 ← b1.setField ⟨2, 4⟩ .TwoCurves .North
    let b3 ← b2.setField ⟨2, 3⟩ .Crossing .North
    let b4 ← b3.setField ⟨2, 2⟩ .CrossingWithStop .North
    pure { startingState with board := b4 }) with
  | .ok g => g
  | .error _ => startingState

/-- The state `oneStopState` after the orb move from `(4, 4)` to `(2, 2)`. -/
def oneStopMoved : GameState :=
  match (OrbMove.mk ⟨4, 4⟩ ⟨2, 2⟩).applyTo oneStopState with
  | .ok g => g
  | .error _ => startingState

/-! ### The path search of the orb move generator: notions for the proofs -/

section OrbSearchDefs

open OrbMoveGenerator

/-- The number of anchors of a set. -/
def Anchors.card (s : Anchors) : Nat := (Anchor.all.filter s.contains).length

/-- The position is not a house field of another player than the active player 0. -/
def Position.NotForeignHouse (p : Position) : Prop :=
  Board.isHouse p = .ok true → Board.playerForField p = .ok 0

instance (p : Position) : Decidable p.NotForeignHouse := by
  unfold Position.NotForeignHouse; infer_instance

/-- Every exit of the field, from every entry, leads to a cell of the board. -/
def exitsOnBoard (f : Field) (p : Position) : Bool :=
  Anchor.all.all fun a => Anchor.all.all fun e =>
    e == Anchor.Stop || !(f.connectionsFrom a).contains e ||
      decide (e.nextPoint p).position.OnBoard

/-- The state after `k` passes through the body of the loop of `followAllPaths`. -/
def OrbMoveGenerator.iter (board : Board) : Nat → State → Except String State
  | 0, st => pure st
  | k + 1, st => do
    let st1 ← loopBody board st
    iter board k st1

/-- The exit the node takes next: its current one while that is still an option,
else the first of the remaining options. -/
def OrbMoveGenerator.current (n : OrbTravelNode) : Anchor :=
  if n.options.contains n.travel.endA then n.travel.endA else n.options.first

/-- The begin points of the nodes of a stack. -/
def OrbMoveGenerator.begins (stack : List OrbTravelNode) : List OrbTravelPoint :=
  stack.map OrbTravelNode.beginPoint

/-- The node the loop works on after the selection of the next option. -/
def selected (n : OrbTravelNode) : OrbTravelNode :=
  ⟨{ n.travel with endA := current n }, n.options⟩

/-- The result of a pass in which the selected option is given up. -/
def afterBlocked (n : OrbTravelNode) (rest : List OrbTravelNode) : List OrbTravelNode :=
  if (n.options.remove (current n)).empty then afterPop rest
  else ⟨{ n.travel with endA := current n }, n.options.remove (current n)⟩ :: rest

/-- The value of `canTravel` from the frame fields of the two cells. -/
def canTravelOf (ffp ffq : FrameField) : Bool :=
  !(ffq.area == BoardArea.House && ffq.player != 0) &&
  !(ffp.area == BoardArea.House && !(ffq.area == BoardArea.House)) &&
  !(!(ffp.area == BoardArea.Source) && ffq.area == BoardArea.Source)

/-- All travel points on cells of the board. -/
def allPoints : List OrbTravelPoint :=
  (List.range setup.boardSize).flatMap fun x => (List.range setup.boardSize).flatMap fun y =>
    Anchor.all.map fun a => ⟨⟨x, y⟩, a⟩

/-- A path of the search from the travel point `pt` to a stop on the cell `t`: it
visits no travel point twice and none of the points `V` already on the stack. -/
inductive SearchPath (b : Board) (t : Position) : List OrbTravelPoint → OrbTravelPoint → Prop
  | stop (V : List OrbTravelPoint) (pt : OrbTravelPoint) (f : Field)
      (hf : b.field pt.position = .ok f)
      (hs : (f.connectionsFrom pt.anchor).contains Anchor.Stop = true)
      (ht : pt.position = t) : SearchPath b t V pt
  | step (V : List OrbTravelPoint) (pt : OrbTravelPoint) (f : Field) (c : Anchor)
      (hf : b.field pt.position = .ok f)
      (hc : (f.connectionsFrom pt.anchor).contains c = true)
      (hn : c ≠ Anchor.Stop)
      (hv : c.nextPoint pt.position ∉ pt :: V)
      (hcan : canTravel pt.position (c.nextPoint pt.position).position = .ok true)
      (hp : SearchPath b t (pt :: V) (c.nextPoint pt.position)) : SearchPath b t V pt

/-- The paths that leave the travel point `pt` through the exit `c`. -/
def ViaExit (b : Board) (V : List OrbTravelPoint) (pt : OrbTravelPoint) (c : Anchor)
    (t : Position) : Prop :=
  c.nextPoint pt.position ∉ pt :: V ∧
  canTravel pt.position (c.nextPoint pt.position).position = .ok true ∧
  SearchPath b t (pt :: V) (c.nextPoint pt.position)

/-- The stack below a node at the travel point `pt` that the search may work on. -/
structure StackOK (rest : List OrbTravelNode) (pt : OrbTravelPoint) : Prop where
  nodup : (pt :: begins rest).Nodup
  onBoard : ∀ q ∈ begins rest, q.position.OnBoard
  here : pt.position.OnBoard
  house : pt.position.NotForeignHouse

/-- A new node on a stack with room for `n` more nodes is explored and popped, and
the stops of its paths are reported. -/
def ExploresNew (b : Board) (n : Nat) : Prop :=
  ∀ (rest : List OrbTravelNode) (next : OrbTravelPoint) (f : Field), StackOK rest next →
    b.field next.position = .ok f → f.empty = false → 501 ≤ rest.length + 1 + n →
    ∀ stops, ∃ k R, iter b k ⟨OrbTravelNode.from next f :: rest, stops⟩ =
        .ok ⟨afterPop rest, stops ++ R⟩ ∧
      ∀ t, t ∈ R ↔ SearchPath b t (begins rest) next

/-- The remaining options of a node are explored, and then it is popped. -/
def ExploresOptions (b : Board) (n : Nat) : Prop :=
  ∀ (rest : List OrbTravelNode) (pt : OrbTravelPoint) (f : Field), StackOK rest pt →
    b.field pt.position = .ok f → 501 ≤ rest.length + 1 + n →
    ∀ (m : Nat) (O : Anchors) (e : Anchor), O.points < 32 →
      (∀ x, O.contains x = true → (f.connectionsFrom pt.anchor).contains x = true ∧
        x ≠ Anchor.Stop) →
      e ≠ Anchor.Stop → O.card ≤ m →
      ∀ stops, ∃ k R, iter b k ⟨⟨⟨pt.position, pt.anchor, e⟩, O⟩ :: rest, stops⟩ =
          .ok ⟨afterPop rest, stops ++ R⟩ ∧
        ∀ t, t ∈ R ↔ ∃ c, O.contains c = true ∧ ViaExit b (begins rest) pt c t

/-- The begin point of the node that `OrbTravelNode::from` gives for a dead end. -/
def deadEndPoint : OrbTravelPoint := OrbTravelNode.default.beginPoint

/-- The nodes of the stack begin at different travel points; only a node without
options begins at the point of the dead-end node, and only on top of the stack. -/
structure Distinct (stack : List OrbTravelNode) : Prop where
  nodup : (begins stack).Nodup
  dead : ∀ n ∈ stack, n.beginPoint = deadEndPoint → n.options.empty = true
  below : ∀ n ∈ stack.tail, n.options.empty = false

/-- The nodes below the top: different begin points, all with options. -/
structure DistinctBelow (rest : List OrbTravelNode) : Prop where
  nodup : (begins rest).Nodup
  live : ∀ n ∈ rest, n.options.empty = false ∧ n.beginPoint ≠ deadEndPoint

/-- The cell `t` is reached from `s` by steps that `canTravel` permits. -/
def CanReach (s t : Position) : Prop :=
  Relation.ReflTransGen (fun p q => canTravel p q = .ok true) s t

/-- The cells of the nodes of the stack are reached from `s`; the node on top may
be the node of a dead end. -/
def Reached (s : Position) : List OrbTravelNode → Prop
  | [] => True
  | n :: rest => (n = OrbTravelNode.default ∨ CanReach s n.travel.position) ∧
      ∀ m ∈ rest, CanReach s m.travel.position

/-- A chain of travel points from `pt` to a stop on the cell `t`, as the
specification describes it: every point of the chain lies on a non-empty field,
the chain leaves each field through an anchor of the connections from its entry
anchor into the neighbouring field by a step that `canTravel` allows, and it ends
on a field whose connections from the entry anchor contain `Stop`. -/
inductive TravelChain (b : Board) (t : Position) : OrbTravelPoint → Prop
  | stop (pt : OrbTravelPoint) (f : Field)
      (hf : b.field pt.position = .ok f) (hne : f.empty = false)
      (hs : (f.connectionsFrom pt.anchor).contains Anchor.Stop = true)
      (ht : pt.position = t) : TravelChain b t pt
  | step (pt : OrbTravelPoint) (f : Field) (c : Anchor)
      (hf : b.field pt.position = .ok f) (hne : f.empty = false)
      (hc : (f.connectionsFrom pt.anchor).contains c = true)
      (hcan : canTravel pt.position (c.nextPoint pt.position).position = .ok true)
      (hp : TravelChain b t (c.nextPoint pt.position)) : TravelChain b t pt

/-- A chain of travel points with at most `n` steps. -/
inductive TravelChainN (b : Board) (t : Position) : Nat → OrbTravelPoint → Prop
  | stop (n : Nat) (pt : OrbTravelPoint) (f : Field)
      (hf : b.field pt.position = .ok f)
      (hs : (f.connectionsFrom pt.anchor).contains Anchor.Stop = true)
      (ht : pt.position = t) : TravelChainN b t n pt
  | step (n : Nat) (pt : OrbTravelPoint) (f : Field) (c : Anchor)
      (hf : b.field pt.position = .ok f)
      (hc : (f.connectionsFrom pt.anchor).contains c = true)
      (hcan : canTravel pt.position (c.nextPoint pt.position).position = .ok true)
      (hp : TravelChainN b t n (c.nextPoint pt.position)) : TravelChainN b t (n + 1) pt

/-- The moves that the orb on `s` contributes. -/
def MovesFrom (g : GameState) (s : Position) (m : OrbMove) : Prop :=
  s.isInvalid = false ∧ s.NotForeignHouse ∧
  ∃ t, m = ⟨s, t⟩ ∧ g.orbPositions.isOrbAt t = false ∧ g.orbPositions.koPosition s ≠ t ∧
    TravelChain g.board t ⟨s, Anchor.Stop⟩

/-- In a set of exits the stop stands alone. -/
def Anchors.StopAlone (s : Anchors) : Prop :=
  s.contains Anchor.Stop = true → ∀ x, s.contains x = true → x = Anchor.Stop

/-- The bound on the passes for one option of a node with `d` nodes below it. -/
def weightU (d : Nat) : Nat := 6 ^ (1025 - d)

/-- The passes still to come for the nodes below the top: each has one option in
progress. -/
def weightBelow : List OrbTravelNode → Nat
  | [] => 0
  | n :: r => 1 + (n.options.card - 1) * weightU r.length + weightBelow r

/-- A bound on the passes still to come for a stack. -/
def weight : List OrbTravelNode → Nat
  | [] => 0
  | n :: r => 1 + n.options.card * weightU r.length + weightBelow r

/-- The stacks the loop works on: the options are sets of the five anchors in which a
stop stands alone, each node below the top is at one of its options, and the node on top
is at the exit `Stop` only while that is an option. -/
structure Progress (stack : List OrbTravelNode) : Prop where
  small : ∀ n ∈ stack, n.options.points < 32
  alone : ∀ n ∈ stack, n.options.StopAlone
  below : ∀ n ∈ stack.tail, n.options.contains n.travel.endA = true
  top : ∀ n ∈ stack.head?, n.travel.endA = Anchor.Stop → n.options.contains Anchor.Stop = true

/-- The nodes below the top of a stack of the loop. -/
structure ProgressBelow (rest : List OrbTravelNode) : Prop where
  small : ∀ n ∈ rest, n.options.points < 32
  alone : ∀ n ∈ rest, n.options.StopAlone
  below : ∀ n ∈ rest, n.options.contains n.travel.endA = true

end OrbSearchDefs

/-- The pools that `add` and `take` make from the pool of six empty slots. -/
inductive StonePool.Built : StonePool → Prop
  | empty : StonePool.Built (StonePool.default 6)
  | add (p p' : StonePool) (s : Stone) :
      StonePool.Built p → p.add s = .ok p' → StonePool.Built p'
  | take (p p' : StonePool) (s : Stone) :
      StonePool.Built p → p.take s = .ok p' → StonePool.Built p'

/-- A pool made by three calls of `add` and one call of `take`. -/
def builtSample : StonePool :=
  ⟨[Stone.TwoCurves, Stone.Crossing, Stone.Empty, Stone.Empty, Stone.Empty, Stone.Empty]⟩

/-- A full pool with six different stones. -/
def sixStonesSample : StonePool :=
  ⟨[Stone.SwitchC, Stone.SwitchB, Stone.SwitchA, Stone.TwoCurves, Stone.CrossingWithStop,
    Stone.Crossing]⟩

/-- A canonical pool with a stone held twice. -/
def pairsSample : StonePool :=
  ⟨[Stone.TwoCurves, Stone.TwoCurves, Stone.CrossingWithStop, Stone.Crossing, Stone.Empty,
    Stone.Empty]⟩

/-- The check that a list of numbers is strictly increasing. -/
def increasing : List Nat → Bool
  | [] => true
  | [_] => true
  | a :: b :: l => decide (a < b) && increasing (b :: l)

/-- The function `GameState::rotatedForPlayer`. -/
def GameState.rotatedForPlayer (g : GameState) (player : Nat) : Except String GameState :=
  match player with
  | 1 => g.rotated Rotation.Clockwise270
  | 2 => g.rotated Rotation.Clockwise180
  | 3 => g.rotated Rotation.Clockwise90
  | _ => .ok g

/-- The state after `k` turns of `GameSimulator::run` that change nothing but the
seat: `k` times `rotated(Clockwise90)`. -/
def GameState.rotatedTimes (g : GameState) (k : Nat) : Except String GameState :=
  GameState.repeatM k (fun s => s.rotated Rotation.Clockwise90) g

/-- The composition of the claim: `k` quarter turns, then `rotatedForPlayer(k)`. -/
def GameState.turnedAndBack (g : GameState) (k : Nat) : Except String GameState := do
  let g1 ← g.rotatedTimes k
  g1.rotatedForPlayer k

/-- The values of `GameResult`. -/
inductive GameResult where
  | None
  | Win
  | Draw
  | Loss
  deriving DecidableEq, Repr

/-- The default constructor `GameMove{}`. -/
def GameMove.default : GameMove := ⟨ActionSequence.empty, Stone.Empty, OrbMove.noMove⟩

/-- One entry of the game log, `GameTurn`. -/
structure GameTurn where
  turn : Nat
  activePlayer : Nat
  state : GameState
  gameMove : GameMove
  deriving DecidableEq, Repr

/-- The log of a game: the turns in the order in which they were added. -/
structure GameLog where
  turns : List GameTurn
  deriving DecidableEq, Repr

namespace GameLog

def size (l : GameLog) : Nat := l.turns.length

/-- The function `addTurn(turn, player, gameState, gameMove)`. -/
def addTurn (l : GameLog) (turn player : Nat) (gameState : GameState) (gameMove : GameMove) :
    GameLog :=
  ⟨l.turns ++ [⟨turn, player, gameState, gameMove⟩]⟩

/-- The function `addLastState`. -/
def addLastState (l : GameLog) (turn player : Nat) (gameState : GameState) : GameLog :=
  ⟨l.turns ++ [⟨turn, player, gameState, GameMove.default⟩]⟩

end GameLog

/-- One call of the progress function: the player, the result and the loop count. -/
structure ProgressCall where
  player : Nat
  result : GameResult
  loopCount : Nat
  deriving DecidableEq, Repr

/-- The agents of the four players: `nextMove(state, gameLog)` of each. -/
abbrev PlayerAgents := Nat → GameState → GameLog → Except String GameMove

/-- The members of `GameSimulator` and the locals of `run`; `states` is the set of
the states met before and `progress` the calls of the progress function. -/
structure GameSimulator where
  state : GameState
  currentPlayer : Nat
  gameLog : GameLog
  states : List GameState
  loopCount : Nat
  turnCount : Nat
  progress : List ProgressCall
  deriving DecidableEq, Repr

namespace setup

def loopCountForDraw : Nat := 10

end setup

namespace GameSimulator

/-- A simulator as the constructor leaves it. -/
def fresh : GameSimulator := ⟨GameState.default, 0, ⟨[]⟩, [], 0, 0, []⟩

/-- The call `_states.insert(state)`. -/
def insert (states : List GameState) (state : GameState) : List GameState :=
  if state ∈ states then states else states ++ [state]

/-- One pass of the body of the `while` loop of `run`; the flag is `false` when the
pass ends in a `break`. -/
def pass (agents : PlayerAgents) (s : GameSimulator) : Except String (GameSimulator × Bool) := do
  let nextMove ← agents s.currentPlayer s.state s.gameLog
  let gameLog := s.gameLog.addTurn s.turnCount s.currentPlayer s.state nextMove
  let state ← s.state.executeMove nextMove
  let turnCount := (s.turnCount + 1) % 2 ^ 64
  if state.hasWinner then
    pure ({ s with state := state, gameLog := gameLog, turnCount := turnCount,
                   progress := s.progress ++ [⟨s.currentPlayer, .Win, s.loopCount⟩] }, false)
  else do
    let progress := s.progress ++ [⟨s.currentPlayer, .None, s.loopCount⟩]
    let state ← state.rotated Rotation.Clockwise90
    let currentPlayer := (s.currentPlayer + 1) % 4
    if state ∈ s.states then
      let loopCount := (s.loopCount + 1) % 2 ^ 64
      if loopCount > setup.loopCountForDraw then
        pure (⟨state, currentPlayer, gameLog, s.states, loopCount, turnCount,
          progress ++ [⟨currentPlayer, .Draw, loopCount⟩]⟩, false)
      else
        pure (⟨state, currentPlayer, gameLog, insert s.states state, loopCount, turnCount,
          progress⟩, true)
    else
      pure (⟨state, currentPlayer, gameLog, insert s.states state, s.loopCount, turnCount,
        progress⟩, true)

/-- The `while` loop of `run`: the condition is tested at the head of each pass;
`fuel` bounds the number of passes and `none` stands for a loop that needs more. -/
def loop (agents : PlayerAgents) : Nat → GameSimulator → Except String (Option GameSimulator)
  | 0, _ => .ok none
  | fuel + 1, s =>
    if !s.state.hasWinner && decide (s.loopCount < setup.loopCountForDraw) then do
      let (s1, goOn) ← s.pass agents
      if goOn then loop agents fuel s1 else pure (some s1)
    else pure (some s)

/-- The function `GameSimulator::run`: the returned state and the simulator after
the run. -/
def run (agents : PlayerAgents) (fuel : Nat) (sim : GameSimulator) :
    Except String (Option (GameState × GameSimulator)) := do
  let state ← GameState.createStartingGameState
  let s0 : GameSimulator :=
    { sim with state := state, currentPlayer := 0, loopCount := 0, turnCount := 0 }
  match ← loop agents fuel s0 with
  | none => pure none
  | some s =>
    let gameLog := s.gameLog.addLastState s.turnCount s.currentPlayer s.state
    let result ← s.state.rotatedForPlayer s.currentPlayer
    pure (some (result, { s with gameLog := gameLog }))

end GameSimulator

/-- Four agents that always pass: `nextMove` returns the move without actions. -/
def passingAgents : PlayerAgents := fun _ _ _ => .ok GameMove.default

/-- The number of binary digits of `n`; `fuel` bounds the number of halvings. -/
def bitLenAux : Nat → Nat → Nat
  | 0, _ => 0
  | fuel + 1, n => if n = 0 then 0 else bitLenAux fuel (n / 2) + 1

/-- The number of binary digits of `n`. -/
def bitLen (n : Nat) : Nat := bitLenAux n n

/-- The natural number nearest to `a / d` among those with at most 53 binary
digits followed by zeros; of two nearest ones, the one with the even 53-digit part
(round to nearest, ties to even). -/
def roundSig (a d : Nat) : Nat :=
  let s := bitLen (a / d) - 53
  let D := d <<< s
  let q := a / D
  let r := a % D
  let q1 := if 2 * r > D ∨ (2 * r = D ∧ q % 2 = 1) then q + 1 else q
  q1 <<< s

/-- A value of the type `double` (IEEE 754 binary64): not-a-number, an infinity,
or a finite value, kept as its sign and its magnitude in units of `2^-1074`, the
smallest positive value, of which every finite `double` is a multiple. Zero is kept
without a sign. -/
inductive Double where
  | nan
  | inf (neg : Bool)
  | fin (neg : Bool) (u : Nat)
  deriving DecidableEq, Repr

namespace Double

/-- The binary exponent of the unit: a unit is `2^-1074`. -/
def scaleBits : Nat := 1074

/-- The number of units in the value `1.0`: `2^1074`. -/
def scale : Nat := 1 <<< scaleBits

/-- The bound of the finite magnitudes: `2^1024`, in units. -/
def limit : Nat := 1 <<< (1024 + scaleBits)

/-- The value `0.0`. -/
def zero : Double := .fin false 0

/-- The value `1.0`. -/
def one : Double := .fin false scale

/-- The finite value with a sign and a magnitude. -/
def mk (neg : Bool) (u : Nat) : Double := if u = 0 then .fin false 0 else .fin neg u

/-- The `double` nearest to the quotient `n / d` of two natural numbers, with a
sign: the rounding that every arithmetic operation applies to its exact result.
A result of `2^1024` or more is an infinity. -/
def roundRatio (neg : Bool) (n d : Nat) : Double :=
  let u := roundSig (n * scale) d
  if u ≥ limit then .inf neg else mk neg u

/-- The conversion `static_cast<double>(n)` of an unsigned integer. -/
def ofNat (n : Nat) : Double := roundRatio false n 1

/-- The unary minus. -/
def neg : Double → Double
  | nan => nan
  | inf s => inf (!s)
  | fin s u => mk (!s) u

/-- The comparison `a < b`; it is false when an operand is not a number. -/
def lt : Double → Double → Bool
  | nan, _ => false
  | _, nan => false
  | inf s, inf t => s && !t
  | inf s, fin _ _ => s
  | fin _ _, inf t => !t
  | fin false u, fin false v => decide (u < v)
  | fin false _, fin true _ => false
  | fin true u, fin false v => decide (0 < u ∨ 0 < v)
  | fin true u, fin true v => decide (v < u)

/-- The function `std::max(a, b)`: `(a < b) ? b : a`. -/
def max (a b : Double) : Double := if lt a b then b else a

/-- The function `std::min(a, b)`: `(b < a) ? b : a`. -/
def min (a b : Double) : Double := if lt b a then b else a

/-- The division `a / b`. -/
def div : Double → Double → Double
  | nan, _ => nan
  | _, nan => nan
  | inf _, inf _ => nan
  | inf s, fin t _ => inf (s != t)
  | fin _ _, inf _ => zero
  | fin s u, fin t v =>
    if v = 0 then (if u = 0 then nan else inf (s != t)) else roundRatio (s != t) u v

/-- The product `a * b`. -/
def mul : Double → Double → Double
  | nan, _ => nan
  | _, nan => nan
  | inf s, inf t => inf (s != t)
  | inf s, fin t v => if v = 0 then nan else inf (s != t)
  | fin s u, inf t => if u = 0 then nan else inf (s != t)
  | fin s u, fin t v => roundRatio (s != t) (u * v) (scale * scale)

/-- The sum `a + b`. -/
def add : Double → Double → Double
  | nan, _ => nan
  | _, nan => nan
  | inf s, inf t => if s = t then inf s else nan
  | inf s, fin _ _ => inf s
  | fin _ _, inf t => inf t
  | fin s u, fin t v =>
    if s = t then roundRatio s (u + v) scale
    else if v ≤ u then roundRatio s (u - v) scale
    else roundRatio t (v - u) scale

end Double

/-- The magnitudes of the finite values of type `double`: at most 53 binary digits
followed by zeros. -/
def Representable (u : Nat) : Prop := ∃ m s, m < 2 ^ 53 ∧ u = m * 2 ^ s

/-- The well-formed values: a finite value has a magnitude with at most 53
significant digits below `2^1024`, and zero has no sign. -/
def Double.Valid : Double → Prop
  | .fin s u => Representable u ∧ u < Double.limit ∧ (u = 0 → s = false)
  | _ => True

/-- The rating of one player, `RatingPlayer`. -/
structure RatingPlayer where
  combined : Double
  win : Double
  loss : Double
  deriving DecidableEq, Repr

namespace RatingPlayer

/-- The default constructor. -/
def default : RatingPlayer := ⟨Double.zero, Double.zero, Double.zero⟩

/-- The operator `a + b`. -/
def add (a b : RatingPlayer) : RatingPlayer :=
  ⟨a.combined.add b.combined, a.win.add b.win, a.loss.add b.loss⟩

end RatingPlayer

/-- The class `Rating`: the rating for draws and one rating for each player. -/
structure Rating where
  draws : Double
  ratingsPerPlayer : List RatingPlayer
  deriving DecidableEq, Repr

namespace Rating

/-- The default constructor. -/
def default : Rating := ⟨Double.zero, List.replicate 4 RatingPlayer.default⟩

/-- The operator `a + b`. -/
def add (a b : Rating) : Rating :=
  ⟨a.draws.add b.draws, List.zipWith RatingPlayer.add a.ratingsPerPlayer b.ratingsPerPlayer⟩

/-- The function `adjustDraws`. -/
def adjustDraws (r : Rating) (delta : Double) : Rating := { r with draws := r.draws.add delta }

/-- The function `adjustRating`. -/
def adjustRating (r : Rating) (player : Nat) (delta : RatingPlayer) : Except String Rating :=
  if player ≥ r.ratingsPerPlayer.length then
    .error "Rating::adjustRating: player out of bounds."
  else
    let sum := RatingPlayer.add (r.ratingsPerPlayer.getD player RatingPlayer.default) delta
    .ok { r with ratingsPerPlayer := r.ratingsPerPlayer.set player sum }

end Rating

namespace RatingAdjustment

def ratingBase : Double := Double.one

def deltaForWin : Double := ratingBase

def deltaForLoss : Double := ratingBase.div (Double.ofNat (4 - 1))

def combinedDeltaForWin : Double := ratingBase

/-- The constant `ratingBase / 4 * 0.1`. -/
def combinedDeltaForDraw : Double :=
  (ratingBase.div (Double.ofNat 4)).mul (Double.roundRatio false 1 10)

def combinedDeltaForLoss : Double := ratingBase.neg.div (Double.ofNat (4 - 1))

/-- The literal `0.0001`. -/
def factorFloor : Double := Double.roundRatio false 1 10000

/-- The function `adjustmentFactor`: the difference of the two `std::size_t`
operands is taken modulo `2^64`, both operands of the division are converted to
`double`, and the quotient is limited by `std::max` and `std::min`. -/
def adjustmentFactor (turn totalTurnCount : Nat) : Double :=
  let resultFactor :=
    (Double.ofNat ((turn % 2 ^ 64 + 2 ^ 64 - totalTurnCount % 2 ^ 64) % 2 ^ 64)).div
      (Double.ofNat (turn % 2 ^ 64))
  let resultFactor := Double.max factorFloor resultFactor
  Double.min Double.one resultFactor

/-- One pass of the loop of the constructor, for the row of `Player{i}`; the
second component is `actualPlayer`. -/
def adjustRow (factor : Double) (winningPlayer : Option Nat) (acc : Rating × Nat) (i : Nat) :
    Except String (Rating × Nat) :=
  match winningPlayer with
  | none => do
    let r ← (acc.1.adjustDraws ratingBase).adjustRating i
      ⟨combinedDeltaForDraw.mul factor, Double.zero, Double.zero⟩
    pure (r, (acc.2 + 1) % 4)
  | some w =>
    if acc.2 = w then do
      let r ← acc.1.adjustRating i ⟨combinedDeltaForWin.mul factor, deltaForWin, Double.zero⟩
      pure (r, (acc.2 + 1) % 4)
    else do
      let r ← acc.1.adjustRating i ⟨combinedDeltaForLoss.mul factor, Double.zero, deltaForLoss⟩
      pure (r, (acc.2 + 1) % 4)

/-- The constructor `RatingAdjustment(turn, totalTurnCount, winningPlayer)`. -/
def forTurn (turn : GameTurn) (totalTurnCount : Nat) (winningPlayer : Option Nat) :
    Except String Rating := do
  let factor := adjustmentFactor turn.turn totalTurnCount
  let acc ← [0, 1, 2, 3].foldlM (adjustRow factor winningPlayer) (Rating.default, turn.activePlayer)
  pure acc.1

end RatingAdjustment

/-- The first entry of a game: turn 0 with the starting state and player 0. -/
def firstTurn : GameTurn := ⟨0, 0, startingState, GameMove.default⟩

namespace GameLog

/-- The function `winningPlayer`: the winner of the last state, counted from the
active player of the entry before the last one. -/
def winningPlayer (l : GameLog) : Option Nat :=
  if l.turns.length < 2 then none
  else
    match l.turns.getLast? with
    | none => none
    | some last =>
      match last.state.winningPlayer with
      | none => none
      | some w =>
        match l.turns.get? (l.turns.length - 2) with
        | none => none
        | some t => some ((t.activePlayer + w) % 4)

/-- The function `createRatingAdjustments`: one adjustment for each entry. -/
def createRatingAdjustments (l : GameLog) : Except String (List Rating) :=
  l.turns.mapM fun turn => RatingAdjustment.forTurn turn l.size l.winningPlayer

end GameLog

/-- The class `RatingGame`: a rating and the number of ratings that went into it. -/
structure RatingGame where
  rating : Rating
  ratingCount : Nat
  deriving DecidableEq, Repr

namespace RatingGame

/-- The default constructor. -/
def default : RatingGame := ⟨Rating.default, 0⟩

/-- The function `applyAdjustment`; the count is a `uint64_t`. -/
def applyAdjustment (g : RatingGame) (adjustment : Rating) : RatingGame :=
  ⟨g.rating.add adjustment, (g.ratingCount + 1) % 2 ^ 64⟩

end RatingGame

/-- The member `_gameStates` of `BackendMemory`: the map from the known states to
their ratings, as the list of its entries. -/
structure BackendMemory where
  gameStates : List (GameState × RatingGame)
  deriving DecidableEq, Repr

namespace BackendMemory

/-- The rating stored for a state, if there is one. -/
def find (b : BackendMemory) (state : GameState) : Option RatingGame :=
  (b.gameStates.find? fun e => e.1 == state).map fun e => e.2

/-- The access `_gameStates[state]` with a change of the value found: a state that
is not in the map is entered with the default rating first. -/
def modify (b : BackendMemory) (state : GameState) (f : RatingGame → RatingGame) :
    BackendMemory :=
  if b.gameStates.any (fun e => e.1 == state) then
    ⟨b.gameStates.map fun e => if e.1 == state then (e.1, f e.2) else e⟩
  else ⟨b.gameStates ++ [(state, f RatingGame.default)]⟩

/-- The function `BackendMemory::addGame`. -/
def addGame (b : BackendMemory) (gameLog : GameLog) : Except String BackendMemory :=
  if gameLog.turns.isEmpty then .ok b
  else do
    let adjustments ← gameLog.createRatingAdjustments
    if gameLog.size ≠ adjustments.length then throw "Adjustments do not match game log size."
    pure ((gameLog.turns.zip adjustments).foldl
      (fun acc p => acc.modify p.1.state fun g => g.applyAdjustment p.2) b)

/-- The rating count stored for a state; zero for a state that is not in the map. -/
def ratingCount (b : BackendMemory) (state : GameState) : Nat :=
  match b.find state with
  | some g => g.ratingCount
  | none => 0

/-- The sum of the rating counts of all stored states. -/
def totalCount (b : BackendMemory) : Nat := (b.gameStates.map fun e => e.2.ratingCount).sum

/-- The rating stored for a state; the default rating for a state that is not in
the map. -/
def ratingOf (b : BackendMemory) (state : GameState) : Rating :=
  match b.find state with
  | some g => g.rating
  | none => Rating.default

/-- A map holds every state once. -/
def WF (b : BackendMemory) : Prop := (b.gameStates.map fun e => e.1).Nodup

end BackendMemory

/-- A log of three entries with the starting state in each. -/
def sampleLog : GameLog :=
  ⟨[⟨0, 0, startingState, GameMove.default⟩, ⟨1, 1, startingState, GameMove.default⟩,
    ⟨2, 2, startingState, GameMove.default⟩]⟩

namespace Serialization

def actionDataSize : Nat := 1 + 1 + 1 + 1 + 2

def actionSequenceDataSize : Nat := actionDataSize * 2

def orbMoveDataSize : Nat := 2 * 2

def gameMoveDataSize : Nat := 3 + actionSequenceDataSize + 1 + orbMoveDataSize

/-- An action as `Action::fromData` builds it: the type is the number of the first
character as a hexadecimal digit, kept in a four-bit field, whether or not it is a
value of `Action::Type`. -/
structure ActionData where
  type : Nat
  actionStone : Stone
  droppedStone : Stone
  orientation : Orientation
  position : Position
  deriving DecidableEq, Repr

/-- The function `Action::fromData`. -/
def actionFromData (data : List Char) : Except String ActionData :=
  if data.length ≠ actionDataSize then .error "Action: Invalid data size."
  else do
    let type := utility.hexDigitToValue (data.getD 0 ' ')
    let actionStone ← Stone.fromData (substr data 1 1)
    let orientation ← Orientation.fromData (substr data 2 1)
    let droppedStone ← Stone.fromData (substr data 3 1)
    let position := Position.fromData (data.drop 4)
    pure ⟨type, actionStone, droppedStone, orientation, position⟩

/-- The function `ActionSequence::fromData`. -/
def actionSequenceFromData (data : List Char) : Except String (List ActionData) :=
  if data.length ≠ actionSequenceDataSize then .error "ActionSequence: Invalid data size."
  else (pieces data actionDataSize 2).mapM actionFromData

/-- The function `OrbMove::fromData`. -/
def orbMoveFromData (data : List Char) : Except String OrbMove :=
  if data.length ≠ orbMoveDataSize then .error "OrbMove: Invalid data size."
  else .ok ⟨Position.fromData (substr data 0 2), Position.fromData (substr data 2 2)⟩

/-- A move as `GameMove::fromData` builds it. -/
structure GameMoveData where
  actions : List ActionData
  drawnStone : Stone
  orbMove : OrbMove
  deriving DecidableEq, Repr

/-- The function `GameMove::fromData`. -/
def gameMoveFromData (data : List Char) : Except String GameMoveData :=
  if data.length ≠ gameMoveDataSize then .error "GameMove: Invalid data size."
  else if substr data 0 3 ≠ ['M', '1', ':'] then .error "GameMove: Invalid data prefix."
  else do
    let actions ← actionSequenceFromData (substr data 3 actionSequenceDataSize)
    let drawnStone ← Stone.fromData (substr data (3 + actionSequenceDataSize) 1)
    let orbMove ← orbMoveFromData (substr data (3 + actionSequenceDataSize + 1) orbMoveDataSize)
    pure ⟨actions, drawnStone, orbMove⟩

end Serialization

/-- The operator `==` of `Rotation` (the macro `ALL_COMPARE_OPERATORS(Rotation, _value)`):
the stored values are compared. -/
def Rotation.eq (a b : Rotation) : Bool := decide (a.value = b.value)

/-- The orbs in play, as the loop of `allMoves` sees them: the records in front of the
first record with an invalid position. -/
def inPlayRecords (o : OrbPositions) : List OrbPosition :=
  o.positions.takeWhile fun r => !r.position.isInvalid

/-- The spare records are the default record. -/
def OrbPositions.SparesDefault (o : OrbPositions) : Prop :=
  ∀ r ∈ o.positions, r.position = Position.invalid → r = OrbPosition.default

instance (o : OrbPositions) : Decidable o.SparesDefault := by
  unfold OrbPositions.SparesDefault; infer_instance

/-- The rotation of one orb record in `OrbPositions::rotated`. -/
def OrbPosition.rotated (op : OrbPosition) (r : Rotation) : OrbPosition :=
  { op with position := op.position.rotated r setup.boardSize,
            koPosition := op.koPosition.rotated r setup.boardSize }

/-- The function `GameState::allRegularDraws`. -/
def GameState.allRegularDraws (g : GameState) : List Stone :=
  if g.actionPools.active.full then [] else g.resourcePool.allRegularDraws

/-- The function `GameState::allMoves`: for every action sequence the state after the
actions, and for every regular draw of that state one move for each of its orb moves;
`fuel` bounds the passes of each path search, `none` when that bound was reached. -/
def GameState.allMoves (fuel : Nat) (g : GameState) : Except String (Option (List GameMove)) :=
  g.allActions.foldlM (fun (acc : Option (List GameMove)) actionSeq => do
      let stateAfterAction ← actionSeq.applyTo g
      stateAfterAction.allRegularDraws.foldlM
        (fun (acc : Option (List GameMove)) drawStone => do
          let orbMoves ← stateAfterAction.allOrbMoves fuel
          pure (do
            let moves ← acc
            let orbMoves ← orbMoves
            pure (moves ++ orbMoves.map fun orbMove => ⟨actionSeq, drawStone, orbMove⟩)))
        acc)
    (some [])

/-- The states that can be reached from the starting state by moves taken from
`allMoves` and by rotations by `Clockwise90`, as in a simulated game. -/
inductive ReachableByAllMoves : GameState → Prop
  | start (g : GameState) : GameState.createStartingGameState = .ok g → ReachableByAllMoves g
  | executeMove (g g' : GameState) (fuel : Nat) (moves : List GameMove) (m : GameMove) :
      ReachableByAllMoves g → g.allMoves fuel = .ok (some moves) → m ∈ moves →
      g.executeMove m = .ok g' → ReachableByAllMoves g'
  | rotated (g g' : GameState) :
      ReachableByAllMoves g → g.rotated Rotation.Clockwise90 = .ok g' → ReachableByAllMoves g'

/-- While a spare orb exists every source cell holds an orb. -/
def OrbPositions.SourcesFilled (o : OrbPositions) : Prop :=
  o.hasSpare = true → ∀ p ∈ Board.sourceOrbPositions, o.isOrbAt p = true

instance (o : OrbPositions) : Decidable o.SourcesFilled := by
  unfold OrbPositions.SourcesFilled; infer_instance

/-- The state `stateWithThreeOrbsHome` rotated by `Clockwise90`. -/
def threeOrbsHomeRotated : GameState :=
  match stateWithThreeOrbsHome.rotated Rotation.Clockwise90 with
  | .ok g => g
  | .error _ => stateWithThreeOrbsHome

/-- The orientation that `Field::rotated` gives a field with the stone `s` and the
orientation `o`. -/
def Stone.rotatedOrientation (s : Stone) (o : Orientation) (r : Rotation) : Orientation :=
  if s.empty || !s.canRotate then o else s.normalizedOrientation (o.add r)

/-- A list of updates as the queue holds it (`DbUpdateListPtr`), by a number that
tells the lists apart. -/
abbrev SQLiteBackend.UpdateList := Nat

/-- Where a call of `push` stands. -/
inductive SQLiteBackend.PushPc where
  /-- It holds the mutex and is about to test the condition of the `while` loop. -/
  | atLoop
  /-- It is inside `wait_for`; the mutex is released. -/
  | waiting
  /-- It holds the mutex, has left the loop and is about to test `_stopRequested`. -/
  | atStopTest
  /-- It holds the mutex and is about to call `emplace_back`. -/
  | atEmplace
  /-- It has returned; the flag tells whether the list was appended. -/
  | returned (enqueued : Bool)
  deriving DecidableEq, Repr

/-- Where a call of `popUpdateQueue` stands. -/
inductive SQLiteBackend.PopPc where
  /-- It is inside `wait_for`; the mutex is released. -/
  | waiting
  /-- It holds the mutex and is about to test `_stopRequested or _updateQueue.empty()`. -/
  | atTest
  /-- It has returned, with the list taken from the front or with nothing. -/
  | returned (result : Option UpdateList)
  deriving DecidableEq, Repr

/-- A call of `push` or of `popUpdateQueue` by some thread. -/
inductive SQLiteBackend.Call where
  | push (updateList : UpdateList) (pc : PushPc)
  | pop (pc : PopPc)
  deriving DecidableEq, Repr

/-- The call holds the mutex. -/
def SQLiteBackend.Call.holdsMutex : Call → Bool
  | .push _ .atLoop => true
  | .push _ .atStopTest => true
  | .push _ .atEmplace => true
  | .pop .atTest => true
  | _ => false

/-- The shared variables of the backend and the calls in progress. The lists `pushed`
and `popped` record the lists appended to the queue and taken from it, in order. -/
structure SQLiteBackend.State where
  updateQueue : List UpdateList
  stopRequested : Bool
  maximumUpdateQueueSize : Nat
  mutexOwner : Option Nat
  calls : List Call
  pushed : List UpdateList
  popped : List UpdateList
  deriving DecidableEq, Repr

/-- What can happen next. -/
inductive SQLiteBackend.Event where
  /-- A thread calls `push(updateList)` and gets the mutex. -/
  | callPush (updateList : UpdateList)
  /-- The update thread calls `popUpdateQueue`, gets the mutex and enters `wait_for`. -/
  | callPop
  /-- The call with this index takes its next step; a step out of `wait_for` (by a
  notification, by the timeout or spuriously) gets the mutex back. -/
  | step (call : Nat)
  /-- The function `shutdown` sets `_stopRequested`; it does not hold the mutex. -/
  | requestStop
  deriving DecidableEq, Repr

/-- The backend after its construction, with a queue cap. -/
def SQLiteBackend.initial (maximumUpdateQueueSize : Nat) : State :=
  ⟨[], false, maximumUpdateQueueSize, none, [], [], []⟩

/-- The next step of a call of `push`. -/
def SQLiteBackend.stepPush (s : State) (t : Nat) (updateList : UpdateList) : PushPc → Option State
  | .atLoop =>
    if s.updateQueue.length ≥ s.maximumUpdateQueueSize ∧ s.stopRequested = false then
      some { s with mutexOwner := none, calls := s.calls.set t (.push updateList .waiting) }
    else some { s with calls := s.calls.set t (.push updateList .atStopTest) }
  | .waiting =>
    if s.mutexOwner = none then
      some { s with mutexOwner := some t, calls := s.calls.set t (.push updateList .atLoop) }
    else none
  | .atStopTest =>
    if s.stopRequested then
      some { s with mutexOwner := none,
                    calls := s.calls.set t (.push updateList (.returned false)) }
    else some { s with calls := s.calls.set t (.push updateList .atEmplace) }
  | .atEmplace =>
    some { s with updateQueue := s.updateQueue ++ [updateList],
                  pushed := s.pushed ++ [updateList],
                  mutexOwner := none,
                  calls := s.calls.set t (.push updateList (.returned true)) }
  | .returned _ => none

/-- The next step of a call of `popUpdateQueue`. -/
def SQLiteBackend.stepPop (s : State) (t : Nat) : PopPc → Option State
  | .waiting =>
    if s.mutexOwner = none then
      some { s with mutexOwner := some t, calls := s.calls.set t (.pop .atTest) }
    else none
  | .atTest =>
    if s.stopRequested then
      some { s with mutexOwner := none, calls := s.calls.set t (.pop (.returned none)) }
    else match s.updateQueue with
      | [] => some { s with mutexOwner := none, calls := s.calls.set t (.pop (.returned none)) }
      | front :: rest =>
        some { s with updateQueue := rest, popped := s.popped ++ [front], mutexOwner := none,
                      calls := s.calls.set t (.pop (.returned (some front))) }
  | .returned _ => none

/-- One event; `none` when it cannot happen in the state. -/
def SQLiteBackend.step (s : State) : Event → Option State
  | .callPush updateList =>
    if s.mutexOwner = none then
      some { s with mutexOwner := some s.calls.length,
                    calls := s.calls ++ [.push updateList .atLoop] }
    else none
  | .callPop =>
    if s.mutexOwner = none then some { s with calls := s.calls ++ [.pop .waiting] }
    else none
  | .step t =>
    match s.calls.get? t with
    | some (.push updateList pc) => stepPush s t updateList pc
    | some (.pop pc) => stepPop s t pc
    | none => none
  | .requestStop => some { s with stopRequested := true }

/-- A sequence of events. -/
def SQLiteBackend.run (s : State) : List Event → Option State
  | [] => some s
  | e :: es => (step s e).bind fun s1 => run s1 es

/-- The call of `push` has passed its test of `_stopRequested` with the flag not set: it
is about to append its list or has appended it. -/
def SQLiteBackend.Call.pastStopTest : Call → Bool
  | .push _ .atEmplace => true
  | .push _ (.returned true) => true
  | _ => false

/-- Three calls of `push` with a cap of two lists: the first two append their list, the
third waits, the stop is requested, and the third returns without its list. -/
def SQLiteBackend.blockedPushEvents : List Event :=
  [.callPush 1, .step 0, .step 0, .step 0, .callPush 2, .step 1, .step 1, .step 1,
   .callPush 3, .step 2, .requestStop, .step 2, .step 2, .step 2]

/-- The state after `blockedPushEvents`. -/
def SQLiteBackend.blockedPushState : State :=
  ⟨[1, 2], true, 2, none,
   [.push 1 (.returned true), .push 2 (.returned true), .push 3 (.returned false)], [1, 2], []⟩

/-- What holds in every state of the backend: only the owner of the mutex is at a
step that needs it, the queue is within its cap, a call of `push` that has left its loop
has room in the queue or is going to return, and the queue holds the lists that were
appended and not yet taken, in their order. -/
structure SQLiteBackend.Inv (s : State) : Prop where
  owner : ∀ t c, s.calls.get? t = some c → c.holdsMutex = true → s.mutexOwner = some t
  bound : s.updateQueue.length ≤ s.maximumUpdateQueueSize
  left : ∀ t b, s.calls.get? t = some (.push b .atStopTest) →
    s.updateQueue.length < s.maximumUpdateQueueSize ∨ s.stopRequested = true
  room : ∀ t b, s.calls.get? t = some (.push b .atEmplace) →
    s.updateQueue.length < s.maximumUpdateQueueSize
  fifo : s.popped ++ s.updateQueue = s.pushed

/-- The moves that `allMoves` adds for one action sequence: for every regular draw of the
state after the actions and every orb move of that state, the sequence with the draw and
the orb move; nothing where the model of the sequence or of the orb search gives no
result. -/
def GameState.movesFor (fuel : Nat) (g : GameState) (actionSeq : ActionSequence) :
    List GameMove :=
  match actionSeq.applyTo g with
  | .ok stateAfterAction =>
    match stateAfterAction.allOrbMoves fuel with
    | .ok (some orbMoves) =>
      stateAfterAction.allRegularDraws.flatMap fun drawStone =>
        orbMoves.map fun orbMove => ⟨actionSeq, drawStone, orbMove⟩
    | _ => []
  | .error _ => []

/-- The kind of an action sequence: the type of its first action and whether it has a
second one. -/
def ActionSequence.kind (s : ActionSequence) : ActionType × Bool :=
  ((s.sequence.headD Action.none).type, (s.sequence.getD 1 Action.none).isNone)

/-- A first move of a game: `TwoCurves` placed at `(1, 1)`, a `TwoCurves` drawn, no orb
moved. -/
def firstMove : GameMove :=
  ⟨ActionSequence.one (Action.createPlace ⟨1, 1⟩ .TwoCurves .North), .TwoCurves, OrbMove.noMove⟩

/-- The state after `firstMove`. -/
def stateAfterFirstMove : GameState :=
  match startingState.executeMove firstMove with
  | .ok g => g
  | .error _ => startingState

/-- The stone at `(1, 1)` turned east for a `TwoCurves` of the pool, and a `TwoCurves`
drawn. -/
def rotateDropTwoCurves : GameMove :=
  ⟨ActionSequence.one (Action.createRotate ⟨1, 1⟩ .East .TwoCurves), .TwoCurves, OrbMove.noMove⟩

/-- The stone at `(1, 1)` turned east for a `Crossing` of the pool, and a `Crossing`
drawn. -/
def rotateDropCrossing : GameMove :=
  ⟨ActionSequence.one (Action.createRotate ⟨1, 1⟩ .East .Crossing), .Crossing, OrbMove.noMove⟩

/-! ## Theorems -/

set_option maxRecDepth 100000 in
/-- C5, evaluated on the code: after the first placement of a game, rotating the
state by `Clockwise90` and then by the reversed rotation does not give the state
back, because `Position.rotated` leaves positions unchanged for the
counter-clockwise values. -/
theorem rotated_reversed_not_identity :
    (do
      let g ← stateAfterFirstPlace
      let g1 ← g.rotated Rotation.Clockwise90
      g1.rotated Rotation.Clockwise90.reversed) ≠ stateAfterFirstPlace := by
  decide

set_option maxRecDepth 100000 in
/-- C6, evaluated on the code: for `SwitchB` at `p = (1, 1)` the rotated position is
`p' = (1, 8)`; the east and north neighbours of `p` are rotated to the north and
west neighbours of `p'`; `North` is connected from `East` at `p`, but after
`Board.rotated Clockwise90` `West` is not connected from `North` at `p'`. -/
theorem board_rotated_breaks_wiring :
    Board.rotatedPosition .Clockwise90 ⟨1, 1⟩ = ⟨1, 8⟩ ∧
    (Anchor.North.nextPoint ⟨1, 8⟩).position =
      Board.rotatedPosition .Clockwise90 (Anchor.East.nextPoint ⟨1, 1⟩).position ∧
    (Anchor.West.nextPoint ⟨1, 8⟩).position =
      Board.rotatedPosition .Clockwise90 (Anchor.North.nextPoint ⟨1, 1⟩).position ∧
    (do
      let b ← boardWithSwitchB
      let f ← b.field ⟨1, 1⟩
      pure ((f.connectionsFrom .East).contains .North)) = Except.ok true ∧
    (do
      let b ← boardWithSwitchB
      let b1 ← b.rotated .Clockwise90
      let f ← b1.field ⟨1, 8⟩
      pure ((f.connectionsFrom .North).contains .West)) = Except.ok false := by
  decide

theorem filter_mem_length_comm {α : Type} [DecidableEq α] (l1 l2 : List α)
    (h1 : l1.Nodup) (h2 : l2.Nodup) :
    (l1.filter fun a => decide (a ∈ l2)).length = (l2.filter fun a => decide (a ∈ l1)).length := by
  rw [← List.toFinset_card_of_nodup (h1.filter _), ← List.toFinset_card_of_nodup (h2.filter _)]
  congr 1
  ext a
  simp only [List.mem_toFinset, List.mem_filter, decide_eq_true_eq]
  tauto

theorem isOrbAt_iff (o : OrbPositions) (p : Position) :
    o.isOrbAt p = true ↔ p ∈ o.positions.map OrbPosition.position := by
  simp only [OrbPositions.isOrbAt, List.any_eq_true, List.mem_map, beq_iff_eq]

theorem houseOrbPositions_eq :
    Board.houseOrbPositions 0 = [⟨0, 0⟩, ⟨1, 0⟩, ⟨0, 1⟩] ∧
    Board.houseOrbPositions 1 = [⟨0, 9⟩, ⟨0, 8⟩, ⟨1, 9⟩] ∧
    Board.houseOrbPositions 2 = [⟨9, 9⟩, ⟨9, 8⟩, ⟨8, 9⟩] ∧
    Board.houseOrbPositions 3 = [⟨9, 0⟩, ⟨8, 0⟩, ⟨9, 1⟩] := by
  decide

theorem house_count (g : GameState) (hd : (inPlayPositions g).Nodup) (cells : List Position)
    (hc : cells.Nodup) (hv : ∀ c ∈ cells, c.isInvalid = false) :
    (cells.filter fun pos => g.orbPositions.isOrbAt pos).length =
      (g.orbPositions.positions.filter fun o => decide (o.position ∈ cells)).length := by
  have e1 : (cells.filter fun pos => g.orbPositions.isOrbAt pos) =
      cells.filter fun pos => decide (pos ∈ inPlayPositions g) := by
    apply List.filter_congr
    intro c hcm
    have := hv c hcm
    rw [Bool.eq_iff_iff, isOrbAt_iff]
    simp [inPlayPositions, List.mem_filter, this]
  have e2 : (g.orbPositions.positions.filter fun o => decide (o.position ∈ cells)).length =
      ((inPlayPositions g).filter fun p => decide (p ∈ cells)).length := by
    unfold inPlayPositions
    rw [← List.countP_eq_length_filter, ← List.countP_eq_length_filter, List.countP_filter,
      List.countP_map]
    apply List.countP_congr
    intro o _
    by_cases hp : o.position ∈ cells
    · simp [hp, hv _ hp]
    · simp [hp]
  rw [e1, e2]
  exact filter_mem_length_comm _ _ hc hd

theorem orbsInHouse_eq (g : GameState) :
    g.orbsInHouse = [0, 1, 2, 3].map fun player =>
      ((Board.houseOrbPositions player).filter fun pos => g.orbPositions.isOrbAt pos).length % 256 :=
  rfl

theorem house_cells_facts (p : Nat) (hp : p < 4) :
    (Board.houseOrbPositions p).Nodup ∧ (∀ c ∈ Board.houseOrbPositions p, c.isInvalid = false) ∧
      (Board.houseOrbPositions p).length = 3 := by
  interval_cases p <;> decide

theorem winner_of_counts (c0 c1 c2 c3 : Nat) :
    (([c0, c1, c2, c3].any fun count => decide (count ≥ 3)) = true ↔
        ∃ p, p < 4 ∧ [c0, c1, c2, c3].getD p 0 ≥ 3) ∧
    (([c0, c1, c2, c3].any fun count => decide (count ≥ 3)) = true ↔
        (([0, 1, 2, 3] : List Nat).find? fun player =>
          decide ([c0, c1, c2, c3].getD player 0 ≥ 3)).isSome = true) ∧
    (∀ w, (([0, 1, 2, 3] : List Nat).find? fun player =>
          decide ([c0, c1, c2, c3].getD player 0 ≥ 3)) = some w →
        w < 4 ∧ [c0, c1, c2, c3].getD w 0 ≥ 3 ∧ ∀ q, q < w → [c0, c1, c2, c3].getD q 0 < 3) := by
  refine ⟨?_, ?_, ?_⟩
  · constructor
    · intro h
      simp only [List.any_cons, List.any_nil, Bool.or_false, Bool.or_eq_true, decide_eq_true_eq] at h
      rcases h with h | h | h | h
      · exact ⟨0, by omega, by simpa using h⟩
      · exact ⟨1, by omega, by simpa using h⟩
      · exact ⟨2, by omega, by simpa using h⟩
      · exact ⟨3, by omega, by simpa using h⟩
    · rintro ⟨p, hp, h⟩
      simp only [List.any_cons, List.any_nil, Bool.or_false, Bool.or_eq_true, decide_eq_true_eq]
      interval_cases p <;> simp at h <;> omega
  · by_cases h0 : c0 ≥ 3 <;> by_cases h1 : c1 ≥ 3 <;> by_cases h2 : c2 ≥ 3 <;>
      by_cases h3 : c3 ≥ 3 <;> simp [List.find?, h0, h1, h2, h3]
  · intro w hw
    by_cases h0 : c0 ≥ 3 <;> by_cases h1 : c1 ≥ 3 <;> by_cases h2 : c2 ≥ 3 <;>
      by_cases h3 : c3 ≥ 3 <;> simp [List.find?, h0, h1, h2, h3] at hw <;> subst hw <;>
      refine ⟨by omega, by simpa using (by assumption), ?_⟩ <;> intro q hq <;>
      interval_cases q <;> simp <;> omega

/-- C9: for a state whose in-play orbs stand on pairwise distinct positions, entry
`p` of `orbsInHouse` is the number of orbs on the three house-orb cells of player
`p` (the cells are listed), `hasWinner` holds iff some entry is at least 3 iff
`winningPlayer` is present, and `winningPlayer` is the lowest such player. -/
theorem orbsInHouse_hasWinner_winningPlayer (g : GameState) (hd : (inPlayPositions g).Nodup) :
    (Board.houseOrbPositions 0 = [⟨0, 0⟩, ⟨1, 0⟩, ⟨0, 1⟩] ∧
      Board.houseOrbPositions 1 = [⟨0, 9⟩, ⟨0, 8⟩, ⟨1, 9⟩] ∧
      Board.houseOrbPositions 2 = [⟨9, 9⟩, ⟨9, 8⟩, ⟨8, 9⟩] ∧
      Board.houseOrbPositions 3 = [⟨9, 0⟩, ⟨8, 0⟩, ⟨9, 1⟩]) ∧
    (∀ p, p < 4 → g.orbsInHouse.getD p 0 =
      (g.orbPositions.positions.filter fun o =>
        decide (o.position ∈ Board.houseOrbPositions p)).length) ∧
    (g.hasWinner = true ↔ ∃ p, p < 4 ∧ g.orbsInHouse.getD p 0 ≥ 3) ∧
    (g.hasWinner = true ↔ g.winningPlayer.isSome = true) ∧
    (∀ w, g.winningPlayer = some w →
      w < 4 ∧ g.orbsInHouse.getD w 0 ≥ 3 ∧ ∀ q, q < w → g.orbsInHouse.getD q 0 < 3) := by
  refine ⟨houseOrbPositions_eq, ?_, ?_⟩
  · intro p hp
    obtain ⟨hn, hv, hl⟩ := house_cells_facts p hp
    have hc := house_count g hd (Board.houseOrbPositions p) hn hv
    have hle : ((Board.houseOrbPositions p).filter fun pos => g.orbPositions.isOrbAt pos).length ≤ 3 :=
      hl ▸ List.length_filter_le _ _
    rw [← hc, orbsInHouse_eq]
    interval_cases p <;> simp <;> omega
  · have h := winner_of_counts
      (((Board.houseOrbPositions 0).filter fun pos => g.orbPositions.isOrbAt pos).length % 256)
      (((Board.houseOrbPositions 1).filter fun pos => g.orbPositions.isOrbAt pos).length % 256)
      (((Board.houseOrbPositions 2).filter fun pos => g.orbPositions.isOrbAt pos).length % 256)
      (((Board.houseOrbPositions 3).filter fun pos => g.orbPositions.isOrbAt pos).length % 256)
    exact h

/-- C9 at the state of the unit test: three orbs on the house cells of player 0. -/
theorem orbsInHouse_witness :
    (inPlayPositions stateWithThreeOrbsHome).Nodup ∧
    stateWithThreeOrbsHome.orbsInHouse.getD 0 0 =
      (stateWithThreeOrbsHome.orbPositions.positions.filter fun o =>
        decide (o.position ∈ Board.houseOrbPositions 0)).length ∧
    (stateWithThreeOrbsHome.hasWinner = true ↔
      stateWithThreeOrbsHome.winningPlayer.isSome = true) ∧
    stateWithThreeOrbsHome.winningPlayer = some 0 :=
  ⟨by decide,
   (orbsInHouse_hasWinner_winningPlayer stateWithThreeOrbsHome (by decide)).2.1 0 (by decide),
   (orbsInHouse_hasWinner_winningPlayer stateWithThreeOrbsHome (by decide)).2.2.2.1,
   by decide⟩

theorem foldlM_except_inv {α β ε : Type} (f : β → α → Except ε β) (P : β → Prop) (l : List α)
    (b : β) (hb : P b)
    (hstep : ∀ acc a, a ∈ l → P acc → ∃ acc', f acc a = .ok acc' ∧ P acc') :
    ∃ r, l.foldlM f b = .ok r ∧ P r := by
  induction l generalizing b with
  | nil => exact ⟨b, rfl, hb⟩
  | cons a l ih =>
    obtain ⟨b1, h1, hp1⟩ := hstep b a (List.mem_cons_self _ _) hb
    obtain ⟨r, hr, hpr⟩ := ih b1 hp1 (fun acc x hx => hstep acc x (List.mem_cons_of_mem _ hx))
    refine ⟨r, ?_, hpr⟩
    rw [List.foldlM_cons, h1]
    exact hr

theorem grid_index_lt (N x y : Nat) (hx : x < N) (hy : y < N) : y * N + x < N * N := by
  have : (y + 1) * N ≤ N * N := Nat.mul_le_mul_right N hy
  have h2 : (y + 1) * N = y * N + N := by ring
  omega

theorem FieldGrid.field_eq_ok {F : Type} (N : Nat) (fields : List F) (p : Position)
    (hx : p.x < N) (hy : p.y < N) (hl : fields.length = N * N) :
    ∃ f, FieldGrid.field N fields p = .ok f ∧ fields.get? (p.y * N + p.x) = some f := by
  have hi : p.y * N + p.x < fields.length := hl ▸ grid_index_lt N p.x p.y hx hy
  refine ⟨fields.get ⟨_, hi⟩, ?_, List.get?_eq_get hi⟩
  unfold FieldGrid.field
  rw [if_neg (by omega), if_neg (by omega), List.get?_eq_get hi]

theorem FieldGrid.setAt_eq_ok {F : Type} (N : Nat) (fields : List F) (p : Position) (f : F)
    (hx : p.x < N) (hy : p.y < N) (hl : fields.length = N * N) :
    FieldGrid.setAt N fields p f = .ok (fields.set (p.y * N + p.x) f) := by
  have hi : p.y * N + p.x < fields.length := hl ▸ grid_index_lt N p.x p.y hx hy
  unfold FieldGrid.setAt
  rw [if_neg (by omega), if_neg (by omega), if_pos hi]


set_option maxRecDepth 100000 in
theorem nonStatic_in_state : ∀ p ∈ Board.allNonStaticPositions,
    (p.sub (Position.make 1 1)).x < Board.stateSize ∧ (p.sub (Position.make 1 1)).y < Board.stateSize := by
  decide

theorem Field.nextTurn_sameStone (f : Field) : Field.sameStone f f.nextTurn := by
  unfold Field.nextTurn Field.setKoLock Field.sameStone
  split
  · exact ⟨rfl, rfl, (Nat.mod_le _ _).trans (Nat.sub_le _ _)⟩
  · exact ⟨rfl, rfl, le_refl _⟩

theorem forall₂_set {α : Type} (R : α → α → Prop) (l l' : List α) (h : List.Forall₂ R l l')
    (i : Nat) (a : α) (hi : ∀ x, l.get? i = some x → R x a) :
    List.Forall₂ R l (l'.set i a) := by
  induction h generalizing i with
  | nil => simp
  | cons hab _ ih =>
    cases i with
    | zero => exact List.Forall₂.cons (hi _ rfl) (by assumption)
    | succ i => exact List.Forall₂.cons hab (ih i (fun x hx => hi x (by simpa using hx)))

theorem forall₂_get? {α : Type} (R : α → α → Prop) (l l' : List α) (h : List.Forall₂ R l l')
    (i : Nat) (x y : α) (hx : l.get? i = some x) (hy : l'.get? i = some y) : R x y := by
  induction h generalizing i with
  | nil => simp at hx
  | cons hab _ ih =>
    cases i with
    | zero =>
      simp only [List.get?_cons_zero, Option.some.injEq] at hx hy
      subst hx; subst hy; exact hab
    | succ i => exact ih i (by simpa using hx) (by simpa using hy)

theorem Board.board_nextTurn_ok (b : Board) (hl : b.state.length = 64) :
    ∃ b', b.nextTurn = .ok b' ∧ List.Forall₂ Field.sameStone b.state b'.state := by
  unfold Board.nextTurn
  refine foldlM_except_inv _ (fun (acc : Board) => List.Forall₂ Field.sameStone b.state acc.state) _ _
    (List.forall₂_same.mpr (fun _ _ => ⟨rfl, rfl, le_refl _⟩)) ?_
  intro acc p hp hacc
  obtain ⟨hx, hy⟩ := nonStatic_in_state p hp
  have hlen : acc.state.length = Board.stateSize * Board.stateSize := by
    rw [← hacc.length_eq, hl]; rfl
  obtain ⟨f, hf, hget⟩ := FieldGrid.field_eq_ok Board.stateSize acc.state _ hx hy hlen
  refine ⟨⟨acc.state.set ((p.sub (Position.make 1 1)).y * Board.stateSize +
    (p.sub (Position.make 1 1)).x) f.nextTurn⟩, ?_, ?_⟩
  · simp only [Board.stateField, Board.setStateField, hf, bind, Except.bind,
      FieldGrid.setAt_eq_ok _ _ _ _ hx hy hlen, pure, Except.pure]
  · show List.Forall₂ Field.sameStone b.state _
    apply forall₂_set _ _ _ hacc
    intro x hxg
    have h1 := forall₂_get? _ _ _ hacc _ x f hxg hget
    exact ⟨(Field.nextTurn_sameStone f).1.trans h1.1, (Field.nextTurn_sameStone f).2.1.trans h1.2.1,
      (Field.nextTurn_sameStone f).2.2.trans h1.2.2⟩

theorem Field.hasStop_sameStone (f f' : Field) (h : Field.sameStone f f') : f'.hasStop = f.hasStop := by
  unfold Field.hasStop; rw [h.1]

theorem Board.field_sameStone (b b' : Board) (h : List.Forall₂ Field.sameStone b.state b'.state)
    (p : Position) (f : Field) (hf : b.field p = .ok f) :
    ∃ f', b'.field p = .ok f' ∧ Field.sameStone f f' := by
  unfold Board.field at hf ⊢
  cases hfr : Board.frame.field p with
  | error e => rw [hfr] at hf; cases hf
  | ok ff =>
    rw [hfr] at hf
    simp only [bind, Except.bind] at hf ⊢
    by_cases hs : ff.isStatic
    · rw [if_pos hs] at hf ⊢
      exact ⟨_, rfl, by cases hf; exact ⟨rfl, rfl, le_refl _⟩⟩
    · rw [if_neg hs] at hf ⊢
      unfold Board.stateField FieldGrid.field at hf ⊢
      split at hf
      · cases hf
      · split at hf
        · cases hf
        · rename_i h1 h2
          rw [if_neg h1, if_neg h2]
          cases hg : b.state.get? ((p.sub (Position.make 1 1)).y * Board.stateSize +
              (p.sub (Position.make 1 1)).x) with
          | none => rw [hg] at hf; cases hf
          | some x =>
            rw [hg] at hf
            have hlt := (List.get?_eq_some.mp hg).1
            rw [h.length_eq] at hlt
            rw [List.get?_eq_get hlt]
            refine ⟨_, rfl, ?_⟩
            cases hf
            exact forall₂_get? _ _ _ h _ _ _ hg (List.get?_eq_get hlt)

theorem forall₂_sameStone_trans (l1 l2 l3 : List Field) (h12 : List.Forall₂ Field.sameStone l1 l2)
    (h23 : List.Forall₂ Field.sameStone l2 l3) : List.Forall₂ Field.sameStone l1 l3 := by
  induction h12 generalizing l3 with
  | nil => cases h23; exact List.Forall₂.nil
  | cons hab _ ih =>
    cases h23 with
    | cons hbc hrest =>
      exact List.Forall₂.cons ⟨hbc.1.trans hab.1, hbc.2.1.trans hab.2.1, hbc.2.2.trans hab.2.2⟩
        (ih _ hrest)

theorem GameState.gameState_nextTurn_ok (g : GameState) (hl : g.board.state.length = 64) :
    ∃ g', g.nextTurn = .ok g' ∧ List.Forall₂ Field.sameStone g.board.state g'.board.state ∧
      g'.orbPositions = g.orbPositions.nextTurn ∧ g'.actionPools = g.actionPools ∧
      g'.resourcePool = g.resourcePool := by
  obtain ⟨b', hb, hs⟩ := Board.board_nextTurn_ok g.board hl
  exact ⟨{ g with board := b', orbPositions := g.orbPositions.nextTurn },
    by simp only [GameState.nextTurn, hb, bind, Except.bind, pure, Except.pure], hs, rfl, rfl, rfl⟩

theorem GameState.repeat_nextTurn_ok (k : Nat) (g : GameState) (hl : g.board.state.length = 64) :
    ∃ gk, GameState.repeatM k GameState.nextTurn g = .ok gk ∧
      List.Forall₂ Field.sameStone g.board.state gk.board.state ∧
      gk.orbPositions = OrbPositions.nextTurn^[k] g.orbPositions := by
  induction k generalizing g with
  | zero => exact ⟨g, rfl, List.forall₂_same.mpr (fun _ _ => ⟨rfl, rfl, le_refl _⟩), rfl⟩
  | succ k ih =>
    obtain ⟨g1, h1, hs1, ho1, _, _⟩ := GameState.gameState_nextTurn_ok g hl
    obtain ⟨gk, hk, hsk, hok⟩ := ih g1 (by rw [← hs1.length_eq, hl])
    refine ⟨gk, ?_, forall₂_sameStone_trans _ _ _ hs1 hsk, ?_⟩
    · simp only [GameState.repeatM, h1, bind, Except.bind]
      exact hk
    · rw [hok, ho1, Function.iterate_succ_apply]

/-! ### orb positions -/

theorem insertSorted_perm (a : OrbPosition) (l : List OrbPosition) :
    (OrbPositions.insertSorted a l).Perm (a :: l) := by
  induction l with
  | nil => exact List.Perm.refl _
  | cons b l ih =>
    unfold OrbPositions.insertSorted
    split
    · exact (List.Perm.cons b ih).trans (List.Perm.swap a b l)
    · exact List.Perm.refl _

theorem sort_perm (o : OrbPositions) : o.sort.positions.Perm o.positions := by
  unfold OrbPositions.sort
  show (List.foldr OrbPositions.insertSorted [] o.positions).Perm o.positions
  induction o.positions with
  | nil => exact List.Perm.refl _
  | cons a l ih => exact (insertSorted_perm a _).trans (List.Perm.cons a ih)

theorem mem_modifyFirst {α : Type} (p : α → Bool) (g : α → α) (l : List α) (x : α)
    (hx : x ∈ OrbPositions.modifyFirst p g l) : x ∈ l ∨ ∃ a ∈ l, p a = true ∧ x = g a := by
  induction l with
  | nil => simp [OrbPositions.modifyFirst] at hx
  | cons a l ih =>
    unfold OrbPositions.modifyFirst at hx
    split at hx
    · rcases List.mem_cons.mp hx with h | h
      · exact Or.inr ⟨a, List.mem_cons_self _ _, by assumption, h⟩
      · exact Or.inl (List.mem_cons_of_mem _ h)
    · rcases List.mem_cons.mp hx with h | h
      · exact Or.inl (h ▸ List.mem_cons_self _ _)
      · rcases ih h with h1 | ⟨b, hb, hpb, hxb⟩
        · exact Or.inl (List.mem_cons_of_mem _ h1)
        · exact Or.inr ⟨b, List.mem_cons_of_mem _ hb, hpb, hxb⟩

theorem modifyFirst_mem {α : Type} (p : α → Bool) (g : α → α) (l : List α)
    (h : ∃ a ∈ l, p a = true) : ∃ a ∈ l, p a = true ∧ g a ∈ OrbPositions.modifyFirst p g l := by
  induction l with
  | nil => simp at h
  | cons a l ih =>
    unfold OrbPositions.modifyFirst
    by_cases hpa : p a = true
    · rw [if_pos hpa]
      exact ⟨a, List.mem_cons_self _ _, hpa, List.mem_cons_self _ _⟩
    · rw [if_neg hpa]
      obtain ⟨b, hb, hpb⟩ := h
      rcases List.mem_cons.mp hb with hba | hbl
      · exact absurd (hba ▸ hpb) hpa
      · obtain ⟨c, hc, hpc, hgc⟩ := ih ⟨b, hbl, hpb⟩
        exact ⟨c, List.mem_cons_of_mem _ hc, hpc, List.mem_cons_of_mem _ hgc⟩

/-- What a successful `moveOrb` leaves behind. -/
theorem moveOrb_ok (o o' : OrbPositions) (A B : Position) (h : o.moveOrb A B = .ok o') :
    B.isInvalid = false ∧ o.isOrbAt B = false ∧ o.isOrbAt A = true ∧
    (∀ x ∈ o'.positions, x.position = B → x.koPosition = A ∧ x.koLock = 3) ∧
    o'.isOrbAt B = true ∧ o'.positions.length = o.positions.length := by
  unfold OrbPositions.moveOrb at h
  split at h
  · cases h
  · split at h
    · cases h
    · split at h
      · cases h
      · rename_i h1 h2 h3
        simp only [Bool.not_eq_true, Bool.not_eq_true'] at h1 h2 h3
        simp only [Bool.not_eq_false] at h3
        injection h with h
        subst h
        have hperm := sort_perm ⟨OrbPositions.modifyFirst (fun op => op.position == A)
          (fun op => { op with koPosition := op.position, koLock := 3, position := B })
          o.positions⟩
        refine ⟨h1, h2, h3, ?_, ?_, ?_⟩
        · intro x hx hxB
          have hx1 := hperm.mem_iff.mp hx
          rcases mem_modifyFirst _ _ _ _ hx1 with hm | ⟨a, ha, hpa, hxa⟩
          · exfalso
            have : o.isOrbAt B = true := (isOrbAt_iff o B).mpr (List.mem_map.mpr ⟨x, hm, hxB⟩)
            rw [h2] at this; cases this
          · subst hxa
            simp only [beq_iff_eq] at hpa
            exact ⟨hpa, rfl⟩
        · obtain ⟨a, ha, _, hga⟩ := modifyFirst_mem (fun op => op.position == A)
            (fun op => { op with koPosition := op.position, koLock := 3, position := B })
            o.positions (by
              obtain ⟨a, ha, hpa⟩ := List.mem_map.mp ((isOrbAt_iff o A).mp h3)
              exact ⟨a, ha, by simp [hpa]⟩)
          exact (isOrbAt_iff _ B).mpr (List.mem_map.mpr ⟨_, hperm.mem_iff.mpr hga, rfl⟩)
        · rw [hperm.length_eq]
          show (OrbPositions.modifyFirst _ _ o.positions).length = _
          induction o.positions with
          | nil => rfl
          | cons a l ih =>
            unfold OrbPositions.modifyFirst
            split <;> simp [ih]


theorem nextTurn_isOrbAt (o : OrbPositions) (p : Position) : o.nextTurn.isOrbAt p = o.isOrbAt p := by
  unfold OrbPositions.nextTurn OrbPositions.isOrbAt
  rw [List.any_map]
  congr 1
  funext x
  simp only [Function.comp]
  split
  · split <;> rfl
  · rfl

theorem nextTurn_koState_succ (o : OrbPositions) (B P : Position) (n : Nat)
    (h : KoState o B (n + 2) P) : KoState o.nextTurn B (n + 1) P := by
  intro x hx hxB
  unfold OrbPositions.nextTurn at hx
  obtain ⟨y, hy, rfl⟩ := List.mem_map.mp hx
  have hpos : y.position = B := by
    revert hxB; split
    · split <;> exact id
    · exact id
  obtain ⟨h1, h2⟩ := h y hy hpos
  rw [if_pos (by omega), if_neg (by omega)]
  exact ⟨by simp [h1], h2⟩

theorem nextTurn_koState_one (o : OrbPositions) (B P : Position)
    (h : KoState o B 1 P) : KoState o.nextTurn B 0 Position.invalid := by
  intro x hx hxB
  unfold OrbPositions.nextTurn at hx
  obtain ⟨y, hy, rfl⟩ := List.mem_map.mp hx
  have hpos : y.position = B := by
    revert hxB; split
    · split <;> exact id
    · exact id
  obtain ⟨h1, h2⟩ := h y hy hpos
  rw [if_pos (by omega), if_pos (by omega)]
  exact ⟨rfl, rfl⟩

theorem koPosition_of_koState (o : OrbPositions) (B P : Position) (n : Nat)
    (h : KoState o B n P) (hB : o.isOrbAt B = true) : o.koPosition B = P := by
  unfold OrbPositions.koPosition
  cases hf : o.positions.find? (fun op => op.position == B) with
  | none =>
    exfalso
    rw [List.find?_eq_none] at hf
    obtain ⟨x, hx, hxB⟩ := List.mem_map.mp ((isOrbAt_iff o B).mp hB)
    exact hf x hx (by simp [hxB])
  | some x =>
    have hm := List.mem_of_find?_eq_some hf
    have hp := List.find?_some hf
    simp only [beq_iff_eq] at hp
    exact (h x hm hp).2

theorem onBoard_of_isHouse (p : Position) (b : Bool) (h : Board.isHouse p = .ok b) :
    p.x < 10 ∧ p.y < 10 := by
  unfold Board.isHouse BoardFrame.field FieldGrid.field at h
  by_contra hc
  by_cases hx : p.x ≥ setup.boardSize
  · rw [if_pos hx] at h; cases h
  · rw [if_neg hx] at h
    by_cases hy : p.y ≥ setup.boardSize
    · rw [if_pos hy] at h; cases h
    · simp only [setup.boardSize] at hx hy; omega

theorem OrbMove.applyTo_plain (g : GameState) (A B : Position) (hAB : A ≠ B)
    (hAs : Board.isSource A = .ok false) (hBs : Board.isSource B = .ok false)
    (hA : Board.isHouse A = .ok false) (fB : Field) (hf : g.board.field B = .ok fB)
    (hstop : fB.hasStop = true) (hoA : g.orbPositions.isOrbAt A = true)
    (hoB : g.orbPositions.isOrbAt B = false) :
    (OrbMove.mk A B).applyTo g =
      if g.orbPositions.koPosition A = B then
        .error "Tried to move the orb back to its previous position (ko lock)."
      else (g.orbPositions.moveOrb A B).map fun orbs => { g with orbPositions := orbs } := by
  have hno : (OrbMove.mk A B).isNoMove = false := by
    simp [OrbMove.isNoMove, hAB]
  unfold OrbMove.applyTo
  simp only [hno, hAs, hBs, hA, hf, hstop, hoA, hoB, bind, Except.bind, pure, Except.pure,
    Bool.false_eq_true, if_false, Bool.not_true, Bool.not_false, Bool.false_and, Bool.and_false,
    Bool.true_and, Bool.and_true, if_true]
  split
  · rfl
  · cases g.orbPositions.moveOrb A B <;> rfl

theorem OrbMove.applyTo_ok_plain (g g1 : GameState) (A B : Position)
    (hAs : Board.isSource A = .ok false) (hBs : Board.isSource B = .ok false)
    (hA : Board.isHouse A = .ok false) (h : (OrbMove.mk A B).applyTo g = .ok g1) :
    ∃ orbs, g.orbPositions.moveOrb A B = .ok orbs ∧ g1 = { g with orbPositions := orbs } ∧
      A ≠ B := by
  unfold OrbMove.applyTo at h
  by_cases hno : (OrbMove.mk A B).isNoMove = true
  · simp only [hno, if_true, bind, Except.bind] at h
    cases h
  · have hAB : A ≠ B := by
      intro hc; apply hno; simp [OrbMove.isNoMove, hc]
    simp only [hno, hAs, hBs, hA, bind, Except.bind, pure, Except.pure,
      Bool.false_eq_true, if_false, Bool.not_true, Bool.not_false, Bool.false_and,
      Bool.and_false, Bool.true_and, Bool.and_true, if_true] at h
    cases hf : g.board.field B with
    | error e => rw [hf] at h; cases h
    | ok f =>
      rw [hf] at h
      simp only at h
      split at h
      · cases h
      · split at h
        · cases h
        · split at h
          · cases h
          · split at h
            · cases h
            · cases hm : g.orbPositions.moveOrb A B with
              | error e => rw [hm] at h; cases h
              | ok orbs =>
                rw [hm] at h
                simp only at h
                injection h with h
                exact ⟨orbs, rfl, h.symm, hAB⟩

/-- C10: after a successful orb move from `A` to `B` (both neither house nor
source, `A` with a stop and left without an orb, the board grid with its 64
fields), the move back from `B` to `A` is rejected with the ko-lock error after
0, 1 or 2 calls of `nextTurn`; after 3 calls the orb at `B` has ko-lock 0 and an
invalid ko-position, and the move back is accepted. -/
theorem ko_lock_blocks_reversal (g g1 : GameState) (A B : Position)
    (hlen : g.board.state.length = 64)
    (hmove : (OrbMove.mk A B).applyTo g = .ok g1)
    (hA : Board.isHouse A = .ok false) (hAs : Board.isSource A = .ok false)
    (hB : Board.isHouse B = .ok false) (hBs : Board.isSource B = .ok false)
    (hstopA : ∃ f, g.board.field A = .ok f ∧ f.hasStop = true)
    (hempty : g1.orbPositions.isOrbAt A = false) :
    (∀ k, k < 3 → ∃ gk, GameState.repeatM k GameState.nextTurn g1 = .ok gk ∧
      (OrbMove.mk B A).applyTo gk =
        .error "Tried to move the orb back to its previous position (ko lock).") ∧
    (∃ g3, GameState.repeatM 3 GameState.nextTurn g1 = .ok g3 ∧
      g3.orbPositions.isOrbAt B = true ∧
      (∀ x ∈ g3.orbPositions.positions, x.position = B →
        x.koLock = 0 ∧ x.koPosition = Position.invalid) ∧
      ∃ g4, (OrbMove.mk B A).applyTo g3 = .ok g4) := by
  obtain ⟨orbs, hm, hg1, hAB⟩ := OrbMove.applyTo_ok_plain g g1 A B hAs hBs hA hmove
  obtain ⟨_, _, _, hko, hoB, _⟩ := moveOrb_ok _ _ _ _ hm
  obtain ⟨fA, hfA, hsA⟩ := hstopA
  have hb1 : g1.board = g.board := by rw [hg1]
  have ho1 : g1.orbPositions = orbs := by rw [hg1]
  have hlen1 : g1.board.state.length = 64 := by rw [hb1]; exact hlen
  have hk3 : KoState g1.orbPositions B 3 A := by
    rw [ho1]; intro x hx hxB; exact ⟨(hko x hx hxB).2, (hko x hx hxB).1⟩
  have hk2 : KoState (OrbPositions.nextTurn^[1] g1.orbPositions) B 2 A :=
    nextTurn_koState_succ _ _ _ 1 hk3
  have hk1 : KoState (OrbPositions.nextTurn^[2] g1.orbPositions) B 1 A :=
    nextTurn_koState_succ _ _ _ 0 hk2
  have hk0 : KoState (OrbPositions.nextTurn^[3] g1.orbPositions) B 0 Position.invalid :=
    nextTurn_koState_one _ _ _ hk1
  have hat : ∀ k p, (OrbPositions.nextTurn^[k] g1.orbPositions).isOrbAt p =
      g1.orbPositions.isOrbAt p := by
    intro k p
    induction k with
    | zero => rfl
    | succ k ih => rw [Function.iterate_succ_apply', nextTurn_isOrbAt, ih]
  have hfield : ∀ gk : GameState, List.Forall₂ Field.sameStone g1.board.state gk.board.state →
      ∃ f, gk.board.field A = .ok f ∧ f.hasStop = true := by
    intro gk hs
    obtain ⟨f', hf', hss⟩ := Board.field_sameStone g1.board gk.board hs A fA (by rw [hb1]; exact hfA)
    exact ⟨f', hf', by rw [Field.hasStop_sameStone _ _ hss]; exact hsA⟩
  have hback : ∀ k (gk : GameState), List.Forall₂ Field.sameStone g1.board.state gk.board.state →
      gk.orbPositions = OrbPositions.nextTurn^[k] g1.orbPositions →
      (OrbMove.mk B A).applyTo gk =
        if gk.orbPositions.koPosition B = A then
          .error "Tried to move the orb back to its previous position (ko lock)."
        else (gk.orbPositions.moveOrb B A).map fun orbs => { gk with orbPositions := orbs } := by
    intro k gk hs ho
    obtain ⟨f, hf, hst⟩ := hfield gk hs
    exact OrbMove.applyTo_plain gk B A (Ne.symm hAB) hBs hAs hB f hf hst
      (by rw [ho, hat, ho1]; exact hoB) (by rw [ho, hat]; exact hempty)
  refine ⟨?_, ?_⟩
  · intro k hk
    obtain ⟨gk, hgk, hs, ho⟩ := GameState.repeat_nextTurn_ok k g1 hlen1
    refine ⟨gk, hgk, ?_⟩
    rw [hback k gk hs ho]
    have hB' : gk.orbPositions.isOrbAt B = true := by rw [ho, hat, ho1]; exact hoB
    have : gk.orbPositions.koPosition B = A := by
      interval_cases k
      · exact koPosition_of_koState _ _ _ 3 (by rw [ho]; exact hk3) hB'
      · exact koPosition_of_koState _ _ _ 2 (by rw [ho]; exact hk2) hB'
      · exact koPosition_of_koState _ _ _ 1 (by rw [ho]; exact hk1) hB'
    rw [if_pos this]
  · obtain ⟨g3, hg3, hs, ho⟩ := GameState.repeat_nextTurn_ok 3 g1 hlen1
    have hB' : g3.orbPositions.isOrbAt B = true := by rw [ho, hat, ho1]; exact hoB
    have hA' : g3.orbPositions.isOrbAt A = false := by rw [ho, hat]; exact hempty
    refine ⟨g3, hg3, hB', by rw [ho]; exact hk0, ?_⟩
    rw [hback 3 g3 hs ho]
    have hkp : g3.orbPositions.koPosition B = Position.invalid :=
      koPosition_of_koState _ _ _ 0 (by rw [ho]; exact hk0) hB'
    obtain ⟨hx, hy⟩ := onBoard_of_isHouse A false hA
    have hne : Position.invalid ≠ A := by
      intro hc; rw [← hc] at hx; simp [Position.invalid, Position.maxLength] at hx
    have hinv : A.isInvalid = false := by
      simp [Position.isInvalid, Position.maxLength]; omega
    rw [hkp, if_neg hne]
    unfold OrbPositions.moveOrb
    simp [hinv, hA', hB', Except.map]

set_option maxRecDepth 100000 in
/-- C10 at the sample scenario: the orb moved from `(2, 2)` to `(2, 3)`. -/
theorem ko_lock_witness :
    (OrbMove.mk ⟨2, 2⟩ ⟨2, 3⟩).applyTo koLockState = .ok koLockStateMoved ∧
    ((OrbMove.mk ⟨2, 3⟩ ⟨2, 2⟩).applyTo koLockStateMoved =
        .error "Tried to move the orb back to its previous position (ko lock).") ∧
    (∃ g3, GameState.repeatM 3 GameState.nextTurn koLockStateMoved = .ok g3 ∧
      ∃ g4, (OrbMove.mk ⟨2, 3⟩ ⟨2, 2⟩).applyTo g3 = .ok g4) := by
  have h := ko_lock_blocks_reversal koLockState koLockStateMoved ⟨2, 2⟩ ⟨2, 3⟩
    (by decide) (by decide) (by decide) (by decide) (by decide) (by decide)
    ⟨⟨.CrossingWithStop, .North, 0⟩, by decide, by decide⟩ (by decide)
  refine ⟨by decide, ?_, ?_⟩
  · obtain ⟨gk, hgk, hk⟩ := h.1 0 (by decide)
    cases hgk
    exact hk
  · obtain ⟨g3, hg3, _, _, h4⟩ := h.2
    exact ⟨g3, hg3, h4⟩

theorem substr_zero_append (a b : List Char) (n : Nat) (h : a.length = n) :
    Serialization.substr (a ++ b) 0 n = a := by
  subst h
  simp [Serialization.substr]

theorem okAnd_elim {α : Type} {e : Except String α} {P : α → Prop} (h : okAnd e P) :
    ∃ a, e = .ok a ∧ P a := by
  cases e with
  | error _ => exact h.elim
  | ok a => exact ⟨a, rfl, h⟩

theorem Except.bind_eq_ok_iff {α β : Type} (x : Except String α) (f : α → Except String β) (b : β) :
    (x >>= f) = .ok b ↔ ∃ a, x = .ok a ∧ f a = .ok b := by
  cases x with
  | error e => simp [bind, Except.bind]
  | ok a => simp [bind, Except.bind]

theorem Except.throw_bind {α β : Type} (e : String) (f : α → Except String β) :
    ((throw e : Except String α) >>= f) = Except.error e := rfl

theorem Except.pure_bind_eq {α β : Type} (a : α) (f : α → Except String β) :
    ((pure a : Except String α) >>= f) = f a := rfl

theorem Except.pure_eq_ok_iff {α : Type} (a b : α) :
    (pure a : Except String α) = .ok b ↔ a = b := by
  show Except.ok a = Except.ok b ↔ _
  simp

theorem Except.ite_throw_eq_ok {β : Type} (c : Prop) [Decidable c] (e : String)
    (x : Except String β) (b : β) :
    (if c then (Except.error e : Except String β) else x) = .ok b ↔ ¬c ∧ x = .ok b := by
  by_cases h : c <;> simp [h]

theorem foldlM_ok_inv {α β : Type} (f : β → α → Except String β) (P : β → Prop) (l : List α)
    (b r : β) (h : l.foldlM f b = .ok r) (hb : P b)
    (hstep : ∀ acc a acc', P acc → f acc a = .ok acc' → P acc') : P r := by
  induction l generalizing b with
  | nil => cases h; exact hb
  | cons a l ih =>
    rw [List.foldlM_cons] at h
    obtain ⟨b1, h1, h2⟩ := (Except.bind_eq_ok_iff _ _ _).mp h
    exact ih b1 h2 (hstep b a b1 hb h1)

theorem FieldGrid.field_ok_iff {F : Type} (N : Nat) (fields : List F) (p : Position) (f : F) :
    FieldGrid.field N fields p = .ok f ↔
      p.x < N ∧ p.y < N ∧ fields.get? (p.y * N + p.x) = some f := by
  unfold FieldGrid.field
  by_cases hx : p.x ≥ N
  · simp [hx]
  · by_cases hy : p.y ≥ N
    · simp [hx, hy]
    · rw [if_neg hx, if_neg hy]
      cases hg : fields.get? (p.y * N + p.x) with
      | none => simp
      | some x =>
        simp only [Except.ok.injEq, Option.some.injEq]
        exact ⟨fun h => ⟨by omega, by omega, h⟩, fun h => h.2.2⟩

theorem FieldGrid.setAt_ok_iff {F : Type} (N : Nat) (fields fields' : List F) (p : Position)
    (f : F) :
    FieldGrid.setAt N fields p f = .ok fields' ↔
      p.x < N ∧ p.y < N ∧ p.y * N + p.x < fields.length ∧
        fields' = fields.set (p.y * N + p.x) f := by
  unfold FieldGrid.setAt
  by_cases hx : p.x ≥ N
  · simp [hx]
  · by_cases hy : p.y ≥ N
    · simp [hx, hy]
    · rw [if_neg hx, if_neg hy]
      by_cases hi : p.y * N + p.x < fields.length
      · rw [if_pos hi]
        simp only [Except.ok.injEq]
        constructor
        · intro h; exact ⟨by omega, by omega, hi, h.symm⟩
        · intro h; exact h.2.2.2.symm
      · rw [if_neg hi]
        simp; omega

theorem Board.stateField_ok_iff (b : Board) (p : Position) (f : Field) :
    b.stateField p = .ok f ↔
      (p.sub (Position.make 1 1)).x < 8 ∧ (p.sub (Position.make 1 1)).y < 8 ∧
        b.state.get? (Board.stateIndex p) = some f := by
  unfold Board.stateField
  rw [FieldGrid.field_ok_iff]
  rfl

theorem Board.setStateField_ok_iff (b b' : Board) (p : Position) (f : Field) :
    b.setStateField p f = .ok b' ↔
      (p.sub (Position.make 1 1)).x < 8 ∧ (p.sub (Position.make 1 1)).y < 8 ∧
        Board.stateIndex p < b.state.length ∧ b' = ⟨b.state.set (Board.stateIndex p) f⟩ := by
  unfold Board.setStateField
  cases h : FieldGrid.setAt Board.stateSize b.state (p.sub (Position.make 1 1)) f with
  | error e =>
    simp only [bind, Except.bind]
    constructor
    · intro hc; cases hc
    intro hc
    exfalso
    have := (FieldGrid.setAt_ok_iff Board.stateSize b.state _ _ f).mpr ⟨hc.1, hc.2.1, hc.2.2.1, rfl⟩
    rw [h] at this; cases this
  | ok fs =>
    have := (FieldGrid.setAt_ok_iff Board.stateSize b.state fs _ f).mp h
    simp only [bind, Except.bind, pure, Except.pure, Except.ok.injEq]
    constructor
    · intro hb; subst hb; exact ⟨this.1, this.2.1, this.2.2.1, by rw [this.2.2.2]; rfl⟩
    · intro hb; rw [hb.2.2.2, this.2.2.2]; rfl

theorem Board.setField_ok (b b' : Board) (p : Position) (s : Stone) (o : Orientation)
    (h : b.setField p s o = .ok b') :
    Board.isStatic p = .ok false ∧ ∃ f0, b.stateField p = .ok f0 ∧
      Board.stateIndex p < b.state.length ∧
      b' = ⟨b.state.set (Board.stateIndex p) (f0.setStone s o)⟩ := by
  unfold Board.setField at h
  cases hs : Board.isStatic p with
  | error e => rw [hs] at h; cases h
  | ok st =>
    rw [hs] at h
    cases st with
    | true => cases h
    | false =>
      cases hf : b.stateField p with
      | error e => rw [hf] at h; cases h
      | ok f0 =>
        rw [hf] at h
        have := (Board.setStateField_ok_iff b b' p (f0.setStone s o)).mp h
        exact ⟨rfl, f0, rfl, this.2.2.1, this.2.2.2⟩

theorem Board.setNewOrientation_ok (b b' : Board) (p : Position) (o : Orientation)
    (h : b.setNewOrientation p o = .ok b') :
    Board.isStatic p = .ok false ∧ ∃ f0, b.stateField p = .ok f0 ∧
      Board.stateIndex p < b.state.length ∧
      b' = ⟨b.state.set (Board.stateIndex p) (f0.setOrientation o)⟩ := by
  unfold Board.setNewOrientation at h
  cases hs : Board.isStatic p with
  | error e => rw [hs] at h; cases h
  | ok st =>
    rw [hs] at h
    cases st with
    | true => cases h
    | false =>
      cases hf : b.stateField p with
      | error e => rw [hf] at h; cases h
      | ok f0 =>
        rw [hf] at h
        by_cases hc : f0.canRotate = true
        · simp only [hc, bind, Except.bind, pure, Except.pure, Bool.not_true,
            Bool.false_eq_true, if_false] at h
          have := (Board.setStateField_ok_iff b b' p (f0.setOrientation o)).mp h
          exact ⟨rfl, f0, rfl, this.2.2.1, this.2.2.2⟩
        · simp only [hc, bind, Except.bind, Bool.not_false, if_true, Bool.false_eq_true,
            if_false] at h
          cases h

theorem list_split_at {α : Type} (l : List α) (i : Nat) (a : α) (h : l.get? i = some a) :
    l = l.take i ++ a :: l.drop (i + 1) := by
  induction l generalizing i with
  | nil => simp at h
  | cons x l ih =>
    cases i with
    | zero => simp at h; simp [h]
    | succ i =>
      simp only [List.get?_cons_succ] at h
      simp only [List.take_succ_cons, List.drop_succ_cons, List.cons_append]
      rw [← ih i h]

theorem indexOf?_some {l : List Stone} {s : Stone} {i : Nat} (h : l.indexOf? s = some i) :
    l.get? i = some s := by
  unfold List.indexOf? at h
  obtain ⟨hi, hp, _⟩ := List.findIdx?_eq_some_iff_getElem.mp h
  rw [List.get?_eq_getElem?, List.getElem?_eq_getElem hi]
  simp only [beq_iff_eq] at hp
  rw [hp]

theorem indexOf?_none {l : List Stone} {s : Stone} (h : l.indexOf? s = none) : s ∉ l := by
  unfold List.indexOf? at h
  rw [List.findIdx?_eq_none_iff] at h
  intro hm
  have := h s hm
  simp at this

/-- A successful `take` removes one occurrence of the stone and adds one empty slot. -/
theorem StonePool.stonePool_take_ok (p p' : StonePool) (s : Stone) (h : p.take s = .ok p') :
    (s :: p'.stones).Perm (Stone.Empty :: p.stones) := by
  unfold StonePool.take at h
  cases hi : p.stones.indexOf? s with
  | none => rw [hi] at h; cases h
  | some i =>
    rw [hi] at h
    simp only [Except.ok.injEq] at h
    subst h
    have hsplit := list_split_at p.stones i s (indexOf?_some hi)
    show (s :: (List.take i p.stones ++ List.drop (i + 1) p.stones ++ [Stone.Empty])).Perm _
    have h1 : (s :: (List.take i p.stones ++ List.drop (i + 1) p.stones)).Perm p.stones := by
      conv_rhs => rw [hsplit]
      exact List.perm_middle.symm
    have h2 : (s :: (List.take i p.stones ++ List.drop (i + 1) p.stones ++ [Stone.Empty])).Perm
        (p.stones ++ [Stone.Empty]) := by
      rw [← List.cons_append]
      exact List.Perm.append_right _ h1
    exact h2.trans (List.perm_append_singleton _ _)

theorem getLastD_eq_getLast {α : Type} (l : List α) (d : α) (h : l ≠ []) :
    l.getLastD d = l.getLast h := by
  cases l with
  | nil => exact absurd rfl h
  | cons a l => rfl

/-- A successful `add` on a pool with at least one slot puts the stone in place of
one empty slot. -/
theorem StonePool.stonePool_add_ok (p p' : StonePool) (s : Stone) (hne : p.stones ≠ [])
    (h : p.add s = .ok p') :
    s ≠ Stone.Empty ∧ p.full = false ∧ (Stone.Empty :: p'.stones).Perm (s :: p.stones) := by
  unfold StonePool.add at h
  by_cases hfull : p.full = true
  · rw [if_pos hfull] at h; cases h
  · rw [if_neg hfull] at h
    by_cases hs : s = Stone.Empty
    · rw [if_pos hs] at h; cases h
    · rw [if_neg hs] at h
      refine ⟨hs, by simpa using hfull, ?_⟩
      by_cases hem : p.empty = true
      · rw [if_pos hem] at h
        simp only [Except.ok.injEq] at h
        subst h
        cases hl : p.stones with
        | nil => exact absurd hl hne
        | cons a l =>
          have : a = Stone.Empty := by
            simpa [StonePool.empty, hl] using hem
          subst this
          show (Stone.Empty :: (List.set (Stone.Empty :: l) 0 s)).Perm _
          simp only [List.set_cons_zero]
          exact List.Perm.swap _ _ _
      · rw [if_neg hem] at h
        cases hi : p.stones.findIdx? (fun x => decide (x.type < s.type)) with
        | none => rw [hi] at h; cases h
        | some i =>
          rw [hi] at h
          simp only [Except.ok.injEq] at h
          subst h
          obtain ⟨hlt, _, _⟩ := List.findIdx?_eq_some_iff_getElem.mp hi
          have hlast : p.stones.getLast hne = Stone.Empty := by
            have : p.stones.getLastD Stone.Empty = Stone.Empty := by
              simpa [StonePool.full] using hfull
            rw [getLastD_eq_getLast _ _ hne] at this
            exact this
          have hdne : List.drop i p.stones ≠ [] := by
            intro hc
            have := congrArg List.length hc
            simp at this
            omega
          have hdl : (List.drop i p.stones).getLast hdne = Stone.Empty := by
            rw [List.getLast_drop]; exact hlast
          have hd : List.drop i p.stones = (List.drop i p.stones).dropLast ++ [Stone.Empty] := by
            conv_lhs => rw [← List.dropLast_append_getLast hdne, hdl]
          have hl : p.stones = List.take i p.stones ++ ((List.drop i p.stones).dropLast ++
              [Stone.Empty]) := by
            conv_lhs => rw [← List.take_append_drop i p.stones, hd]
          show (Stone.Empty :: (List.take i p.stones ++ [s] ++
            (List.drop i p.stones).dropLast)).Perm (s :: p.stones)
          conv_rhs => rw [hl]
          rw [List.append_assoc, List.singleton_append]
          have e1 : (Stone.Empty :: (List.take i p.stones ++ s :: (List.drop i p.stones).dropLast)).Perm
              (Stone.Empty :: s :: (List.take i p.stones ++ (List.drop i p.stones).dropLast)) :=
            List.Perm.cons _ List.perm_middle
          have e2 : (s :: (List.take i p.stones ++ ((List.drop i p.stones).dropLast ++
              [Stone.Empty]))).Perm
              (s :: Stone.Empty :: (List.take i p.stones ++ (List.drop i p.stones).dropLast)) := by
            apply List.Perm.cons
            rw [← List.append_assoc]
            exact List.perm_append_singleton _ _
          exact e1.trans ((List.Perm.swap _ _ _).trans e2.symm)

/-! ### Preservation of the well-formed form -/

theorem normalizedOrientation_idem : ∀ (s : Stone) (o : Orientation),
    s.normalizedOrientation (s.normalizedOrientation o) = s.normalizedOrientation o := by
  decide

theorem Field.setStone_WF (f : Field) (s : Stone) (o : Orientation) (h : f.WF) :
    (f.setStone s o).WF :=
  ⟨(normalizedOrientation_idem s o).symm, h.2⟩

theorem Field.setOrientation_WF (f : Field) (o : Orientation) (h : f.WF) :
    (f.setOrientation o).WF :=
  ⟨(normalizedOrientation_idem f.stone o).symm, h.2⟩

theorem Field.field_rotated_WF (f : Field) (r : Rotation) (h : f.WF) : (f.rotated r).WF := by
  unfold Field.rotated
  split
  · exact h
  · exact ⟨(normalizedOrientation_idem f.stone _).symm, h.2⟩

theorem Board.stateField_mem (b : Board) (p : Position) (f : Field) (h : b.stateField p = .ok f) :
    f ∈ b.state :=
  List.get?_mem ((Board.stateField_ok_iff b p f).mp h).2.2

/-- The array sizes of a board are kept and its fields stay well-formed when one
field is replaced by a well-formed field. -/
theorem board_set_WF (l : List Field) (i : Nat) (f : Field) (hl : l.length = 64)
    (hf : ∀ x ∈ l, x.WF) (hw : f.WF) :
    (l.set i f).length = 64 ∧ ∀ x ∈ l.set i f, x.WF := by
  refine ⟨by rw [List.length_set]; exact hl, fun x hx => ?_⟩
  rcases List.mem_or_eq_of_mem_set hx with h | h
  · exact hf x h
  · exact h ▸ hw

theorem GameState.WF_setField (g : GameState) (b : Board) (p : Position) (s : Stone)
    (o : Orientation) (h : g.WF) (hb : g.board.setField p s o = .ok b) :
    ({ g with board := b } : GameState).WF := by
  obtain ⟨_, f0, hf0, _, rfl⟩ := Board.setField_ok _ _ _ _ _ hb
  obtain ⟨h1, h2, hrest⟩ := h
  have := board_set_WF g.board.state (Board.stateIndex p) (f0.setStone s o) h1 h2
    (Field.setStone_WF f0 s o (h2 f0 (Board.stateField_mem _ _ _ hf0)))
  exact ⟨this.1, this.2, hrest⟩

theorem GameState.WF_setNewOrientation (g : GameState) (b : Board) (p : Position)
    (o : Orientation) (h : g.WF) (hb : g.board.setNewOrientation p o = .ok b) :
    ({ g with board := b } : GameState).WF := by
  obtain ⟨_, f0, hf0, _, rfl⟩ := Board.setNewOrientation_ok _ _ _ _ hb
  obtain ⟨h1, h2, hrest⟩ := h
  have := board_set_WF g.board.state (Board.stateIndex p) (f0.setOrientation o) h1 h2
    (Field.setOrientation_WF f0 o (h2 f0 (Board.stateField_mem _ _ _ hf0)))
  exact ⟨this.1, this.2, hrest⟩

theorem StonePool.take_length (p p' : StonePool) (s : Stone) (h : p.take s = .ok p') :
    p'.stones.length = p.stones.length := by
  have := (StonePool.stonePool_take_ok p p' s h).length_eq
  simpa using this

theorem StonePool.add_length (p p' : StonePool) (s : Stone) (hne : p.stones ≠ [])
    (h : p.add s = .ok p') : p'.stones.length = p.stones.length := by
  have := (StonePool.stonePool_add_ok p p' s hne h).2.2.length_eq
  simpa using this

theorem ActionPools.active_mem (a : ActionPools) (h : a.pools.length = 4) :
    a.active ∈ a.pools := by
  unfold ActionPools.active
  cases hp : a.pools with
  | nil => rw [hp] at h; cases h
  | cons x l => simp

theorem ActionPools.get_mem (a : ActionPools) (i : Nat) (p : StonePool) (h : a.get i = .ok p) :
    p ∈ a.pools := by
  unfold ActionPools.get at h
  cases hg : a.pools.get? i with
  | none => rw [hg] at h; cases h
  | some x =>
    rw [hg] at h
    cases h
    exact List.get?_mem hg

theorem pools_set_WF (a : ActionPools) (i : Nat) (p : StonePool) (hl : a.pools.length = 4)
    (hp : ∀ x ∈ a.pools, x.stones.length = 6) (h6 : p.stones.length = 6) :
    (a.set i p).pools.length = 4 ∧ ∀ x ∈ (a.set i p).pools, x.stones.length = 6 := by
  unfold ActionPools.set
  refine ⟨by simp [hl], fun x hx => ?_⟩
  rcases List.mem_or_eq_of_mem_set hx with h | h
  · exact hp x h
  · exact h ▸ h6

theorem ResourcePool.resourcePool_add_ok (r r' : ResourcePool) (s : Stone) (n : Nat) (h : r.add s n = .ok r') :
    s ≠ Stone.Empty ∧ ∃ c, r.stoneCounts.get? (s.type - 1) = some c ∧
      r' = ⟨r.stoneCounts.set (s.type - 1) ((c + n) % 256)⟩ := by
  unfold ResourcePool.add ResourcePool.atStone at h
  by_cases h0 : s.type = 0
  · rw [if_pos h0] at h; cases h
  · rw [if_neg h0] at h
    cases hg : r.stoneCounts.get? (s.type - 1) with
    | none => rw [hg] at h; cases h
    | some c =>
      rw [hg] at h
      cases h
      exact ⟨by intro hc; rw [hc] at h0; exact h0 rfl, c, rfl, rfl⟩

theorem ResourcePool.resourcePool_take_ok (r r' : ResourcePool) (s : Stone) (n : Nat)
    (h : r.take s n = .ok r') :
    s ≠ Stone.Empty ∧ ∃ c, r.stoneCounts.get? (s.type - 1) = some c ∧ n ≤ c ∧
      r' = ⟨r.stoneCounts.set (s.type - 1) (c - n)⟩ := by
  unfold ResourcePool.take ResourcePool.atStone at h
  by_cases h0 : s.type = 0
  · rw [if_pos h0] at h; cases h
  · rw [if_neg h0] at h
    cases hg : r.stoneCounts.get? (s.type - 1) with
    | none => rw [hg] at h; cases h
    | some c =>
      rw [hg] at h
      by_cases hn : n > c
      · simp only [bind, Except.bind, hn, if_true] at h
        cases h
      · simp only [bind, Except.bind, hn, if_false, pure, Except.pure] at h
        cases h
        exact ⟨by intro hc; rw [hc] at h0; exact h0 rfl, c, rfl, by omega, rfl⟩

theorem counts_set_WF (l : List Nat) (i c : Nat) (hl : l.length = 10) (hc : ∀ x ∈ l, x < 256)
    (h : c < 256) : (l.set i c).length = 10 ∧ ∀ x ∈ l.set i c, x < 256 := by
  refine ⟨by rw [List.length_set]; exact hl, fun x hx => ?_⟩
  rcases List.mem_or_eq_of_mem_set hx with h1 | h1
  · exact hc x h1
  · exact h1 ▸ h

theorem ResourcePool.add_WF (r r' : ResourcePool) (s : Stone) (n : Nat)
    (hl : r.stoneCounts.length = 10) (hc : ∀ x ∈ r.stoneCounts, x < 256)
    (h : r.add s n = .ok r') :
    r'.stoneCounts.length = 10 ∧ ∀ x ∈ r'.stoneCounts, x < 256 := by
  obtain ⟨_, c, _, rfl⟩ := ResourcePool.resourcePool_add_ok r r' s n h
  exact counts_set_WF _ _ _ hl hc (Nat.mod_lt _ (by decide))

theorem ResourcePool.take_WF (r r' : ResourcePool) (s : Stone) (n : Nat)
    (hl : r.stoneCounts.length = 10) (hc : ∀ x ∈ r.stoneCounts, x < 256)
    (h : r.take s n = .ok r') :
    r'.stoneCounts.length = 10 ∧ ∀ x ∈ r'.stoneCounts, x < 256 := by
  obtain ⟨_, c, hg, _, rfl⟩ := ResourcePool.resourcePool_take_ok r r' s n h
  have := hc c (List.get?_mem hg)
  exact counts_set_WF _ _ _ hl hc (by omega)

theorem Action.applyPlaceAction_WF (a : Action) (g g' : GameState) (h : g.WF)
    (ha : a.applyPlaceAction g = .ok g') : g'.WF := by
  unfold Action.applyPlaceAction at ha
  simp only [Except.throw_bind, Except.pure_bind_eq, Except.bind_eq_ok_iff,
    Except.ite_throw_eq_ok, Except.pure_eq_ok_iff, Bool.not_eq_true', Bool.not_eq_false] at ha
  obtain ⟨_, _, _, _, _, _, b, hb, pool1, hp, rfl⟩ := ha
  have h1 := GameState.WF_setField g b _ _ _ h hb
  obtain ⟨hb1, hb2, ha1, ha2, hrest⟩ := h1
  have hlen := StonePool.take_length _ _ _ hp
  have := pools_set_WF g.actionPools 0 pool1 ha1 ha2
    (by rw [hlen]; exact ha2 _ (ActionPools.active_mem _ ha1))
  exact ⟨hb1, hb2, this.1, this.2, hrest⟩

theorem Action.applyReplaceAction_WF (a : Action) (g g' : GameState) (h : g.WF)
    (ha : a.applyReplaceAction g = .ok g') : g'.WF := by
  unfold Action.applyReplaceAction at ha
  simp only [Except.throw_bind, Except.pure_bind_eq, Except.bind_eq_ok_iff,
    Except.ite_throw_eq_ok, Except.pure_eq_ok_iff, Bool.not_eq_true', Bool.not_eq_false] at ha
  obtain ⟨_, _, _, _, _, _, _, old, _, rp1, hr1, pool1, hp1, b, hb, pool2, hp2, rp2, hr2, rfl⟩ := ha
  have h1 := GameState.WF_setField g b _ _ _ h hb
  obtain ⟨hb1, hb2, ha1, ha2, ho1, ho2, hc1, hc2⟩ := h1
  have hlen1 := StonePool.take_length _ _ _ hp1
  have hlen2 := StonePool.take_length _ _ _ hp2
  have hpools := pools_set_WF g.actionPools 0 pool2 ha1 ha2
    (by rw [hlen2, hlen1]; exact ha2 _ (ActionPools.active_mem _ ha1))
  have hrp1 := ResourcePool.add_WF _ _ _ _ hc1 hc2 hr1
  have hrp2 := ResourcePool.add_WF _ _ _ _ hrp1.1 hrp1.2 hr2
  exact ⟨hb1, hb2, hpools.1, hpools.2, ho1, ho2, hrp2.1, hrp2.2⟩

theorem Action.applyRotateAction_WF (a : Action) (g g' : GameState) (h : g.WF)
    (ha : a.applyRotateAction g = .ok g') : g'.WF := by
  unfold Action.applyRotateAction at ha
  simp only [Except.throw_bind, Except.pure_bind_eq, Except.bind_eq_ok_iff,
    Except.ite_throw_eq_ok, Except.pure_eq_ok_iff, Bool.not_eq_true', Bool.not_eq_false] at ha
  obtain ⟨_, _, _, _, _, _, _, _, b, hb, pool1, hp1, rp, hr, rfl⟩ := ha
  have h1 := GameState.WF_setNewOrientation g b _ _ h hb
  obtain ⟨hb1, hb2, ha1, ha2, ho1, ho2, hc1, hc2⟩ := h1
  have hlen1 := StonePool.take_length _ _ _ hp1
  have hpools := pools_set_WF g.actionPools 0 pool1 ha1 ha2
    (by rw [hlen1]; exact ha2 _ (ActionPools.active_mem _ ha1))
  have hrp := ResourcePool.add_WF _ _ _ _ hc1 hc2 hr
  exact ⟨hb1, hb2, hpools.1, hpools.2, ho1, ho2, hrp.1, hrp.2⟩

theorem stones_ne_nil (p : StonePool) (h : p.stones.length = 6) : p.stones ≠ [] := by
  intro hc; rw [hc] at h; cases h

theorem Action.applyDrawAction_WF (a : Action) (g g' : GameState) (h : g.WF)
    (ha : a.applyDrawAction g = .ok g') : g'.WF := by
  unfold Action.applyDrawAction at ha
  simp only [Except.throw_bind, Except.pure_bind_eq, Except.bind_eq_ok_iff,
    Except.ite_throw_eq_ok, Except.pure_eq_ok_iff, Bool.not_eq_true', Bool.not_eq_false] at ha
  obtain ⟨_, _, _, _, rp, hr, pool1, hp1, rfl⟩ := ha
  obtain ⟨hb1, hb2, ha1, ha2, ho1, ho2, hc1, hc2⟩ := h
  have h6 := ha2 _ (ActionPools.active_mem _ ha1)
  have hlen1 := StonePool.add_length _ _ _ (stones_ne_nil _ h6) hp1
  have hpools := pools_set_WF g.actionPools 0 pool1 ha1 ha2 (by rw [hlen1]; exact h6)
  have hrp := ResourcePool.take_WF _ _ _ _ hc1 hc2 hr
  exact ⟨hb1, hb2, hpools.1, hpools.2, ho1, ho2, hrp.1, hrp.2⟩

theorem Action.action_applyTo_WF (a : Action) (g g' : GameState) (h : g.WF)
    (ha : a.applyTo g = .ok g') : g'.WF := by
  unfold Action.applyTo at ha
  split at ha
  · exact Action.applyPlaceAction_WF a g g' h ha
  · exact Action.applyReplaceAction_WF a g g' h ha
  · exact Action.applyRotateAction_WF a g g' h ha
  · exact Action.applyDrawAction_WF a g g' h ha
  · cases ha; exact h

theorem ActionSequence.actionSequence_applyTo_WF (s : ActionSequence) (g g' : GameState) (h : g.WF)
    (ha : s.applyTo g = .ok g') : g'.WF := by
  unfold ActionSequence.applyTo at ha
  refine foldlM_ok_inv _ GameState.WF _ _ _ ha h ?_
  intro acc a acc' hacc hstep
  split at hstep
  · exact Action.action_applyTo_WF a acc acc' hacc hstep
  · cases hstep; exact hacc

theorem GameState.moveStoneToPlayer_WF (g g' : GameState) (s : Stone) (player : Nat)
    (h : g.WF) (hm : g.moveStoneToPlayer s player = .ok g') : g'.WF := by
  unfold GameState.moveStoneToPlayer at hm
  simp only [Except.throw_bind, Except.pure_bind_eq, Except.bind_eq_ok_iff,
    Except.ite_throw_eq_ok, Except.pure_eq_ok_iff, Bool.not_eq_true', Bool.not_eq_false] at hm
  obtain ⟨_, _, _, pool, hpool, _, rp, hr, pool1, hp1, rfl⟩ := hm
  obtain ⟨hb1, hb2, ha1, ha2, ho1, ho2, hc1, hc2⟩ := h
  have h6 := ha2 _ (ActionPools.get_mem _ _ _ hpool)
  have hlen1 := StonePool.add_length _ _ _ (stones_ne_nil _ h6) hp1
  have hpools := pools_set_WF g.actionPools player pool1 ha1 ha2 (by rw [hlen1]; exact h6)
  have hrp := ResourcePool.take_WF _ _ _ _ hc1 hc2 hr
  exact ⟨hb1, hb2, hpools.1, hpools.2, ho1, ho2, hrp.1, hrp.2⟩

theorem forall₂_sameStone_WF (l l' : List Field) (h : List.Forall₂ Field.sameStone l l')
    (hw : ∀ f ∈ l, f.WF) : ∀ f ∈ l', f.WF := by
  induction h with
  | nil => intro f hf; cases hf
  | cons hab _ ih =>
    intro f hf
    rcases List.mem_cons.mp hf with rfl | hf
    · have ha := hw _ (List.mem_cons_self _ _)
      obtain ⟨h1, h2, h3⟩ := hab
      refine ⟨?_, ?_⟩
      · rw [h1, h2]; exact ha.1
      · have := ha.2; omega
    · exact ih (fun x hx => hw x (List.mem_cons_of_mem _ hx)) f hf

theorem OrbPositions.orbPositions_nextTurn_WF (o : OrbPositions) (hl : o.positions.length = 9)
    (hw : ∀ x ∈ o.positions, x.WF) :
    o.nextTurn.positions.length = 9 ∧ ∀ x ∈ o.nextTurn.positions, x.WF := by
  unfold OrbPositions.nextTurn
  refine ⟨by simp [hl], fun x hx => ?_⟩
  obtain ⟨y, hy, rfl⟩ := List.mem_map.mp hx
  obtain ⟨h1, h2, h3, h4⟩ := hw y hy
  split
  · split
    · exact ⟨h1, Or.inl rfl, by simp, fun _ => rfl⟩
    · rename_i hk hk1
      exact ⟨h1, h2, by simp only; omega, fun h0 => absurd h0 hk1⟩
  · exact ⟨h1, h2, h3, h4⟩

theorem GameState.gameState_nextTurn_WF (g g' : GameState) (h : g.WF) (hn : g.nextTurn = .ok g') :
    g'.WF := by
  obtain ⟨hb1, hb2, ha1, ha2, ho1, ho2, hc1, hc2⟩ := h
  obtain ⟨g1, h1, hs, ho, ha, hr⟩ := GameState.gameState_nextTurn_ok g hb1
  rw [h1] at hn
  cases hn
  have hon := OrbPositions.orbPositions_nextTurn_WF g.orbPositions ho1 ho2
  refine ⟨by rw [← hs.length_eq]; exact hb1, forall₂_sameStone_WF _ _ hs hb2, ?_, ?_, ?_, ?_, ?_, ?_⟩
  · rw [ha]; exact ha1
  · rw [ha]; exact ha2
  · rw [ho]; exact hon.1
  · rw [ho]; exact hon.2
  · rw [hr]; exact hc1
  · rw [hr]; exact hc2

theorem OrbPositions.moveOrb_WF (o o' : OrbPositions) (A B : Position)
    (hl : o.positions.length = 9) (hw : ∀ x ∈ o.positions, x.WF) (hB : B.x < 10 ∧ B.y < 10)
    (h : o.moveOrb A B = .ok o') :
    o'.positions.length = 9 ∧ ∀ x ∈ o'.positions, x.WF := by
  have hlen := (moveOrb_ok o o' A B h).2.2.2.2.2
  refine ⟨by rw [hlen]; exact hl, ?_⟩
  unfold OrbPositions.moveOrb at h
  split at h
  · cases h
  · split at h
    · cases h
    · split at h
      · cases h
      · injection h with h
        subst h
        intro x hx
        have hx1 := (sort_perm _).mem_iff.mp hx
        rcases mem_modifyFirst _ _ _ _ hx1 with hm | ⟨a, ha, _, hxa⟩
        · exact hw x hm
        · subst hxa
          obtain ⟨h1, _, _, _⟩ := hw a ha
          exact ⟨Or.inr hB, h1, by simp, fun h0 => by simp at h0⟩

theorem onBoard_of_isSource (p : Position) (b : Bool) (h : Board.isSource p = .ok b) :
    p.x < 10 ∧ p.y < 10 := by
  unfold Board.isSource BoardFrame.field FieldGrid.field at h
  by_contra hc
  by_cases hx : p.x ≥ setup.boardSize
  · rw [if_pos hx] at h; cases h
  · rw [if_neg hx] at h
    by_cases hy : p.y ≥ setup.boardSize
    · rw [if_pos hy] at h; cases h
    · simp only [setup.boardSize] at hx hy; omega

theorem Except.ite_eq_ok_iff {β : Type} (c : Prop) [Decidable c] (x y : Except String β)
    (b : β) : (if c then x else y) = .ok b ↔ (c ∧ x = .ok b) ∨ (¬c ∧ y = .ok b) := by
  by_cases h : c <;> simp [h]

theorem Except.error_eq_ok_iff {β : Type} (e : String) (b : β) :
    (Except.error e : Except String β) = .ok b ↔ False := by
  constructor
  · intro h; cases h
  · exact False.elim

/-- What a successful `OrbMove.applyTo` did. -/
theorem OrbMove.applyTo_ok (m : OrbMove) (g g' : GameState) (hm : m.applyTo g = .ok g') :
    ∃ oldS newS orbs, Board.isSource m.start = .ok oldS ∧ Board.isSource m.stop = .ok newS ∧
      g.orbPositions.moveOrb m.start m.stop = .ok orbs ∧
      (g' = { g with orbPositions := orbs } ∨
        ∃ orbs1, orbs.moveOrb Position.invalid m.start = .ok orbs1 ∧
          g' = { g with orbPositions := orbs1 }) := by
  unfold OrbMove.applyTo at hm
  simp only [Except.throw_bind, Except.pure_bind_eq, Except.bind_eq_ok_iff,
    Except.ite_throw_eq_ok, Except.pure_eq_ok_iff, Bool.not_eq_true', Bool.not_eq_false,
    Except.ite_eq_ok_iff, Except.error_eq_ok_iff, and_false, false_or, or_false] at hm
  obtain ⟨_, oldS, hold, newS, hnew, _, _, hrest⟩ := hm
  refine ⟨oldS, newS, ?_⟩
  have fin : ∀ orbs : OrbPositions, g.orbPositions.moveOrb m.start m.stop = .ok orbs →
      (((oldS && !newS && orbs.hasSpare) = true ∧
        ∃ a_1, orbs.moveOrb Position.invalid m.start = Except.ok a_1 ∧
          ({ g with orbPositions := a_1 } : GameState) = g') ∨
       (¬(oldS && !newS && orbs.hasSpare) = true ∧
          ({ g with orbPositions := orbs } : GameState) = g')) →
      ∃ orbs, Board.isSource m.start = .ok oldS ∧ Board.isSource m.stop = .ok newS ∧
        g.orbPositions.moveOrb m.start m.stop = .ok orbs ∧
        (g' = { g with orbPositions := orbs } ∨
          ∃ orbs1, orbs.moveOrb Position.invalid m.start = .ok orbs1 ∧
            g' = { g with orbPositions := orbs1 }) := by
    intro orbs hmv hfin
    refine ⟨orbs, hold, hnew, hmv, ?_⟩
    rcases hfin with ⟨_, orbs1, h1, h2⟩ | ⟨_, h2⟩
    · exact Or.inr ⟨orbs1, h1, h2.symm⟩
    · exact Or.inl h2.symm
  rcases hrest with ⟨_, _, _, _, hh⟩ | ⟨_, hh⟩
  · obtain ⟨_, _, _, _, _, _, _, orbs, hmv, hfin⟩ := hh
    exact fin orbs hmv hfin
  · obtain ⟨_, _, _, _, _, _, _, orbs, hmv, hfin⟩ := hh
    exact fin orbs hmv hfin

theorem OrbMove.orbMove_applyTo_WF (m : OrbMove) (g g' : GameState) (h : g.WF)
    (hm : m.applyTo g = .ok g') : g'.WF := by
  obtain ⟨oldS, newS, orbs, hold, hnew, hmv, hfin⟩ := OrbMove.applyTo_ok m g g' hm
  obtain ⟨hb1, hb2, ha1, ha2, ho1, ho2, hc1, hc2⟩ := h
  have hw1 := OrbPositions.moveOrb_WF _ _ _ _ ho1 ho2 (onBoard_of_isSource _ _ hnew) hmv
  rcases hfin with rfl | ⟨orbs1, hmv1, rfl⟩
  · exact ⟨hb1, hb2, ha1, ha2, hw1.1, hw1.2, hc1, hc2⟩
  · have hw2 := OrbPositions.moveOrb_WF _ _ _ _ hw1.1 hw1.2 (onBoard_of_isSource _ _ hold) hmv1
    exact ⟨hb1, hb2, ha1, ha2, hw2.1, hw2.2, hc1, hc2⟩

/-- The steps of a successful `executeMove`. -/
theorem GameState.executeMove_ok (g g' : GameState) (m : GameMove)
    (he : g.executeMove m = .ok g') :
    ∃ g1 g2 g3, g.nextTurn = .ok g1 ∧ m.actions.applyTo g1 = .ok g2 ∧
      (g3 = g2 ∨ g2.moveStoneToPlayer m.drawnStone 0 = .ok g3) ∧
      (g' = g3 ∨ m.orbMove.applyTo g3 = .ok g') := by
  unfold GameState.executeMove at he
  by_cases hd : (!m.drawnStone.empty) = true <;> by_cases hm : (!m.orbMove.isNoMove) = true <;>
    simp only [hd, hm, if_true, if_false, Except.bind_eq_ok_iff, Except.pure_eq_ok_iff,
      Bool.false_eq_true] at he
  · obtain ⟨g1, h1, g2, h2, g3, h3, h4⟩ := he
    exact ⟨g1, g2, g3, h1, h2, Or.inr h3, Or.inr h4⟩
  · obtain ⟨g1, h1, g2, h2, g3, h3, h4⟩ := he
    exact ⟨g1, g2, g3, h1, h2, Or.inr h3, Or.inl h4.symm⟩
  · obtain ⟨g1, h1, g2, h2, g3, h3, h4⟩ := he
    exact ⟨g1, g2, g3, h1, h2, Or.inl h3.symm, Or.inr h4⟩
  · obtain ⟨g1, h1, g2, h2, g3, h3, h4⟩ := he
    exact ⟨g1, g2, g3, h1, h2, Or.inl h3.symm, Or.inl h4.symm⟩

theorem GameState.executeMove_WF (g g' : GameState) (m : GameMove) (h : g.WF)
    (he : g.executeMove m = .ok g') : g'.WF := by
  obtain ⟨g1, g2, g3, h1, h2, h3, h4⟩ := GameState.executeMove_ok g g' m he
  have w1 := GameState.gameState_nextTurn_WF g g1 h h1
  have w2 := ActionSequence.actionSequence_applyTo_WF _ _ _ w1 h2
  have w3 : g3.WF := by
    rcases h3 with rfl | h3
    · exact w2
    · exact GameState.moveStoneToPlayer_WF _ _ _ _ w2 h3
  rcases h4 with rfl | h4
  · exact w3
  · exact OrbMove.orbMove_applyTo_WF _ _ _ w3 h4

theorem FieldGrid.fieldGrid_rotated_WF (fields fields' : List Field) (r : Rotation)
    (hw : ∀ f ∈ fields, f.WF) (h : FieldGrid.rotated 8 fields r = .ok fields') :
    fields'.length = 64 ∧ ∀ f ∈ fields', f.WF := by
  unfold FieldGrid.rotated at h
  refine foldlM_ok_inv _ (fun acc : List Field => acc.length = 64 ∧ ∀ f ∈ acc, f.WF) _ _ _ h
    ⟨by simp, fun f hf => by
      rw [List.eq_of_mem_replicate hf]; exact ⟨rfl, rfl⟩⟩ ?_
  intro acc p acc' hacc hstep
  simp only [Except.bind_eq_ok_iff] at hstep
  obtain ⟨f, hf, hset⟩ := hstep
  have hfm : f ∈ fields := List.get?_mem ((FieldGrid.field_ok_iff _ _ _ _).mp hf).2.2
  obtain ⟨_, _, _, rfl⟩ := (FieldGrid.setAt_ok_iff _ _ _ _ _).mp hset
  exact board_set_WF acc _ _ hacc.1 hacc.2 (Field.field_rotated_WF f r (hw f hfm))

set_option maxRecDepth 100000 in
theorem Position.rotated_onBoard : ∀ r : Rotation, ∀ x, x < 10 → ∀ y, y < 10 →
    ((Position.mk x y).rotated r 10).x < 10 ∧ ((Position.mk x y).rotated r 10).y < 10 := by
  decide

theorem Position.rotated_valid (p : Position) (r : Rotation) (h : p.Valid) :
    (p.rotated r setup.boardSize).Valid := by
  rcases h with rfl | ⟨hx, hy⟩
  · left; cases r <;> rfl
  · right; exact Position.rotated_onBoard r p.x hx p.y hy

theorem Position.rotated_invalid (r : Rotation) :
    Position.invalid.rotated r setup.boardSize = Position.invalid := by
  cases r <;> rfl

theorem OrbPositions.orbPositions_rotated_WF (o : OrbPositions) (r : Rotation)
    (hl : o.positions.length = 9) (hw : ∀ x ∈ o.positions, x.WF) :
    (o.rotated r).positions.length = 9 ∧ ∀ x ∈ (o.rotated r).positions, x.WF := by
  unfold OrbPositions.rotated
  have hperm := sort_perm ⟨o.positions.map fun op =>
    { op with position := op.position.rotated r setup.boardSize,
              koPosition := op.koPosition.rotated r setup.boardSize }⟩
  refine ⟨by rw [hperm.length_eq]; simp [hl], fun x hx => ?_⟩
  have hx1 := hperm.mem_iff.mp hx
  obtain ⟨y, hy, rfl⟩ := List.mem_map.mp hx1
  obtain ⟨h1, h2, h3, h4⟩ := hw y hy
  exact ⟨Position.rotated_valid _ r h1, Position.rotated_valid _ r h2, h3,
    fun h0 => by simp only [h4 h0]; exact Position.rotated_invalid r⟩

theorem ActionPools.actionPools_rotated_WF (a : ActionPools) (r : Rotation) (hl : a.pools.length = 4)
    (hp : ∀ x ∈ a.pools, x.stones.length = 6) :
    (a.rotated r).pools.length = 4 ∧ ∀ x ∈ (a.rotated r).pools, x.stones.length = 6 := by
  unfold ActionPools.rotated ActionPools.rotatedLeft
  split
  · exact ⟨hl, hp⟩
  · refine ⟨?_, fun x hx => ?_⟩
    · simp only [List.length_append, List.length_drop, List.length_take, hl]
      omega
    · rcases List.mem_append.mp hx with h | h
      · exact hp x (List.mem_of_mem_drop h)
      · exact hp x (List.mem_of_mem_take h)

theorem GameState.gameState_rotated_WF (g g' : GameState) (r : Rotation) (h : g.WF)
    (hr : g.rotated r = .ok g') : g'.WF := by
  unfold GameState.rotated Board.rotated at hr
  simp only [Except.bind_eq_ok_iff, Except.pure_eq_ok_iff] at hr
  obtain ⟨b, ⟨fields, hf, rfl⟩, rfl⟩ := hr
  obtain ⟨hb1, hb2, ha1, ha2, ho1, ho2, hc1, hc2⟩ := h
  have w1 := FieldGrid.fieldGrid_rotated_WF _ _ r hb2 hf
  have w2 := ActionPools.actionPools_rotated_WF g.actionPools r ha1 ha2
  have w3 := OrbPositions.orbPositions_rotated_WF g.orbPositions r ho1 ho2
  exact ⟨w1.1, w1.2, w2.1, w2.2, w3.1, w3.2, hc1, hc2⟩

set_option maxRecDepth 100000 in
theorem startingState_eq : GameState.createStartingGameState = .ok startingState := by
  decide

set_option maxRecDepth 100000 in
theorem startingState_WF : startingState.WF := by
  decide

theorem Reachable.wf (g : GameState) (h : Reachable g) : g.WF := by
  induction h with
  | start g hs =>
    rw [startingState_eq] at hs
    cases hs
    exact startingState_WF
  | setField g b p s o _ hb ih => exact GameState.WF_setField g b p s o ih hb
  | executeMove g g' m _ he ih => exact GameState.executeMove_WF g g' m ih he
  | moveOrb g orbs p q _ hx hy hm ih =>
    obtain ⟨hb1, hb2, ha1, ha2, ho1, ho2, hc1, hc2⟩ := ih
    have w := OrbPositions.moveOrb_WF _ _ _ _ ho1 ho2 ⟨hx, hy⟩ hm
    exact ⟨hb1, hb2, ha1, ha2, w.1, w.2, hc1, hc2⟩
  | nextTurn g _ ih =>
    obtain ⟨hb1, hb2, ha1, ha2, ho1, ho2, hc1, hc2⟩ := ih
    have w := OrbPositions.orbPositions_nextTurn_WF _ ho1 ho2
    exact ⟨hb1, hb2, ha1, ha2, w.1, w.2, hc1, hc2⟩
  | rotated g g' r _ hr ih => exact GameState.gameState_rotated_WF g g' r ih hr

set_option maxRecDepth 100000 in
theorem serializationSample_reachable : Reachable serializationSample :=
  Reachable.rotated firstPlaceState serializationSample Rotation.Clockwise270
    (Reachable.executeMove startingState firstPlaceState
      ⟨ActionSequence.one (Action.createPlace ⟨1, 1⟩ .Crossing .North), .Empty, OrbMove.noMove⟩
      (Reachable.start startingState startingState_eq) (by decide))
    (by decide)

theorem countP_set_add {α : Type} (P : α → Bool) (l : List α) (i : Nat) (a b : α)
    (h : l.get? i = some a) :
    (l.set i b).countP P + (if P a then 1 else 0) = l.countP P + (if P b then 1 else 0) := by
  induction l generalizing i with
  | nil => simp at h
  | cons x l ih =>
    cases i with
    | zero =>
      simp only [List.get?_cons_zero, Option.some.injEq] at h
      subst h
      simp only [List.set_cons_zero, List.countP_cons]
      omega
    | succ i =>
      simp only [List.get?_cons_succ] at h
      have := ih i h
      simp only [List.set_cons_succ, List.countP_cons]
      omega

theorem Board.board_countOf_set (b : Board) (i : Nat) (f0 f1 : Field) (s : Stone)
    (h : b.state.get? i = some f0) :
    (Board.mk (b.state.set i f1)).countOf s + (if f0.stone = s then 1 else 0) =
      b.countOf s + (if f1.stone = s then 1 else 0) := by
  have := countP_set_add (fun f : Field => f.stone == s) b.state i f0 f1 h
  simpa only [Board.countOf, beq_iff_eq] using this

theorem sum_map_set {α : Type} (f : α → Nat) (l : List α) (i : Nat) (a b : α)
    (h : l.get? i = some a) :
    ((l.set i b).map f).sum + f a = (l.map f).sum + f b := by
  induction l generalizing i with
  | nil => simp at h
  | cons x l ih =>
    cases i with
    | zero =>
      simp only [List.get?_cons_zero, Option.some.injEq] at h
      subst h
      simp only [List.set_cons_zero, List.map_cons, List.sum_cons]
      omega
    | succ i =>
      simp only [List.get?_cons_succ] at h
      have := ih i h
      simp only [List.set_cons_succ, List.map_cons, List.sum_cons]
      omega

theorem ActionPools.actionPools_countOf_set (a : ActionPools) (i : Nat) (p p' : StonePool) (s : Stone)
    (h : a.pools.get? i = some p) :
    (a.set i p').countOf s + p.stones.count s = a.countOf s + p'.stones.count s :=
  sum_map_set (fun p : StonePool => p.stones.count s) a.pools i p p' h

theorem ActionPools.get?_active (a : ActionPools) (h : a.pools.length = 4) :
    a.pools.get? 0 = some a.active := by
  unfold ActionPools.active
  cases hp : a.pools with
  | nil => rw [hp] at h; cases h
  | cons x l => rfl

theorem StonePool.count_take (p p' : StonePool) (t s : Stone) (hs : s ≠ Stone.Empty)
    (h : p.take t = .ok p') :
    p'.stones.count s + (if t = s then 1 else 0) = p.stones.count s := by
  have := (StonePool.stonePool_take_ok p p' t h).count_eq s
  rw [List.count_cons, List.count_cons] at this
  have he : (Stone.Empty == s) = false := by
    simp only [beq_eq_false_iff_ne, ne_eq]; exact fun hc => hs hc.symm
  simp only [he, beq_iff_eq] at this
  simpa using this

theorem StonePool.count_add (p p' : StonePool) (t s : Stone) (hs : s ≠ Stone.Empty)
    (hne : p.stones ≠ []) (h : p.add t = .ok p') :
    p'.stones.count s = p.stones.count s + (if t = s then 1 else 0) := by
  have := (StonePool.stonePool_add_ok p p' t hne h).2.2.count_eq s
  rw [List.count_cons, List.count_cons] at this
  have he : (Stone.Empty == s) = false := by
    simp only [beq_eq_false_iff_ne, ne_eq]; exact fun hc => hs hc.symm
  simp only [he, beq_iff_eq] at this
  simpa using this

theorem Stone.type_pred_inj : ∀ s t : Stone, s ≠ Stone.Empty → t ≠ Stone.Empty →
    s.type - 1 = t.type - 1 → s = t := by
  decide

theorem ResourcePool.resourcePool_countOf_set (r : ResourcePool) (t s : Stone) (c v : Nat)
    (ht : t ≠ Stone.Empty) (hs : s ≠ Stone.Empty)
    (hg : r.stoneCounts.get? (t.type - 1) = some c) :
    (ResourcePool.mk (r.stoneCounts.set (t.type - 1) v)).countOf s =
      (if t = s then v else r.countOf s) ∧ (t = s → r.countOf s = c) := by
  unfold ResourcePool.countOf
  have hlt := (List.get?_eq_some.mp hg).1
  by_cases hts : t = s
  · subst hts
    simp only [if_true, List.getD_eq_getElem?_getD, List.getElem?_set_self hlt, Option.getD_some,
      true_implies]
    rw [← List.get?_eq_getElem?, hg]
    simp
  · have hidx : t.type - 1 ≠ s.type - 1 := fun hc => hts (Stone.type_pred_inj t s ht hs hc)
    simp only [if_neg hts, List.getD_eq_getElem?_getD, List.getElem?_set_ne hidx, true_and]
    exact fun hc => absurd hc hts

theorem ResourcePool.countOf_add (r r' : ResourcePool) (t s : Stone) (n : Nat)
    (hs : s ≠ Stone.Empty) (hb : r.countOf t + n < 256) (h : r.add t n = .ok r') :
    r'.countOf s = r.countOf s + (if t = s then n else 0) := by
  obtain ⟨ht, c, hg, rfl⟩ := ResourcePool.resourcePool_add_ok r r' t n h
  obtain ⟨h1, h2⟩ := ResourcePool.resourcePool_countOf_set r t s c ((c + n) % 256) ht hs hg
  have hc : r.countOf t = c := (ResourcePool.resourcePool_countOf_set r t t c 0 ht ht hg).2 rfl
  rw [h1]
  by_cases hts : t = s
  · subst hts
    rw [if_pos rfl, if_pos rfl, hc, Nat.mod_eq_of_lt (by omega)]
  · rw [if_neg hts, if_neg hts]; rfl

theorem ResourcePool.countOf_take (r r' : ResourcePool) (t s : Stone) (n : Nat)
    (hs : s ≠ Stone.Empty) (h : r.take t n = .ok r') :
    r'.countOf s + (if t = s then n else 0) = r.countOf s := by
  obtain ⟨ht, c, hg, hn, rfl⟩ := ResourcePool.resourcePool_take_ok r r' t n h
  obtain ⟨h1, h2⟩ := ResourcePool.resourcePool_countOf_set r t s c (c - n) ht hs hg
  rw [h1]
  by_cases hts : t = s
  · rw [if_pos hts, if_pos hts, h2 hts]; omega
  · rw [if_neg hts, if_neg hts]; rfl

theorem Board.field_of_nonStatic (b : Board) (p : Position) (h : Board.isStatic p = .ok false) :
    b.field p = b.stateField p := by
  unfold Board.isStatic at h
  unfold Board.field
  cases hf : Board.frame.field p with
  | error e => rw [hf] at h; cases h
  | ok ff =>
    rw [hf] at h
    simp only [bind, Except.bind, pure, Except.pure, Except.ok.injEq] at h ⊢
    rw [h]; rfl

theorem Board.canPlayerPlaceStone_true (b : Board) (p : Position)
    (h : b.canPlayerPlaceStone p = .ok true) :
    Board.isStatic p = .ok false ∧ ∃ f, b.stateField p = .ok f ∧ f.stone = Stone.Empty := by
  unfold Board.canPlayerPlaceStone at h
  cases hs : Board.isStatic p with
  | error e => rw [hs] at h; cases h
  | ok st =>
    cases st with
    | true => rw [hs] at h; cases h
    | false =>
      refine ⟨rfl, ?_⟩
      rw [hs, Board.field_of_nonStatic b p hs] at h
      cases hf : b.stateField p with
      | error e => rw [hf] at h; cases h
      | ok f =>
        refine ⟨f, rfl, ?_⟩
        rw [hf] at h
        by_cases he : f.empty = true
        · revert he; unfold Field.empty Stone.empty; cases f.stone <;> simp [Stone.type]
        · simp only [Bool.not_eq_true] at he
          simp [bind, Except.bind, pure, Except.pure, he] at h

theorem Field.isValidChange_nonEmpty (f : Field) (s : Stone) (o : Orientation)
    (h : f.isValidChange s o = true) : f.stone ≠ Stone.Empty := by
  intro hc
  unfold Field.isValidChange Field.empty Stone.empty at h
  rw [hc] at h
  simp at h

theorem countOf_le_total (g : GameState) (s : Stone) :
    g.resourcePool.countOf s ≤ g.stoneTotal s := by
  unfold GameState.stoneTotal; omega

theorem Action.applyPlaceAction_total (a : Action) (g g' : GameState) (h : g.WF)
    (ha : a.applyPlaceAction g = .ok g') (s : Stone) (hs : s ≠ Stone.Empty) :
    g'.stoneTotal s = g.stoneTotal s := by
  unfold Action.applyPlaceAction at ha
  simp only [Except.throw_bind, Except.pure_bind_eq, Except.bind_eq_ok_iff,
    Except.ite_throw_eq_ok, Except.pure_eq_ok_iff, Bool.not_eq_true', Bool.not_eq_false] at ha
  obtain ⟨_, _, _, can, hcan, hct, b, hb, pool1, hp, rfl⟩ := ha
  subst hct
  obtain ⟨_, f, hf, hfe⟩ := Board.canPlayerPlaceStone_true _ _ hcan
  obtain ⟨_, f0, hf0, _, rfl⟩ := Board.setField_ok _ _ _ _ _ hb
  rw [hf] at hf0; cases hf0
  have h1 := Board.board_countOf_set g.board (Board.stateIndex a.position) f
    (f.setStone a.actionStone a.orientation) s ((Board.stateField_ok_iff _ _ _).mp hf).2.2
  have h2 := ActionPools.actionPools_countOf_set g.actionPools 0 _ pool1 s (ActionPools.get?_active _ h.2.2.1)
  have h3 := StonePool.count_take _ _ _ s hs hp
  have h4 : f.stone ≠ s := by rw [hfe]; exact fun hc => hs hc.symm
  rw [if_neg h4] at h1
  have e : (f.setStone a.actionStone a.orientation).stone = a.actionStone := rfl
  rw [e] at h1
  unfold GameState.stoneTotal
  simp only
  omega

theorem Board.canPlayerReplaceStone_true (b : Board) (p : Position) (st : Stone) (o : Orientation)
    (h : b.canPlayerReplaceStone p st o = .ok true) :
    Board.isStatic p = .ok false ∧ ∃ f, b.stateField p = .ok f ∧ f.isValidChange st o = true := by
  unfold Board.canPlayerReplaceStone at h
  cases hs : Board.isStatic p with
  | error e => rw [hs] at h; cases h
  | ok st =>
    cases st with
    | true => rw [hs] at h; cases h
    | false =>
      refine ⟨rfl, ?_⟩
      rw [hs] at h
      cases hf : b.stateField p with
      | error e => rw [hf] at h; cases h
      | ok f =>
        refine ⟨f, rfl, ?_⟩
        rw [hf] at h
        simpa [bind, Except.bind, pure, Except.pure] using h

theorem Action.applyReplaceAction_total (a : Action) (g g' : GameState) (h : g.WF)
    (hbd : ∀ t, t ≠ Stone.Empty → g.stoneTotal t ≤ 200)
    (ha : a.applyReplaceAction g = .ok g') (s : Stone) (hs : s ≠ Stone.Empty) :
    g'.stoneTotal s = g.stoneTotal s := by
  unfold Action.applyReplaceAction at ha
  simp only [Except.throw_bind, Except.pure_bind_eq, Except.bind_eq_ok_iff,
    Except.ite_throw_eq_ok, Except.pure_eq_ok_iff, Bool.not_eq_true', Bool.not_eq_false] at ha
  obtain ⟨_, _, _, _, can, hcan, hct, old, hold, rp1, hr1, pool1, hp1, b, hb, pool2, hp2, rp2,
    hr2, rfl⟩ := ha
  subst hct
  obtain ⟨hst, f, hf, hfv⟩ := Board.canPlayerReplaceStone_true _ _ _ _ hcan
  obtain ⟨_, f0, hf0, _, rfl⟩ := Board.setField_ok _ _ _ _ _ hb
  have e1 : f0 = f := by rw [hf] at hf0; exact (Except.ok.inj hf0).symm
  have e2 : old = f := by
    rw [Board.field_of_nonStatic _ _ hst, hf] at hold; exact (Except.ok.inj hold).symm
  rw [e1]
  rw [e2] at hr1
  have hold_ne := (ResourcePool.resourcePool_add_ok _ _ _ _ hr1).1
  have hdrop_ne := (ResourcePool.resourcePool_add_ok _ _ _ _ hr2).1
  have h1 := Board.board_countOf_set g.board (Board.stateIndex a.position) f
    (f.setStone a.actionStone a.orientation) s ((Board.stateField_ok_iff _ _ _).mp hf).2.2
  have e : (f.setStone a.actionStone a.orientation).stone = a.actionStone := rfl
  rw [e] at h1
  have h2 := ActionPools.actionPools_countOf_set g.actionPools 0 _ pool2 s (ActionPools.get?_active _ h.2.2.1)
  have h3 := StonePool.count_take _ _ _ s hs hp1
  have h4 := StonePool.count_take _ _ _ s hs hp2
  have b1 := countOf_le_total g f.stone
  have b2 := hbd _ hold_ne
  have h5 := ResourcePool.countOf_add _ _ _ s 1 hs (by omega) hr1
  have h5d := ResourcePool.countOf_add _ _ _ a.droppedStone 1 hdrop_ne (by omega) hr1
  have b3 := countOf_le_total g a.droppedStone
  have b4 := hbd _ hdrop_ne
  have h6 := ResourcePool.countOf_add _ _ _ s 1 hs (by split at h5d <;> omega) hr2
  unfold GameState.stoneTotal
  simp only
  omega

theorem Board.canPlayerRotateStone_true (b : Board) (p : Position) (o : Orientation)
    (h : b.canPlayerRotateStone p o = .ok true) :
    Board.isStatic p = .ok false ∧ ∃ f, b.stateField p = .ok f := by
  unfold Board.canPlayerRotateStone at h
  cases hs : Board.isStatic p with
  | error e => rw [hs] at h; cases h
  | ok st =>
    cases st with
    | true => rw [hs] at h; cases h
    | false =>
      refine ⟨rfl, ?_⟩
      rw [hs] at h
      cases hf : b.stateField p with
      | error e => rw [hf] at h; cases h
      | ok f => exact ⟨f, rfl⟩

theorem Action.applyRotateAction_total (a : Action) (g g' : GameState) (h : g.WF)
    (hbd : ∀ t, t ≠ Stone.Empty → g.stoneTotal t ≤ 200)
    (ha : a.applyRotateAction g = .ok g') (s : Stone) (hs : s ≠ Stone.Empty) :
    g'.stoneTotal s = g.stoneTotal s := by
  unfold Action.applyRotateAction at ha
  simp only [Except.throw_bind, Except.pure_bind_eq, Except.bind_eq_ok_iff,
    Except.ite_throw_eq_ok, Except.pure_eq_ok_iff, Bool.not_eq_true', Bool.not_eq_false] at ha
  obtain ⟨_, _, _, _, _, _, _, _, b, hb, pool1, hp1, rp, hr, rfl⟩ := ha
  obtain ⟨_, f0, hf0, _, rfl⟩ := Board.setNewOrientation_ok _ _ _ _ hb
  have hdrop_ne := (ResourcePool.resourcePool_add_ok _ _ _ _ hr).1
  have h1 := Board.board_countOf_set g.board (Board.stateIndex a.position) f0
    (f0.setOrientation a.orientation) s ((Board.stateField_ok_iff _ _ _).mp hf0).2.2
  have e : (f0.setOrientation a.orientation).stone = f0.stone := rfl
  rw [e] at h1
  have h2 := ActionPools.actionPools_countOf_set g.actionPools 0 _ pool1 s (ActionPools.get?_active _ h.2.2.1)
  have h3 := StonePool.count_take _ _ _ s hs hp1
  have b3 := countOf_le_total g a.droppedStone
  have b4 := hbd _ hdrop_ne
  have h6 := ResourcePool.countOf_add _ _ _ s 1 hs (by omega) hr
  unfold GameState.stoneTotal
  simp only
  omega

theorem Action.applyDrawAction_total (a : Action) (g g' : GameState) (h : g.WF)
    (ha : a.applyDrawAction g = .ok g') (s : Stone) (hs : s ≠ Stone.Empty) :
    g'.stoneTotal s = g.stoneTotal s := by
  unfold Action.applyDrawAction at ha
  simp only [Except.throw_bind, Except.pure_bind_eq, Except.bind_eq_ok_iff,
    Except.ite_throw_eq_ok, Except.pure_eq_ok_iff, Bool.not_eq_true', Bool.not_eq_false] at ha
  obtain ⟨_, _, _, _, rp, hr, pool1, hp1, rfl⟩ := ha
  have h6 := h.2.2.2.1 _ (ActionPools.active_mem _ h.2.2.1)
  have h2 := ActionPools.actionPools_countOf_set g.actionPools 0 _ pool1 s (ActionPools.get?_active _ h.2.2.1)
  have h3 := StonePool.count_add _ _ _ s hs (stones_ne_nil _ h6) hp1
  have h4 := ResourcePool.countOf_take _ _ _ s 1 hs hr
  unfold GameState.stoneTotal
  simp only
  omega

theorem GameState.moveStoneToPlayer_total (g g' : GameState) (t : Stone) (player : Nat)
    (h : g.WF) (hm : g.moveStoneToPlayer t player = .ok g') (s : Stone)
    (hs : s ≠ Stone.Empty) : g'.stoneTotal s = g.stoneTotal s := by
  unfold GameState.moveStoneToPlayer at hm
  simp only [Except.throw_bind, Except.pure_bind_eq, Except.bind_eq_ok_iff,
    Except.ite_throw_eq_ok, Except.pure_eq_ok_iff, Bool.not_eq_true', Bool.not_eq_false] at hm
  obtain ⟨_, _, _, pool, hpool, _, rp, hr, pool1, hp1, rfl⟩ := hm
  have h6 := h.2.2.2.1 _ (ActionPools.get_mem _ _ _ hpool)
  have hget : g.actionPools.pools.get? player = some pool := by
    unfold ActionPools.get at hpool
    cases hg : g.actionPools.pools.get? player with
    | none => rw [hg] at hpool; cases hpool
    | some x => rw [hg] at hpool; cases hpool; rfl
  have h2 := ActionPools.actionPools_countOf_set g.actionPools player _ pool1 s hget
  have h3 := StonePool.count_add _ _ _ s hs (stones_ne_nil _ h6) hp1
  have h4 := ResourcePool.countOf_take _ _ _ s 1 hs hr
  unfold GameState.stoneTotal
  simp only
  omega

theorem Action.action_applyTo_total (a : Action) (g g' : GameState) (h : g.WF)
    (hbd : ∀ t, t ≠ Stone.Empty → g.stoneTotal t ≤ 200)
    (ha : a.applyTo g = .ok g') (s : Stone) (hs : s ≠ Stone.Empty) :
    g'.stoneTotal s = g.stoneTotal s := by
  unfold Action.applyTo at ha
  split at ha
  · exact Action.applyPlaceAction_total a g g' h ha s hs
  · exact Action.applyReplaceAction_total a g g' h hbd ha s hs
  · exact Action.applyRotateAction_total a g g' h hbd ha s hs
  · exact Action.applyDrawAction_total a g g' h ha s hs
  · cases ha; rfl

theorem ActionSequence.actionSequence_applyTo_total (q : ActionSequence) (g g' : GameState) (h : g.WF)
    (hbd : ∀ t, t ≠ Stone.Empty → g.stoneTotal t ≤ 200)
    (ha : q.applyTo g = .ok g') (s : Stone) (hs : s ≠ Stone.Empty) :
    g'.stoneTotal s = g.stoneTotal s := by
  unfold ActionSequence.applyTo at ha
  have := foldlM_ok_inv _
    (fun acc : GameState => acc.WF ∧ ∀ t, t ≠ Stone.Empty → acc.stoneTotal t = g.stoneTotal t)
    _ _ _ ha ⟨h, fun _ _ => rfl⟩ ?_
  · exact this.2 s hs
  · intro acc x acc' hacc hstep
    split at hstep
    · exact ⟨Action.action_applyTo_WF x acc acc' hacc.1 hstep, fun t ht => by
        rw [Action.action_applyTo_total x acc acc' hacc.1
          (fun u hu => by rw [hacc.2 u hu]; exact hbd u hu) hstep t ht]
        exact hacc.2 t ht⟩
    · cases hstep; exact hacc

theorem countP_sameStone (l l' : List Field) (h : List.Forall₂ Field.sameStone l l') (s : Stone) :
    l'.countP (fun f => f.stone == s) = l.countP (fun f => f.stone == s) := by
  induction h with
  | nil => rfl
  | cons hab _ ih =>
    simp only [List.countP_cons, ih, hab.1]

theorem GameState.nextTurn_total (g g' : GameState) (h : g.WF) (hn : g.nextTurn = .ok g')
    (s : Stone) : g'.stoneTotal s = g.stoneTotal s := by
  obtain ⟨g1, h1, hs, _, ha, hr⟩ := GameState.gameState_nextTurn_ok g h.1
  rw [h1] at hn
  cases hn
  unfold GameState.stoneTotal Board.countOf
  rw [countP_sameStone _ _ hs s, ha, hr]

theorem OrbMove.orbMove_applyTo_total (m : OrbMove) (g g' : GameState) (hm : m.applyTo g = .ok g')
    (s : Stone) : g'.stoneTotal s = g.stoneTotal s := by
  obtain ⟨_, _, orbs, _, _, _, hfin⟩ := OrbMove.applyTo_ok m g g' hm
  rcases hfin with rfl | ⟨orbs1, _, rfl⟩ <;> rfl

/-- A successful move keeps the number of stones of every kind, provided the counts
are far from the range of a byte. -/
theorem GameState.executeMove_total (g g' : GameState) (m : GameMove) (h : g.WF)
    (hbd : ∀ t, t ≠ Stone.Empty → g.stoneTotal t ≤ 200)
    (he : g.executeMove m = .ok g') (s : Stone) (hs : s ≠ Stone.Empty) :
    g'.stoneTotal s = g.stoneTotal s := by
  obtain ⟨g1, g2, g3, h1, h2, h3, h4⟩ := GameState.executeMove_ok g g' m he
  have w1 := GameState.gameState_nextTurn_WF g g1 h h1
  have t1 := GameState.nextTurn_total g g1 h h1
  have w2 := ActionSequence.actionSequence_applyTo_WF _ _ _ w1 h2
  have t2 := ActionSequence.actionSequence_applyTo_total _ _ _ w1 (fun t ht => by rw [t1]; exact hbd t ht) h2 s hs
  have t3 : g3.stoneTotal s = g2.stoneTotal s := by
    rcases h3 with rfl | h3
    · rfl
    · exact GameState.moveStoneToPlayer_total _ _ _ _ w2 h3 s hs
  have t4 : g'.stoneTotal s = g3.stoneTotal s := by
    rcases h4 with rfl | h4
    · rfl
    · exact OrbMove.orbMove_applyTo_total _ _ _ h4 s
  rw [t4, t3, t2, t1]

theorem Field.rotated_stone (f : Field) (r : Rotation) : (f.rotated r).stone = f.stone := by
  unfold Field.rotated
  split <;> rfl

theorem rotated_fold_count (fields : List Field) (r : Rotation) (s : Stone)
    (items : List Position) (acc res : List Field)
    (hnd : (items.map fun p => gridIndex (FieldGrid.rotatedPosition 8 r p)).Nodup)
    (hacc : ∀ p ∈ items, ∀ x,
      acc.get? (gridIndex (FieldGrid.rotatedPosition 8 r p)) = some x → x.stone ≠ s)
    (h : items.foldlM (fun result sourcePosition => do
        let f ← FieldGrid.field 8 fields sourcePosition
        FieldGrid.setAt 8 result (FieldGrid.rotatedPosition 8 r sourcePosition) (f.rotated r))
      acc = .ok res) :
    res.countP (fun f => f.stone == s) = acc.countP (fun f => f.stone == s) +
      (items.map fun p => fields.getD (gridIndex p) Field.default).countP
        (fun f => f.stone == s) := by
  induction items generalizing acc with
  | nil => cases h; simp
  | cons p rest ih =>
    rw [List.foldlM_cons] at h
    obtain ⟨acc1, h1, h2⟩ := (Except.bind_eq_ok_iff _ _ _).mp h
    obtain ⟨f, hf, hset⟩ := (Except.bind_eq_ok_iff _ _ _).mp h1
    have hget := ((FieldGrid.field_ok_iff _ _ _ _).mp hf).2.2
    obtain ⟨_, _, hlt, rfl⟩ := (FieldGrid.setAt_ok_iff _ _ _ _ _).mp hset
    rw [List.map_cons, List.nodup_cons] at hnd
    have hrest : ∀ q ∈ rest, ∀ x,
        (acc.set (gridIndex (FieldGrid.rotatedPosition 8 r p)) (f.rotated r)).get?
          (gridIndex (FieldGrid.rotatedPosition 8 r q)) = some x → x.stone ≠ s := by
      intro q hq x hx
      have hne : gridIndex (FieldGrid.rotatedPosition 8 r p) ≠
          gridIndex (FieldGrid.rotatedPosition 8 r q) := by
        intro hc
        apply hnd.1
        rw [hc]
        exact List.mem_map_of_mem _ hq
      rw [List.get?_eq_getElem?, List.getElem?_set_ne hne, ← List.get?_eq_getElem?] at hx
      exact hacc q (List.mem_cons_of_mem _ hq) x hx
    have := ih _ hnd.2 hrest h2
    rw [this]
    have hold : acc.get? (gridIndex (FieldGrid.rotatedPosition 8 r p)) =
        some (acc.get ⟨_, hlt⟩) := List.get?_eq_get hlt
    have h0 := hacc p (List.mem_cons_self _ _) _ hold
    have hc := countP_set_add (fun f : Field => f.stone == s) acc _ _ (f.rotated r) hold
    have e0 : ((acc.get ⟨_, hlt⟩).stone == s) = false := by
      simp only [beq_eq_false_iff_ne, ne_eq]; exact h0
    have e1 : fields.getD (gridIndex p) Field.default = f := by
      rw [List.getD_eq_getElem?_getD, ← List.get?_eq_getElem?]
      show (fields.get? (p.y * 8 + p.x)).getD _ = f
      rw [hget]; rfl
    simp only [e0, Field.rotated_stone, Bool.false_eq_true, if_false] at hc
    simp only [List.map_cons, List.countP_cons, e1]
    omega

set_option maxRecDepth 100000 in
theorem rotated_indices_nodup : ∀ r : Rotation,
    ((FieldGrid.loopPositions 8).map fun p =>
      gridIndex (FieldGrid.rotatedPosition 8 r p)).Nodup := by
  decide

set_option maxRecDepth 100000 in
theorem loopPositions_indices :
    (FieldGrid.loopPositions 8).map gridIndex = List.range 64 := by
  decide

theorem map_getD_range {α : Type} (l : List α) (d : α) :
    (List.range l.length).map (fun i => l.getD i d) = l := by
  apply List.ext_getElem
  · simp
  · intro i h1 h2
    simp only [List.getElem_map, List.getElem_range, List.getD_eq_getElem?_getD,
      List.getElem?_eq_getElem h2, Option.getD_some]

theorem FieldGrid.rotated_count (fields fields' : List Field) (r : Rotation) (s : Stone)
    (hs : s ≠ Stone.Empty) (hl : fields.length = 64)
    (h : FieldGrid.rotated 8 fields r = .ok fields') :
    fields'.countP (fun f => f.stone == s) = fields.countP (fun f => f.stone == s) := by
  unfold FieldGrid.rotated at h
  have hc := rotated_fold_count fields r s _ _ _ (rotated_indices_nodup r) ?_ h
  · rw [hc]
    have e1 : (List.replicate (8 * 8) Field.default).countP (fun f => f.stone == s) = 0 := by
      rw [List.countP_eq_zero]
      intro x hx
      rw [List.eq_of_mem_replicate hx]
      simp only [beq_iff_eq]
      exact fun hc => hs hc.symm
    have e2 : (FieldGrid.loopPositions 8).map (fun p => fields.getD (gridIndex p) Field.default)
        = fields := by
      have := map_getD_range fields Field.default
      rw [hl, ← loopPositions_indices, List.map_map] at this
      exact this
    rw [e1, e2, Nat.zero_add]
  · intro p _ x hx
    have := List.get?_mem hx
    rw [List.eq_of_mem_replicate this]
    exact fun hc => hs hc.symm

theorem ActionPools.rotated_countOf (a : ActionPools) (r : Rotation) (s : Stone) :
    (a.rotated r).countOf s = a.countOf s := by
  unfold ActionPools.rotated ActionPools.rotatedLeft ActionPools.countOf
  split
  · rfl
  · simp only [List.map_append, List.sum_append, List.map_drop, List.map_take]
    rw [Nat.add_comm]
    exact List.sum_take_add_sum_drop _ _

theorem GameState.rotated_total (g g' : GameState) (r : Rotation) (h : g.WF)
    (hr : g.rotated r = .ok g') (s : Stone) (hs : s ≠ Stone.Empty) :
    g'.stoneTotal s = g.stoneTotal s := by
  unfold GameState.rotated Board.rotated at hr
  simp only [Except.bind_eq_ok_iff, Except.pure_eq_ok_iff] at hr
  obtain ⟨b, ⟨fields, hf, rfl⟩, rfl⟩ := hr
  unfold GameState.stoneTotal Board.countOf
  simp only
  rw [FieldGrid.rotated_count _ _ r s hs h.1 hf, ActionPools.rotated_countOf]

set_option maxRecDepth 100000 in
theorem startingState_total_le : ∀ s : Stone, startingState.stoneTotal s ≤ 200 := by
  decide

/-- Every state reached by play is well formed and holds the stones of the starting state. -/
theorem ReachableByPlay.inv (g : GameState) (h : ReachableByPlay g) :
    g.WF ∧ ∀ s, s ≠ Stone.Empty → g.stoneTotal s = startingState.stoneTotal s := by
  induction h with
  | start g hs =>
    rw [startingState_eq] at hs
    cases hs
    exact ⟨startingState_WF, fun _ _ => rfl⟩
  | executeMove g g' m _ he ih =>
    refine ⟨GameState.executeMove_WF g g' m ih.1 he, fun s hs => ?_⟩
    rw [GameState.executeMove_total g g' m ih.1
      (fun t ht => by rw [ih.2 t ht]; exact startingState_total_le t) he s hs]
    exact ih.2 s hs
  | rotated g g' r _ hr ih =>
    refine ⟨GameState.gameState_rotated_WF g g' r ih.1 hr, fun s hs => ?_⟩
    rw [GameState.rotated_total g g' r ih.1 hr s hs]
    exact ih.2 s hs

/-- Claim C4: for every state reached from the starting state by moves and rotations and
every move that `executeMove` completes without error, the number of stones of each
kind on the 64 interior fields, in the four action pools and in the resource pool
together is the same before and after the move. -/
theorem executeMove_conserves_stones (g g' : GameState) (m : GameMove)
    (hg : ReachableByPlay g) (he : g.executeMove m = .ok g') :
    ∀ s, s ≠ Stone.Empty → g'.stoneTotal s = g.stoneTotal s := by
  intro s hs
  have hi := ReachableByPlay.inv g hg
  exact GameState.executeMove_total g g' m hi.1
    (fun t ht => by rw [hi.2 t ht]; exact startingState_total_le t) he s hs

set_option maxRecDepth 100000 in
theorem firstPlaceState_reachableByPlay : ReachableByPlay firstPlaceState :=
  ReachableByPlay.executeMove startingState firstPlaceState
    ⟨ActionSequence.one (Action.createPlace ⟨1, 1⟩ .Crossing .North), .Empty, OrbMove.noMove⟩
    (ReachableByPlay.start startingState startingState_eq) (by decide)

set_option maxRecDepth 100000 in
theorem stateAfterReplace_eq :
    firstPlaceState.executeMove replaceMove = .ok stateAfterReplace := by
  decide

/-- C4 at a sample: the replace move after the first placement. -/
theorem executeMove_conserves_witness :
    ReachableByPlay firstPlaceState ∧
    firstPlaceState.executeMove replaceMove = .ok stateAfterReplace ∧
    ∀ s, s ≠ Stone.Empty → stateAfterReplace.stoneTotal s = firstPlaceState.stoneTotal s :=
  ⟨firstPlaceState_reachableByPlay, stateAfterReplace_eq,
   executeMove_conserves_stones firstPlaceState stateAfterReplace replaceMove
     firstPlaceState_reachableByPlay stateAfterReplace_eq⟩

/-! ### Applicability of the generated actions -/

set_option maxRecDepth 100000 in
theorem nonStatic_indices_nodup : (Board.allNonStaticPositions.map Board.stateIndex).Nodup := by
  decide

theorem nonStatic_nodup : Board.allNonStaticPositions.Nodup :=
  List.Nodup.of_map _ nonStatic_indices_nodup

theorem stateIndex_ne (p q : Position) (hp : p ∈ Board.allNonStaticPositions)
    (hq : q ∈ Board.allNonStaticPositions) (hne : p ≠ q) :
    Board.stateIndex p ≠ Board.stateIndex q :=
  fun hc => hne (List.inj_on_of_nodup_map nonStatic_indices_nodup hp hq hc)

theorem nonStatic_isStatic (p : Position) (hp : p ∈ Board.allNonStaticPositions) :
    Board.isStatic p = .ok false := by
  unfold Board.allNonStaticPositions at hp
  simpa using (List.mem_filter.mp hp).2

theorem Board.stateField_set_ne (b : Board) (i : Nat) (f : Field) (q : Position)
    (hne : i ≠ Board.stateIndex q) :
    (Board.mk (b.state.set i f)).stateField q = b.stateField q := by
  have hne' : i ≠ (q.sub (Position.make 1 1)).y * Board.stateSize +
      (q.sub (Position.make 1 1)).x := hne
  unfold Board.stateField FieldGrid.field
  simp only [List.get?_eq_getElem?]
  rw [List.getElem?_set_ne hne']

theorem Board.field_congr (b b' : Board) (q : Position) (h : b'.stateField q = b.stateField q) :
    b'.field q = b.field q := by
  unfold Board.field
  rw [h]

theorem Board.canPlayerPlaceStone_congr (b b' : Board) (q : Position)
    (h : b'.stateField q = b.stateField q) :
    b'.canPlayerPlaceStone q = b.canPlayerPlaceStone q := by
  unfold Board.canPlayerPlaceStone
  rw [Board.field_congr b b' q h]

theorem Board.canPlayerReplaceStone_congr (b b' : Board) (q : Position) (s : Stone)
    (o : Orientation) (h : b'.stateField q = b.stateField q) :
    b'.canPlayerReplaceStone q s o = b.canPlayerReplaceStone q s o := by
  unfold Board.canPlayerReplaceStone
  rw [h]

theorem Board.canPlayerRotateStone_congr (b b' : Board) (q : Position)
    (o : Orientation) (h : b'.stateField q = b.stateField q) :
    b'.canPlayerRotateStone q o = b.canPlayerRotateStone q o := by
  unfold Board.canPlayerRotateStone
  rw [h]

/-- On a non-static position with a state field, `setField` succeeds. -/
theorem Board.setField_succeeds (b : Board) (p : Position) (s : Stone) (o : Orientation)
    (f : Field) (hs : Board.isStatic p = .ok false) (hf : b.stateField p = .ok f) :
    b.setField p s o = .ok ⟨b.state.set (Board.stateIndex p) (f.setStone s o)⟩ := by
  have h := (Board.stateField_ok_iff b p f).mp hf
  have hlt := (List.get?_eq_some.mp h.2.2).1
  have h2 := (Board.setStateField_ok_iff b ⟨b.state.set (Board.stateIndex p) (f.setStone s o)⟩ p
    (f.setStone s o)).mpr ⟨h.1, h.2.1, hlt, rfl⟩
  unfold Board.setField
  rw [hs, hf]
  simpa [bind, Except.bind, pure, Except.pure] using h2

/-- On a non-static position with a state field that can rotate, `setNewOrientation`
succeeds. -/
theorem Board.setNewOrientation_succeeds (b : Board) (p : Position) (o : Orientation)
    (f : Field) (hs : Board.isStatic p = .ok false) (hf : b.stateField p = .ok f)
    (hr : f.canRotate = true) :
    b.setNewOrientation p o = .ok ⟨b.state.set (Board.stateIndex p) (f.setOrientation o)⟩ := by
  have h := (Board.stateField_ok_iff b p f).mp hf
  have hlt := (List.get?_eq_some.mp h.2.2).1
  have h2 := (Board.setStateField_ok_iff b ⟨b.state.set (Board.stateIndex p) (f.setOrientation o)⟩
    p (f.setOrientation o)).mpr ⟨h.1, h.2.1, hlt, rfl⟩
  unfold Board.setNewOrientation
  rw [hs, hf]
  simpa [bind, Except.bind, pure, Except.pure, hr] using h2


/-! #### The stone pool -/

theorem StonePool.stoneCount_spec (p : StonePool) (hl : p.stones.length < 256) :
    p.stoneCount ≤ p.stones.length ∧
    (∀ j, j < p.stoneCount → p.stones[j]? ≠ some Stone.Empty) ∧
    (p.stoneCount < p.stones.length → p.stones[p.stoneCount]? = some Stone.Empty) := by
  unfold StonePool.stoneCount List.indexOf?
  cases h : List.findIdx? (fun x => x == Stone.Empty) p.stones with
  | none =>
    rw [List.findIdx?_eq_none_iff] at h
    refine ⟨le_refl _, fun j hj hc => ?_, fun hc => absurd hc (lt_irrefl _)⟩
    have := h _ (List.get?_mem (by rw [List.get?_eq_getElem?]; exact hc))
    simp at this
  | some i =>
    obtain ⟨hi, hp, hlt⟩ := List.findIdx?_eq_some_iff_getElem.mp h
    have him : i % 256 = i := Nat.mod_eq_of_lt (by omega)
    simp only [him]
    refine ⟨by omega, fun j hj hc => ?_, fun _ => ?_⟩
    · have hjl : j < p.stones.length := by omega
      rw [List.getElem?_eq_getElem hjl, Option.some.injEq] at hc
      exact hlt j hj (by simp [hc])
    · rw [List.getElem?_eq_getElem hi]
      simp only [beq_iff_eq] at hp
      rw [hp]

theorem StonePool.le_stoneCount (p : StonePool) (hl : p.stones.length < 256) (k : Nat)
    (hk : k ≤ p.stones.length) (h : ∀ j, j < k → p.stones[j]? ≠ some Stone.Empty) :
    k ≤ p.stoneCount := by
  obtain ⟨h1, _, h3⟩ := StonePool.stoneCount_spec p hl
  by_contra hc
  exact h p.stoneCount (by omega) (h3 (by omega))

theorem StonePool.take_eq (p p' : StonePool) (s : Stone) (h : p.take s = .ok p') :
    ∃ i, i < p.stones.length ∧ p'.stones = p.stones.eraseIdx i ++ [Stone.Empty] := by
  unfold StonePool.take at h
  cases hi : p.stones.indexOf? s with
  | none => rw [hi] at h; cases h
  | some i =>
    rw [hi] at h
    simp only [Except.ok.injEq] at h
    subst h
    refine ⟨i, (List.get?_eq_some.mp (indexOf?_some hi)).1, ?_⟩
    rw [List.eraseIdx_eq_take_drop_succ]

/-- Taking a stone lowers the stone count by at most one. -/
theorem StonePool.stoneCount_take (p p' : StonePool) (s : Stone) (hl : p.stones.length < 256)
    (h : p.take s = .ok p') : p.stoneCount ≤ p'.stoneCount + 1 := by
  obtain ⟨i, hi, he⟩ := StonePool.take_eq p p' s h
  obtain ⟨h1, h2, _⟩ := StonePool.stoneCount_spec p hl
  have hlen : p'.stones.length = p.stones.length := StonePool.take_length p p' s h
  have := StonePool.le_stoneCount p' (by omega) (p.stoneCount - 1) (by omega) ?_
  · omega
  · intro j hj
    rw [he]
    have hjl : j < (p.stones.eraseIdx i).length := by
      rw [List.length_eraseIdx, if_pos hi]; omega
    rw [List.getElem?_append_left hjl, List.getElem?_eraseIdx]
    split
    · exact h2 j (by omega)
    · exact h2 (j + 1) (by omega)

theorem StonePool.stonePool_take_succeeds (p : StonePool) (s : Stone) (h : s ∈ p.stones) :
    ∃ p', p.take s = .ok p' := by
  unfold StonePool.take
  cases hi : p.stones.indexOf? s with
  | none => exact absurd h (indexOf?_none hi)
  | some i => exact ⟨_, rfl⟩

theorem StonePool.empty_iff (p : StonePool) (hl : p.stones.length < 256)
    (hne : p.stones ≠ []) : p.empty = true ↔ p.stoneCount = 0 := by
  obtain ⟨h1, h2, h3⟩ := StonePool.stoneCount_spec p hl
  unfold StonePool.empty
  cases hs : p.stones with
  | nil => exact absurd hs hne
  | cons x l =>
    simp only [List.headD_cons, beq_iff_eq]
    constructor
    · intro hx
      by_contra hc
      have := h2 0 (by omega)
      rw [hs, hx] at this
      exact this (by simp)
    · intro h0
      have := h3 (by rw [h0, hs]; simp)
      rw [h0, hs] at this
      simpa using this

theorem Stone.type_eq_zero : ∀ s : Stone, s.type = 0 → s = Stone.Empty := by
  decide

theorem StonePool.canonical_empty_after (p : StonePool) (hc : p.Canonical) (i j : Nat)
    (hij : i ≤ j) (hj : j < p.stones.length) (hi : p.stones[i]? = some Stone.Empty) :
    p.stones[j]? = some Stone.Empty := by
  rcases Nat.eq_or_lt_of_le hij with rfl | hlt
  · exact hi
  · have hil : i < p.stones.length := by omega
    have := List.pairwise_iff_getElem.mp hc i j hil hj hlt
    rw [List.getElem?_eq_getElem hil, Option.some.injEq] at hi
    rw [hi] at this
    rw [List.getElem?_eq_getElem hj, Stone.type_eq_zero _ (Nat.le_zero.mp this)]

/-- In canonical form the slots from the stone count on are empty. -/
theorem StonePool.canonical_empty_from (p : StonePool) (hl : p.stones.length < 256)
    (hc : p.Canonical) (j : Nat) (hj : j < p.stones.length) (hk : p.stoneCount ≤ j) :
    p.stones[j]? = some Stone.Empty := by
  obtain ⟨_, _, h3⟩ := StonePool.stoneCount_spec p hl
  exact StonePool.canonical_empty_after p hc _ j hk hj (h3 (by omega))

theorem StonePool.not_full (p : StonePool) (hl : p.stones.length < 256) (hc : p.Canonical)
    (h : p.stoneCount < p.stones.length) : p.full = false := by
  have := StonePool.canonical_empty_from p hl hc (p.stones.length - 1) (by omega) (by omega)
  unfold StonePool.full
  rw [List.getLastD_eq_getLast?, List.getLast?_eq_getElem?, this]
  rfl

theorem Stone.type_pos : ∀ s : Stone, s ≠ Stone.Empty → 0 < s.type := by
  decide

theorem StonePool.full_eq_false_iff (p : StonePool) (hne : p.stones ≠ []) :
    p.full = false ↔ p.stones[p.stones.length - 1]? = some Stone.Empty := by
  unfold StonePool.full
  rw [List.getLastD_eq_getLast?, List.getLast?_eq_getElem?]
  have hlt : p.stones.length - 1 < p.stones.length := by
    have := List.length_pos.mpr hne; omega
  rw [List.getElem?_eq_getElem hlt]
  simp

/-- Adding a stone to a pool that is not full succeeds. -/
theorem StonePool.stonePool_add_succeeds (p : StonePool) (t : Stone) (hne : p.stones ≠ [])
    (hf : p.full = false) (ht : t ≠ Stone.Empty) : ∃ p', p.add t = .ok p' := by
  unfold StonePool.add
  rw [hf, if_neg (by simp), if_neg ht]
  split
  · exact ⟨_, rfl⟩
  · cases hi : p.stones.findIdx? (fun s => decide (s.type < t.type)) with
    | some i => exact ⟨_, rfl⟩
    | none =>
      exfalso
      rw [List.findIdx?_eq_none_iff] at hi
      have hlast := (StonePool.full_eq_false_iff p hne).mp hf
      have := hi _ (List.get?_mem (by rw [List.get?_eq_getElem?]; exact hlast))
      have hpos := Stone.type_pos t ht
      simp only [decide_eq_false_iff_not, not_lt] at this
      have h0 : Stone.Empty.type = 0 := rfl
      omega

/-- In canonical form with at least two free slots, the pool is not full after a stone is
added. -/
theorem StonePool.add_not_full (p p' : StonePool) (t : Stone) (hl : p.stones.length < 256)
    (hc : p.Canonical) (hfree : p.stoneCount + 2 ≤ p.stones.length) (h : p.add t = .ok p') :
    p'.full = false := by
  have hne : p.stones ≠ [] := by
    intro hc0; rw [hc0] at hfree; simp at hfree
  have hlen := StonePool.add_length p p' t hne h
  have hne' : p'.stones ≠ [] := by
    intro hc0; rw [hc0] at hlen; rw [← hlen] at hfree; simp at hfree
  rw [StonePool.full_eq_false_iff p' hne', hlen]
  have hlast := StonePool.canonical_empty_from p hl hc (p.stones.length - 2) (by omega) (by omega)
  have hlast1 := StonePool.canonical_empty_from p hl hc (p.stones.length - 1) (by omega) (by omega)
  obtain ⟨_, hpre, hat⟩ := StonePool.stoneCount_spec p hl
  unfold StonePool.add at h
  by_cases hfull : p.full = true
  · rw [if_pos hfull] at h; cases h
  · rw [if_neg hfull] at h
    by_cases ht : t = Stone.Empty
    · rw [if_pos ht] at h; cases h
    · rw [if_neg ht] at h
      by_cases hemp : p.empty = true
      · rw [if_pos hemp] at h
        cases h
        show (p.stones.set 0 t)[p.stones.length - 1]? = _
        rw [List.getElem?_set_ne (by omega)]
        exact hlast1
      · rw [if_neg hemp] at h
        cases hi : p.stones.findIdx? (fun s => decide (s.type < t.type)) with
        | none => rw [hi] at h; cases h
        | some j =>
          rw [hi] at h
          cases h
          obtain ⟨hj, _, hbefore⟩ := List.findIdx?_eq_some_iff_getElem.mp hi
          have hjle : j ≤ p.stoneCount := by
            by_contra hcon
            have hlt : p.stoneCount < p.stones.length := by omega
            have h1 := hbefore p.stoneCount (by omega)
            have h2 := hat hlt
            rw [List.getElem?_eq_getElem hlt, Option.some.injEq] at h2
            rw [h2] at h1
            have hpos := Stone.type_pos t ht
            simp only [decide_eq_true_eq, not_lt] at h1
            have h0 : Stone.Empty.type = 0 := rfl
            omega
          show (p.stones.take j ++ [t] ++ (p.stones.drop j).dropLast)[p.stones.length - 1]? = _
          have hl1 : (p.stones.take j ++ [t]).length = j + 1 := by
            simp only [List.length_append, List.length_take, List.length_singleton]
            omega
          rw [List.getElem?_append_right (by rw [hl1]; omega), hl1, List.dropLast_eq_take,
            List.getElem?_take_of_lt (by simp only [List.length_drop]; omega), List.getElem?_drop]
          have e : j + (p.stones.length - 1 - (j + 1)) = p.stones.length - 2 := by omega
          rw [e]
          exact hlast


/-! #### The lists of the generator -/

theorem mem_dedup_fold {α β : Type} (inst : ∀ (y : β) (r : List β), Decidable (y ∈ r))
    (f : α → β) (l : List α) (init : List β) (x : β)
    (h : x ∈ l.foldl (fun result a =>
      @ite _ (f a ∈ result) (inst (f a) result) result (result ++ [f a])) init) :
    x ∈ init ∨ ∃ a ∈ l, f a = x := by
  induction l generalizing init with
  | nil => exact Or.inl h
  | cons a l ih =>
    rw [List.foldl_cons] at h
    rcases ih _ h with h1 | ⟨b, hb, hfb⟩
    · split at h1
      · exact Or.inl h1
      · rcases List.mem_append.mp h1 with h2 | h2
        · exact Or.inl h2
        · exact Or.inr ⟨a, List.mem_cons_self _ _, (List.mem_singleton.mp h2).symm⟩
    · exact Or.inr ⟨b, List.mem_cons_of_mem _ hb, hfb⟩

theorem subperm_of_indices {α : Type} (l : List α) (d : α) (idxs : List Nat) (hn : idxs.Nodup)
    (hlt : ∀ i ∈ idxs, i < l.length) : (idxs.map fun i => l.getD i d).Subperm l := by
  have h1 : idxs.Subperm (List.range l.length) :=
    hn.subperm fun i hi => List.mem_range.mpr (hlt i hi)
  obtain ⟨l', hp, hs⟩ := h1
  have h2 : (idxs.map fun i => l.getD i d).Subperm
      ((List.range l.length).map fun i => l.getD i d) :=
    ⟨l'.map fun i => l.getD i d, hp.map _, hs.map _⟩
  rw [map_getD_range] at h2
  exact h2

theorem StonePool.mem_filled (p : StonePool) (x : Stone) (h : x ∈ p.filled) :
    x ≠ Stone.Empty ∧ x ∈ p.stones := by
  unfold StonePool.filled at h
  refine ⟨?_, (List.takeWhile_sublist _).subset h⟩
  have := List.mem_takeWhile_imp h
  simpa using this

theorem StonePool.mem_uniqueStones (p : StonePool) (x : Stone) (h : x ∈ p.uniqueStones) :
    x ≠ Stone.Empty ∧ x ∈ p.stones ∧ p.empty = false := by
  unfold StonePool.uniqueStones at h
  split at h
  · cases h
  · rename_i he
    rcases mem_dedup_fold (fun y r => inferInstance) (fun s : Stone => s) _ _ _ h with h1 | ⟨a, ha, rfl⟩
    · cases h1
    · exact ⟨(StonePool.mem_filled p a ha).1, (StonePool.mem_filled p a ha).2, by simpa using he⟩

theorem mem_indexPairs (n i j : Nat) (h : (i, j) ∈ StonePool.indexPairs n) :
    i < n ∧ j < n ∧ i ≠ j := by
  unfold StonePool.indexPairs at h
  simp only [List.mem_flatMap, List.mem_range, List.mem_map, List.mem_filter, bne_iff_ne, ne_eq,
    Prod.mk.injEq] at h
  obtain ⟨a, ha, b, ⟨hb, hab⟩, rfl, rfl⟩ := h
  exact ⟨ha, hb, hab⟩

theorem StonePool.mem_uniqueStonePairs (p : StonePool) (a b : Stone)
    (h : (a, b) ∈ p.uniqueStonePairs) :
    a ≠ Stone.Empty ∧ b ≠ Stone.Empty ∧ [a, b].Subperm p.stones ∧ 2 ≤ p.stoneCount := by
  unfold StonePool.uniqueStonePairs at h
  split at h
  · cases h
  · rename_i hc
    dsimp only at h
    rcases mem_dedup_fold (fun y r => inferInstance) (fun ij : Nat × Nat =>
      (p.filled.getD ij.1 Stone.Empty, p.filled.getD ij.2 Stone.Empty)) _ _ _ h with h1 | h1
    · cases h1
    · obtain ⟨⟨i, j⟩, hij, he⟩ := h1
      obtain ⟨hi, hj, hne⟩ := mem_indexPairs _ _ _ hij
      simp only [Prod.mk.injEq] at he
      obtain ⟨rfl, rfl⟩ := he
      have hsub := subperm_of_indices p.filled Stone.Empty [i, j] (by simp [hne])
        (by intro k hk; simp at hk; rcases hk with rfl | rfl <;> assumption)
      have hma : p.filled.getD i Stone.Empty ∈ p.filled := by
        rw [List.getD_eq_getElem?_getD, List.getElem?_eq_getElem hi]; exact List.getElem_mem _
      have hmb : p.filled.getD j Stone.Empty ∈ p.filled := by
        rw [List.getD_eq_getElem?_getD, List.getElem?_eq_getElem hj]; exact List.getElem_mem _
      refine ⟨(StonePool.mem_filled p _ hma).1, (StonePool.mem_filled p _ hmb).1, ?_, by omega⟩
      exact hsub.trans (List.takeWhile_sublist _).subperm

theorem mem_indexQuads (n a b c d : Nat) (h : (a, b, c, d) ∈ StonePool.indexQuads n) :
    a < n ∧ b < n ∧ c < n ∧ d < n ∧ [a, b, c, d].Nodup := by
  unfold StonePool.indexQuads at h
  simp only [List.mem_flatMap, List.mem_range, List.mem_map, List.mem_filter, bne_iff_ne, ne_eq,
    Prod.mk.injEq, Bool.and_eq_true] at h
  obtain ⟨a', ha, b', ⟨hb, hab⟩, c', ⟨hc, hac, hbc⟩, d', ⟨hd, ⟨had, hbd⟩, hcd⟩, rfl, rfl, rfl, rfl⟩ :=
    h
  refine ⟨ha, hb, hc, hd, ?_⟩
  simp only [List.nodup_cons, List.mem_cons, List.mem_singleton, List.not_mem_nil, not_or,
    not_false_eq_true, List.nodup_nil, and_true]
  exact ⟨⟨hab, hac, had⟩, ⟨hbc, hbd⟩, hcd⟩

theorem StonePool.mem_uniqueStoneQuads (p : StonePool) (hl : p.stones.length < 256)
    (a b c d : Stone) (h : (a, b, c, d) ∈ p.uniqueStoneQuads) :
    a ≠ Stone.Empty ∧ b ≠ Stone.Empty ∧ c ≠ Stone.Empty ∧ d ≠ Stone.Empty ∧
      [a, b, c, d].Subperm p.stones ∧ 4 ≤ p.stoneCount := by
  unfold StonePool.uniqueStoneQuads at h
  split at h
  · cases h
  · rename_i hc
    dsimp only at h
    rcases mem_dedup_fold (fun y r => inferInstance) (fun q : Nat × Nat × Nat × Nat =>
      (p.stones.getD q.1 Stone.Empty, p.stones.getD q.2.1 Stone.Empty,
        p.stones.getD q.2.2.1 Stone.Empty, p.stones.getD q.2.2.2 Stone.Empty)) _ _ _ h
      with h1 | h1
    · cases h1
    · obtain ⟨⟨i, j, k, m⟩, hq, he⟩ := h1
      obtain ⟨hi, hj, hk, hm, hnd⟩ := mem_indexQuads _ _ _ _ _ hq
      simp only [Prod.mk.injEq] at he
      obtain ⟨rfl, rfl, rfl, rfl⟩ := he
      obtain ⟨hle, hpre, _⟩ := StonePool.stoneCount_spec p hl
      have hsub := subperm_of_indices p.stones Stone.Empty [i, j, k, m] hnd
        (by intro x hx; simp at hx; rcases hx with rfl | rfl | rfl | rfl <;> omega)
      have hne : ∀ x, x < p.stoneCount → p.stones.getD x Stone.Empty ≠ Stone.Empty := by
        intro x hx hcon
        have hxl : x < p.stones.length := by omega
        apply hpre x hx
        rw [List.getD_eq_getElem?_getD, List.getElem?_eq_getElem hxl, Option.getD_some] at hcon
        rw [List.getElem?_eq_getElem hxl, hcon]
      exact ⟨hne i hi, hne j hj, hne k hk, hne m hm, hsub, by omega⟩

theorem mem_allPlaceOne (b : Board) (p : Position) (h : p ∈ b.allPlaceOneActionPositions) :
    p ∈ Board.allNonStaticPositions ∧ b.canPlayerPlaceStone p = .ok true := by
  unfold Board.allPlaceOneActionPositions at h
  obtain ⟨h1, h2⟩ := List.mem_filter.mp h
  exact ⟨h1, by simpa using h2⟩

theorem mem_allNonStaticPositionsIf (b : Board) (t : Field → Bool) (p : Position)
    (h : p ∈ b.allNonStaticPositionsIf t) :
    p ∈ Board.allNonStaticPositions ∧ ∃ f, b.stateField p = .ok f ∧ t f = true := by
  unfold Board.allNonStaticPositionsIf at h
  obtain ⟨h1, h2⟩ := List.mem_filter.mp h
  refine ⟨h1, ?_⟩
  cases hf : b.stateField p with
  | error e => rw [hf] at h2; cases h2
  | ok f => rw [hf] at h2; exact ⟨f, rfl, h2⟩

theorem mem_positionPairs (l : List Position) (p q : Position)
    (h : (p, q) ∈ Board.generateAllCombinedPositionPairs l) :
    p ∈ l ∧ q ∈ l ∧ (l.Nodup → p ≠ q) := by
  induction l with
  | nil => cases h
  | cons x rest ih =>
    unfold Board.generateAllCombinedPositionPairs at h
    rcases List.mem_append.mp h with h1 | h1
    · obtain ⟨y, hy, he⟩ := List.mem_map.mp h1
      simp only [Prod.mk.injEq] at he
      obtain ⟨rfl, rfl⟩ := he
      exact ⟨List.mem_cons_self _ _, List.mem_cons_of_mem _ hy, fun hn hc =>
        (List.nodup_cons.mp hn).1 (hc ▸ hy)⟩
    · obtain ⟨h2, h3, h4⟩ := ih h1
      exact ⟨List.mem_cons_of_mem _ h2, List.mem_cons_of_mem _ h3, fun hn =>
        h4 (List.nodup_cons.mp hn).2⟩

/-! #### The resource pool -/

theorem ResourcePool.atStone_ok (r : ResourcePool) (s : Stone) (hs : s ≠ Stone.Empty)
    (hl : r.stoneCounts.length = 10) : r.atStone s = .ok (r.countOf s) := by
  unfold ResourcePool.atStone ResourcePool.countOf
  have hpos := Stone.type_pos s hs
  have hlt : s.type - 1 < r.stoneCounts.length := by
    rw [hl]; revert s; decide
  rw [if_neg (by omega), List.get?_eq_getElem?, List.getD_eq_getElem?_getD,
    List.getElem?_eq_getElem hlt]
  rfl

theorem ResourcePool.resourcePool_add_succeeds (r : ResourcePool) (s : Stone) (n : Nat)
    (hs : s ≠ Stone.Empty) (hl : r.stoneCounts.length = 10) :
    ∃ r', r.add s n = .ok r' ∧ r'.stoneCounts.length = 10 := by
  unfold ResourcePool.add
  rw [ResourcePool.atStone_ok r s hs hl]
  exact ⟨_, rfl, by simp [hl]⟩

theorem ResourcePool.hasStone_true (r : ResourcePool) (s : Stone)
    (h : r.hasStone s = .ok true) :
    s ≠ Stone.Empty ∧ ∃ c, r.atStone s = .ok c ∧ 0 < c := by
  unfold ResourcePool.hasStone ResourcePool.count at h
  cases hc : r.atStone s with
  | error e => rw [hc] at h; cases h
  | ok c =>
    rw [hc] at h
    simp only [bind, Except.bind, pure, Except.pure, Except.ok.injEq, decide_eq_true_eq] at h
    refine ⟨?_, c, rfl, h⟩
    intro he
    rw [he] at hc
    cases hc


/-! #### Success of the single actions -/

theorem Action.place_succeeds (g : GameState) (p : Position) (st : Stone) (o : Orientation)
    (f : Field) (pool1 : StonePool)
    (hne : st ≠ Stone.Empty) (hmem : st ∈ g.actionPools.active.stones)
    (hcan : g.board.canPlayerPlaceStone p = .ok true)
    (hs : Board.isStatic p = .ok false) (hf : g.board.stateField p = .ok f)
    (ht : g.actionPools.active.take st = .ok pool1) :
    (Action.createPlace p st o).applyTo g =
      .ok { g with board := ⟨g.board.state.set (Board.stateIndex p) (f.setStone st o)⟩,
                   actionPools := g.actionPools.set 0 pool1 } := by
  have hsf := Board.setField_succeeds g.board p st o f hs hf
  simp [Action.applyTo, Action.createPlace, Action.applyPlaceAction, StonePool.hasStone, hne, hmem,
    hcan, hsf, ht, bind, Except.bind, pure, Except.pure, throw, throwThe, MonadExceptOf.throw]

theorem StonePool.hasStones_true (p : StonePool) (a d : Stone) (ha : a ≠ Stone.Empty)
    (hd : d ≠ Stone.Empty) (h : [a, d].Subperm p.stones) : p.hasStones a d = .ok true := by
  unfold StonePool.hasStones
  rw [if_neg (by simp [ha, hd])]
  by_cases he : a = d
  · subst he
    rw [if_pos rfl]
    have := h.count_le a
    simp only [List.count_cons_self, List.count_nil] at this
    simp only [ge_iff_le, Except.ok.injEq, decide_eq_true_eq]
    omega
  · rw [if_neg he]
    have h1 : a ∈ p.stones := h.subset (by simp)
    have h2 : d ∈ p.stones := h.subset (by simp)
    simp [h1, h2]

theorem Action.replace_succeeds (g : GameState) (p : Position) (st d : Stone) (o : Orientation)
    (f : Field) (pool1 pool2 : StonePool) (rp1 rp2 : ResourcePool)
    (hcount : 2 ≤ g.actionPools.active.stoneCount)
    (hst : st ≠ Stone.Empty) (hd : d ≠ Stone.Empty)
    (hsub : [st, d].Subperm g.actionPools.active.stones)
    (hcan : g.board.canPlayerReplaceStone p st o = .ok true)
    (hs : Board.isStatic p = .ok false) (hf : g.board.stateField p = .ok f)
    (hr1 : g.resourcePool.add f.stone = .ok rp1)
    (ht1 : g.actionPools.active.take st = .ok pool1)
    (ht2 : pool1.take d = .ok pool2)
    (hr2 : rp1.add d = .ok rp2) :
    (Action.createReplace p st o d).applyTo g =
      .ok { g with board := ⟨g.board.state.set (Board.stateIndex p) (f.setStone st o)⟩,
                   actionPools := g.actionPools.set 0 pool2, resourcePool := rp2 } := by
  have hsf := Board.setField_succeeds g.board p st o f hs hf
  have hfield : g.board.field p = .ok f := by rw [Board.field_of_nonStatic _ _ hs, hf]
  have hhas := StonePool.hasStones_true _ _ _ hst hd hsub
  have hnlt : ¬ g.actionPools.active.stoneCount < 2 := by omega
  simp [Action.applyTo, Action.createReplace, Action.applyReplaceAction, hnlt, hhas,
    hcan, hfield, hr1, ht1, hsf, ht2, hr2, bind, Except.bind, pure, Except.pure, throw, throwThe,
    MonadExceptOf.throw]

theorem Action.rotate_succeeds (g : GameState) (p : Position) (d : Stone) (o : Orientation)
    (f : Field) (pool1 : StonePool) (rp : ResourcePool)
    (hemp : g.actionPools.active.empty = false)
    (hd : d ≠ Stone.Empty) (hmem : d ∈ g.actionPools.active.stones)
    (hcan : g.board.canPlayerRotateStone p o = .ok true)
    (hs : Board.isStatic p = .ok false) (hf : g.board.stateField p = .ok f)
    (hrot : f.canRotate = true)
    (ht : g.actionPools.active.take d = .ok pool1)
    (hr : g.resourcePool.add d = .ok rp) :
    (Action.createRotate p o d).applyTo g =
      .ok { g with board := ⟨g.board.state.set (Board.stateIndex p) (f.setOrientation o)⟩,
                   actionPools := g.actionPools.set 0 pool1, resourcePool := rp } := by
  have hsf := Board.setNewOrientation_succeeds g.board p o f hs hf hrot
  simp [Action.applyTo, Action.createRotate, Action.applyRotateAction, StonePool.hasStone, hemp,
    hd, hmem, hcan, hsf, ht, hr, Stone.empty, bind, Except.bind, pure, Except.pure, throw, throwThe,
    MonadExceptOf.throw]

theorem Action.draw_succeeds (g : GameState) (st : Stone) (pool1 : StonePool)
    (rp : ResourcePool)
    (hfull : g.actionPools.active.full = false)
    (hhas : g.resourcePool.hasStone st = .ok true)
    (hr : g.resourcePool.take st = .ok rp)
    (ht : g.actionPools.active.add st = .ok pool1) :
    (Action.createDraw st).applyTo g =
      .ok { g with actionPools := g.actionPools.set 0 pool1, resourcePool := rp } := by
  simp [Action.applyTo, Action.createDraw, Action.applyDrawAction, hfull, hhas, hr, ht,
    bind, Except.bind, pure, Except.pure, throw, throwThe, MonadExceptOf.throw]


/-! #### Sequences -/

theorem Action.applyTo_none (g : GameState) : Action.none.applyTo g = .ok g := rfl

theorem ActionSequence.appliesTo_one (a : Action) (g g1 : GameState)
    (hn : a.isNone = false) (h : a.applyTo g = .ok g1) : (ActionSequence.one a).AppliesTo g := by
  refine ⟨a, Action.none, g1, g1, rfl, h, rfl, ?_⟩
  have hn0 : Action.none.isNone = true := rfl
  simp [ActionSequence.applyTo, ActionSequence.one, hn, hn0, h, bind, Except.bind, pure,
    Except.pure]

theorem ActionSequence.appliesTo_two (a b : Action) (g g1 g2 : GameState)
    (hna : a.isNone = false) (hnb : b.isNone = false) (h1 : a.applyTo g = .ok g1)
    (h2 : b.applyTo g1 = .ok g2) : (ActionSequence.two a b).AppliesTo g := by
  refine ⟨a, b, g1, g2, rfl, h1, h2, ?_⟩
  simp [ActionSequence.applyTo, ActionSequence.two, hna, hnb, h1, h2, bind, Except.bind, pure,
    Except.pure]

theorem ActionPools.active_set (a : ActionPools) (p : StonePool) (hl : a.pools.length = 4) :
    (a.set 0 p).active = p := by
  unfold ActionPools.set ActionPools.active
  cases hp : a.pools with
  | nil => rw [hp] at hl; cases hl
  | cons x l => rfl

theorem ActionPools.length_set (a : ActionPools) (i : Nat) (p : StonePool) :
    (a.set i p).pools.length = a.pools.length := by
  unfold ActionPools.set
  simp

/-- After a stone of the list is taken, the rest of the list is still in the pool. -/
theorem StonePool.subperm_after_take (p p1 : StonePool) (a : Stone) (l : List Stone)
    (hl : ∀ x ∈ l, x ≠ Stone.Empty) (hsub : (a :: l).Subperm p.stones)
    (ht : p.take a = .ok p1) : l.Subperm p1.stones := by
  rw [List.subperm_ext_iff]
  intro x hx
  have h1 := hsub.count_le x
  rw [List.count_cons] at h1
  have h2 := StonePool.count_take p p1 a x (hl x hx) ht
  simp only [beq_iff_eq] at h1
  omega

theorem StonePool.take_of_subperm (p : StonePool) (a : Stone) (l : List Stone)
    (hsub : (a :: l).Subperm p.stones) : ∃ p1, p.take a = .ok p1 :=
  StonePool.stonePool_take_succeeds p a (hsub.subset (List.mem_cons_self _ _))


/-! #### Place -/

theorem placeOne_nodup (b : Board) : b.allPlaceOneActionPositions.Nodup :=
  List.Nodup.filter _ nonStatic_nodup

theorem positionsIf_nodup (b : Board) (t : Field → Bool) : (b.allNonStaticPositionsIf t).Nodup :=
  List.Nodup.filter _ nonStatic_nodup

theorem addActionsPlace_applies (g : GameState) (hp : g.actionPools.pools.length = 4) (n : Nat) :
    ∀ s ∈ ActionGenerator.addActionsPlace g n, s.AppliesTo g := by
  intro s hs
  unfold ActionGenerator.addActionsPlace at hs
  split at hs
  · cases hs
  · rcases List.mem_append.mp hs with h | h
    · obtain ⟨e, he, rfl⟩ := List.mem_map.mp h
      unfold ActionGenerator.forAllForPlaceOne at he
      simp only [List.mem_flatMap, List.mem_map] at he
      obtain ⟨p, hpos, st, hst, o, _, rfl⟩ := he
      obtain ⟨hns, hcan⟩ := mem_allPlaceOne _ _ hpos
      obtain ⟨hne, hmem, _⟩ := StonePool.mem_uniqueStones _ _ hst
      obtain ⟨_, f, hf, _⟩ := Board.canPlayerPlaceStone_true _ _ hcan
      obtain ⟨pool1, ht⟩ := StonePool.stonePool_take_succeeds _ _ hmem
      exact ActionSequence.appliesTo_one _ g _ rfl
        (Action.place_succeeds g p st o f pool1 hne hmem hcan (nonStatic_isStatic p hns) hf ht)
    · split at h
      · cases h
      · obtain ⟨e, he, rfl⟩ := List.mem_map.mp h
        unfold ActionGenerator.forAllForPlaceTwo at he
        simp only [List.mem_flatMap, List.mem_map] at he
        obtain ⟨⟨p1, p2⟩, hpos, ⟨a, b⟩, hst, ⟨o1, o2⟩, _, rfl⟩ := he
        obtain ⟨hm1, hm2, hne12⟩ := mem_positionPairs _ _ _ hpos
        have hne12 := hne12 (placeOne_nodup g.board)
        obtain ⟨hns1, hcan1⟩ := mem_allPlaceOne _ _ hm1
        obtain ⟨hns2, hcan2⟩ := mem_allPlaceOne _ _ hm2
        obtain ⟨ha, hb, hsub, _⟩ := StonePool.mem_uniqueStonePairs _ _ _ hst
        obtain ⟨_, f1, hf1, _⟩ := Board.canPlayerPlaceStone_true _ _ hcan1
        obtain ⟨_, f2, hf2, _⟩ := Board.canPlayerPlaceStone_true _ _ hcan2
        obtain ⟨pool1, ht1⟩ := StonePool.take_of_subperm _ _ _ hsub
        have hsub1 := StonePool.subperm_after_take _ _ _ [b]
          (by intro x hx; rw [List.mem_singleton.mp hx]; exact hb) hsub ht1
        obtain ⟨pool2, ht2⟩ := StonePool.take_of_subperm _ _ _ hsub1
        have hidx := stateIndex_ne p1 p2 hns1 hns2 hne12
        have h1 := Action.place_succeeds g p1 a o1 f1 pool1 ha
          (hsub.subset (List.mem_cons_self _ _)) hcan1 (nonStatic_isStatic p1 hns1) hf1 ht1
        have hsf := Board.stateField_set_ne g.board (Board.stateIndex p1) (f1.setStone a o1) p2 hidx
        have h2 := Action.place_succeeds
          { g with board := ⟨g.board.state.set (Board.stateIndex p1) (f1.setStone a o1)⟩,
                   actionPools := g.actionPools.set 0 pool1 } p2 b o2 f2 pool2 hb
          (by rw [ActionPools.active_set _ _ hp]; exact hsub1.subset (List.mem_cons_self _ _))
          (by rw [Board.canPlayerPlaceStone_congr _ _ p2 hsf]; exact hcan2)
          (nonStatic_isStatic p2 hns2) (by rw [hsf]; exact hf2)
          (by rw [ActionPools.active_set _ _ hp]; exact ht2)
        exact ActionSequence.appliesTo_two _ _ g _ _ rfl rfl h1 h2


/-! #### Replace -/

theorem sublist_two_of_four (a b c d : Stone) : [a, c].Sublist [a, b, c, d] :=
  List.Sublist.cons₂ a (List.Sublist.cons b (List.Sublist.cons₂ c (List.nil_sublist _)))

theorem addActionsReplace_applies (g : GameState) (hp : g.actionPools.pools.length = 4)
    (h6 : g.actionPools.active.stones.length = 6)
    (hr : g.resourcePool.stoneCounts.length = 10) :
    ∀ s ∈ ActionGenerator.addActionsReplace g g.actionPools.active.stoneCount,
      s.AppliesTo g := by
  intro s hs
  unfold ActionGenerator.addActionsReplace at hs
  split at hs
  · cases hs
  · rename_i hcount
    rcases List.mem_append.mp hs with h | h
    · obtain ⟨e, he, rfl⟩ := List.mem_map.mp h
      obtain ⟨he, hcan⟩ := List.mem_filter.mp he
      unfold ActionGenerator.forAllForReplaceOne at he
      simp only [List.mem_flatMap] at he
      obtain ⟨p, hpos, he⟩ := he
      split at he
      · cases he
      · simp only [List.mem_flatMap, List.mem_map] at he
        obtain ⟨⟨a, d⟩, hst, o, _, rfl⟩ := he
        simp only [decide_eq_true_eq] at hcan
        obtain ⟨hns, _⟩ := mem_allNonStaticPositionsIf _ _ _ hpos
        obtain ⟨ha, hd, hsub, _⟩ := StonePool.mem_uniqueStonePairs _ _ _ hst
        obtain ⟨hst, f, hf, hv⟩ := Board.canPlayerReplaceStone_true _ _ _ _ hcan
        have hfne := Field.isValidChange_nonEmpty _ _ _ hv
        obtain ⟨rp1, hr1, hl1⟩ := ResourcePool.resourcePool_add_succeeds g.resourcePool f.stone 1 hfne hr
        obtain ⟨rp2, hr2, _⟩ := ResourcePool.resourcePool_add_succeeds rp1 d 1 hd hl1
        obtain ⟨pool1, ht1⟩ := StonePool.take_of_subperm _ _ _ hsub
        have hsub1 := StonePool.subperm_after_take _ _ _ [d]
          (by intro x hx; rw [List.mem_singleton.mp hx]; exact hd) hsub ht1
        obtain ⟨pool2, ht2⟩ := StonePool.take_of_subperm _ _ _ hsub1
        exact ActionSequence.appliesTo_one _ g _ rfl
          (Action.replace_succeeds g p a d o f pool1 pool2 rp1 rp2 (by omega) ha hd hsub hcan hst
            hf hr1 ht1 ht2 hr2)
    · split at h
      · cases h
      · obtain ⟨e, he, rfl⟩ := List.mem_map.mp h
        obtain ⟨he, hcan⟩ := List.mem_filter.mp he
        unfold ActionGenerator.forAllForReplaceTwo at he
        simp only [List.mem_flatMap] at he
        obtain ⟨⟨p1, p2⟩, hpos, he⟩ := he
        split at he
        · cases he
        · simp only [List.mem_flatMap, List.mem_map] at he
          obtain ⟨⟨a, b, c, d⟩, hst, ⟨o1, o2⟩, _, rfl⟩ := he
          simp only [Bool.and_eq_true, decide_eq_true_eq] at hcan
          obtain ⟨hcan1, hcan2⟩ := hcan
          obtain ⟨hm1, hm2, hne12⟩ := mem_positionPairs _ _ _ hpos
          have hne12 := hne12 (positionsIf_nodup g.board _)
          obtain ⟨hns1, _⟩ := mem_allNonStaticPositionsIf _ _ _ hm1
          obtain ⟨hns2, _⟩ := mem_allNonStaticPositionsIf _ _ _ hm2
          obtain ⟨ha, hb, hc, hd, hsub, hcnt⟩ :=
            StonePool.mem_uniqueStoneQuads _ (by omega) _ _ _ _ hst
          obtain ⟨hst1, f1, hf1, hv1⟩ := Board.canPlayerReplaceStone_true _ _ _ _ hcan1
          obtain ⟨hst2, f2, hf2, hv2⟩ := Board.canPlayerReplaceStone_true _ _ _ _ hcan2
          have hfne1 := Field.isValidChange_nonEmpty _ _ _ hv1
          have hfne2 := Field.isValidChange_nonEmpty _ _ _ hv2
          obtain ⟨rp1, hr1, hl1⟩ := ResourcePool.resourcePool_add_succeeds g.resourcePool f1.stone 1 hfne1 hr
          obtain ⟨rp2, hr2, hl2⟩ := ResourcePool.resourcePool_add_succeeds rp1 c 1 hc hl1
          obtain ⟨rp3, hr3, hl3⟩ := ResourcePool.resourcePool_add_succeeds rp2 f2.stone 1 hfne2 hl2
          obtain ⟨rp4, hr4, _⟩ := ResourcePool.resourcePool_add_succeeds rp3 d 1 hd hl3
          obtain ⟨pool1, ht1⟩ := StonePool.take_of_subperm _ _ _ hsub
          have hsub1 := StonePool.subperm_after_take _ _ _ [b, c, d]
            (by intro x hx; simp at hx; rcases hx with rfl | rfl | rfl <;> assumption) hsub ht1
          have hsub1' : [c, b, d].Subperm pool1.stones :=
            (List.Perm.swap b c [d]).subperm.trans hsub1
          obtain ⟨pool2, ht2⟩ := StonePool.take_of_subperm _ _ _ hsub1'
          have hsub2 := StonePool.subperm_after_take _ _ _ [b, d]
            (by intro x hx; simp at hx; rcases hx with rfl | rfl <;> assumption) hsub1' ht2
          obtain ⟨pool3, ht3⟩ := StonePool.take_of_subperm _ _ _ hsub2
          have hsub3 := StonePool.subperm_after_take _ _ _ [d]
            (by intro x hx; rw [List.mem_singleton.mp hx]; exact hd) hsub2 ht3
          obtain ⟨pool4, ht4⟩ := StonePool.take_of_subperm _ _ _ hsub3
          have hc1 := StonePool.stoneCount_take _ _ _ (by omega) ht1
          have hlen1 := StonePool.take_length _ _ _ ht1
          have hc2 := StonePool.stoneCount_take _ _ _ (by omega) ht2
          have hidx := stateIndex_ne p1 p2 hns1 hns2 hne12
          have h1 := Action.replace_succeeds g p1 a c o1 f1 pool1 pool2 rp1 rp2 (by omega) ha hc
            ((sublist_two_of_four a b c d).subperm.trans hsub) hcan1 hst1 hf1 hr1 ht1 ht2 hr2
          have hsf := Board.stateField_set_ne g.board (Board.stateIndex p1) (f1.setStone a o1) p2
            hidx
          have h2 := Action.replace_succeeds
            { g with board := ⟨g.board.state.set (Board.stateIndex p1) (f1.setStone a o1)⟩,
                     actionPools := g.actionPools.set 0 pool2, resourcePool := rp2 }
            p2 b d o2 f2 pool3 pool4 rp3 rp4
            (by rw [ActionPools.active_set _ _ hp]; omega) hb hd
            (by rw [ActionPools.active_set _ _ hp]; exact hsub2)
            (by rw [Board.canPlayerReplaceStone_congr _ _ p2 _ _ hsf]; exact hcan2)
            hst2 (by rw [hsf]; exact hf2) hr3
            (by rw [ActionPools.active_set _ _ hp]; exact ht3) ht4 hr4
          exact ActionSequence.appliesTo_two _ _ g _ _ rfl rfl h1 h2


/-! #### Rotate -/

theorem mem_forAllForRotationOne (g : GameState) (positions : List Position)
    (stones : List Stone) (p : Position) (o : Orientation) (d : Stone)
    (h : (p, o, d) ∈ ActionGenerator.forAllForRotationOne g positions stones) :
    p ∈ positions ∧ d ∈ stones := by
  unfold ActionGenerator.forAllForRotationOne at h
  simp only [List.mem_flatMap] at h
  obtain ⟨q, hq, h⟩ := h
  split at h
  · cases h
  · split at h
    · cases h
    · split at h
      · cases h
      · simp only [List.mem_flatMap, List.mem_map, Prod.mk.injEq] at h
        obtain ⟨_, _, d', hd, rfl, _, rfl⟩ := h
        exact ⟨hq, hd⟩

theorem mem_forAllForRotationTwo (g : GameState) (pairs : List (Position × Position))
    (stones : List (Stone × Stone)) (pp : Position × Position) (oo : Orientation × Orientation)
    (dd : Stone × Stone)
    (h : (pp, oo, dd) ∈ ActionGenerator.forAllForRotationTwo g pairs stones) :
    pp ∈ pairs ∧ dd ∈ stones := by
  unfold ActionGenerator.forAllForRotationTwo at h
  simp only [List.mem_flatMap] at h
  obtain ⟨q, hq, h⟩ := h
  split at h
  · cases h
  · split at h
    · split at h
      · cases h
      · simp only [List.mem_flatMap, List.mem_map, Prod.mk.injEq] at h
        obtain ⟨_, _, d', hd, rfl, _, rfl⟩ := h
        exact ⟨hq, hd⟩
    · cases h

theorem addActionsRotate_applies (g : GameState) (hp : g.actionPools.pools.length = 4)
    (h6 : g.actionPools.active.stones.length = 6)
    (hr : g.resourcePool.stoneCounts.length = 10) (n : Nat) :
    ∀ s ∈ ActionGenerator.addActionsRotate g n, s.AppliesTo g := by
  intro s hs
  unfold ActionGenerator.addActionsRotate at hs
  split at hs
  · cases hs
  · rcases List.mem_append.mp hs with h | h
    · obtain ⟨⟨p, o, d⟩, he, rfl⟩ := List.mem_map.mp h
      obtain ⟨he, hcan⟩ := List.mem_filter.mp he
      simp only [decide_eq_true_eq] at hcan
      obtain ⟨hpos, hd⟩ := mem_forAllForRotationOne _ _ _ _ _ _ he
      obtain ⟨hns, f, hf, htest⟩ := mem_allNonStaticPositionsIf _ _ _ hpos
      simp only [Bool.and_eq_true] at htest
      obtain ⟨hdne, hmem, hemp⟩ := StonePool.mem_uniqueStones _ _ hd
      obtain ⟨rp, hrp, _⟩ := ResourcePool.resourcePool_add_succeeds g.resourcePool d 1 hdne hr
      obtain ⟨pool1, ht⟩ := StonePool.stonePool_take_succeeds _ _ hmem
      exact ActionSequence.appliesTo_one _ g _ rfl
        (Action.rotate_succeeds g p d o f pool1 rp hemp hdne hmem hcan (nonStatic_isStatic p hns)
          hf htest.2 ht hrp)
    · split at h
      · obtain ⟨⟨⟨p1, p2⟩, ⟨o1, o2⟩, ⟨d1, d2⟩⟩, he, rfl⟩ := List.mem_map.mp h
        obtain ⟨he, hcan⟩ := List.mem_filter.mp he
        simp only [Bool.and_eq_true, decide_eq_true_eq] at hcan
        obtain ⟨hcan1, hcan2⟩ := hcan
        obtain ⟨hpos, hd⟩ := mem_forAllForRotationTwo _ _ _ _ _ _ he
        obtain ⟨hm1, hm2, hne12⟩ := mem_positionPairs _ _ _ hpos
        have hne12 := hne12 (positionsIf_nodup g.board _)
        obtain ⟨hns1, f1, hf1, htest1⟩ := mem_allNonStaticPositionsIf _ _ _ hm1
        obtain ⟨hns2, f2, hf2, htest2⟩ := mem_allNonStaticPositionsIf _ _ _ hm2
        simp only [Bool.and_eq_true] at htest1 htest2
        obtain ⟨hd1, hd2, hsub, hcnt⟩ := StonePool.mem_uniqueStonePairs _ _ _ hd
        obtain ⟨rp1, hr1, hl1⟩ := ResourcePool.resourcePool_add_succeeds g.resourcePool d1 1 hd1 hr
        obtain ⟨rp2, hr2, _⟩ := ResourcePool.resourcePool_add_succeeds rp1 d2 1 hd2 hl1
        obtain ⟨pool1, ht1⟩ := StonePool.take_of_subperm _ _ _ hsub
        have hsub1 := StonePool.subperm_after_take _ _ _ [d2]
          (by intro x hx; rw [List.mem_singleton.mp hx]; exact hd2) hsub ht1
        obtain ⟨pool2, ht2⟩ := StonePool.take_of_subperm _ _ _ hsub1
        have hc1 := StonePool.stoneCount_take _ _ _ (by omega) ht1
        have hlen1 := StonePool.take_length _ _ _ ht1
        have hne0 : g.actionPools.active.stones ≠ [] := stones_ne_nil _ h6
        have hne1 : pool1.stones ≠ [] := stones_ne_nil _ (by rw [hlen1]; exact h6)
        have hemp0 : g.actionPools.active.empty = false := by
          have := StonePool.empty_iff g.actionPools.active (by omega) hne0
          cases he0 : g.actionPools.active.empty with
          | false => rfl
          | true => have := this.mp he0; omega
        have hemp1 : pool1.empty = false := by
          have := StonePool.empty_iff pool1 (by omega) hne1
          cases he0 : pool1.empty with
          | false => rfl
          | true => have := this.mp he0; omega
        have hidx := stateIndex_ne p1 p2 hns1 hns2 hne12
        have h1 := Action.rotate_succeeds g p1 d1 o1 f1 pool1 rp1 hemp0 hd1
          (hsub.subset (List.mem_cons_self _ _)) hcan1 (nonStatic_isStatic p1 hns1) hf1
          htest1.2 ht1 hr1
        have hsf := Board.stateField_set_ne g.board (Board.stateIndex p1) (f1.setOrientation o1)
          p2 hidx
        have h2 := Action.rotate_succeeds
          { g with board := ⟨g.board.state.set (Board.stateIndex p1) (f1.setOrientation o1)⟩,
                   actionPools := g.actionPools.set 0 pool1, resourcePool := rp1 }
          p2 d2 o2 f2 pool2 rp2
          (by rw [ActionPools.active_set _ _ hp]; exact hemp1) hd2
          (by rw [ActionPools.active_set _ _ hp]; exact hsub1.subset (List.mem_cons_self _ _))
          (by rw [Board.canPlayerRotateStone_congr _ _ p2 _ hsf]; exact hcan2)
          (nonStatic_isStatic p2 hns2) (by rw [hsf]; exact hf2) htest2.2
          (by rw [ActionPools.active_set _ _ hp]; exact ht2) hr2
        exact ActionSequence.appliesTo_two _ _ g _ _ rfl rfl h1 h2
      · cases h


/-! #### Draw -/

theorem Stone.mem_allNonEmpty (s : Stone) (h : s ∈ Stone.allNonEmpty) : s ≠ Stone.Empty := by
  revert s; decide

theorem ResourcePool.hasStone_eq (r : ResourcePool) (s : Stone) (hs : s ≠ Stone.Empty)
    (hl : r.stoneCounts.length = 10) :
    r.hasStone s = .ok (decide (r.countOf s > 0)) := by
  unfold ResourcePool.hasStone ResourcePool.count
  rw [ResourcePool.atStone_ok r s hs hl]
  rfl

theorem ResourcePool.resourcePool_take_succeeds (r : ResourcePool) (s : Stone) (hs : s ≠ Stone.Empty)
    (hl : r.stoneCounts.length = 10) (hc : 0 < r.countOf s) :
    ∃ r', r.take s = .ok r' ∧ r'.stoneCounts.length = 10 := by
  unfold ResourcePool.take
  rw [ResourcePool.atStone_ok r s hs hl]
  have : ¬ 1 > r.countOf s := by omega
  simp only [bind, Except.bind, this, if_false]
  exact ⟨_, rfl, by simp [hl]⟩

theorem addActionsExtraDraw_applies (g : GameState) (hp : g.actionPools.pools.length = 4)
    (h6 : g.actionPools.active.stones.length = 6)
    (hr : g.resourcePool.stoneCounts.length = 10) (hc : g.actionPools.active.Canonical) :
    ∀ s ∈ ActionGenerator.addActionsExtraDraw g, s.AppliesTo g := by
  intro s hs
  unfold ActionGenerator.addActionsExtraDraw at hs
  simp only at hs
  have hne0 : g.actionPools.active.stones ≠ [] := stones_ne_nil _ h6
  rcases List.mem_append.mp hs with h | h
  · split at h
    · rename_i hfree
      unfold StonePool.freeSlots at hfree
      obtain ⟨st, hst, rfl⟩ := List.mem_map.mp h
      unfold ResourcePool.allActionOneExtraDraw at hst
      obtain ⟨hst1, hst2⟩ := List.mem_filter.mp hst
      simp only [decide_eq_true_eq] at hst2
      have hne := Stone.mem_allNonEmpty st hst1
      have hcnt : 0 < g.resourcePool.countOf st := by
        rw [ResourcePool.hasStone_eq _ _ hne hr] at hst2
        simpa using hst2
      obtain ⟨rp, hrp, _⟩ := ResourcePool.resourcePool_take_succeeds _ _ hne hr hcnt
      have hfull := StonePool.not_full g.actionPools.active (by omega) hc (by omega)
      obtain ⟨pool1, hadd⟩ := StonePool.stonePool_add_succeeds _ st hne0 hfull hne
      exact ActionSequence.appliesTo_one _ g _ rfl
        (Action.draw_succeeds g st pool1 rp hfull hst2 hrp hadd)
    · cases h
  · split at h
    · rename_i hfree
      unfold StonePool.freeSlots at hfree
      obtain ⟨⟨a, b⟩, hst, rfl⟩ := List.mem_map.mp h
      unfold ResourcePool.allActionTwoExtraDraws at hst
      simp only [List.mem_flatMap, List.mem_map, List.mem_filter, Prod.mk.injEq] at hst
      obtain ⟨a', ha, b', ⟨hb, hcond⟩, rfl, rfl⟩ := hst
      have hane := Stone.mem_allNonEmpty _ ha
      have hbne := Stone.mem_allNonEmpty _ hb
      have hcnt : 0 < g.resourcePool.countOf a' ∧
          0 < g.resourcePool.countOf b' ∧ (a' = b' → 2 ≤ g.resourcePool.countOf a') := by
        by_cases hab : a' = b'
        · subst hab
          rw [if_pos rfl] at hcond
          unfold ResourcePool.count at hcond
          rw [ResourcePool.atStone_ok _ _ hane hr] at hcond
          simp only [ge_iff_le, decide_eq_true_eq] at hcond
          exact ⟨by omega, by omega, fun _ => hcond⟩
        · rw [if_neg hab] at hcond
          simp only [Bool.and_eq_true, decide_eq_true_eq] at hcond
          rw [ResourcePool.hasStone_eq _ _ hane hr, ResourcePool.hasStone_eq _ _ hbne hr] at hcond
          simp only [gt_iff_lt, Except.ok.injEq, decide_eq_true_eq] at hcond
          exact ⟨hcond.1.2, hcond.2, fun h => absurd h hab⟩
      obtain ⟨rp1, hrp1, hl1⟩ := ResourcePool.resourcePool_take_succeeds _ _ hane hr hcnt.1
      have hcount := ResourcePool.countOf_take _ _ _ b' 1 hbne hrp1
      have hcnt2 : 0 < rp1.countOf b' := by
        by_cases hab : a' = b'
        · have := hcnt.2.2 hab
          rw [if_pos hab] at hcount
          rw [hab] at this
          omega
        · rw [if_neg hab] at hcount
          omega
      obtain ⟨rp2, hrp2, _⟩ := ResourcePool.resourcePool_take_succeeds _ _ hbne hl1 hcnt2
      have hfull := StonePool.not_full g.actionPools.active (by omega) hc (by omega)
      obtain ⟨pool1, hadd1⟩ := StonePool.stonePool_add_succeeds _ a' hne0 hfull hane
      have hfull1 := StonePool.add_not_full _ _ _ (by omega) hc (by omega) hadd1
      have hlen1 := StonePool.add_length _ _ _ hne0 hadd1
      obtain ⟨pool2, hadd2⟩ := StonePool.stonePool_add_succeeds pool1 b'
        (stones_ne_nil _ (by rw [hlen1]; exact h6)) hfull1 hbne
      have h1 := Action.draw_succeeds g a' pool1 rp1 hfull
        (by rw [ResourcePool.hasStone_eq _ _ hane hr]; simp [hcnt.1]) hrp1 hadd1
      have h2 := Action.draw_succeeds
        { g with actionPools := g.actionPools.set 0 pool1, resourcePool := rp1 } b' pool2 rp2
        (by rw [ActionPools.active_set _ _ hp]; exact hfull1)
        (by
          show rp1.hasStone b' = _
          rw [ResourcePool.hasStone_eq _ _ hbne hl1]; simp [hcnt2])
        hrp2 (by rw [ActionPools.active_set _ _ hp]; exact hadd2)
      exact ActionSequence.appliesTo_two _ _ g _ _ rfl rfl h1 h2
    · cases h

/-- Every generated sequence applies. -/
theorem addAllActions_applies (g : GameState) (hp : g.actionPools.pools.length = 4)
    (h6 : g.actionPools.active.stones.length = 6)
    (hr : g.resourcePool.stoneCounts.length = 10) (hc : g.actionPools.active.Canonical) :
    ∀ s ∈ ActionGenerator.addAllActions g, s.AppliesTo g := by
  intro s hs
  unfold ActionGenerator.addAllActions at hs
  simp only [List.mem_append] at hs
  rcases hs with ((h | h) | h) | h
  · exact addActionsPlace_applies g hp _ s h
  · exact addActionsReplace_applies g hp h6 hr s h
  · exact addActionsRotate_applies g hp h6 hr _ s h
  · exact addActionsExtraDraw_applies g hp h6 hr hc s h

/-- Claim C1: for every game state whose active action pool is in canonical form (the
arrays having their sizes), every sequence of `allActions` applies without error: its
first action applies to the state, its second action applies to the result, and this
is the result of `ActionSequence.applyTo`. -/
theorem allActions_apply (g : GameState) (hp : g.actionPools.pools.length = 4)
    (h6 : g.actionPools.active.stones.length = 6)
    (hr : g.resourcePool.stoneCounts.length = 10) (hc : g.actionPools.active.Canonical)
    (s : ActionSequence) (hs : s ∈ g.allActions) :
    ∃ a b g1 g', s.sequence = [a, b] ∧ a.applyTo g = .ok g1 ∧ b.applyTo g1 = .ok g' ∧
      s.applyTo g = .ok g' :=
  addAllActions_applies g hp h6 hr hc s hs

set_option maxRecDepth 100000 in
theorem firstTwoPlaces_mem : firstTwoPlaces ∈ startingState.allActions := by
  decide

set_option maxRecDepth 100000 in
/-- C1 at a sample: two placements on the starting state. -/
theorem allActions_apply_witness :
    firstTwoPlaces ∈ startingState.allActions ∧
    ∃ a b g1 g', firstTwoPlaces.sequence = [a, b] ∧ a.applyTo startingState = .ok g1 ∧
      b.applyTo g1 = .ok g' ∧ firstTwoPlaces.applyTo startingState = .ok g' :=
  ⟨firstTwoPlaces_mem,
   allActions_apply startingState (by decide) (by decide) (by decide) (by decide)
     firstTwoPlaces firstTwoPlaces_mem⟩

/-! ### Stone wiring -/

set_option maxRecDepth 100000 in
/-- Claim C14: the connection table of every stone kind is symmetric: `b` is in the
connections from `a` exactly if `a` is in the connections from `b`. -/
theorem connectionsFrom_symmetric : ∀ (s : Stone) (a b : Anchor),
    (s.connectionsFrom a).contains b = (s.connectionsFrom b).contains a := by
  decide

set_option maxRecDepth 100000 in
/-- Claim C15: for every stone kind and orientation, the normalised orientation is equal
to the orientation for `Stone.isEqual`: it has the same rotated connection table. -/
theorem isEqual_normalizedOrientation : ∀ (s : Stone) (o : Orientation),
    s.isEqual o (s.normalizedOrientation o) = true ∧
    (s.canRotate = false → s.normalizedOrientation o = Orientation.North) ∧
    (s.canRotate = true → s.allOrientationsAreUnique = false →
      s.normalizedOrientation Orientation.South = Orientation.North ∧
      s.normalizedOrientation Orientation.West = Orientation.East) := by
  decide

set_option maxRecDepth 100000 in
/-- Claim C16: for every stone kind, `uniqueOrientations` contains `o` exactly if the
connection table rotated to `o` differs from the table rotated to every orientation in
front of `o`; and every orientation is wiring-equal to exactly one member of
`uniqueOrientations`. -/
theorem uniqueOrientations_spec : ∀ (s : Stone) (o : Orientation),
    (s.uniqueOrientations.contains o = true ↔
      ∀ p ∈ o.preceding, StoneWiring.isEqualConn s.thisWiring.connections p o = false) ∧
    ∃ u : Orientation, (s.uniqueOrientations.contains u = true ∧
        s.thisWiring.isEqual o u = true) ∧
      ∀ v : Orientation, s.uniqueOrientations.contains v = true ∧
        s.thisWiring.isEqual o v = true → v = u := by
  decide

set_option maxRecDepth 100000 in
/-- C17, evaluated on the code: `SwitchWithStop` and `OneCurveWithStop` have four unique
orientations, not two. -/
theorem stop_stones_have_four_orientations :
    Stone.SwitchWithStop.uniqueOrientations.members =
      [Orientation.North, Orientation.East, Orientation.South, Orientation.West] ∧
    Stone.OneCurveWithStop.uniqueOrientations.members =
      [Orientation.North, Orientation.East, Orientation.South, Orientation.West] ∧
    Stone.SwitchWithStop.uniqueOrientations.members.length ≠ 2 ∧
    Stone.OneCurveWithStop.uniqueOrientations.members.length ≠ 2 := by
  decide

set_option maxRecDepth 100000 in
/-- C17 as the code has it: one unique orientation for `Crossing`, `CrossingWithStop` and
`SwitchC` (and the empty stone), two for `TwoCurves` and `SwitchA`, and all four for
`SwitchB`, `CurveWithBounces`, `SwitchWithStop`, `OneCurveWithStop` and `OneCurve`. -/
theorem uniqueOrientations_classes : ∀ s : Stone,
    s.uniqueOrientations.members =
      (if s = Stone.Empty ∨ s = Stone.Crossing ∨ s = Stone.CrossingWithStop ∨ s = Stone.SwitchC
        then [Orientation.North]
      else if s = Stone.TwoCurves ∨ s = Stone.SwitchA then [Orientation.North, Orientation.East]
      else [Orientation.North, Orientation.East, Orientation.South, Orientation.West]) := by
  decide

/-! ### Rotation of anchor sets -/

set_option maxRecDepth 100000 in
theorem Anchors.rotated_facts : ∀ n, n < 32 → ∀ r1 r2 : Rotation,
    ((Anchors.mk n).rotated r1).rotated r2 = (Anchors.mk n).rotated (r1.add r2) ∧
    (Anchors.mk n).rotated Rotation.None = Anchors.mk n ∧
    ((Anchors.mk n).rotated r1).contains Anchor.Stop = (Anchors.mk n).contains Anchor.Stop ∧
    ∀ a : Anchor, ((Anchors.mk n).rotated r1).contains (a.rotated r1) =
      (Anchors.mk n).contains a := by
  decide

/-- Claim C18: for every anchor set (its five bits) and all rotations `r1`, `r2`, rotating
by `r1` and then by `r2` is rotating by `r1 + r2`, rotating by `None` changes nothing, the
stop bit is never changed, and the rotated set contains the rotated anchor exactly if
the set contains the anchor. -/
theorem anchors_rotated_action (a : Anchors) (h : a.points < 32) (r1 r2 : Rotation) :
    (a.rotated r1).rotated r2 = a.rotated (r1.add r2) ∧
    a.rotated Rotation.None = a ∧
    (a.rotated r1).contains Anchor.Stop = a.contains Anchor.Stop ∧
    ∀ x : Anchor, (a.rotated r1).contains (x.rotated r1) = a.contains x :=
  Anchors.rotated_facts a.points h r1 r2

/-- C18 at a sample: the set of north and stop, turned by 270° and then by 180°. -/
theorem anchors_rotated_witness :
    (Anchors.of [Anchor.North, Anchor.Stop]).points < 32 ∧
    ((Anchors.of [Anchor.North, Anchor.Stop]).rotated Rotation.Clockwise270).rotated
        Rotation.Clockwise180 =
      (Anchors.of [Anchor.North, Anchor.Stop]).rotated
        (Rotation.Clockwise270.add Rotation.Clockwise180) :=
  ⟨by decide,
   (anchors_rotated_action (Anchors.of [Anchor.North, Anchor.Stop]) (by decide)
     Rotation.Clockwise270 Rotation.Clockwise180).1⟩

/-! ### The board frame -/

set_option maxRecDepth 100000 in
/-- C19, evaluated on the code: stone kind, area and owner agree at every position and
its rotated position, but the wiring does not: the house field at `(1, 9)` has no
connection from south to stop while the field at the rotated position `(9, 8)` has the
turned connection from east to stop; and the static field at `(9, 8)` has a connection
from stop to east, which leaves the board. -/
theorem frame_not_rotation_symmetric :
    (∀ x, x < 10 → ∀ y, y < 10 → frameKindsAgree ⟨x, y⟩ = .ok true) ∧
    (Position.mk 1 9).rotated Rotation.Clockwise90 setup.boardSize = ⟨9, 8⟩ ∧
    frameWiringAt ⟨1, 9⟩ Anchor.South Anchor.Stop = .ok (false, true) ∧
    (Board.frame.field ⟨9, 8⟩).map (fun b => (b.isStatic,
      (b.toField.connectionsFrom Anchor.Stop).contains Anchor.East)) = .ok (true, true) ∧
    (Anchor.East.nextPoint ⟨9, 8⟩).position = ⟨10, 8⟩ ∧
    ¬ (Anchor.East.nextPoint ⟨9, 8⟩).position.OnBoard := by
  decide

/-! ### Targets of the generated replace and rotate actions -/

theorem Action.targetOK_of_type (g : GameState) (a : Action)
    (h1 : a.type ≠ ActionType.ReplaceStone) (h2 : a.type ≠ ActionType.RotateStone) :
    a.TargetOK g := by
  intro h
  rcases h with h | h
  · exact absurd h h1
  · exact absurd h h2

theorem Action.place_targetOK (g : GameState) (p : Position) (s : Stone) (o : Orientation) :
    (Action.createPlace p s o).TargetOK g :=
  Action.targetOK_of_type g _ (by simp [Action.createPlace]) (by simp [Action.createPlace])

theorem Action.draw_targetOK (g : GameState) (s : Stone) : (Action.createDraw s).TargetOK g :=
  Action.targetOK_of_type g _ (by simp [Action.createDraw]) (by simp [Action.createDraw])

theorem targetOK_one (g : GameState) (a : Action) (h : a.TargetOK g) :
    ∀ x ∈ (ActionSequence.one a).sequence, x.TargetOK g := by
  intro x hx
  simp only [ActionSequence.one, List.mem_cons, List.mem_singleton, List.not_mem_nil,
    or_false] at hx
  rcases hx with rfl | rfl
  · exact h
  · exact Action.targetOK_of_type g _ (by decide) (by decide)

theorem targetOK_two (g : GameState) (a b : Action) (ha : a.TargetOK g) (hb : b.TargetOK g) :
    ∀ x ∈ (ActionSequence.two a b).sequence, x.TargetOK g := by
  intro x hx
  simp only [ActionSequence.two, List.mem_cons, List.mem_singleton, List.not_mem_nil,
    or_false] at hx
  rcases hx with rfl | rfl
  · exact ha
  · exact hb

theorem mem_forAllForReplaceOne (g : GameState) (positions : List Position)
    (pairs : List (Stone × Stone)) (p : Position) (sp : Stone × Stone) (o : Orientation)
    (h : (p, sp, o) ∈ ActionGenerator.forAllForReplaceOne g positions pairs) :
    p ∈ positions ∧ g.orbPositions.isOrbAt p = false := by
  unfold ActionGenerator.forAllForReplaceOne at h
  simp only [List.mem_flatMap] at h
  obtain ⟨q, hq, h⟩ := h
  split at h
  · cases h
  · rename_i horb
    simp only [List.mem_flatMap, List.mem_map, Prod.mk.injEq] at h
    obtain ⟨_, _, _, _, rfl, _, _⟩ := h
    exact ⟨hq, by simpa using horb⟩

theorem mem_forAllForReplaceTwo (g : GameState) (pairs : List (Position × Position))
    (quads : List (Stone × Stone × Stone × Stone)) (pp : Position × Position)
    (a b : Stone × Stone) (oo : Orientation × Orientation)
    (h : (pp, a, b, oo) ∈ ActionGenerator.forAllForReplaceTwo g pairs quads) :
    pp ∈ pairs ∧ g.orbPositions.isOrbAt pp.1 = false ∧ g.orbPositions.isOrbAt pp.2 = false := by
  unfold ActionGenerator.forAllForReplaceTwo at h
  simp only [List.mem_flatMap] at h
  obtain ⟨q, hq, h⟩ := h
  split at h
  · cases h
  · rename_i horb
    simp only [List.mem_flatMap, List.mem_map, Prod.mk.injEq] at h
    obtain ⟨_, _, _, _, rfl, _, _⟩ := h
    simp only [Bool.or_eq_true, not_or, Bool.not_eq_true] at horb
    exact ⟨hq, horb.1, horb.2⟩

theorem mem_forAllForRotationOne_orb (g : GameState) (positions : List Position)
    (stones : List Stone) (p : Position) (o : Orientation) (d : Stone)
    (h : (p, o, d) ∈ ActionGenerator.forAllForRotationOne g positions stones) :
    p ∈ positions ∧ g.orbPositions.isOrbAt p = false := by
  unfold ActionGenerator.forAllForRotationOne at h
  simp only [List.mem_flatMap] at h
  obtain ⟨q, hq, h⟩ := h
  split at h
  · cases h
  · rename_i horb
    split at h
    · cases h
    · split at h
      · cases h
      · simp only [List.mem_flatMap, List.mem_map, Prod.mk.injEq] at h
        obtain ⟨_, _, d', hd, rfl, _, rfl⟩ := h
        exact ⟨hq, by simpa using horb⟩

theorem mem_forAllForRotationTwo_orb (g : GameState) (pairs : List (Position × Position))
    (stones : List (Stone × Stone)) (pp : Position × Position) (oo : Orientation × Orientation)
    (dd : Stone × Stone)
    (h : (pp, oo, dd) ∈ ActionGenerator.forAllForRotationTwo g pairs stones) :
    pp ∈ pairs ∧ g.orbPositions.isOrbAt pp.1 = false ∧ g.orbPositions.isOrbAt pp.2 = false := by
  unfold ActionGenerator.forAllForRotationTwo at h
  simp only [List.mem_flatMap] at h
  obtain ⟨q, hq, h⟩ := h
  split at h
  · cases h
  · rename_i horb
    simp only [Bool.or_eq_true, not_or, Bool.not_eq_true] at horb
    split at h
    · split at h
      · cases h
      · simp only [List.mem_flatMap, List.mem_map, Prod.mk.injEq] at h
        obtain ⟨_, _, d', hd, rfl, _, rfl⟩ := h
        exact ⟨hq, horb.1, horb.2⟩
    · cases h

theorem positionsIf_nonStatic (b : Board) (t : Field → Bool) (p : Position)
    (h : p ∈ b.allNonStaticPositionsIf t) : Board.isStatic p = .ok false :=
  nonStatic_isStatic p (mem_allNonStaticPositionsIf b t p h).1

theorem addAllActions_targets (g : GameState) :
    ∀ s ∈ ActionGenerator.addAllActions g, ∀ a ∈ s.sequence, a.TargetOK g := by
  intro s hs
  unfold ActionGenerator.addAllActions at hs
  simp only [List.mem_append] at hs
  rcases hs with ((h | h) | h) | h
  · unfold ActionGenerator.addActionsPlace at h
    split at h
    · cases h
    · rcases List.mem_append.mp h with h | h
      · obtain ⟨e, _, rfl⟩ := List.mem_map.mp h
        exact targetOK_one g _ (Action.place_targetOK g _ _ _)
      · split at h
        · cases h
        · obtain ⟨e, _, rfl⟩ := List.mem_map.mp h
          exact targetOK_two g _ _ (Action.place_targetOK g _ _ _)
            (Action.place_targetOK g _ _ _)
  · unfold ActionGenerator.addActionsReplace at h
    split at h
    · cases h
    · rcases List.mem_append.mp h with h | h
      · obtain ⟨⟨p, sp, o⟩, he, rfl⟩ := List.mem_map.mp h
        obtain ⟨he, _⟩ := List.mem_filter.mp he
        obtain ⟨hp, horb⟩ := mem_forAllForReplaceOne _ _ _ _ _ _ he
        exact targetOK_one g _ (fun _ => ⟨horb, positionsIf_nonStatic _ _ _ hp⟩)
      · split at h
        · cases h
        · obtain ⟨⟨⟨p1, p2⟩, a, b, oo⟩, he, rfl⟩ := List.mem_map.mp h
          obtain ⟨he, _⟩ := List.mem_filter.mp he
          obtain ⟨hp, horb1, horb2⟩ := mem_forAllForReplaceTwo _ _ _ _ _ _ _ he
          obtain ⟨hm1, hm2, _⟩ := mem_positionPairs _ _ _ hp
          exact targetOK_two g _ _ (fun _ => ⟨horb1, positionsIf_nonStatic _ _ _ hm1⟩)
            (fun _ => ⟨horb2, positionsIf_nonStatic _ _ _ hm2⟩)
  · unfold ActionGenerator.addActionsRotate at h
    split at h
    · cases h
    · rcases List.mem_append.mp h with h | h
      · obtain ⟨⟨p, o, d⟩, he, rfl⟩ := List.mem_map.mp h
        obtain ⟨he, _⟩ := List.mem_filter.mp he
        obtain ⟨hp, horb⟩ := mem_forAllForRotationOne_orb _ _ _ _ _ _ he
        exact targetOK_one g _ (fun _ => ⟨horb, positionsIf_nonStatic _ _ _ hp⟩)
      · split at h
        · obtain ⟨⟨⟨p1, p2⟩, oo, dd⟩, he, rfl⟩ := List.mem_map.mp h
          obtain ⟨he, _⟩ := List.mem_filter.mp he
          obtain ⟨hp, horb1, horb2⟩ := mem_forAllForRotationTwo_orb _ _ _ _ _ _ he
          obtain ⟨hm1, hm2, _⟩ := mem_positionPairs _ _ _ hp
          exact targetOK_two g _ _ (fun _ => ⟨horb1, positionsIf_nonStatic _ _ _ hm1⟩)
            (fun _ => ⟨horb2, positionsIf_nonStatic _ _ _ hm2⟩)
        · cases h
  · unfold ActionGenerator.addActionsExtraDraw at h
    simp only at h
    rcases List.mem_append.mp h with h | h
    · split at h
      · obtain ⟨e, _, rfl⟩ := List.mem_map.mp h
        exact targetOK_one g _ (Action.draw_targetOK g _)
      · cases h
    · split at h
      · obtain ⟨e, _, rfl⟩ := List.mem_map.mp h
        exact targetOK_two g _ _ (Action.draw_targetOK g _) (Action.draw_targetOK g _)
      · cases h

/-- Claim C13: no replace or rotate action of a sequence of `allActions` targets a
position that holds an orb, and none targets a static field. -/
theorem allActions_targets (g : GameState) (s : ActionSequence) (hs : s ∈ g.allActions)
    (a : Action) (ha : a ∈ s.sequence)
    (ht : a.type = ActionType.ReplaceStone ∨ a.type = ActionType.RotateStone) :
    g.orbPositions.isOrbAt a.position = false ∧ Board.isStatic a.position = .ok false :=
  addAllActions_targets g s hs a ha ht

set_option maxRecDepth 100000 in
theorem replaceMove_mem : replaceMove.actions ∈ firstPlaceState.allActions := by
  unfold GameState.allActions ActionGenerator.addAllActions
  simp only [List.mem_append]
  refine Or.inl (Or.inl (Or.inr ?_))
  decide

/-- C13 at a sample: the replace action of `replaceMove` after the first placement. -/
theorem allActions_targets_witness :
    replaceMove.actions ∈ firstPlaceState.allActions ∧
    firstPlaceState.orbPositions.isOrbAt ⟨1, 1⟩ = false ∧
    Board.isStatic ⟨1, 1⟩ = .ok false :=
  ⟨replaceMove_mem,
   allActions_targets firstPlaceState replaceMove.actions replaceMove_mem
     (Action.createReplace ⟨1, 1⟩ .TwoCurves .East .Crossing) (by decide) (by decide)⟩

/-! ### The number of generated sequences under rotation -/

theorem Position.lt_iff (p q : Position) :
    p.lt q = true ↔ p.y < q.y ∨ (p.y = q.y ∧ p.x < q.x) := by
  unfold Position.lt
  simp only [Bool.or_eq_true, decide_eq_true_eq, Bool.and_eq_true, beq_iff_eq]

theorem Position.lt_false_iff (p q : Position) :
    p.lt q = false ↔ ¬ (p.y < q.y ∨ (p.y = q.y ∧ p.x < q.x)) := by
  rw [← Position.lt_iff]
  simp

theorem Position.eq_of_not_lt (p q : Position) (h1 : p.lt q = false) (h2 : q.lt p = false) :
    p = q := by
  rw [Position.lt_false_iff] at h1 h2
  obtain ⟨px, py⟩ := p
  obtain ⟨qx, qy⟩ := q
  simp only [Position.mk.injEq] at *
  omega

theorem insertSorted_sorted (a : OrbPosition) (l : List OrbPosition)
    (h : l.Pairwise fun x y => y.position.lt x.position = false) :
    (OrbPositions.insertSorted a l).Pairwise fun x y => y.position.lt x.position = false := by
  induction l with
  | nil => simp [OrbPositions.insertSorted]
  | cons b l ih =>
    obtain ⟨hb, hl⟩ := List.pairwise_cons.mp h
    unfold OrbPositions.insertSorted
    by_cases hlt : b.position.lt a.position = true
    · rw [if_pos hlt]
      refine List.pairwise_cons.mpr ⟨fun x hx => ?_, ih hl⟩
      rcases List.mem_cons.mp ((insertSorted_perm a l).mem_iff.mp hx) with rfl | hx
      · rw [Position.lt_false_iff]
        rw [Position.lt_iff] at hlt
        omega
      · exact hb x hx
    · rw [if_neg hlt]
      simp only [Bool.not_eq_true] at hlt
      refine List.pairwise_cons.mpr ⟨fun x hx => ?_, h⟩
      rcases List.mem_cons.mp hx with rfl | hx
      · exact hlt
      · have h1 := hb x hx
        rw [Position.lt_false_iff] at h1 hlt ⊢
        omega

theorem sort_sorted (o : OrbPositions) :
    o.sort.positions.Pairwise fun x y => y.position.lt x.position = false := by
  unfold OrbPositions.sort
  show (List.foldr OrbPositions.insertSorted [] o.positions).Pairwise _
  induction o.positions with
  | nil => exact List.Pairwise.nil
  | cons a l ih => exact insertSorted_sorted a _ ih

/-- The first element with the property is replaced, the other elements stay. -/
theorem modifyFirst_perm {α : Type} [DecidableEq α] (p : α → Bool) (g : α → α) (l : List α)
    (h : ∃ a ∈ l, p a = true) :
    ∃ a ∈ l, p a = true ∧ (OrbPositions.modifyFirst p g l).Perm (g a :: l.erase a) := by
  induction l with
  | nil => simp at h
  | cons b l ih =>
    unfold OrbPositions.modifyFirst
    by_cases hb : p b = true
    · rw [if_pos hb]
      exact ⟨b, List.mem_cons_self _ _, hb, by rw [List.erase_cons_head]⟩
    · rw [if_neg hb]
      obtain ⟨a, ha, hpa⟩ := h
      have hal : a ∈ l := by
        rcases List.mem_cons.mp ha with rfl | ha
        · exact absurd hpa hb
        · exact ha
      obtain ⟨c, hc, hpc, hperm⟩ := ih ⟨a, hal, hpa⟩
      refine ⟨c, List.mem_cons_of_mem _ hc, hpc, ?_⟩
      have hne : b ≠ c := fun hbc => hb (hbc ▸ hpc)
      rw [List.erase_cons_tail (by simpa using hne)]
      exact (List.Perm.cons b hperm).trans (List.Perm.swap _ _ _)

theorem Position.lt_irrefl (p : Position) : p.lt p = false := by
  rw [Position.lt_false_iff]; omega

theorem Position.isInvalid_invalid : Position.invalid.isInvalid = true := rfl

theorem ordered_distinct (l : List OrbPosition)
    (h : l.Pairwise fun a b => a.position.lt b.position = true ∨ b.position = Position.invalid) :
    l.Pairwise OrbPositions.distinctRel := by
  refine h.imp ?_
  intro a b hab heq
  rcases hab with hlt | hinv
  · rw [heq, Position.lt_irrefl] at hlt; cases hlt
  · rw [heq]; exact hinv

theorem distinctRel_symm (a b : OrbPosition) (h : OrbPositions.distinctRel a b) :
    OrbPositions.distinctRel b a := by
  intro heq
  rw [heq]; exact h heq.symm

theorem ordered_of_sorted_distinct (l : List OrbPosition)
    (h1 : l.Pairwise fun x y => y.position.lt x.position = false)
    (h2 : l.Pairwise OrbPositions.distinctRel) :
    l.Pairwise fun a b => a.position.lt b.position = true ∨ b.position = Position.invalid := by
  refine (h1.and h2).imp ?_
  intro a b hab
  obtain ⟨hle, hd⟩ := hab
  by_cases hlt : a.position.lt b.position = true
  · exact Or.inl hlt
  · simp only [Bool.not_eq_true] at hlt
    have heq := Position.eq_of_not_lt _ _ hlt hle
    right
    rw [← heq]
    exact hd heq

/-- A successful `moveOrb` on records in order: the first record at `old` is replaced by
the moved orb, the other records stay, and the records are in order again. -/
theorem OrbPositions.moveOrb_perm (o : OrbPositions) (ho : o.Ordered) (old new : Position)
    (h1 : new.isInvalid = false) (h2 : o.isOrbAt new = false) (h3 : o.isOrbAt old = true) :
    ∃ r o', r ∈ o.positions ∧ r.position = old ∧ o.moveOrb old new = .ok o' ∧
      o'.positions.Perm (⟨new, 3, old⟩ :: o.positions.erase r) ∧ o'.Ordered := by
  have hex : ∃ a ∈ o.positions, (fun op : OrbPosition => op.position == old) a = true := by
    obtain ⟨a, ha, hpa⟩ := List.mem_map.mp ((isOrbAt_iff o old).mp h3)
    exact ⟨a, ha, by simpa using hpa⟩
  obtain ⟨r, hr, hpr, hperm⟩ := modifyFirst_perm (fun op : OrbPosition => op.position == old)
    (fun op => { op with koPosition := op.position, koLock := 3, position := new })
    o.positions hex
  have hro : r.position = old := by simpa using hpr
  refine ⟨r, OrbPositions.sort ⟨OrbPositions.modifyFirst (fun op => op.position == old)
    (fun op => { op with koPosition := op.position, koLock := 3, position := new })
    o.positions⟩, hr, hro, ?_, ?_, ?_⟩
  · unfold OrbPositions.moveOrb
    rw [if_neg (by simp [h1]), if_neg (by simp [h2]), if_neg (by simp [h3])]
  · refine (sort_perm _).trans ?_
    simp only [hro] at hperm
    exact hperm
  · simp only [hro] at hperm
    have hall := (sort_perm ⟨OrbPositions.modifyFirst (fun op => op.position == old)
      (fun op => { op with koPosition := op.position, koLock := 3, position := new })
      o.positions⟩).trans hperm
    have hd0 := ordered_distinct _ ho
    have hd1 : (({ position := new, koLock := 3, koPosition := old } : OrbPosition) ::
        o.positions.erase r).Pairwise OrbPositions.distinctRel := by
      refine List.pairwise_cons.mpr ⟨fun x hx heq => ?_, hd0.sublist (List.erase_sublist _ _)⟩
      exfalso
      have hxm : x ∈ o.positions := List.mem_of_mem_erase hx
      have : o.isOrbAt new = true :=
        (isOrbAt_iff o new).mpr (List.mem_map.mpr ⟨x, hxm, heq.symm⟩)
      rw [h2] at this; cases this
    have hd2 := (hall.pairwise_iff (fun {a b} => distinctRel_symm a b)).mpr hd1
    exact ordered_of_sorted_distinct _ (sort_sorted _) hd2

/-- Claim C11: for orb records in order, `moveOrb(old, new)` raises an error when `new`
is invalid, when `new` holds an orb, or when no record has position `old`; otherwise it
succeeds, the first record at `old` gets ko-position `old`, ko-lock 3 and position `new`,
the other records are unchanged, and the records are in order again. -/
theorem moveOrb_spec (o : OrbPositions) (ho : o.Ordered) (old new : Position) :
    (new.isInvalid = true →
      o.moveOrb old new = .error "OrbPositions::moveOrb - new position is invalid.") ∧
    (new.isInvalid = false → o.isOrbAt new = true →
      o.moveOrb old new = .error "OrbPositions::moveOrb - collision with existing orb.") ∧
    (new.isInvalid = false → o.isOrbAt new = false → o.isOrbAt old = false →
      o.moveOrb old new = .error "OrbPositions::moveOrb - no orb found at old position.") ∧
    (new.isInvalid = false → o.isOrbAt new = false → o.isOrbAt old = true →
      ∃ r o', r ∈ o.positions ∧ r.position = old ∧ o.moveOrb old new = .ok o' ∧
        o'.positions.Perm (⟨new, 3, old⟩ :: o.positions.erase r) ∧ o'.Ordered) := by
  refine ⟨fun h => ?_, fun h1 h2 => ?_, fun h1 h2 h3 => ?_,
    OrbPositions.moveOrb_perm o ho old new⟩
  · unfold OrbPositions.moveOrb; rw [if_pos h]
  · unfold OrbPositions.moveOrb
    rw [if_neg (by simp [h1]), if_pos h2]
  · unfold OrbPositions.moveOrb
    rw [if_neg (by simp [h1]), if_neg (by simp [h2]), if_pos (by simp [h3])]

set_option maxRecDepth 100000 in
/-- C11 at a sample: the orb on the source cell `(4, 4)` of the starting state moves to
`(2, 2)`. -/
theorem moveOrb_spec_witness :
    startingState.orbPositions.Ordered ∧
    ∃ r o', r ∈ startingState.orbPositions.positions ∧ r.position = ⟨4, 4⟩ ∧
      startingState.orbPositions.moveOrb ⟨4, 4⟩ ⟨2, 2⟩ = .ok o' ∧
      o'.positions.Perm (⟨⟨2, 2⟩, 3, ⟨4, 4⟩⟩ :: startingState.orbPositions.positions.erase r) ∧
      o'.Ordered :=
  ⟨by decide,
   (moveOrb_spec startingState.orbPositions (by decide) ⟨4, 4⟩ ⟨2, 2⟩).2.2.2
     (by decide) (by decide) (by decide)⟩


/-! ### Leaving the source -/

/-- The steps of a successful `OrbMove.applyTo`, with the test for the spare orb. -/
theorem OrbMove.applyTo_ok_spare (m : OrbMove) (g g' : GameState)
    (hm : m.applyTo g = .ok g') :
    ∃ oldS newS orbs, Board.isSource m.start = .ok oldS ∧ Board.isSource m.stop = .ok newS ∧
      g.orbPositions.moveOrb m.start m.stop = .ok orbs ∧
      (((oldS && !newS && orbs.hasSpare) = true ∧
          ∃ orbs1, orbs.moveOrb Position.invalid m.start = .ok orbs1 ∧
            g' = { g with orbPositions := orbs1 }) ∨
        ((oldS && !newS && orbs.hasSpare) = false ∧ g' = { g with orbPositions := orbs })) := by
  unfold OrbMove.applyTo at hm
  simp only [Except.throw_bind, Except.pure_bind_eq, Except.bind_eq_ok_iff,
    Except.ite_throw_eq_ok, Except.pure_eq_ok_iff, Bool.not_eq_true', Bool.not_eq_false,
    Except.ite_eq_ok_iff, Except.error_eq_ok_iff, and_false, false_or, or_false] at hm
  obtain ⟨_, oldS, hold, newS, hnew, _, _, hrest⟩ := hm
  refine ⟨oldS, newS, ?_⟩
  have fin : ∀ orbs : OrbPositions, g.orbPositions.moveOrb m.start m.stop = .ok orbs →
      (((oldS && !newS && orbs.hasSpare) = true ∧
        ∃ a_1, orbs.moveOrb Position.invalid m.start = Except.ok a_1 ∧
          ({ g with orbPositions := a_1 } : GameState) = g') ∨
       (¬(oldS && !newS && orbs.hasSpare) = true ∧
          ({ g with orbPositions := orbs } : GameState) = g')) →
      ∃ orbs, Board.isSource m.start = .ok oldS ∧ Board.isSource m.stop = .ok newS ∧
        g.orbPositions.moveOrb m.start m.stop = .ok orbs ∧
        (((oldS && !newS && orbs.hasSpare) = true ∧
            ∃ orbs1, orbs.moveOrb Position.invalid m.start = .ok orbs1 ∧
              g' = { g with orbPositions := orbs1 }) ∨
          ((oldS && !newS && orbs.hasSpare) = false ∧
            g' = { g with orbPositions := orbs })) := by
    intro orbs hmv hfin
    refine ⟨orbs, hold, hnew, hmv, ?_⟩
    rcases hfin with ⟨hc, orbs1, h1, h2⟩ | ⟨hc, h2⟩
    · exact Or.inl ⟨hc, orbs1, h1, h2.symm⟩
    · exact Or.inr ⟨by simpa using hc, h2.symm⟩
  rcases hrest with ⟨_, _, _, _, hh⟩ | ⟨_, hh⟩
  · obtain ⟨_, _, _, _, _, _, _, orbs, hmv, hfin⟩ := hh
    exact fin orbs hmv hfin
  · obtain ⟨_, _, _, _, _, _, _, orbs, hmv, hfin⟩ := hh
    exact fin orbs hmv hfin

/-- The index of the first element with the property is the number of elements without
it, when the elements with the property are last. -/
theorem findIdx_eq_countP {α : Type} (p : α → Bool) (l : List α)
    (h : l.Pairwise fun a b => p a = true → p b = true) :
    (match l.findIdx? p with
      | some i => i
      | Option.none => l.length) = l.countP fun a => !p a := by
  induction l with
  | nil => rfl
  | cons a l ih =>
    obtain ⟨ha, hl⟩ := List.pairwise_cons.mp h
    by_cases hpa : p a = true
    · have h0 : l.countP (fun a => !p a) = 0 := by
        rw [List.countP_eq_zero]
        intro x hx
        simp [ha x hx hpa]
      simp only [List.findIdx?_cons, hpa, if_true, List.countP_cons, h0, Bool.not_true,
        Bool.false_eq_true, if_false]
    · have ih' := ih hl
      simp only [Bool.not_eq_true] at hpa
      have e : (a :: l).findIdx? p = (l.findIdx? p).map (· + 1) := by
        simp [List.findIdx?_cons, hpa, List.findIdx?_succ]
      rw [e, List.countP_cons]
      simp only [hpa, Bool.not_false, if_true]
      cases hf : List.findIdx? p l with
      | none =>
        rw [hf] at ih'
        simp only [Option.map_none', List.length_cons]
        have ih2 : l.length = l.countP fun a => !p a := ih'
        show l.length + 1 = _
        omega
      | some i =>
        rw [hf] at ih'
        simp only [Option.map_some']
        have ih2 : i = l.countP fun a => !p a := ih'
        show i + 1 = _
        omega

theorem Position.valid_isInvalid (p : Position) (h : p.Valid) (hi : p.isInvalid = true) :
    p = Position.invalid := by
  rcases h with h | h
  · exact h
  · unfold Position.isInvalid Position.maxLength at hi
    simp only [Bool.or_eq_true, beq_iff_eq] at hi
    omega

theorem Position.valid_not_invalid_lt (p : Position) (h : p.Valid) :
    Position.invalid.lt p = false := by
  rw [Position.lt_false_iff]
  rcases h with h | h
  · rw [h]; omega
  · unfold Position.invalid Position.maxLength; simp only; omega

theorem OrbPositions.inGameCount_eq (o : OrbPositions) (hl : o.positions.length < 256)
    (hw : ∀ r ∈ o.positions, r.position.Valid) (ho : o.Ordered) :
    o.inGameCount = o.validCount := by
  have hpw : o.positions.Pairwise fun a b =>
      (fun r : OrbPosition => r.position.isInvalid) a = true →
      (fun r : OrbPosition => r.position.isInvalid) b = true := by
    have hmem : o.positions.Pairwise fun a b => a ∈ o.positions ∧ b ∈ o.positions :=
      List.pairwise_of_forall_mem_list fun a ha b hb => ⟨ha, hb⟩
    refine (List.Pairwise.and ho hmem).imp ?_
    intro a b hab hia
    obtain ⟨hor, ham, hbm⟩ := hab
    have ha := Position.valid_isInvalid _ (hw a ham) hia
    rcases hor with hlt | hinv
    · rw [ha, Position.valid_not_invalid_lt _ (hw b hbm)] at hlt; cases hlt
    · show b.position.isInvalid = true
      rw [hinv]; rfl
  have := findIdx_eq_countP (fun r : OrbPosition => r.position.isInvalid) o.positions hpw
  unfold OrbPositions.inGameCount OrbPositions.validCount
  rw [← this]
  cases hf : List.findIdx? (fun r : OrbPosition => r.position.isInvalid) o.positions with
  | none => rfl
  | some i =>
    obtain ⟨hi, _, _⟩ := List.findIdx?_eq_some_iff_getElem.mp hf
    exact Nat.mod_eq_of_lt (by omega)

theorem countP_cons_erase {α : Type} [DecidableEq α] (p : α → Bool) (l l' : List α) (a b : α)
    (hb : b ∈ l) (h : l'.Perm (a :: l.erase b)) :
    l'.countP p + (if p b then 1 else 0) = l.countP p + (if p a then 1 else 0) := by
  have h1 := h.countP_eq p
  have h2 := (List.perm_cons_erase hb).countP_eq p
  rw [List.countP_cons] at h1 h2
  omega

theorem onBoard_not_isInvalid (p : Position) (h : p.x < 10 ∧ p.y < 10) : p.isInvalid = false := by
  unfold Position.isInvalid Position.maxLength
  simp only [Bool.or_eq_false_iff, beq_eq_false_iff_ne, ne_eq]
  omega

theorem hasSpare_eq (o : OrbPositions) (hl : o.positions.length = 9)
    (hw : ∀ r ∈ o.positions, r.WF) (ho : o.Ordered) :
    o.hasSpare = decide (o.validCount < 9) := by
  unfold OrbPositions.hasSpare
  rw [OrbPositions.inGameCount_eq o (by omega) (fun r hr => (hw r hr).1) ho]
  rfl

/-- Claim C12: when `OrbMove{s, t}.applyTo` succeeds with `s` a source field and `t` not
a source field (the orb records being in order), an orb stands on `t` afterwards; with a
spare orb, a former spare orb stands on `s` and the number of orbs in play has grown by
one; without a spare orb, `s` holds no orb and the number of orbs in play is unchanged. -/
theorem applyTo_leaving_source (g g' : GameState) (s t : Position)
    (hl : g.orbPositions.positions.length = 9) (hw : ∀ r ∈ g.orbPositions.positions, r.WF)
    (ho : g.orbPositions.Ordered)
    (hs : Board.isSource s = .ok true) (ht : Board.isSource t = .ok false)
    (h : (OrbMove.mk s t).applyTo g = .ok g') :
    g'.orbPositions.isOrbAt t = true ∧
    (g.orbPositions.hasSpare = true →
      g'.orbPositions.isOrbAt s = true ∧ g'.orbPositions.koPosition s = Position.invalid ∧
      g'.orbPositions.inGameCount = g.orbPositions.inGameCount + 1) ∧
    (g.orbPositions.hasSpare = false →
      g'.orbPositions.isOrbAt s = false ∧
      g'.orbPositions.inGameCount = g.orbPositions.inGameCount) := by
  obtain ⟨oldS, newS, orbs, hold, hnew, hmv, hcase⟩ := OrbMove.applyTo_ok_spare _ g g' h
  simp only at hold hnew hmv hcase
  rw [hs] at hold
  rw [ht] at hnew
  cases hold
  cases hnew
  simp only [Bool.not_false, Bool.and_true, Bool.true_and] at hcase
  have hsb := onBoard_of_isSource s _ hs
  have htb := onBoard_of_isSource t _ ht
  obtain ⟨ht1, ht2, hs3, _, hot, _⟩ := moveOrb_ok _ _ _ _ hmv
  obtain ⟨r, o', hr, hrs, hmv', hperm, hord⟩ :=
    OrbPositions.moveOrb_perm g.orbPositions ho s t ht1 ht2 hs3
  rw [hmv] at hmv'
  cases hmv'
  obtain ⟨hl1, hw1⟩ := OrbPositions.moveOrb_WF _ _ _ _ hl hw htb hmv
  have hc1 := countP_cons_erase (fun x : OrbPosition => !x.position.isInvalid) _ _ _ _ hr hperm
  simp only [hrs, onBoard_not_isInvalid s hsb, onBoard_not_isInvalid t htb, Bool.not_false,
    if_true] at hc1
  have hv1 : orbs.validCount = g.orbPositions.validCount := by
    unfold OrbPositions.validCount; omega
  have hsp0 := hasSpare_eq g.orbPositions hl hw ho
  have hsp1 := hasSpare_eq orbs hl1 hw1 hord
  have hig0 := OrbPositions.inGameCount_eq g.orbPositions (by omega) (fun r hr => (hw r hr).1) ho
  have hig1 := OrbPositions.inGameCount_eq orbs (by omega) (fun r hr => (hw1 r hr).1) hord
  have hmem_t : (⟨t, 3, s⟩ : OrbPosition) ∈ orbs.positions :=
    hperm.mem_iff.mpr (List.mem_cons_self _ _)
  rcases hcase with ⟨hsp, orbs1, hmv1, rfl⟩ | ⟨hsp, rfl⟩
  · obtain ⟨hi1, hi2, hi3, hko, hos, _⟩ := moveOrb_ok _ _ _ _ hmv1
    obtain ⟨r2, o2, hr2, hr2s, hmv2, hperm2, hord2⟩ :=
      OrbPositions.moveOrb_perm orbs hord Position.invalid s hi1 hi2 hi3
    rw [hmv1] at hmv2
    cases hmv2
    obtain ⟨hl2, hw2⟩ := OrbPositions.moveOrb_WF _ _ _ _ hl1 hw1 hsb hmv1
    have hc2 := countP_cons_erase (fun x : OrbPosition => !x.position.isInvalid) _ _ _ _ hr2
      hperm2
    simp only [hr2s, onBoard_not_isInvalid s hsb, Position.isInvalid_invalid, Bool.not_false,
      Bool.not_true, if_true, Bool.false_eq_true, if_false] at hc2
    have hig2 := OrbPositions.inGameCount_eq orbs1 (by omega) (fun r hr => (hw2 r hr).1) hord2
    have hne : (⟨t, 3, s⟩ : OrbPosition) ≠ r2 := by
      intro hc
      have : r2.position = t := by rw [← hc]
      rw [hr2s] at this
      rw [← this] at ht1
      cases ht1
    have hmem2 : (⟨t, 3, s⟩ : OrbPosition) ∈ orbs1.positions :=
      hperm2.mem_iff.mpr (List.mem_cons_of_mem _ ((List.mem_erase_of_ne hne).mpr hmem_t))
    refine ⟨(isOrbAt_iff _ _).mpr (List.mem_map.mpr ⟨_, hmem2, rfl⟩), fun _ => ⟨hos, ?_, ?_⟩,
      fun hno => ?_⟩
    · unfold OrbPositions.koPosition
      cases hf : orbs1.positions.find? (fun op => op.position == s) with
      | none => rfl
      | some op =>
        have hm := List.mem_of_find?_eq_some hf
        have hp := List.find?_some hf
        exact (hko op hm (by simpa using hp)).1
    · show orbs1.inGameCount = _
      rw [hig2, hig0]
      unfold OrbPositions.validCount at hv1 ⊢
      omega
    · exfalso
      rw [hsp0] at hno
      rw [hsp1, hv1] at hsp
      rw [hsp] at hno
      cases hno
  · refine ⟨hot, fun hyes => ?_, fun _ => ⟨?_, ?_⟩⟩
    · exfalso
      rw [hsp0] at hyes
      rw [hsp1, hv1] at hsp
      rw [hsp] at hyes
      cases hyes
    · cases hso : orbs.isOrbAt s with
      | false => rfl
      | true =>
        exfalso
        obtain ⟨x, hx, hxs⟩ := List.mem_map.mp ((isOrbAt_iff _ _).mp hso)
        rcases List.mem_cons.mp (hperm.mem_iff.mp hx) with rfl | hxe
        · simp only at hxs
          rw [hxs] at ht2
          rw [hs3] at ht2
          cases ht2
        · have hd0 := ordered_distinct _ ho
          have hd1 := ((List.perm_cons_erase hr).pairwise_iff
            (fun {a b} => distinctRel_symm a b)).mp hd0
          have hrel := (List.pairwise_cons.mp hd1).1 x hxe
          have hinv := hrel (by rw [hrs, hxs])
          rw [hrs] at hinv
          have := onBoard_not_isInvalid s hsb
          rw [hinv] at this
          cases this
    · show orbs.inGameCount = _
      rw [hig1, hig0, hv1]

set_option maxRecDepth 100000 in
theorem oneStopMoved_eq :
    (OrbMove.mk ⟨4, 4⟩ ⟨2, 2⟩).applyTo oneStopState = .ok oneStopMoved := by
  decide

set_option maxRecDepth 100000 in
/-- C12 at a sample: in the state of `testOneStop` the orb leaves the source cell `(4, 4)`
for `(2, 2)` and a spare orb enters at `(4, 4)`. -/
theorem applyTo_leaving_source_witness :
    (OrbMove.mk ⟨4, 4⟩ ⟨2, 2⟩).applyTo oneStopState = .ok oneStopMoved ∧
    oneStopState.orbPositions.hasSpare = true ∧
    oneStopMoved.orbPositions.isOrbAt ⟨2, 2⟩ = true ∧
    oneStopMoved.orbPositions.isOrbAt ⟨4, 4⟩ = true ∧
    oneStopMoved.orbPositions.inGameCount = oneStopState.orbPositions.inGameCount + 1 :=
  have h := applyTo_leaving_source oneStopState oneStopMoved ⟨4, 4⟩ ⟨2, 2⟩ (by decide)
    (by decide) (by decide) (by decide) (by decide) oneStopMoved_eq
  ⟨oneStopMoved_eq, by decide, h.1, (h.2.1 (by decide)).1, (h.2.1 (by decide)).2.2⟩

section OrbSearch

open OrbMoveGenerator

/-! ### The path search of the orb move generator -/

/-! #### Sets of anchors -/

set_option maxRecDepth 100000 in
theorem Anchors.facts : ∀ n, n < 32 → ∀ a : Anchor,
    ((Anchors.mk n).remove a).points < 32 ∧
    (∀ b : Anchor, ((Anchors.mk n).remove a).contains b =
      ((Anchors.mk n).contains b && decide (b ≠ a))) ∧
    ((Anchors.mk n).contains a = true →
      ((Anchors.mk n).remove a).card + 1 = (Anchors.mk n).card) ∧
    ((Anchors.mk n).contains a = false → (Anchors.mk n).remove a = Anchors.mk n) ∧
    ((Anchors.mk n).empty = true ↔ ∀ b : Anchor, (Anchors.mk n).contains b = false) ∧
    ((Anchors.mk n).empty = false → (Anchors.mk n).contains (Anchors.mk n).first = true) ∧
    (Anchors.mk n).card ≤ 5 ∧
    ((Anchors.mk n).empty = true ↔ (Anchors.mk n).card = 0) := by
  decide

theorem Anchors.remove_small (s : Anchors) (a : Anchor) (h : s.points < 32) :
    (s.remove a).points < 32 := (Anchors.facts s.points h a).1

theorem Anchors.contains_remove (s : Anchors) (a b : Anchor) (h : s.points < 32) :
    (s.remove a).contains b = (s.contains b && decide (b ≠ a)) :=
  (Anchors.facts s.points h a).2.1 b

theorem Anchors.card_remove (s : Anchors) (a : Anchor) (h : s.points < 32)
    (hc : s.contains a = true) : (s.remove a).card + 1 = s.card :=
  (Anchors.facts s.points h a).2.2.1 hc

theorem Anchors.remove_not_mem (s : Anchors) (a : Anchor) (h : s.points < 32)
    (hc : s.contains a = false) : s.remove a = s :=
  (Anchors.facts s.points h a).2.2.2.1 hc

theorem Anchors.empty_iff_contains (s : Anchors) (h : s.points < 32) :
    s.empty = true ↔ ∀ b : Anchor, s.contains b = false :=
  (Anchors.facts s.points h Anchor.North).2.2.2.2.1

theorem Anchors.first_mem (s : Anchors) (h : s.points < 32) (he : s.empty = false) :
    s.contains s.first = true :=
  (Anchors.facts s.points h Anchor.North).2.2.2.2.2.1 he

theorem Anchors.card_le (s : Anchors) (h : s.points < 32) : s.card ≤ 5 :=
  (Anchors.facts s.points h Anchor.North).2.2.2.2.2.2.1

theorem Anchors.empty_iff_card (s : Anchors) (h : s.points < 32) :
    s.empty = true ↔ s.card = 0 :=
  (Anchors.facts s.points h Anchor.North).2.2.2.2.2.2.2

/-! #### Connections of a field -/

set_option maxRecDepth 100000 in
theorem Field.connections_facts0 : ∀ (s : Stone) (o : Orientation) (a : Anchor),
    ((Field.mk s o 0).connectionsFrom a).points < 32 ∧
    (((Field.mk s o 0).connectionsFrom a).contains Anchor.Stop = true →
      ∀ b : Anchor, ((Field.mk s o 0).connectionsFrom a).contains b = true → b = Anchor.Stop) ∧
    ((Field.mk s o 0).empty = true → ((Field.mk s o 0).connectionsFrom a).empty = true) := by
  intro s o a
  cases s <;> cases o <;> cases a <;> decide

theorem Field.connections_facts (f : Field) (a : Anchor) :
    (f.connectionsFrom a).points < 32 ∧
    ((f.connectionsFrom a).contains Anchor.Stop = true →
      ∀ b : Anchor, (f.connectionsFrom a).contains b = true → b = Anchor.Stop) ∧
    (f.empty = true → (f.connectionsFrom a).empty = true) :=
  Field.connections_facts0 f.stone f.orientation a

/-! #### Positions of the board -/

set_option maxRecDepth 100000 in
theorem frame_length : Board.frame.fields.length = setup.boardSize * setup.boardSize := by
  decide

theorem frame_field_ok (p : Position) (hp : p.OnBoard) : ∃ ff, Board.frame.field p = .ok ff := by
  obtain ⟨ff, h, _⟩ := FieldGrid.field_eq_ok setup.boardSize Board.frame.fields p hp.1 hp.2
    frame_length
  exact ⟨ff, h⟩

theorem frame_field_onBoard (p : Position) (ff : FrameField) (h : Board.frame.field p = .ok ff) :
    p.OnBoard := by
  have := (FieldGrid.field_ok_iff _ _ _ _).mp h
  exact ⟨this.1, this.2.1⟩

set_option maxRecDepth 100000 in
theorem interior_of_nonStatic : ∀ x, x < 10 → ∀ y, y < 10 →
    Board.isStatic ⟨x, y⟩ = .ok false →
      ((Position.mk x y).sub (Position.make 1 1)).x < 8 ∧
      ((Position.mk x y).sub (Position.make 1 1)).y < 8 := by
  decide

/-- On a board with its 64 fields every cell has a field. -/
theorem Board.field_ok (b : Board) (hl : b.state.length = 64) (p : Position) (hp : p.OnBoard) :
    ∃ f, b.field p = .ok f := by
  obtain ⟨ff, hff⟩ := frame_field_ok p hp
  unfold Board.field
  rw [hff]
  simp only [bind, Except.bind]
  by_cases hs : ff.isStatic = true
  · rw [if_pos hs]; exact ⟨_, rfl⟩
  · rw [if_neg hs]
    have hst : Board.isStatic p = .ok false := by
      unfold Board.isStatic
      rw [hff]
      simp only [bind, Except.bind, pure, Except.pure, Except.ok.injEq]
      simpa using hs
    obtain ⟨x, y⟩ := p
    obtain ⟨h1, h2⟩ := interior_of_nonStatic x hp.1 y hp.2 hst
    obtain ⟨f, hf, _⟩ := FieldGrid.field_eq_ok Board.stateSize b.state _ h1 h2 hl
    exact ⟨f, hf⟩

theorem Board.field_onBoard (b : Board) (p : Position) (f : Field) (h : b.field p = .ok f) :
    p.OnBoard := by
  unfold Board.field at h
  cases hff : Board.frame.field p with
  | error e => rw [hff] at h; cases h
  | ok ff => exact frame_field_onBoard p ff hff

theorem exitsOnBoard_elim (f : Field) (p : Position) (h : exitsOnBoard f p = true)
    (a e : Anchor) (he : e ≠ Anchor.Stop) (hc : (f.connectionsFrom a).contains e = true) :
    (e.nextPoint p).position.OnBoard := by
  unfold exitsOnBoard at h
  rw [List.all_eq_true] at h
  have h1 := h a (by cases a <;> decide)
  rw [List.all_eq_true] at h1
  have h2 := h1 e (by cases e <;> decide)
  simp only [Bool.or_eq_true, beq_iff_eq, Bool.not_eq_true', decide_eq_true_eq] at h2
  rcases h2 with (h3 | h3) | h3
  · exact absurd h3 he
  · rw [hc] at h3; cases h3
  · exact h3

set_option maxRecDepth 100000 in
theorem exits_static : ∀ x, x < 10 → ∀ y, y < 10 → (Position.mk x y).NotForeignHouse →
    okAnd (Board.frame.field ⟨x, y⟩) (fun ff => ff.isStatic = true →
      exitsOnBoard ff.toField ⟨x, y⟩ = true) := by
  decide

set_option maxRecDepth 100000 in
theorem exits_interior : ∀ x, x < 10 → ∀ y, y < 10 → Board.isStatic ⟨x, y⟩ = .ok false →
    ∀ e : Anchor, e ≠ Anchor.Stop → (e.nextPoint ⟨x, y⟩).position.OnBoard := by
  decide

/-! #### Passes of the loop -/

theorem iter_add (b : Board) (j k : Nat) (st : State) :
    iter b (j + k) st = (iter b j st >>= iter b k) := by
  induction j generalizing st with
  | zero => simp [iter, bind, Except.bind, pure, Except.pure]
  | succ j ih =>
    rw [Nat.succ_add]
    simp only [iter]
    cases h : loopBody b st with
    | error e => simp [bind, Except.bind]
    | ok st1 => simp only [bind, Except.bind]; exact ih st1

theorem iter_trans (b : Board) (j k : Nat) (st st1 st2 : State)
    (h1 : iter b j st = .ok st1) (h2 : iter b k st1 = .ok st2) : iter b (j + k) st = .ok st2 := by
  rw [iter_add, h1]; exact h2

theorem iter_one (b : Board) (st st1 : State) (h : loopBody b st = .ok st1) :
    iter b 1 st = .ok st1 := by
  simp [iter, h, bind, Except.bind, pure, Except.pure]

theorem loopBody_nil (b : Board) (stops : List Position) :
    loopBody b ⟨[], stops⟩ = .ok ⟨[], stops⟩ := rfl

theorem iter_nil (b : Board) (k : Nat) (stops : List Position) :
    iter b k ⟨[], stops⟩ = .ok ⟨[], stops⟩ := by
  induction k with
  | zero => rfl
  | succ k ih => simp only [iter, loopBody_nil, bind, Except.bind]; exact ih

theorem runLoop_of_iter (b : Board) (k : Nat) (st : State) (R : List Position)
    (h : iter b k st = .ok ⟨[], R⟩) : ∀ fuel, k ≤ fuel → runLoop b fuel st = .ok (some R) := by
  induction k generalizing st with
  | zero =>
    intro fuel _
    simp only [iter, pure, Except.pure, Except.ok.injEq] at h
    subst h
    cases fuel <;> simp [runLoop, pure, Except.pure]
  | succ k ih =>
    intro fuel hf
    obtain ⟨stack, stops⟩ := st
    cases stack with
    | nil =>
      rw [iter_nil] at h
      simp only [Except.ok.injEq, State.mk.injEq, true_and] at h
      subst h
      cases fuel <;> simp [runLoop, pure, Except.pure]
    | cons n rest =>
      cases fuel with
      | zero => omega
      | succ fuel =>
        simp only [iter] at h
        cases hl : loopBody b ⟨n :: rest, stops⟩ with
        | error e => rw [hl] at h; simp [bind, Except.bind] at h
        | ok st1 =>
          rw [hl] at h
          simp only [bind, Except.bind] at h
          simp only [runLoop, List.isEmpty_cons, Bool.false_eq_true, if_false, hl, bind,
            Except.bind]
          exact ih st1 h fuel (by omega)

/-! #### One pass of the loop -/

theorem Anchors.empty_eq (s : Anchors) (h : s.empty = true) : s = ⟨0⟩ := by
  obtain ⟨n⟩ := s
  simp only [Anchors.empty, beq_iff_eq] at h
  rw [h]

theorem afterPop_cons (n : OrbTravelNode) (rest : List OrbTravelNode) :
    afterPop (n :: rest) =
      if (n.options.remove n.travel.endA).empty then afterPop rest
      else ⟨{ n.travel with endA := (n.options.remove n.travel.endA).first },
        n.options.remove n.travel.endA⟩ :: rest := by
  simp only [afterPop, OrbTravelNode.selectNextOption]
  by_cases h : (n.options.remove n.travel.endA).empty = true
  · simp [h]
  · simp [h]

/-- A node that has reached a stop is reported and popped. -/
theorem loopBody_stop (b : Board) (n : OrbTravelNode) (rest : List OrbTravelNode)
    (stops : List Position) (he : n.travel.endA = Anchor.Stop)
    (ho : (n.options.remove Anchor.Stop).empty = true) :
    loopBody b ⟨n :: rest, stops⟩ = .ok ⟨afterPop rest, stops ++ [n.travel.position]⟩ := by
  simp [loopBody, OrbTravelNode.reachedStop, he, OrbTravelNode.removeCurrentOption,
    OrbTravelNode.hasOptions, ho, travelBack, OrbTravelNode.position, pure, Except.pure]

/-- A node without options is popped. -/
theorem loopBody_exhausted (b : Board) (n : OrbTravelNode) (rest : List OrbTravelNode)
    (stops : List Position) (he : n.travel.endA ≠ Anchor.Stop)
    (ho : n.options.empty = true) :
    loopBody b ⟨n :: rest, stops⟩ = .ok ⟨afterPop rest, stops⟩ := by
  have h0 := Anchors.empty_eq _ ho
  have h1 : n.options.contains n.travel.endA = false := by
    rw [h0]; simp [Anchors.contains]
  have h2 : (n.options.remove n.travel.endA).empty = true := by
    rw [h0]; simp [Anchors.remove, Anchors.empty]
  simp [loopBody, OrbTravelNode.reachedStop, he, travelForward, OrbTravelNode.canTravelForward,
    h1, OrbTravelNode.selectNextOption, h2, OrbTravelNode.hasOptions, travelBack, pure,
    Except.pure, bind, Except.bind]

theorem selected_eq (n : OrbTravelNode) (hs : n.options.points < 32)
    (ho : n.options.empty = false) :
    (if !n.canTravelForward then n.selectNextOption else (n, true)) = (selected n, true) := by
  unfold selected current OrbTravelNode.canTravelForward
  by_cases hc : n.options.contains n.travel.endA = true
  · simp [hc]
  · have hc' : n.options.contains n.travel.endA = false := by simpa using hc
    have hr := Anchors.remove_not_mem _ _ hs hc'
    simp [hc', OrbTravelNode.selectNextOption, hr, ho]

theorem current_mem (n : OrbTravelNode) (hs : n.options.points < 32)
    (ho : n.options.empty = false) : n.options.contains (current n) = true := by
  unfold current
  by_cases hc : n.options.contains n.travel.endA = true
  · simp [hc]
  · simp only [hc]
    exact Anchors.first_mem _ hs ho

theorem travelForward_loops (b : Board) (n : OrbTravelNode) (rest : List OrbTravelNode)
    (hs : n.options.points < 32) (ho : n.options.empty = false)
    (hl : doesLoop (selected n :: rest) ((current n).nextPoint n.travel.position) = true) :
    travelForward b n rest = .ok ((selected n).removeCurrentOption :: rest, false) := by
  unfold travelForward
  rw [selected_eq n hs ho]
  have hl' : doesLoop (selected n :: rest) (selected n).nextPoint = true := hl
  simp [hl', pure, Except.pure, bind, Except.bind]

theorem travelForward_cannot (b : Board) (n : OrbTravelNode) (rest : List OrbTravelNode)
    (hs : n.options.points < 32) (ho : n.options.empty = false)
    (hl : doesLoop (selected n :: rest) ((current n).nextPoint n.travel.position) = false)
    (hc : canTravel n.travel.position ((current n).nextPoint n.travel.position).position =
      .ok false) :
    travelForward b n rest = .ok ((selected n).removeCurrentOption :: rest, false) := by
  unfold travelForward
  rw [selected_eq n hs ho]
  have hl' : doesLoop (selected n :: rest) (selected n).nextPoint = false := hl
  have hc' : canTravel (selected n).position (selected n).nextPoint.position = .ok false := hc
  simp [hl', hc', pure, Except.pure, bind, Except.bind]

theorem pushNext_empty (b : Board) (stack : List OrbTravelNode) (next : OrbTravelPoint)
    (f : Field) (hf : b.field next.position = .ok f) (he : f.empty = true) :
    pushNext b stack next = .ok (stack, false) := by
  simp [pushNext, hf, he, pure, Except.pure, bind, Except.bind]

theorem from_isDeadEnd (b : Board) (next : OrbTravelPoint) (f : Field)
    (hf : b.field next.position = .ok f) : (OrbTravelNode.from next f).isDeadEnd = false := by
  have hb := Board.field_onBoard b _ f hf
  unfold OrbTravelNode.from OrbTravelNode.isDeadEnd
  simp only []
  split
  · decide
  · simp only [beq_eq_false_iff_ne, ne_eq]
    intro h
    rw [h] at hb
    exact absurd hb (by decide)

theorem pushNext_push (b : Board) (stack : List OrbTravelNode) (next : OrbTravelPoint)
    (f : Field) (hf : b.field next.position = .ok f) (he : f.empty = false)
    (hl : stack.length < maximumStackSize) :
    pushNext b stack next = .ok (OrbTravelNode.from next f :: stack, true) := by
  have hd := from_isDeadEnd b next f hf
  have hl' : ¬ stack.length ≥ maximumStackSize := by omega
  simp [pushNext, hf, he, hd, hl', pure, Except.pure, bind, Except.bind]

theorem travelForward_empty (b : Board) (n : OrbTravelNode) (rest : List OrbTravelNode)
    (hs : n.options.points < 32) (ho : n.options.empty = false)
    (hl : doesLoop (selected n :: rest) ((current n).nextPoint n.travel.position) = false)
    (hc : canTravel n.travel.position ((current n).nextPoint n.travel.position).position =
      .ok true)
    (f : Field) (hf : b.field ((current n).nextPoint n.travel.position).position = .ok f)
    (he : f.empty = true) :
    travelForward b n rest = .ok ((selected n).removeCurrentOption :: rest, false) := by
  unfold travelForward
  rw [selected_eq n hs ho]
  have hl' : doesLoop (selected n :: rest) (selected n).nextPoint = false := hl
  have hc' : canTravel (selected n).position (selected n).nextPoint.position = .ok true := hc
  have hp := pushNext_empty b (selected n :: rest) (selected n).nextPoint f hf he
  simp [hl', hc', hp, pure, Except.pure, bind, Except.bind]

theorem travelForward_push (b : Board) (n : OrbTravelNode) (rest : List OrbTravelNode)
    (hs : n.options.points < 32) (ho : n.options.empty = false)
    (hl : doesLoop (selected n :: rest) ((current n).nextPoint n.travel.position) = false)
    (hc : canTravel n.travel.position ((current n).nextPoint n.travel.position).position =
      .ok true)
    (f : Field) (hf : b.field ((current n).nextPoint n.travel.position).position = .ok f)
    (he : f.empty = false) (hlen : rest.length + 1 < maximumStackSize) :
    travelForward b n rest =
      .ok (OrbTravelNode.from ((current n).nextPoint n.travel.position) f :: selected n :: rest,
        true) := by
  unfold travelForward
  rw [selected_eq n hs ho]
  have hl' : doesLoop (selected n :: rest) (selected n).nextPoint = false := hl
  have hc' : canTravel (selected n).position (selected n).nextPoint.position = .ok true := hc
  have hp := pushNext_push b (selected n :: rest) (selected n).nextPoint f hf he
    (by simpa using hlen)
  have hp' : pushNext b (selected n :: rest) (selected n).nextPoint =
    .ok (OrbTravelNode.from ((current n).nextPoint n.travel.position) f :: selected n :: rest,
      true) := hp
  simp [hl', hc', hp', pure, Except.pure, bind, Except.bind]

theorem loopBody_blocked (b : Board) (n : OrbTravelNode) (rest : List OrbTravelNode)
    (stops : List Position) (he : n.travel.endA ≠ Anchor.Stop)
    (h : travelForward b n rest = .ok ((selected n).removeCurrentOption :: rest, false)) :
    loopBody b ⟨n :: rest, stops⟩ = .ok ⟨afterBlocked n rest, stops⟩ := by
  unfold afterBlocked
  by_cases hr : (n.options.remove (current n)).empty = true
  · simp [loopBody, OrbTravelNode.reachedStop, he, h, OrbTravelNode.removeCurrentOption,
      OrbTravelNode.hasOptions, hr, travelBack, selected, pure, Except.pure, bind, Except.bind]
  · simp [loopBody, OrbTravelNode.reachedStop, he, h, OrbTravelNode.removeCurrentOption,
      OrbTravelNode.hasOptions, hr, travelBack, selected, pure, Except.pure, bind, Except.bind]

theorem loopBody_push (b : Board) (n : OrbTravelNode) (rest : List OrbTravelNode)
    (stops : List Position) (he : n.travel.endA ≠ Anchor.Stop) (st : List OrbTravelNode)
    (h : travelForward b n rest = .ok (st, true)) :
    loopBody b ⟨n :: rest, stops⟩ = .ok ⟨st, stops⟩ := by
  simp [loopBody, OrbTravelNode.reachedStop, he, h, pure, Except.pure, bind, Except.bind]

theorem afterPop_selected (n : OrbTravelNode) (rest : List OrbTravelNode) :
    afterPop (selected n :: rest) =
      if (n.options.remove (current n)).empty then afterPop rest
      else ⟨{ n.travel with endA := (n.options.remove (current n)).first },
        n.options.remove (current n)⟩ :: rest := by
  rw [afterPop_cons]
  rfl

/-! #### Travel between cells -/

theorem canTravel_eq (p q : Position) (ffp ffq : FrameField)
    (hp : Board.frame.field p = .ok ffp) (hq : Board.frame.field q = .ok ffq) :
    canTravel p q = .ok (canTravelOf ffp ffq) := by
  unfold canTravel Board.isHouse Board.isSource Board.playerForField canTravelOf
  rw [hp, hq]
  cases h1 : (ffp.area == BoardArea.House) <;> cases h2 : (ffq.area == BoardArea.House) <;>
    cases h3 : (ffp.area == BoardArea.Source) <;> cases h4 : (ffq.area == BoardArea.Source) <;>
    cases h5 : (ffq.player != 0) <;>
    simp [h1, h2, h3, h4, h5, pure, Except.pure, bind, Except.bind]

theorem canTravel_onBoard (p q : Position) (c : Bool) (h : canTravel p q = .ok c) :
    p.OnBoard ∧ q.OnBoard := by
  unfold canTravel at h
  cases h1 : Board.isHouse p with
  | error e => rw [h1] at h; simp [bind, Except.bind] at h
  | ok hp =>
    cases h2 : Board.isHouse q with
    | error e => rw [h1, h2] at h; simp [bind, Except.bind] at h
    | ok hq => exact ⟨onBoard_of_isHouse p hp h1, onBoard_of_isHouse q hq h2⟩

theorem canTravel_total (p q : Position) (hp : p.OnBoard) (hq : q.OnBoard) :
    ∃ c, canTravel p q = .ok c := by
  obtain ⟨ffp, h1⟩ := frame_field_ok p hp
  obtain ⟨ffq, h2⟩ := frame_field_ok q hq
  exact ⟨_, canTravel_eq p q ffp ffq h1 h2⟩

/-- What a permitted step says about its two cells. -/
theorem canTravel_true (p q : Position) (h : canTravel p q = .ok true) :
    p.OnBoard ∧ q.OnBoard ∧ q.NotForeignHouse ∧
    (Board.isHouse p = .ok true → Board.isHouse q = .ok true) ∧
    (Board.isSource p = .ok false → Board.isSource q = .ok false) := by
  obtain ⟨hp, hq⟩ := canTravel_onBoard p q true h
  obtain ⟨ffp, h1⟩ := frame_field_ok p hp
  obtain ⟨ffq, h2⟩ := frame_field_ok q hq
  rw [canTravel_eq p q ffp ffq h1 h2] at h
  simp only [Except.ok.injEq] at h
  refine ⟨hp, hq, ?_, ?_, ?_⟩
  · unfold Position.NotForeignHouse Board.isHouse Board.playerForField
    rw [h2]
    simp only [bind, Except.bind, pure, Except.pure, Except.ok.injEq]
    intro hh
    unfold canTravelOf at h
    rw [hh] at h
    simp at h
    exact h.1
  · unfold Board.isHouse
    rw [h1, h2]
    simp only [bind, Except.bind, pure, Except.pure, Except.ok.injEq]
    intro hh
    unfold canTravelOf at h
    rw [hh] at h
    simp at h
    simpa using h.1.2
  · unfold Board.isSource
    rw [h1, h2]
    simp only [bind, Except.bind, pure, Except.pure, Except.ok.injEq]
    intro hh
    unfold canTravelOf at h
    rw [hh] at h
    simp at h
    simpa using h.2

/-- The exits of a field that can be travelled stay on the board. -/
theorem exit_onBoard (b : Board) (p : Position) (f : Field) (hp : p.OnBoard)
    (hh : p.NotForeignHouse) (hf : b.field p = .ok f) (a c : Anchor) (hc : c ≠ Anchor.Stop)
    (hm : (f.connectionsFrom a).contains c = true) : (c.nextPoint p).position.OnBoard := by
  obtain ⟨x, y⟩ := p
  obtain ⟨ff, hff⟩ := frame_field_ok _ hp
  by_cases hs : ff.isStatic = true
  · have h1 := okAnd_elim (exits_static x hp.1 y hp.2 hh)
    obtain ⟨ff', e1, h2⟩ := h1
    rw [hff] at e1
    cases e1
    have hf' : f = ff.toField := by
      unfold Board.field at hf
      rw [hff] at hf
      simp only [bind, Except.bind, hs, if_true, pure, Except.pure, Except.ok.injEq] at hf
      exact hf.symm
    rw [hf'] at hm
    exact exitsOnBoard_elim _ _ (h2 hs) a c hc hm
  · have hst : Board.isStatic ⟨x, y⟩ = .ok false := by
      unfold Board.isStatic
      rw [hff]
      simp only [bind, Except.bind, pure, Except.pure, Except.ok.injEq]
      simpa using hs
    exact exits_interior x hp.1 y hp.2 hst c hc

/-! #### The travel points of the board -/

theorem mem_allPoints (pt : OrbTravelPoint) (h : pt.position.OnBoard) : pt ∈ allPoints := by
  obtain ⟨⟨x, y⟩, a⟩ := pt
  unfold allPoints
  simp only [List.mem_flatMap, List.mem_range, List.mem_map]
  exact ⟨x, h.1, y, h.2, a, by cases a <;> decide, rfl⟩

set_option maxRecDepth 100000 in
theorem allPoints_length : allPoints.length = 500 := by
  decide

theorem points_length_le (l : List OrbTravelPoint) (hn : l.Nodup)
    (hb : ∀ pt ∈ l, pt.position.OnBoard) : l.length ≤ 500 := by
  rw [← allPoints_length]
  exact (List.subperm_of_subset hn (fun pt h => mem_allPoints pt (hb pt h))).length_le

theorem doesLoop_iff (stack : List OrbTravelNode) (next : OrbTravelPoint) :
    doesLoop stack next = true ↔ next ∈ begins stack := by
  unfold doesLoop begins
  simp only [List.any_eq_true, beq_iff_eq, List.mem_map]

/-! #### The paths the search follows -/

theorem Anchors.not_contains_of_empty (s : Anchors) (h : s.empty = true) (a : Anchor) :
    s.contains a = false := by
  rw [Anchors.empty_eq s h]; simp [Anchors.contains]

theorem exploresNew_of (b : Board) (n : Nat) (hB : ExploresOptions b n) : ExploresNew b n := by
  intro rest next f hS hf hne hn stops
  obtain ⟨hsmall, hstop, _⟩ := Field.connections_facts f next.anchor
  by_cases hce : (f.connectionsFrom next.anchor).empty = true
  · have hfrom : OrbTravelNode.from next f = OrbTravelNode.default := by
      simp [OrbTravelNode.from, hce]
    refine ⟨1, [], ?_, ?_⟩
    · rw [hfrom, List.append_nil]
      exact iter_one _ _ _ (loopBody_exhausted b _ rest stops (by decide) (by decide))
    · intro t
      simp only [List.not_mem_nil, false_iff]
      intro hp
      cases hp with
      | stop _ _ f0 hf0 hs ht =>
        rw [hf] at hf0; cases hf0
        rw [Anchors.not_contains_of_empty _ hce] at hs; cases hs
      | step _ _ f0 c hf0 hc hn0 hv hcan hp0 =>
        rw [hf] at hf0; cases hf0
        rw [Anchors.not_contains_of_empty _ hce] at hc; cases hc
  · have hce' : (f.connectionsFrom next.anchor).empty = false := by simpa using hce
    have hfrom : OrbTravelNode.from next f =
        ⟨⟨next.position, next.anchor, (f.connectionsFrom next.anchor).first⟩,
          f.connectionsFrom next.anchor⟩ := by
      simp [OrbTravelNode.from, hce']
    have hfirst := Anchors.first_mem _ hsmall hce'
    by_cases hst : (f.connectionsFrom next.anchor).contains Anchor.Stop = true
    · have he : (f.connectionsFrom next.anchor).first = Anchor.Stop := hstop hst _ hfirst
      have hrem : ((f.connectionsFrom next.anchor).remove Anchor.Stop).empty = true := by
        rw [Anchors.empty_iff_contains _ (Anchors.remove_small _ _ hsmall)]
        intro x
        rw [Anchors.contains_remove _ _ _ hsmall]
        by_cases hx : (f.connectionsFrom next.anchor).contains x = true
        · simp [hstop hst x hx]
        · simp [hx]
      refine ⟨1, [next.position], ?_, ?_⟩
      · rw [hfrom]
        exact iter_one _ _ _ (loopBody_stop b _ rest stops he hrem)
      · intro t
        simp only [List.mem_singleton]
        constructor
        · intro ht
          exact SearchPath.stop _ _ f hf hst ht.symm
        · intro hp
          cases hp with
          | stop _ _ f0 hf0 hs ht => exact ht.symm
          | step _ _ f0 c hf0 hc hn0 hv hcan hp0 =>
            rw [hf] at hf0; cases hf0
            exact absurd (hstop hst c hc) hn0
    · have hns : ∀ x, (f.connectionsFrom next.anchor).contains x = true →
          (f.connectionsFrom next.anchor).contains x = true ∧ x ≠ Anchor.Stop := by
        intro x hx
        refine ⟨hx, ?_⟩
        intro e
        rw [e] at hx
        exact hst hx
      obtain ⟨k, R, hk, hR⟩ := hB rest next f hS hf hn 5 (f.connectionsFrom next.anchor)
        (f.connectionsFrom next.anchor).first hsmall hns (hns _ hfirst).2
        (Anchors.card_le _ hsmall) stops
      refine ⟨k, R, ?_, ?_⟩
      · rw [hfrom]; exact hk
      · intro t
        rw [hR t]
        constructor
        · rintro ⟨c, hc, hv, hcan, hp⟩
          exact SearchPath.step _ _ f c hf hc (hns c hc).2 hv hcan hp
        · intro hp
          cases hp with
          | stop _ _ f0 hf0 hs ht =>
            rw [hf] at hf0; cases hf0
            exact absurd hs hst
          | step _ _ f0 c hf0 hc hn0 hv hcan hp0 =>
            rw [hf] at hf0; cases hf0
            exact ⟨c, hc, hv, hcan, hp0⟩

theorem begins_length (rest : List OrbTravelNode) : (begins rest).length = rest.length := by
  simp [begins]

theorem StackOK.length_le {rest : List OrbTravelNode} {pt : OrbTravelPoint}
    (h : StackOK rest pt) : rest.length + 1 ≤ 500 := by
  have := points_length_le (pt :: begins rest) h.nodup (by
    intro q hq
    rcases List.mem_cons.mp hq with e | hq
    · rw [e]; exact h.here
    · exact h.onBoard q hq)
  simpa [begins_length] using this

theorem exploresOptions_zero (b : Board) : ExploresOptions b 0 := by
  intro rest pt f hS hf hn
  have := hS.length_le
  omega

theorem Field.connections_of_empty (f : Field) (a c : Anchor) (h : f.empty = true) :
    (f.connectionsFrom a).contains c = false :=
  Anchors.not_contains_of_empty _ ((Field.connections_facts f a).2.2 h) c

/-- The search handles the selected option of the node on top of the stack. -/
theorem handles_option (b : Board) (hb : b.state.length = 64) (n : Nat) (hA : ExploresNew b n)
    (rest : List OrbTravelNode) (pt : OrbTravelPoint) (f : Field) (hS : StackOK rest pt)
    (hf : b.field pt.position = .ok f) (hn : 501 ≤ rest.length + 1 + (n + 1))
    (O : Anchors) (e : Anchor) (hO : O.points < 32)
    (hsub : ∀ x, O.contains x = true → (f.connectionsFrom pt.anchor).contains x = true ∧
      x ≠ Anchor.Stop)
    (he : e ≠ Anchor.Stop) (hne : O.empty = false) (stops : List Position) :
    ∃ k Rc e', e' ≠ Anchor.Stop ∧
      iter b k ⟨⟨⟨pt.position, pt.anchor, e⟩, O⟩ :: rest, stops⟩ =
        .ok ⟨if (O.remove (current ⟨⟨pt.position, pt.anchor, e⟩, O⟩)).empty then afterPop rest
          else ⟨⟨pt.position, pt.anchor, e'⟩,
            O.remove (current ⟨⟨pt.position, pt.anchor, e⟩, O⟩)⟩ :: rest, stops ++ Rc⟩ ∧
      ∀ t, t ∈ Rc ↔ ViaExit b (begins rest) pt (current ⟨⟨pt.position, pt.anchor, e⟩, O⟩) t := by
  generalize hnd : (⟨⟨pt.position, pt.anchor, e⟩, O⟩ : OrbTravelNode) = nd
  have hndO : nd.options = O := by rw [← hnd]
  have hndp : nd.travel.position = pt.position := by rw [← hnd]
  have hnde : nd.travel.endA ≠ Anchor.Stop := by rw [← hnd]; exact he
  have hndO' : nd.options.points < 32 := by rw [hndO]; exact hO
  have hndne : nd.options.empty = false := by rw [hndO]; exact hne
  have hcm : O.contains (current nd) = true := by
    have := current_mem nd hndO' hndne
    rwa [hndO] at this
  obtain ⟨hcc, hcs⟩ := hsub _ hcm
  have hbeg : begins (selected nd :: rest) = pt :: begins rest := by
    rw [← hnd]; rfl
  have hblocked : afterBlocked nd rest =
      if (O.remove (current nd)).empty then afterPop rest
      else ⟨⟨pt.position, pt.anchor, current nd⟩, O.remove (current nd)⟩ :: rest := by
    unfold afterBlocked
    rw [hndO]
    rw [← hnd]
  have hnext := exit_onBoard b pt.position f hS.here hS.house hf pt.anchor (current nd) hcs hcc
  by_cases hl : doesLoop (selected nd :: rest) ((current nd).nextPoint nd.travel.position) = true
  · refine ⟨1, [], current nd, hcs, ?_, ?_⟩
    · rw [List.append_nil, ← hblocked]
      exact iter_one _ _ _ (loopBody_blocked b nd rest stops hnde
        (travelForward_loops b nd rest hndO' hndne hl))
    · intro t
      simp only [List.not_mem_nil, false_iff]
      rintro ⟨hv, _, _⟩
      rw [doesLoop_iff, hbeg, hndp] at hl
      exact hv hl
  have hl' : doesLoop (selected nd :: rest) ((current nd).nextPoint nd.travel.position) = false := by
    simpa using hl
  have hv : (current nd).nextPoint pt.position ∉ pt :: begins rest := by
    intro hm
    apply hl
    rw [doesLoop_iff, hbeg, hndp]
    exact hm
  obtain ⟨cb, hcan⟩ := canTravel_total pt.position ((current nd).nextPoint pt.position).position
    hS.here hnext
  cases cb with
  | false =>
    refine ⟨1, [], current nd, hcs, ?_, ?_⟩
    · rw [List.append_nil, ← hblocked]
      exact iter_one _ _ _ (loopBody_blocked b nd rest stops hnde
        (travelForward_cannot b nd rest hndO' hndne hl' (by rw [hndp]; exact hcan)))
    · intro t
      simp only [List.not_mem_nil, false_iff]
      rintro ⟨_, hc2, _⟩
      rw [hcan] at hc2
      cases hc2
  | true =>
    obtain ⟨_, _, hhouse, _, _⟩ := canTravel_true _ _ hcan
    obtain ⟨f', hf'⟩ := Board.field_ok b hb _ hnext
    by_cases hfe : f'.empty = true
    · refine ⟨1, [], current nd, hcs, ?_, ?_⟩
      · rw [List.append_nil, ← hblocked]
        exact iter_one _ _ _ (loopBody_blocked b nd rest stops hnde
          (travelForward_empty b nd rest hndO' hndne hl' (by rw [hndp]; exact hcan) f'
            (by rw [hndp]; exact hf') hfe))
      · intro t
        simp only [List.not_mem_nil, false_iff]
        rintro ⟨_, _, hp⟩
        cases hp with
        | stop _ _ f0 hf0 hs ht =>
          rw [hf'] at hf0; cases hf0
          rw [Field.connections_of_empty _ _ _ hfe] at hs; cases hs
        | step _ _ f0 c hf0 hc hn0 hv0 hcan0 hp0 =>
          rw [hf'] at hf0; cases hf0
          rw [Field.connections_of_empty _ _ _ hfe] at hc; cases hc
    · have hfe' : f'.empty = false := by simpa using hfe
      have hlen := hS.length_le
      have hpush := loopBody_push b nd rest stops hnde _
        (travelForward_push b nd rest hndO' hndne hl' (by rw [hndp]; exact hcan) f'
          (by rw [hndp]; exact hf') hfe' (by unfold maximumStackSize; omega))
      rw [hndp] at hpush
      have hS' : StackOK (selected nd :: rest) ((current nd).nextPoint pt.position) := by
        refine ⟨?_, ?_, hnext, hhouse⟩
        · rw [hbeg]
          exact List.nodup_cons.mpr ⟨hv, hS.nodup⟩
        · rw [hbeg]
          intro q hq
          rcases List.mem_cons.mp hq with e1 | hq
          · rw [e1]; exact hS.here
          · exact hS.onBoard q hq
      obtain ⟨k, R, hk, hR⟩ := hA (selected nd :: rest) _ f' hS' hf' hfe'
        (by simp only [List.length_cons]; omega) stops
      rw [afterPop_selected, hndO] at hk
      have hiter := iter_trans b 1 k _ _ _ (iter_one _ _ _ hpush) hk
      by_cases hr : (O.remove (current nd)).empty = true
      · refine ⟨1 + k, R, current nd, hcs, ?_, ?_⟩
        · rw [hiter, if_pos hr, if_pos hr]
        · intro t
          rw [hR t, hbeg]
          unfold ViaExit
          constructor
          · intro hp; exact ⟨hv, hcan, hp⟩
          · intro hp; exact hp.2.2
      · have hr' : (O.remove (current nd)).empty = false := by simpa using hr
        have hfm := Anchors.first_mem _ (Anchors.remove_small O (current nd) hO) hr'
        rw [Anchors.contains_remove _ _ _ hO] at hfm
        simp only [Bool.and_eq_true, decide_eq_true_eq] at hfm
        refine ⟨1 + k, R, (O.remove (current nd)).first, (hsub _ hfm.1).2, ?_, ?_⟩
        · rw [hiter, if_neg hr, if_neg hr]
          rw [← hnd]
        · intro t
          rw [hR t, hbeg]
          unfold ViaExit
          constructor
          · intro hp; exact ⟨hv, hcan, hp⟩
          · intro hp; exact hp.2.2

theorem exploresOptions_succ (b : Board) (hb : b.state.length = 64) (n : Nat)
    (hA : ExploresNew b n) : ExploresOptions b (n + 1) := by
  intro rest pt f hS hf hn m
  induction m with
  | zero =>
    intro O e hO hsub he hcard stops
    have hem : O.empty = true := (Anchors.empty_iff_card O hO).mpr (by omega)
    refine ⟨1, [], ?_, ?_⟩
    · rw [List.append_nil]
      exact iter_one _ _ _ (loopBody_exhausted b _ rest stops he hem)
    · intro t
      simp only [List.not_mem_nil, false_iff]
      rintro ⟨c, hc, _⟩
      rw [Anchors.not_contains_of_empty O hem] at hc
      cases hc
  | succ m ih =>
    intro O e hO hsub he hcard stops
    by_cases hem : O.empty = true
    · refine ⟨1, [], ?_, ?_⟩
      · rw [List.append_nil]
        exact iter_one _ _ _ (loopBody_exhausted b _ rest stops he hem)
      · intro t
        simp only [List.not_mem_nil, false_iff]
        rintro ⟨c, hc, _⟩
        rw [Anchors.not_contains_of_empty O hem] at hc
        cases hc
    · have hne : O.empty = false := by simpa using hem
      obtain ⟨k1, Rc, e', he', hk1, hRc⟩ :=
        handles_option b hb n hA rest pt f hS hf hn O e hO hsub he hne stops
      generalize hcur : current ⟨⟨pt.position, pt.anchor, e⟩, O⟩ = c at hk1 hRc
      have hcm : O.contains c = true := by
        rw [← hcur]
        exact current_mem ⟨⟨pt.position, pt.anchor, e⟩, O⟩ hO hne
      have hcr : ∀ x, (O.remove c).contains x = (O.contains x && decide (x ≠ c)) :=
        fun x => Anchors.contains_remove O c x hO
      by_cases hr : (O.remove c).empty = true
      · rw [if_pos hr] at hk1
        refine ⟨k1, Rc, hk1, ?_⟩
        intro t
        rw [hRc t]
        constructor
        · intro h; exact ⟨c, hcm, h⟩
        · rintro ⟨x, hx, h⟩
          have := Anchors.not_contains_of_empty _ hr x
          rw [hcr x, hx] at this
          simp only [Bool.true_and, decide_eq_false_iff_not, ne_eq, not_not] at this
          rw [← this]; exact h
      · rw [if_neg hr] at hk1
        have hcard' : (O.remove c).card ≤ m := by
          have := Anchors.card_remove O c hO hcm
          omega
        obtain ⟨k2, R2, hk2, hR2⟩ := ih (O.remove c) e' (Anchors.remove_small O c hO)
          (by
            intro x hx
            rw [hcr x] at hx
            simp only [Bool.and_eq_true] at hx
            exact hsub x hx.1)
          he' hcard' (stops ++ Rc)
        refine ⟨k1 + k2, Rc ++ R2, ?_, ?_⟩
        · rw [← List.append_assoc]
          exact iter_trans b k1 k2 _ _ _ hk1 hk2
        · intro t
          rw [List.mem_append, hRc t, hR2 t]
          constructor
          · rintro (h | ⟨x, hx, h⟩)
            · exact ⟨c, hcm, h⟩
            · rw [hcr x] at hx
              simp only [Bool.and_eq_true] at hx
              exact ⟨x, hx.1, h⟩
          · rintro ⟨x, hx, h⟩
            by_cases hxc : x = c
            · left; rw [← hxc]; exact h
            · right
              refine ⟨x, ?_, h⟩
              rw [hcr x, hx]
              simpa using hxc

theorem exploresOptions (b : Board) (hb : b.state.length = 64) : ∀ n, ExploresOptions b n
  | 0 => exploresOptions_zero b
  | n + 1 => exploresOptions_succ b hb n (exploresNew_of b n (exploresOptions b hb n))

theorem exploresNew (b : Board) (hb : b.state.length = 64) (n : Nat) : ExploresNew b n :=
  exploresNew_of b n (exploresOptions b hb n)

/-- The search from a start position on the board that is no house field of another
player ends and reports the stops of the paths from the start. -/
theorem followAllPaths_spec (b : Board) (hb : b.state.length = 64) (s : Position)
    (hs : s.OnBoard) (hh : s.NotForeignHouse) :
    ∃ k R, (∀ fuel, k ≤ fuel → followAllPaths fuel b s = .ok (some R)) ∧
      ∀ t, t ∈ R ↔ SearchPath b t [] ⟨s, Anchor.Stop⟩ := by
  obtain ⟨f, hf⟩ := Board.field_ok b hb s hs
  by_cases hfe : f.empty = true
  · refine ⟨0, [], ?_, ?_⟩
    · intro fuel _
      have hinit : initialState b s = .ok ⟨[], []⟩ := by
        unfold initialState
        rw [pushNext_empty b [] ⟨s, Anchor.Stop⟩ f hf hfe]
        rfl
      unfold followAllPaths
      rw [hinit]
      exact runLoop_of_iter b 0 _ _ rfl fuel (Nat.zero_le _)
    · intro t
      simp only [List.not_mem_nil, false_iff]
      intro hp
      cases hp with
      | stop _ _ f0 hf0 hs0 ht =>
        rw [hf] at hf0; cases hf0
        rw [Field.connections_of_empty _ _ _ hfe] at hs0; cases hs0
      | step _ _ f0 c hf0 hc hn0 hv0 hcan0 hp0 =>
        rw [hf] at hf0; cases hf0
        rw [Field.connections_of_empty _ _ _ hfe] at hc; cases hc
  · have hfe' : f.empty = false := by simpa using hfe
    have hS : StackOK [] ⟨s, Anchor.Stop⟩ :=
      ⟨by simp [begins], by simp [begins], hs, hh⟩
    obtain ⟨k, R, hk, hR⟩ := exploresNew b hb 501 [] ⟨s, Anchor.Stop⟩ f hS hf hfe'
      (by simp) []
    refine ⟨k, R, ?_, hR⟩
    intro fuel hfuel
    have hinit : initialState b s = .ok ⟨[OrbTravelNode.from ⟨s, Anchor.Stop⟩ f], []⟩ := by
      unfold initialState
      rw [pushNext_push b [] ⟨s, Anchor.Stop⟩ f hf hfe' (by decide)]
      rfl
    unfold followAllPaths
    rw [hinit]
    exact runLoop_of_iter b k _ _ hk fuel hfuel

/-! #### Every pass of the loop, whatever the board -/

theorem pushNext_cases (b : Board) (stack st : List OrbTravelNode) (next : OrbTravelPoint)
    (flag : Bool) (h : pushNext b stack next = .ok (st, flag)) :
    (flag = false ∧ st = stack) ∨
    (flag = true ∧ ∃ f, b.field next.position = .ok f ∧ f.empty = false ∧
      st = OrbTravelNode.from next f :: stack) := by
  unfold pushNext at h
  cases hf : b.field next.position with
  | error e => rw [hf] at h; simp [bind, Except.bind] at h
  | ok f =>
    rw [hf] at h
    by_cases he : f.empty = true
    · simp [he, bind, Except.bind, pure, Except.pure] at h
      left; exact ⟨h.2, h.1.symm⟩
    · have he' : f.empty = false := by simpa using he
      have hd := from_isDeadEnd b next f hf
      by_cases hl : stack.length ≥ maximumStackSize
      · simp [he', hd, hl, bind, Except.bind, pure, Except.pure, throw, throwThe,
          MonadExceptOf.throw] at h
      · simp [he', hd, hl, bind, Except.bind, pure, Except.pure] at h
        right; exact ⟨h.2, f, rfl, he', h.1.symm⟩

theorem Anchors.remove_of_empty (s : Anchors) (a : Anchor) (h : s.empty = true) :
    (s.remove a).empty = true := by
  rw [Anchors.empty_eq s h]; simp [Anchors.remove, Anchors.empty]

theorem Anchors.nonempty_of_contains (s : Anchors) (a : Anchor) (h : s.contains a = true) :
    s.empty = false := by
  by_contra hc
  have hc' : s.empty = true := by simpa using hc
  rw [Anchors.not_contains_of_empty s hc'] at h
  cases h

/-- The node after the selection of the next option. -/
theorem selection_facts (n : OrbTravelNode) :
    let sel := if !n.canTravelForward then n.selectNextOption else (n, true)
    sel.1.travel.position = n.travel.position ∧ sel.1.travel.begin = n.travel.begin ∧
    (n.options.empty = true → sel.1.options.empty = true) ∧
    (sel.2 = true → sel.1.options.empty = false) := by
  intro sel
  by_cases hc : n.canTravelForward = true
  · have hsel : sel = (n, true) := by simp [sel, hc]
    rw [hsel]
    exact ⟨rfl, rfl, id, fun _ => Anchors.nonempty_of_contains _ _ hc⟩
  · have hsel : sel = n.selectNextOption := by simp [sel, hc]
    rw [hsel]
    unfold OrbTravelNode.selectNextOption
    by_cases he : (n.options.remove n.travel.endA).empty = true
    · simp [he]
    · simp [he]
      by_contra hc2
      have hc3 : n.options.empty = true := by simpa using hc2
      exact he (Anchors.remove_of_empty _ _ hc3)

theorem travelForward_cases (b : Board) (n : OrbTravelNode) (rest st : List OrbTravelNode)
    (flag : Bool) (h : travelForward b n rest = .ok (st, flag)) :
    (flag = false ∧ ∃ n', st = n' :: rest ∧ n'.travel.position = n.travel.position ∧
      n'.travel.begin = n.travel.begin ∧ (n.options.empty = true → n'.options.empty = true)) ∨
    (flag = true ∧ ∃ n1 f, st = OrbTravelNode.from n1.nextPoint f :: n1 :: rest ∧
      n1.travel.position = n.travel.position ∧ n1.travel.begin = n.travel.begin ∧
      n1.options.empty = false ∧ (n.options.empty = true → n1.options.empty = true) ∧
      doesLoop (n1 :: rest) n1.nextPoint = false ∧
      canTravel n1.position n1.nextPoint.position = .ok true ∧
      b.field n1.nextPoint.position = .ok f ∧ f.empty = false) := by
  unfold travelForward at h
  have hsf := selection_facts n
  simp only [] at hsf h
  generalize (if !n.canTravelForward then n.selectNextOption else (n, true)) = sel at hsf h
  obtain ⟨n1, fl⟩ := sel
  obtain ⟨hp, hb, he, hne⟩ := hsf
  simp only [] at hp hb he hne
  cases fl with
  | false =>
    simp [pure, Except.pure, bind, Except.bind] at h
    left
    exact ⟨h.2, n1, h.1.symm, hp, hb, he⟩
  | true =>
    have hblocked : st = n1.removeCurrentOption :: rest → flag = false →
        (flag = false ∧ ∃ n', st = n' :: rest ∧ n'.travel.position = n.travel.position ∧
          n'.travel.begin = n.travel.begin ∧
          (n.options.empty = true → n'.options.empty = true)) := by
      intro e1 e2
      refine ⟨e2, _, e1, hp, hb, ?_⟩
      intro h0
      exact Anchors.remove_of_empty _ _ (he h0)
    by_cases hl : doesLoop (n1 :: rest) n1.nextPoint = true
    · simp [hl, pure, Except.pure, bind, Except.bind] at h
      left; exact hblocked h.1.symm h.2
    · have hl' : doesLoop (n1 :: rest) n1.nextPoint = false := by simpa using hl
      cases hc : canTravel n1.position n1.nextPoint.position with
      | error e => simp [hl', hc, pure, Except.pure, bind, Except.bind] at h
      | ok can =>
        cases can with
        | false =>
          simp [hl', hc, pure, Except.pure, bind, Except.bind] at h
          left; exact hblocked h.1.symm h.2
        | true =>
          cases hpn : pushNext b (n1 :: rest) n1.nextPoint with
          | error e => simp [hl', hc, hpn, pure, Except.pure, bind, Except.bind] at h
          | ok pushed =>
            obtain ⟨pst, pfl⟩ := pushed
            cases pfl with
            | false =>
              simp [hl', hc, hpn, pure, Except.pure, bind, Except.bind] at h
              left; exact hblocked h.1.symm h.2
            | true =>
              simp [hl', hc, hpn, pure, Except.pure, bind, Except.bind] at h
              rcases pushNext_cases b _ _ _ _ hpn with ⟨hx, _⟩ | ⟨_, f, hf, hfe, hst⟩
              · cases hx
              · right
                refine ⟨h.2, n1, f, ?_, hp, hb, hne rfl, he, hl', hc, hf, hfe⟩
                rw [← h.1, hst]

/-- What one pass of the loop does to the stack and to the reported stops. -/
theorem loopBody_cases (b : Board) (n : OrbTravelNode) (rest : List OrbTravelNode)
    (stops : List Position) (st' : State) (h : loopBody b ⟨n :: rest, stops⟩ = .ok st') :
    (st'.stops = stops ∨
      (n.travel.endA = Anchor.Stop ∧ st'.stops = stops ++ [n.travel.position])) ∧
    (st'.stack = afterPop rest ∨
      (∃ n', st'.stack = n' :: rest ∧ n'.travel.position = n.travel.position ∧
        n'.travel.begin = n.travel.begin ∧ n'.options.empty = false ∧
        (n.options.empty = true → n'.options.empty = true)) ∨
      (∃ n1 f, st'.stack = OrbTravelNode.from n1.nextPoint f :: n1 :: rest ∧
        n1.travel.position = n.travel.position ∧ n1.travel.begin = n.travel.begin ∧
        n1.options.empty = false ∧ (n.options.empty = true → n1.options.empty = true) ∧
      doesLoop (n1 :: rest) n1.nextPoint = false ∧
        canTravel n1.position n1.nextPoint.position = .ok true ∧
        b.field n1.nextPoint.position = .ok f ∧ f.empty = false)) := by
  unfold loopBody at h
  simp only [] at h
  by_cases hr : n.reachedStop = true
  · have hend : n.travel.endA = Anchor.Stop := by
      simpa [OrbTravelNode.reachedStop] using hr
    by_cases ho : n.removeCurrentOption.hasOptions = true
    · simp [hr, ho, pure, Except.pure] at h
      rw [← h]
      refine ⟨Or.inr ⟨hend, rfl⟩, Or.inr (Or.inl ⟨_, rfl, rfl, rfl, ?_, ?_⟩)⟩
      · simpa [OrbTravelNode.hasOptions] using ho
      · intro h0
        exact Anchors.remove_of_empty _ _ h0
    · simp [hr, ho, pure, Except.pure, travelBack] at h
      rw [← h]
      exact ⟨Or.inr ⟨hend, rfl⟩, Or.inl rfl⟩
  · cases htf : travelForward b n rest with
    | error e => simp [hr, htf, bind, Except.bind] at h
    | ok moved =>
      obtain ⟨st, flag⟩ := moved
      rcases travelForward_cases b n rest st flag htf with
        ⟨hfl, n', hst, hp, hb, he⟩ | ⟨hfl, n1, f, hst, hp, hb, hne, he, hl, hc, hf, hfe⟩
      · subst hfl; subst hst
        by_cases ho : n'.hasOptions = true
        · simp [hr, htf, ho, bind, Except.bind, pure, Except.pure] at h
          rw [← h]
          refine ⟨Or.inl rfl, Or.inr (Or.inl ⟨_, rfl, hp, hb, ?_, he⟩)⟩
          simpa [OrbTravelNode.hasOptions] using ho
        · simp [hr, htf, ho, bind, Except.bind, pure, Except.pure, travelBack] at h
          rw [← h]
          exact ⟨Or.inl rfl, Or.inl rfl⟩
      · subst hfl
        simp [hr, htf, bind, Except.bind, pure, Except.pure] at h
        rw [← h]
        exact ⟨Or.inl rfl, Or.inr (Or.inr ⟨n1, f, hst, hp, hb, hne, he, hl, hc, hf, hfe⟩)⟩

/-! #### No travel point twice on the stack -/

theorem Distinct.toBelow {n : OrbTravelNode} {rest : List OrbTravelNode}
    (h : Distinct (n :: rest)) : DistinctBelow rest := by
  refine ⟨(List.nodup_cons.mp h.nodup).2, ?_⟩
  intro m hm
  have h1 := h.below m hm
  refine ⟨h1, ?_⟩
  intro e
  have h2 := h.dead m (List.mem_cons_of_mem _ hm) e
  rw [h1] at h2
  cases h2

theorem DistinctBelow.toDistinct {stack : List OrbTravelNode} (h : DistinctBelow stack) :
    Distinct stack := by
  refine ⟨h.nodup, ?_, ?_⟩
  · intro n hn e
    exact absurd e (h.live n hn).2
  · intro n hn
    exact (h.live n (List.mem_of_mem_tail hn)).1

theorem DistinctBelow.afterPop_below {rest : List OrbTravelNode} (h : DistinctBelow rest) :
    DistinctBelow (afterPop rest) := by
  induction rest with
  | nil => exact h
  | cons p rest ih =>
    have hrest : DistinctBelow rest :=
      ⟨(List.nodup_cons.mp h.nodup).2, fun m hm => h.live m (List.mem_cons_of_mem _ hm)⟩
    rw [afterPop_cons]
    by_cases he : (p.options.remove p.travel.endA).empty = true
    · rw [if_pos he]; exact ih hrest
    · rw [if_neg he]
      refine ⟨h.nodup, ?_⟩
      intro m hm
      rcases List.mem_cons.mp hm with e | hm
      · rw [e]
        exact ⟨by simpa using he, (h.live p (List.mem_cons_self _ _)).2⟩
      · exact h.live m (List.mem_cons_of_mem _ hm)

set_option maxRecDepth 100000 in
theorem deadEnd_field (b : Board) (f : Field) (h : b.field ⟨0, 0⟩ = .ok f) :
    (f.connectionsFrom Anchor.North).empty = true := by
  have h0 : Board.frame.field ⟨0, 0⟩ = .ok ⟨⟨Stone.OneCurveWithStop, Orientation.East, 0⟩,
      BoardArea.House, 0⟩ := by decide
  unfold Board.field at h
  rw [h0] at h
  simp [FrameField.isStatic, FrameField.toField, bind, Except.bind, pure, Except.pure] at h
  rw [← h]
  decide

theorem from_deadEnd (b : Board) (next : OrbTravelPoint) (f : Field)
    (hf : b.field next.position = .ok f)
    (h : (OrbTravelNode.from next f).beginPoint = deadEndPoint) :
    (OrbTravelNode.from next f).options.empty = true := by
  unfold OrbTravelNode.from at h ⊢
  simp only [] at h ⊢
  by_cases he : (f.connectionsFrom next.anchor).empty = true
  · rw [if_pos he]; rfl
  · rw [if_neg he] at h
    exfalso
    apply he
    have h1 : next = deadEndPoint := h
    rw [h1] at hf ⊢
    exact deadEnd_field b f hf

theorem from_beginPoint (next : OrbTravelPoint) (f : Field) :
    (OrbTravelNode.from next f).beginPoint = next ∨
    (OrbTravelNode.from next f).beginPoint = deadEndPoint := by
  unfold OrbTravelNode.from
  simp only []
  by_cases he : (f.connectionsFrom next.anchor).empty = true
  · right; rw [if_pos he]; rfl
  · left; rw [if_neg he]; rfl

/-- One pass of the loop keeps the begin points of the stack different. -/
theorem distinct_pass (b : Board) (st st' : State) (h : Distinct st.stack)
    (hl : loopBody b st = .ok st') : Distinct st'.stack := by
  obtain ⟨stack, stops⟩ := st
  cases stack with
  | nil =>
    rw [loopBody_nil] at hl
    cases hl
    exact h
  | cons n rest =>
    have hB := h.toBelow
    have hn0 : n.options.empty = false → n.beginPoint ≠ deadEndPoint := by
      intro h1 e
      have h2 := h.dead n (List.mem_cons_self _ _) e
      rw [h1] at h2
      cases h2
    rcases (loopBody_cases b n rest stops st' hl).2 with
      hs | ⟨n', hs, hp, hb, hne, he⟩ | ⟨n1, f, hs, hp, hb, hne, he, hloop, hc, hf, hfe⟩
    · rw [hs]; exact (DistinctBelow.afterPop_below hB).toDistinct
    · rw [hs]
      have hbp : n'.beginPoint = n.beginPoint := by
        unfold OrbTravelNode.beginPoint; rw [hp, hb]
      refine ⟨?_, ?_, h.below⟩
      · have := h.nodup
        unfold begins at this ⊢
        simpa [hbp] using this
      · intro m hm e
        rcases List.mem_cons.mp hm with e1 | hm
        · rw [e1] at e ⊢
          rw [hbp] at e
          exact he (h.dead n (List.mem_cons_self _ _) e)
        · exact h.dead m (List.mem_cons_of_mem _ hm) e
    · rw [hs]
      have hbp : n1.beginPoint = n.beginPoint := by
        unfold OrbTravelNode.beginPoint; rw [hp, hb]
      have hn1 : n1.beginPoint ≠ deadEndPoint := by
        rw [hbp]
        apply hn0
        by_contra hc2
        have hc3 : n.options.empty = true := by simpa using hc2
        rw [he hc3] at hne
        cases hne
      have hB1 : DistinctBelow (n1 :: rest) := by
        refine ⟨?_, ?_⟩
        · have := h.nodup
          unfold begins at this ⊢
          simpa [hbp] using this
        · intro m hm
          rcases List.mem_cons.mp hm with e1 | hm
          · rw [e1]; exact ⟨hne, hn1⟩
          · exact hB.live m hm
      refine ⟨?_, ?_, ?_⟩
      · show (_ :: begins (n1 :: rest)).Nodup
        refine List.nodup_cons.mpr ⟨?_, hB1.nodup⟩
        rcases from_beginPoint n1.nextPoint f with e | e
        · rw [e]
          intro hm
          have := (doesLoop_iff _ _).mpr hm
          rw [hloop] at this
          cases this
        · rw [e]
          intro hm
          obtain ⟨m, hm1, hm2⟩ := List.mem_map.mp hm
          exact (hB1.live m hm1).2 hm2
      · intro m hm e
        rcases List.mem_cons.mp hm with e1 | hm
        · rw [e1] at e ⊢
          exact from_deadEnd b _ f hf e
        · exact absurd e (hB1.live m hm).2
      · intro m hm
        exact (hB1.live m hm).1

theorem distinct_iter (b : Board) (k : Nat) (st st' : State) (h : Distinct st.stack)
    (hk : iter b k st = .ok st') : Distinct st'.stack := by
  induction k generalizing st with
  | zero =>
    simp only [OrbMoveGenerator.iter, pure, Except.pure, Except.ok.injEq] at hk
    rw [← hk]; exact h
  | succ k ih =>
    simp only [OrbMoveGenerator.iter] at hk
    cases hl : loopBody b st with
    | error e => rw [hl] at hk; simp [bind, Except.bind] at hk
    | ok st1 =>
      rw [hl] at hk
      exact ih st1 (distinct_pass b st st1 h hl) hk

theorem distinct_initial (b : Board) (s : Position) (st : State)
    (h : initialState b s = .ok st) : Distinct st.stack := by
  unfold initialState at h
  cases hp : pushNext b [] ⟨s, Anchor.Stop⟩ with
  | error e => rw [hp] at h; simp [bind, Except.bind] at h
  | ok pushed =>
    obtain ⟨stack, flag⟩ := pushed
    rw [hp] at h
    simp only [bind, Except.bind, pure, Except.pure, Except.ok.injEq] at h
    rw [← h]
    rcases pushNext_cases b _ _ _ _ hp with ⟨_, hst⟩ | ⟨_, f, hf, hfe, hst⟩
    · rw [hst]
      exact ⟨List.nodup_nil, by simp, by simp⟩
    · rw [hst]
      refine ⟨by simp [begins], ?_, by simp⟩
      intro m hm e
      rw [List.mem_singleton] at hm
      rw [hm] at e ⊢
      exact from_deadEnd b _ f hf e

/-! #### The reported stops are reached by permitted steps -/

theorem afterPop_positions (P : Position → Prop) (rest : List OrbTravelNode)
    (h : ∀ m ∈ rest, P m.travel.position) : ∀ m ∈ afterPop rest, P m.travel.position := by
  induction rest with
  | nil => exact h
  | cons p rest ih =>
    rw [afterPop_cons]
    by_cases he : (p.options.remove p.travel.endA).empty = true
    · rw [if_pos he]
      exact ih (fun m hm => h m (List.mem_cons_of_mem _ hm))
    · rw [if_neg he]
      intro m hm
      rcases List.mem_cons.mp hm with e | hm
      · rw [e]; exact h p (List.mem_cons_self _ _)
      · exact h m (List.mem_cons_of_mem _ hm)

theorem Reached.of_all (s : Position) (stack : List OrbTravelNode)
    (h : ∀ m ∈ stack, CanReach s m.travel.position) : Reached s stack := by
  cases stack with
  | nil => trivial
  | cons n rest =>
    exact ⟨Or.inr (h n (List.mem_cons_self _ _)), fun m hm => h m (List.mem_cons_of_mem _ hm)⟩

theorem from_position (next : OrbTravelPoint) (f : Field) :
    OrbTravelNode.from next f = OrbTravelNode.default ∨
    (OrbTravelNode.from next f).travel.position = next.position := by
  unfold OrbTravelNode.from
  simp only []
  by_cases he : (f.connectionsFrom next.anchor).empty = true
  · left; rw [if_pos he]
  · right; rw [if_neg he]

/-- One pass of the loop keeps the stack reached and reports a reached cell. -/
theorem reached_pass (b : Board) (s : Position) (st st' : State)
    (h : Reached s st.stack ∧ ∀ t ∈ st.stops, CanReach s t) (hl : loopBody b st = .ok st') :
    Reached s st'.stack ∧ ∀ t ∈ st'.stops, CanReach s t := by
  obtain ⟨stack, stops⟩ := st
  cases stack with
  | nil =>
    rw [loopBody_nil] at hl
    cases hl
    exact h
  | cons n rest =>
    obtain ⟨⟨htop, hrest⟩, hstops⟩ := h
    obtain ⟨hs1, hs2⟩ := loopBody_cases b n rest stops st' hl
    have hlive : n.options.empty = false → CanReach s n.travel.position := by
      intro h1
      rcases htop with e | h2
      · rw [e] at h1; cases h1
      · exact h2
    constructor
    · rcases hs2 with
        hs | ⟨n', hs, hp, hb, hne, he⟩ | ⟨n1, f, hs, hp, hb, hne, he, hloop, hc, hf, hfe⟩
      · rw [hs]
        exact Reached.of_all s _ (afterPop_positions _ rest hrest)
      · rw [hs]
        refine ⟨Or.inr ?_, hrest⟩
        rw [hp]
        apply hlive
        by_contra hc2
        have hc3 : n.options.empty = true := by simpa using hc2
        rw [he hc3] at hne
        cases hne
      · rw [hs]
        have hr1 : CanReach s n1.travel.position := by
          rw [hp]
          apply hlive
          by_contra hc2
          have hc3 : n.options.empty = true := by simpa using hc2
          rw [he hc3] at hne
          cases hne
        refine ⟨?_, ?_⟩
        · rcases from_position n1.nextPoint f with e | e
          · left; exact e
          · right
            rw [e]
            exact Relation.ReflTransGen.tail hr1 hc
        · intro m hm
          rcases List.mem_cons.mp hm with e1 | hm
          · rw [e1]; exact hr1
          · exact hrest m hm
    · rcases hs1 with hs | ⟨hend, hs⟩
      · rw [hs]; exact hstops
      · rw [hs]
        intro t ht
        rcases List.mem_append.mp ht with ht | ht
        · exact hstops t ht
        · rw [List.mem_singleton] at ht
          rw [ht]
          rcases htop with e | h2
          · rw [e] at hend; cases hend
          · exact h2

theorem reached_runLoop (b : Board) (s : Position) (fuel : Nat) (st : State)
    (R : List Position) (h : Reached s st.stack ∧ ∀ t ∈ st.stops, CanReach s t)
    (hr : runLoop b fuel st = .ok (some R)) : ∀ t ∈ R, CanReach s t := by
  induction fuel generalizing st with
  | zero =>
    unfold OrbMoveGenerator.runLoop at hr
    by_cases he : st.stack.isEmpty = true
    · simp [he, pure, Except.pure] at hr
      rw [← hr]; exact h.2
    · simp [he, pure, Except.pure] at hr
  | succ fuel ih =>
    unfold OrbMoveGenerator.runLoop at hr
    by_cases he : st.stack.isEmpty = true
    · simp [he, pure, Except.pure] at hr
      rw [← hr]; exact h.2
    · cases hl : loopBody b st with
      | error e => simp [he, hl, bind, Except.bind] at hr
      | ok st1 =>
        simp [he, hl, bind, Except.bind] at hr
        exact ih st1 (reached_pass b s st st1 h hl) hr

/-- Every stop that `followAllPaths` reports is reached from the start by permitted
steps. -/
theorem followAllPaths_reached (fuel : Nat) (b : Board) (s : Position) (R : List Position)
    (h : followAllPaths fuel b s = .ok (some R)) : ∀ t ∈ R, CanReach s t := by
  unfold followAllPaths at h
  cases hi : initialState b s with
  | error e => rw [hi] at h; simp [bind, Except.bind] at h
  | ok st =>
    rw [hi] at h
    simp only [bind, Except.bind] at h
    refine reached_runLoop b s fuel st R ?_ h
    unfold initialState at hi
    cases hp : pushNext b [] ⟨s, Anchor.Stop⟩ with
    | error e => rw [hp] at hi; simp [bind, Except.bind] at hi
    | ok pushed =>
      obtain ⟨stack, flag⟩ := pushed
      rw [hp] at hi
      simp only [bind, Except.bind, pure, Except.pure, Except.ok.injEq] at hi
      rw [← hi]
      refine ⟨?_, by simp⟩
      rcases pushNext_cases b _ _ _ _ hp with ⟨_, hst⟩ | ⟨_, f, hf, hfe, hst⟩
      · show Reached s stack
        rw [hst]; trivial
      · show Reached s stack
        rw [hst]
        refine ⟨?_, by simp⟩
        rcases from_position ⟨s, Anchor.Stop⟩ f with e | e
        · left; exact e
        · right; rw [e]; exact Relation.ReflTransGen.refl

/-- The areas along permitted steps. -/
theorem CanReach.areas (s t : Position) (h : CanReach s t) (hs : s.OnBoard)
    (hh : s.NotForeignHouse) :
    t.OnBoard ∧ t.NotForeignHouse ∧
    (Board.isHouse s = .ok true → Board.isHouse t = .ok true) ∧
    (Board.isSource s = .ok false → Board.isSource t = .ok false) := by
  induction h with
  | refl => exact ⟨hs, hh, id, id⟩
  | tail _ hstep ih =>
    obtain ⟨_, h2, h3, h4, h5⟩ := canTravel_true _ _ hstep
    exact ⟨h2, h3, fun h => h4 (ih.2.2.1 h), fun h => h5 (ih.2.2.2 h)⟩

/-! #### The moves of `allMoves` -/

theorem mem_addStops (orbs : OrbPositions) (s : Position) (stops : List Position) :
    ∀ (result : List OrbMove) (m : OrbMove),
      m ∈ addStops orbs s result stops ↔
        m ∈ result ∨ ∃ t ∈ stops, m = ⟨s, t⟩ ∧ orbs.isOrbAt t = false ∧
          orbs.koPosition s ≠ t := by
  induction stops with
  | nil => intro result m; simp [addStops]
  | cons t stops ih =>
    intro result m
    have hstep : addStops orbs s result (t :: stops) =
        addStops orbs s (if orbs.isOrbAt t then result
          else if orbs.koPosition s = t then result
          else if (⟨s, t⟩ : OrbMove) ∈ result then result
          else result ++ [⟨s, t⟩]) stops := rfl
    rw [hstep, ih]
    by_cases h1 : orbs.isOrbAt t = true
    · simp only [h1, if_true, List.mem_cons]
      constructor
      · rintro (h | ⟨t', ht', h⟩)
        · exact Or.inl h
        · exact Or.inr ⟨t', Or.inr ht', h⟩
      · rintro (h | ⟨t', ht' | ht', e, h2, h3⟩)
        · exact Or.inl h
        · rw [ht', h1] at h2; cases h2
        · exact Or.inr ⟨t', ht', e, h2, h3⟩
    · by_cases h2 : orbs.koPosition s = t
      · simp only [h1, h2, if_true, Bool.false_eq_true, if_false, List.mem_cons]
        constructor
        · rintro (h | ⟨t', ht', h⟩)
          · exact Or.inl h
          · exact Or.inr ⟨t', Or.inr ht', h⟩
        · rintro (h | ⟨t', ht' | ht', e, h3, h4⟩)
          · exact Or.inl h
          · rw [ht'] at h4; exact absurd rfl h4
          · exact Or.inr ⟨t', ht', e, h3, h4⟩
      · have h1' : orbs.isOrbAt t = false := by simpa using h1
        by_cases h3 : (⟨s, t⟩ : OrbMove) ∈ result
        · simp only [h1', h2, h3, if_true, if_false, Bool.false_eq_true, List.mem_cons]
          constructor
          · rintro (h | ⟨t', ht', h⟩)
            · exact Or.inl h
            · exact Or.inr ⟨t', Or.inr ht', h⟩
          · rintro (h | ⟨t', ht' | ht', e, h4, h5⟩)
            · exact Or.inl h
            · rw [ht'] at e; rw [e]; exact Or.inl h3
            · exact Or.inr ⟨t', ht', e, h4, h5⟩
        · simp only [h1', h2, h3, if_false, Bool.false_eq_true, List.mem_cons, List.mem_append,
            List.not_mem_nil, or_false]
          constructor
          · rintro ((h | h) | ⟨t', ht', h⟩)
            · exact Or.inl h
            · exact Or.inr ⟨t, Or.inl rfl, h, h1', h2⟩
            · exact Or.inr ⟨t', Or.inr ht', h⟩
          · rintro (h | ⟨t', ht' | ht', e, h4, h5⟩)
            · exact Or.inl (Or.inl h)
            · rw [ht'] at e; exact Or.inl (Or.inr e)
            · exact Or.inr ⟨t', ht', e, h4, h5⟩

/-- What `allMoves` does for one orb: it ends at a spare orb, skips an orb in the house
of another player, and else adds the stops of the path search. -/
theorem allMovesLoop_cons (fuel : Nat) (g : GameState) (o : OrbPosition)
    (more : List OrbPosition) (result moves : List OrbMove)
    (h : allMovesLoop fuel g (o :: more) result = .ok (some moves)) :
    (o.position.isInvalid = true ∧ moves = result) ∨
    (o.position.isInvalid = false ∧ o.position.OnBoard ∧ ¬ o.position.NotForeignHouse ∧
      allMovesLoop fuel g more result = .ok (some moves)) ∨
    (o.position.isInvalid = false ∧ o.position.OnBoard ∧ o.position.NotForeignHouse ∧
      ∃ stops, followAllPaths fuel g.board o.position = .ok (some stops) ∧
        allMovesLoop fuel g more (addStops g.orbPositions o.position result stops) =
          .ok (some moves)) := by
  unfold allMovesLoop at h
  simp only [] at h
  by_cases hi : o.position.isInvalid = true
  · left
    simp [hi, pure, Except.pure] at h
    exact ⟨hi, h.symm⟩
  · right
    have hi' : o.position.isInvalid = false := by simpa using hi
    rw [if_neg hi] at h
    cases hh : Board.isHouse o.position with
    | error e => rw [hh] at h; simp [bind, Except.bind] at h
    | ok house =>
      have hon := onBoard_of_isHouse _ _ hh
      rw [hh] at h
      obtain ⟨ff, hff⟩ := frame_field_ok o.position hon
      have hpl : Board.playerForField o.position = .ok ff.player := by
        unfold Board.playerForField; rw [hff]; rfl
      cases house with
      | false =>
        right
        have hnf : o.position.NotForeignHouse := by
          intro h1; rw [hh] at h1; cases h1
        refine ⟨hi', hon, hnf, ?_⟩
        cases hfa : followAllPaths fuel g.board o.position with
        | error e => simp [hfa, bind, Except.bind, pure, Except.pure] at h
        | ok found =>
          cases found with
          | none => simp [hfa, bind, Except.bind, pure, Except.pure] at h
          | some stops =>
            simp [hfa, bind, Except.bind, pure, Except.pure] at h
            exact ⟨stops, rfl, h⟩
      | true =>
        by_cases hp : ff.player = 0
        · right
          have hnf : o.position.NotForeignHouse := by
            intro _; rw [hpl, hp]
          refine ⟨hi', hon, hnf, ?_⟩
          cases hfa : followAllPaths fuel g.board o.position with
          | error e => simp [hpl, hp, hfa, bind, Except.bind, pure, Except.pure] at h
          | ok found =>
            cases found with
            | none => simp [hpl, hp, hfa, bind, Except.bind, pure, Except.pure] at h
            | some stops =>
              simp [hpl, hp, hfa, bind, Except.bind, pure, Except.pure] at h
              exact ⟨stops, rfl, h⟩
        · left
          have hnf : ¬ o.position.NotForeignHouse := by
            intro h1
            have h2 := h1 hh
            rw [hpl] at h2
            simp only [Except.ok.injEq] at h2
            exact hp h2
          refine ⟨hi', hon, hnf, ?_⟩
          simp [hpl, hp, bind, Except.bind, pure, Except.pure] at h
          exact h

theorem allMovesLoop_sound (fuel : Nat) (g : GameState) (Q : OrbMove → Prop)
    (hQ : ∀ s t, s.OnBoard → s.NotForeignHouse → CanReach s t → Q ⟨s, t⟩) :
    ∀ (orbs : List OrbPosition) (result moves : List OrbMove),
      allMovesLoop fuel g orbs result = .ok (some moves) → (∀ m ∈ result, Q m) →
      ∀ m ∈ moves, Q m := by
  intro orbs
  induction orbs with
  | nil =>
    intro result moves h hr
    simp [allMovesLoop, pure, Except.pure] at h
    rw [← h]; exact hr
  | cons o more ih =>
    intro result moves h hr
    rcases allMovesLoop_cons fuel g o more result moves h with
      ⟨_, e⟩ | ⟨_, _, _, h1⟩ | ⟨_, hon, hnf, stops, hfa, h1⟩
    · rw [e]; exact hr
    · exact ih result moves h1 hr
    · refine ih _ moves h1 ?_
      intro m hm
      rcases (mem_addStops _ _ _ _ _).mp hm with hm | ⟨t, ht, e, _, _⟩
      · exact hr m hm
      · rw [e]
        exact hQ _ _ hon hnf (followAllPaths_reached fuel g.board _ stops hfa t ht)

/-! #### Chains of travel points -/

theorem TravelChain.toN (b : Board) (t : Position) (pt : OrbTravelPoint)
    (h : TravelChain b t pt) : ∃ n, TravelChainN b t n pt := by
  induction h with
  | stop pt f hf hne hs ht => exact ⟨0, TravelChainN.stop 0 pt f hf hs ht⟩
  | step pt f c hf hne hc hcan hp ih =>
    obtain ⟨n, hn⟩ := ih
    exact ⟨n + 1, TravelChainN.step n pt f c hf hc hcan hn⟩

theorem Field.nonempty_of_connection (f : Field) (a c : Anchor)
    (h : (f.connectionsFrom a).contains c = true) : f.empty = false := by
  by_contra hc
  have hc' : f.empty = true := by simpa using hc
  rw [Field.connections_of_empty f a c hc'] at h
  cases h

theorem SearchPath.toChain (b : Board) (t : Position) (V : List OrbTravelPoint)
    (pt : OrbTravelPoint) (h : SearchPath b t V pt) : TravelChain b t pt := by
  induction h with
  | stop V pt f hf hs ht =>
    exact TravelChain.stop pt f hf (Field.nonempty_of_connection _ _ _ hs) hs ht
  | step V pt f c hf hc hn hv hcan hp ih =>
    exact TravelChain.step pt f c hf (Field.nonempty_of_connection _ _ _ hc) hc hcan ih

theorem nextPoint_stop (p : Position) : ¬ (Anchor.Stop.nextPoint p).position.OnBoard := by
  intro h
  have h1 : (15 : Nat) < 10 := h.1
  omega

/-- A chain can be cut back to a path that visits no travel point twice. -/
theorem TravelChainN.toPath (b : Board) (t : Position) :
    ∀ (n : Nat) (pt : OrbTravelPoint) (V : List OrbTravelPoint),
      TravelChainN b t n pt → pt ∉ V →
      SearchPath b t V pt ∨ ∃ v ∈ V, ∃ m, m < n ∧ TravelChainN b t m v := by
  intro n
  induction n using Nat.strong_induction_on with
  | _ n ih =>
    intro pt V h hV
    cases h with
    | stop _ _ f hf hs ht => exact Or.inl (SearchPath.stop V pt f hf hs ht)
    | step k _ f c hf hc hcan hp =>
      have hcs : c ≠ Anchor.Stop := by
        intro e
        rw [e] at hcan
        exact nextPoint_stop _ (canTravel_true _ _ hcan).2.1
      by_cases hm : c.nextPoint pt.position ∈ pt :: V
      · rcases List.mem_cons.mp hm with e | hm
        · rw [e] at hp
          rcases ih k (Nat.lt_succ_self k) pt V hp hV with h1 | ⟨v, hv, m, hmk, h1⟩
          · exact Or.inl h1
          · exact Or.inr ⟨v, hv, m, by omega, h1⟩
        · exact Or.inr ⟨_, hm, k, Nat.lt_succ_self k, hp⟩
      · rcases ih k (Nat.lt_succ_self k) _ (pt :: V) hp hm with h1 | ⟨v, hv, m, hmk, h1⟩
        · exact Or.inl (SearchPath.step V pt f c hf hc hcs hm hcan h1)
        · rcases List.mem_cons.mp hv with e | hv
          · rw [e] at h1
            rcases ih m (by omega) pt V h1 hV with h2 | ⟨v', hv', m', hmk', h2⟩
            · exact Or.inl h2
            · exact Or.inr ⟨v', hv', m', by omega, h2⟩
          · exact Or.inr ⟨v, hv, m, by omega, h1⟩

/-- The search follows exactly the chains of travel points. -/
theorem searchPath_iff_chain (b : Board) (t : Position) (pt : OrbTravelPoint) :
    SearchPath b t [] pt ↔ TravelChain b t pt := by
  constructor
  · exact SearchPath.toChain b t [] pt
  · intro h
    obtain ⟨n, hn⟩ := TravelChain.toN b t pt h
    rcases TravelChainN.toPath b t n pt [] hn (List.not_mem_nil _) with h1 | ⟨v, hv, _⟩
    · exact h1
    · exact absurd hv (List.not_mem_nil _)

/-! #### The result of `allMoves` -/

theorem allMovesLoop_invalid (fuel : Nat) (g : GameState) (o : OrbPosition)
    (more : List OrbPosition) (result : List OrbMove) (hi : o.position.isInvalid = true) :
    allMovesLoop fuel g (o :: more) result = .ok (some result) := by
  unfold allMovesLoop
  simp [hi, pure, Except.pure]

theorem notForeignHouse_values (p : Position) (hp : p.OnBoard) :
    ∃ house pl, Board.isHouse p = .ok house ∧ Board.playerForField p = .ok pl ∧
      (p.NotForeignHouse ↔ (house = true → pl = 0)) := by
  obtain ⟨ff, hff⟩ := frame_field_ok p hp
  refine ⟨ff.area == BoardArea.House, ff.player, ?_, ?_, ?_⟩
  · unfold Board.isHouse; rw [hff]; rfl
  · unfold Board.playerForField; rw [hff]; rfl
  · unfold Position.NotForeignHouse Board.isHouse Board.playerForField
    rw [hff]
    simp [bind, Except.bind, pure, Except.pure]

theorem allMovesLoop_skip (fuel : Nat) (g : GameState) (o : OrbPosition)
    (more : List OrbPosition) (result : List OrbMove) (hi : o.position.isInvalid = false)
    (hp : o.position.OnBoard) (hn : ¬ o.position.NotForeignHouse) :
    allMovesLoop fuel g (o :: more) result = allMovesLoop fuel g more result := by
  obtain ⟨house, pl, h1, h2, h3⟩ := notForeignHouse_values o.position hp
  rw [h3] at hn
  have hh : house = true := by
    by_contra hc; exact hn (fun h => absurd h hc)
  have hpl : pl ≠ 0 := fun e => hn (fun _ => e)
  conv => lhs; unfold allMovesLoop
  simp [hi, h1, h2, hh, hpl, bind, Except.bind, pure, Except.pure]

theorem allMovesLoop_follow (fuel : Nat) (g : GameState) (o : OrbPosition)
    (more : List OrbPosition) (result : List OrbMove) (stops : List Position)
    (hi : o.position.isInvalid = false) (hp : o.position.OnBoard)
    (hn : o.position.NotForeignHouse)
    (hf : followAllPaths fuel g.board o.position = .ok (some stops)) :
    allMovesLoop fuel g (o :: more) result =
      allMovesLoop fuel g more (addStops g.orbPositions o.position result stops) := by
  obtain ⟨house, pl, h1, h2, h3⟩ := notForeignHouse_values o.position hp
  rw [h3] at hn
  conv => lhs; unfold allMovesLoop
  cases house with
  | false => simp [hi, h1, hf, bind, Except.bind, pure, Except.pure]
  | true =>
    have hpl := hn rfl
    simp [hi, h1, h2, hpl, hf, bind, Except.bind, pure, Except.pure]

theorem addStops_prefix (orbs : OrbPositions) (s : Position) (stops : List Position) :
    ∀ result : List OrbMove, ∃ extra, addStops orbs s result stops = result ++ extra := by
  induction stops with
  | nil => intro result; exact ⟨[], by simp [addStops]⟩
  | cons t stops ih =>
    intro result
    have hstep : addStops orbs s result (t :: stops) =
        addStops orbs s (if orbs.isOrbAt t then result
          else if orbs.koPosition s = t then result
          else if (⟨s, t⟩ : OrbMove) ∈ result then result
          else result ++ [⟨s, t⟩]) stops := rfl
    rw [hstep]
    split
    · exact ih result
    · split
      · exact ih result
      · split
        · exact ih result
        · obtain ⟨extra, he⟩ := ih (result ++ [⟨s, t⟩])
          exact ⟨⟨s, t⟩ :: extra, by rw [he]; simp⟩

theorem addStops_nodup (orbs : OrbPositions) (s : Position) (stops : List Position) :
    ∀ result : List OrbMove, result.Nodup → (addStops orbs s result stops).Nodup := by
  induction stops with
  | nil => intro result h; simpa [addStops] using h
  | cons t stops ih =>
    intro result h
    have hstep : addStops orbs s result (t :: stops) =
        addStops orbs s (if orbs.isOrbAt t then result
          else if orbs.koPosition s = t then result
          else if (⟨s, t⟩ : OrbMove) ∈ result then result
          else result ++ [⟨s, t⟩]) stops := rfl
    rw [hstep]
    apply ih
    split
    · exact h
    · split
      · exact h
      · split
        · exact h
        · rename_i hm
          rw [List.nodup_append]
          refine ⟨h, List.nodup_singleton _, ?_⟩
          intro a ha hb
          rw [List.mem_singleton] at hb
          rw [hb] at ha
          exact hm ha

/-- After a spare orb only spare orbs follow. -/
theorem spare_tail (o : OrbPosition) (more : List OrbPosition)
    (ho : (o :: more).Pairwise fun a b =>
      a.position.lt b.position = true ∨ b.position = Position.invalid)
    (hv : ∀ r ∈ o :: more, r.position.Valid) (hi : o.position.isInvalid = true) :
    ∀ r ∈ more, r.position.isInvalid = true := by
  intro r hr
  have he := Position.valid_isInvalid _ (hv o (List.mem_cons_self _ _)) hi
  rcases (List.pairwise_cons.mp ho).1 r hr with h | h
  · rw [he, Position.valid_not_invalid_lt _ (hv r (List.mem_cons_of_mem _ hr))] at h
    cases h
  · rw [h]; rfl

theorem allMovesLoop_spec (g : GameState) (hb : g.board.state.length = 64) :
    ∀ orbs : List OrbPosition,
      (orbs.Pairwise fun a b =>
        a.position.lt b.position = true ∨ b.position = Position.invalid) →
      (∀ o ∈ orbs, o.position.Valid) →
      ∀ result : List OrbMove, ∃ N moves,
        (∀ fuel, N ≤ fuel → allMovesLoop fuel g orbs result = .ok (some moves)) ∧
        (∃ extra, moves = result ++ extra) ∧ (result.Nodup → moves.Nodup) ∧
        ∀ m, m ∈ moves ↔ m ∈ result ∨ ∃ o ∈ orbs, MovesFrom g o.position m := by
  intro orbs
  induction orbs with
  | nil =>
    intro _ _ result
    refine ⟨0, result, ?_, ⟨[], by simp⟩, id, ?_⟩
    · intro fuel _; simp [allMovesLoop, pure, Except.pure]
    · intro m; simp
  | cons o more ih =>
    intro ho hv result
    have ho' := (List.pairwise_cons.mp ho).2
    have hv' : ∀ r ∈ more, r.position.Valid := fun r hr => hv r (List.mem_cons_of_mem _ hr)
    by_cases hi : o.position.isInvalid = true
    · refine ⟨0, result, ?_, ⟨[], by simp⟩, id, ?_⟩
      · intro fuel _; exact allMovesLoop_invalid fuel g o more result hi
      · intro m
        constructor
        · intro h; exact Or.inl h
        · rintro (h | ⟨r, hr, hr1, _⟩)
          · exact h
          · rcases List.mem_cons.mp hr with e | hr
            · rw [e, hi] at hr1; cases hr1
            · rw [spare_tail o more ho hv hi r hr] at hr1; cases hr1
    · have hi' : o.position.isInvalid = false := by simpa using hi
      have hp : o.position.OnBoard := by
        rcases hv o (List.mem_cons_self _ _) with e | h
        · rw [e] at hi; exact absurd rfl hi
        · exact h
      by_cases hn : o.position.NotForeignHouse
      · obtain ⟨k, R, hk, hR⟩ := followAllPaths_spec g.board hb o.position hp hn
        obtain ⟨N, moves, hN, hex, hnd, hmem⟩ :=
          ih ho' hv' (addStops g.orbPositions o.position result R)
        refine ⟨max k N, moves, ?_, ?_, ?_, ?_⟩
        · intro fuel hfuel
          rw [allMovesLoop_follow fuel g o more result R hi' hp hn (hk fuel (by omega))]
          exact hN fuel (by omega)
        · obtain ⟨e1, he1⟩ := addStops_prefix g.orbPositions o.position R result
          obtain ⟨e2, he2⟩ := hex
          exact ⟨e1 ++ e2, by rw [he2, he1, List.append_assoc]⟩
        · intro h
          exact hnd (addStops_nodup _ _ _ _ h)
        · intro m
          rw [hmem m, mem_addStops]
          constructor
          · rintro ((h | ⟨t, ht, e, h1, h2⟩) | ⟨r, hr, h⟩)
            · exact Or.inl h
            · refine Or.inr ⟨o, List.mem_cons_self _ _, hi', hn, t, e, h1, h2, ?_⟩
              exact (searchPath_iff_chain _ _ _).mp ((hR t).mp ht)
            · exact Or.inr ⟨r, List.mem_cons_of_mem _ hr, h⟩
          · rintro (h | ⟨r, hr, h⟩)
            · exact Or.inl (Or.inl h)
            · rcases List.mem_cons.mp hr with e | hr
              · rw [e] at h
                obtain ⟨_, _, t, e1, h1, h2, h3⟩ := h
                exact Or.inl (Or.inr ⟨t, (hR t).mpr ((searchPath_iff_chain _ _ _).mpr h3),
                  e1, h1, h2⟩)
              · exact Or.inr ⟨r, hr, h⟩
      · obtain ⟨N, moves, hN, hex, hnd, hmem⟩ := ih ho' hv' result
        refine ⟨N, moves, ?_, hex, hnd, ?_⟩
        · intro fuel hfuel
          rw [allMovesLoop_skip fuel g o more result hi' hp hn]
          exact hN fuel hfuel
        · intro m
          rw [hmem m]
          constructor
          · rintro (h | ⟨r, hr, h⟩)
            · exact Or.inl h
            · exact Or.inr ⟨r, List.mem_cons_of_mem _ hr, h⟩
          · rintro (h | ⟨r, hr, h⟩)
            · exact Or.inl h
            · rcases List.mem_cons.mp hr with e | hr
              · rw [e] at h
                exact absurd h.2.1 hn
              · exact Or.inr ⟨r, hr, h⟩

/-! #### More passes do not change the result -/

theorem runLoop_succ (b : Board) (fuel : Nat) (st : State) (R : List Position)
    (h : runLoop b fuel st = .ok (some R)) : runLoop b (fuel + 1) st = .ok (some R) := by
  induction fuel generalizing st with
  | zero =>
    unfold OrbMoveGenerator.runLoop at h ⊢
    by_cases he : st.stack.isEmpty = true
    · simpa [he] using h
    · simp [he, pure, Except.pure] at h
  | succ fuel ih =>
    unfold OrbMoveGenerator.runLoop at h
    by_cases he : st.stack.isEmpty = true
    · unfold OrbMoveGenerator.runLoop
      simpa [he] using h
    · cases hl : loopBody b st with
      | error e => simp [he, hl, bind, Except.bind] at h
      | ok st1 =>
        simp [he, hl, bind, Except.bind] at h
        have := ih st1 h
        conv => lhs; unfold OrbMoveGenerator.runLoop
        simp [he, hl, bind, Except.bind]
        exact this

theorem followAllPaths_succ (fuel : Nat) (b : Board) (s : Position) (R : List Position)
    (h : followAllPaths fuel b s = .ok (some R)) :
    followAllPaths (fuel + 1) b s = .ok (some R) := by
  unfold followAllPaths at h ⊢
  cases hi : initialState b s with
  | error e => rw [hi] at h; simp [bind, Except.bind] at h
  | ok st =>
    rw [hi] at h
    exact runLoop_succ b fuel st R h

theorem allMovesLoop_succ (fuel : Nat) (g : GameState) :
    ∀ (orbs : List OrbPosition) (result moves : List OrbMove),
      allMovesLoop fuel g orbs result = .ok (some moves) →
      allMovesLoop (fuel + 1) g orbs result = .ok (some moves) := by
  intro orbs
  induction orbs with
  | nil =>
    intro result moves h
    simpa [allMovesLoop] using h
  | cons o more ih =>
    intro result moves h
    rcases allMovesLoop_cons fuel g o more result moves h with
      ⟨hi, e⟩ | ⟨hi, hp, hn, h1⟩ | ⟨hi, hp, hn, stops, hfa, h1⟩
    · rw [allMovesLoop_invalid _ g o more result hi, e]
    · rw [allMovesLoop_skip _ g o more result hi hp hn]
      exact ih result moves h1
    · rw [allMovesLoop_follow _ g o more result stops hi hp hn
        (followAllPaths_succ fuel g.board _ stops hfa)]
      exact ih _ moves h1

theorem allOrbMoves_mono (g : GameState) (fuel fuel' : Nat) (moves : List OrbMove)
    (hf : fuel ≤ fuel') (h : g.allOrbMoves fuel = .ok (some moves)) :
    g.allOrbMoves fuel' = .ok (some moves) := by
  induction fuel' with
  | zero =>
    have : fuel = 0 := by omega
    rw [← this]; exact h
  | succ k ih =>
    by_cases hk : fuel ≤ k
    · exact allMovesLoop_succ k g _ _ moves (ih hk)
    · have : fuel = k + 1 := by omega
      rw [← this]; exact h

set_option maxRecDepth 1000000 in
theorem oneStop_moves :
    oneStopState.allOrbMoves 64 = .ok (some [OrbMove.noMove, ⟨⟨4, 4⟩, ⟨2, 2⟩⟩]) := by
  decide

/-- The result of `allMoves` in a state with its 64 board fields whose orbs are in the
order of the class and stand on the board or are spare. -/
theorem allMoves_result (g : GameState) (hb : g.board.state.length = 64)
    (hv : ∀ o ∈ g.orbPositions.positions, o.position.Valid) (ho : g.orbPositions.Ordered) :
    ∃ N moves, (∀ fuel, N ≤ fuel → g.allOrbMoves fuel = .ok (some (OrbMove.noMove :: moves))) ∧
      moves.Nodup ∧
      ∀ s t, (⟨s, t⟩ : OrbMove) ∈ moves ↔
        (s.isInvalid = false ∧ g.orbPositions.isOrbAt s = true ∧ s.NotForeignHouse ∧
         g.orbPositions.isOrbAt t = false ∧ g.orbPositions.koPosition s ≠ t ∧
         TravelChain g.board t ⟨s, Anchor.Stop⟩) := by
  obtain ⟨N, moves, hN, ⟨extra, hex⟩, hnd, hmem⟩ :=
    allMovesLoop_spec g hb g.orbPositions.positions ho hv [OrbMove.noMove]
  have hnd' := hnd (List.nodup_singleton _)
  rw [hex] at hnd' hmem hN
  have hnd2 : OrbMove.noMove ∉ extra ∧ extra.Nodup := by
    simpa using hnd'
  refine ⟨N, extra, hN, hnd2.2, ?_⟩
  intro s t
  constructor
  · intro hm
    rcases (hmem ⟨s, t⟩).mp (by simp [hm]) with h | ⟨o, ho1, hi, hn, t', e, h1, h2, h3⟩
    · rw [List.mem_singleton] at h
      rw [h] at hm
      exact absurd hm hnd2.1
    · simp only [OrbMove.mk.injEq] at e
      obtain ⟨e1, e2⟩ := e
      rw [e1, e2]
      refine ⟨hi, ?_, hn, h1, h2, h3⟩
      rw [isOrbAt_iff]
      exact List.mem_map.mpr ⟨o, ho1, rfl⟩
  · rintro ⟨hi, hs, hn, h1, h2, h3⟩
    rw [isOrbAt_iff] at hs
    obtain ⟨o, ho1, e⟩ := List.mem_map.mp hs
    have hm := (hmem ⟨s, t⟩).mpr (Or.inr ⟨o, ho1, by
      rw [e]; exact ⟨hi, hn, t, rfl, h1, h2, h3⟩⟩)
    rcases List.mem_append.mp hm with h | h
    · rw [List.mem_singleton] at h
      have h4 : s = Position.invalid := congrArg OrbMove.start h
      rw [h4] at hi
      cases hi
    · exact h

/-! #### The loop ends, whatever the board and the start -/

theorem pushNext_length (b : Board) (stack st : List OrbTravelNode) (next : OrbTravelPoint)
    (h : pushNext b stack next = .ok (st, true)) : stack.length < maximumStackSize := by
  unfold pushNext at h
  cases hf : b.field next.position with
  | error e => rw [hf] at h; simp [bind, Except.bind] at h
  | ok f =>
    rw [hf] at h
    by_cases he : f.empty = true
    · simp [he, bind, Except.bind, pure, Except.pure] at h
    · have he' : f.empty = false := by simpa using he
      have hd := from_isDeadEnd b next f hf
      by_contra hl
      have hl' : stack.length ≥ maximumStackSize := by omega
      simp [he', hd, hl', bind, Except.bind, pure, Except.pure, throw, throwThe,
        MonadExceptOf.throw] at h

/-- The selection of the next option of a node. -/
theorem selection_fine (n : OrbTravelNode) (hs : n.options.points < 32) :
    let sel := if !n.canTravelForward then n.selectNextOption else (n, true)
    (sel.2 = true ∧ ∃ e, n.options.contains e = true ∧
      sel.1 = ⟨{ n.travel with endA := e }, n.options⟩) ∨
    (sel.2 = false ∧ n.options.empty = true ∧ sel.1.options.empty = true) := by
  intro sel
  by_cases hc : n.canTravelForward = true
  · have hsel : sel = (n, true) := by simp [sel, hc]
    rw [hsel]
    left
    exact ⟨rfl, n.travel.endA, hc, rfl⟩
  · have hsel : sel = n.selectNextOption := by simp [sel, hc]
    have hc' : n.options.contains n.travel.endA = false := by
      simpa [OrbTravelNode.canTravelForward] using hc
    have hr := Anchors.remove_not_mem _ _ hs hc'
    rw [hsel]
    unfold OrbTravelNode.selectNextOption
    rw [hr]
    by_cases he : n.options.empty = true
    · right
      simp [he]
    · left
      have he' : n.options.empty = false := by simpa using he
      simp only [he', Bool.false_eq_true, if_false, true_and]
      exact ⟨n.options.first, Anchors.first_mem _ hs he', rfl⟩

theorem travelForward_fine (b : Board) (n : OrbTravelNode) (rest st : List OrbTravelNode)
    (flag : Bool) (hs : n.options.points < 32) (h : travelForward b n rest = .ok (st, flag)) :
    (flag = false ∧ ∃ n', st = n' :: rest ∧ n'.options.empty = true) ∨
    (flag = false ∧ ∃ e, n.options.contains e = true ∧
      st = ⟨{ n.travel with endA := e }, n.options.remove e⟩ :: rest) ∨
    (flag = true ∧ ∃ e f, n.options.contains e = true ∧
      st = OrbTravelNode.from (e.nextPoint n.travel.position) f ::
        ⟨{ n.travel with endA := e }, n.options⟩ :: rest ∧
      rest.length + 1 < maximumStackSize ∧
      b.field (e.nextPoint n.travel.position).position = .ok f) := by
  unfold travelForward at h
  have hsf := selection_fine n hs
  simp only [] at hsf h
  generalize (if !n.canTravelForward then n.selectNextOption else (n, true)) = sel at hsf h
  obtain ⟨n1, fl⟩ := sel
  rcases hsf with ⟨hfl, e, he, hn1⟩ | ⟨hfl, _, hemp⟩
  · simp only [] at hfl hn1
    subst hfl
    subst hn1
    have hblocked : st = (⟨{ n.travel with endA := e }, n.options⟩ :
          OrbTravelNode).removeCurrentOption :: rest → flag = false →
        (flag = false ∧ ∃ e, n.options.contains e = true ∧
          st = ⟨{ n.travel with endA := e }, n.options.remove e⟩ :: rest) := by
      intro e1 e2
      exact ⟨e2, e, he, e1⟩
    generalize hn1 : (⟨{ n.travel with endA := e }, n.options⟩ : OrbTravelNode) = n1
      at h hblocked
    by_cases hl : doesLoop (n1 :: rest) n1.nextPoint = true
    · simp [hl, pure, Except.pure, bind, Except.bind] at h
      right; left; exact hblocked h.1.symm h.2
    · have hl' : doesLoop (n1 :: rest) n1.nextPoint = false := by simpa using hl
      cases hc : canTravel n1.position n1.nextPoint.position with
      | error e => simp [hl', hc, pure, Except.pure, bind, Except.bind] at h
      | ok can =>
        cases can with
        | false =>
          simp [hl', hc, pure, Except.pure, bind, Except.bind] at h
          right; left; exact hblocked h.1.symm h.2
        | true =>
          cases hpn : pushNext b (n1 :: rest) n1.nextPoint with
          | error e => simp [hl', hc, hpn, pure, Except.pure, bind, Except.bind] at h
          | ok pushed =>
            obtain ⟨pst, pfl⟩ := pushed
            cases pfl with
            | false =>
              simp [hl', hc, hpn, pure, Except.pure, bind, Except.bind] at h
              right; left; exact hblocked h.1.symm h.2
            | true =>
              simp [hl', hc, hpn, pure, Except.pure, bind, Except.bind] at h
              have hlen := pushNext_length b _ _ _ hpn
              rcases pushNext_cases b _ _ _ _ hpn with ⟨hx, _⟩ | ⟨_, f, hf, hfe, hst⟩
              · cases hx
              · right; right
                refine ⟨h.2, e, f, he, ?_, by simpa using hlen, ?_⟩
                · rw [← h.1, hst, ← hn1]; rfl
                · rw [← hn1] at hf; exact hf
  · simp only [] at hfl hemp
    subst hfl
    simp [pure, Except.pure, bind, Except.bind] at h
    left
    exact ⟨h.2, n1, h.1.symm, hemp⟩

/-- What one pass of the loop does to a stack whose top node has a set of the five
anchors as options and is at the exit `Stop` only while that is an option. -/
theorem loopBody_fine (b : Board) (n : OrbTravelNode) (rest : List OrbTravelNode)
    (stops : List Position) (st' : State) (hs : n.options.points < 32)
    (htop : n.travel.endA = Anchor.Stop → n.options.contains Anchor.Stop = true)
    (h : loopBody b ⟨n :: rest, stops⟩ = .ok st') :
    st'.stack = afterPop rest ∨
    (∃ e, n.options.contains e = true ∧ (n.options.remove e).empty = false ∧
      st'.stack = ⟨{ n.travel with endA := e }, n.options.remove e⟩ :: rest) ∨
    (∃ e f, n.options.contains e = true ∧
      st'.stack = OrbTravelNode.from (e.nextPoint n.travel.position) f ::
        ⟨{ n.travel with endA := e }, n.options⟩ :: rest ∧
      rest.length + 1 < maximumStackSize ∧
      b.field (e.nextPoint n.travel.position).position = .ok f) := by
  unfold loopBody at h
  simp only [] at h
  by_cases hr : n.reachedStop = true
  · have hend : n.travel.endA = Anchor.Stop := by
      simpa [OrbTravelNode.reachedStop] using hr
    by_cases ho : n.removeCurrentOption.hasOptions = true
    · simp [hr, ho, pure, Except.pure] at h
      rw [← h]
      right; left
      refine ⟨Anchor.Stop, htop hend, ?_, ?_⟩
      · have := ho
        simp only [OrbTravelNode.hasOptions, OrbTravelNode.removeCurrentOption, hend,
          Bool.not_eq_true'] at this
        exact this
      · simp only [OrbTravelNode.removeCurrentOption, hend]
        congr 2
        rw [← hend]
    · simp [hr, ho, pure, Except.pure, travelBack] at h
      rw [← h]
      exact Or.inl rfl
  · cases htf : travelForward b n rest with
    | error e => simp [hr, htf, bind, Except.bind] at h
    | ok moved =>
      obtain ⟨st, flag⟩ := moved
      rcases travelForward_fine b n rest st flag hs htf with
        ⟨hfl, n', hst, hemp⟩ | ⟨hfl, e, he, hst⟩ | ⟨hfl, e, f, he, hst, hlen, hf⟩
      · subst hfl; subst hst
        have ho : n'.hasOptions = false := by simp [OrbTravelNode.hasOptions, hemp]
        simp [hr, htf, ho, bind, Except.bind, pure, Except.pure, travelBack] at h
        rw [← h]
        exact Or.inl rfl
      · subst hfl; subst hst
        by_cases ho : (n.options.remove e).empty = true
        · simp [hr, htf, OrbTravelNode.hasOptions, ho, bind, Except.bind, pure, Except.pure,
            travelBack] at h
          rw [← h]
          exact Or.inl rfl
        · have ho' : (n.options.remove e).empty = false := by simpa using ho
          simp [hr, htf, OrbTravelNode.hasOptions, ho', bind, Except.bind, pure,
            Except.pure] at h
          rw [← h]
          exact Or.inr (Or.inl ⟨e, he, ho', rfl⟩)
      · subst hfl
        simp [hr, htf, bind, Except.bind, pure, Except.pure] at h
        rw [← h]
        exact Or.inr (Or.inr ⟨e, f, he, hst, hlen, hf⟩)

/-! The weights -/

theorem weightU_pos (d : Nat) : 1 ≤ weightU d := Nat.one_le_pow _ _ (by decide)

theorem weightU_succ (d : Nat) (h : d + 1 < 1024) :
    weightU d = 6 * weightU (d + 1) ∧ 2 ≤ weightU (d + 1) := by
  unfold weightU
  have e : 1025 - d = (1025 - (d + 1)) + 1 := by omega
  rw [e, pow_succ]
  constructor
  · ring
  · have e2 : 1025 - (d + 1) = (1025 - (d + 2)) + 1 := by omega
    rw [e2, pow_succ]
    have := Nat.one_le_pow (1025 - (d + 2)) 6 (by decide)
    omega

theorem Anchors.StopAlone.remove {s : Anchors} (h : s.StopAlone) (hs : s.points < 32)
    (a : Anchor) : (s.remove a).StopAlone := by
  intro h1 x hx
  rw [Anchors.contains_remove _ _ _ hs] at h1 hx
  simp only [Bool.and_eq_true] at h1 hx
  exact h h1.1 x hx.1

theorem Anchors.card_pos (s : Anchors) (hs : s.points < 32) (a : Anchor)
    (h : s.contains a = true) : 1 ≤ s.card := by
  have := Anchors.card_remove s a hs h
  omega

theorem Progress.belowTop {n : OrbTravelNode} {rest : List OrbTravelNode}
    (h : Progress (n :: rest)) : ProgressBelow rest :=
  ⟨fun m hm => h.small m (List.mem_cons_of_mem _ hm),
   fun m hm => h.alone m (List.mem_cons_of_mem _ hm), h.below⟩

theorem ProgressBelow.tail {n : OrbTravelNode} {rest : List OrbTravelNode}
    (h : ProgressBelow (n :: rest)) : ProgressBelow rest :=
  ⟨fun m hm => h.small m (List.mem_cons_of_mem _ hm),
   fun m hm => h.alone m (List.mem_cons_of_mem _ hm),
   fun m hm => h.below m (List.mem_cons_of_mem _ hm)⟩

theorem ProgressBelow.cons {n : OrbTravelNode} {rest : List OrbTravelNode}
    (h : ProgressBelow rest) (hs : n.options.points < 32) (ha : n.options.StopAlone)
    (ht : n.travel.endA = Anchor.Stop → n.options.contains Anchor.Stop = true) :
    Progress (n :: rest) := by
  refine ⟨?_, ?_, h.below, ?_⟩
  · intro m hm
    rcases List.mem_cons.mp hm with e | hm
    · rw [e]; exact hs
    · exact h.small m hm
  · intro m hm
    rcases List.mem_cons.mp hm with e | hm
    · rw [e]; exact ha
    · exact h.alone m hm
  · intro m hm
    simp only [List.head?_cons, Option.mem_def, Option.some.injEq] at hm
    rw [← hm]; exact ht

theorem progress_nil : Progress [] :=
  ⟨by simp, by simp, by simp, by simp⟩

/-- After a pop the stack is again one of the loop, and its weight is at most the
weight of the nodes that were below. -/
theorem afterPop_progress (rest : List OrbTravelNode) (h : ProgressBelow rest) :
    Progress (afterPop rest) ∧ weight (afterPop rest) ≤ weightBelow rest := by
  induction rest with
  | nil => exact ⟨progress_nil, Nat.le_refl _⟩
  | cons p r ih =>
    have hp := h.small p (List.mem_cons_self _ _)
    have hc := h.below p (List.mem_cons_self _ _)
    rw [afterPop_cons]
    by_cases he : (p.options.remove p.travel.endA).empty = true
    · rw [if_pos he]
      obtain ⟨h1, h2⟩ := ih h.tail
      refine ⟨h1, ?_⟩
      simp only [weightBelow]
      omega
    · rw [if_neg he]
      have he' : (p.options.remove p.travel.endA).empty = false := by simpa using he
      have hsm := Anchors.remove_small p.options p.travel.endA hp
      refine ⟨ProgressBelow.cons h.tail hsm
        ((h.alone p (List.mem_cons_self _ _)).remove hp _) ?_, ?_⟩
      · intro e
        simp only [] at e
        have := Anchors.first_mem _ hsm he'
        rw [e] at this
        exact this
      · have hcard := Anchors.card_remove p.options p.travel.endA hp hc
        simp only [weight, weightBelow]
        have e1 : p.options.card - 1 = (p.options.remove p.travel.endA).card := by omega
        rw [e1]

theorem from_progress (next : OrbTravelPoint) (f : Field) :
    (OrbTravelNode.from next f).options.points < 32 ∧
    (OrbTravelNode.from next f).options.StopAlone ∧
    ((OrbTravelNode.from next f).travel.endA = Anchor.Stop →
      (OrbTravelNode.from next f).options.contains Anchor.Stop = true) := by
  obtain ⟨hsmall, hstop, _⟩ := Field.connections_facts f next.anchor
  unfold OrbTravelNode.from
  simp only []
  by_cases he : (f.connectionsFrom next.anchor).empty = true
  · rw [if_pos he]
    refine ⟨by decide, ?_, ?_⟩
    · intro h; exact absurd h (by decide)
    · intro h; exact absurd h (by decide)
  · rw [if_neg he]
    have he' : (f.connectionsFrom next.anchor).empty = false := by simpa using he
    refine ⟨hsmall, hstop, ?_⟩
    intro h
    simp only [] at h
    have := Anchors.first_mem _ hsmall he'
    rw [h] at this
    exact this

/-- One pass of the loop leads to a stack of the loop with a smaller weight. -/
theorem progress_pass (b : Board) (st st' : State) (h : Progress st.stack)
    (hne : st.stack ≠ []) (hl : loopBody b st = .ok st') :
    Progress st'.stack ∧ weight st'.stack < weight st.stack := by
  obtain ⟨stack, stops⟩ := st
  cases stack with
  | nil => exact absurd rfl hne
  | cons n rest =>
    have hs := h.small n (List.mem_cons_self _ _)
    have ha := h.alone n (List.mem_cons_self _ _)
    have ht := h.top n (by simp)
    rcases loopBody_fine b n rest stops st' hs ht hl with
      hst | ⟨e, he, hre, hst⟩ | ⟨e, f, he, hst, hlen, hf⟩
    · rw [hst]
      obtain ⟨h1, h2⟩ := afterPop_progress rest h.belowTop
      refine ⟨h1, ?_⟩
      have e1 : weight (n :: rest) =
          1 + n.options.card * weightU rest.length + weightBelow rest := rfl
      rw [e1]
      omega
    · rw [hst]
      have hcard := Anchors.card_remove n.options e hs he
      have hU := weightU_pos rest.length
      refine ⟨ProgressBelow.cons h.belowTop (Anchors.remove_small _ _ hs) (ha.remove hs _) ?_,
        ?_⟩
      · intro h1
        simp only [] at h1
        exfalso
        rw [h1] at he hre
        have hemp : (n.options.remove Anchor.Stop).empty = true := by
          rw [Anchors.empty_iff_contains _ (Anchors.remove_small _ _ hs)]
          intro x
          rw [Anchors.contains_remove _ _ _ hs]
          by_cases hx : n.options.contains x = true
          · simp [ha he x hx]
          · simp [hx]
        rw [hemp] at hre
        cases hre
      · simp only [weight]
        have e1 : n.options.card = (n.options.remove e).card + 1 := by omega
        rw [e1, Nat.add_mul]
        omega
    · rw [hst]
      obtain ⟨f1, f2, f3⟩ := from_progress (e.nextPoint n.travel.position) f
      have hB : ProgressBelow (⟨{ n.travel with endA := e }, n.options⟩ :: rest) := by
        refine ⟨?_, ?_, ?_⟩
        · intro m hm
          rcases List.mem_cons.mp hm with e1 | hm
          · rw [e1]; exact hs
          · exact h.belowTop.small m hm
        · intro m hm
          rcases List.mem_cons.mp hm with e1 | hm
          · rw [e1]; exact ha
          · exact h.belowTop.alone m hm
        · intro m hm
          rcases List.mem_cons.mp hm with e1 | hm
          · rw [e1]; exact he
          · exact h.belowTop.below m hm
      refine ⟨ProgressBelow.cons hB f1 f2 f3, ?_⟩
      have hc5 := Anchors.card_le _ f1
      have hc1 := Anchors.card_pos n.options hs e he
      have hlen' : rest.length + 1 < 1024 := hlen
      obtain ⟨hU1, hU2⟩ := weightU_succ rest.length hlen'
      simp only [weight, weightBelow, List.length_cons]
      have hk := Nat.mul_le_mul_right (weightU (rest.length + 1)) hc5
      have e1 : n.options.card * weightU rest.length =
          (n.options.card - 1) * weightU rest.length + weightU rest.length := by
        have e2 : n.options.card = (n.options.card - 1) + 1 := by omega
        conv => lhs; rw [e2, Nat.add_mul, Nat.one_mul]
      rw [e1]
      omega

theorem weight_nil_iff (stack : List OrbTravelNode) (h : weight stack = 0) : stack = [] := by
  cases stack with
  | nil => rfl
  | cons n r => simp only [weight] at h; omega

/-- From a stack of the loop, the loop ends within `weight` passes: it returns or it
throws. -/
theorem runLoop_halts (b : Board) (fuel : Nat) (st : State) (h : Progress st.stack)
    (hw : weight st.stack ≤ fuel) : runLoop b fuel st ≠ .ok none := by
  induction fuel generalizing st with
  | zero =>
    have := weight_nil_iff st.stack (by omega)
    unfold OrbMoveGenerator.runLoop
    simp [this, pure, Except.pure]
  | succ fuel ih =>
    unfold OrbMoveGenerator.runLoop
    by_cases he : st.stack.isEmpty = true
    · simp [he, pure, Except.pure]
    · cases hl : loopBody b st with
      | error e => simp [he, hl, bind, Except.bind]
      | ok st1 =>
        simp only [he, Bool.false_eq_true, if_false, hl, bind, Except.bind]
        have hne : st.stack ≠ [] := by
          intro e; rw [e] at he; exact he rfl
        obtain ⟨h1, h2⟩ := progress_pass b st st1 h hne hl
        exact ih st1 h1 (by omega)

theorem progress_initial (b : Board) (s : Position) (st : State)
    (h : initialState b s = .ok st) :
    Progress st.stack ∧ weight st.stack ≤ 5 * weightU 0 + 1 := by
  unfold initialState at h
  cases hp : pushNext b [] ⟨s, Anchor.Stop⟩ with
  | error e => rw [hp] at h; simp [bind, Except.bind] at h
  | ok pushed =>
    obtain ⟨stack, flag⟩ := pushed
    rw [hp] at h
    simp only [bind, Except.bind, pure, Except.pure, Except.ok.injEq] at h
    rw [← h]
    rcases pushNext_cases b _ _ _ _ hp with ⟨_, hst⟩ | ⟨_, f, hf, hfe, hst⟩
    · show Progress stack ∧ weight stack ≤ _
      rw [hst]
      exact ⟨progress_nil, by simp [weight]⟩
    · show Progress stack ∧ weight stack ≤ _
      rw [hst]
      obtain ⟨f1, f2, f3⟩ := from_progress ⟨s, Anchor.Stop⟩ f
      refine ⟨ProgressBelow.cons ⟨by simp, by simp, by simp⟩ f1 f2 f3, ?_⟩
      have hc5 := Anchors.card_le _ f1
      have hk := Nat.mul_le_mul_right (weightU 0) hc5
      simp only [weight, weightBelow, List.length_nil]
      omega

/-- Whatever the board and the start position, the search ends within a fixed number
of passes: it returns its stops or it throws. -/
theorem followAllPaths_halts (b : Board) (s : Position) (fuel : Nat)
    (hf : 5 * weightU 0 + 1 ≤ fuel) : followAllPaths fuel b s ≠ .ok none := by
  unfold followAllPaths
  cases hi : initialState b s with
  | error e => simp [bind, Except.bind]
  | ok st =>
    obtain ⟨h1, h2⟩ := progress_initial b s st hi
    exact runLoop_halts b fuel st h1 (by omega)

/-! #### The claims on the orb move generator -/

/-- C2: in a game state with its 64 board fields whose orbs are kept in the order of the
class and stand on cells of the board or are spare, `allOrbMoves` returns (with enough
passes allowed, and with the same list whenever it returns) the no-move followed by
exactly the moves `(s, t)`, each once, such that `s` holds an in-play orb that is not in
the house of another player, `t` holds no orb, `t` is not the ko-position of the orb on
`s`, and a chain of travel points leads from `(s, Stop)` to a stop on `t`. -/
theorem allOrbMoves_spec (g : GameState) (hb : g.board.state.length = 64)
    (hv : ∀ o ∈ g.orbPositions.positions, o.position.Valid) (ho : g.orbPositions.Ordered) :
    ∃ N moves,
      (∀ fuel, N ≤ fuel → g.allOrbMoves fuel = .ok (some (OrbMove.noMove :: moves))) ∧
      (∀ fuel ms, g.allOrbMoves fuel = .ok (some ms) → ms = OrbMove.noMove :: moves) ∧
      moves.Nodup ∧
      ∀ s t, (⟨s, t⟩ : OrbMove) ∈ moves ↔
        (s.isInvalid = false ∧ g.orbPositions.isOrbAt s = true ∧ s.NotForeignHouse ∧
         g.orbPositions.isOrbAt t = false ∧ g.orbPositions.koPosition s ≠ t ∧
         TravelChain g.board t ⟨s, Anchor.Stop⟩) := by
  obtain ⟨N, moves, hN, hnd, hmem⟩ := allMoves_result g hb hv ho
  refine ⟨N, moves, hN, ?_, hnd, hmem⟩
  intro fuel ms hms
  have h1 := allOrbMoves_mono g fuel (max fuel N) ms (Nat.le_max_left _ _) hms
  rw [hN (max fuel N) (Nat.le_max_right _ _)] at h1
  simp only [Except.ok.injEq, Option.some.injEq] at h1
  exact h1.symm

set_option maxRecDepth 1000000 in
/-- C2 on the state of the unit test `testOneStop`: the moves are the no-move and
`(4, 4) -> (2, 2)`, a chain of travel points leads from `(4, 4)` to `(2, 2)`, and no
other pair of cells meets the conditions of the claim. -/
theorem allOrbMoves_spec_witness :
    oneStopState.allOrbMoves 64 = .ok (some [OrbMove.noMove, ⟨⟨4, 4⟩, ⟨2, 2⟩⟩]) ∧
    TravelChain oneStopState.board ⟨2, 2⟩ ⟨⟨4, 4⟩, Anchor.Stop⟩ ∧
    ∀ s t, s.isInvalid = false → oneStopState.orbPositions.isOrbAt s = true →
      s.NotForeignHouse → oneStopState.orbPositions.isOrbAt t = false →
      oneStopState.orbPositions.koPosition s ≠ t →
      TravelChain oneStopState.board t ⟨s, Anchor.Stop⟩ → s = ⟨4, 4⟩ ∧ t = ⟨2, 2⟩ := by
  obtain ⟨N, moves, _, h2, _, h4⟩ :=
    allOrbMoves_spec oneStopState (by decide) (by decide) (by decide)
  have h5 := h2 64 _ oneStop_moves
  simp only [List.cons.injEq, true_and] at h5
  rw [← h5] at h4
  refine ⟨oneStop_moves, ?_, ?_⟩
  · exact ((h4 ⟨4, 4⟩ ⟨2, 2⟩).mp (List.mem_singleton.mpr rfl)).2.2.2.2.2
  · intro s t a1 a2 a3 a4 a5 a6
    have h6 := (h4 s t).mpr ⟨a1, a2, a3, a4, a5, a6⟩
    rw [List.mem_singleton] at h6
    simp only [OrbMove.mk.injEq] at h6
    exact h6

/-- What holds of the path search on the code as it is: on a board with its 64 fields
`followAllPaths` returns for every start position on the board that is no house field
of another player (with enough passes allowed it gives its list of stops); for every
board and every start position the loop ends within a fixed number of passes, by a
return or by a thrown error; and for every board and every start position the stack
never holds two nodes with the same begin point (position, entry anchor), after any
number of passes. -/
theorem followAllPaths_terminates :
    (∀ (b : Board) (s : Position), b.state.length = 64 → s.OnBoard → s.NotForeignHouse →
      ∃ N stops, ∀ fuel, N ≤ fuel → followAllPaths fuel b s = .ok (some stops)) ∧
    (∃ N, ∀ (b : Board) (s : Position) (fuel : Nat), N ≤ fuel →
      (∃ stops, followAllPaths fuel b s = .ok (some stops)) ∨
      ∃ e, followAllPaths fuel b s = .error e) ∧
    (∀ (b : Board) (s : Position) (st0 : State), initialState b s = .ok st0 →
      ∀ (k : Nat) (st : State), iter b k st0 = .ok st → (begins st.stack).Nodup) := by
  refine ⟨?_, ⟨5 * weightU 0 + 1, ?_⟩, ?_⟩
  · intro b s hb hs hh
    obtain ⟨N, stops, h, _⟩ := followAllPaths_spec b hb s hs hh
    exact ⟨N, stops, h⟩
  · intro b s fuel hf
    have h := followAllPaths_halts b s fuel hf
    cases hr : followAllPaths fuel b s with
    | error e => exact Or.inr ⟨e, rfl⟩
    | ok r =>
      cases r with
      | none => exact absurd hr h
      | some stops => exact Or.inl ⟨stops, rfl⟩
  · intro b s st0 h0 k st hk
    exact (distinct_iter b k st0 st (distinct_initial b s st0 h0) hk).nodup

set_option maxRecDepth 1000000 in
/-- The search from the source cell `(4, 4)` of the state of the unit test
`testOneStop` returns; 64 passes are enough, and it reports the stop `(2, 2)`. -/
theorem followAllPaths_terminates_witness :
    oneStopState.board.state.length = 64 ∧ (Position.mk 4 4).OnBoard ∧
    (Position.mk 4 4).NotForeignHouse ∧
    followAllPaths 64 oneStopState.board ⟨4, 4⟩ = .ok (some [⟨2, 2⟩]) ∧
    ∃ N stops, ∀ fuel, N ≤ fuel →
      followAllPaths fuel oneStopState.board ⟨4, 4⟩ = .ok (some stops) :=
  ⟨by decide, by decide, by decide, by decide,
    followAllPaths_terminates.1 oneStopState.board ⟨4, 4⟩ (by decide) (by decide) (by decide)⟩

/-- C8: every move `(s, t)` other than the no-move that `allOrbMoves` returns starts and
stops on the board; `t` is no house field of a player other than the active player 0; if
`s` is a house field then `t` is a house field; and if `s` is not a source field then
`t` is not a source field. -/
theorem allOrbMoves_respects_areas (fuel : Nat) (g : GameState) (moves : List OrbMove)
    (h : g.allOrbMoves fuel = .ok (some moves)) (m : OrbMove) (hm : m ∈ moves)
    (hn : m ≠ OrbMove.noMove) :
    m.start.OnBoard ∧ m.stop.OnBoard ∧ m.stop.NotForeignHouse ∧
    (Board.isHouse m.start = .ok true → Board.isHouse m.stop = .ok true) ∧
    (Board.isSource m.start = .ok false → Board.isSource m.stop = .ok false) := by
  have hq := allMovesLoop_sound fuel g
    (fun m => m = OrbMove.noMove ∨
      (m.start.OnBoard ∧ m.stop.OnBoard ∧ m.stop.NotForeignHouse ∧
        (Board.isHouse m.start = .ok true → Board.isHouse m.stop = .ok true) ∧
        (Board.isSource m.start = .ok false → Board.isSource m.stop = .ok false)))
    (by
      intro s t hs hh hr
      right
      exact ⟨hs, CanReach.areas s t hr hs hh⟩)
    g.orbPositions.positions [OrbMove.noMove] moves h
    (by
      intro m hm
      left
      exact List.mem_singleton.mp hm)
    m hm
  rcases hq with e | hq
  · exact absurd e hn
  · exact hq

set_option maxRecDepth 1000000 in
/-- C8 on the state of the unit test `testOneStop`: the move `(4, 4) -> (2, 2)` leaves a
source field for a cell that is neither a house nor a source field. -/
theorem allOrbMoves_respects_areas_witness :
    oneStopState.allOrbMoves 64 = .ok (some [OrbMove.noMove, ⟨⟨4, 4⟩, ⟨2, 2⟩⟩]) ∧
    (Position.mk 2 2).NotForeignHouse ∧ Board.isHouse ⟨2, 2⟩ = .ok false ∧
    (Board.isHouse ⟨4, 4⟩ = .ok true → Board.isHouse ⟨2, 2⟩ = .ok true) ∧
    (Board.isSource ⟨4, 4⟩ = .ok false → Board.isSource ⟨2, 2⟩ = .ok false) :=
  have h := allOrbMoves_respects_areas 64 oneStopState _ oneStop_moves ⟨⟨4, 4⟩, ⟨2, 2⟩⟩
    (by decide) (by decide)
  ⟨oneStop_moves, h.2.2.1, by decide, h.2.2.2.1, h.2.2.2.2⟩

end OrbSearch

/-! ### The canonical form of the stone pools -/

theorem dropLast_of_all_eq {α : Type} (a : α) (l : List α) (h : ∀ b ∈ l, b = a) :
    (a :: l).dropLast = l := by
  induction l with
  | nil => rfl
  | cons b l ih =>
    have hb : b = a := h b (List.mem_cons_self _ _)
    subst hb
    have := ih (fun c hc => h c (List.mem_cons_of_mem _ hc))
    rw [List.dropLast_cons₂, this]

/-- What a successful `add` does on a canonical pool: the stone goes to the first
index whose stone is smaller, the stones from there on move one slot back and the
last slot is dropped. -/
theorem StonePool.add_eq (p p' : StonePool) (s : Stone) (hc : p.Canonical)
    (hne : p.stones ≠ []) (h : p.add s = .ok p') :
    ∃ i, i < p.stones.length ∧
      (∀ j x, j < i → p.stones[j]? = some x → s.type ≤ x.type) ∧
      (∃ x, p.stones[i]? = some x ∧ x.type < s.type) ∧
      p'.stones = p.stones.take i ++ s :: (p.stones.drop i).dropLast := by
  unfold StonePool.add at h
  by_cases hfull : p.full = true
  · rw [if_pos hfull] at h; cases h
  · rw [if_neg hfull] at h
    by_cases hs : s = Stone.Empty
    · rw [if_pos hs] at h; cases h
    · rw [if_neg hs] at h
      by_cases hem : p.empty = true
      · rw [if_pos hem] at h
        simp only [Except.ok.injEq] at h
        subst h
        cases hl : p.stones with
        | nil => exact absurd hl hne
        | cons a l =>
          have ha : a = Stone.Empty := by
            simpa [StonePool.empty, hl] using hem
          subst ha
          have hall : ∀ b ∈ l, b = Stone.Empty := by
            intro b hb
            have hc' : (Stone.Empty :: l).Pairwise fun a b => b.type ≤ a.type := by
              have := hc
              unfold StonePool.Canonical at this
              rwa [hl] at this
            have := (List.pairwise_cons.mp hc').1 b hb
            exact Stone.type_eq_zero b (by
              have h0 : Stone.Empty.type = 0 := rfl
              omega)
          refine ⟨0, by simp, fun j x hj => absurd hj (Nat.not_lt_zero _),
            ⟨Stone.Empty, by simp, Stone.type_pos s hs⟩, ?_⟩
          show List.set (Stone.Empty :: l) 0 s = _
          simp only [List.set_cons_zero, List.take_zero, List.nil_append, List.drop_zero]
          rw [dropLast_of_all_eq Stone.Empty l hall]
      · rw [if_neg hem] at h
        cases hi : p.stones.findIdx? (fun x => decide (x.type < s.type)) with
        | none => rw [hi] at h; cases h
        | some i =>
          rw [hi] at h
          simp only [Except.ok.injEq] at h
          subst h
          obtain ⟨hlt, hp, hbefore⟩ := List.findIdx?_eq_some_iff_getElem.mp hi
          refine ⟨i, hlt, ?_, ⟨p.stones[i], List.getElem?_eq_getElem hlt, by simpa using hp⟩, ?_⟩
          · intro j x hj hx
            have hjl : j < p.stones.length := by omega
            have := hbefore j hj
            rw [List.getElem?_eq_getElem hjl] at hx
            simp only [Option.some.injEq] at hx
            subst hx
            simpa using this
          · show List.take i p.stones ++ [s] ++ (List.drop i p.stones).dropLast = _
            simp

theorem pairwise_take_drop {α : Type} (r : α → α → Prop) (l : List α) (i : Nat)
    (h : l.Pairwise r) :
    (l.take i).Pairwise r ∧ (l.drop i).Pairwise r ∧
      ∀ a ∈ l.take i, ∀ b ∈ l.drop i, r a b := by
  have h' : (l.take i ++ l.drop i).Pairwise r := by rwa [List.take_append_drop]
  exact List.pairwise_append.mp h'

/-- The canonical form is kept by `add`. -/
theorem StonePool.canonical_add (p p' : StonePool) (s : Stone) (hc : p.Canonical)
    (hne : p.stones ≠ []) (h : p.add s = .ok p') : p'.Canonical := by
  obtain ⟨i, hlt, hbefore, ⟨x, hx, hxs⟩, heq⟩ := StonePool.add_eq p p' s hc hne h
  unfold StonePool.Canonical
  rw [heq]
  obtain ⟨h1, h2, h3⟩ := pairwise_take_drop _ p.stones i hc
  have hdl : ((p.stones.drop i).dropLast).Sublist (p.stones.drop i) := List.dropLast_sublist _
  have hhead : ∀ b ∈ p.stones.drop i, b.type ≤ x.type := by
    intro b hb
    have hd : p.stones.drop i = x :: p.stones.drop (i + 1) := by
      rw [List.getElem?_eq_getElem hlt] at hx
      simp only [Option.some.injEq] at hx
      rw [← hx]
      exact List.drop_eq_getElem_cons hlt
    rw [hd] at hb h2
    rcases List.mem_cons.mp hb with hb | hb
    · rw [hb]
    · exact (List.pairwise_cons.mp h2).1 b hb
  rw [List.pairwise_append]
  refine ⟨h1, ?_, ?_⟩
  · rw [List.pairwise_cons]
    refine ⟨fun b hb => ?_, h2.sublist hdl⟩
    have := hhead b (hdl.subset hb)
    omega
  · intro a ha b hb
    rcases List.mem_cons.mp hb with hb | hb
    · subst hb
      obtain ⟨j, hj, hja⟩ := List.getElem_of_mem ha
      have hj' : j < i := by
        have := List.length_take_le i p.stones
        rw [List.length_take] at hj
        omega
      have hjl : j < p.stones.length := by omega
      refine hbefore j a hj' ?_
      rw [List.getElem?_eq_getElem hjl, ← hja, List.getElem_take]
    · exact h3 a ha b (hdl.subset hb)

/-- The canonical form is kept by `take`. -/
theorem StonePool.canonical_take (p p' : StonePool) (s : Stone) (hc : p.Canonical)
    (h : p.take s = .ok p') : p'.Canonical := by
  obtain ⟨i, _, heq⟩ := StonePool.take_eq p p' s h
  unfold StonePool.Canonical
  rw [heq, List.pairwise_append]
  refine ⟨hc.sublist (List.eraseIdx_sublist _ _), List.pairwise_singleton _ _, ?_⟩
  intro a _ b hb
  rw [List.mem_singleton] at hb
  subst hb
  exact Nat.zero_le _

theorem StonePool.canonical_default (n : Nat) : (StonePool.default n).Canonical := by
  unfold StonePool.Canonical StonePool.default
  rw [List.pairwise_replicate]
  exact Or.inr (Nat.le_refl _)

/-- Every pool made from the empty pool has six slots and the canonical form. -/
theorem StonePool.built_facts (p : StonePool) (h : p.Built) :
    p.stones.length = 6 ∧ p.Canonical := by
  induction h with
  | empty => exact ⟨rfl, StonePool.canonical_default 6⟩
  | add p p' s _ ha ih =>
    have hne : p.stones ≠ [] := by
      intro h0
      have := ih.1
      rw [h0] at this
      cases this
    exact ⟨(StonePool.add_length p p' s hne ha).trans ih.1, StonePool.canonical_add p p' s ih.2 hne ha⟩
  | take p p' s _ ha ih =>
    exact ⟨(StonePool.take_length p p' s ha).trans ih.1, StonePool.canonical_take p p' s ih.2 ha⟩

/-- What a successful `take` does: the first slot with the stone is removed, the
slots behind it move one slot to the front and an empty slot is put at the back. -/
theorem StonePool.take_first (p p' : StonePool) (s : Stone) (h : p.take s = .ok p') :
    ∃ i, p.stones[i]? = some s ∧ (∀ j, j < i → p.stones[j]? ≠ some s) ∧
      p'.stones = p.stones.eraseIdx i ++ [Stone.Empty] := by
  unfold StonePool.take at h
  cases hi : p.stones.indexOf? s with
  | none => rw [hi] at h; cases h
  | some i =>
    rw [hi] at h
    simp only [Except.ok.injEq] at h
    subst h
    have hi' := hi
    unfold List.indexOf? at hi'
    obtain ⟨hlt, hp, hbefore⟩ := List.findIdx?_eq_some_iff_getElem.mp hi'
    refine ⟨i, ?_, ?_, ?_⟩
    · rw [List.getElem?_eq_getElem hlt]
      simp only [beq_iff_eq] at hp
      rw [hp]
    · intro j hj hjs
      have hjl : j < p.stones.length := by omega
      have := hbefore j hj
      rw [List.getElem?_eq_getElem hjl] at hjs
      simp only [Option.some.injEq] at hjs
      simp [hjs] at this
    · show List.take i p.stones ++ List.drop (i + 1) p.stones ++ [Stone.Empty] = _
      rw [List.eraseIdx_eq_take_drop_succ]

theorem StonePool.take_fails (p : StonePool) (s : Stone) (h : s ∉ p.stones) :
    p.take s = .error "Stone not found in pool" := by
  unfold StonePool.take
  cases hi : p.stones.indexOf? s with
  | none => rfl
  | some i =>
    have := indexOf?_some hi
    exact absurd (List.get?_mem this) h

set_option maxRecDepth 100000 in
theorem builtSample_built : builtSample.Built := by
  have h0 := StonePool.Built.empty
  have h1 := StonePool.Built.add _ ⟨[Stone.Crossing, Stone.Empty, Stone.Empty, Stone.Empty,
    Stone.Empty, Stone.Empty]⟩ Stone.Crossing h0 (by decide)
  have h2 := StonePool.Built.add _ ⟨[Stone.TwoCurves, Stone.Crossing, Stone.Empty, Stone.Empty,
    Stone.Empty, Stone.Empty]⟩ Stone.TwoCurves h1 (by decide)
  have h3 := StonePool.Built.add _ ⟨[Stone.TwoCurves, Stone.CrossingWithStop, Stone.Crossing,
    Stone.Empty, Stone.Empty, Stone.Empty]⟩ Stone.CrossingWithStop h2 (by decide)
  exact StonePool.Built.take _ _ Stone.CrossingWithStop h3 (by decide)

/-- Claim C21. Every pool that `add` and `take` make from the pool of six empty
slots has six slots in descending order of the stone kinds, so that the empty
slots come last. On such a pool `add` of a non-empty stone to a pool that is not
full returns the pool with the stone put at the first index whose stone is smaller,
the later stones moved one slot back and an empty last slot dropped, so the stones
are the previous ones and the new stone; `take` of a stone of the pool returns the
pool without the first slot that holds the stone, with the later stones moved one
slot to the front; `add` raises an error on a full pool and for the empty stone,
and `take` raises one for a stone that is not in the pool. A raised error returns
no new pool: the pool stays as it was. -/
theorem stonePool_canonical_form (p : StonePool) (h : p.Built) :
    (p.stones.length = 6 ∧ p.Canonical ∧
      ∀ i j, i ≤ j → j < 6 → p.stones[i]? = some Stone.Empty →
        p.stones[j]? = some Stone.Empty) ∧
    (∀ s, s ≠ Stone.Empty → p.full = false →
      ∃ i p', p.add s = .ok p' ∧ i < 6 ∧
        (∀ j x, j < i → p.stones[j]? = some x → s.type ≤ x.type) ∧
        (∃ x, p.stones[i]? = some x ∧ x.type < s.type) ∧
        p'.stones = p.stones.take i ++ s :: (p.stones.drop i).dropLast ∧
        (Stone.Empty :: p'.stones).Perm (s :: p.stones)) ∧
    (∀ s, s ∈ p.stones →
      ∃ i p', p.take s = .ok p' ∧ p.stones[i]? = some s ∧
        (∀ j, j < i → p.stones[j]? ≠ some s) ∧
        p'.stones = p.stones.eraseIdx i ++ [Stone.Empty] ∧
        (s :: p'.stones).Perm (Stone.Empty :: p.stones)) ∧
    (p.full = true → ∀ s, p.add s = .error "Stone pool is full") ∧
    (p.full = false →
      p.add Stone.Empty = .error "Tried to add an empty stone to the pool.") ∧
    (∀ s, s ∉ p.stones → p.take s = .error "Stone not found in pool") := by
  obtain ⟨hl, hc⟩ := StonePool.built_facts p h
  have hne : p.stones ≠ [] := by
    intro h0
    rw [h0] at hl
    cases hl
  refine ⟨⟨hl, hc, fun i j hij hj hi => ?_⟩, fun s hs hf => ?_, fun s hs => ?_,
    fun hf s => ?_, fun hf => ?_, fun s hs => StonePool.take_fails p s hs⟩
  · exact StonePool.canonical_empty_after p hc i j hij (by omega) hi
  · obtain ⟨p', hp'⟩ := StonePool.stonePool_add_succeeds p s hne hf hs
    obtain ⟨i, hi, h1, h2, h3⟩ := StonePool.add_eq p p' s hc hne hp'
    exact ⟨i, p', hp', by omega, h1, h2, h3, (StonePool.stonePool_add_ok p p' s hne hp').2.2⟩
  · obtain ⟨p', hp'⟩ := StonePool.stonePool_take_succeeds p s hs
    obtain ⟨i, h1, h2, h3⟩ := StonePool.take_first p p' s hp'
    exact ⟨i, p', hp', h1, h2, h3, StonePool.stonePool_take_ok p p' s hp'⟩
  · unfold StonePool.add
    rw [if_pos hf]
  · unfold StonePool.add
    rw [if_neg (by simp [hf]), if_pos rfl]

theorem stonePool_canonical_form_witness :
    builtSample.Built ∧ builtSample.stones.length = 6 ∧ builtSample.Canonical :=
  ⟨builtSample_built, (stonePool_canonical_form builtSample builtSample_built).1.1,
    (stonePool_canonical_form builtSample builtSample_built).1.2.1⟩

/-! ### The lists of stone pairs and stone quads -/

theorem dedup_fold_subset {α β : Type} (inst : ∀ (y : β) (r : List β), Decidable (y ∈ r))
    (f : α → β) (l : List α) (init : List β) (x : β) (h : x ∈ init) :
    x ∈ l.foldl (fun result a =>
      @ite _ (f a ∈ result) (inst (f a) result) result (result ++ [f a])) init := by
  induction l generalizing init with
  | nil => exact h
  | cons a l ih =>
    rw [List.foldl_cons]
    apply ih
    split
    · exact h
    · exact List.mem_append_left _ h

theorem dedup_fold_complete {α β : Type} (inst : ∀ (y : β) (r : List β), Decidable (y ∈ r))
    (f : α → β) (l : List α) (init : List β) (a : α) (h : a ∈ l) :
    f a ∈ l.foldl (fun result a =>
      @ite _ (f a ∈ result) (inst (f a) result) result (result ++ [f a])) init := by
  induction l generalizing init with
  | nil => cases h
  | cons b l ih =>
    rw [List.foldl_cons]
    rcases List.mem_cons.mp h with h | h
    · subst h
      apply dedup_fold_subset
      split
      · assumption
      · exact List.mem_append_right _ (List.mem_singleton_self _)
    · exact ih _ h

theorem dedup_fold_nodup {α β : Type} (inst : ∀ (y : β) (r : List β), Decidable (y ∈ r))
    (f : α → β) (l : List α) (init : List β) (h : init.Nodup) :
    (l.foldl (fun result a =>
      @ite _ (f a ∈ result) (inst (f a) result) result (result ++ [f a])) init).Nodup := by
  induction l generalizing init with
  | nil => exact h
  | cons a l ih =>
    rw [List.foldl_cons]
    apply ih
    split
    · exact h
    · rename_i hn
      rw [List.nodup_append]
      refine ⟨h, List.nodup_singleton _, ?_⟩
      intro x hx hx'
      rw [List.mem_singleton] at hx'
      subst hx'
      exact hn hx

theorem dedup_fold_of_nodup {α β : Type} (inst : ∀ (y : β) (r : List β), Decidable (y ∈ r))
    (f : α → β) (l : List α) (init : List β) (h : (init ++ l.map f).Nodup) :
    l.foldl (fun result a =>
      @ite _ (f a ∈ result) (inst (f a) result) result (result ++ [f a])) init =
      init ++ l.map f := by
  induction l generalizing init with
  | nil => simp
  | cons a l ih =>
    rw [List.foldl_cons]
    have hn : f a ∉ init := by
      intro hm
      rw [List.nodup_append] at h
      exact h.2.2 hm (by simp)
    rw [if_neg hn, ih]
    · simp
    · simpa using h

theorem mem_indexPairs_of (n i j : Nat) (hi : i < n) (hj : j < n) (hij : i ≠ j) :
    (i, j) ∈ StonePool.indexPairs n := by
  unfold StonePool.indexPairs
  simp only [List.mem_flatMap, List.mem_range, List.mem_map, List.mem_filter, bne_iff_ne, ne_eq,
    Prod.mk.injEq]
  exact ⟨i, hi, j, ⟨hj, hij⟩, rfl, rfl⟩

/-- In a canonical pool only empty slots come behind the first empty slot. -/
theorem StonePool.canonical_rest (p : StonePool) (hc : p.Canonical) (b : Stone)
    (hb : b ∈ p.stones.dropWhile fun s => s != Stone.Empty) : b = Stone.Empty := by
  have hpw : (p.stones.dropWhile fun s => s != Stone.Empty).Pairwise
      fun a b => b.type ≤ a.type := hc.sublist (List.dropWhile_sublist _)
  have hne : (p.stones.dropWhile fun s => s != Stone.Empty) ≠ [] := List.ne_nil_of_mem hb
  have hhead := List.head_dropWhile_not (fun s => s != Stone.Empty) p.stones hne
  cases hd : p.stones.dropWhile (fun s => s != Stone.Empty) with
  | nil => exact absurd hd hne
  | cons x l =>
    have hx : x = Stone.Empty := by
      simp only [hd, List.head_cons] at hhead
      simpa using hhead
    rw [hd] at hb hpw
    rcases List.mem_cons.mp hb with h | h
    · rw [h, hx]
    · have := (List.pairwise_cons.mp hpw).1 b h
      rw [hx] at this
      exact Stone.type_eq_zero b (by
        have h0 : Stone.Empty.type = 0 := rfl
        omega)

theorem StonePool.count_filled (p : StonePool) (hc : p.Canonical) (a : Stone)
    (ha : a ≠ Stone.Empty) : p.filled.count a = p.stones.count a := by
  have hs : p.stones = p.filled ++ p.stones.dropWhile fun s => s != Stone.Empty :=
    (List.takeWhile_append_dropWhile _ _).symm
  conv_rhs => rw [hs]
  rw [List.count_append]
  have : (p.stones.dropWhile fun s => s != Stone.Empty).count a = 0 := by
    rw [List.count_eq_zero]
    intro hm
    exact ha (StonePool.canonical_rest p hc a hm)
  omega

theorem StonePool.filled_le_stoneCount (p : StonePool) (hl : p.stones.length < 256) :
    p.filled.length ≤ p.stoneCount := by
  have hsub : p.filled.length ≤ p.stones.length :=
    (List.takeWhile_sublist _).length_le
  apply StonePool.le_stoneCount p hl _ hsub
  intro j hj hje
  have hs : p.stones = p.filled ++ p.stones.dropWhile fun s => s != Stone.Empty :=
    (List.takeWhile_append_dropWhile _ _).symm
  rw [hs, List.getElem?_append_left hj, List.getElem?_eq_getElem hj] at hje
  simp only [Option.some.injEq] at hje
  have := (StonePool.mem_filled p _ (List.getElem_mem hj)).1
  exact this hje

/-- In a canonical pool every pair of stones from two different slots is listed. -/
theorem StonePool.uniqueStonePairs_complete (p : StonePool) (hl : p.stones.length < 256)
    (hc : p.Canonical) (a b : Stone) (h : p.hasStones a b = .ok true) :
    (a, b) ∈ p.uniqueStonePairs := by
  unfold StonePool.hasStones at h
  by_cases he : a = Stone.Empty ∨ b = Stone.Empty
  · rw [if_pos he] at h; cases h
  · rw [if_neg he] at h
    have ha : a ≠ Stone.Empty := fun h0 => he (Or.inl h0)
    have hb : b ≠ Stone.Empty := fun h0 => he (Or.inr h0)
    have key : ∃ i j, i < p.filled.length ∧ j < p.filled.length ∧ i ≠ j ∧
        p.filled.getD i Stone.Empty = a ∧ p.filled.getD j Stone.Empty = b := by
      by_cases hab : a = b
      · subst hab
        rw [if_pos rfl] at h
        simp only [ge_iff_le, Except.ok.injEq, decide_eq_true_eq] at h
        rw [← StonePool.count_filled p hc a ha] at h
        obtain ⟨n, m, hnm, h1, h2⟩ :=
          List.duplicate_iff_exists_distinct_get.mp (List.duplicate_iff_two_le_count.mpr h)
        refine ⟨n.1, m.1, n.2, m.2, Nat.ne_of_lt hnm, ?_, ?_⟩
        · rw [List.getD_eq_getElem?_getD, List.getElem?_eq_getElem n.2]
          exact h1.symm
        · rw [List.getD_eq_getElem?_getD, List.getElem?_eq_getElem m.2]
          exact h2.symm
      · rw [if_neg hab] at h
        simp only [Except.ok.injEq, Bool.and_eq_true, decide_eq_true_eq] at h
        have h1 : a ∈ p.filled := by
          rw [← List.count_pos_iff, StonePool.count_filled p hc a ha, List.count_pos_iff]
          exact h.1
        have h2 : b ∈ p.filled := by
          rw [← List.count_pos_iff, StonePool.count_filled p hc b hb, List.count_pos_iff]
          exact h.2
        obtain ⟨i, hi, hia⟩ := List.getElem_of_mem h1
        obtain ⟨j, hj, hjb⟩ := List.getElem_of_mem h2
        refine ⟨i, j, hi, hj, ?_, ?_, ?_⟩
        · intro hij
          subst hij
          exact hab (hia.symm.trans hjb)
        · rw [List.getD_eq_getElem?_getD, List.getElem?_eq_getElem hi]
          exact hia
        · rw [List.getD_eq_getElem?_getD, List.getElem?_eq_getElem hj]
          exact hjb
    obtain ⟨i, j, hi, hj, hij, hia, hjb⟩ := key
    have hcount : ¬ p.stoneCount < 2 := by
      have := StonePool.filled_le_stoneCount p hl
      omega
    unfold StonePool.uniqueStonePairs
    rw [if_neg hcount]
    have := dedup_fold_complete (fun y r => inferInstance) (fun ij : Nat × Nat =>
      (p.filled.getD ij.1 Stone.Empty, p.filled.getD ij.2 Stone.Empty))
      (StonePool.indexPairs p.filled.length) [] (i, j) (mem_indexPairs_of _ i j hi hj hij)
    simp only [hia, hjb] at this
    exact this

theorem StonePool.uniqueStonePairs_nodup (p : StonePool) : p.uniqueStonePairs.Nodup := by
  unfold StonePool.uniqueStonePairs
  split
  · exact List.nodup_nil
  · exact dedup_fold_nodup (fun y r => inferInstance) (fun ij : Nat × Nat =>
      (p.filled.getD ij.1 Stone.Empty, p.filled.getD ij.2 Stone.Empty)) _ [] List.nodup_nil

theorem StonePool.uniqueStoneQuads_nodup (p : StonePool) : p.uniqueStoneQuads.Nodup := by
  unfold StonePool.uniqueStoneQuads
  split
  · exact List.nodup_nil
  · exact dedup_fold_nodup (fun y r => inferInstance) (fun q : Nat × Nat × Nat × Nat =>
      (p.stones.getD q.1 Stone.Empty, p.stones.getD q.2.1 Stone.Empty,
        p.stones.getD q.2.2.1 Stone.Empty, p.stones.getD q.2.2.2 Stone.Empty)) _ []
      List.nodup_nil

/-- Every listed quad holds the stones of four different slots. -/
theorem StonePool.uniqueStoneQuads_slots (p : StonePool) (a b c d : Stone)
    (h : (a, b, c, d) ∈ p.uniqueStoneQuads) :
    ∃ i j k m, [i, j, k, m].Nodup ∧ i < p.stoneCount ∧ j < p.stoneCount ∧ k < p.stoneCount ∧
      m < p.stoneCount ∧ p.stones.getD i Stone.Empty = a ∧ p.stones.getD j Stone.Empty = b ∧
      p.stones.getD k Stone.Empty = c ∧ p.stones.getD m Stone.Empty = d := by
  unfold StonePool.uniqueStoneQuads at h
  split at h
  · cases h
  · dsimp only at h
    rcases mem_dedup_fold (fun y r => inferInstance) (fun q : Nat × Nat × Nat × Nat =>
      (p.stones.getD q.1 Stone.Empty, p.stones.getD q.2.1 Stone.Empty,
        p.stones.getD q.2.2.1 Stone.Empty, p.stones.getD q.2.2.2 Stone.Empty)) _ _ _ h
      with h1 | h1
    · cases h1
    · obtain ⟨⟨i, j, k, m⟩, hq, he⟩ := h1
      obtain ⟨hi, hj, hk, hm, hnd⟩ := mem_indexQuads _ _ _ _ _ hq
      simp only [Prod.mk.injEq] at he
      exact ⟨i, j, k, m, hnd, hi, hj, hk, hm, he.1, he.2.1, he.2.2.1, he.2.2.2⟩

theorem increasing_pairwise (l : List Nat) (h : increasing l = true) :
    l.Pairwise fun a b => a < b := by
  apply List.chain'_iff_pairwise.mp
  induction l with
  | nil => exact List.chain'_nil
  | cons a l ih =>
    cases l with
    | nil => exact List.chain'_singleton a
    | cons b l =>
      simp only [increasing, Bool.and_eq_true, decide_eq_true_eq] at h
      exact List.Chain'.cons h.1 (ih h.2)

set_option maxRecDepth 1000000 in
theorem indexQuads_six :
    (StonePool.indexQuads 6).Nodup ∧ (StonePool.indexQuads 6).length = 360 := by
  have h : increasing ((StonePool.indexQuads 6).map fun q =>
      ((q.1 * 6 + q.2.1) * 6 + q.2.2.1) * 6 + q.2.2.2) = true := by decide
  have hp := increasing_pairwise _ h
  exact ⟨List.Nodup.of_map _ (hp.imp fun h => Nat.ne_of_lt h), by decide⟩

set_option maxRecDepth 1000000 in
theorem indexPairs_six :
    (StonePool.indexPairs 6).Nodup ∧ (StonePool.indexPairs 6).length = 30 := by
  decide

theorem StonePool.filled_of_no_empty (p : StonePool) (he : Stone.Empty ∉ p.stones) :
    p.filled = p.stones := by
  unfold StonePool.filled
  rw [List.takeWhile_eq_self_iff]
  intro x hx
  simp only [bne_iff_ne, ne_eq]
  intro h
  exact he (h ▸ hx)

theorem StonePool.stoneCount_of_no_empty (p : StonePool) (he : Stone.Empty ∉ p.stones) :
    p.stoneCount = p.stones.length := by
  unfold StonePool.stoneCount
  cases hi : p.stones.indexOf? Stone.Empty with
  | none => rfl
  | some i => exact absurd (List.get?_mem (indexOf?_some hi)) he

theorem getD_inj_of_nodup (l : List Stone) (hn : l.Nodup) (i j : Nat) (hi : i < l.length)
    (hj : j < l.length) (h : l.getD i Stone.Empty = l.getD j Stone.Empty) : i = j := by
  rw [List.getD_eq_getElem?_getD, List.getD_eq_getElem?_getD, List.getElem?_eq_getElem hi,
    List.getElem?_eq_getElem hj] at h
  exact (List.Nodup.getElem_inj_iff hn).mp h

/-- A pool of six different stones gives thirty pairs and 360 quads. -/
theorem StonePool.six_distinct (p : StonePool) (hl : p.stones.length = 6) (hn : p.stones.Nodup)
    (he : Stone.Empty ∉ p.stones) :
    p.uniqueStonePairs.length = 30 ∧ p.uniqueStoneQuads.length = 360 := by
  constructor
  · have hnd : ([] ++ (StonePool.indexPairs 6).map fun ij : Nat × Nat =>
        (p.stones.getD ij.1 Stone.Empty, p.stones.getD ij.2 Stone.Empty)).Nodup := by
      rw [List.nil_append]
      refine List.Nodup.map_on ?_ indexPairs_six.1
      intro x hx y hy hxy
      obtain ⟨x1, x2⟩ := x
      obtain ⟨y1, y2⟩ := y
      obtain ⟨h1, h2, _⟩ := mem_indexPairs _ _ _ hx
      obtain ⟨h3, h4, _⟩ := mem_indexPairs _ _ _ hy
      simp only [Prod.mk.injEq] at hxy
      rw [getD_inj_of_nodup _ hn x1 y1 (by omega) (by omega) hxy.1,
        getD_inj_of_nodup _ hn x2 y2 (by omega) (by omega) hxy.2]
    have e : p.uniqueStonePairs = [] ++ (StonePool.indexPairs 6).map fun ij : Nat × Nat =>
        (p.stones.getD ij.1 Stone.Empty, p.stones.getD ij.2 Stone.Empty) := by
      unfold StonePool.uniqueStonePairs
      rw [StonePool.stoneCount_of_no_empty p he, StonePool.filled_of_no_empty p he, hl,
        if_neg (by decide)]
      exact dedup_fold_of_nodup (fun y r => inferInstance) _ _ [] hnd
    rw [e, List.nil_append, List.length_map, indexPairs_six.2]
  · have hnd : ([] ++ (StonePool.indexQuads 6).map fun q : Nat × Nat × Nat × Nat =>
        (p.stones.getD q.1 Stone.Empty, p.stones.getD q.2.1 Stone.Empty,
          p.stones.getD q.2.2.1 Stone.Empty, p.stones.getD q.2.2.2 Stone.Empty)).Nodup := by
      rw [List.nil_append]
      refine List.Nodup.map_on ?_ indexQuads_six.1
      intro x hx y hy hxy
      obtain ⟨x1, x2, x3, x4⟩ := x
      obtain ⟨y1, y2, y3, y4⟩ := y
      obtain ⟨h1, h2, h3, h4, _⟩ := mem_indexQuads _ _ _ _ _ hx
      obtain ⟨h5, h6, h7, h8, _⟩ := mem_indexQuads _ _ _ _ _ hy
      simp only [Prod.mk.injEq] at hxy
      rw [getD_inj_of_nodup _ hn x1 y1 (by omega) (by omega) hxy.1,
        getD_inj_of_nodup _ hn x2 y2 (by omega) (by omega) hxy.2.1,
        getD_inj_of_nodup _ hn x3 y3 (by omega) (by omega) hxy.2.2.1,
        getD_inj_of_nodup _ hn x4 y4 (by omega) (by omega) hxy.2.2.2]
    have e : p.uniqueStoneQuads = [] ++ (StonePool.indexQuads 6).map
        fun q : Nat × Nat × Nat × Nat =>
        (p.stones.getD q.1 Stone.Empty, p.stones.getD q.2.1 Stone.Empty,
          p.stones.getD q.2.2.1 Stone.Empty, p.stones.getD q.2.2.2 Stone.Empty) := by
      unfold StonePool.uniqueStoneQuads
      rw [StonePool.stoneCount_of_no_empty p he, hl, if_neg (by decide)]
      exact dedup_fold_of_nodup (fun y r => inferInstance) _ _ [] hnd
    rw [e, List.nil_append, List.length_map, indexQuads_six.2]

theorem pairsSample_canonical : pairsSample.Canonical := by
  unfold StonePool.Canonical pairsSample
  decide

/-- Claim C22. For every canonical pool and all non-empty stones `a` and `b`, the
pair `(a, b)` is in the list of `uniqueStonePairs` exactly if `hasStones(a, b)` is
true, which means that both stones are in the pool and, for `a = b`, that the stone
is there at least twice; no pair is listed twice. Every quad of `uniqueStoneQuads`
holds the stones of four different slots in front of the first empty slot and no
quad is listed twice. A pool of six different stones gives 30 pairs and 360 quads. -/
theorem uniqueStonePairs_iff_hasStones (p : StonePool) (hl : p.stones.length < 256)
    (hc : p.Canonical) :
    (∀ a b, a ≠ Stone.Empty → b ≠ Stone.Empty →
      (((a, b) ∈ p.uniqueStonePairs ↔ p.hasStones a b = .ok true) ∧
       (p.hasStones a b = .ok true ↔
          if a = b then 2 ≤ p.stones.count a else a ∈ p.stones ∧ b ∈ p.stones))) ∧
    p.uniqueStonePairs.Nodup ∧
    (∀ a b c d, (a, b, c, d) ∈ p.uniqueStoneQuads →
      ∃ i j k m, [i, j, k, m].Nodup ∧ i < p.stoneCount ∧ j < p.stoneCount ∧
        k < p.stoneCount ∧ m < p.stoneCount ∧
        p.stones.getD i Stone.Empty = a ∧ p.stones.getD j Stone.Empty = b ∧
        p.stones.getD k Stone.Empty = c ∧ p.stones.getD m Stone.Empty = d) ∧
    p.uniqueStoneQuads.Nodup ∧
    (p.stones.length = 6 → p.stones.Nodup → Stone.Empty ∉ p.stones →
      p.uniqueStonePairs.length = 30 ∧ p.uniqueStoneQuads.length = 360) := by
  refine ⟨fun a b ha hb => ⟨⟨fun h => ?_, StonePool.uniqueStonePairs_complete p hl hc a b⟩, ?_⟩,
    StonePool.uniqueStonePairs_nodup p, StonePool.uniqueStoneQuads_slots p,
    StonePool.uniqueStoneQuads_nodup p, StonePool.six_distinct p⟩
  · exact StonePool.hasStones_true p a b ha hb (StonePool.mem_uniqueStonePairs p a b h).2.2.1
  · unfold StonePool.hasStones
    rw [if_neg (by simp [ha, hb])]
    by_cases hab : a = b
    · simp [hab]
    · simp [hab]

set_option maxRecDepth 100000 in
theorem uniqueStonePairs_iff_hasStones_witness :
    pairsSample.stones.length < 256 ∧ pairsSample.Canonical ∧
      ((Stone.TwoCurves, Stone.TwoCurves) ∈ pairsSample.uniqueStonePairs ↔
        pairsSample.hasStones Stone.TwoCurves Stone.TwoCurves = .ok true) ∧
      pairsSample.uniqueStonePairs.length = 7 ∧
      sixStonesSample.uniqueStonePairs.length = 30 :=
  ⟨by decide, pairsSample_canonical,
    ((uniqueStonePairs_iff_hasStones pairsSample (by decide) pairsSample_canonical).1
      Stone.TwoCurves Stone.TwoCurves (by decide) (by decide)).1, by decide, by decide⟩

/-! ### The starting state -/

set_option maxRecDepth 1000000 in
theorem startingState_orbMoves :
    startingState.allOrbMoves 2 = .ok (some [OrbMove.noMove]) := by
  decide

set_option maxRecDepth 1000000 in
/-- Claim C23. The function `createStartingGameState` returns a state for which
`allOrbMoves` is the list with the one entry "no move" (for every fuel of two or
more passes of the search), `hasWinner` is false and `orbsInHouse` is zero for the
four players; four orbs are in play, on the source cells (4,4), (5,4), (4,5) and
(5,5), and the other five orbs are spare; all 64 fields of the board interior are
empty; each of the four action pools is full and holds three `Crossing`, two
`TwoCurves` and one `CrossingWithStop`. -/
theorem createStartingGameState_facts :
    ∃ g0, GameState.createStartingGameState = .ok g0 ∧
      (∀ fuel, 2 ≤ fuel → g0.allOrbMoves fuel = .ok (some [OrbMove.noMove])) ∧
      g0.hasWinner = false ∧ g0.orbsInHouse = [0, 0, 0, 0] ∧
      g0.orbPositions.inGameCount = 4 ∧
      g0.orbPositions.positions.map (fun o => o.position) =
        [⟨4, 4⟩, ⟨5, 4⟩, ⟨4, 5⟩, ⟨5, 5⟩] ++ List.replicate 5 Position.invalid ∧
      (∀ p ∈ Board.sourceOrbPositions, g0.orbPositions.isOrbAt p = true) ∧
      Board.sourceOrbPositions.length = 4 ∧
      g0.board.state = List.replicate 64 Field.default ∧
      g0.actionPools.pools.length = 4 ∧
      ∀ pool ∈ g0.actionPools.pools,
        pool.full = true ∧ pool.stones.length = 6 ∧ pool.stones.count Stone.Crossing = 3 ∧
          pool.stones.count Stone.TwoCurves = 2 ∧ pool.stones.count Stone.CrossingWithStop = 1 := by
  refine ⟨startingState, startingState_eq, fun fuel hf =>
    allOrbMoves_mono startingState 2 fuel _ hf startingState_orbMoves, ?_⟩
  decide

/-! ### The rotation back to the first seat -/

set_option maxRecDepth 1000000 in
theorem firstPlaceState_turnedAndBack :
    firstPlaceState.turnedAndBack 1 ≠ .ok firstPlaceState ∧
    (do
      let g ← firstPlaceState.turnedAndBack 1
      g.board.field ⟨8, 8⟩) = .ok ⟨Stone.Crossing, Orientation.North, 0⟩ ∧
    firstPlaceState.board.field ⟨1, 1⟩ = .ok ⟨Stone.Crossing, Orientation.North, 0⟩ ∧
    ∀ k ∈ [0, 2, 3], firstPlaceState.turnedAndBack k = .ok firstPlaceState := by
  decide!

theorem serializationSample_turnedAndBack :
    serializationSample.turnedAndBack 2 ≠ .ok serializationSample ∧
    ∀ k ∈ [0, 1, 3], serializationSample.turnedAndBack k = .ok serializationSample := by
  decide!

set_option maxRecDepth 1000000 in
theorem startingState_turnedAndBack :
    ∀ k ∈ [0, 1, 2, 3], startingState.turnedAndBack k = .ok startingState := by
  decide!

set_option maxRecDepth 1000000 in
/-- Claim C24, divergence. After one quarter turn `rotatedForPlayer(Player{1})` does
not give the state back for the state after the first placement of a game: the
stone placed on (1,1) comes to lie on (8,8). After two quarter turns
`rotatedForPlayer(Player{2})` does not give back the state that has that stone on
(8,1). Both states are reachable. For no turn and for three quarter turns the two
states are given back, and the starting state is given back for every player. -/
theorem rotatedForPlayer_not_original :
    Reachable firstPlaceState ∧ Reachable serializationSample ∧
    firstPlaceState.turnedAndBack 1 ≠ .ok firstPlaceState ∧
    serializationSample.turnedAndBack 2 ≠ .ok serializationSample ∧
    (do
      let g ← firstPlaceState.turnedAndBack 1
      g.board.field ⟨8, 8⟩) = .ok ⟨Stone.Crossing, Orientation.North, 0⟩ ∧
    firstPlaceState.board.field ⟨1, 1⟩ = .ok ⟨Stone.Crossing, Orientation.North, 0⟩ ∧
    (∀ k ∈ [0, 3], firstPlaceState.turnedAndBack k = .ok firstPlaceState ∧
      serializationSample.turnedAndBack k = .ok serializationSample) ∧
    (∀ k ∈ [0, 1, 2, 3], startingState.turnedAndBack k = .ok startingState) := by
  obtain ⟨h1, h2, h3, h4⟩ := firstPlaceState_turnedAndBack
  obtain ⟨h5, h6⟩ := serializationSample_turnedAndBack
  refine ⟨Reachable.executeMove startingState firstPlaceState
      ⟨ActionSequence.one (Action.createPlace ⟨1, 1⟩ .Crossing .North), .Empty, OrbMove.noMove⟩
      (Reachable.start startingState startingState_eq) (by decide!),
    serializationSample_reachable, h1, h5, h2, h3, ?_, startingState_turnedAndBack⟩
  intro k hk
  simp only [List.mem_cons, List.mem_singleton, List.not_mem_nil, or_false] at hk
  rcases hk with rfl | rfl
  · exact ⟨h4 0 (by simp), h6 0 (by simp)⟩
  · exact ⟨h4 3 (by simp), h6 3 (by simp)⟩

/-! ### The end of a game without a winner -/

set_option maxRecDepth 100000 in
/-- What one pass of the loop body does to the counters and the progress calls. -/
theorem GameSimulator.pass_facts (agents : PlayerAgents) (s s1 : GameSimulator) (goOn : Bool)
    (hc : s.loopCount < setup.loopCountForDraw) (h : s.pass agents = .ok (s1, goOn)) :
    s1.loopCount ≤ setup.loopCountForDraw ∧
      (∀ c ∈ s1.progress, c.result = GameResult.Draw → c ∈ s.progress) ∧
      ∃ move, agents s.currentPlayer s.state s.gameLog = .ok move ∧
        s1.gameLog = s.gameLog.addTurn s.turnCount s.currentPlayer s.state move := by
  have hc' : s.loopCount < 10 := hc
  unfold GameSimulator.pass at h
  cases hm : agents s.currentPlayer s.state s.gameLog with
  | error e => rw [hm] at h; simp [bind, Except.bind] at h
  | ok move =>
    rw [hm] at h
    simp only [bind, Except.bind] at h
    cases he : s.state.executeMove move with
    | error e => rw [he] at h; simp at h
    | ok state =>
      rw [he] at h
      simp only at h
      by_cases hw : state.hasWinner = true
      · rw [if_pos hw] at h
        simp only [pure, Except.pure, Except.ok.injEq, Prod.mk.injEq] at h
        obtain ⟨rfl, _⟩ := h
        refine ⟨Nat.le_of_lt hc, ?_, move, rfl, rfl⟩
        intro c hcm hd
        rcases List.mem_append.mp hcm with h1 | h1
        · exact h1
        · rw [List.mem_singleton] at h1
          rw [h1] at hd
          cases hd
      · rw [if_neg hw] at h
        cases hr : state.rotated Rotation.Clockwise90 with
        | error e => rw [hr] at h; simp at h
        | ok state1 =>
          rw [hr] at h
          simp only at h
          have hmod : (s.loopCount + 1) % 2 ^ 64 = s.loopCount + 1 :=
            Nat.mod_eq_of_lt (by omega)
          have hnone : ∀ c ∈ s.progress ++ [⟨s.currentPlayer, GameResult.None, s.loopCount⟩],
              c.result = GameResult.Draw → c ∈ s.progress := by
            intro c hcm hd
            rcases List.mem_append.mp hcm with h1 | h1
            · exact h1
            · rw [List.mem_singleton] at h1
              rw [h1] at hd
              cases hd
          by_cases hin : state1 ∈ s.states
          · rw [if_pos hin, hmod] at h
            have hnot : ¬ s.loopCount + 1 > setup.loopCountForDraw := by
              show ¬ s.loopCount + 1 > 10
              omega
            rw [if_neg hnot] at h
            simp only [pure, Except.pure, Except.ok.injEq, Prod.mk.injEq] at h
            obtain ⟨rfl, _⟩ := h
            exact ⟨by show s.loopCount + 1 ≤ 10; omega, hnone, move, rfl, rfl⟩
          · rw [if_neg hin] at h
            simp only [pure, Except.pure, Except.ok.injEq, Prod.mk.injEq] at h
            obtain ⟨rfl, _⟩ := h
            exact ⟨Nat.le_of_lt hc, hnone, move, rfl, rfl⟩

/-- The loop never reports a draw and never counts beyond the threshold. -/
theorem GameSimulator.loop_facts (agents : PlayerAgents) (fuel : Nat) (s s1 : GameSimulator)
    (hc : s.loopCount ≤ setup.loopCountForDraw)
    (hp : ∀ c ∈ s.progress, c.result ≠ GameResult.Draw)
    (h : GameSimulator.loop agents fuel s = .ok (some s1)) :
    s1.loopCount ≤ setup.loopCountForDraw ∧ ∀ c ∈ s1.progress, c.result ≠ GameResult.Draw := by
  induction fuel generalizing s with
  | zero => simp [GameSimulator.loop] at h
  | succ fuel ih =>
    unfold GameSimulator.loop at h
    by_cases hcond : (!s.state.hasWinner && decide (s.loopCount < setup.loopCountForDraw)) = true
    · rw [if_pos hcond] at h
      simp only [Bool.and_eq_true, decide_eq_true_eq] at hcond
      cases hpass : s.pass agents with
      | error e => rw [hpass] at h; simp [bind, Except.bind] at h
      | ok r =>
        obtain ⟨s2, goOn⟩ := r
        rw [hpass] at h
        simp only [bind, Except.bind] at h
        obtain ⟨h1, h2, _⟩ := GameSimulator.pass_facts agents s s2 goOn hcond.2 hpass
        have hp2 : ∀ c ∈ s2.progress, c.result ≠ GameResult.Draw :=
          fun c hcm hd => hp c (h2 c hcm hd) hd
        cases goOn with
        | true =>
          simp only [if_true] at h
          exact ih s2 h1 hp2 h
        | false =>
          simp only [Bool.false_eq_true, if_false, pure, Except.pure, Except.ok.injEq,
            Option.some.injEq] at h
          subst h
          exact ⟨h1, hp2⟩
    · rw [if_neg hcond] at h
      simp only [pure, Except.pure, Except.ok.injEq, Option.some.injEq] at h
      subst h
      exact ⟨hc, hp⟩

theorem GameSimulator.run_facts (agents : PlayerAgents) (fuel : Nat) (sim s : GameSimulator)
    (r : GameState) (hp : ∀ c ∈ sim.progress, c.result ≠ GameResult.Draw)
    (h : GameSimulator.run agents fuel sim = .ok (some (r, s))) :
    s.loopCount ≤ setup.loopCountForDraw ∧ ∀ c ∈ s.progress, c.result ≠ GameResult.Draw := by
  unfold GameSimulator.run at h
  cases hs : GameState.createStartingGameState with
  | error e => rw [hs] at h; simp [bind, Except.bind] at h
  | ok state =>
    rw [hs] at h
    simp only [bind, Except.bind] at h
    cases hl : GameSimulator.loop agents fuel
        { sim with state := state, currentPlayer := 0, loopCount := 0, turnCount := 0 } with
    | error e => rw [hl] at h; simp at h
    | ok o =>
      rw [hl] at h
      cases o with
      | none => simp [pure, Except.pure] at h
      | some s1 =>
        simp only at h
        cases hr : s1.state.rotatedForPlayer s1.currentPlayer with
        | error e => rw [hr] at h; simp at h
        | ok g =>
          rw [hr] at h
          simp only [pure, Except.pure, Except.ok.injEq, Option.some.injEq, Prod.mk.injEq] at h
          obtain ⟨_, rfl⟩ := h
          exact GameSimulator.loop_facts agents fuel
            { sim with state := state, currentPlayer := 0, loopCount := 0, turnCount := 0 } s1
            (Nat.zero_le _) hp hl

theorem passingGame_result :
    (GameSimulator.run passingAgents 14 GameSimulator.fresh).map (fun o => o.map fun r =>
      (r.2.state.hasWinner, [r.2.loopCount, r.2.turnCount, r.2.gameLog.size],
        r.2.progress.map fun c => (c.result, c.loopCount))) =
    .ok (some (false, [10, 13, 14],
      [(.None, 0), (.None, 0), (.None, 0), (.None, 0), (.None, 1), (.None, 2), (.None, 3),
       (.None, 4), (.None, 5), (.None, 6), (.None, 7), (.None, 8), (.None, 9)])) := by
  decide!

/-- Claim C25, divergence. The loop of `GameSimulator::run` goes on only while the
loop counter is below 10: with the counter at 10 and no winner the loop ends
without a call of the next agent. The counter never gets beyond 10, and the branch
that reports a draw (`++loopCount > 10`) is never taken, in no run with any agents.
Below 10 and without a winner the next agent is asked and its move is logged.
With four agents that always pass, the game ends after 13 turns with the counter
at 10, no winner and no draw reported. -/
theorem run_ends_at_threshold :
    (∀ (agents : PlayerAgents) (fuel : Nat) (s : GameSimulator),
      s.state.hasWinner = false → s.loopCount = setup.loopCountForDraw →
      GameSimulator.loop agents (fuel + 1) s = .ok (some s)) ∧
    (∀ (agents : PlayerAgents) (fuel : Nat) (sim s : GameSimulator) (r : GameState),
      (∀ c ∈ sim.progress, c.result ≠ GameResult.Draw) →
      GameSimulator.run agents fuel sim = .ok (some (r, s)) →
      s.loopCount ≤ setup.loopCountForDraw ∧ ∀ c ∈ s.progress, c.result ≠ GameResult.Draw) ∧
    (∀ (agents : PlayerAgents) (s s1 : GameSimulator) (goOn : Bool),
      s.loopCount < setup.loopCountForDraw → s.pass agents = .ok (s1, goOn) →
      ∃ move, agents s.currentPlayer s.state s.gameLog = .ok move ∧
        s1.gameLog = s.gameLog.addTurn s.turnCount s.currentPlayer s.state move) ∧
    (GameSimulator.run passingAgents 14 GameSimulator.fresh).map (fun o => o.map fun r =>
      (r.2.state.hasWinner, [r.2.loopCount, r.2.turnCount, r.2.gameLog.size],
        r.2.progress.map fun c => (c.result, c.loopCount))) =
    .ok (some (false, [10, 13, 14],
      [(.None, 0), (.None, 0), (.None, 0), (.None, 0), (.None, 1), (.None, 2), (.None, 3),
       (.None, 4), (.None, 5), (.None, 6), (.None, 7), (.None, 8), (.None, 9)])) := by
  refine ⟨?_, GameSimulator.run_facts, ?_, passingGame_result⟩
  · intro agents fuel s hw hc
    unfold GameSimulator.loop
    rw [if_neg (by simp [hc])]
    rfl
  · intro agents s s1 goOn hc h
    exact (GameSimulator.pass_facts agents s s1 goOn hc h).2.2

/-! ### Binary digits -/

theorem bitLenAux_spec (fuel n : Nat) (h : n ≤ fuel) :
    n < 2 ^ bitLenAux fuel n ∧ (n ≠ 0 → 2 ^ (bitLenAux fuel n - 1) ≤ n) := by
  induction fuel generalizing n with
  | zero =>
    have : n = 0 := by omega
    subst this
    simp [bitLenAux]
  | succ fuel ih =>
    unfold bitLenAux
    by_cases h0 : n = 0
    · subst h0
      simp
    · rw [if_neg h0]
      have hle : n / 2 ≤ fuel := by omega
      obtain ⟨h1, h2⟩ := ih (n / 2) hle
      refine ⟨?_, fun _ => ?_⟩
      · rw [Nat.pow_succ]
        omega
      · simp only [Nat.add_sub_cancel]
        by_cases h3 : n / 2 = 0
        · have hb : bitLenAux fuel (n / 2) = 0 := by
            rw [h3]
            cases fuel <;> simp [bitLenAux]
          rw [hb]
          simp
          omega
        · have := h2 h3
          have hpos : 0 < bitLenAux fuel (n / 2) := by
            by_contra hc
            have hz : bitLenAux fuel (n / 2) = 0 := by omega
            rw [hz] at h1
            simp at h1
            exact h3 h1
          have e : bitLenAux fuel (n / 2) = (bitLenAux fuel (n / 2) - 1) + 1 := by omega
          rw [e, Nat.pow_succ]
          omega

theorem lt_two_pow_bitLen (n : Nat) : n < 2 ^ bitLen n :=
  (bitLenAux_spec n n (Nat.le_refl n)).1

theorem two_pow_bitLen_le (n : Nat) (h : n ≠ 0) : 2 ^ (bitLen n - 1) ≤ n :=
  (bitLenAux_spec n n (Nat.le_refl n)).2 h

theorem bitLen_le_of_lt (n k : Nat) (h : n < 2 ^ k) : bitLen n ≤ k := by
  by_cases h0 : n = 0
  · subst h0
    have : bitLen 0 = 0 := rfl
    omega
  · by_contra hc
    have h1 := two_pow_bitLen_le n h0
    have h2 : 2 ^ k ≤ 2 ^ (bitLen n - 1) := Nat.pow_le_pow_right (by decide) (by omega)
    omega

theorem lt_bitLen_of_le (n k : Nat) (h : 2 ^ k ≤ n) : k < bitLen n := by
  by_contra hc
  have h1 := lt_two_pow_bitLen n
  have h2 : 2 ^ bitLen n ≤ 2 ^ k := Nat.pow_le_pow_right (by decide) (by omega)
  omega

theorem bitLen_mono (m n : Nat) (h : m ≤ n) : bitLen m ≤ bitLen n :=
  bitLen_le_of_lt m _ (Nat.lt_of_le_of_lt h (lt_two_pow_bitLen n))

/-! ### The rounding -/

theorem roundSig_eq (a d : Nat) :
    roundSig a d =
      (if 2 * (a % (d * 2 ^ (bitLen (a / d) - 53))) > d * 2 ^ (bitLen (a / d) - 53) ∨
          (2 * (a % (d * 2 ^ (bitLen (a / d) - 53))) = d * 2 ^ (bitLen (a / d) - 53) ∧
            a / (d * 2 ^ (bitLen (a / d) - 53)) % 2 = 1)
        then a / (d * 2 ^ (bitLen (a / d) - 53)) + 1
        else a / (d * 2 ^ (bitLen (a / d) - 53))) * 2 ^ (bitLen (a / d) - 53) := by
  unfold roundSig
  simp only [Nat.shiftLeft_eq]

/-- The rounded value is not below the quotient cut to its 53 leading digits. -/
theorem floor_le_roundSig (a d : Nat) :
    a / (d * 2 ^ (bitLen (a / d) - 53)) * 2 ^ (bitLen (a / d) - 53) ≤ roundSig a d := by
  rw [roundSig_eq]
  apply Nat.mul_le_mul_right
  split
  · exact Nat.le_succ _
  · exact Nat.le_refl _

/-- A power of two below the quotient is below the rounded value. -/
theorem le_roundSig (a d j : Nat) (hd : 0 < d) (h : 2 ^ j * d ≤ a) : 2 ^ j ≤ roundSig a d := by
  refine Nat.le_trans ?_ (floor_le_roundSig a d)
  have hq0 : 2 ^ j ≤ a / d := (Nat.le_div_iff_mul_le hd).mpr h
  have hpos : 0 < 2 ^ (bitLen (a / d) - 53) := Nat.pow_pos (by decide)
  rw [← Nat.div_div_eq_div_mul]
  rcases Nat.lt_or_ge j (bitLen (a / d) - 53) with hs | hs
  · have hne : a / d ≠ 0 := by
      have : 0 < 2 ^ j := Nat.pow_pos (by decide)
      omega
    have hb := two_pow_bitLen_le (a / d) hne
    have e : bitLen (a / d) - 1 = 52 + (bitLen (a / d) - 53) := by omega
    rw [e, Nat.pow_add] at hb
    have h52 : 2 ^ 52 ≤ a / d / 2 ^ (bitLen (a / d) - 53) :=
      (Nat.le_div_iff_mul_le hpos).mpr hb
    have h1 : 2 ^ j ≤ 2 ^ (bitLen (a / d) - 53) :=
      Nat.pow_le_pow_right (by decide) (Nat.le_of_lt hs)
    calc 2 ^ j ≤ 1 * 2 ^ (bitLen (a / d) - 53) := by rw [Nat.one_mul]; exact h1
      _ ≤ a / d / 2 ^ (bitLen (a / d) - 53) * 2 ^ (bitLen (a / d) - 53) :=
        Nat.mul_le_mul_right _ (Nat.le_trans (Nat.pow_pos (by decide)) h52)
  · have e : 2 ^ j = 2 ^ (j - (bitLen (a / d) - 53)) * 2 ^ (bitLen (a / d) - 53) := by
      rw [← Nat.pow_add]
      congr 1
      omega
    rw [e]
    apply Nat.mul_le_mul_right
    rw [Nat.le_div_iff_mul_le hpos, ← e]
    exact hq0

/-- A power of two above the quotient is above the rounded value. -/
theorem roundSig_le (a d j : Nat) (hd : 0 < d) (h : a ≤ 2 ^ j * d) : roundSig a d ≤ 2 ^ j := by
  have hq0 : a / d ≤ 2 ^ j := by
    apply Nat.div_le_of_le_mul
    rw [Nat.mul_comm]
    exact h
  have hlen : bitLen (a / d) ≤ j + 1 :=
    bitLen_le_of_lt _ _ (Nat.lt_of_le_of_lt hq0 (Nat.pow_lt_pow_right (by decide) (Nat.lt_succ_self j)))
  have hs : bitLen (a / d) - 53 ≤ j := by omega
  have hpos : 0 < 2 ^ (bitLen (a / d) - 53) := Nat.pow_pos (by decide)
  have hD : 0 < d * 2 ^ (bitLen (a / d) - 53) := Nat.mul_pos hd hpos
  have e : 2 ^ j = 2 ^ (j - (bitLen (a / d) - 53)) * 2 ^ (bitLen (a / d) - 53) := by
    rw [← Nat.pow_add]
    congr 1
    omega
  have hle : a ≤ 2 ^ (j - (bitLen (a / d) - 53)) * (d * 2 ^ (bitLen (a / d) - 53)) := by
    calc a ≤ 2 ^ j * d := h
      _ = 2 ^ (j - (bitLen (a / d) - 53)) * (d * 2 ^ (bitLen (a / d) - 53)) := by
        rw [e]
        ring
  have hdm := Nat.div_add_mod a (d * 2 ^ (bitLen (a / d) - 53))
  rw [roundSig_eq]
  generalize hDD : d * 2 ^ (bitLen (a / d) - 53) = D at *
  generalize hqq : a / D = q at *
  generalize hrr : a % D = r at *
  generalize hpp : 2 ^ (j - (bitLen (a / d) - 53)) = P at *
  generalize hss : 2 ^ (bitLen (a / d) - 53) = S at *
  rw [e]
  apply Nat.mul_le_mul_right
  split
  · rename_i hc
    have hr : 0 < r := by
      rcases hc with hc | hc
      · omega
      · omega
    have h1 : D * q < P * D := by omega
    rw [Nat.mul_comm P D] at h1
    have := Nat.lt_of_mul_lt_mul_left h1
    omega
  · have h1 : D * q ≤ D * P := by
      rw [Nat.mul_comm D P]
      omega
    exact Nat.le_of_mul_le_mul_left h1 hD

/-- The rounding is monotone in the numerator. -/
theorem roundSig_mono (a1 a2 d : Nat) (hd : 0 < d) (h : a1 ≤ a2) :
    roundSig a1 d ≤ roundSig a2 d := by
  have hq : a1 / d ≤ a2 / d := Nat.div_le_div_right h
  have hb := bitLen_mono _ _ hq
  rcases Nat.lt_or_ge (bitLen (a1 / d) - 53) (bitLen (a2 / d) - 53) with hs | hs
  · have h1 : bitLen (a1 / d) ≤ bitLen (a2 / d) - 1 := by omega
    have hlt : a1 / d < 2 ^ (bitLen (a2 / d) - 1) :=
      Nat.lt_of_lt_of_le (lt_two_pow_bitLen _) (Nat.pow_le_pow_right (by decide) h1)
    have hne : a2 / d ≠ 0 := by
      intro h0
      rw [h0] at hs
      have : bitLen 0 = 0 := rfl
      omega
    have hge := two_pow_bitLen_le (a2 / d) hne
    have hu := roundSig_le a1 d (bitLen (a2 / d) - 1) hd
      (Nat.le_of_lt ((Nat.div_lt_iff_lt_mul hd).mp hlt))
    have hl := le_roundSig a2 d (bitLen (a2 / d) - 1) hd ((Nat.le_div_iff_mul_le hd).mp hge)
    exact Nat.le_trans hu hl
  · have hs' : bitLen (a1 / d) - 53 = bitLen (a2 / d) - 53 := by omega
    have hD : 0 < d * 2 ^ (bitLen (a2 / d) - 53) := Nat.mul_pos hd (Nat.pow_pos (by decide))
    rw [roundSig_eq, roundSig_eq, hs']
    apply Nat.mul_le_mul_right
    have hq12 : a1 / (d * 2 ^ (bitLen (a2 / d) - 53)) ≤ a2 / (d * 2 ^ (bitLen (a2 / d) - 53)) :=
      Nat.div_le_div_right h
    have hdm1 := Nat.div_add_mod a1 (d * 2 ^ (bitLen (a2 / d) - 53))
    have hdm2 := Nat.div_add_mod a2 (d * 2 ^ (bitLen (a2 / d) - 53))
    have hr1 := Nat.mod_lt a1 hD
    have hr2 := Nat.mod_lt a2 hD
    generalize d * 2 ^ (bitLen (a2 / d) - 53) = D at *
    generalize a1 / D = q1 at *
    generalize a2 / D = q2 at *
    generalize a1 % D = r1 at *
    generalize a2 % D = r2 at *
    rcases Nat.lt_or_ge q1 q2 with hlt | hge
    · split <;> split <;> omega
    · have heq : q1 = q2 := by omega
      subst heq
      split <;> split <;> omega

/-- The rounded value has at most 53 significant binary digits. -/
theorem roundSig_representable (a d : Nat) : Representable (roundSig a d) := by
  rw [roundSig_eq]
  have hq : a / (d * 2 ^ (bitLen (a / d) - 53)) < 2 ^ 53 := by
    rw [← Nat.div_div_eq_div_mul, Nat.div_lt_iff_lt_mul (Nat.pow_pos (by decide)), ← Nat.pow_add]
    exact Nat.lt_of_lt_of_le (lt_two_pow_bitLen _) (Nat.pow_le_pow_right (by decide) (by omega))
  split
  · by_cases hlt : a / (d * 2 ^ (bitLen (a / d) - 53)) + 1 < 2 ^ 53
    · exact ⟨_, _, hlt, rfl⟩
    · have e : a / (d * 2 ^ (bitLen (a / d) - 53)) + 1 = 2 ^ 53 := by omega
      refine ⟨1, 53 + (bitLen (a / d) - 53), by decide, ?_⟩
      rw [e, Nat.one_mul, Nat.pow_add]
  · exact ⟨_, _, hq, rfl⟩

/-- A value with at most 53 significant binary digits is its own rounding. -/
theorem roundSig_exact (u c : Nat) (hc : 0 < c) (hu : Representable u) :
    roundSig (u * c) c = u := by
  obtain ⟨m, t, hm, rfl⟩ := hu
  rw [roundSig_eq]
  have e1 : m * 2 ^ t * c / c = m * 2 ^ t := Nat.mul_div_cancel _ hc
  rw [e1]
  have hs : bitLen (m * 2 ^ t) - 53 ≤ t := by
    have h1 : m * 2 ^ t < 2 ^ (53 + t) := by
      rw [Nat.pow_add]
      exact Nat.mul_lt_mul_of_lt_of_le hm (Nat.le_refl _) (Nat.pow_pos (by decide))
    have := bitLen_le_of_lt _ _ h1
    omega
  generalize bitLen (m * 2 ^ t) - 53 = s at *
  have hD : 0 < c * 2 ^ s := Nat.mul_pos hc (Nat.pow_pos (by decide))
  have e2 : m * 2 ^ t * c = m * 2 ^ (t - s) * (c * 2 ^ s) := by
    have : 2 ^ t = 2 ^ (t - s) * 2 ^ s := by
      rw [← Nat.pow_add]
      congr 1
      omega
    rw [this]
    ring
  rw [e2, Nat.mul_mod_left, Nat.mul_div_cancel _ hD]
  have hc1 : ¬ (2 * 0 > c * 2 ^ s ∨ 2 * 0 = c * 2 ^ s ∧ m * 2 ^ (t - s) % 2 = 1) := by
    omega
  rw [if_neg hc1, Nat.mul_assoc, ← Nat.pow_add]
  congr 2
  omega

/-! ### The arithmetic of `double` -/

theorem Double.scale_eq : Double.scale = 2 ^ Double.scaleBits := by
  unfold Double.scale
  rw [Nat.shiftLeft_eq, Nat.one_mul]

theorem Double.limit_eq : Double.limit = 2 ^ (1024 + Double.scaleBits) := by
  unfold Double.limit
  rw [Nat.shiftLeft_eq, Nat.one_mul]

theorem Double.scale_pos : 0 < Double.scale := by
  rw [Double.scale_eq]
  exact Nat.pow_pos (by decide)

theorem Double.limit_pos : 0 < Double.limit := by
  rw [Double.limit_eq]
  exact Nat.pow_pos (by decide)

theorem Double.mk_valid (neg : Bool) (u : Nat) (hu : Representable u) (hlt : u < Double.limit) :
    (Double.mk neg u).Valid := by
  unfold Double.mk
  split
  · exact ⟨⟨0, 0, by decide, rfl⟩, Double.limit_pos, fun _ => rfl⟩
  · rename_i h0
    exact ⟨hu, hlt, fun h => absurd h h0⟩

theorem Double.roundRatio_valid (neg : Bool) (n d : Nat) : (Double.roundRatio neg n d).Valid := by
  unfold Double.roundRatio
  dsimp only
  split
  · trivial
  · rename_i h
    exact Double.mk_valid _ _ (roundSig_representable _ _) (Nat.lt_of_not_le h)

/-- The rounding gives back a well-formed magnitude. -/
theorem Double.roundRatio_exact (neg : Bool) (u : Nat) (hu : Representable u)
    (hlt : u < Double.limit) : Double.roundRatio neg u Double.scale = Double.mk neg u := by
  unfold Double.roundRatio
  dsimp only
  rw [roundSig_exact u Double.scale Double.scale_pos hu, if_neg (Nat.not_le_of_lt hlt)]

/-- The sum `0.0 + x` is `x`. -/
theorem Double.zero_add (x : Double) (hx : x.Valid) : Double.zero.add x = x := by
  cases x with
  | nan => rfl
  | inf s => rfl
  | fin s u =>
    obtain ⟨h1, h2, h3⟩ := hx
    unfold Double.zero Double.add
    by_cases hs : s = false
    · subst hs
      simp only [if_true, Nat.zero_add]
      rw [Double.roundRatio_exact false u h1 h2]
      unfold Double.mk
      split
      · rename_i h0
        rw [h0]
      · rfl
    · have hst : s = true := by simpa using hs
      subst hst
      have hu : u ≠ 0 := fun h0 => by simpa using h3 h0
      simp only [Bool.false_eq_true, if_false, Nat.le_zero_eq, if_neg hu, Nat.sub_zero]
      rw [Double.roundRatio_exact true u h1 h2]
      unfold Double.mk
      rw [if_neg hu]

theorem Double.mul_valid (a b : Double) : (a.mul b).Valid := by
  cases a <;> cases b <;> simp only [Double.mul] <;> try trivial
  · split <;> trivial
  · split <;> trivial
  · exact Double.roundRatio_valid _ _ _

/-! ### The turn factor of the rating adjustments -/

/-- The conversion of a positive integer below `2^64` is finite and at least one. -/
theorem Double.ofNat_eq (n : Nat) (h0 : 0 < n) (h : n < 2 ^ 64) :
    Double.ofNat n = .fin false (roundSig (n * Double.scale) 1) ∧
      Double.scale ≤ roundSig (n * Double.scale) 1 := by
  have hlow : Double.scale ≤ roundSig (n * Double.scale) 1 := by
    have := le_roundSig (n * Double.scale) 1 Double.scaleBits (by decide) (by
      rw [← Double.scale_eq, Nat.mul_one]
      exact Nat.le_mul_of_pos_left _ h0)
    rw [← Double.scale_eq] at this
    exact this
  have hup : roundSig (n * Double.scale) 1 < Double.limit := by
    have h1 := roundSig_le (n * Double.scale) 1 (64 + Double.scaleBits) (by decide) (by
      rw [Nat.mul_one, Nat.pow_add, ← Double.scale_eq]
      exact Nat.mul_le_mul_right _ (Nat.le_of_lt h))
    rw [Double.limit_eq]
    exact Nat.lt_of_le_of_lt h1 (Nat.pow_lt_pow_right (by decide) (by decide))
  refine ⟨?_, hlow⟩
  unfold Double.ofNat Double.roundRatio
  dsimp only
  rw [if_neg (Nat.not_le_of_lt hup)]
  unfold Double.mk
  rw [if_neg (by have := Double.scale_pos; omega)]

/-- The quotient of a finite value by a smaller positive one is at least one. -/
theorem Double.div_ge_one (u v : Nat) (hv : 0 < v) (h : v ≤ u) :
    (Double.fin false u).div (.fin false v) = .inf false ∨
      ∃ w, Double.scale ≤ w ∧ (Double.fin false u).div (.fin false v) = .fin false w := by
  have hw : Double.scale ≤ roundSig (u * Double.scale) v := by
    have := le_roundSig (u * Double.scale) v Double.scaleBits hv (by
      rw [← Double.scale_eq, Nat.mul_comm]
      exact Nat.mul_le_mul_right _ h)
    rw [← Double.scale_eq] at this
    exact this
  have hdiv : (Double.fin false u).div (.fin false v) = Double.roundRatio false u v := by
    show (if v = 0 then (if u = 0 then Double.nan else Double.inf (false != false))
      else Double.roundRatio (false != false) u v) = _
    rw [if_neg (by omega)]
    rfl
  rw [hdiv]
  unfold Double.roundRatio
  dsimp only
  split
  · exact Or.inl rfl
  · right
    refine ⟨_, hw, ?_⟩
    unfold Double.mk
    rw [if_neg (by have := Double.scale_pos; omega)]

set_option maxRecDepth 1000000 in
theorem RatingAdjustment.factorFloor_eq :
    RatingAdjustment.factorFloor = .fin false (7378697629483821 <<< 1008) ∧
      7378697629483821 <<< 1008 < Double.scale := by
  decide

/-- The factor of every turn with a number between zero and the total turn count
is `1.0`. -/
theorem RatingAdjustment.adjustmentFactor_interior (t T : Nat) (ht : 0 < t) (hlt : t < T)
    (hT : T < 2 ^ 64) : RatingAdjustment.adjustmentFactor t T = Double.one := by
  have e1 : t % 2 ^ 64 = t := Nat.mod_eq_of_lt (by omega)
  have e2 : T % 2 ^ 64 = T := Nat.mod_eq_of_lt hT
  have e3 : (t + 2 ^ 64 - T) % 2 ^ 64 = t + 2 ^ 64 - T := Nat.mod_eq_of_lt (by omega)
  obtain ⟨hN, hNlow⟩ := Double.ofNat_eq (t + 2 ^ 64 - T) (by omega) (by omega)
  obtain ⟨ht', htlow⟩ := Double.ofNat_eq t ht (by omega)
  have hmono : roundSig (t * Double.scale) 1 ≤ roundSig ((t + 2 ^ 64 - T) * Double.scale) 1 :=
    roundSig_mono _ _ 1 (by decide) (Nat.mul_le_mul_right _ (by omega))
  have hpos : 0 < roundSig (t * Double.scale) 1 := by
    have := Double.scale_pos
    omega
  obtain ⟨hf, hfl⟩ := RatingAdjustment.factorFloor_eq
  unfold RatingAdjustment.adjustmentFactor
  dsimp only
  rw [e1, e2, e3, hN, ht']
  rcases Double.div_ge_one _ _ hpos hmono with hq | ⟨w, hw, hq⟩
  · rw [hq, hf]
    rfl
  · rw [hq, hf]
    have h1 : (Double.fin false (7378697629483821 <<< 1008)).lt (Double.fin false w) = true := by
      unfold Double.lt
      simp only [decide_eq_true_eq]
      omega
    have h2 : (Double.fin false w).lt Double.one = false := by
      unfold Double.one Double.lt
      simp only [decide_eq_false_iff_not]
      omega
    unfold Double.max Double.min
    rw [h1, if_pos rfl, h2]
    rfl

/-! ### The rating adjustment of a turn -/

set_option maxRecDepth 1000000 in
theorem RatingAdjustment.sums :
    Double.zero.add Double.zero = Double.zero ∧
    Double.zero.add RatingAdjustment.deltaForWin = Double.one ∧
    Double.zero.add RatingAdjustment.deltaForLoss = RatingAdjustment.deltaForLoss ∧
    (((Double.zero.add RatingAdjustment.ratingBase).add RatingAdjustment.ratingBase).add
      RatingAdjustment.ratingBase).add RatingAdjustment.ratingBase = Double.ofNat 4 ∧
    Double.ofNat 4 ≠ Double.one := by
  decide

set_option maxRecDepth 1000000 in
/-- The adjustment of a turn of a game without a winner. -/
theorem RatingAdjustment.forTurn_none (turn : GameTurn) (T : Nat) :
    RatingAdjustment.forTurn turn T none = .ok
      ⟨Double.ofNat 4, List.replicate 4
        ⟨RatingAdjustment.combinedDeltaForDraw.mul
          (RatingAdjustment.adjustmentFactor turn.turn T), Double.zero, Double.zero⟩⟩ := by
  have h : RatingAdjustment.forTurn turn T none = .ok
      ⟨(((Double.zero.add RatingAdjustment.ratingBase).add RatingAdjustment.ratingBase).add
          RatingAdjustment.ratingBase).add RatingAdjustment.ratingBase,
        List.replicate 4
          ⟨Double.zero.add (RatingAdjustment.combinedDeltaForDraw.mul
              (RatingAdjustment.adjustmentFactor turn.turn T)),
            Double.zero.add Double.zero, Double.zero.add Double.zero⟩⟩ := rfl
  rw [h, RatingAdjustment.sums.2.2.2.1, RatingAdjustment.sums.1,
    Double.zero_add _ (Double.mul_valid _ _)]

set_option maxRecDepth 1000000 in
/-- The adjustment of a turn of a game with a winner. -/
theorem RatingAdjustment.forTurn_some (t T : Nat) (state : GameState) (move : GameMove)
    (a w : Nat) (ha : a < 4) (hw : w < 4) :
    RatingAdjustment.forTurn ⟨t, a, state, move⟩ T (some w) = .ok
      ⟨Double.zero, [0, 1, 2, 3].map fun i =>
        if i = (w + 4 - a) % 4 then
          ⟨RatingAdjustment.combinedDeltaForWin.mul (RatingAdjustment.adjustmentFactor t T),
            Double.one, Double.zero⟩
        else
          ⟨RatingAdjustment.combinedDeltaForLoss.mul (RatingAdjustment.adjustmentFactor t T),
            Double.zero, RatingAdjustment.deltaForLoss⟩⟩ := by
  have h : RatingAdjustment.forTurn ⟨t, a, state, move⟩ T (some w) = .ok
      ⟨Double.zero, [0, 1, 2, 3].map fun i =>
        if i = (w + 4 - a) % 4 then
          ⟨Double.zero.add (RatingAdjustment.combinedDeltaForWin.mul
              (RatingAdjustment.adjustmentFactor t T)),
            Double.zero.add RatingAdjustment.deltaForWin, Double.zero.add Double.zero⟩
        else
          ⟨Double.zero.add (RatingAdjustment.combinedDeltaForLoss.mul
              (RatingAdjustment.adjustmentFactor t T)),
            Double.zero.add Double.zero, Double.zero.add RatingAdjustment.deltaForLoss⟩⟩ := by
    interval_cases a <;> interval_cases w <;>
    simp [RatingAdjustment.forTurn, List.foldlM, RatingAdjustment.adjustRow, Rating.default,
      Rating.adjustRating, bind, Except.bind, pure, Except.pure, List.replicate, RatingPlayer.add,
      RatingPlayer.default]
  rw [h]
  simp only [Double.zero_add _ (Double.mul_valid _ _), RatingAdjustment.sums.1,
    RatingAdjustment.sums.2.1, RatingAdjustment.sums.2.2.1]

/-- The factor of the first turn of a game is `1.0`: the division by zero gives
an infinity. -/
theorem RatingAdjustment.adjustmentFactor_first (T : Nat) (h0 : 0 < T) (hT : T < 2 ^ 64) :
    RatingAdjustment.adjustmentFactor 0 T = Double.one := by
  have e1 : 0 % 2 ^ 64 = 0 := rfl
  have e2 : T % 2 ^ 64 = T := Nat.mod_eq_of_lt hT
  have e3 : (0 + 2 ^ 64 - T) % 2 ^ 64 = 0 + 2 ^ 64 - T := Nat.mod_eq_of_lt (by omega)
  obtain ⟨hN, hNlow⟩ := Double.ofNat_eq (0 + 2 ^ 64 - T) (by omega) (by omega)
  have hz : Double.ofNat 0 = .fin false 0 := by decide
  have hne : roundSig ((0 + 2 ^ 64 - T) * Double.scale) 1 ≠ 0 := by
    have := Double.scale_pos
    omega
  unfold RatingAdjustment.adjustmentFactor
  dsimp only
  rw [e1, e2, e3, hN, hz]
  have hdiv : (Double.fin false (roundSig ((0 + 2 ^ 64 - T) * Double.scale) 1)).div
      (.fin false 0) = .inf false := by
    show (if (0 : Nat) = 0 then
      (if roundSig ((0 + 2 ^ 64 - T) * Double.scale) 1 = 0 then Double.nan
        else Double.inf (false != false))
      else Double.roundRatio (false != false)
        (roundSig ((0 + 2 ^ 64 - T) * Double.scale) 1) 0) = _
    rw [if_pos rfl, if_neg hne]
    rfl
  rw [hdiv, RatingAdjustment.factorFloor_eq.1]
  rfl

/-- Claim C26, divergence. The adjustment of a turn of a game without a winner has
`draws == 4.0`, not `1.0`: `adjustDraws(1.0)` runs in each of the four passes of
the loop over the players. The four rows have `win == 0`, `loss == 0` and the same
`combined`, the product of `combinedDeltaForDraw` and the turn factor. -/
theorem forTurn_draw_counts_four (turn : GameTurn) (T : Nat) :
    ∃ r, RatingAdjustment.forTurn turn T none = .ok r ∧
      r.draws = Double.ofNat 4 ∧ r.draws ≠ Double.one ∧
      r.ratingsPerPlayer = List.replicate 4
        ⟨RatingAdjustment.combinedDeltaForDraw.mul
          (RatingAdjustment.adjustmentFactor turn.turn T), Double.zero, Double.zero⟩ := by
  refine ⟨⟨Double.ofNat 4, List.replicate 4
    ⟨RatingAdjustment.combinedDeltaForDraw.mul
      (RatingAdjustment.adjustmentFactor turn.turn T), Double.zero, Double.zero⟩⟩,
    RatingAdjustment.forTurn_none turn T, ?_, ?_, ?_⟩
  · dsimp only
  · dsimp only
    exact RatingAdjustment.sums.2.2.2.2
  · dsimp only

set_option maxRecDepth 1000000 in
/-- Claim C27. For a turn with active player `a` and winning player `w`, the rating
adjustment has `draws == 0`; the row `(w - a) mod 4` has `win == 1`, `loss == 0`
and `combined` equal to `combinedDeltaForWin` (`1.0`) times the turn factor; each
other row has `win == 0`, `loss == deltaForLoss` (the `double` nearest to 1/3) and
`combined` equal to `combinedDeltaForLoss` (its negative) times the turn factor.
The entries for `win` and `loss` are constants. -/
theorem forTurn_winner_rows (turn : GameTurn) (T w : Nat) (ha : turn.activePlayer < 4)
    (hw : w < 4) :
    (∃ r, RatingAdjustment.forTurn turn T (some w) = .ok r ∧ r.draws = Double.zero ∧
      r.ratingsPerPlayer.length = 4 ∧
      ∀ i, i < 4 → r.ratingsPerPlayer[i]? = some
        (if i = (w + 4 - turn.activePlayer) % 4 then
          ⟨RatingAdjustment.combinedDeltaForWin.mul
            (RatingAdjustment.adjustmentFactor turn.turn T), Double.one, Double.zero⟩
        else
          ⟨RatingAdjustment.combinedDeltaForLoss.mul
            (RatingAdjustment.adjustmentFactor turn.turn T), Double.zero,
            RatingAdjustment.deltaForLoss⟩)) ∧
    RatingAdjustment.combinedDeltaForWin = Double.one ∧
    RatingAdjustment.deltaForLoss = Double.roundRatio false 1 3 ∧
    RatingAdjustment.combinedDeltaForLoss = Double.roundRatio true 1 3 := by
  obtain ⟨t, a, state, move⟩ := turn
  refine ⟨⟨_, RatingAdjustment.forTurn_some t T state move a w ha hw, rfl, rfl, ?_⟩, rfl,
    by decide, by decide⟩
  intro i hi
  interval_cases i <;> simp

set_option maxRecDepth 1000000 in
theorem forTurn_winner_rows_witness :
    (firstTurn.activePlayer < 4 ∧ 2 < 4) ∧
    RatingAdjustment.forTurn firstTurn 3 (some 2) = .ok ⟨Double.zero,
      [⟨Double.roundRatio true 1 3, Double.zero, Double.roundRatio false 1 3⟩,
       ⟨Double.roundRatio true 1 3, Double.zero, Double.roundRatio false 1 3⟩,
       ⟨Double.one, Double.one, Double.zero⟩,
       ⟨Double.roundRatio true 1 3, Double.zero, Double.roundRatio false 1 3⟩]⟩ ∧
    RatingAdjustment.combinedDeltaForWin = Double.one :=
  ⟨⟨by decide, by decide⟩, by decide,
    (forTurn_winner_rows firstTurn 3 2 (by decide) (by decide)).2.1⟩

/-- What the code computes for the turns of a game log: for every turn number `t`
below the total turn count `T` (below `2^64`) `adjustmentFactor(t, T)` is `1.0`: the
difference `t - T` of the two `std::size_t` operands is `2^64 + t - T`, which is not
below `t`, so that the quotient is at least one (an infinity for `t = 0`) and
`std::min` cuts it to `1.0`. -/
theorem adjustmentFactor_is_one (t T : Nat) (hlt : t < T) (hT : T < 2 ^ 64) :
    RatingAdjustment.adjustmentFactor t T = Double.one := by
  rcases Nat.eq_zero_or_pos t with h0 | h0
  · subst h0
    exact RatingAdjustment.adjustmentFactor_first T hlt hT
  · exact RatingAdjustment.adjustmentFactor_interior t T h0 hlt hT

set_option maxRecDepth 1000000 in
theorem adjustmentFactor_is_one_witness :
    (1 < 3 ∧ 3 < 2 ^ 64) ∧ RatingAdjustment.adjustmentFactor 1 3 = Double.one :=
  ⟨⟨by decide, by decide⟩, adjustmentFactor_is_one 1 3 (by decide) (by decide)⟩

set_option maxRecDepth 1000000 in
/-- C28, evaluated on the code: for the second turn of a game of three entries,
`adjustmentFactor(1, 3)`, the code gives `1.0` and not the floor `0.0001`, because the
difference `1 - 3` of the `std::size_t` operands wraps to `2^64 - 2`. The floor `0.0001`
is the result only for a turn number equal to the total turn count, which no entry of
a game log has. -/
theorem adjustmentFactor_not_floor :
    RatingAdjustment.adjustmentFactor 1 3 ≠ RatingAdjustment.factorFloor ∧
    RatingAdjustment.adjustmentFactor 1 3 = Double.one ∧
    RatingAdjustment.factorFloor = Double.roundRatio false 1 10000 ∧
    RatingAdjustment.adjustmentFactor 3 3 = RatingAdjustment.factorFloor := by
  decide

/-! ### The memory backend -/

theorem RatingAdjustment.adjustRow_ok (factor : Double) (w : Option Nat) (acc : Rating × Nat)
    (i : Nat) (hi : i < 4) (hl : acc.1.ratingsPerPlayer.length = 4) :
    ∃ acc', RatingAdjustment.adjustRow factor w acc i = .ok acc' ∧
      acc'.1.ratingsPerPlayer.length = 4 := by
  have hge : ¬ i ≥ acc.1.ratingsPerPlayer.length := by omega
  have hge' : ¬ i ≥ (acc.1.adjustDraws RatingAdjustment.ratingBase).ratingsPerPlayer.length := hge
  unfold RatingAdjustment.adjustRow
  cases w with
  | none =>
    simp only [Rating.adjustRating, if_neg hge', bind, Except.bind, pure, Except.pure]
    exact ⟨_, rfl, by simp [Rating.adjustDraws, hl]⟩
  | some w =>
    simp only [Rating.adjustRating, if_neg hge, bind, Except.bind, pure, Except.pure]
    split
    · exact ⟨_, rfl, by simp [hl]⟩
    · exact ⟨_, rfl, by simp [hl]⟩

/-- The constructor of a rating adjustment raises no error. -/
theorem RatingAdjustment.forTurn_ok (turn : GameTurn) (T : Nat) (w : Option Nat) :
    ∃ r, RatingAdjustment.forTurn turn T w = .ok r := by
  unfold RatingAdjustment.forTurn
  simp only [List.foldlM, bind, Except.bind, pure, Except.pure]
  obtain ⟨a0, h0, l0⟩ := RatingAdjustment.adjustRow_ok (RatingAdjustment.adjustmentFactor turn.turn T)
    w (Rating.default, turn.activePlayer) 0 (by decide) rfl
  rw [h0]
  obtain ⟨a1, h1, l1⟩ := RatingAdjustment.adjustRow_ok (RatingAdjustment.adjustmentFactor turn.turn T)
    w a0 1 (by decide) l0
  simp only
  rw [h1]
  obtain ⟨a2, h2, l2⟩ := RatingAdjustment.adjustRow_ok (RatingAdjustment.adjustmentFactor turn.turn T)
    w a1 2 (by decide) l1
  simp only
  rw [h2]
  obtain ⟨a3, h3, l3⟩ := RatingAdjustment.adjustRow_ok (RatingAdjustment.adjustmentFactor turn.turn T)
    w a2 3 (by decide) l2
  simp only
  rw [h3]
  exact ⟨_, rfl⟩

theorem mapM_ok_of_forall {α β : Type} (f : α → Except String β) (l : List α)
    (h : ∀ a ∈ l, ∃ b, f a = .ok b) : ∃ bs, l.mapM f = .ok bs ∧ bs.length = l.length := by
  induction l with
  | nil => exact ⟨[], rfl, rfl⟩
  | cons a l ih =>
    obtain ⟨b, hb⟩ := h a (List.mem_cons_self _ _)
    obtain ⟨bs, hbs, hlen⟩ := ih fun x hx => h x (List.mem_cons_of_mem _ hx)
    refine ⟨b :: bs, ?_, by simp [hlen]⟩
    rw [List.mapM_cons, hb, hbs]
    rfl

theorem GameLog.createRatingAdjustments_ok (l : GameLog) :
    ∃ adjustments, l.createRatingAdjustments = .ok adjustments ∧
      adjustments.length = l.turns.length :=
  mapM_ok_of_forall _ _ fun turn _ => RatingAdjustment.forTurn_ok turn l.size l.winningPlayer

theorem BackendMemory.any_eq_false (l : List (GameState × RatingGame)) (s : GameState)
    (h : l.any (fun e => e.1 == s) = false) : l.find? (fun e => e.1 == s) = none := by
  rw [List.find?_eq_none]
  intro e he hes
  have : l.any (fun e => e.1 == s) = true := List.any_eq_true.mpr ⟨e, he, hes⟩
  rw [h] at this
  cases this

theorem BackendMemory.any_eq_true (l : List (GameState × RatingGame)) (s : GameState)
    (h : l.any (fun e => e.1 == s) = true) :
    ∃ e, l.find? (fun e => e.1 == s) = some e ∧ e.1 = s := by
  cases hf : l.find? (fun e => e.1 == s) with
  | none =>
    rw [List.find?_eq_none] at hf
    obtain ⟨e, he, hes⟩ := List.any_eq_true.mp h
    exact absurd hes (hf e he)
  | some e =>
    have := List.find?_some hf
    exact ⟨e, rfl, by simpa using this⟩

/-- What `modify` does to the entry of a state. -/
theorem BackendMemory.find_modify (b : BackendMemory) (s s' : GameState)
    (f : RatingGame → RatingGame) :
    (b.modify s f).find s' =
      if s' = s then some (f ((b.find s).getD RatingGame.default)) else b.find s' := by
  unfold BackendMemory.modify
  by_cases ha : b.gameStates.any (fun e => e.1 == s) = true
  · rw [if_pos ha]
    unfold BackendMemory.find
    dsimp only
    rw [List.find?_map]
    have hcomp : ((fun e : GameState × RatingGame => e.1 == s') ∘
        fun e : GameState × RatingGame => if (e.1 == s) = true then (e.1, f e.2) else e) =
        fun e => e.1 == s' := by
      funext e
      simp only [Function.comp]
      split <;> rfl
    rw [hcomp]
    by_cases hs : s' = s
    · subst hs
      rw [if_pos rfl]
      obtain ⟨e, he, hes⟩ := BackendMemory.any_eq_true _ _ ha
      rw [he]
      simp [hes]
    · rw [if_neg hs]
      cases hf : b.gameStates.find? (fun e => e.1 == s') with
      | none => rfl
      | some e =>
        have h1 : e.1 = s' := by simpa using List.find?_some hf
        have h2 : ¬ e.1 = s := by
          rw [h1]
          exact hs
        simp [h2]
  · have ha' : b.gameStates.any (fun e => e.1 == s) = false := (Bool.not_eq_true _).mp ha
    rw [if_neg ha]
    unfold BackendMemory.find
    dsimp only
    rw [List.find?_append]
    by_cases hs : s' = s
    · subst hs
      rw [if_pos rfl, BackendMemory.any_eq_false _ _ ha']
      simp
    · rw [if_neg hs]
      have : List.find? (fun e : GameState × RatingGame => e.1 == s') [(s, f RatingGame.default)] =
          none := by
        rw [List.find?_eq_none]
        intro e he
        rw [List.mem_singleton] at he
        rw [he]
        simpa using fun h => hs h.symm
      rw [this, Option.or_none]

theorem BackendMemory.ratingCount_modify (b : BackendMemory) (s s' : GameState) (adj : Rating) :
    (b.modify s fun g => g.applyAdjustment adj).ratingCount s' =
      if s' = s then (b.ratingCount s + 1) % 2 ^ 64 else b.ratingCount s' := by
  unfold BackendMemory.ratingCount
  rw [BackendMemory.find_modify]
  by_cases hs : s' = s
  · subst hs
    rw [if_pos rfl, if_pos rfl]
    cases b.find s' <;> rfl
  · rw [if_neg hs, if_neg hs]

theorem BackendMemory.ratingOf_modify (b : BackendMemory) (s s' : GameState) (adj : Rating) :
    (b.modify s fun g => g.applyAdjustment adj).ratingOf s' =
      if s' = s then (b.ratingOf s).add adj else b.ratingOf s' := by
  unfold BackendMemory.ratingOf
  rw [BackendMemory.find_modify]
  by_cases hs : s' = s
  · subst hs
    rw [if_pos rfl, if_pos rfl]
    cases b.find s' <;> rfl
  · rw [if_neg hs, if_neg hs]

theorem BackendMemory.modify_WF (b : BackendMemory) (s : GameState)
    (f : RatingGame → RatingGame) (h : b.WF) : (b.modify s f).WF := by
  unfold BackendMemory.modify
  by_cases ha : b.gameStates.any (fun e => e.1 == s) = true
  · rw [if_pos ha]
    unfold BackendMemory.WF
    dsimp only
    rw [List.map_map]
    have hcomp : ((fun e : GameState × RatingGame => e.1) ∘
        fun e : GameState × RatingGame => if (e.1 == s) = true then (e.1, f e.2) else e) =
        fun e => e.1 := by
      funext e
      simp only [Function.comp]
      split <;> rfl
    rw [hcomp]
    exact h
  · rw [if_neg ha]
    unfold BackendMemory.WF
    dsimp only
    rw [List.map_append, List.nodup_append]
    refine ⟨h, List.nodup_singleton _, ?_⟩
    intro x hx hx'
    simp only [List.map_cons, List.map_nil, List.mem_singleton] at hx'
    subst hx'
    obtain ⟨e, he, hes⟩ := List.mem_map.mp hx
    exact ha (List.any_eq_true.mpr ⟨e, he, by simpa using hes⟩)

theorem sum_map_modify (l : List (GameState × RatingGame)) (s : GameState)
    (f : RatingGame → RatingGame) (hn : (l.map fun e => e.1).Nodup) (e0 : GameState × RatingGame)
    (hf : l.find? (fun e => e.1 == s) = some e0) :
    ((l.map fun e => if (e.1 == s) = true then (e.1, f e.2) else e).map
        fun e => e.2.ratingCount).sum + e0.2.ratingCount =
      (l.map fun e => e.2.ratingCount).sum + (f e0.2).ratingCount := by
  induction l with
  | nil => cases hf
  | cons e l ih =>
    rw [List.map_cons, List.nodup_cons] at hn
    by_cases hes : (e.1 == s) = true
    · have he0 : e = e0 := by
        rw [List.find?_cons, hes] at hf
        simpa using hf
      subst he0
      have hrest : (l.map fun x => if (x.1 == s) = true then (x.1, f x.2) else x) = l := by
        conv_rhs => rw [← List.map_id l]
        apply List.map_congr_left
        intro x hx
        have hne : ¬ (x.1 == s) = true := by
          intro hxs
          have h1 : x.1 = e.1 := by
            have a1 : x.1 = s := by simpa using hxs
            have a2 : e.1 = s := by simpa using hes
            rw [a1, a2]
          exact hn.1 (List.mem_map.mpr ⟨x, hx, h1⟩)
        rw [if_neg hne]
        rfl
      simp only [List.map_cons, List.sum_cons, if_pos hes, hrest]
      omega
    · have hf' : l.find? (fun e => e.1 == s) = some e0 := by
        rw [List.find?_cons] at hf
        have : (e.1 == s) = false := by simpa using hes
        rw [this] at hf
        exact hf
      have := ih hn.2 hf'
      simp only [List.map_cons, List.sum_cons, if_neg hes]
      omega

theorem BackendMemory.totalCount_modify (b : BackendMemory) (s : GameState) (adj : Rating)
    (h : b.WF) :
    (b.modify s fun g => g.applyAdjustment adj).totalCount + b.ratingCount s =
      b.totalCount + (b.ratingCount s + 1) % 2 ^ 64 := by
  unfold BackendMemory.modify
  by_cases ha : b.gameStates.any (fun e => e.1 == s) = true
  · rw [if_pos ha]
    obtain ⟨e0, he0, _⟩ := BackendMemory.any_eq_true _ _ ha
    have hc : b.ratingCount s = e0.2.ratingCount := by
      unfold BackendMemory.ratingCount BackendMemory.find
      rw [he0]
      rfl
    rw [hc]
    exact sum_map_modify b.gameStates s (fun g => g.applyAdjustment adj) h e0 he0
  · rw [if_neg ha]
    have ha' : b.gameStates.any (fun e => e.1 == s) = false := (Bool.not_eq_true _).mp ha
    have hc : b.ratingCount s = 0 := by
      unfold BackendMemory.ratingCount BackendMemory.find
      rw [BackendMemory.any_eq_false _ _ ha']
      rfl
    rw [hc]
    unfold BackendMemory.totalCount
    dsimp only
    rw [List.map_append, List.sum_append]
    simp [RatingGame.applyAdjustment, RatingGame.default]

/-- The loop of `addGame` over the pairs of entries and adjustments. -/
theorem BackendMemory.foldl_facts (ps : List (GameTurn × Rating)) (b : BackendMemory)
    (h : b.WF) (hno : ∀ s, b.ratingCount s + ps.length < 2 ^ 64) :
    (ps.foldl (fun acc p => acc.modify p.1.state fun g => g.applyAdjustment p.2) b).WF ∧
    (∀ s, (ps.foldl (fun acc p => acc.modify p.1.state fun g => g.applyAdjustment p.2)
        b).ratingCount s = b.ratingCount s + ps.countP fun p => p.1.state == s) ∧
    (ps.foldl (fun acc p => acc.modify p.1.state fun g => g.applyAdjustment p.2) b).totalCount =
      b.totalCount + ps.length ∧
    (∀ s, (ps.foldl (fun acc p => acc.modify p.1.state fun g => g.applyAdjustment p.2)
        b).ratingOf s =
      ((ps.filter fun p => p.1.state == s).map fun p => p.2).foldl Rating.add (b.ratingOf s)) := by
  induction ps generalizing b with
  | nil => exact ⟨h, fun s => by simp, by simp, fun s => by simp⟩
  | cons p ps ih =>
    have hlen : (p :: ps).length = ps.length + 1 := rfl
    have hmod : ∀ s, (b.modify p.1.state fun g => g.applyAdjustment p.2).ratingCount s =
        b.ratingCount s + if s = p.1.state then 1 else 0 := by
      intro s
      rw [BackendMemory.ratingCount_modify]
      by_cases hs : s = p.1.state
      · rw [if_pos hs, if_pos hs, ← hs]
        exact Nat.mod_eq_of_lt (by have := hno s; omega)
      · rw [if_neg hs, if_neg hs]
        rfl
    have hno' : ∀ s, (b.modify p.1.state fun g => g.applyAdjustment p.2).ratingCount s +
        ps.length < 2 ^ 64 := by
      intro s
      rw [hmod s]
      have := hno s
      split <;> omega
    obtain ⟨h1, h2, h3, h4⟩ := ih _ (BackendMemory.modify_WF b _ _ h) hno'
    rw [List.foldl_cons]
    refine ⟨h1, fun s => ?_, ?_, fun s => ?_⟩
    · rw [h2 s, hmod s, List.countP_cons]
      by_cases hs : s = p.1.state
      · have : (p.1.state == s) = true := by simpa using hs.symm
        rw [if_pos hs, this]
        simp only [if_true]
        omega
      · have : (p.1.state == s) = false := by simpa using fun h => hs h.symm
        rw [if_neg hs, this]
        simp
    · rw [h3]
      have ht := BackendMemory.totalCount_modify b p.1.state p.2 h
      have hm : (b.ratingCount p.1.state + 1) % 2 ^ 64 = b.ratingCount p.1.state + 1 :=
        Nat.mod_eq_of_lt (by have := hno p.1.state; omega)
      omega
    · rw [h4 s, BackendMemory.ratingOf_modify]
      by_cases hs : s = p.1.state
      · have : (p.1.state == s) = true := by simpa using hs.symm
        rw [if_pos hs, List.filter_cons, this]
        simp only [if_true, List.map_cons, List.foldl_cons]
        rw [hs]
      · have : (p.1.state == s) = false := by simpa using fun h => hs h.symm
        rw [if_neg hs, List.filter_cons, this]
        simp

theorem countP_zip_fst {α β : Type} (l : List α) (r : List β) (q : α → Bool)
    (h : l.length = r.length) : (l.zip r).countP (fun p => q p.1) = l.countP q := by
  have h1 : (l.zip r).map Prod.fst = l := List.map_fst_zip _ _ (Nat.le_of_eq h)
  conv_rhs => rw [← h1]
  rw [List.countP_map]
  rfl

/-- Claim C29. `BackendMemory::addGame` of a game log applies one rating adjustment
for each entry of the log, to the rating stored for the state of that entry: the
rating count of a state grows by the number of entries with that state, the sum of
the rating counts of all stored states grows by the size of the log, and the
rating of a state is the previous one plus the adjustments of the entries with that
state, in the order of the log. For the empty log the map stays as it is. The
counts are of type `uint64_t` and are taken not to wrap around. -/
theorem addGame_counts (b : BackendMemory) (log : GameLog) (hwf : b.WF)
    (hno : ∀ s, b.ratingCount s + log.size < 2 ^ 64) :
    ∃ b' adjustments, b.addGame log = .ok b' ∧ b'.WF ∧
      log.createRatingAdjustments = .ok adjustments ∧ adjustments.length = log.size ∧
      (∀ s, b'.ratingCount s = b.ratingCount s + log.turns.countP fun t => t.state == s) ∧
      b'.totalCount = b.totalCount + log.size ∧
      (∀ s, b'.ratingOf s =
        (((log.turns.zip adjustments).filter fun p => p.1.state == s).map fun p => p.2).foldl
          Rating.add (b.ratingOf s)) ∧
      (log.turns = [] → b' = b) := by
  obtain ⟨adjustments, hadj, hlen⟩ := GameLog.createRatingAdjustments_ok log
  by_cases he : log.turns = []
  · refine ⟨b, adjustments, ?_, hwf, hadj, hlen, fun s => ?_, ?_, fun s => ?_, fun _ => rfl⟩
    · unfold BackendMemory.addGame
      rw [he]
      rfl
    · rw [he]
      rfl
    · unfold GameLog.size
      rw [he]
      rfl
    · rw [he]
      rfl
  · have hne : log.turns.isEmpty = false := by
      cases h : log.turns with
      | nil => exact absurd h he
      | cons a l => rfl
    have hzip : (log.turns.zip adjustments).length = log.size := by
      rw [List.length_zip, hlen]
      exact Nat.min_self _
    obtain ⟨h1, h2, h3, h4⟩ := BackendMemory.foldl_facts (log.turns.zip adjustments) b hwf
      (by rw [hzip]; exact hno)
    refine ⟨_, adjustments, ?_, h1, hadj, hlen, fun s => ?_, ?_, h4, fun h => absurd h he⟩
    · unfold BackendMemory.addGame
      rw [hne, hadj]
      simp only [Bool.false_eq_true, if_false, bind, Except.bind]
      rw [if_neg (by rw [hlen]; exact fun h => h rfl)]
      rfl
    · rw [h2 s, countP_zip_fst log.turns adjustments (fun st => st.state == s) hlen.symm]
    · rw [h3, hzip]

set_option maxRecDepth 1000000 in
theorem addGame_counts_witness :
    (BackendMemory.mk []).WF ∧
    (∀ s, (BackendMemory.mk []).ratingCount s + sampleLog.size < 2 ^ 64) ∧
    ∃ b', (BackendMemory.mk []).addGame sampleLog = .ok b' ∧
      b'.ratingCount startingState = 3 ∧ b'.totalCount = 3 := by
  have hwf : (BackendMemory.mk []).WF := List.nodup_nil
  have hno : ∀ s, (BackendMemory.mk []).ratingCount s + sampleLog.size < 2 ^ 64 := by
    intro s
    show 0 + 3 < 2 ^ 64
    decide
  obtain ⟨b', _, h1, _, _, _, h2, h3, _, _⟩ := addGame_counts (BackendMemory.mk []) sampleLog hwf hno
  refine ⟨hwf, hno, b', h1, ?_, ?_⟩
  · rw [h2 startingState]
    decide
  · rw [h3]
    rfl

/-! ### The rejection of data of a wrong size -/

theorem Serialization.substr_length (data : List Char) (pos len : Nat)
    (h : pos + len ≤ data.length) : (Serialization.substr data pos len).length = len := by
  unfold Serialization.substr
  rw [List.length_take, List.length_drop]
  omega

theorem Serialization.pieces_length (data : List Char) (size count : Nat)
    (h : size * count ≤ data.length) :
    ∀ p ∈ Serialization.pieces data size count, p.length = size := by
  intro p hp
  unfold Serialization.pieces at hp
  obtain ⟨i, hi, rfl⟩ := List.mem_map.mp hp
  rw [List.mem_range] at hi
  apply Serialization.substr_length
  have : (i + 1) * size ≤ size * count := by
    rw [Nat.mul_comm size count]
    exact Nat.mul_le_mul_right _ hi
  have e : (i + 1) * size = i * size + size := by ring
  omega

theorem Stone.stone_fromData_ok (data : List Char) (h : data.length = 1) :
    ∃ s, Stone.fromData data = .ok s := by
  unfold Stone.fromData
  rw [if_neg (by omega)]
  split <;> exact ⟨_, rfl⟩

theorem Orientation.orientation_fromData_ok (data : List Char) (h : data.length = 1) :
    ∃ o, Orientation.fromData data = .ok o := by
  unfold Orientation.fromData
  rw [if_neg (by omega)]
  split <;> exact ⟨_, rfl⟩

theorem Field.field_fromData_ok (data : List Char) (h : data.length = 3) :
    ∃ f, Field.fromData data = .ok f := by
  obtain ⟨a, b, c, rfl⟩ := List.length_eq_three.mp h
  unfold Field.fromData
  dsimp only
  split
  · exact ⟨_, rfl⟩
  · obtain ⟨s, hs⟩ := Stone.stone_fromData_ok [a] rfl
    obtain ⟨o, ho⟩ := Orientation.orientation_fromData_ok [b] rfl
    rw [hs, ho]
    exact ⟨_, rfl⟩

theorem Field.field_fromData_size (data : List Char) (h : data.length ≠ 3) :
    Field.fromData data = .error "Field: Invalid data size." := by
  unfold Field.fromData
  split
  · simp at h
  · rfl

theorem OrbPosition.orbPosition_fromData_ok (data : List Char) (h : data.length = 5) :
    ∃ o, OrbPosition.fromData data = .ok o := by
  match data, h with
  | [a, b, c, d, e], _ =>
    unfold OrbPosition.fromData
    dsimp only
    split <;> exact ⟨_, rfl⟩

theorem OrbPosition.orbPosition_fromData_size (data : List Char) (h : data.length ≠ 5) :
    OrbPosition.fromData data = .error "OrbPosition: Invalid data size." := by
  unfold OrbPosition.fromData
  split
  · simp at h
  · rfl

theorem Position.position_fromData_size (data : List Char) (h : data.length ≠ 2) :
    Position.fromData data = Position.invalid := by
  unfold Position.fromData
  split
  · simp at h
  · rfl

theorem Serialization.board_ok (data : List Char) (h : data.length = Serialization.boardDataSize) :
    ∃ b, Serialization.boardFromData data = .ok b := by
  unfold Serialization.boardFromData
  rw [if_neg (by omega)]
  obtain ⟨fs, hfs, _⟩ := mapM_ok_of_forall Field.fromData
    (Serialization.pieces data Serialization.fieldDataSize (Board.stateSize * Board.stateSize))
    (fun p hp => Field.field_fromData_ok p
      (Serialization.pieces_length data _ _ (Nat.le_of_eq h.symm) p hp))
  rw [hfs]
  exact ⟨_, rfl⟩

theorem Serialization.stonePool_ok (data : List Char)
    (h : data.length = Serialization.actionPoolDataSize) :
    ∃ p, Serialization.stonePoolFromData data = .ok p := by
  unfold Serialization.stonePoolFromData
  rw [if_neg (by omega)]
  obtain ⟨fs, hfs, _⟩ := mapM_ok_of_forall Stone.fromData
    (Serialization.pieces data 1 setup.actionPoolSize)
    (fun p hp => Stone.stone_fromData_ok p
      (Serialization.pieces_length data _ _ (by rw [h]; decide) p hp))
  rw [hfs]
  exact ⟨_, rfl⟩

theorem Serialization.actionPools_ok (data : List Char)
    (h : data.length = Serialization.actionPoolsDataSize) :
    ∃ p, Serialization.actionPoolsFromData data = .ok p := by
  unfold Serialization.actionPoolsFromData
  rw [if_neg (by omega)]
  obtain ⟨fs, hfs, _⟩ := mapM_ok_of_forall Serialization.stonePoolFromData
    (Serialization.pieces data Serialization.actionPoolDataSize 4)
    (fun p hp => Serialization.stonePool_ok p
      (Serialization.pieces_length data _ _ (Nat.le_of_eq h.symm) p hp))
  rw [hfs]
  exact ⟨_, rfl⟩

theorem Serialization.orbPositions_ok (data : List Char)
    (h : data.length = Serialization.orbPositionsDataSize) :
    ∃ p, Serialization.orbPositionsFromData data = .ok p := by
  unfold Serialization.orbPositionsFromData
  rw [if_neg (by omega)]
  obtain ⟨fs, hfs, _⟩ := mapM_ok_of_forall OrbPosition.fromData
    (Serialization.pieces data Serialization.orbPositionDataSize setup.orbCount)
    (fun p hp => OrbPosition.orbPosition_fromData_ok p
      (Serialization.pieces_length data _ _ (Nat.le_of_eq h.symm) p hp))
  rw [hfs]
  exact ⟨_, rfl⟩

theorem Serialization.action_ok (data : List Char)
    (h : data.length = Serialization.actionDataSize) :
    ∃ a, Serialization.actionFromData data = .ok a := by
  have h6 : data.length = 6 := h
  unfold Serialization.actionFromData
  rw [if_neg (by omega)]
  obtain ⟨s1, hs1⟩ := Stone.stone_fromData_ok (Serialization.substr data 1 1)
    (Serialization.substr_length data 1 1 (by omega))
  obtain ⟨o, ho⟩ := Orientation.orientation_fromData_ok (Serialization.substr data 2 1)
    (Serialization.substr_length data 2 1 (by omega))
  obtain ⟨s2, hs2⟩ := Stone.stone_fromData_ok (Serialization.substr data 3 1)
    (Serialization.substr_length data 3 1 (by omega))
  simp only [hs1, ho, hs2, bind, Except.bind, pure, Except.pure]
  exact ⟨_, rfl⟩

theorem Serialization.actionSequence_ok (data : List Char)
    (h : data.length = Serialization.actionSequenceDataSize) :
    ∃ a, Serialization.actionSequenceFromData data = .ok a := by
  unfold Serialization.actionSequenceFromData
  rw [if_neg (by omega)]
  obtain ⟨fs, hfs, _⟩ := mapM_ok_of_forall Serialization.actionFromData
    (Serialization.pieces data Serialization.actionDataSize 2)
    (fun p hp => Serialization.action_ok p
      (Serialization.pieces_length data _ _ (Nat.le_of_eq h.symm) p hp))
  exact ⟨fs, hfs⟩

theorem Serialization.gameMove_ok (data : List Char)
    (h : data.length = Serialization.gameMoveDataSize)
    (hp : Serialization.substr data 0 3 = ['M', '1', ':']) :
    ∃ m, Serialization.gameMoveFromData data = .ok m := by
  have h20 : data.length = 20 := h
  unfold Serialization.gameMoveFromData
  rw [if_neg (by omega), if_neg (by simp [hp])]
  obtain ⟨a, ha⟩ := Serialization.actionSequence_ok
    (Serialization.substr data 3 Serialization.actionSequenceDataSize)
    (Serialization.substr_length data 3 _ (by rw [h20]; decide))
  obtain ⟨s, hs⟩ := Stone.stone_fromData_ok
    (Serialization.substr data (3 + Serialization.actionSequenceDataSize) 1)
    (Serialization.substr_length data _ 1 (by rw [h20]; decide))
  have hm : (Serialization.substr data (3 + Serialization.actionSequenceDataSize + 1)
      Serialization.orbMoveDataSize).length = Serialization.orbMoveDataSize :=
    Serialization.substr_length data _ _ (by rw [h20]; decide)
  simp only [ha, hs, bind, Except.bind, Serialization.orbMoveFromData, hm, ne_eq,
    not_true_eq_false, if_false, pure, Except.pure]
  exact ⟨_, rfl⟩

theorem GameState.gameState_fromData_ok (data : List Char) (h : data.length = GameState.dataSize)
    (hp : Serialization.substr data 0 3 = ['S', '1', ':']) :
    ∃ g, GameState.fromData data = .ok g := by
  have hsize : GameState.dataSize = 284 := by decide
  have hl : data.length = 284 := by rw [h, hsize]
  unfold GameState.fromData
  rw [if_neg (by omega), if_neg (by simp [hp])]
  obtain ⟨b, hb⟩ := Serialization.board_ok
    (Serialization.substr data 3 Serialization.boardDataSize)
    (Serialization.substr_length data 3 _ (by rw [hl]; decide))
  obtain ⟨a, ha⟩ := Serialization.actionPools_ok
    (Serialization.substr data (3 + Serialization.boardDataSize)
      Serialization.actionPoolsDataSize)
    (Serialization.substr_length data _ _ (by rw [hl]; decide))
  obtain ⟨o, ho⟩ := Serialization.orbPositions_ok
    (Serialization.substr data
      (3 + Serialization.boardDataSize + Serialization.actionPoolsDataSize)
      Serialization.orbPositionsDataSize)
    (Serialization.substr_length data _ _ (by rw [hl]; decide))
  have hr : (Serialization.substr data
      (3 + Serialization.boardDataSize + Serialization.actionPoolsDataSize +
        Serialization.orbPositionsDataSize) Serialization.resourcePoolDataSize).length =
      Serialization.resourcePoolDataSize :=
    Serialization.substr_length data _ _ (by rw [hl]; decide)
  simp only [hb, ha, ho, bind, Except.bind, Serialization.resourcePoolFromData, hr, ne_eq,
    not_true_eq_false, if_false, pure, Except.pure]
  exact ⟨_, rfl⟩

/-- Claim C30, as the code has it. Every `fromData` but the one of `Position` raises
the error "Invalid data size." of its type for data of a length other than
`dataSize()`; `Position::fromData` raises no error and returns the invalid
position for such data. `GameMove::fromData` and `GameState::fromData` raise the
error "Invalid data prefix." for data of the right length that do not begin with
`M1:` and `S1:`, and return a value for all data of the right length with that
prefix. -/
theorem fromData_rejects_wrong_size :
    (∀ data : List Char, data.length ≠ 1 →
      Stone.fromData data = .error "Stone: Invalid data size.") ∧
    (∀ data : List Char, data.length ≠ 1 →
      Orientation.fromData data = .error "Orientation: Invalid data size.") ∧
    (∀ data : List Char, data.length ≠ 2 → Position.fromData data = Position.invalid) ∧
    (∀ data : List Char, data.length ≠ 3 →
      Field.fromData data = .error "Field: Invalid data size.") ∧
    (∀ data : List Char, data.length ≠ Serialization.actionDataSize →
      Serialization.actionFromData data = .error "Action: Invalid data size.") ∧
    (∀ data : List Char, data.length ≠ Serialization.actionSequenceDataSize →
      Serialization.actionSequenceFromData data = .error "ActionSequence: Invalid data size.") ∧
    (∀ data : List Char, data.length ≠ 5 →
      OrbPosition.fromData data = .error "OrbPosition: Invalid data size.") ∧
    (∀ data : List Char, data.length ≠ Serialization.orbMoveDataSize →
      Serialization.orbMoveFromData data = .error "OrbMove: Invalid data size.") ∧
    (∀ data : List Char, data.length ≠ Serialization.actionPoolDataSize →
      Serialization.stonePoolFromData data = .error "StonePool: Invalid data size.") ∧
    (∀ data : List Char, data.length ≠ Serialization.actionPoolsDataSize →
      Serialization.actionPoolsFromData data = .error "ActionPools: Invalid data size.") ∧
    (∀ data : List Char, data.length ≠ Serialization.resourcePoolDataSize →
      Serialization.resourcePoolFromData data = .error "ResourcePool: Invalid data size.") ∧
    (∀ data : List Char, data.length ≠ Serialization.orbPositionsDataSize →
      Serialization.orbPositionsFromData data = .error "OrbPositions: Invalid data size.") ∧
    (∀ data : List Char, data.length ≠ Serialization.boardDataSize →
      Serialization.boardFromData data = .error "Board: Invalid data size.") ∧
    (∀ data : List Char, data.length ≠ Serialization.gameMoveDataSize →
      Serialization.gameMoveFromData data = .error "GameMove: Invalid data size.") ∧
    (∀ data : List Char, data.length ≠ GameState.dataSize →
      GameState.fromData data = .error "GameState: Invalid data size.") ∧
    (∀ data : List Char, data.length = Serialization.gameMoveDataSize →
      Serialization.substr data 0 3 ≠ ['M', '1', ':'] →
      Serialization.gameMoveFromData data = .error "GameMove: Invalid data prefix.") ∧
    (∀ data : List Char, data.length = GameState.dataSize →
      Serialization.substr data 0 3 ≠ ['S', '1', ':'] →
      GameState.fromData data = .error "GameState: Invalid data prefix.") ∧
    (∀ data : List Char, data.length = Serialization.gameMoveDataSize →
      Serialization.substr data 0 3 = ['M', '1', ':'] →
      ∃ m, Serialization.gameMoveFromData data = .ok m) ∧
    (∀ data : List Char, data.length = GameState.dataSize →
      Serialization.substr data 0 3 = ['S', '1', ':'] →
      ∃ g, GameState.fromData data = .ok g) := by
  refine ⟨fun data h => ?_, fun data h => ?_, Position.position_fromData_size, Field.field_fromData_size,
    fun data h => ?_, fun data h => ?_, OrbPosition.orbPosition_fromData_size, fun data h => ?_,
    fun data h => ?_, fun data h => ?_, fun data h => ?_, fun data h => ?_, fun data h => ?_,
    fun data h => ?_, fun data h => ?_, fun data h hp => ?_, fun data h hp => ?_,
    Serialization.gameMove_ok, GameState.gameState_fromData_ok⟩
  · unfold Stone.fromData
    rw [if_pos h]
  · unfold Orientation.fromData
    rw [if_pos h]
  · unfold Serialization.actionFromData
    rw [if_pos h]
  · unfold Serialization.actionSequenceFromData
    rw [if_pos h]
  · unfold Serialization.orbMoveFromData
    rw [if_pos h]
  · unfold Serialization.stonePoolFromData
    rw [if_pos h]
  · unfold Serialization.actionPoolsFromData
    rw [if_pos h]
  · unfold Serialization.resourcePoolFromData
    rw [if_pos h]
  · unfold Serialization.orbPositionsFromData
    rw [if_pos h]
  · unfold Serialization.boardFromData
    rw [if_pos h]
  · unfold Serialization.gameMoveFromData
    rw [if_pos h]
  · unfold GameState.fromData
    rw [if_pos h]
  · unfold Serialization.gameMoveFromData
    rw [if_neg (by simp [h]), if_pos hp]
  · unfold GameState.fromData
    rw [if_neg (by simp [h]), if_pos hp]

/-- The claim C30 fails for `Position::fromData`: for the empty string and for a
string of three hexadecimal digits it returns the invalid position, without an
error. -/
theorem position_fromData_accepts_wrong_size :
    Position.fromData [] = Position.invalid ∧
    Position.fromData ['1', '2', '3'] = Position.invalid ∧
    Position.fromData ['1', '2'] = ⟨1, 2⟩ := by
  decide

/-! ### The comparison of rotations -/

/-- C31, amended: the operator `==` of `Rotation` compares the stored values with their
signs, so two rotations are equal only if they are the same enumerator; rotations that
are congruent modulo 4 are equal after `wrapToClockwise`, and only then. -/
theorem rotation_eq_compares_values :
    ∀ a b : Rotation, (Rotation.eq a b = true ↔ a = b) ∧
      (Rotation.eq a.wrapToClockwise b.wrapToClockwise = true ↔
        a.value % 4 = b.value % 4) := by
  decide

/-- C31, evaluated on the code: `Clockwise270` and `CounterClockwise90` are congruent
modulo 4 and compare unequal, and so do `Clockwise180` and `CounterClockwise180`. -/
theorem rotation_eq_keeps_sign :
    Rotation.Clockwise270.value % 4 = Rotation.CounterClockwise90.value % 4 ∧
    Rotation.eq .Clockwise270 .CounterClockwise90 = false ∧
    Rotation.Clockwise180.value % 4 = Rotation.CounterClockwise180.value % 4 ∧
    Rotation.eq .Clockwise180 .CounterClockwise180 = false := by
  decide

/-! ### The rotation of positions -/

theorem Position.rotated_quarter (x y N : Nat) (hx : x < N) (hy : y < N) (hN : N ≤ 15) :
    (Position.mk x y).rotated .Clockwise90 N = ⟨y, N - 1 - x⟩ := by
  unfold Position.rotated Position.isInvalid Position.maxLength
  have h1 : ((x == 15) || (y == 15)) = false := by
    simp only [Bool.or_eq_false_iff, beq_eq_false_iff_ne, ne_eq]
    omega
  simp only [h1, Bool.false_eq_true, if_false, Position.mk.injEq]
  omega

/-- C34, evaluated on the code: `rotated(Clockwise90, N)` is the quarter turn
`(x, y) -> (y, N-1-x)`, four of them give the position back, and the invalid position is
a fixed point of every rotation; but `rotated(Clockwise180, 10)` and
`rotated(Clockwise270, 10)` are not two and three quarter turns (at `(1, 0)` they give
`(9, 8)` and `(8, 0)` where the quarter turns give `(8, 9)` and `(9, 1)`), so
`p.rotated(r1).rotated(r2)` differs from `p.rotated(r1 + r2)` for
`r1 = r2 = Clockwise90`, and a counter-clockwise rotation leaves the position
unchanged instead of turning it like the congruent clockwise rotation. -/
theorem position_rotated_not_action :
    (∀ (r : Rotation) (N : Nat), Position.invalid.rotated r N = Position.invalid) ∧
    (∀ x y N, x < N → y < N → N ≤ 15 →
      (Position.mk x y).rotated .Clockwise90 N = ⟨y, N - 1 - x⟩ ∧
      ((((Position.mk x y).rotated .Clockwise90 N).rotated .Clockwise90 N).rotated
        .Clockwise90 N).rotated .Clockwise90 N = ⟨x, y⟩) ∧
    Rotation.add .Clockwise90 .Clockwise90 = .Clockwise180 ∧
    ((Position.mk 1 0).rotated .Clockwise90 10).rotated .Clockwise90 10 = ⟨8, 9⟩ ∧
    (Position.mk 1 0).rotated (Rotation.add .Clockwise90 .Clockwise90) 10 = ⟨9, 8⟩ ∧
    (((Position.mk 1 0).rotated .Clockwise90 10).rotated .Clockwise90 10).rotated
      .Clockwise90 10 = ⟨9, 1⟩ ∧
    (Position.mk 1 0).rotated .Clockwise270 10 = ⟨8, 0⟩ ∧
    Rotation.CounterClockwise90.wrapToClockwise = .Clockwise270 ∧
    (∀ (p : Position) (N : Nat), p.isInvalid = false →
      p.rotated .CounterClockwise90 N = p ∧ p.rotated .CounterClockwise180 N = p ∧
      p.rotated .CounterClockwise270 N = p) := by
  refine ⟨?_, ?_, by decide, by decide, by decide, by decide, by decide, by decide, ?_⟩
  · intro r N
    cases r <;> rfl
  · intro x y N hx hy hN
    refine ⟨Position.rotated_quarter x y N hx hy hN, ?_⟩
    rw [Position.rotated_quarter x y N hx hy hN,
      Position.rotated_quarter y (N - 1 - x) N hy (by omega) hN,
      Position.rotated_quarter (N - 1 - x) (N - 1 - y) N (by omega) (by omega) hN,
      Position.rotated_quarter (N - 1 - y) (N - 1 - (N - 1 - x)) N (by omega) (by omega) hN]
    simp only [Position.mk.injEq]
    omega
  · intro p N hp
    unfold Position.rotated
    simp [hp]

/-! ### Fields without ko-lock -/

theorem forall₂_sameStone_eq (l l' : List Field) (h : List.Forall₂ Field.sameStone l l')
    (hk : ∀ f ∈ l, f.koLock = 0) : l' = l := by
  induction h with
  | nil => rfl
  | @cons a b l1 l2 hab _ ih =>
    have ha := hk a (List.mem_cons_self _ _)
    obtain ⟨h1, h2, h3⟩ := hab
    have hb : b = a := by
      obtain ⟨s, o, k⟩ := a
      obtain ⟨s', o', k'⟩ := b
      simp only at h1 h2 h3 ha
      simp only [Field.mk.injEq]
      exact ⟨h1, h2, by omega⟩
    rw [hb, ih fun x hx => hk x (List.mem_cons_of_mem _ hx)]

/-- A board of 64 fields without ko-lock is left as it is by `nextTurn`. -/
theorem Board.nextTurn_of_no_koLock (b : Board) (hl : b.state.length = 64)
    (hk : ∀ f ∈ b.state, f.koLock = 0) : b.nextTurn = .ok b := by
  obtain ⟨b', hb, hs⟩ := Board.board_nextTurn_ok b hl
  rw [hb]
  have := forall₂_sameStone_eq _ _ hs hk
  obtain ⟨st⟩ := b
  obtain ⟨st'⟩ := b'
  simp only at this
  rw [this]

set_option maxRecDepth 100000 in
theorem frame_no_koLock : ∀ ff ∈ Board.frame.fields, ff.field.koLock = 0 := by
  decide

/-- C40: in every state reached from the starting state by `executeMove` and
`rotated`, every field of the interior has ko-lock 0, and so has every field that
`Board::field` returns, the fields of the frame included; `Field::isValidChange` is
then decided by the stone and the orientation alone, its ko-lock condition never
rejects; and `Board::nextTurn` leaves the board as it is. -/
theorem fields_never_ko_locked (g : GameState) (h : ReachableByPlay g) :
    (∀ f ∈ g.board.state, f.koLock = 0) ∧
    (∀ p f, g.board.field p = .ok f → f.hasKoLock = false) ∧
    (∀ f ∈ g.board.state, ∀ (s : Stone) (o : Orientation),
      f.isValidChange s o =
        (!f.empty && (decide (f.stone ≠ s) || !f.stone.isEqual f.orientation o))) ∧
    g.board.nextTurn = .ok g.board := by
  have hw := (ReachableByPlay.inv g h).1
  have hk : ∀ f ∈ g.board.state, f.koLock = 0 := fun f hf => (hw.2.1 f hf).2
  refine ⟨hk, ?_, ?_, Board.nextTurn_of_no_koLock g.board hw.1 hk⟩
  · intro p f hf
    unfold Board.field at hf
    cases hff : Board.frame.field p with
    | error e => rw [hff] at hf; simp [bind, Except.bind] at hf
    | ok ff =>
      rw [hff] at hf
      simp only [bind, Except.bind, pure, Except.pure] at hf
      by_cases hs : ff.isStatic = true
      · rw [if_pos hs] at hf
        cases hf
        have hm : ff ∈ Board.frame.fields :=
          List.get?_mem ((FieldGrid.field_ok_iff _ _ _ _).mp hff).2.2
        have := frame_no_koLock ff hm
        simp [Field.hasKoLock, FrameField.toField, this]
      · rw [if_neg hs] at hf
        have := hk f (Board.stateField_mem _ _ _ hf)
        simp [Field.hasKoLock, this]
  · intro f hf s o
    have := hk f hf
    unfold Field.isValidChange Field.hasKoLock
    rw [this]
    by_cases he : f.empty = true
    · simp [he]
    · simp only [Bool.not_eq_true] at he
      by_cases hs : f.stone = s
      · simp [he, hs]
      · simp [he, hs]

set_option maxRecDepth 100000 in
/-- C40 on the state after the first placement: the placed `Crossing` has no ko-lock,
and the next turn does not change the board. -/
theorem fields_never_ko_locked_witness :
    ReachableByPlay firstPlaceState ∧
    firstPlaceState.board.field ⟨1, 1⟩ = .ok ⟨.Crossing, .North, 0⟩ ∧
    firstPlaceState.board.nextTurn = .ok firstPlaceState.board :=
  ⟨firstPlaceState_reachableByPlay, by decide,
    (fields_never_ko_locked firstPlaceState firstPlaceState_reachableByPlay).2.2.2⟩

/-! ### The orb move generator raises no error -/

/-- The loop over the orb records returns when the orbs in play stand on the board. -/
theorem allMovesLoop_returns (g : GameState) (hb : g.board.state.length = 64) :
    ∀ orbs : List OrbPosition,
      (∀ o ∈ orbs.takeWhile (fun r => !r.position.isInvalid), o.position.OnBoard) →
      ∀ result : List OrbMove, ∃ N moves,
        ∀ fuel, N ≤ fuel → OrbMoveGenerator.allMovesLoop fuel g orbs result = .ok (some moves) := by
  intro orbs
  induction orbs with
  | nil =>
    intro _ result
    exact ⟨0, result, fun fuel _ => by simp [OrbMoveGenerator.allMovesLoop, pure, Except.pure]⟩
  | cons o more ih =>
    intro hv result
    by_cases hi : o.position.isInvalid = true
    · exact ⟨0, result, fun fuel _ => allMovesLoop_invalid fuel g o more result hi⟩
    · have hi' : o.position.isInvalid = false := by simpa using hi
      have htw : List.takeWhile (fun r : OrbPosition => !r.position.isInvalid) (o :: more) =
          o :: List.takeWhile (fun r : OrbPosition => !r.position.isInvalid) more := by
        rw [List.takeWhile_cons]
        simp [hi']
      rw [htw] at hv
      have hp : o.position.OnBoard := hv o (List.mem_cons_self _ _)
      have hv' : ∀ r ∈ List.takeWhile (fun r : OrbPosition => !r.position.isInvalid) more,
          r.position.OnBoard := fun r hr => hv r (List.mem_cons_of_mem _ hr)
      by_cases hn : o.position.NotForeignHouse
      · obtain ⟨k, R, hk, _⟩ := followAllPaths_spec g.board hb o.position hp hn
        obtain ⟨N, moves, hN⟩ := ih hv' (OrbMoveGenerator.addStops g.orbPositions o.position result R)
        refine ⟨max k N, moves, fun fuel hfuel => ?_⟩
        rw [allMovesLoop_follow fuel g o more result R hi' hp hn (hk fuel (by omega))]
        exact hN fuel (by omega)
      · obtain ⟨N, moves, hN⟩ := ih hv' result
        refine ⟨N, moves, fun fuel hfuel => ?_⟩
        rw [allMovesLoop_skip fuel g o more result hi' hp hn]
        exact hN fuel hfuel

/-- One pass of the loop keeps the nodes of the stack on cells of the board. -/
theorem onBoard_pass (b : Board) (st st' : OrbMoveGenerator.State)
    (h : ∀ m ∈ st.stack, m.travel.position.OnBoard) (hl : OrbMoveGenerator.loopBody b st = .ok st') :
    ∀ m ∈ st'.stack, m.travel.position.OnBoard := by
  obtain ⟨stack, stops⟩ := st
  cases stack with
  | nil =>
    simp only [OrbMoveGenerator.loopBody, pure, Except.pure, Except.ok.injEq] at hl
    rw [← hl]; exact h
  | cons n rest =>
    have hrest : ∀ m ∈ rest, m.travel.position.OnBoard :=
      fun m hm => h m (List.mem_cons_of_mem _ hm)
    have hn := h n (List.mem_cons_self _ _)
    rcases (loopBody_cases b n rest stops st' hl).2 with hs | ⟨n', hs, hp, _⟩ |
      ⟨n1, f, hs, hp, _, _, _, _, _, hf, _⟩
    · rw [hs]
      exact afterPop_positions _ rest hrest
    · rw [hs]
      intro m hm
      rcases List.mem_cons.mp hm with e | hm
      · rw [e, hp]; exact hn
      · exact hrest m hm
    · rw [hs]
      intro m hm
      rcases List.mem_cons.mp hm with e | hm
      · rw [e]
        rcases from_position n1.nextPoint f with e1 | e1
        · rw [e1]; decide
        · rw [e1]; exact Board.field_onBoard b _ f hf
      · rcases List.mem_cons.mp hm with e | hm
        · rw [e, hp]; exact hn
        · exact hrest m hm

theorem onBoard_iter (b : Board) (k : Nat) (st st' : OrbMoveGenerator.State)
    (h : ∀ m ∈ st.stack, m.travel.position.OnBoard) (hk : OrbMoveGenerator.iter b k st = .ok st') :
    ∀ m ∈ st'.stack, m.travel.position.OnBoard := by
  induction k generalizing st with
  | zero =>
    simp only [OrbMoveGenerator.iter, pure, Except.pure, Except.ok.injEq] at hk
    rw [← hk]; exact h
  | succ k ih =>
    simp only [OrbMoveGenerator.iter] at hk
    cases hl : OrbMoveGenerator.loopBody b st with
    | error e => rw [hl] at hk; simp [bind, Except.bind] at hk
    | ok st1 =>
      rw [hl] at hk
      exact ih st1 (onBoard_pass b st st1 h hl) hk

theorem onBoard_initial (b : Board) (s : Position) (st : OrbMoveGenerator.State)
    (h : OrbMoveGenerator.initialState b s = .ok st) : ∀ m ∈ st.stack, m.travel.position.OnBoard := by
  unfold OrbMoveGenerator.initialState at h
  cases hp : OrbMoveGenerator.pushNext b [] ⟨s, Anchor.Stop⟩ with
  | error e => rw [hp] at h; simp [bind, Except.bind] at h
  | ok pushed =>
    obtain ⟨stack, flag⟩ := pushed
    rw [hp] at h
    simp only [bind, Except.bind, pure, Except.pure, Except.ok.injEq] at h
    rw [← h]
    rcases pushNext_cases b _ _ _ _ hp with ⟨_, hst⟩ | ⟨_, f, hf, hfe, hst⟩
    · rw [hst]; intro m hm; cases hm
    · rw [hst]
      intro m hm
      rw [List.mem_singleton] at hm
      rw [hm]
      rcases from_position ⟨s, Anchor.Stop⟩ f with e1 | e1
      · rw [e1]; decide
      · rw [e1]; exact Board.field_onBoard b _ f hf

/-- The stack of a path search never holds more than 500 nodes, the number of travel
points of the board. -/
theorem stack_length_le (b : Board) (s : Position) (st0 : OrbMoveGenerator.State)
    (h0 : OrbMoveGenerator.initialState b s = .ok st0) (k : Nat) (st : OrbMoveGenerator.State) (hk : OrbMoveGenerator.iter b k st0 = .ok st) :
    st.stack.length ≤ 500 := by
  have hd := (distinct_iter b k st0 st (distinct_initial b s st0 h0) hk).nodup
  have hb := onBoard_iter b k st0 st (onBoard_initial b s st0 h0) hk
  have := points_length_le (OrbMoveGenerator.begins st.stack) hd (by
    intro pt hpt
    obtain ⟨m, hm, rfl⟩ := List.mem_map.mp hpt
    exact hb m hm)
  simpa [OrbMoveGenerator.begins] using this

/-- C38: in a game state with its 64 board fields whose orbs in play (the records in
front of the first record with an invalid position) stand on cells of the 10x10 board,
`allMoves` returns its list of moves once enough passes of the path search are allowed:
no error is raised, neither by a field access outside the board nor by the cap of the
stack. In every path search, from whatever start position and on whatever board, the
stack holds at most 500 nodes after any number of passes, below the cap of 1024. -/
theorem allMoves_completes (g : GameState) (hb : g.board.state.length = 64)
    (hv : ∀ o ∈ inPlayRecords g.orbPositions, o.position.OnBoard) :
    (∃ N moves, ∀ fuel, N ≤ fuel → g.allOrbMoves fuel = .ok (some moves)) ∧
    (∀ (b : Board) (s : Position) (st0 : OrbMoveGenerator.State), OrbMoveGenerator.initialState b s = .ok st0 →
      ∀ (k : Nat) (st : OrbMoveGenerator.State), OrbMoveGenerator.iter b k st0 = .ok st →
        st.stack.length ≤ 500 ∧ st.stack.length < OrbMoveGenerator.maximumStackSize) := by
  refine ⟨allMovesLoop_returns g hb g.orbPositions.positions hv [OrbMove.noMove], ?_⟩
  intro b s st0 h0 k st hk
  have := stack_length_le b s st0 h0 k st hk
  exact ⟨this, by unfold OrbMoveGenerator.maximumStackSize; omega⟩

set_option maxRecDepth 1000000 in
/-- C38 on the state of the unit test `testOneStop`: four orbs are in play on the source
cells, and `allMoves` returns. -/
theorem allMoves_completes_witness :
    (inPlayRecords oneStopState.orbPositions).map OrbPosition.position =
      [⟨4, 4⟩, ⟨5, 4⟩, ⟨4, 5⟩, ⟨5, 5⟩] ∧
    ∃ N moves, ∀ fuel, N ≤ fuel → oneStopState.allOrbMoves fuel = .ok (some moves) :=
  ⟨by decide, (allMoves_completes oneStopState (by decide) (by decide)).1⟩

/-! ### The generated orb moves are accepted -/

theorem stone_hasStop_of_connection : ∀ (s : Stone) (o : Orientation) (a : Anchor),
    ((s.connectionsFrom (a.normalized o)).rotatedFor o).contains Anchor.Stop = true →
      s.hasStop = true := by
  decide

theorem Field.hasStop_of_connection (f : Field) (a : Anchor)
    (h : (f.connectionsFrom a).contains Anchor.Stop = true) : f.hasStop = true :=
  stone_hasStop_of_connection f.stone f.orientation a h

/-- A chain of travel points ends on a field with a stop. -/
theorem TravelChain.stop_field (b : Board) (t : Position) (pt : OrbTravelPoint)
    (h : TravelChain b t pt) : ∃ f, b.field t = .ok f ∧ f.hasStop = true := by
  induction h with
  | stop pt f hf _ hs ht =>
    rw [← ht]
    exact ⟨f, hf, Field.hasStop_of_connection f _ hs⟩
  | step _ _ _ _ _ _ _ _ ih => exact ih

theorem isSource_value (p : Position) (hp : p.OnBoard) : ∃ v, Board.isSource p = .ok v := by
  obtain ⟨ff, hff⟩ := frame_field_ok p hp
  exact ⟨ff.area == BoardArea.Source, by unfold Board.isSource; rw [hff]; rfl⟩

theorem isHouse_value (p : Position) (hp : p.OnBoard) : ∃ v, Board.isHouse p = .ok v := by
  obtain ⟨ff, hff⟩ := frame_field_ok p hp
  exact ⟨ff.area == BoardArea.House, by unfold Board.isHouse; rw [hff]; rfl⟩

/-- Records in order with a spare orb among them have a record at the invalid position. -/
theorem isOrbAt_invalid_of_hasSpare (o : OrbPositions) (hl : o.positions.length = 9)
    (hw : ∀ r ∈ o.positions, r.WF) (ho : o.Ordered) (h : o.hasSpare = true) :
    o.isOrbAt Position.invalid = true := by
  rw [hasSpare_eq o hl hw ho] at h
  have hlt : o.validCount < 9 := by simpa using h
  unfold OrbPositions.validCount at hlt
  have hex : ∃ r ∈ o.positions, ¬ ((!r.position.isInvalid) = true) := by
    by_contra hc
    have hall : ∀ r ∈ o.positions, (!r.position.isInvalid) = true := by
      intro r hr
      by_contra hn
      exact hc ⟨r, hr, hn⟩
    have := List.countP_eq_length.mpr hall
    omega
  obtain ⟨r, hr, hri⟩ := hex
  have hri' : r.position.isInvalid = true := by simpa using hri
  have := Position.valid_isInvalid _ (hw r hr).1 hri'
  rw [isOrbAt_iff]
  exact List.mem_map.mpr ⟨r, hr, this⟩

/-- After a move of the only orb on `s` no orb stands on `s`. -/
theorem not_isOrbAt_after_move (o o' : OrbPositions) (ho : o.Ordered) (s t : Position)
    (hs : s.isInvalid = false) (hst : s ≠ t) (r : OrbPosition) (hr : r ∈ o.positions)
    (hrs : r.position = s) (hperm : o'.positions.Perm (⟨t, 3, s⟩ :: o.positions.erase r)) :
    o'.isOrbAt s = false := by
  cases hso : o'.isOrbAt s with
  | false => rfl
  | true =>
    exfalso
    obtain ⟨x, hx, hxs⟩ := List.mem_map.mp ((isOrbAt_iff _ _).mp hso)
    rcases List.mem_cons.mp (hperm.mem_iff.mp hx) with rfl | hxe
    · exact hst hxs.symm
    · have hd0 := ordered_distinct _ ho
      have hd1 := ((List.perm_cons_erase hr).pairwise_iff
        (fun {a b} => distinctRel_symm a b)).mp hd0
      have hrel := (List.pairwise_cons.mp hd1).1 x hxe
      have hinv := hrel (by rw [hrs, hxs])
      rw [hrs] at hinv
      rw [hinv] at hs
      cases hs

/-- The validator accepts a move from a cell with an orb to a free cell with a stop that
respects the areas and the ko-position, in a state with its nine orb records in order. -/
theorem OrbMove.applyTo_accepts (g : GameState) (hl : g.orbPositions.positions.length = 9)
    (hw : ∀ r ∈ g.orbPositions.positions, r.WF) (ho : g.orbPositions.Ordered)
    (s t : Position) (hs : s.OnBoard) (ht : t.OnBoard)
    (hh : Board.isHouse s = .ok true → Board.isHouse t = .ok true)
    (hsrc : Board.isSource s = .ok false → Board.isSource t = .ok false)
    (f : Field) (hf : g.board.field t = .ok f) (hstop : f.hasStop = true)
    (hos : g.orbPositions.isOrbAt s = true) (hot : g.orbPositions.isOrbAt t = false)
    (hko : g.orbPositions.koPosition s ≠ t) :
    ∃ g', (OrbMove.mk s t).applyTo g = .ok g' := by
  have hst : s ≠ t := by
    intro e
    rw [e, hot] at hos
    cases hos
  obtain ⟨a, ha⟩ := isSource_value s hs
  obtain ⟨b, hb⟩ := isSource_value t ht
  obtain ⟨c, hc⟩ := isHouse_value s hs
  obtain ⟨d, hd⟩ := isHouse_value t ht
  have hsi := onBoard_not_isInvalid s hs
  have hti := onBoard_not_isInvalid t ht
  obtain ⟨r, orbs, hr, hrs, hmv, hperm, hord⟩ :=
    OrbPositions.moveOrb_perm g.orbPositions ho s t hti hot hos
  obtain ⟨hl1, hw1⟩ := OrbPositions.moveOrb_WF _ _ _ _ hl hw ht hmv
  have hcd : (c = true → d = true) := by
    intro h1
    rw [h1] at hc
    have := hh hc
    rw [hd] at this
    simpa using this
  have hab : (a = false → b = false) := by
    intro h1
    rw [h1] at ha
    have := hsrc ha
    rw [hb] at this
    simpa using this
  have hnm : (OrbMove.mk s t).isNoMove = false := by
    simp [OrbMove.isNoMove, hst]
  have hsrc2 : (!a && b) = false := by
    cases a with
    | true => rfl
    | false => rw [hab rfl]; rfl
  have hd' : (c = true → Board.isHouse t = .ok true) := fun h1 => by rw [hd, hcd h1]
  have hmove : (a && !b && orbs.hasSpare) = true →
      ∃ orbs1, orbs.moveOrb Position.invalid s = .ok orbs1 := by
    intro hsp
    have hspare : orbs.hasSpare = true := by
      simp only [Bool.and_eq_true] at hsp
      exact hsp.2
    have hinv := isOrbAt_invalid_of_hasSpare orbs hl1 hw1 hord hspare
    have hfree := not_isOrbAt_after_move g.orbPositions orbs ho s t hsi hst r hr hrs hperm
    obtain ⟨_, orbs1, _, _, hmv1, _, _⟩ :=
      OrbPositions.moveOrb_perm orbs hord Position.invalid s hsi hfree hinv
    exact ⟨orbs1, hmv1⟩
  unfold OrbMove.applyTo
  cases c with
  | false =>
    simp only [hnm, ha, hb, hc, hf, hstop, hos, hot, hko, hmv, hsrc2, bind, Except.bind, pure,
      Except.pure, Bool.false_eq_true, if_false, Bool.not_true, Bool.not_false]
    by_cases hsp : (a && !b && orbs.hasSpare) = true
    · rw [if_pos hsp]
      obtain ⟨orbs1, h1⟩ := hmove hsp
      rw [h1]
      exact ⟨_, rfl⟩
    · rw [if_neg hsp]
      exact ⟨_, rfl⟩
  | true =>
    simp only [hnm, ha, hb, hc, hd' rfl, hf, hstop, hos, hot, hko, hmv, hsrc2, bind,
      Except.bind, pure, Except.pure, Bool.false_eq_true, if_false, Bool.not_true,
      Bool.not_false, if_true]
    by_cases hsp : (a && !b && orbs.hasSpare) = true
    · rw [if_pos hsp]
      obtain ⟨orbs1, h1⟩ := hmove hsp
      rw [h1]
      exact ⟨_, rfl⟩
    · rw [if_neg hsp]
      exact ⟨_, rfl⟩

/-- What `nextTurn` does to the orb records: the positions stay, and a ko-position
stays or becomes invalid. -/
theorem OrbPositions.nextTurn_positions (o : OrbPositions) :
    o.nextTurn.positions.map OrbPosition.position = o.positions.map OrbPosition.position := by
  unfold OrbPositions.nextTurn
  rw [List.map_map]
  apply List.map_congr_left
  intro r _
  simp only [Function.comp]
  split
  · split <;> rfl
  · rfl

theorem OrbPositions.nextTurn_ordered (o : OrbPositions) (h : o.Ordered) :
    o.nextTurn.Ordered := by
  unfold OrbPositions.Ordered at h ⊢
  have e := OrbPositions.nextTurn_positions o
  have h1 : (o.positions.map OrbPosition.position).Pairwise
      fun a b => a.lt b = true ∨ b = Position.invalid := List.pairwise_map.mpr h
  rw [← e] at h1
  exact List.pairwise_map.mp h1

theorem find_map_koPosition (l : List OrbPosition) (p : Position)
    (g : OrbPosition → OrbPosition) (hg : ∀ r, (g r).position = r.position)
    (hk : ∀ r, (g r).koPosition = r.koPosition ∨ (g r).koPosition = Position.invalid) :
    (match (l.map g).find? (fun op => op.position == p) with
      | some op => op.koPosition
      | Option.none => Position.invalid) =
    (match l.find? (fun op => op.position == p) with
      | some op => op.koPosition
      | Option.none => Position.invalid) ∨
    (match (l.map g).find? (fun op => op.position == p) with
      | some op => op.koPosition
      | Option.none => Position.invalid) = Position.invalid := by
  induction l with
  | nil => left; rfl
  | cons r l ih =>
    simp only [List.map_cons, List.find?_cons, hg]
    by_cases hp : (r.position == p) = true
    · simp only [hp]
      exact hk r
    · simp only [hp]
      exact ih

theorem OrbPositions.nextTurn_koPosition (o : OrbPositions) (p : Position) :
    o.nextTurn.koPosition p = o.koPosition p ∨ o.nextTurn.koPosition p = Position.invalid := by
  unfold OrbPositions.koPosition OrbPositions.nextTurn
  apply find_map_koPosition
  · intro r
    split
    · split <;> rfl
    · rfl
  · intro r
    split
    · split
      · right; rfl
      · left; rfl
    · left; rfl

/-- What `allOrbMoves` knows of each of its moves other than the no-move: both ends are
cells of the board, an orb stands at the start and none at the stop, the stop is not the
ko position of the orb, its field has a stop, and the move neither leaves a house nor
enters a source. -/
theorem allOrbMoves_move_facts (g : GameState) (hw : g.WF) (ho : g.orbPositions.Ordered)
    (fuel : Nat) (moves : List OrbMove) (h : g.allOrbMoves fuel = .ok (some moves))
    (m : OrbMove) (hm : m ∈ moves) (hn : m ≠ OrbMove.noMove) :
    m.start.OnBoard ∧ m.stop.OnBoard ∧
    (Board.isHouse m.start = .ok true → Board.isHouse m.stop = .ok true) ∧
    (Board.isSource m.start = .ok false → Board.isSource m.stop = .ok false) ∧
    (∃ f, g.board.field m.stop = .ok f ∧ f.hasStop = true) ∧
    g.orbPositions.isOrbAt m.start = true ∧ g.orbPositions.isOrbAt m.stop = false ∧
    g.orbPositions.koPosition m.start ≠ m.stop := by
  obtain ⟨hb1, hb2, _, _, ho1, ho2, _, _⟩ := hw
  have hv : ∀ o ∈ g.orbPositions.positions, o.position.Valid := fun o hx => (ho2 o hx).1
  obtain ⟨N, ms, hN, _, hmem⟩ := allMoves_result g hb1 hv ho
  have h1 := allOrbMoves_mono g fuel (max fuel N) moves (Nat.le_max_left _ _) h
  rw [hN (max fuel N) (Nat.le_max_right _ _)] at h1
  simp only [Except.ok.injEq, Option.some.injEq] at h1
  rw [← h1] at hm
  rcases List.mem_cons.mp hm with e | hm
  · exact absurd e hn
  obtain ⟨s, t⟩ := m
  obtain ⟨hsi, hos, hnf, hot, hko, hch⟩ := (hmem s t).mp hm
  have hareas := allMovesLoop_sound fuel g
    (fun m => m = OrbMove.noMove ∨
      (m.start.OnBoard ∧ m.stop.OnBoard ∧
        (Board.isHouse m.start = .ok true → Board.isHouse m.stop = .ok true) ∧
        (Board.isSource m.start = .ok false → Board.isSource m.stop = .ok false)))
    (by
      intro s t hs hh hr
      right
      have := CanReach.areas s t hr hs hh
      exact ⟨hs, this.1, this.2.2⟩)
    g.orbPositions.positions [OrbMove.noMove] moves h
    (by
      intro m hm
      left
      exact List.mem_singleton.mp hm)
    ⟨s, t⟩ (by rw [← h1]; exact List.mem_cons_of_mem _ hm)
  rcases hareas with e | ⟨hs, ht, hh, hsrc⟩
  · exact absurd e hn
  exact ⟨hs, ht, hh, hsrc, TravelChain.stop_field g.board t _ hch, hos, hot, hko⟩

/-- C37: in a game state in the form the engine keeps (array sizes, normalised fields
without ko-lock, valid orb records) with its orb records in order, every move other than
the no-move that `allOrbMoves` returns is accepted by `OrbMove::applyTo`, on the state
itself and on the state after `nextTurn`, which succeeds. -/
theorem allOrbMoves_accepted (g : GameState) (hw : g.WF) (ho : g.orbPositions.Ordered)
    (fuel : Nat) (moves : List OrbMove) (h : g.allOrbMoves fuel = .ok (some moves))
    (m : OrbMove) (hm : m ∈ moves) (hn : m ≠ OrbMove.noMove) :
    (∃ g', m.applyTo g = .ok g') ∧
    ∃ g1 g', g.nextTurn = .ok g1 ∧ m.applyTo g1 = .ok g' := by
  obtain ⟨hs, ht, hh, hsrc, ⟨f, hf, hstop⟩, hos, hot, hko⟩ :=
    allOrbMoves_move_facts g hw ho fuel moves h m hm hn
  obtain ⟨hb1, hb2, _, _, ho1, ho2, _, _⟩ := hw
  obtain ⟨s, t⟩ := m
  refine ⟨OrbMove.applyTo_accepts g ho1 ho2 ho s t hs ht hh hsrc f hf hstop hos hot hko, ?_⟩
  have hbn := Board.nextTurn_of_no_koLock g.board hb1 (fun x hx => (hb2 x hx).2)
  have hg1 : g.nextTurn = .ok { g with orbPositions := g.orbPositions.nextTurn } := by
    unfold GameState.nextTurn
    rw [hbn]
    rfl
  have hon := OrbPositions.orbPositions_nextTurn_WF g.orbPositions ho1 ho2
  have hko1 : g.orbPositions.nextTurn.koPosition s ≠ t := by
    rcases OrbPositions.nextTurn_koPosition g.orbPositions s with e | e
    · rw [e]; exact hko
    · rw [e]
      intro hc
      have := onBoard_not_isInvalid t ht
      rw [← hc] at this
      cases this
  obtain ⟨g', hg'⟩ := OrbMove.applyTo_accepts { g with orbPositions := g.orbPositions.nextTurn }
    hon.1 hon.2 (OrbPositions.nextTurn_ordered _ ho) s t hs ht hh hsrc f hf hstop
    (by rw [nextTurn_isOrbAt]; exact hos)
    (by rw [nextTurn_isOrbAt]; exact hot) hko1
  exact ⟨_, g', hg1, hg'⟩

set_option maxRecDepth 1000000 in
/-- C37 on the state of the unit test `testOneStop`: the generated move
`(4, 4) -> (2, 2)` is accepted, before and after `nextTurn`. -/
theorem allOrbMoves_accepted_witness :
    oneStopState.allOrbMoves 64 = .ok (some [OrbMove.noMove, ⟨⟨4, 4⟩, ⟨2, 2⟩⟩]) ∧
    (∃ g', (OrbMove.mk ⟨4, 4⟩ ⟨2, 2⟩).applyTo oneStopState = .ok g') ∧
    ∃ g1 g', oneStopState.nextTurn = .ok g1 ∧ (OrbMove.mk ⟨4, 4⟩ ⟨2, 2⟩).applyTo g1 = .ok g' :=
  have h := allOrbMoves_accepted oneStopState (by decide) (by decide) 64 _ oneStop_moves
    ⟨⟨4, 4⟩, ⟨2, 2⟩⟩ (by decide) (by decide)
  ⟨oneStop_moves, h.1, h.2⟩

/-! ### The orb records under moves and rotations -/

theorem Position.rotated_not_invalid (p : Position) (r : Rotation) (hp : p.OnBoard) :
    p.rotated r setup.boardSize ≠ Position.invalid := by
  obtain ⟨x, y⟩ := p
  have := Position.rotated_onBoard r x hp.1 y hp.2
  intro hc
  rw [show setup.boardSize = 10 from rfl] at hc
  rw [hc] at this
  simp [Position.invalid, Position.maxLength] at this

theorem Position.rotated_inj (r : Rotation) (p q : Position) (hp : p.Valid) (hq : q.Valid)
    (h : p.rotated r setup.boardSize = q.rotated r setup.boardSize) : p = q := by
  rcases hp with rfl | hp
  · rcases hq with rfl | hq
    · rfl
    · rw [Position.rotated_invalid] at h
      exact absurd h.symm (Position.rotated_not_invalid q r hq)
  · rcases hq with rfl | hq
    · rw [Position.rotated_invalid] at h
      exact absurd h (Position.rotated_not_invalid p r hp)
    · have h1 := onBoard_not_isInvalid p hp
      have h2 := onBoard_not_isInvalid q hq
      obtain ⟨px, py⟩ := p
      obtain ⟨qx, qy⟩ := q
      unfold Position.rotated at h
      simp only [h1, h2, Bool.false_eq_true, if_false, setup.boardSize] at h
      simp only at hp hq
      cases r <;> simp only [Position.mk.injEq] at h ⊢ <;> omega

theorem OrbPositions.rotated_perm (o : OrbPositions) (r : Rotation) :
    (o.rotated r).positions.Perm (o.positions.map fun op => op.rotated r) := by
  show (OrbPositions.sort ⟨o.positions.map fun op => OrbPosition.rotated op r⟩).positions.Perm _
  exact sort_perm _

theorem OrbPositions.rotated_ordered (o : OrbPositions) (r : Rotation)
    (hw : ∀ x ∈ o.positions, x.position.Valid) (ho : o.Ordered) : (o.rotated r).Ordered := by
  have hperm := OrbPositions.rotated_perm o r
  have hd0 := ordered_distinct _ ho
  have hmem : o.positions.Pairwise fun a b => a ∈ o.positions ∧ b ∈ o.positions :=
    List.pairwise_of_forall_mem_list fun a ha b hb => ⟨ha, hb⟩
  have hd1 : (o.positions.map fun op => op.rotated r).Pairwise OrbPositions.distinctRel := by
    rw [List.pairwise_map]
    refine (List.Pairwise.and hd0 hmem).imp ?_
    intro a b hab heq
    obtain ⟨hd, ha, hb⟩ := hab
    have e := Position.rotated_inj r a.position b.position (hw a ha) (hw b hb) heq
    have := hd e
    show a.position.rotated r setup.boardSize = Position.invalid
    rw [this]
    exact Position.rotated_invalid r
  have hd2 := (hperm.pairwise_iff (fun {a b} => distinctRel_symm a b)).mpr hd1
  exact ordered_of_sorted_distinct _ (sort_sorted _) hd2

theorem OrbPositions.rotated_isOrbAt (o : OrbPositions) (r : Rotation) (p : Position)
    (hw : ∀ x ∈ o.positions, x.position.Valid) (hp : p.Valid) :
    (o.rotated r).isOrbAt (p.rotated r setup.boardSize) = o.isOrbAt p := by
  have hperm := OrbPositions.rotated_perm o r
  cases h : o.isOrbAt p with
  | true =>
    obtain ⟨x, hx, hxp⟩ := List.mem_map.mp ((isOrbAt_iff _ _).mp h)
    rw [isOrbAt_iff]
    refine List.mem_map.mpr ⟨x.rotated r, hperm.mem_iff.mpr (List.mem_map.mpr ⟨x, hx, rfl⟩), ?_⟩
    show x.position.rotated r setup.boardSize = _
    rw [hxp]
  | false =>
    cases h1 : (o.rotated r).isOrbAt (p.rotated r setup.boardSize) with
    | false => rfl
    | true =>
      exfalso
      obtain ⟨y, hy, hyp⟩ := List.mem_map.mp ((isOrbAt_iff _ _).mp h1)
      obtain ⟨x, hx, rfl⟩ := List.mem_map.mp (hperm.mem_iff.mp hy)
      have e := Position.rotated_inj r x.position p (hw x hx) hp hyp
      have : o.isOrbAt p = true := (isOrbAt_iff _ _).mpr (List.mem_map.mpr ⟨x, hx, e⟩)
      rw [h] at this
      cases this

theorem Position.rotated_isInvalid (p : Position) (r : Rotation) (hp : p.Valid) :
    (p.rotated r setup.boardSize).isInvalid = p.isInvalid := by
  rcases hp with rfl | hp
  · rw [Position.rotated_invalid]
  · rw [onBoard_not_isInvalid p hp]
    obtain ⟨x, y⟩ := p
    exact onBoard_not_isInvalid _ (Position.rotated_onBoard r x hp.1 y hp.2)

theorem OrbPositions.rotated_validCount (o : OrbPositions) (r : Rotation)
    (hw : ∀ x ∈ o.positions, x.position.Valid) :
    (o.rotated r).validCount = o.validCount := by
  unfold OrbPositions.validCount
  rw [(OrbPositions.rotated_perm o r).countP_eq, List.countP_map]
  apply List.countP_congr
  intro x hx
  simp only [Function.comp]
  show (!(x.position.rotated r setup.boardSize).isInvalid) = true ↔ _
  rw [Position.rotated_isInvalid _ r (hw x hx)]

theorem OrbPositions.rotated_sparesDefault (o : OrbPositions) (r : Rotation)
    (hw : ∀ x ∈ o.positions, x.position.Valid) (h : o.SparesDefault) :
    (o.rotated r).SparesDefault := by
  intro y hy hyp
  obtain ⟨x, hx, rfl⟩ := List.mem_map.mp ((OrbPositions.rotated_perm o r).mem_iff.mp hy)
  have hxi : x.position = Position.invalid := by
    rcases hw x hx with e | hb
    · exact e
    · exact absurd hyp (Position.rotated_not_invalid _ r hb)
  rw [h x hx hxi]
  cases r <;> rfl

theorem OrbPositions.nextTurn_sparesDefault (o : OrbPositions) (h : o.SparesDefault) :
    o.nextTurn.SparesDefault := by
  intro y hy hyp
  unfold OrbPositions.nextTurn at hy
  obtain ⟨x, hx, rfl⟩ := List.mem_map.mp hy
  have hpos : x.position = Position.invalid := by
    rw [← hyp]
    split
    · split <;> rfl
    · rfl
  rw [h x hx hpos]
  rfl

theorem OrbPositions.moveOrb_sparesDefault (o o' : OrbPositions) (ho : o.Ordered)
    (old new : Position) (h : o.SparesDefault) (hm : o.moveOrb old new = .ok o') :
    o'.SparesDefault := by
  obtain ⟨h1, h2, h3, _, _, _⟩ := moveOrb_ok _ _ _ _ hm
  obtain ⟨r, o2, hr, _, hmv, hperm, _⟩ := OrbPositions.moveOrb_perm o ho old new h1 h2 h3
  rw [hm] at hmv
  cases hmv
  intro y hy hyp
  rcases List.mem_cons.mp (hperm.mem_iff.mp hy) with rfl | hy
  · simp only at hyp
    rw [hyp] at h1
    cases h1
  · exact h y (List.mem_of_mem_erase hy) hyp

/-- Two lists of orb records in order with the same records are equal. -/
theorem ordered_perm_eq (l1 l2 : List OrbPosition) (hp : l1.Perm l2)
    (h1 : l1.Pairwise fun a b => a.position.lt b.position = true ∨ b.position = Position.invalid)
    (h2 : l2.Pairwise fun a b => a.position.lt b.position = true ∨ b.position = Position.invalid)
    (hv : ∀ r ∈ l1, r.position.Valid)
    (hd : ∀ r ∈ l1, r.position = Position.invalid → r = OrbPosition.default) : l1 = l2 := by
  induction l1 generalizing l2 with
  | nil => exact (List.Perm.nil_eq hp)
  | cons a l1 ih =>
    cases l2 with
    | nil => exact absurd hp.symm (List.Perm.nil_eq · |> fun h => by cases h)
    | cons b l2 =>
      have hab : a = b := by
        by_contra hne
        have ha2 : a ∈ l2 := by
          rcases List.mem_cons.mp (hp.mem_iff.mp (List.mem_cons_self a l1)) with e | e
          · exact absurd e hne
          · exact e
        have hb1 : b ∈ l1 := by
          rcases List.mem_cons.mp (hp.mem_iff.mpr (List.mem_cons_self b l2)) with e | e
          · exact absurd e.symm hne
          · exact e
        have r1 := (List.pairwise_cons.mp h1).1 b hb1
        have r2 := (List.pairwise_cons.mp h2).1 a ha2
        have va := hv a (List.mem_cons_self _ _)
        have vb := hv b (List.mem_cons_of_mem _ hb1)
        rcases r1 with r1 | r1
        · rcases r2 with r2 | r2
          · rw [Position.lt_iff] at r1 r2
            omega
          · rw [r2, Position.valid_not_invalid_lt _ vb] at r1
            cases r1
        · rcases r2 with r2 | r2
          · rw [r1, Position.valid_not_invalid_lt _ va] at r2
            cases r2
          · apply hne
            rw [hd a (List.mem_cons_self _ _) r2, hd b (List.mem_cons_of_mem _ hb1) r1]
      subst hab
      rw [ih l2 (List.Perm.cons_inv hp) (List.pairwise_cons.mp h1).2 (List.pairwise_cons.mp h2).2
        (fun r hr => hv r (List.mem_cons_of_mem _ hr))
        (fun r hr => hd r (List.mem_cons_of_mem _ hr))]

/-! ### Moves leave the orb records to the orb move -/

theorem Action.applyTo_orbs (a : Action) (g g' : GameState) (ha : a.applyTo g = .ok g') :
    g'.orbPositions = g.orbPositions := by
  unfold Action.applyTo at ha
  split at ha
  · unfold Action.applyPlaceAction at ha
    simp only [Except.throw_bind, Except.pure_bind_eq, Except.bind_eq_ok_iff,
      Except.ite_throw_eq_ok, Except.pure_eq_ok_iff, Bool.not_eq_true', Bool.not_eq_false] at ha
    obtain ⟨_, _, _, _, _, _, b, hb, pool1, hp, rfl⟩ := ha
    rfl
  · unfold Action.applyReplaceAction at ha
    simp only [Except.throw_bind, Except.pure_bind_eq, Except.bind_eq_ok_iff,
      Except.ite_throw_eq_ok, Except.pure_eq_ok_iff, Bool.not_eq_true', Bool.not_eq_false] at ha
    obtain ⟨_, _, _, _, _, _, _, old, _, rp1, hr1, pool1, hp1, b, hb, pool2, hp2, rp2, hr2, rfl⟩ :=
      ha
    rfl
  · unfold Action.applyRotateAction at ha
    simp only [Except.throw_bind, Except.pure_bind_eq, Except.bind_eq_ok_iff,
      Except.ite_throw_eq_ok, Except.pure_eq_ok_iff, Bool.not_eq_true', Bool.not_eq_false] at ha
    obtain ⟨_, _, _, _, _, _, _, _, b, hb, pool1, hp1, rp, hr, rfl⟩ := ha
    rfl
  · unfold Action.applyDrawAction at ha
    simp only [Except.throw_bind, Except.pure_bind_eq, Except.bind_eq_ok_iff,
      Except.ite_throw_eq_ok, Except.pure_eq_ok_iff, Bool.not_eq_true', Bool.not_eq_false] at ha
    obtain ⟨_, _, _, _, rp, hr, pool1, hp1, rfl⟩ := ha
    rfl
  · cases ha; rfl

theorem ActionSequence.sequence_applyTo_orbs (s : ActionSequence) (g g' : GameState)
    (ha : s.applyTo g = .ok g') : g'.orbPositions = g.orbPositions := by
  unfold ActionSequence.applyTo at ha
  refine foldlM_ok_inv _ (fun x : GameState => x.orbPositions = g.orbPositions) _ _ _ ha rfl ?_
  intro acc a acc' hacc hstep
  split at hstep
  · rw [Action.applyTo_orbs a acc acc' hstep, hacc]
  · cases hstep; exact hacc

theorem GameState.moveStoneToPlayer_orbs (g g' : GameState) (s : Stone) (player : Nat)
    (hm : g.moveStoneToPlayer s player = .ok g') : g'.orbPositions = g.orbPositions := by
  unfold GameState.moveStoneToPlayer at hm
  simp only [Except.throw_bind, Except.pure_bind_eq, Except.bind_eq_ok_iff,
    Except.ite_throw_eq_ok, Except.pure_eq_ok_iff, Bool.not_eq_true', Bool.not_eq_false] at hm
  obtain ⟨_, _, _, pool, hpool, _, rp, hr, pool1, hp1, rfl⟩ := hm
  rfl

/-- The orb records before the orb move of a successful `executeMove`: those of the
state after `nextTurn`. -/
theorem GameState.executeMove_orbs (g g' : GameState) (m : GameMove) (hl : g.board.state.length = 64)
    (he : g.executeMove m = .ok g') :
    ∃ g3, g3.orbPositions = g.orbPositions.nextTurn ∧
      (g' = g3 ∨ m.orbMove.applyTo g3 = .ok g') := by
  obtain ⟨g1, g2, g3, h1, h2, h3, h4⟩ := GameState.executeMove_ok g g' m he
  obtain ⟨g1', h1', _, ho, _, _⟩ := GameState.gameState_nextTurn_ok g hl
  rw [h1] at h1'
  cases h1'
  refine ⟨g3, ?_, h4⟩
  have e2 := ActionSequence.sequence_applyTo_orbs _ _ _ h2
  rcases h3 with rfl | h3
  · rw [e2, ho]
  · rw [GameState.moveStoneToPlayer_orbs _ _ _ _ h3, e2, ho]

/-- A successful orb move keeps the records in order and the spare records default. -/
theorem OrbMove.applyTo_ordered (m : OrbMove) (g g' : GameState)
    (ho : g.orbPositions.Ordered) (hd : g.orbPositions.SparesDefault)
    (hm : m.applyTo g = .ok g') :
    g'.orbPositions.Ordered ∧ g'.orbPositions.SparesDefault := by
  obtain ⟨_, _, orbs, _, _, hmv, hfin⟩ := OrbMove.applyTo_ok m g g' hm
  obtain ⟨h1, h2, h3, _, _, _⟩ := moveOrb_ok _ _ _ _ hmv
  obtain ⟨_, o2, _, _, hmv', _, hord⟩ :=
    OrbPositions.moveOrb_perm g.orbPositions ho m.start m.stop h1 h2 h3
  rw [hmv] at hmv'
  cases hmv'
  have hsd := OrbPositions.moveOrb_sparesDefault _ _ ho _ _ hd hmv
  rcases hfin with rfl | ⟨orbs1, hmv1, rfl⟩
  · exact ⟨hord, hsd⟩
  · obtain ⟨i1, i2, i3, _, _, _⟩ := moveOrb_ok _ _ _ _ hmv1
    obtain ⟨_, o3, _, _, hmv2, _, hord2⟩ :=
      OrbPositions.moveOrb_perm orbs hord Position.invalid m.start i1 i2 i3
    rw [hmv1] at hmv2
    cases hmv2
    exact ⟨hord2, OrbPositions.moveOrb_sparesDefault _ _ hord _ _ hsd hmv1⟩

theorem GameState.executeMove_ordered (g g' : GameState) (m : GameMove) (hw : g.WF)
    (ho : g.orbPositions.Ordered) (hd : g.orbPositions.SparesDefault)
    (he : g.executeMove m = .ok g') :
    g'.orbPositions.Ordered ∧ g'.orbPositions.SparesDefault := by
  obtain ⟨g3, h3, h4⟩ := GameState.executeMove_orbs g g' m hw.1 he
  have ho3 : g3.orbPositions.Ordered := by
    rw [h3]; exact OrbPositions.nextTurn_ordered _ ho
  have hd3 : g3.orbPositions.SparesDefault := by
    rw [h3]; exact OrbPositions.nextTurn_sparesDefault _ hd
  rcases h4 with rfl | h4
  · exact ⟨ho3, hd3⟩
  · exact OrbMove.applyTo_ordered _ _ _ ho3 hd3 h4

theorem GameState.rotated_orbs (g g' : GameState) (r : Rotation) (hr : g.rotated r = .ok g') :
    g'.orbPositions = g.orbPositions.rotated r ∧ g'.actionPools = g.actionPools.rotated r ∧
    g'.resourcePool = g.resourcePool ∧ g.board.rotated r = .ok g'.board := by
  unfold GameState.rotated at hr
  simp only [Except.bind_eq_ok_iff, Except.pure_eq_ok_iff] at hr
  obtain ⟨b, hb, rfl⟩ := hr
  exact ⟨rfl, rfl, rfl, hb⟩

set_option maxRecDepth 100000 in
theorem startingState_orbs :
    startingState.orbPositions.Ordered ∧ startingState.orbPositions.SparesDefault := by
  decide

/-- In every state reached from the starting state the orb records are in order, so
the orbs in play stand on different cells, and the spare records are default. -/
theorem Reachable.orbs (g : GameState) (h : Reachable g) :
    g.orbPositions.Ordered ∧ g.orbPositions.SparesDefault := by
  induction h with
  | start g hs =>
    rw [startingState_eq] at hs
    cases hs
    exact startingState_orbs
  | setField g b p s o _ hb ih => exact ih
  | executeMove g g' m hg he ih =>
    exact GameState.executeMove_ordered g g' m (Reachable.wf g hg) ih.1 ih.2 he
  | moveOrb g orbs p q hg hx hy hm ih =>
    obtain ⟨h1, h2, h3, _, _, _⟩ := moveOrb_ok _ _ _ _ hm
    obtain ⟨_, o2, _, _, hmv', _, hord⟩ :=
      OrbPositions.moveOrb_perm g.orbPositions ih.1 p q h1 h2 h3
    rw [hm] at hmv'
    cases hmv'
    exact ⟨hord, OrbPositions.moveOrb_sparesDefault _ _ ih.1 _ _ ih.2 hm⟩
  | nextTurn g _ ih =>
    exact ⟨OrbPositions.nextTurn_ordered _ ih.1, OrbPositions.nextTurn_sparesDefault _ ih.2⟩
  | rotated g g' r hg hr ih =>
    have hw := Reachable.wf g hg
    have hv : ∀ x ∈ g.orbPositions.positions, x.position.Valid :=
      fun x hx => (hw.2.2.2.2.2.1 x hx).1
    rw [(GameState.rotated_orbs g g' r hr).1]
    exact ⟨OrbPositions.rotated_ordered _ r hv ih.1,
      OrbPositions.rotated_sparesDefault _ r hv ih.2⟩

theorem ReachableByPlay.reachable (g : GameState) (h : ReachableByPlay g) : Reachable g := by
  induction h with
  | start g hs => exact Reachable.start g hs
  | executeMove g g' m _ he ih => exact Reachable.executeMove g g' m ih he
  | rotated g g' r _ hr ih => exact Reachable.rotated g g' r ih hr

/-! ### The orbs of a game -/

theorem ReachableByAllMoves.byPlay (g : GameState) (h : ReachableByAllMoves g) :
    ReachableByPlay g := by
  induction h with
  | start g hs => exact ReachableByPlay.start g hs
  | executeMove g g' _ _ m _ _ _ he ih => exact ReachableByPlay.executeMove g g' m ih he
  | rotated g g' _ hr ih => exact ReachableByPlay.rotated g g' _ ih hr

set_option maxRecDepth 100000 in
theorem sourceOrbPositions_facts :
    Board.sourceOrbPositions = [⟨4, 4⟩, ⟨4, 5⟩, ⟨5, 5⟩, ⟨5, 4⟩] ∧
    (∀ p ∈ Board.sourceOrbPositions, Board.isSource p = .ok true ∧ p.OnBoard) ∧
    ∀ r : Rotation, ∀ p ∈ Board.sourceOrbPositions,
      ∃ q ∈ Board.sourceOrbPositions, q.rotated r setup.boardSize = p := by
  decide

set_option maxRecDepth 100000 in
theorem isSource_mem : ∀ x, x < 10 → ∀ y, y < 10 → Board.isSource ⟨x, y⟩ = .ok true →
    (Position.mk x y) ∈ Board.sourceOrbPositions := by
  decide

theorem OrbPositions.nextTurn_validCount (o : OrbPositions) :
    o.nextTurn.validCount = o.validCount := by
  unfold OrbPositions.validCount
  have h := OrbPositions.nextTurn_positions o
  have e : ∀ l : List OrbPosition, l.countP (fun r => !r.position.isInvalid) =
      (l.map OrbPosition.position).countP fun p => !p.isInvalid := by
    intro l
    rw [List.countP_map]
    rfl
  rw [e, e, h]

/-- A record at a position other than that of the moved record stays. -/
theorem isOrbAt_other (o o' : OrbPositions) (r a : OrbPosition) (p : Position)
    (hperm : o'.positions.Perm (a :: o.positions.erase r)) (hp : o.isOrbAt p = true)
    (hne : r.position ≠ p) : o'.isOrbAt p = true := by
  obtain ⟨x, hx, hxp⟩ := List.mem_map.mp ((isOrbAt_iff _ _).mp hp)
  have hxr : x ≠ r := by
    intro e
    rw [e] at hxp
    exact hne hxp
  rw [isOrbAt_iff]
  exact List.mem_map.mpr ⟨x, hperm.mem_iff.mpr
    (List.mem_cons_of_mem _ ((List.mem_erase_of_ne hxr).mpr hx)), hxp⟩

/-- A successful orb move in a state with its orb records in order: the number of orbs
in play does not decrease, and the source cells stay filled while a spare orb exists. -/
theorem OrbMove.applyTo_sources (m : OrbMove) (g g' : GameState)
    (hl : g.orbPositions.positions.length = 9) (hw : ∀ r ∈ g.orbPositions.positions, r.WF)
    (ho : g.orbPositions.Ordered) (hs : g.orbPositions.SourcesFilled)
    (hm : m.applyTo g = .ok g') :
    g.orbPositions.validCount ≤ g'.orbPositions.validCount ∧ g'.orbPositions.SourcesFilled := by
  obtain ⟨oldS, newS, orbs, hold, hnew, hmv, hcase⟩ := OrbMove.applyTo_ok_spare m g g' hm
  have hsb := onBoard_of_isSource _ _ hold
  have htb := onBoard_of_isSource _ _ hnew
  obtain ⟨ht1, ht2, hs3, _, hot, _⟩ := moveOrb_ok _ _ _ _ hmv
  obtain ⟨r, o', hr, hrs, hmv', hperm, hord⟩ :=
    OrbPositions.moveOrb_perm g.orbPositions ho m.start m.stop ht1 ht2 hs3
  rw [hmv] at hmv'
  cases hmv'
  obtain ⟨hl1, hw1⟩ := OrbPositions.moveOrb_WF _ _ _ _ hl hw htb hmv
  have hc1 := countP_cons_erase (fun x : OrbPosition => !x.position.isInvalid) _ _ _ _ hr hperm
  simp only [hrs, onBoard_not_isInvalid _ hsb, onBoard_not_isInvalid _ htb, Bool.not_false,
    if_true] at hc1
  have hv1 : orbs.validCount = g.orbPositions.validCount := by
    unfold OrbPositions.validCount; omega
  have hsp0 := hasSpare_eq g.orbPositions hl hw ho
  have hsp1 := hasSpare_eq orbs hl1 hw1 hord
  have hsrc := sourceOrbPositions_facts.2.1
  rcases hcase with ⟨hsp, orbs1, hmv1, rfl⟩ | ⟨hsp, rfl⟩
  · obtain ⟨hi1, hi2, hi3, _, hos, _⟩ := moveOrb_ok _ _ _ _ hmv1
    obtain ⟨r2, o2, hr2, hr2s, hmv2, hperm2, hord2⟩ :=
      OrbPositions.moveOrb_perm orbs hord Position.invalid m.start hi1 hi2 hi3
    rw [hmv1] at hmv2
    cases hmv2
    obtain ⟨hl2, hw2⟩ := OrbPositions.moveOrb_WF _ _ _ _ hl1 hw1 hsb hmv1
    have hc2 := countP_cons_erase (fun x : OrbPosition => !x.position.isInvalid) _ _ _ _ hr2
      hperm2
    simp only [hr2s, onBoard_not_isInvalid _ hsb, Position.isInvalid_invalid, Bool.not_false,
      Bool.not_true, if_true, Bool.false_eq_true, if_false] at hc2
    have hsp2 := hasSpare_eq orbs1 hl2 hw2 hord2
    refine ⟨?_, ?_⟩
    · show g.orbPositions.validCount ≤ orbs1.validCount
      unfold OrbPositions.validCount at hv1 ⊢
      omega
    · intro hspare p hp
      show orbs1.isOrbAt p = true
      by_cases hps : p = m.start
      · rw [hps]; exact hos
      · have hsp0' : g.orbPositions.hasSpare = true := by
          rw [hsp0]
          rw [hsp2] at hspare
          have : orbs1.validCount < 9 := by simpa using hspare
          simp only [decide_eq_true_eq]
          unfold OrbPositions.validCount at hv1 this ⊢
          omega
        have h0 := hs hsp0' p hp
        have h1 := isOrbAt_other g.orbPositions orbs r _ p hperm h0
          (by rw [hrs]; exact fun e => hps e.symm)
        exact isOrbAt_other orbs orbs1 r2 _ p hperm2 h1 (by
          rw [hr2s]
          intro e
          have := onBoard_not_isInvalid p (hsrc p hp).2
          rw [← e] at this
          cases this)
  · refine ⟨by rw [hv1], ?_⟩
    intro hspare p hp
    show orbs.isOrbAt p = true
    have hsp0' : g.orbPositions.hasSpare = true := by
      rw [hsp0, ← hv1, ← hsp1]; exact hspare
    have h0 := hs hsp0' p hp
    rw [hspare, Bool.and_true] at hsp
    have hne : m.start ≠ p := by
      intro e
      have hps := (hsrc p hp).1
      rw [← e, hold] at hps
      simp only [Except.ok.injEq] at hps
      rw [hps] at hsp
      simp only [Bool.true_and, Bool.not_eq_false'] at hsp
      rw [hsp] at hnew
      have hqs : g.orbPositions.isOrbAt m.stop = true := by
        have hmem : m.stop ∈ Board.sourceOrbPositions := by
          exact isSource_mem m.stop.x htb.1 m.stop.y htb.2 hnew
        exact hs hsp0' _ hmem
      rw [ht2] at hqs
      cases hqs
    exact isOrbAt_other g.orbPositions orbs r _ p hperm h0 (by rw [hrs]; exact hne)

theorem OrbPositions.nextTurn_sourcesFilled (o : OrbPositions) (hl : o.positions.length = 9)
    (hw : ∀ r ∈ o.positions, r.WF) (ho : o.Ordered) (hs : o.SourcesFilled) :
    o.nextTurn.SourcesFilled := by
  have hon := OrbPositions.orbPositions_nextTurn_WF o hl hw
  intro hspare p hp
  rw [hasSpare_eq _ hon.1 hon.2 (OrbPositions.nextTurn_ordered _ ho),
    OrbPositions.nextTurn_validCount, ← hasSpare_eq o hl hw ho] at hspare
  rw [nextTurn_isOrbAt]
  exact hs hspare p hp

theorem OrbPositions.rotated_sourcesFilled (o : OrbPositions) (r : Rotation)
    (hl : o.positions.length = 9) (hw : ∀ x ∈ o.positions, x.WF) (ho : o.Ordered)
    (hs : o.SourcesFilled) : (o.rotated r).SourcesFilled := by
  have hv : ∀ x ∈ o.positions, x.position.Valid := fun x hx => (hw x hx).1
  have hor := OrbPositions.orbPositions_rotated_WF o r hl hw
  intro hspare p hp
  rw [hasSpare_eq _ hor.1 hor.2 (OrbPositions.rotated_ordered o r hv ho),
    OrbPositions.rotated_validCount o r hv, ← hasSpare_eq o hl hw ho] at hspare
  obtain ⟨q, hq, rfl⟩ := sourceOrbPositions_facts.2.2 r p hp
  rw [OrbPositions.rotated_isOrbAt o r q hv (Or.inr (sourceOrbPositions_facts.2.1 q hq).2)]
  exact hs hspare q hq

set_option maxRecDepth 100000 in
theorem startingState_sourcesFilled : startingState.orbPositions.SourcesFilled := by
  decide

/-- A successful move in a state in the form the engine keeps, with its orb records in
order: the number of orbs in play does not decrease, and the source cells stay filled
while a spare orb exists. -/
theorem GameState.executeMove_sources (g g' : GameState) (m : GameMove) (hw : g.WF)
    (ho : g.orbPositions.Ordered) (hs : g.orbPositions.SourcesFilled)
    (he : g.executeMove m = .ok g') :
    g.orbPositions.validCount ≤ g'.orbPositions.validCount ∧ g'.orbPositions.SourcesFilled := by
  obtain ⟨g3, h3, h4⟩ := GameState.executeMove_orbs g g' m hw.1 he
  have hl := hw.2.2.2.2.1
  have hr := hw.2.2.2.2.2.1
  have hon := OrbPositions.orbPositions_nextTurn_WF g.orbPositions hl hr
  have hs3 : g3.orbPositions.SourcesFilled := by
    rw [h3]; exact OrbPositions.nextTurn_sourcesFilled _ hl hr ho hs
  have hc3 : g3.orbPositions.validCount = g.orbPositions.validCount := by
    rw [h3]; exact OrbPositions.nextTurn_validCount _
  rcases h4 with rfl | h4
  · exact ⟨by rw [hc3], hs3⟩
  · have := OrbMove.applyTo_sources m.orbMove g3 g' (by rw [h3]; exact hon.1)
      (by rw [h3]; exact hon.2) (by rw [h3]; exact OrbPositions.nextTurn_ordered _ ho) hs3 h4
    exact ⟨by rw [← hc3]; exact this.1, this.2⟩

theorem ReachableByPlay.sources (g : GameState) (h : ReachableByPlay g) :
    g.orbPositions.SourcesFilled := by
  induction h with
  | start g hs =>
    rw [startingState_eq] at hs
    cases hs
    exact startingState_sourcesFilled
  | executeMove g g' m hg he ih =>
    have hr := ReachableByPlay.reachable g hg
    exact (GameState.executeMove_sources g g' m (Reachable.wf g hr) (Reachable.orbs g hr).1 ih
      he).2
  | rotated g g' r hg hr ih =>
    have hre := ReachableByPlay.reachable g hg
    have hw := Reachable.wf g hre
    rw [(GameState.rotated_orbs g g' r hr).1]
    exact OrbPositions.rotated_sourcesFilled _ r hw.2.2.2.2.1 hw.2.2.2.2.2.1
      (Reachable.orbs g hre).1 ih

theorem inPlayPositions_nodup (g : GameState) (ho : g.orbPositions.Ordered) :
    (inPlayPositions g).Nodup := by
  unfold inPlayPositions
  have h1 : (g.orbPositions.positions.map OrbPosition.position).Pairwise
      fun p q => p = q → p = Position.invalid :=
    List.pairwise_map.mpr (ordered_distinct _ ho)
  have h2 := h1.filter fun p : Position => !p.isInvalid
  refine h2.imp_of_mem ?_
  intro a b ha _ hab e
  have hai := (List.mem_filter.mp ha).2
  rw [hab e] at hai
  cases hai

/-- C39: in every state reached from the starting state by `executeMove` with moves taken
from `allMoves` and by `rotated(Clockwise90)` there are nine orb records, the orbs in play
stand on pairwise distinct positions, and while a spare orb exists the four source cells
`(4, 4)`, `(5, 4)`, `(4, 5)` and `(5, 5)` hold an orb each; no successful move from such a
state decreases the number of orbs in play, and a rotation keeps it. -/
theorem orbs_in_play_invariant (g : GameState) (h : ReachableByAllMoves g) :
    g.orbPositions.positions.length = 9 ∧
    (inPlayPositions g).Nodup ∧
    (g.orbPositions.hasSpare = true →
      g.orbPositions.isOrbAt ⟨4, 4⟩ = true ∧ g.orbPositions.isOrbAt ⟨5, 4⟩ = true ∧
      g.orbPositions.isOrbAt ⟨4, 5⟩ = true ∧ g.orbPositions.isOrbAt ⟨5, 5⟩ = true) ∧
    (∀ m g', g.executeMove m = .ok g' →
      g.orbPositions.inGameCount ≤ g'.orbPositions.inGameCount) ∧
    (∀ g', g.rotated Rotation.Clockwise90 = .ok g' →
      g'.orbPositions.inGameCount = g.orbPositions.inGameCount) := by
  have hp := ReachableByAllMoves.byPlay g h
  have hr := ReachableByPlay.reachable g hp
  have hw := Reachable.wf g hr
  have ho := (Reachable.orbs g hr).1
  have hs := ReachableByPlay.sources g hp
  have hv : ∀ x ∈ g.orbPositions.positions, x.position.Valid :=
    fun x hx => (hw.2.2.2.2.2.1 x hx).1
  have hl := hw.2.2.2.2.1
  refine ⟨hl, inPlayPositions_nodup g ho, ?_, ?_, ?_⟩
  · intro hspare
    have hsrc := sourceOrbPositions_facts.1
    refine ⟨hs hspare _ ?_, hs hspare _ ?_, hs hspare _ ?_, hs hspare _ ?_⟩ <;>
      rw [hsrc] <;> decide
  · intro m g' he
    have hr' := Reachable.executeMove g g' m hr he
    have hw' := Reachable.wf g' hr'
    rw [OrbPositions.inGameCount_eq _ (by omega) hv ho,
      OrbPositions.inGameCount_eq _ (by rw [hw'.2.2.2.2.1]; decide)
        (fun x hx => (hw'.2.2.2.2.2.1 x hx).1) (Reachable.orbs g' hr').1]
    exact (GameState.executeMove_sources g g' m hw ho hs he).1
  · intro g' hrot
    have hr' := Reachable.rotated g g' _ hr hrot
    have hw' := Reachable.wf g' hr'
    rw [OrbPositions.inGameCount_eq _ (by omega) hv ho,
      OrbPositions.inGameCount_eq _ (by rw [hw'.2.2.2.2.1]; decide)
        (fun x hx => (hw'.2.2.2.2.2.1 x hx).1) (Reachable.orbs g' hr').1,
      (GameState.rotated_orbs g g' _ hrot).1]
    exact OrbPositions.rotated_validCount _ _ hv

/-! ### The seats of the players under a rotation of the state -/

set_option maxRecDepth 100000 in
theorem houseOrbPositions_rotated : ∀ i, i < 4 →
    (Board.houseOrbPositions ((i + 1) % 4)).Perm
      ((Board.houseOrbPositions i).map fun p => p.rotated Rotation.Clockwise90 setup.boardSize) ∧
    ∀ p ∈ Board.houseOrbPositions i, p.OnBoard := by
  decide

/-- The pools of a rotation by `Clockwise90`: each pool moves to the index in front
of it. -/
theorem ActionPools.pools_rotated_quarter (a : ActionPools) (hl : a.pools.length = 4) (i : Nat)
    (hi : i < 4) :
    (a.rotated Rotation.Clockwise90).pools.get? i = a.pools.get? ((i + 1) % 4) := by
  obtain ⟨pools⟩ := a
  match pools, hl with
  | [p0, p1, p2, p3], _ =>
    interval_cases i <;> rfl

/-- The house counts of a rotation by `Clockwise90`: the count of each player moves to
the index behind it. -/
theorem GameState.orbsInHouse_rotated (g g' : GameState)
    (hv : ∀ o ∈ g.orbPositions.positions, o.position.Valid)
    (hr : g.rotated Rotation.Clockwise90 = .ok g') (i : Nat) (hi : i < 4) :
    g'.orbsInHouse.getD ((i + 1) % 4) 0 = g.orbsInHouse.getD i 0 := by
  have ho := (GameState.rotated_orbs g g' _ hr).1
  obtain ⟨hperm, hon⟩ := houseOrbPositions_rotated i hi
  have e : ((Board.houseOrbPositions ((i + 1) % 4)).filter fun pos =>
      g'.orbPositions.isOrbAt pos).length =
      ((Board.houseOrbPositions i).filter fun pos => g.orbPositions.isOrbAt pos).length := by
    rw [← List.countP_eq_length_filter, ← List.countP_eq_length_filter, hperm.countP_eq,
      List.countP_map]
    apply List.countP_congr
    intro p hp
    simp only [Function.comp]
    rw [ho, OrbPositions.rotated_isOrbAt _ _ p hv (Or.inr (hon p hp))]
  rw [orbsInHouse_eq, orbsInHouse_eq]
  interval_cases i <;> simp only [List.map_cons, List.map_nil] <;> exact congrArg (· % 256) e

set_option maxRecDepth 100000 in
theorem threeOrbsHomeRotated_eq :
    stateWithThreeOrbsHome.rotated Rotation.Clockwise90 = .ok threeOrbsHomeRotated := by
  decide

set_option maxRecDepth 100000 in
/-- C35, evaluated on the code: a rotation of the state by `Clockwise90` moves the action
pool of every player to the index in front of it (`pools[i]` becomes the old
`pools[(i+1) mod 4]`), but it moves the orbs of the house of every player to the house
of the index behind it (`orbsInHouse[(i+1) mod 4]` becomes the old `orbsInHouse[i]`):
with three orbs in the house of player 0 the counts `[3, 0, 0, 0]` become `[0, 3, 0, 0]`,
where the claim has `[0, 0, 0, 3]`. -/
theorem rotated_pools_and_houses_diverge :
    (∀ (g g' : GameState), g.actionPools.pools.length = 4 →
      g.rotated Rotation.Clockwise90 = .ok g' → ∀ i, i < 4 →
        g'.actionPools.pools.get? i = g.actionPools.pools.get? ((i + 1) % 4)) ∧
    (∀ (g g' : GameState), (∀ o ∈ g.orbPositions.positions, o.position.Valid) →
      g.rotated Rotation.Clockwise90 = .ok g' → ∀ i, i < 4 →
        g'.orbsInHouse.getD ((i + 1) % 4) 0 = g.orbsInHouse.getD i 0) ∧
    stateWithThreeOrbsHome.rotated Rotation.Clockwise90 = .ok threeOrbsHomeRotated ∧
    stateWithThreeOrbsHome.orbsInHouse = [3, 0, 0, 0] ∧
    threeOrbsHomeRotated.orbsInHouse = [0, 3, 0, 0] ∧
    threeOrbsHomeRotated.orbsInHouse.getD 3 0 ≠
      stateWithThreeOrbsHome.orbsInHouse.getD ((3 + 1) % 4) 0 := by
  refine ⟨?_, ?_, threeOrbsHomeRotated_eq, by decide, by decide, by decide⟩
  · intro g g' hl hr i hi
    rw [(GameState.rotated_orbs g g' _ hr).2.1]
    exact ActionPools.pools_rotated_quarter g.actionPools hl i hi
  · intro g g' hv hr i hi
    exact GameState.orbsInHouse_rotated g g' hv hr i hi

/-! ### Four quarter turns -/

theorem Field.rotated_eq (f : Field) (r : Rotation) :
    f.rotated r = { f with orientation := f.stone.rotatedOrientation f.orientation r } := by
  unfold Field.rotated Stone.rotatedOrientation Field.empty Field.canRotate
  split <;> rfl

theorem rotatedOrientation_four : ∀ (s : Stone) (o : Orientation),
    o = s.normalizedOrientation o →
    s.rotatedOrientation (s.rotatedOrientation (s.rotatedOrientation
      (s.rotatedOrientation o .Clockwise90) .Clockwise90) .Clockwise90) .Clockwise90 = o := by
  decide

theorem Field.field_rotated_four (f : Field) (h : f.WF) :
    (((f.rotated .Clockwise90).rotated .Clockwise90).rotated .Clockwise90).rotated
      .Clockwise90 = f := by
  obtain ⟨s, o, k⟩ := f
  simp only [Field.rotated_eq]
  rw [rotatedOrientation_four s o h.1]

set_option maxRecDepth 100000 in
theorem rotatedPosition_inside : ∀ r : Rotation, ∀ x, x < 8 → ∀ y, y < 8 →
    (FieldGrid.rotatedPosition 8 r ⟨x, y⟩).x < 8 ∧ (FieldGrid.rotatedPosition 8 r ⟨x, y⟩).y < 8 := by
  decide

theorem rot8 (a b : Nat) (ha : a < 8) (hb : b < 8) :
    FieldGrid.rotatedPosition 8 .Clockwise90 ⟨a, b⟩ = ⟨b, 7 - a⟩ :=
  Position.rotated_quarter a b 8 ha hb (by decide)

/-- The loop of `FieldGrid::rotated` over some source positions: it succeeds, each
target field holds the rotated source field, and the other fields are left. -/
theorem rotated_fold_get (fields : List Field) (r : Rotation) (hl : fields.length = 64)
    (items : List Position) (hit : ∀ p ∈ items, p.x < 8 ∧ p.y < 8)
    (hnd : (items.map fun p => gridIndex (FieldGrid.rotatedPosition 8 r p)).Nodup) :
    ∀ acc : List Field, acc.length = 64 →
    ∃ res, items.foldlM (fun result sourcePosition => do
        let f ← FieldGrid.field 8 fields sourcePosition
        FieldGrid.setAt 8 result (FieldGrid.rotatedPosition 8 r sourcePosition) (f.rotated r))
      acc = .ok res ∧ res.length = 64 ∧
      (∀ p ∈ items, res.get? (gridIndex (FieldGrid.rotatedPosition 8 r p)) =
        some ((fields.getD (gridIndex p) Field.default).rotated r)) ∧
      (∀ j, j ∉ items.map (fun p => gridIndex (FieldGrid.rotatedPosition 8 r p)) →
        res.get? j = acc.get? j) := by
  induction items with
  | nil =>
    intro acc hacc
    exact ⟨acc, rfl, hacc, fun p hp => (List.not_mem_nil _ hp).elim, fun j _ => rfl⟩
  | cons p rest ih =>
    intro acc hacc
    rw [List.map_cons, List.nodup_cons] at hnd
    have hp := hit p (List.mem_cons_self _ _)
    obtain ⟨f, hf, hget⟩ := FieldGrid.field_eq_ok 8 fields p hp.1 hp.2 hl
    have hin8 := rotatedPosition_inside r p.x hp.1 p.y hp.2
    have hset := FieldGrid.setAt_eq_ok 8 acc (FieldGrid.rotatedPosition 8 r p) (f.rotated r)
      hin8.1 hin8.2 hacc
    obtain ⟨res, hres, hlen, hin, hout⟩ := ih (fun q hq => hit q (List.mem_cons_of_mem _ hq))
      hnd.2 (acc.set (gridIndex (FieldGrid.rotatedPosition 8 r p)) (f.rotated r))
      (by rw [List.length_set]; exact hacc)
    refine ⟨res, ?_, hlen, ?_, ?_⟩
    · rw [List.foldlM_cons, hf]
      simp only [bind, Except.bind]
      rw [hset]
      exact hres
    · intro q hq
      rcases List.mem_cons.mp hq with e | hq
      · rw [e, hout _ hnd.1]
        have hi : gridIndex (FieldGrid.rotatedPosition 8 r p) < acc.length := by
          rw [hacc]
          exact grid_index_lt 8 _ _ hin8.1 hin8.2
        rw [List.get?_eq_getElem?, List.getElem?_set_self hi]
        have e1 : fields.getD (gridIndex p) Field.default = f := by
          rw [List.getD_eq_getElem?_getD, ← List.get?_eq_getElem?]
          show (fields.get? (p.y * 8 + p.x)).getD _ = f
          rw [hget]; rfl
        rw [e1]
      · exact hin q hq
    · intro j hj
      rw [List.map_cons, List.mem_cons, not_or] at hj
      rw [hout j hj.2, List.get?_eq_getElem?, List.getElem?_set_ne (Ne.symm hj.1),
        ← List.get?_eq_getElem?]

set_option maxRecDepth 100000 in
theorem mem_loopPositions : ∀ x, x < 8 → ∀ y, y < 8 → (Position.mk x y) ∈ FieldGrid.loopPositions 8 := by
  decide

set_option maxRecDepth 100000 in
theorem loopPositions_inside : ∀ p ∈ FieldGrid.loopPositions 8, p.x < 8 ∧ p.y < 8 := by
  decide

/-- The function `FieldGrid::rotated` on a grid of 64 fields: it succeeds, and the field
at each rotated position is the rotated field of the position. -/
theorem FieldGrid.rotated_get (fields : List Field) (r : Rotation) (hl : fields.length = 64) :
    ∃ res, FieldGrid.rotated 8 fields r = .ok res ∧ res.length = 64 ∧
      ∀ x y, x < 8 → y < 8 →
        res.get? (gridIndex (FieldGrid.rotatedPosition 8 r ⟨x, y⟩)) =
          some ((fields.getD (gridIndex ⟨x, y⟩) Field.default).rotated r) := by
  obtain ⟨res, hres, hlen, hin, _⟩ := rotated_fold_get fields r hl (FieldGrid.loopPositions 8)
    loopPositions_inside (rotated_indices_nodup r) (List.replicate (8 * 8) Field.default)
    (by simp)
  exact ⟨res, hres, hlen, fun x y hx hy => hin _ (mem_loopPositions x hx y hy)⟩

/-- Four rotations of a grid of 64 fields in normalised form by `Clockwise90` give the
grid back. -/
theorem FieldGrid.grid_rotated_four (fields : List Field) (hl : fields.length = 64)
    (hw : ∀ f ∈ fields, f.WF) :
    ∃ l1 l2 l3, FieldGrid.rotated 8 fields .Clockwise90 = .ok l1 ∧
      FieldGrid.rotated 8 l1 .Clockwise90 = .ok l2 ∧
      FieldGrid.rotated 8 l2 .Clockwise90 = .ok l3 ∧
      FieldGrid.rotated 8 l3 .Clockwise90 = .ok fields := by
  obtain ⟨l1, h1, n1, g1⟩ := FieldGrid.rotated_get fields .Clockwise90 hl
  obtain ⟨l2, h2, n2, g2⟩ := FieldGrid.rotated_get l1 .Clockwise90 n1
  obtain ⟨l3, h3, n3, g3⟩ := FieldGrid.rotated_get l2 .Clockwise90 n2
  obtain ⟨l4, h4, n4, g4⟩ := FieldGrid.rotated_get l3 .Clockwise90 n3
  refine ⟨l1, l2, l3, h1, h2, h3, ?_⟩
  rw [h4]
  congr 1
  apply List.ext_get?
  intro j
  by_cases hj : j < 64
  · have hx : j % 8 < 8 := Nat.mod_lt _ (by decide)
    have hy : j / 8 < 8 := by omega
    have hidx : gridIndex ⟨j % 8, j / 8⟩ = j := by
      show j / 8 * 8 + j % 8 = j
      omega
    have hidx' : gridIndex ⟨j % 8, j / 8⟩ = j := hidx
    have a1 := g1 (j % 8) (j / 8) hx hy
    have a2 := g2 (j / 8) (7 - j % 8) hy (by omega)
    have a3 := g3 (7 - j % 8) (7 - j / 8) (by omega) (by omega)
    have a4 := g4 (7 - j / 8) (j % 8) (by omega) hx
    rw [rot8 _ _ hx hy] at a1
    rw [rot8 _ _ hy (by omega)] at a2
    rw [rot8 _ _ (by omega) (by omega)] at a3
    rw [rot8 _ _ (by omega) hx] at a4
    have e4 : 7 - (7 - j % 8) = j % 8 := by omega
    have e5 : 7 - (7 - j / 8) = j / 8 := by omega
    rw [e4] at a3
    rw [e5] at a4
    have getD_of : ∀ (l : List Field) (i : Nat) (f : Field), l.get? i = some f →
        l.getD i Field.default = f := by
      intro l i f h
      rw [List.getD_eq_getElem?_getD, ← List.get?_eq_getElem?, h]
      rfl
    rw [getD_of _ _ _ a3] at a4
    rw [getD_of _ _ _ a2] at a4
    rw [getD_of _ _ _ a1] at a4
    rw [hidx] at a4
    have hjl : j < fields.length := by omega
    have hf : fields.getD j Field.default = fields.get ⟨j, hjl⟩ := by
      rw [List.getD_eq_getElem?_getD, List.getElem?_eq_getElem hjl]
      rfl
    rw [a4, hf, Field.field_rotated_four _ (hw _ (List.get_mem _ _ _)), List.get?_eq_get hjl]
  · rw [List.get?_eq_none.mpr (by omega), List.get?_eq_none.mpr (by omega)]

theorem ActionPools.pools_rotated_four (a : ActionPools) (hl : a.pools.length = 4) :
    (((a.rotated .Clockwise90).rotated .Clockwise90).rotated .Clockwise90).rotated
      .Clockwise90 = a := by
  obtain ⟨pools⟩ := a
  match pools, hl with
  | [p0, p1, p2, p3], _ =>
    have step : ∀ a b c d : StonePool,
        (ActionPools.mk [a, b, c, d]).rotated .Clockwise90 = ⟨[b, c, d, a]⟩ := by
      intro a b c d
      have hv : (Rotation.Clockwise90.value % (2 ^ 64 : Int)).toNat = 1 := by decide
      unfold ActionPools.rotated
      rw [hv]
      rfl
    rw [step, step, step, step]

theorem Position.valid_rotated_four (p : Position) (h : p.Valid) :
    (((p.rotated .Clockwise90 setup.boardSize).rotated .Clockwise90 setup.boardSize).rotated
      .Clockwise90 setup.boardSize).rotated .Clockwise90 setup.boardSize = p := by
  rcases h with rfl | ⟨hx, hy⟩
  · rfl
  · obtain ⟨x, y⟩ := p
    simp only at hx hy
    rw [show setup.boardSize = 10 from rfl,
      Position.rotated_quarter x y 10 hx hy (by decide),
      Position.rotated_quarter y (10 - 1 - x) 10 hy (by omega) (by decide),
      Position.rotated_quarter (10 - 1 - x) (10 - 1 - y) 10 (by omega) (by omega) (by decide),
      Position.rotated_quarter (10 - 1 - y) (10 - 1 - (10 - 1 - x)) 10 (by omega) (by omega)
        (by decide)]
    simp only [Position.mk.injEq]
    omega

theorem OrbPosition.orb_rotated_four (op : OrbPosition) (h : op.WF) :
    (((op.rotated .Clockwise90).rotated .Clockwise90).rotated .Clockwise90).rotated
      .Clockwise90 = op := by
  obtain ⟨p, k, kp⟩ := op
  show (⟨(((p.rotated .Clockwise90 setup.boardSize).rotated .Clockwise90
      setup.boardSize).rotated .Clockwise90 setup.boardSize).rotated .Clockwise90
      setup.boardSize, k, (((kp.rotated .Clockwise90 setup.boardSize).rotated .Clockwise90
      setup.boardSize).rotated .Clockwise90 setup.boardSize).rotated .Clockwise90
      setup.boardSize⟩ : OrbPosition) = ⟨p, k, kp⟩
  rw [Position.valid_rotated_four p h.1, Position.valid_rotated_four kp h.2.1]

/-- Four rotations by `Clockwise90` give the orb records back, when they are valid, in
order, and default where spare. -/
theorem OrbPositions.orbs_rotated_four (o : OrbPositions) (hl : o.positions.length = 9)
    (hw : ∀ x ∈ o.positions, x.WF) (ho : o.Ordered) (hd : o.SparesDefault) :
    (((o.rotated .Clockwise90).rotated .Clockwise90).rotated .Clockwise90).rotated
      .Clockwise90 = o := by
  have w1 := OrbPositions.orbPositions_rotated_WF o .Clockwise90 hl hw
  have w2 := OrbPositions.orbPositions_rotated_WF _ .Clockwise90 w1.1 w1.2
  have w3 := OrbPositions.orbPositions_rotated_WF _ .Clockwise90 w2.1 w2.2
  have v0 : ∀ x ∈ o.positions, x.position.Valid := fun x hx => (hw x hx).1
  have v1 : ∀ x ∈ (o.rotated .Clockwise90).positions, x.position.Valid :=
    fun x hx => (w1.2 x hx).1
  have v2 : ∀ x ∈ ((o.rotated .Clockwise90).rotated .Clockwise90).positions,
      x.position.Valid := fun x hx => (w2.2 x hx).1
  have v3 : ∀ x ∈ (((o.rotated .Clockwise90).rotated .Clockwise90).rotated
      .Clockwise90).positions, x.position.Valid := fun x hx => (w3.2 x hx).1
  have o1 := OrbPositions.rotated_ordered o .Clockwise90 v0 ho
  have o2 := OrbPositions.rotated_ordered _ .Clockwise90 v1 o1
  have o3 := OrbPositions.rotated_ordered _ .Clockwise90 v2 o2
  have o4 := OrbPositions.rotated_ordered _ .Clockwise90 v3 o3
  have p1 := OrbPositions.rotated_perm o .Clockwise90
  have p2 := OrbPositions.rotated_perm (o.rotated .Clockwise90) .Clockwise90
  have p3 := OrbPositions.rotated_perm ((o.rotated .Clockwise90).rotated .Clockwise90)
    .Clockwise90
  have p4 := OrbPositions.rotated_perm
    (((o.rotated .Clockwise90).rotated .Clockwise90).rotated .Clockwise90) .Clockwise90
  have q2 := p2.trans (p1.map fun op => op.rotated .Clockwise90)
  have q3 := p3.trans (q2.map fun op => op.rotated .Clockwise90)
  have q4 := p4.trans (q3.map fun op => op.rotated .Clockwise90)
  have e : List.map (fun op : OrbPosition => op.rotated .Clockwise90)
      (List.map (fun op : OrbPosition => op.rotated .Clockwise90)
        (List.map (fun op : OrbPosition => op.rotated .Clockwise90)
          (List.map (fun op : OrbPosition => op.rotated .Clockwise90) o.positions))) =
      o.positions := by
    simp only [List.map_map]
    conv_rhs => rw [← List.map_id o.positions]
    apply List.map_congr_left
    intro x hx
    exact OrbPosition.orb_rotated_four x (hw x hx)
  rw [e] at q4
  have := ordered_perm_eq o.positions _ q4.symm ho o4 v0 hd
  obtain ⟨l⟩ := o
  simp only at this
  generalize (((OrbPositions.rotated ⟨l⟩ .Clockwise90).rotated .Clockwise90).rotated
    .Clockwise90).rotated .Clockwise90 = o4' at this ⊢
  obtain ⟨l4⟩ := o4'
  simp only at this
  rw [this]

/-- In a state in the form the engine keeps, with its orb records in order and default
where spare, four rotations by `Clockwise90` succeed and give the state back. -/
theorem GameState.state_rotated_four (g : GameState) (hw : g.WF) (ho : g.orbPositions.Ordered)
    (hd : g.orbPositions.SparesDefault) : g.rotatedTimes 4 = .ok g := by
  obtain ⟨hb1, hb2, ha1, ha2, ho1, ho2, _, _⟩ := hw
  obtain ⟨l1, l2, l3, h1, h2, h3, h4⟩ := FieldGrid.grid_rotated_four g.board.state hb1 hb2
  have hb : ∀ l l' : List Field, FieldGrid.rotated 8 l .Clockwise90 = .ok l' →
      (Board.mk l).rotated .Clockwise90 = .ok ⟨l'⟩ := by
    intro l l' h
    have h' : FieldGrid.rotated Board.stateSize l .Clockwise90 = .ok l' := h
    unfold Board.rotated
    simp only [h', bind, Except.bind, pure, Except.pure]
  have hpools := ActionPools.pools_rotated_four g.actionPools ha1
  have horbs := OrbPositions.orbs_rotated_four g.orbPositions ho1 ho2 ho hd
  obtain ⟨⟨st⟩, pools, orbs, rp⟩ := g
  simp only at h1 h4 hpools horbs
  unfold GameState.rotatedTimes
  simp only [GameState.repeatM, GameState.rotated, hb _ _ h1, hb _ _ h2, hb _ _ h3, hb _ _ h4,
    bind, Except.bind, pure, Except.pure, hpools, horbs]

/-- C36: for every state reached from the starting state (by `executeMove`, `rotated`,
`Board::setField`, `moveOrb` onto a cell of the board and `nextTurn` of the orbs), four
successive rotations by `Clockwise90` succeed and give the state back: board, action
pools, orb records and resource pool. -/
theorem four_quarter_turns_identity (g : GameState) (h : Reachable g) :
    g.rotatedTimes 4 = .ok g ∧
    ∃ g1 g2 g3, g.rotated .Clockwise90 = .ok g1 ∧ g1.rotated .Clockwise90 = .ok g2 ∧
      g2.rotated .Clockwise90 = .ok g3 ∧ g3.rotated .Clockwise90 = .ok g := by
  have h4 := GameState.state_rotated_four g (Reachable.wf g h) (Reachable.orbs g h).1
    (Reachable.orbs g h).2
  refine ⟨h4, ?_⟩
  unfold GameState.rotatedTimes at h4
  simp only [GameState.repeatM, Except.bind_eq_ok_iff, Except.pure_eq_ok_iff] at h4
  obtain ⟨g1, h1, g2, h2, g3, h3, g4, h5, e⟩ := h4
  exact ⟨g1, g2, g3, h1, h2, h3, by rw [h5, e]⟩

set_option maxRecDepth 100000 in
/-- C36 on the state of the serialization test: four quarter turns give it back. -/
theorem four_quarter_turns_witness :
    Reachable serializationSample ∧ serializationSample.rotatedTimes 4 = .ok serializationSample :=
  ⟨serializationSample_reachable,
    (four_quarter_turns_identity serializationSample serializationSample_reachable).1⟩

/-! ### The update queue of the SQLite backend -/

theorem SQLiteBackend.calls_set_cases {α : Type} (l : List α) (t u : Nat) (a c : α)
    (h : (l.set t a).get? u = some c) : (u = t ∧ c = a) ∨ (u ≠ t ∧ l.get? u = some c) := by
  by_cases e : t = u
  · subst e
    left
    rw [List.get?_eq_getElem?] at h
    by_cases hl : t < l.length
    · rw [List.getElem?_set_self hl] at h
      exact ⟨rfl, (Option.some.inj h).symm⟩
    · rw [List.getElem?_eq_none (by rw [List.length_set]; omega)] at h
      cases h
  · right
    rw [List.get?_eq_getElem?, List.getElem?_set_ne e, ← List.get?_eq_getElem?] at h
    exact ⟨fun h' => e h'.symm, h⟩

theorem SQLiteBackend.calls_append_cases {α : Type} (l : List α) (u : Nat) (a c : α)
    (h : (l ++ [a]).get? u = some c) : (u = l.length ∧ c = a) ∨ (u < l.length ∧ l.get? u = some c) := by
  rw [List.get?_eq_getElem?] at h
  by_cases hu : u < l.length
  · right
    rw [List.getElem?_append_left hu] at h
    exact ⟨hu, by rw [List.get?_eq_getElem?]; exact h⟩
  · left
    rw [List.getElem?_append_right (by omega)] at h
    by_cases e : u = l.length
    · subst e
      simp at h
      exact ⟨rfl, h.symm⟩
    · have : u - l.length ≥ 1 := by omega
      rw [List.getElem?_eq_none (by simp; omega)] at h
      cases h

/-- A call that holds the mutex is the only one. -/
theorem SQLiteBackend.Inv.other {s : State} (h : Inv s) (t u : Nat) (c d : Call)
    (hc : s.calls.get? t = some c) (hh : c.holdsMutex = true)
    (hd : s.calls.get? u = some d) (hne : u ≠ t) : d.holdsMutex = false := by
  cases hm : d.holdsMutex with
  | false => rfl
  | true =>
    have h1 := h.owner t c hc hh
    have h2 := h.owner u d hd hm
    rw [h1] at h2
    exact absurd (Option.some.inj h2).symm hne

/-- No call holds the mutex while it is free. -/
theorem SQLiteBackend.Inv.free {s : State} (h : Inv s) (hf : s.mutexOwner = none) (u : Nat) (d : Call)
    (hd : s.calls.get? u = some d) : d.holdsMutex = false := by
  cases hm : d.holdsMutex with
  | false => rfl
  | true =>
    have := h.owner u d hd hm
    rw [hf] at this
    cases this

theorem SQLiteBackend.inv_initial (cap : Nat) : Inv (initial cap) :=
  ⟨fun t c h => by simp [initial] at h, Nat.zero_le _, fun t b h => by simp [initial] at h,
    fun t b h => by simp [initial] at h, rfl⟩

/-- A step of a call of `push` keeps the invariant. -/
theorem SQLiteBackend.stepPush_inv (s s1 : State) (t : Nat) (b : UpdateList) (pc : PushPc) (h : Inv s)
    (hc : s.calls.get? t = some (.push b pc)) (hs : stepPush s t b pc = some s1) : Inv s1 := by
  cases pc with
  | atLoop =>
    have hown := h.owner t _ hc rfl
    simp only [stepPush] at hs
    split at hs
    · rename_i hcond
      cases hs
      refine ⟨?_, h.bound, ?_, ?_, h.fifo⟩
      · intro u c hu hm
        rcases calls_set_cases _ _ _ _ _ hu with ⟨_, rfl⟩ | ⟨hne, hu'⟩
        · cases hm
        · rw [h.other t u _ c hc rfl hu' hne] at hm
          cases hm
      · intro u b' hu
        rcases calls_set_cases _ _ _ _ _ hu with ⟨_, hx⟩ | ⟨hne, hu'⟩
        · cases hx
        · have := h.other t u _ _ hc rfl hu' hne
          cases this
      · intro u b' hu
        rcases calls_set_cases _ _ _ _ _ hu with ⟨_, hx⟩ | ⟨hne, hu'⟩
        · cases hx
        · have := h.other t u _ _ hc rfl hu' hne
          cases this
    · rename_i hcond
      cases hs
      refine ⟨?_, h.bound, ?_, ?_, h.fifo⟩
      · intro u c hu hm
        rcases calls_set_cases _ _ _ _ _ hu with ⟨rfl, rfl⟩ | ⟨hne, hu'⟩
        · exact hown
        · exact h.owner u c hu' hm
      · intro u b' hu
        show s.updateQueue.length < s.maximumUpdateQueueSize ∨ s.stopRequested = true
        by_cases hl : s.updateQueue.length < s.maximumUpdateQueueSize
        · exact Or.inl hl
        · right
          cases hst : s.stopRequested with
          | true => rfl
          | false => exact absurd ⟨Nat.le_of_not_lt hl, hst⟩ hcond
      · intro u b' hu
        rcases calls_set_cases _ _ _ _ _ hu with ⟨_, hx⟩ | ⟨hne, hu'⟩
        · cases hx
        · have := h.other t u _ _ hc rfl hu' hne
          cases this
  | waiting =>
    simp only [stepPush] at hs
    split at hs
    · rename_i hfree
      cases hs
      refine ⟨?_, h.bound, ?_, ?_, h.fifo⟩
      · intro u c hu hm
        rcases calls_set_cases _ _ _ _ _ hu with ⟨rfl, rfl⟩ | ⟨hne, hu'⟩
        · rfl
        · rw [h.free hfree u c hu'] at hm
          cases hm
      · intro u b' hu
        rcases calls_set_cases _ _ _ _ _ hu with ⟨_, hx⟩ | ⟨hne, hu'⟩
        · cases hx
        · have := h.free hfree u _ hu'
          cases this
      · intro u b' hu
        rcases calls_set_cases _ _ _ _ _ hu with ⟨_, hx⟩ | ⟨hne, hu'⟩
        · cases hx
        · have := h.free hfree u _ hu'
          cases this
    · cases hs
  | atStopTest =>
    have hown := h.owner t _ hc rfl
    simp only [stepPush] at hs
    split at hs
    · cases hs
      refine ⟨?_, h.bound, ?_, ?_, h.fifo⟩
      · intro u c hu hm
        rcases calls_set_cases _ _ _ _ _ hu with ⟨_, rfl⟩ | ⟨hne, hu'⟩
        · cases hm
        · rw [h.other t u _ c hc rfl hu' hne] at hm
          cases hm
      · intro u b' hu
        rcases calls_set_cases _ _ _ _ _ hu with ⟨_, hx⟩ | ⟨hne, hu'⟩
        · cases hx
        · have := h.other t u _ _ hc rfl hu' hne
          cases this
      · intro u b' hu
        rcases calls_set_cases _ _ _ _ _ hu with ⟨_, hx⟩ | ⟨hne, hu'⟩
        · cases hx
        · have := h.other t u _ _ hc rfl hu' hne
          cases this
    · rename_i hst
      cases hs
      refine ⟨?_, h.bound, ?_, ?_, h.fifo⟩
      · intro u c hu hm
        rcases calls_set_cases _ _ _ _ _ hu with ⟨rfl, rfl⟩ | ⟨hne, hu'⟩
        · exact hown
        · exact h.owner u c hu' hm
      · intro u b' hu
        rcases calls_set_cases _ _ _ _ _ hu with ⟨_, hx⟩ | ⟨hne, hu'⟩
        · cases hx
        · have := h.other t u _ _ hc rfl hu' hne
          cases this
      · intro u b' hu
        show s.updateQueue.length < s.maximumUpdateQueueSize
        rcases h.left t b hc with hl | hl
        · exact hl
        · exact absurd hl hst
  | atEmplace =>
    have hroom := h.room t b hc
    simp only [stepPush] at hs
    cases hs
    refine ⟨?_, ?_, ?_, ?_, ?_⟩
    · intro u c hu hm
      rcases calls_set_cases _ _ _ _ _ hu with ⟨_, rfl⟩ | ⟨hne, hu'⟩
      · cases hm
      · rw [h.other t u _ c hc rfl hu' hne] at hm
        cases hm
    · show (s.updateQueue ++ [b]).length ≤ s.maximumUpdateQueueSize
      rw [List.length_append]
      exact hroom
    · intro u b' hu
      rcases calls_set_cases _ _ _ _ _ hu with ⟨_, hx⟩ | ⟨hne, hu'⟩
      · cases hx
      · have := h.other t u _ _ hc rfl hu' hne
        cases this
    · intro u b' hu
      rcases calls_set_cases _ _ _ _ _ hu with ⟨_, hx⟩ | ⟨hne, hu'⟩
      · cases hx
      · have := h.other t u _ _ hc rfl hu' hne
        cases this
    · show s.popped ++ (s.updateQueue ++ [b]) = s.pushed ++ [b]
      rw [← List.append_assoc, h.fifo]
  | returned e =>
    cases hs

/-- A step of a call of `popUpdateQueue` keeps the invariant. -/
theorem SQLiteBackend.stepPop_inv (s s1 : State) (t : Nat) (pc : PopPc) (h : Inv s)
    (hc : s.calls.get? t = some (.pop pc)) (hs : stepPop s t pc = some s1) : Inv s1 := by
  cases pc with
  | waiting =>
    simp only [stepPop] at hs
    split at hs
    · rename_i hfree
      cases hs
      refine ⟨?_, h.bound, ?_, ?_, h.fifo⟩
      · intro u c hu hm
        rcases calls_set_cases _ _ _ _ _ hu with ⟨rfl, rfl⟩ | ⟨hne, hu'⟩
        · rfl
        · rw [h.free hfree u c hu'] at hm
          cases hm
      · intro u b' hu
        rcases calls_set_cases _ _ _ _ _ hu with ⟨_, hx⟩ | ⟨hne, hu'⟩
        · cases hx
        · have := h.free hfree u _ hu'
          cases this
      · intro u b' hu
        rcases calls_set_cases _ _ _ _ _ hu with ⟨_, hx⟩ | ⟨hne, hu'⟩
        · cases hx
        · have := h.free hfree u _ hu'
          cases this
    · cases hs
  | atTest =>
    have hno : ∀ (c' : Call) (u : Nat) (d : Call), (s.calls.set t c').get? u = some d →
        c'.holdsMutex = false → d.holdsMutex = false := by
      intro c' u d hu hc'
      rcases calls_set_cases _ _ _ _ _ hu with ⟨_, rfl⟩ | ⟨hne, hu'⟩
      · exact hc'
      · exact h.other t u _ d hc rfl hu' hne
    simp only [stepPop] at hs
    split at hs
    · cases hs
      refine ⟨?_, h.bound, ?_, ?_, h.fifo⟩
      · intro u c hu hm
        rw [hno _ u c hu rfl] at hm
        cases hm
      · intro u b' hu
        have := hno _ u _ hu rfl
        cases this
      · intro u b' hu
        have := hno _ u _ hu rfl
        cases this
    · split at hs
      · cases hs
        refine ⟨?_, h.bound, ?_, ?_, h.fifo⟩
        · intro u c hu hm
          rw [hno _ u c hu rfl] at hm
          cases hm
        · intro u b' hu
          have := hno _ u _ hu rfl
          cases this
        · intro u b' hu
          have := hno _ u _ hu rfl
          cases this
      · rename_i front rest hq
        cases hs
        refine ⟨?_, ?_, ?_, ?_, ?_⟩
        · intro u c hu hm
          rw [hno _ u c hu rfl] at hm
          cases hm
        · have := h.bound
          rw [hq] at this
          exact Nat.le_of_succ_le this
        · intro u b' hu
          have := hno _ u _ hu rfl
          cases this
        · intro u b' hu
          have := hno _ u _ hu rfl
          cases this
        · show (s.popped ++ [front]) ++ rest = s.pushed
          rw [← h.fifo, hq, List.append_assoc]
          rfl
  | returned r =>
    cases hs

/-- Every event keeps the invariant. -/
theorem SQLiteBackend.step_inv (s s1 : State) (e : Event) (h : Inv s) (hs : step s e = some s1) : Inv s1 := by
  cases e with
  | callPush b =>
    simp only [step] at hs
    split at hs
    · rename_i hfree
      cases hs
      refine ⟨?_, h.bound, ?_, ?_, h.fifo⟩
      · intro u c hu hm
        rcases calls_append_cases _ _ _ _ hu with ⟨rfl, rfl⟩ | ⟨_, hu'⟩
        · rfl
        · rw [h.free hfree u c hu'] at hm
          cases hm
      · intro u b' hu
        rcases calls_append_cases _ _ _ _ hu with ⟨_, hx⟩ | ⟨_, hu'⟩
        · cases hx
        · have := h.free hfree u _ hu'
          cases this
      · intro u b' hu
        rcases calls_append_cases _ _ _ _ hu with ⟨_, hx⟩ | ⟨_, hu'⟩
        · cases hx
        · have := h.free hfree u _ hu'
          cases this
    · cases hs
  | callPop =>
    simp only [step] at hs
    split at hs
    · rename_i hfree
      cases hs
      refine ⟨?_, h.bound, ?_, ?_, h.fifo⟩
      · intro u c hu hm
        rcases calls_append_cases _ _ _ _ hu with ⟨rfl, rfl⟩ | ⟨_, hu'⟩
        · cases hm
        · exact h.owner u c hu' hm
      · intro u b' hu
        rcases calls_append_cases _ _ _ _ hu with ⟨_, hx⟩ | ⟨_, hu'⟩
        · cases hx
        · exact h.left u b' hu'
      · intro u b' hu
        rcases calls_append_cases _ _ _ _ hu with ⟨_, hx⟩ | ⟨_, hu'⟩
        · cases hx
        · exact h.room u b' hu'
    · cases hs
  | step t =>
    simp only [step] at hs
    split at hs
    · rename_i b pc hc
      exact stepPush_inv s s1 t b pc h hc hs
    · rename_i pc hc
      exact stepPop_inv s s1 t pc h hc hs
    · cases hs
  | requestStop =>
    cases hs
    exact ⟨h.owner, h.bound, fun u b hu => Or.inr rfl, h.room, h.fifo⟩

/-- The invariant holds after every sequence of events. -/
theorem SQLiteBackend.run_inv : ∀ (es : List Event) (s s1 : State), Inv s → run s es = some s1 → Inv s1
  | [], s, s1, h, hs => by
    cases hs
    exact h
  | e :: es, s, s1, h, hs => by
    unfold run at hs
    cases he : step s e with
    | none =>
      rw [he] at hs
      cases hs
    | some s2 =>
      rw [he] at hs
      exact run_inv es s2 s1 (step_inv s s2 e h he) hs

/-- No event changes the cap, and none takes a request to stop back. -/
theorem SQLiteBackend.step_cap (s s1 : State) (e : Event) (hs : step s e = some s1) :
    s1.maximumUpdateQueueSize = s.maximumUpdateQueueSize ∧
    (s.stopRequested = true → s1.stopRequested = true) := by
  cases e with
  | callPush b =>
    simp only [step] at hs
    split at hs
    · cases hs
      exact ⟨rfl, id⟩
    · cases hs
  | callPop =>
    simp only [step] at hs
    split at hs
    · cases hs
      exact ⟨rfl, id⟩
    · cases hs
  | requestStop =>
    cases hs
    exact ⟨rfl, fun _ => rfl⟩
  | step t =>
    simp only [step] at hs
    split at hs
    · rename_i b pc hc
      cases pc <;> simp only [stepPush] at hs
      · split at hs <;> cases hs <;> exact ⟨rfl, id⟩
      · split at hs
        · cases hs
          exact ⟨rfl, id⟩
        · cases hs
      · split at hs <;> cases hs <;> exact ⟨rfl, id⟩
      · cases hs
        exact ⟨rfl, id⟩
      · cases hs
    · rename_i pc hc
      cases pc <;> simp only [stepPop] at hs
      · split at hs
        · cases hs
          exact ⟨rfl, id⟩
        · cases hs
      · split at hs
        · cases hs
          exact ⟨rfl, id⟩
        · split at hs <;> cases hs <;> exact ⟨rfl, id⟩
      · cases hs
    · cases hs

theorem SQLiteBackend.run_cap : ∀ (es : List Event) (s s1 : State), run s es = some s1 →
    s1.maximumUpdateQueueSize = s.maximumUpdateQueueSize ∧
    (s.stopRequested = true → s1.stopRequested = true)
  | [], s, s1, hs => by
    cases hs
    exact ⟨rfl, id⟩
  | e :: es, s, s1, hs => by
    unfold run at hs
    cases he : step s e with
    | none =>
      rw [he] at hs
      cases hs
    | some s2 =>
      rw [he] at hs
      have h1 := step_cap s s2 e he
      have h2 := run_cap es s2 s1 hs
      exact ⟨h2.1.trans h1.1, fun h => h2.2 (h1.2 h)⟩

/-- An event leaves the queue as it is, appends one list at its back while the queue is
below the cap, or takes the list at its front. -/
theorem SQLiteBackend.step_queue (s s1 : State) (e : Event) (h : Inv s) (hs : step s e = some s1) :
    s1.updateQueue = s.updateQueue ∨
    (∃ b, s.updateQueue.length < s.maximumUpdateQueueSize ∧
      s1.updateQueue = s.updateQueue ++ [b]) ∨
    (∃ b, s.updateQueue = b :: s1.updateQueue) := by
  cases e with
  | callPush b =>
    simp only [step] at hs
    split at hs
    · cases hs
      exact Or.inl rfl
    · cases hs
  | callPop =>
    simp only [step] at hs
    split at hs
    · cases hs
      exact Or.inl rfl
    · cases hs
  | requestStop =>
    cases hs
    exact Or.inl rfl
  | step t =>
    simp only [step] at hs
    split at hs
    · rename_i b pc hc
      cases pc <;> simp only [stepPush] at hs
      · split at hs <;> cases hs <;> exact Or.inl rfl
      · split at hs
        · cases hs
          exact Or.inl rfl
        · cases hs
      · split at hs <;> cases hs <;> exact Or.inl rfl
      · cases hs
        exact Or.inr (Or.inl ⟨b, h.room t b hc, rfl⟩)
      · cases hs
    · rename_i pc hc
      cases pc <;> simp only [stepPop] at hs
      · split at hs
        · cases hs
          exact Or.inl rfl
        · cases hs
      · split at hs
        · cases hs
          exact Or.inl rfl
        · split at hs
          · cases hs
            exact Or.inl rfl
          · rename_i front rest hq
            cases hs
            exact Or.inr (Or.inr ⟨front, hq⟩)
      · cases hs
    · cases hs

/-- After the request to stop, a call of `push` that has not passed its test of the
flag does not pass it. -/
theorem SQLiteBackend.step_pastStopTest (s s1 : State) (e : Event) (t : Nat) (hstop : s.stopRequested = true)
    (ht : ∀ c, s.calls.get? t = some c → c.pastStopTest = false)
    (hs : step s e = some s1) : ∀ c, s1.calls.get? t = some c → c.pastStopTest = false := by
  have hset : ∀ (u : Nat) (c' : Call), c'.pastStopTest = false →
      ∀ c, (s.calls.set u c').get? t = some c → c.pastStopTest = false := by
    intro u c' hc' c hc
    rcases calls_set_cases _ _ _ _ _ hc with ⟨_, rfl⟩ | ⟨_, hc''⟩
    · exact hc'
    · exact ht c hc''
  have happ : ∀ (c' : Call), c'.pastStopTest = false →
      ∀ c, (s.calls ++ [c']).get? t = some c → c.pastStopTest = false := by
    intro c' hc' c hc
    rcases calls_append_cases _ _ _ _ hc with ⟨_, rfl⟩ | ⟨_, hc''⟩
    · exact hc'
    · exact ht c hc''
  cases e with
  | callPush b =>
    simp only [step] at hs
    split at hs
    · cases hs
      exact happ _ rfl
    · cases hs
  | callPop =>
    simp only [step] at hs
    split at hs
    · cases hs
      exact happ _ rfl
    · cases hs
  | requestStop =>
    cases hs
    exact ht
  | step u =>
    simp only [step] at hs
    split at hs
    · rename_i b pc hc
      cases pc <;> simp only [stepPush] at hs
      · split at hs <;> cases hs <;> exact hset _ _ rfl
      · split at hs
        · cases hs
          exact hset _ _ rfl
        · cases hs
      · rw [if_pos hstop] at hs
        cases hs
        exact hset _ _ rfl
      · cases hs
        intro c hc'
        rcases calls_set_cases _ _ _ _ _ hc' with ⟨rfl, rfl⟩ | ⟨_, hc''⟩
        · have := ht _ hc
          cases this
        · exact ht c hc''
      · cases hs
    · rename_i pc hc
      cases pc <;> simp only [stepPop] at hs
      · split at hs
        · cases hs
          exact hset _ _ rfl
        · cases hs
      · rw [if_pos hstop] at hs
        cases hs
        exact hset _ _ rfl
      · cases hs
    · cases hs

theorem SQLiteBackend.run_pastStopTest : ∀ (es : List Event) (s s1 : State) (t : Nat),
    s.stopRequested = true → (∀ c, s.calls.get? t = some c → c.pastStopTest = false) →
    run s es = some s1 → ∀ c, s1.calls.get? t = some c → c.pastStopTest = false
  | [], s, s1, t, _, ht, hs => by
    cases hs
    exact ht
  | e :: es, s, s1, t, hstop, ht, hs => by
    unfold run at hs
    cases he : step s e with
    | none =>
      rw [he] at hs
      cases hs
    | some s2 =>
      rw [he] at hs
      exact run_pastStopTest es s2 s1 t ((step_cap s s2 e he).2 hstop)
        (step_pastStopTest s s2 e t hstop ht he) hs

theorem SQLiteBackend.calls_set_self {α : Type} (l : List α) (t : Nat) (a c : α) (h : l.get? t = some a) :
    (l.set t c).get? t = some c := by
  rw [List.get?_eq_getElem?] at h ⊢
  have hl : t < l.length := by
    by_contra hn
    rw [List.getElem?_eq_none (by omega)] at h
    cases h
  rw [List.getElem?_set_self hl]

/-- A call of `push` at the test of its loop with the queue at the cap and no request to
stop goes to wait. -/
theorem SQLiteBackend.push_waits (s : State) (t : Nat) (b : UpdateList)
    (hc : s.calls.get? t = some (.push b .atLoop))
    (hfull : s.maximumUpdateQueueSize ≤ s.updateQueue.length) (hstop : s.stopRequested = false) :
    ∃ s1, step s (.step t) = some s1 ∧ s1.calls.get? t = some (.push b .waiting) ∧
      s1.updateQueue = s.updateQueue := by
  refine ⟨{ s with mutexOwner := none, calls := s.calls.set t (.push b .waiting) }, ?_, ?_, rfl⟩
  · simp only [step, hc, stepPush]
    rw [if_pos ⟨hfull, hstop⟩]
  · exact calls_set_self _ _ _ _ hc

/-- A call of `push` at the test of its loop after the request to stop returns in two
steps without its list. -/
theorem SQLiteBackend.push_returns (s : State) (t : Nat) (b : UpdateList)
    (hc : s.calls.get? t = some (.push b .atLoop)) (hstop : s.stopRequested = true) :
    ∃ s1, run s [.step t, .step t] = some s1 ∧
      s1.calls.get? t = some (.push b (.returned false)) ∧ s1.updateQueue = s.updateQueue ∧
      s1.pushed = s.pushed := by
  have h1 : step s (.step t) =
      some { s with calls := s.calls.set t (.push b .atStopTest) } := by
    simp only [step, hc, stepPush]
    rw [if_neg]
    intro hx
    rw [hstop] at hx
    cases hx.2
  have hc1 := calls_set_self _ _ _ (Call.push b .atStopTest) hc
  refine ⟨{ s with mutexOwner := none,
                   calls := (s.calls.set t (.push b .atStopTest)).set t
                     (.push b (.returned false)) }, ?_, ?_, rfl, rfl⟩
  · have h2 : step { s with calls := s.calls.set t (.push b .atStopTest) } (.step t) =
        some { s with mutexOwner := none,
                      calls := (s.calls.set t (.push b .atStopTest)).set t
                        (.push b (.returned false)) } := by
      simp only [step, hc1, stepPush]
      rw [if_pos hstop]
    show (step s (.step t)).bind (fun s1 => (step s1 (.step t)).bind fun s2 => some s2) = _
    rw [h1]
    show (step _ (.step t)).bind (fun s2 => some s2) = _
    rw [h2]
    rfl
  · exact calls_set_self _ _ _ _ hc1

/-- C32: in every state that the backend reaches from its construction, whatever the
threads do and whenever the stop is requested, the update queue holds at most
`maximumUpdateQueueSize` lists; an event leaves the queue as it is, appends one list at
the back while the queue is below the cap, or takes the list at the front, and the queue
is the lists appended so far without the ones taken, in their order; a call of `push`
that finds the queue at the cap with no request to stop goes to wait; after the request
to stop a call of `push` at the test of its loop returns without its list, and no call
that has not passed its test of the flag appends a list any more. -/
theorem SQLiteBackend.update_queue_bounded (cap : Nat) (es : List Event) (s : State)
    (h : run (initial cap) es = some s) :
    s.maximumUpdateQueueSize = cap ∧ s.updateQueue.length ≤ cap ∧
    s.popped ++ s.updateQueue = s.pushed ∧
    (∀ e s1, step s e = some s1 →
      s1.updateQueue = s.updateQueue ∨
      (∃ b, s.updateQueue.length < cap ∧ s1.updateQueue = s.updateQueue ++ [b]) ∨
      (∃ b, s.updateQueue = b :: s1.updateQueue)) ∧
    (∀ t b, s.calls.get? t = some (.push b .atLoop) → cap ≤ s.updateQueue.length →
      s.stopRequested = false →
      ∃ s1, step s (.step t) = some s1 ∧ s1.calls.get? t = some (.push b .waiting) ∧
        s1.updateQueue = s.updateQueue) ∧
    (∀ t b, s.calls.get? t = some (.push b .atLoop) → s.stopRequested = true →
      ∃ s1, run s [.step t, .step t] = some s1 ∧
        s1.calls.get? t = some (.push b (.returned false)) ∧
        s1.updateQueue = s.updateQueue ∧ s1.pushed = s.pushed) ∧
    (s.stopRequested = true → ∀ t, (∀ c, s.calls.get? t = some c → c.pastStopTest = false) →
      ∀ es1 s1, run s es1 = some s1 →
        ∀ c, s1.calls.get? t = some c → c.pastStopTest = false) := by
  have hinv := run_inv es _ s (inv_initial cap) h
  have hcap : s.maximumUpdateQueueSize = cap := (run_cap es _ s h).1
  refine ⟨hcap, hcap ▸ hinv.bound, hinv.fifo, ?_, ?_, ?_, ?_⟩
  · intro e s1 hs
    have := step_queue s s1 e hinv hs
    rw [hcap] at this
    exact this
  · intro t b hc hfull hstop
    exact push_waits s t b hc (hcap ▸ hfull) hstop
  · intro t b hc hstop
    exact push_returns s t b hc hstop
  · intro hstop t ht es1 s1 hs
    exact run_pastStopTest es1 s s1 t hstop ht hs

set_option maxRecDepth 100000 in
/-- C32 on a backend with a cap of two lists: two calls of `push` append their lists, a
third finds the queue full and waits, the stop is requested, and the third call returns
without its list; the queue holds the two lists in the order of their calls. -/
theorem SQLiteBackend.update_queue_bounded_witness :
    run (initial 2) blockedPushEvents = some blockedPushState ∧
    blockedPushState.updateQueue.length ≤ 2 ∧
    blockedPushState.popped ++ blockedPushState.updateQueue = blockedPushState.pushed :=
  ⟨by decide,
    (update_queue_bounded 2 blockedPushEvents blockedPushState (by decide)).2.1,
    (update_queue_bounded 2 blockedPushEvents blockedPushState (by decide)).2.2.1⟩

/-! ### The list of `allMoves` has no move twice -/

theorem StonePool.uniqueStones_nodup (p : StonePool) : p.uniqueStones.Nodup := by
  unfold StonePool.uniqueStones
  split
  · exact List.nodup_nil
  · exact dedup_fold_nodup (fun y r => inferInstance) (fun s : Stone => s) _ [] List.nodup_nil

/-- A list built by `flatMap` has no element twice when the outer list has none, each
inner list has none and every element of an inner list tells which one it is from. -/
theorem nodup_flatMap_of_key {α β : Type} (l : List α) (f : α → List β) (key : β → α)
    (hl : l.Nodup) (hf : ∀ x ∈ l, (f x).Nodup) (hk : ∀ x ∈ l, ∀ y ∈ f x, key y = x) :
    (l.flatMap f).Nodup := by
  rw [List.nodup_flatMap]
  refine ⟨hf, ?_⟩
  have : ∀ l : List α, l.Nodup → (∀ x ∈ l, ∀ y ∈ f x, key y = x) →
      List.Pairwise (List.Disjoint on f) l := by
    intro l
    induction l with
    | nil => intro _ _; exact List.Pairwise.nil
    | cons a l ih =>
      intro hnd hk
      rw [List.nodup_cons] at hnd
      refine List.Pairwise.cons ?_ (ih hnd.2 fun x hx => hk x (List.mem_cons_of_mem _ hx))
      intro b hb y hya hyb
      have h1 := hk a (List.mem_cons_self _ _) y hya
      have h2 := hk b (List.mem_cons_of_mem _ hb) y hyb
      rw [h1] at h2
      exact hnd.1 (h2 ▸ hb)
  exact this l hl hk

theorem combinedPairs_nodup : ∀ l : List Position, l.Nodup →
    (Board.generateAllCombinedPositionPairs l).Nodup
  | [], _ => List.nodup_nil
  | p :: rest, h => by
    rw [List.nodup_cons] at h
    unfold Board.generateAllCombinedPositionPairs
    rw [List.nodup_append]
    refine ⟨List.Nodup.map (fun a b e => (Prod.mk.inj e).2) h.2, combinedPairs_nodup rest h.2, ?_⟩
    intro x hx hx'
    obtain ⟨q, _, rfl⟩ := List.mem_map.mp hx
    exact h.1 (mem_positionPairs rest p q hx').1

/-- The pairs are in the order of the list: a pair and its mirror are not both there. -/
theorem combinedPairs_order : ∀ (l : List Position), l.Nodup → ∀ a b : Position,
    (a, b) ∈ Board.generateAllCombinedPositionPairs l →
    (b, a) ∈ Board.generateAllCombinedPositionPairs l → False
  | [], _, a, b, h, _ => by cases h
  | p :: rest, hnd, a, b, h, h' => by
    rw [List.nodup_cons] at hnd
    unfold Board.generateAllCombinedPositionPairs at h h'
    rcases List.mem_append.mp h with h | h
    · obtain ⟨q, hq, e⟩ := List.mem_map.mp h
      cases e
      rcases List.mem_append.mp h' with h' | h'
      · obtain ⟨q', hq', e'⟩ := List.mem_map.mp h'
        cases e'
        exact hnd.1 hq
      · exact hnd.1 (mem_positionPairs rest _ _ h').2.1
    · rcases List.mem_append.mp h' with h' | h'
      · obtain ⟨q', hq', e'⟩ := List.mem_map.mp h'
        cases e'
        exact hnd.1 (mem_positionPairs rest _ _ h).2.1
      · exact combinedPairs_order rest hnd.2 a b h h'

theorem combinedPairs_ne (l : List Position) (hl : l.Nodup) (a b : Position)
    (h : (a, b) ∈ Board.generateAllCombinedPositionPairs l) : a ≠ b := by
  intro e
  subst e
  exact combinedPairs_order l hl a a h h

theorem orientation_all_nodup : Orientation.all.Nodup := by decide

theorem allNonEmpty_nodup : Stone.allNonEmpty.Nodup := by decide

theorem orientationsIn_nodup (u : Orientations) : (ActionGenerator.orientationsIn u).Nodup :=
  List.Nodup.filter _ orientation_all_nodup

theorem nodup_map_pair {α β : Type} (a : α) (l : List β) (h : l.Nodup) :
    (l.map fun b => (a, b)).Nodup :=
  List.Nodup.map (fun _ _ e => (Prod.mk.inj e).2) h

theorem key_map_pair {α β : Type} (a : α) (l : List β) :
    ∀ y ∈ l.map (fun b => (a, b)), y.1 = a := by
  intro y hy
  obtain ⟨b, _, rfl⟩ := List.mem_map.mp hy
  rfl

theorem orientationPairs_nodup (ua ub : Orientations) :
    (ActionGenerator.orientationPairs ua ub).Nodup := by
  unfold ActionGenerator.orientationPairs
  exact nodup_flatMap_of_key _ _ Prod.fst orientation_all_nodup
    (fun a _ => nodup_map_pair a _ (List.Nodup.filter _ orientation_all_nodup))
    (fun a _ => key_map_pair a _)

/-- The triples of two nested loops and an inner list: no triple twice. -/
theorem nodup_nested {α β γ : Type} (l : List α) (m : α → List β) (n : α → β → List γ)
    (hl : l.Nodup) (hm : ∀ a ∈ l, (m a).Nodup) (hn : ∀ a b, (n a b).Nodup) :
    (l.flatMap fun a => (m a).flatMap fun b => (n a b).map fun c => (a, b, c)).Nodup := by
  refine nodup_flatMap_of_key _ _ (fun y => y.1) hl ?_ ?_
  · intro a ha
    refine nodup_flatMap_of_key _ _ (fun y => y.2.1) (hm a ha) ?_ ?_
    · intro b _
      exact List.Nodup.map (fun _ _ e => (Prod.mk.inj (Prod.mk.inj e).2).2) (hn a b)
    · intro b _ y hy
      obtain ⟨c, _, rfl⟩ := List.mem_map.mp hy
      rfl
  · intro a _ y hy
    obtain ⟨b, _, hy⟩ := List.mem_flatMap.mp hy
    obtain ⟨c, _, rfl⟩ := List.mem_map.mp hy
    rfl

theorem forAllForPlaceOne_nodup (positions : List Position) (stones : List Stone)
    (hp : positions.Nodup) (hs : stones.Nodup) :
    (ActionGenerator.forAllForPlaceOne positions stones).Nodup := by
  unfold ActionGenerator.forAllForPlaceOne
  exact nodup_nested positions (fun _ => stones)
    (fun _ stone => ActionGenerator.orientationsIn stone.uniqueOrientations) hp (fun _ _ => hs)
    (fun _ _ => orientationsIn_nodup _)

theorem forAllForPlaceTwo_nodup (positionPairs : List (Position × Position))
    (stonePairs : List (Stone × Stone)) (hp : positionPairs.Nodup) (hs : stonePairs.Nodup) :
    (ActionGenerator.forAllForPlaceTwo positionPairs stonePairs).Nodup := by
  unfold ActionGenerator.forAllForPlaceTwo
  exact nodup_nested positionPairs (fun _ => stonePairs)
    (fun _ stonePair =>
      ActionGenerator.orientationPairs stonePair.1.uniqueOrientations
        stonePair.2.uniqueOrientations) hp (fun _ _ => hs)
    (fun _ _ => orientationPairs_nodup _ _)

theorem forAllForReplaceOne_nodup (g : GameState) (positions : List Position)
    (stonePairs : List (Stone × Stone)) (hp : positions.Nodup) (hs : stonePairs.Nodup) :
    (ActionGenerator.forAllForReplaceOne g positions stonePairs).Nodup := by
  unfold ActionGenerator.forAllForReplaceOne
  refine nodup_flatMap_of_key _ _ (fun y => y.1) hp ?_ ?_
  · intro a _
    split
    · exact List.nodup_nil
    · refine nodup_flatMap_of_key _ _ (fun y => y.2.1) hs ?_ ?_
      · intro b _
        exact List.Nodup.map (fun _ _ e => (Prod.mk.inj (Prod.mk.inj e).2).2)
          (orientationsIn_nodup _)
      · intro b _ y hy
        obtain ⟨c, _, rfl⟩ := List.mem_map.mp hy
        rfl
  · intro a _ y hy
    split at hy
    · cases hy
    · obtain ⟨b, _, hy⟩ := List.mem_flatMap.mp hy
      obtain ⟨c, _, rfl⟩ := List.mem_map.mp hy
      rfl

theorem forAllForReplaceTwo_nodup (g : GameState) (positionPairs : List (Position × Position))
    (stoneQuads : List (Stone × Stone × Stone × Stone)) (hp : positionPairs.Nodup)
    (hs : stoneQuads.Nodup) :
    (ActionGenerator.forAllForReplaceTwo g positionPairs stoneQuads).Nodup := by
  unfold ActionGenerator.forAllForReplaceTwo
  refine nodup_flatMap_of_key _ _ (fun y => y.1) hp ?_ ?_
  · intro a _
    split
    · exact List.nodup_nil
    · refine nodup_flatMap_of_key _ _
        (fun y => (y.2.1.1, y.2.1.2, y.2.2.1.1, y.2.2.1.2)) hs ?_ ?_
      · intro b _
        refine List.Nodup.map ?_ (orientationPairs_nodup _ _)
        intro x y e
        exact (Prod.mk.inj (Prod.mk.inj (Prod.mk.inj e).2).2).2
      · intro b _ y hy
        obtain ⟨c, _, rfl⟩ := List.mem_map.mp hy
        rfl
  · intro a _ y hy
    split at hy
    · cases hy
    · obtain ⟨b, _, hy⟩ := List.mem_flatMap.mp hy
      obtain ⟨c, _, rfl⟩ := List.mem_map.mp hy
      rfl

theorem nodup_product_map {α β γ : Type} (l : List α) (m : List β) (f : α → β → γ)
    (key : γ → α) (hl : l.Nodup) (hm : m.Nodup) (hk : ∀ a b, key (f a b) = a)
    (hinj : ∀ a b b', f a b = f a b' → b = b') :
    (l.flatMap fun a => m.map fun b => f a b).Nodup := by
  refine nodup_flatMap_of_key _ _ key hl ?_ ?_
  · intro a _
    exact List.Nodup.map (fun b b' e => hinj a b b' e) hm
  · intro a _ y hy
    obtain ⟨b, _, rfl⟩ := List.mem_map.mp hy
    exact hk a b

theorem forAllForRotationOne_nodup (g : GameState) (positions : List Position)
    (droppedStones : List Stone) (hp : positions.Nodup) (hs : droppedStones.Nodup) :
    (ActionGenerator.forAllForRotationOne g positions droppedStones).Nodup := by
  unfold ActionGenerator.forAllForRotationOne
  refine nodup_flatMap_of_key _ _ (fun y => y.1) hp ?_ ?_
  · intro a _
    split
    · exact List.nodup_nil
    · split
      · exact List.nodup_nil
      · split
        · exact List.nodup_nil
        · exact nodup_product_map _ _ (fun o d => (a, o, d)) (fun y => y.2.1)
            (List.Nodup.filter _ orientation_all_nodup) hs (fun _ _ => rfl)
            (fun _ _ _ e => (Prod.mk.inj (Prod.mk.inj e).2).2)
  · intro a _ y hy
    split at hy
    · cases hy
    · split at hy
      · cases hy
      · split at hy
        · cases hy
        · obtain ⟨b, _, hy⟩ := List.mem_flatMap.mp hy
          obtain ⟨c, _, rfl⟩ := List.mem_map.mp hy
          rfl

theorem forAllForRotationTwo_nodup (g : GameState) (positionPairs : List (Position × Position))
    (droppedStonePairs : List (Stone × Stone)) (hp : positionPairs.Nodup)
    (hs : droppedStonePairs.Nodup) :
    (ActionGenerator.forAllForRotationTwo g positionPairs droppedStonePairs).Nodup := by
  unfold ActionGenerator.forAllForRotationTwo
  refine nodup_flatMap_of_key _ _ (fun y => y.1) hp ?_ ?_
  · intro a _
    split
    · exact List.nodup_nil
    · split
      · split
        · exact List.nodup_nil
        · refine nodup_product_map _ _ (fun o d => (a, o, d)) (fun y => y.2.1) ?_ hs
            (fun _ _ => rfl) (fun _ _ _ e => (Prod.mk.inj (Prod.mk.inj e).2).2)
          exact nodup_flatMap_of_key _ _ Prod.fst orientation_all_nodup
            (fun a _ => nodup_map_pair a _ (List.Nodup.filter _ orientation_all_nodup))
            (fun a _ => key_map_pair a _)
      · exact List.nodup_nil
  · intro a _ y hy
    split at hy
    · cases hy
    · split at hy
      · split at hy
        · cases hy
        · obtain ⟨b, _, hy⟩ := List.mem_flatMap.mp hy
          obtain ⟨c, _, rfl⟩ := List.mem_map.mp hy
          rfl
      · cases hy

theorem disjoint_of_key {α κ : Type} (f : α → κ) (l1 l2 : List α) (a b : κ) (hab : a ≠ b)
    (h1 : ∀ x ∈ l1, f x = a) (h2 : ∀ x ∈ l2, f x = b) : l1.Disjoint l2 := by
  intro x hx1 hx2
  exact hab ((h1 x hx1).symm.trans (h2 x hx2))

theorem nodup_append_of_key {α κ : Type} (f : α → κ) (l1 l2 : List α) (a b : κ) (hab : a ≠ b)
    (h1 : ∀ x ∈ l1, f x = a) (h2 : ∀ x ∈ l2, f x = b) (n1 : l1.Nodup) (n2 : l2.Nodup) :
    (l1 ++ l2).Nodup :=
  List.nodup_append.mpr ⟨n1, n2, disjoint_of_key f l1 l2 a b hab h1 h2⟩

theorem mem_append_key {α κ : Type} (f : α → κ) (P : κ → Prop) (l1 l2 : List α)
    (h1 : ∀ x ∈ l1, P (f x)) (h2 : ∀ x ∈ l2, P (f x)) : ∀ x ∈ l1 ++ l2, P (f x) := by
  intro x hx
  rcases List.mem_append.mp hx with h | h
  · exact h1 x h
  · exact h2 x h

theorem addActionsPlace_nodup (g : GameState) (n : Nat) :
    (ActionGenerator.addActionsPlace g n).Nodup ∧
    ∀ x ∈ ActionGenerator.addActionsPlace g n, x.kind.1 = ActionType.PlaceStone := by
  unfold ActionGenerator.addActionsPlace
  split
  · exact ⟨List.nodup_nil, fun x hx => by cases hx⟩
  · have n1 : ((ActionGenerator.forAllForPlaceOne g.board.allPlaceOneActionPositions
        g.actionPools.active.uniqueStones).map
        (fun e => ActionSequence.one (Action.createPlace e.1 e.2.1 e.2.2))).Nodup := by
      refine List.Nodup.map ?_ (forAllForPlaceOne_nodup _ _ (placeOne_nodup _)
        (StonePool.uniqueStones_nodup _))
      intro ⟨p, s, o⟩ ⟨p', s', o'⟩ e
      simp only [ActionSequence.one, Action.createPlace, ActionSequence.mk.injEq,
        List.cons.injEq, Action.mk.injEq] at e
      obtain ⟨⟨_, rfl, _, rfl, rfl⟩, _⟩ := e
      rfl
    have k1 : ∀ x ∈ (ActionGenerator.forAllForPlaceOne g.board.allPlaceOneActionPositions
        g.actionPools.active.uniqueStones).map
        (fun e => ActionSequence.one (Action.createPlace e.1 e.2.1 e.2.2)),
        x.kind = (ActionType.PlaceStone, true) := by
      intro x hx
      obtain ⟨e, _, rfl⟩ := List.mem_map.mp hx
      rfl
    split
    · rw [List.append_nil]
      exact ⟨n1, fun x hx => by rw [k1 x hx]⟩
    · have n2 : ((ActionGenerator.forAllForPlaceTwo g.board.allPlaceTwoActionPositions
          g.actionPools.active.uniqueStonePairs).map
          fun e => ActionSequence.two (Action.createPlace e.1.1 e.2.1.1 e.2.2.1)
            (Action.createPlace e.1.2 e.2.1.2 e.2.2.2)).Nodup := by
        refine List.Nodup.map ?_ (forAllForPlaceTwo_nodup _ _
          (combinedPairs_nodup _ (placeOne_nodup _)) (StonePool.uniqueStonePairs_nodup _))
        intro ⟨⟨p, q⟩, ⟨s, t⟩, ⟨o, r⟩⟩ ⟨⟨p', q'⟩, ⟨s', t'⟩, ⟨o', r'⟩⟩ e
        simp only [ActionSequence.two, Action.createPlace, ActionSequence.mk.injEq,
          List.cons.injEq, Action.mk.injEq] at e
        obtain ⟨⟨_, rfl, _, rfl, rfl⟩, ⟨_, rfl, _, rfl, rfl⟩, _⟩ := e
        rfl
      have k2 : ∀ x ∈ (ActionGenerator.forAllForPlaceTwo g.board.allPlaceTwoActionPositions
          g.actionPools.active.uniqueStonePairs).map
          (fun e => ActionSequence.two (Action.createPlace e.1.1 e.2.1.1 e.2.2.1)
            (Action.createPlace e.1.2 e.2.1.2 e.2.2.2)),
          x.kind = (ActionType.PlaceStone, false) := by
        intro x hx
        obtain ⟨e, _, rfl⟩ := List.mem_map.mp hx
        rfl
      refine ⟨nodup_append_of_key ActionSequence.kind _ _ _ _ (by decide) k1 k2 n1 n2, ?_⟩
      exact mem_append_key ActionSequence.kind (fun k => k.1 = ActionType.PlaceStone) _ _
        (fun x hx => by rw [k1 x hx]) (fun x hx => by rw [k2 x hx])

theorem addActionsReplace_nodup (g : GameState) (n : Nat) :
    (ActionGenerator.addActionsReplace g n).Nodup ∧
    ∀ x ∈ ActionGenerator.addActionsReplace g n, x.kind.1 = ActionType.ReplaceStone := by
  unfold ActionGenerator.addActionsReplace
  split
  · exact ⟨List.nodup_nil, fun x hx => by cases hx⟩
  · have n1 : (((ActionGenerator.forAllForReplaceOne g g.board.allReplaceOneActionPositions
        g.actionPools.active.uniqueStonePairs).filter
        (fun e => decide (g.board.canPlayerReplaceStone e.1 e.2.1.1 e.2.2 = .ok true))).map
        (fun e => ActionSequence.one (Action.createReplace e.1 e.2.1.1 e.2.2 e.2.1.2))).Nodup := by
      refine List.Nodup.map ?_ (List.Nodup.filter _ (forAllForReplaceOne_nodup _ _ _
        (positionsIf_nodup _ _) (StonePool.uniqueStonePairs_nodup _)))
      intro ⟨p, ⟨s, d⟩, o⟩ ⟨p', ⟨s', d'⟩, o'⟩ e
      simp only [ActionSequence.one, Action.createReplace, ActionSequence.mk.injEq,
        List.cons.injEq, Action.mk.injEq] at e
      obtain ⟨⟨_, rfl, rfl, rfl, rfl⟩, _⟩ := e
      rfl
    have k1 : ∀ x ∈ ((ActionGenerator.forAllForReplaceOne g g.board.allReplaceOneActionPositions
        g.actionPools.active.uniqueStonePairs).filter
        (fun e => decide (g.board.canPlayerReplaceStone e.1 e.2.1.1 e.2.2 = .ok true))).map
        (fun e => ActionSequence.one (Action.createReplace e.1 e.2.1.1 e.2.2 e.2.1.2)),
        x.kind = (ActionType.ReplaceStone, true) := by
      intro x hx
      obtain ⟨e, _, rfl⟩ := List.mem_map.mp hx
      rfl
    split
    · rw [List.append_nil]
      exact ⟨n1, fun x hx => by rw [k1 x hx]⟩
    · have n2 : (((ActionGenerator.forAllForReplaceTwo g g.board.allReplaceTwoActionPositions
          g.actionPools.active.uniqueStoneQuads).filter
          (fun e => decide (g.board.canPlayerReplaceStone e.1.1 e.2.1.1 e.2.2.2.1 = .ok true) &&
            decide (g.board.canPlayerReplaceStone e.1.2 e.2.1.2 e.2.2.2.2 = .ok true))).map
          fun e => ActionSequence.two
            (Action.createReplace e.1.1 e.2.1.1 e.2.2.2.1 e.2.2.1.1)
            (Action.createReplace e.1.2 e.2.1.2 e.2.2.2.2 e.2.2.1.2)).Nodup := by
        refine List.Nodup.map ?_ (List.Nodup.filter _ (forAllForReplaceTwo_nodup _ _ _
          (combinedPairs_nodup _ (positionsIf_nodup _ _)) (StonePool.uniqueStoneQuads_nodup _)))
        intro ⟨⟨p, q⟩, ⟨s, t⟩, ⟨d, c⟩, ⟨o, r⟩⟩ ⟨⟨p', q'⟩, ⟨s', t'⟩, ⟨d', c'⟩, ⟨o', r'⟩⟩ e
        simp only [ActionSequence.two, Action.createReplace, ActionSequence.mk.injEq,
          List.cons.injEq, Action.mk.injEq] at e
        obtain ⟨⟨_, rfl, rfl, rfl, rfl⟩, ⟨_, rfl, rfl, rfl, rfl⟩, _⟩ := e
        rfl
      have k2 : ∀ x ∈ ((ActionGenerator.forAllForReplaceTwo g
          g.board.allReplaceTwoActionPositions g.actionPools.active.uniqueStoneQuads).filter
          (fun e => decide (g.board.canPlayerReplaceStone e.1.1 e.2.1.1 e.2.2.2.1 = .ok true) &&
            decide (g.board.canPlayerReplaceStone e.1.2 e.2.1.2 e.2.2.2.2 = .ok true))).map
          (fun e => ActionSequence.two
            (Action.createReplace e.1.1 e.2.1.1 e.2.2.2.1 e.2.2.1.1)
            (Action.createReplace e.1.2 e.2.1.2 e.2.2.2.2 e.2.2.1.2)),
          x.kind = (ActionType.ReplaceStone, false) := by
        intro x hx
        obtain ⟨e, _, rfl⟩ := List.mem_map.mp hx
        rfl
      refine ⟨nodup_append_of_key ActionSequence.kind _ _ _ _ (by decide) k1 k2 n1 n2, ?_⟩
      exact mem_append_key ActionSequence.kind (fun k => k.1 = ActionType.ReplaceStone) _ _
        (fun x hx => by rw [k1 x hx]) (fun x hx => by rw [k2 x hx])

theorem addActionsRotate_nodup (g : GameState) (n : Nat) :
    (ActionGenerator.addActionsRotate g n).Nodup ∧
    ∀ x ∈ ActionGenerator.addActionsRotate g n, x.kind.1 = ActionType.RotateStone := by
  unfold ActionGenerator.addActionsRotate
  split
  · exact ⟨List.nodup_nil, fun x hx => by cases hx⟩
  · have n1 : (((ActionGenerator.forAllForRotationOne g g.board.allRotateOneActionPositions
        g.actionPools.active.uniqueStones).filter
        (fun e => decide (g.board.canPlayerRotateStone e.1 e.2.1 = .ok true))).map
        (fun e => ActionSequence.one (Action.createRotate e.1 e.2.1 e.2.2))).Nodup := by
      refine List.Nodup.map ?_ (List.Nodup.filter _ (forAllForRotationOne_nodup _ _ _
        (positionsIf_nodup _ _) (StonePool.uniqueStones_nodup _)))
      intro ⟨p, o, d⟩ ⟨p', o', d'⟩ e
      simp only [ActionSequence.one, Action.createRotate, ActionSequence.mk.injEq,
        List.cons.injEq, Action.mk.injEq] at e
      obtain ⟨⟨_, _, rfl, rfl, rfl⟩, _⟩ := e
      rfl
    have k1 : ∀ x ∈ ((ActionGenerator.forAllForRotationOne g g.board.allRotateOneActionPositions
        g.actionPools.active.uniqueStones).filter
        (fun e => decide (g.board.canPlayerRotateStone e.1 e.2.1 = .ok true))).map
        (fun e => ActionSequence.one (Action.createRotate e.1 e.2.1 e.2.2)),
        x.kind = (ActionType.RotateStone, true) := by
      intro x hx
      obtain ⟨e, _, rfl⟩ := List.mem_map.mp hx
      rfl
    split
    · have n2 : (((ActionGenerator.forAllForRotationTwo g g.board.allRotateTwoActionPositions
          g.actionPools.active.uniqueStonePairs).filter
          (fun e => decide (g.board.canPlayerRotateStone e.1.1 e.2.1.1 = .ok true) &&
            decide (g.board.canPlayerRotateStone e.1.2 e.2.1.2 = .ok true))).map
          fun e => ActionSequence.two (Action.createRotate e.1.1 e.2.1.1 e.2.2.1)
            (Action.createRotate e.1.2 e.2.1.2 e.2.2.2)).Nodup := by
        refine List.Nodup.map ?_ (List.Nodup.filter _ (forAllForRotationTwo_nodup _ _ _
          (combinedPairs_nodup _ (positionsIf_nodup _ _)) (StonePool.uniqueStonePairs_nodup _)))
        intro ⟨⟨p, q⟩, ⟨o, r⟩, ⟨d, c⟩⟩ ⟨⟨p', q'⟩, ⟨o', r'⟩, ⟨d', c'⟩⟩ e
        simp only [ActionSequence.two, Action.createRotate, ActionSequence.mk.injEq,
          List.cons.injEq, Action.mk.injEq] at e
        obtain ⟨⟨_, _, rfl, rfl, rfl⟩, ⟨_, _, rfl, rfl, rfl⟩, _⟩ := e
        rfl
      have k2 : ∀ x ∈ ((ActionGenerator.forAllForRotationTwo g
          g.board.allRotateTwoActionPositions g.actionPools.active.uniqueStonePairs).filter
          (fun e => decide (g.board.canPlayerRotateStone e.1.1 e.2.1.1 = .ok true) &&
            decide (g.board.canPlayerRotateStone e.1.2 e.2.1.2 = .ok true))).map
          (fun e => ActionSequence.two (Action.createRotate e.1.1 e.2.1.1 e.2.2.1)
            (Action.createRotate e.1.2 e.2.1.2 e.2.2.2)),
          x.kind = (ActionType.RotateStone, false) := by
        intro x hx
        obtain ⟨e, _, rfl⟩ := List.mem_map.mp hx
        rfl
      refine ⟨nodup_append_of_key ActionSequence.kind _ _ _ _ (by decide) k1 k2 n1 n2, ?_⟩
      exact mem_append_key ActionSequence.kind (fun k => k.1 = ActionType.RotateStone) _ _
        (fun x hx => by rw [k1 x hx]) (fun x hx => by rw [k2 x hx])
    · rw [List.append_nil]
      exact ⟨n1, fun x hx => by rw [k1 x hx]⟩

theorem allActionTwoExtraDraws_nodup (p : ResourcePool) : p.allActionTwoExtraDraws.Nodup := by
  unfold ResourcePool.allActionTwoExtraDraws
  exact nodup_flatMap_of_key _ _ Prod.fst allNonEmpty_nodup
    (fun a _ => nodup_map_pair a _ (List.Nodup.filter _ allNonEmpty_nodup))
    (fun a _ => key_map_pair a _)

theorem addActionsExtraDraw_nodup (g : GameState) :
    (ActionGenerator.addActionsExtraDraw g).Nodup ∧
    ∀ x ∈ ActionGenerator.addActionsExtraDraw g, x.kind.1 = ActionType.DrawStone := by
  unfold ActionGenerator.addActionsExtraDraw
  have n1 : (g.resourcePool.allActionOneExtraDraw.map fun stone =>
      ActionSequence.one (Action.createDraw stone)).Nodup := by
    refine List.Nodup.map ?_ (List.Nodup.filter _ allNonEmpty_nodup)
    intro s s' e
    simp only [ActionSequence.one, Action.createDraw, ActionSequence.mk.injEq,
      List.cons.injEq, Action.mk.injEq] at e
    exact e.1.2.1
  have k1 : ∀ x ∈ g.resourcePool.allActionOneExtraDraw.map (fun stone =>
      ActionSequence.one (Action.createDraw stone)), x.kind = (ActionType.DrawStone, true) := by
    intro x hx
    obtain ⟨e, _, rfl⟩ := List.mem_map.mp hx
    rfl
  have n2 : (g.resourcePool.allActionTwoExtraDraws.map fun e =>
      ActionSequence.two (Action.createDraw e.1) (Action.createDraw e.2)).Nodup := by
    refine List.Nodup.map ?_ (allActionTwoExtraDraws_nodup _)
    intro ⟨s, t⟩ ⟨s', t'⟩ e
    simp only [ActionSequence.two, Action.createDraw, ActionSequence.mk.injEq,
      List.cons.injEq, Action.mk.injEq] at e
    obtain ⟨⟨_, rfl, _⟩, ⟨_, rfl, _⟩, _⟩ := e
    rfl
  have k2 : ∀ x ∈ g.resourcePool.allActionTwoExtraDraws.map (fun e =>
      ActionSequence.two (Action.createDraw e.1) (Action.createDraw e.2)),
      x.kind = (ActionType.DrawStone, false) := by
    intro x hx
    obtain ⟨e, _, rfl⟩ := List.mem_map.mp hx
    rfl
  have e1 : ∀ x ∈ ([] : List ActionSequence), x.kind = (ActionType.DrawStone, true) :=
    fun x hx => by cases hx
  have e2 : ∀ x ∈ ([] : List ActionSequence), x.kind = (ActionType.DrawStone, false) :=
    fun x hx => by cases hx
  dsimp only
  split <;> split
  · exact ⟨nodup_append_of_key ActionSequence.kind _ _ _ _ (by decide) k1 k2 n1 n2,
      mem_append_key ActionSequence.kind (fun k => k.1 = ActionType.DrawStone) _ _
        (fun x hx => by rw [k1 x hx]) (fun x hx => by rw [k2 x hx])⟩
  · exact ⟨nodup_append_of_key ActionSequence.kind _ _ _ _ (by decide) k1 e2 n1 List.nodup_nil,
      mem_append_key ActionSequence.kind (fun k => k.1 = ActionType.DrawStone) _ _
        (fun x hx => by rw [k1 x hx]) (fun x hx => by cases hx)⟩
  · exact ⟨nodup_append_of_key ActionSequence.kind _ _ _ _ (by decide) e1 k2 List.nodup_nil n2,
      mem_append_key ActionSequence.kind (fun k => k.1 = ActionType.DrawStone) _ _
        (fun x hx => by cases hx) (fun x hx => by rw [k2 x hx])⟩
  · exact ⟨List.nodup_nil, fun x hx => by cases hx⟩

/-- The list of `allActions` has no sequence twice, in every state. -/
theorem allActions_nodup (g : GameState) : g.allActions.Nodup := by
  unfold GameState.allActions ActionGenerator.addAllActions
  have hp := addActionsPlace_nodup g g.actionPools.active.stoneCount
  have hr := addActionsReplace_nodup g g.actionPools.active.stoneCount
  have ho := addActionsRotate_nodup g g.actionPools.active.stoneCount
  have hd := addActionsExtraDraw_nodup g
  have h1 : (ActionGenerator.addActionsPlace g g.actionPools.active.stoneCount ++
      ActionGenerator.addActionsReplace g g.actionPools.active.stoneCount).Nodup :=
    nodup_append_of_key (fun x => x.kind.1) _ _ _ _ (by decide) hp.2 hr.2 hp.1 hr.1
  have k1 : ∀ x ∈ ActionGenerator.addActionsPlace g g.actionPools.active.stoneCount ++
      ActionGenerator.addActionsReplace g g.actionPools.active.stoneCount,
      x.kind.1 = ActionType.PlaceStone ∨ x.kind.1 = ActionType.ReplaceStone :=
    mem_append_key (fun x : ActionSequence => x.kind.1)
      (fun k => k = ActionType.PlaceStone ∨ k = ActionType.ReplaceStone) _ _
      (fun x hx => Or.inl (hp.2 x hx)) (fun x hx => Or.inr (hr.2 x hx))
  have h2 : ((ActionGenerator.addActionsPlace g g.actionPools.active.stoneCount ++
      ActionGenerator.addActionsReplace g g.actionPools.active.stoneCount) ++
      ActionGenerator.addActionsRotate g g.actionPools.active.stoneCount).Nodup := by
    refine List.nodup_append.mpr ⟨h1, ho.1, ?_⟩
    intro x hx hx'
    have := ho.2 x hx'
    rcases k1 x hx with h | h <;> exact absurd (h.symm.trans this) (by decide)
  refine List.nodup_append.mpr ⟨h2, hd.1, ?_⟩
  intro x hx hx'
  have hd' := hd.2 x hx'
  rcases List.mem_append.mp hx with h | h
  · rcases k1 x h with h | h <;> exact absurd (h.symm.trans hd') (by decide)
  · exact absurd ((ho.2 x h).symm.trans hd') (by decide)

/-- The inner loop of `allMoves` over the regular draws, once the orb search has run out
of fuel: no list. -/
theorem allMoves_draws_none (om : Except String (Option (List OrbMove))) (a : ActionSequence) :
    ∀ (ds : List Stone) (r : List GameMove),
      ds.foldlM (fun (acc : Option (List GameMove)) drawStone => do
        let orbMoves ← om
        pure (do
          let moves ← acc
          let orbMoves ← orbMoves
          pure (moves ++ orbMoves.map fun orbMove => (⟨a, drawStone, orbMove⟩ : GameMove))))
        Option.none ≠ .ok (some r) := by
  intro ds
  induction ds with
  | nil => intro r h; cases h
  | cons d ds ih =>
    intro r h
    rw [List.foldlM_cons] at h
    cases om with
    | error e => cases h
    | ok oms => exact ih r h

/-- The inner loop of `allMoves` over the regular draws. -/
theorem allMoves_draws (om : Except String (Option (List OrbMove))) (a : ActionSequence) :
    ∀ (ds : List Stone) (pre : Option (List GameMove)) (r : List GameMove),
      ds.foldlM (fun (acc : Option (List GameMove)) drawStone => do
        let orbMoves ← om
        pure (do
          let moves ← acc
          let orbMoves ← orbMoves
          pure (moves ++ orbMoves.map fun orbMove => (⟨a, drawStone, orbMove⟩ : GameMove))))
        pre = .ok (some r) →
      ∃ p, pre = some p ∧ r = p ++
        match om with
        | .ok (some orbMoves) =>
          ds.flatMap fun drawStone => orbMoves.map fun orbMove => ⟨a, drawStone, orbMove⟩
        | _ => [] := by
  intro ds
  induction ds with
  | nil =>
    intro pre r h
    cases h
    refine ⟨r, rfl, ?_⟩
    split <;> simp
  | cons d ds ih =>
    intro pre r h
    rw [List.foldlM_cons] at h
    cases om with
    | error e => cases h
    | ok oms =>
      cases oms with
      | none =>
        cases pre <;> exact absurd h (allMoves_draws_none _ a ds r)
      | some oms =>
        cases pre with
        | none => exact absurd h (allMoves_draws_none _ a ds r)
        | some p =>
          obtain ⟨p', hp', hr⟩ := ih _ r h
          refine ⟨p, rfl, ?_⟩
          cases hp'
          rw [hr]
          simp

/-- The closing function of the loop of `allMoves` over the action sequences. -/
theorem allMoves_actions (fuel : Nat) (g : GameState) :
    ∀ (as : List ActionSequence) (pre : Option (List GameMove)) (r : List GameMove),
      as.foldlM (fun (acc : Option (List GameMove)) actionSeq => do
        let stateAfterAction ← actionSeq.applyTo g
        stateAfterAction.allRegularDraws.foldlM
          (fun (acc : Option (List GameMove)) drawStone => do
            let orbMoves ← stateAfterAction.allOrbMoves fuel
            pure (do
              let moves ← acc
              let orbMoves ← orbMoves
              pure (moves ++ orbMoves.map fun orbMove => (⟨actionSeq, drawStone, orbMove⟩ : GameMove))))
          acc) pre = .ok (some r) →
      ∃ p, pre = some p ∧ r = p ++ as.flatMap (g.movesFor fuel) := by
  intro as
  induction as with
  | nil =>
    intro pre r h
    cases h
    exact ⟨r, rfl, by simp⟩
  | cons a as ih =>
    intro pre r h
    rw [List.foldlM_cons] at h
    cases ha : a.applyTo g with
    | error e =>
      rw [ha] at h
      cases h
    | ok g1 =>
      rw [ha] at h
      obtain ⟨acc1, h1, h2⟩ := (Except.bind_eq_ok_iff _ _ _).mp h
      obtain ⟨p1, hp1, hr⟩ := ih acc1 r h2
      subst hp1
      obtain ⟨p, hp, hp1⟩ := allMoves_draws (g1.allOrbMoves fuel) a _ pre p1 h1
      refine ⟨p, hp, ?_⟩
      rw [hr, hp1, List.flatMap_cons, List.append_assoc]
      congr 2
      unfold GameState.movesFor
      rw [ha]

/-- The list of `allMoves`: the sequences of `allActions` in their order, each with its
regular draws and its orb moves. -/
theorem allMoves_eq (fuel : Nat) (g : GameState) (moves : List GameMove)
    (h : g.allMoves fuel = .ok (some moves)) : moves = g.allActions.flatMap (g.movesFor fuel) := by
  obtain ⟨p, hp, hr⟩ := allMoves_actions fuel g g.allActions (some []) moves h
  cases hp
  simpa using hr

/-- The loop of the orb search keeps the moves it has and adds no move twice. -/
theorem allMovesLoop_nodup (fuel : Nat) (g : GameState) :
    ∀ (orbs : List OrbPosition) (result moves : List OrbMove),
      OrbMoveGenerator.allMovesLoop fuel g orbs result = .ok (some moves) →
      (∃ extra, moves = result ++ extra) ∧ (result.Nodup → moves.Nodup) := by
  intro orbs
  induction orbs with
  | nil =>
    intro result moves h
    simp [OrbMoveGenerator.allMovesLoop, pure, Except.pure] at h
    rw [← h]
    exact ⟨⟨[], by simp⟩, id⟩
  | cons o more ih =>
    intro result moves h
    rcases allMovesLoop_cons fuel g o more result moves h with
      ⟨_, e⟩ | ⟨_, _, _, h1⟩ | ⟨_, _, _, stops, _, h1⟩
    · rw [e]
      exact ⟨⟨[], by simp⟩, id⟩
    · exact ih result moves h1
    · obtain ⟨⟨extra, he⟩, hn⟩ := ih _ moves h1
      obtain ⟨extra1, he1⟩ := addStops_prefix g.orbPositions o.position stops result
      refine ⟨⟨extra1 ++ extra, by rw [he, he1, List.append_assoc]⟩, fun hr => ?_⟩
      exact hn (addStops_nodup g.orbPositions o.position stops result hr)

/-- The orb moves of a state: no move twice, and the option not to move is one of them. -/
theorem allOrbMoves_nodup (fuel : Nat) (g : GameState) (moves : List OrbMove)
    (h : g.allOrbMoves fuel = .ok (some moves)) : moves.Nodup ∧ OrbMove.noMove ∈ moves := by
  obtain ⟨⟨extra, he⟩, hn⟩ := allMovesLoop_nodup fuel g _ _ moves h
  refine ⟨hn (List.nodup_singleton _), ?_⟩
  rw [he]
  simp

theorem allRegularDraws_nodup (g : GameState) : g.allRegularDraws.Nodup := by
  unfold GameState.allRegularDraws
  split
  · exact List.nodup_nil
  · unfold ResourcePool.allRegularDraws
    split
    · exact List.nodup_nil
    · exact List.Nodup.filter _ allNonEmpty_nodup

theorem movesFor_ok (fuel : Nat) (g g1 : GameState) (a : ActionSequence)
    (orbMoves : List OrbMove) (ha : a.applyTo g = .ok g1)
    (ho : g1.allOrbMoves fuel = .ok (some orbMoves)) :
    g.movesFor fuel a = g1.allRegularDraws.flatMap fun drawStone =>
      orbMoves.map fun orbMove => ⟨a, drawStone, orbMove⟩ := by
  unfold GameState.movesFor
  rw [ha]
  dsimp only
  rw [ho]

theorem movesFor_cases (fuel : Nat) (g : GameState) (a : ActionSequence) :
    g.movesFor fuel a = [] ∨ ∃ g1 orbMoves, a.applyTo g = .ok g1 ∧
      g1.allOrbMoves fuel = .ok (some orbMoves) := by
  cases ha : a.applyTo g with
  | error e =>
    left
    unfold GameState.movesFor
    rw [ha]
  | ok g1 =>
    cases ho : g1.allOrbMoves fuel with
    | error e =>
      left
      unfold GameState.movesFor
      rw [ha]
      dsimp only
      rw [ho]
    | ok oms =>
      cases oms with
      | none =>
        left
        unfold GameState.movesFor
        rw [ha]
        dsimp only
        rw [ho]
      | some oms => exact Or.inr ⟨g1, oms, rfl, ho⟩

/-- What a move that `allMoves` adds for an action sequence is made of. -/
theorem mem_movesFor (fuel : Nat) (g : GameState) (a : ActionSequence) (m : GameMove) :
    m ∈ g.movesFor fuel a ↔
      ∃ g1 orbMoves, a.applyTo g = .ok g1 ∧ g1.allOrbMoves fuel = .ok (some orbMoves) ∧
        m.actions = a ∧ m.drawnStone ∈ g1.allRegularDraws ∧ m.orbMove ∈ orbMoves := by
  constructor
  · intro hm
    rcases movesFor_cases fuel g a with h | ⟨g1, oms, ha, ho⟩
    · rw [h] at hm
      cases hm
    · rw [movesFor_ok fuel g g1 a oms ha ho] at hm
      obtain ⟨d, hd, hm⟩ := List.mem_flatMap.mp hm
      obtain ⟨om, hom, rfl⟩ := List.mem_map.mp hm
      exact ⟨g1, oms, ha, ho, rfl, hd, hom⟩
  · rintro ⟨g1, oms, ha, ho, h1, h2, h3⟩
    rw [movesFor_ok fuel g g1 a oms ha ho]
    refine List.mem_flatMap.mpr ⟨m.drawnStone, h2, List.mem_map.mpr ⟨m.orbMove, h3, ?_⟩⟩
    cases m
    simp only at h1
    rw [h1]

theorem movesFor_nodup (fuel : Nat) (g : GameState) (a : ActionSequence) :
    (g.movesFor fuel a).Nodup := by
  rcases movesFor_cases fuel g a with h | ⟨g1, oms, ha, ho⟩
  · rw [h]
    exact List.nodup_nil
  · rw [movesFor_ok fuel g g1 a oms ha ho]
    exact nodup_product_map _ _ (fun d om => (⟨a, d, om⟩ : GameMove)) GameMove.drawnStone
      (allRegularDraws_nodup g1) (allOrbMoves_nodup fuel g1 oms ho).1 (fun _ _ => rfl)
      (fun _ _ _ e => (GameMove.mk.inj e).2.2)

/-- The list of `allMoves` has no move twice, in every state. -/
theorem allMoves_nodup (fuel : Nat) (g : GameState) (moves : List GameMove)
    (h : g.allMoves fuel = .ok (some moves)) : moves.Nodup := by
  rw [allMoves_eq fuel g moves h]
  refine nodup_flatMap_of_key _ _ GameMove.actions (allActions_nodup g)
    (fun a _ => movesFor_nodup fuel g a) ?_
  intro a _ m hm
  obtain ⟨_, _, _, _, h3, _⟩ := (mem_movesFor fuel g a m).mp hm
  exact h3

/-- The moves of `allMoves`. -/
theorem mem_allMoves (fuel : Nat) (g : GameState) (moves : List GameMove)
    (h : g.allMoves fuel = .ok (some moves)) (m : GameMove) :
    m ∈ moves ↔ m.actions ∈ g.allActions ∧
      ∃ g1 orbMoves, m.actions.applyTo g = .ok g1 ∧
        g1.allOrbMoves fuel = .ok (some orbMoves) ∧
        m.drawnStone ∈ g1.allRegularDraws ∧ m.orbMove ∈ orbMoves := by
  rw [allMoves_eq fuel g moves h, List.mem_flatMap]
  constructor
  · rintro ⟨a, ha, hm⟩
    obtain ⟨g1, oms, h1, h2, h3, h4, h5⟩ := (mem_movesFor fuel g a m).mp hm
    subst h3
    exact ⟨ha, g1, oms, h1, h2, h4, h5⟩
  · rintro ⟨ha, g1, oms, h1, h2, h4, h5⟩
    exact ⟨m.actions, ha, (mem_movesFor fuel g _ m).mpr ⟨g1, oms, h1, h2, rfl, h4, h5⟩⟩

/-! ### The function `allMoves` returns -/

theorem allMoves_draws_ok (oms : List OrbMove) (a : ActionSequence) :
    ∀ (ds : List Stone) (p : List GameMove),
      ds.foldlM (fun (acc : Option (List GameMove)) drawStone => do
        let orbMoves ← (Except.ok (some oms) : Except String (Option (List OrbMove)))
        pure (do
          let moves ← acc
          let orbMoves ← orbMoves
          pure (moves ++ orbMoves.map fun orbMove => (⟨a, drawStone, orbMove⟩ : GameMove))))
        (some p) = .ok (some (p ++ ds.flatMap fun drawStone =>
          oms.map fun orbMove => ⟨a, drawStone, orbMove⟩)) := by
  intro ds
  induction ds with
  | nil => intro p; simp [pure, Except.pure]
  | cons d ds ih =>
    intro p
    rw [List.foldlM_cons]
    have := ih (p ++ oms.map fun orbMove => (⟨a, d, orbMove⟩ : GameMove))
    rw [List.flatMap_cons, ← List.append_assoc]
    exact this

theorem allMoves_actions_ok (fuel : Nat) (g : GameState) :
    ∀ (as : List ActionSequence) (p : List GameMove),
      (∀ a ∈ as, ∃ g1 oms, a.applyTo g = .ok g1 ∧ g1.allOrbMoves fuel = .ok (some oms)) →
      as.foldlM (fun (acc : Option (List GameMove)) actionSeq => do
        let stateAfterAction ← actionSeq.applyTo g
        stateAfterAction.allRegularDraws.foldlM
          (fun (acc : Option (List GameMove)) drawStone => do
            let orbMoves ← stateAfterAction.allOrbMoves fuel
            pure (do
              let moves ← acc
              let orbMoves ← orbMoves
              pure (moves ++ orbMoves.map fun orbMove =>
                (⟨actionSeq, drawStone, orbMove⟩ : GameMove))))
          acc) (some p) = .ok (some (p ++ as.flatMap (g.movesFor fuel))) := by
  intro as
  induction as with
  | nil => intro p _; simp [pure, Except.pure]
  | cons a as ih =>
    intro p h
    obtain ⟨g1, oms, ha, ho⟩ := h a (List.mem_cons_self _ _)
    rw [List.foldlM_cons, ha]
    show (do
      let acc1 ← g1.allRegularDraws.foldlM
        (fun (acc : Option (List GameMove)) drawStone => do
          let orbMoves ← g1.allOrbMoves fuel
          pure (do
            let moves ← acc
            let orbMoves ← orbMoves
            pure (moves ++ orbMoves.map fun orbMove => (⟨a, drawStone, orbMove⟩ : GameMove))))
        (some p)
      List.foldlM _ acc1 as) = _
    rw [ho, allMoves_draws_ok oms a g1.allRegularDraws p]
    have := ih (p ++ g1.allRegularDraws.flatMap fun drawStone =>
      oms.map fun orbMove => ⟨a, drawStone, orbMove⟩) (fun x hx => h x (List.mem_cons_of_mem _ hx))
    rw [List.flatMap_cons, ← List.append_assoc, movesFor_ok fuel g g1 a oms ha ho]
    exact this

/-- A bound that serves each element of a list serves all of them. -/
theorem exists_common_bound {α : Type} (P : α → Nat → Prop) :
    ∀ l : List α, (∀ a ∈ l, ∃ N, ∀ n, N ≤ n → P a n) → ∃ N, ∀ a ∈ l, ∀ n, N ≤ n → P a n
  | [], _ => ⟨0, fun a ha => by cases ha⟩
  | a :: l, h => by
    obtain ⟨N1, h1⟩ := h a (List.mem_cons_self _ _)
    obtain ⟨N2, h2⟩ := exists_common_bound P l fun x hx => h x (List.mem_cons_of_mem _ hx)
    refine ⟨max N1 N2, ?_⟩
    intro x hx n hn
    rcases List.mem_cons.mp hx with rfl | hx
    · exact h1 n (le_trans (le_max_left _ _) hn)
    · exact h2 x hx n (le_trans (le_max_right _ _) hn)

theorem inPlay_onBoard (o : OrbPositions) (hw : ∀ x ∈ o.positions, x.WF) :
    ∀ x ∈ o.positions.takeWhile (fun r => !r.position.isInvalid), x.position.OnBoard := by
  intro x hx
  have h1 := List.mem_takeWhile_imp hx
  have h2 := (hw x (List.takeWhile_sublist _ |>.subset hx)).1
  rcases h2 with h2 | h2
  · rw [h2] at h1
    cases h1
  · exact h2

/-- The function `allMoves` returns a list for every state in the form of the engine whose
active pool is in canonical form, given enough fuel for the orb searches. -/
theorem allMoves_returns (g : GameState) (hw : g.WF) (hc : g.actionPools.active.Canonical) :
    ∃ N, ∀ fuel, N ≤ fuel →
      g.allMoves fuel = .ok (some (g.allActions.flatMap (g.movesFor fuel))) ∧
      ∀ a ∈ g.allActions, ∃ g1 oms, a.applyTo g = .ok g1 ∧
        g1.allOrbMoves fuel = .ok (some oms) := by
  have h6 := hw.2.2.2.1 _ (ActionPools.active_mem _ hw.2.2.1)
  have happ := addAllActions_applies g hw.2.2.1 h6 hw.2.2.2.2.2.2.1 hc
  have hone : ∀ a ∈ g.allActions, ∃ N, ∀ fuel, N ≤ fuel →
      ∃ g1 oms, a.applyTo g = .ok g1 ∧ g1.allOrbMoves fuel = .ok (some oms) := by
    intro a ha
    obtain ⟨_, _, _, g1, _, _, _, h1⟩ := happ a ha
    have hw1 := ActionSequence.actionSequence_applyTo_WF a g g1 hw h1
    obtain ⟨N, moves, hN⟩ := allMovesLoop_returns g1 hw1.1 g1.orbPositions.positions
      (inPlay_onBoard _ hw1.2.2.2.2.2.1) [OrbMove.noMove]
    exact ⟨N, fun fuel hf => ⟨g1, moves, h1, hN fuel hf⟩⟩
  obtain ⟨N, hN⟩ := exists_common_bound _ _ hone
  refine ⟨N, fun fuel hf => ⟨?_, fun a ha => hN a ha fuel hf⟩⟩
  have := allMoves_actions_ok fuel g g.allActions [] (fun a ha => hN a ha fuel hf)
  rw [List.nil_append] at this
  exact this

/-! ### Two moves with the same following state -/

theorem startingState_canonical : startingState.actionPools.active.Canonical := by decide

set_option maxRecDepth 100000 in
theorem stateAfterFirstMove_eq : startingState.executeMove firstMove = .ok stateAfterFirstMove := by
  decide

set_option maxRecDepth 100000 in
theorem stateAfterFirstMove_WF :
    stateAfterFirstMove.WF ∧ stateAfterFirstMove.actionPools.active.Canonical := by
  decide

/-- A move is in the list of `allMoves` when its sequence is one of `allActions`, its draw
one of the regular draws after the actions, and no orb is moved. -/
theorem mem_allMoves_noMove (g : GameState) (hw : g.WF) (hc : g.actionPools.active.Canonical)
    (a : ActionSequence) (d : Stone) (ha : a ∈ g.allActions)
    (hd : (a.applyTo g).map (fun s => decide (d ∈ s.allRegularDraws)) = .ok true) :
    ∃ N, ∀ fuel, N ≤ fuel → ∃ moves, g.allMoves fuel = .ok (some moves) ∧
      (⟨a, d, OrbMove.noMove⟩ : GameMove) ∈ moves := by
  obtain ⟨N, hN⟩ := allMoves_returns g hw hc
  refine ⟨N, fun fuel hf => ⟨_, (hN fuel hf).1, ?_⟩⟩
  obtain ⟨g1, oms, h1, h2⟩ := (hN fuel hf).2 a ha
  rw [h1] at hd
  have hd' : decide (d ∈ g1.allRegularDraws) = true := Except.ok.inj hd
  exact (mem_allMoves fuel g _ (hN fuel hf).1 _).mpr
    ⟨ha, g1, oms, h1, h2, of_decide_eq_true hd', (allOrbMoves_nodup fuel g1 oms h2).2⟩

set_option maxRecDepth 100000 in
theorem firstMove_mem : firstMove.actions ∈ startingState.allActions := by
  decide

set_option maxRecDepth 100000 in
theorem firstMove_draw :
    (firstMove.actions.applyTo startingState).map
      (fun s => decide (Stone.TwoCurves ∈ s.allRegularDraws)) = .ok true := by
  decide

set_option maxRecDepth 100000 in
theorem rotateDrop_mem :
    rotateDropTwoCurves.actions ∈ stateAfterFirstMove.allActions ∧
    rotateDropCrossing.actions ∈ stateAfterFirstMove.allActions := by
  unfold GameState.allActions ActionGenerator.addAllActions
  simp only [List.mem_append]
  refine ⟨Or.inl (Or.inr ?_), Or.inl (Or.inr ?_)⟩ <;> decide

set_option maxRecDepth 100000 in
theorem rotateDrop_draw :
    (rotateDropTwoCurves.actions.applyTo stateAfterFirstMove).map
      (fun s => decide (Stone.TwoCurves ∈ s.allRegularDraws)) = .ok true ∧
    (rotateDropCrossing.actions.applyTo stateAfterFirstMove).map
      (fun s => decide (Stone.Crossing ∈ s.allRegularDraws)) = .ok true := by
  decide

set_option maxRecDepth 100000 in
theorem rotateDrop_same :
    (stateAfterFirstMove.executeMove rotateDropTwoCurves).toOption.isSome = true ∧
    stateAfterFirstMove.executeMove rotateDropTwoCurves =
      stateAfterFirstMove.executeMove rotateDropCrossing := by
  decide

theorem stateAfterFirstMove_reachable : ReachableByAllMoves stateAfterFirstMove := by
  obtain ⟨N, hN⟩ := mem_allMoves_noMove startingState startingState_WF startingState_canonical
    firstMove.actions .TwoCurves firstMove_mem firstMove_draw
  obtain ⟨moves, h1, h2⟩ := hN N (le_refl _)
  exact ReachableByAllMoves.executeMove startingState stateAfterFirstMove N moves firstMove
    (ReachableByAllMoves.start _ startingState_eq) h1 h2 stateAfterFirstMove_eq

/-- C33, the general sentence: after the first move `TwoCurves` at `(1, 1)` with a
`TwoCurves` drawn, which is a state of a game, the list of `allMoves` holds two different
moves with the same following state: the stone at `(1, 1)` is turned east and the stone
that pays for it is drawn again, once a `TwoCurves` and once a `Crossing`. -/
theorem afterMove_not_injective :
    ReachableByAllMoves stateAfterFirstMove ∧
    ∃ fuel moves g', stateAfterFirstMove.allMoves fuel = .ok (some moves) ∧
      rotateDropTwoCurves ∈ moves ∧ rotateDropCrossing ∈ moves ∧
      rotateDropTwoCurves ≠ rotateDropCrossing ∧
      stateAfterFirstMove.executeMove rotateDropTwoCurves = .ok g' ∧
      stateAfterFirstMove.executeMove rotateDropCrossing = .ok g' := by
  refine ⟨stateAfterFirstMove_reachable, ?_⟩
  obtain ⟨N1, h1⟩ := mem_allMoves_noMove stateAfterFirstMove stateAfterFirstMove_WF.1
    stateAfterFirstMove_WF.2 rotateDropTwoCurves.actions .TwoCurves rotateDrop_mem.1
    rotateDrop_draw.1
  obtain ⟨N2, h2⟩ := mem_allMoves_noMove stateAfterFirstMove stateAfterFirstMove_WF.1
    stateAfterFirstMove_WF.2 rotateDropCrossing.actions .Crossing rotateDrop_mem.2
    rotateDrop_draw.2
  obtain ⟨moves, hm, hin1⟩ := h1 (max N1 N2) (le_max_left _ _)
  obtain ⟨moves2, hm2, hin2⟩ := h2 (max N1 N2) (le_max_right _ _)
  rw [hm] at hm2
  cases hm2
  have hsame := rotateDrop_same
  cases he : stateAfterFirstMove.executeMove rotateDropTwoCurves with
  | error e =>
    rw [he] at hsame
    cases hsame.1
  | ok g' =>
    exact ⟨max N1 N2, moves, g', hm, hin1, hin2, by decide, rfl, by rw [← hsame.2, he]⟩

/-! ### The actions and the draw of a move do not look at the orbs -/

theorem Except.map_bind_eq {ε α β γ : Type} (f : β → γ) (x : Except ε α) (k : α → Except ε β) :
    Except.map f (x >>= k) = x >>= fun v => Except.map f (k v) := by
  cases x <;> rfl

theorem Except.map_ite_eq {ε β γ : Type} (c : Prop) [Decidable c] (f : β → γ)
    (a b : Except ε β) :
    Except.map f (if c then a else b) = if c then Except.map f a else Except.map f b := by
  split <;> rfl

theorem Except.map_pure_eq {ε β γ : Type} (f : β → γ) (a : β) :
    Except.map f (pure a : Except ε β) = pure (f a) := rfl

theorem Except.map_throw_eq {ε β γ : Type} (f : β → γ) (e : ε) :
    Except.map f (throw e : Except ε β) = throw e := rfl

theorem Action.applyPlaceAction_withOrbs (a : Action) (g : GameState) (o : OrbPositions) :
    a.applyPlaceAction { g with orbPositions := o } =
      (a.applyPlaceAction g).map fun s => { s with orbPositions := o } := by
  unfold Action.applyPlaceAction
  simp only [Except.map_bind_eq, Except.map_ite_eq, Except.map_pure_eq, Except.map_throw_eq]

theorem Action.applyReplaceAction_withOrbs (a : Action) (g : GameState) (o : OrbPositions) :
    a.applyReplaceAction { g with orbPositions := o } =
      (a.applyReplaceAction g).map fun s => { s with orbPositions := o } := by
  unfold Action.applyReplaceAction
  simp only [Except.map_bind_eq, Except.map_ite_eq, Except.map_pure_eq, Except.map_throw_eq]

theorem Action.applyRotateAction_withOrbs (a : Action) (g : GameState) (o : OrbPositions) :
    a.applyRotateAction { g with orbPositions := o } =
      (a.applyRotateAction g).map fun s => { s with orbPositions := o } := by
  unfold Action.applyRotateAction
  simp only [Except.map_bind_eq, Except.map_ite_eq, Except.map_pure_eq, Except.map_throw_eq]

theorem Action.applyDrawAction_withOrbs (a : Action) (g : GameState) (o : OrbPositions) :
    a.applyDrawAction { g with orbPositions := o } =
      (a.applyDrawAction g).map fun s => { s with orbPositions := o } := by
  unfold Action.applyDrawAction
  simp only [Except.map_bind_eq, Except.map_ite_eq, Except.map_pure_eq, Except.map_throw_eq]

theorem Action.applyTo_withOrbs (a : Action) (g : GameState) (o : OrbPositions) :
    a.applyTo { g with orbPositions := o } =
      (a.applyTo g).map fun s => { s with orbPositions := o } := by
  unfold Action.applyTo
  split
  · exact Action.applyPlaceAction_withOrbs a g o
  · exact Action.applyReplaceAction_withOrbs a g o
  · exact Action.applyRotateAction_withOrbs a g o
  · exact Action.applyDrawAction_withOrbs a g o
  · rfl

theorem ActionSequence.sequence_withOrbs (s : ActionSequence) (g : GameState)
    (o : OrbPositions) :
    s.applyTo { g with orbPositions := o } =
      (s.applyTo g).map fun g1 => { g1 with orbPositions := o } := by
  unfold ActionSequence.applyTo
  generalize s.sequence = l
  induction l generalizing g with
  | nil => rfl
  | cons a l ih =>
    rw [List.foldlM_cons, List.foldlM_cons]
    by_cases hn : (!a.isNone) = true
    · rw [if_pos hn, if_pos hn, Action.applyTo_withOrbs]
      cases a.applyTo g with
      | error e => rfl
      | ok g1 => exact ih g1
    · rw [if_neg hn, if_neg hn]
      exact ih g

theorem GameState.moveStoneToPlayer_withOrbs (g : GameState) (stone : Stone) (player : Nat)
    (o : OrbPositions) :
    GameState.moveStoneToPlayer { g with orbPositions := o } stone player =
      (g.moveStoneToPlayer stone player).map fun s => { s with orbPositions := o } := by
  unfold GameState.moveStoneToPlayer
  simp only [Except.map_bind_eq, Except.map_ite_eq, Except.map_pure_eq, Except.map_throw_eq]

/-! ### Every move of `allMoves` can be executed -/

theorem GameState.nextTurn_eq (g : GameState) (hw : g.WF) :
    g.nextTurn = .ok { g with orbPositions := g.orbPositions.nextTurn } := by
  have hbn := Board.nextTurn_of_no_koLock g.board hw.1 (fun x hx => (hw.2.1 x hx).2)
  unfold GameState.nextTurn
  rw [hbn]
  rfl

/-- The function `executeMove` in terms of the state after the actions: the draw is
made in that state, and the orb move in the result with the orbs after `nextTurn`. -/
theorem GameState.executeMove_eq (g g1 : GameState) (hw : g.WF) (m : GameMove)
    (ha : m.actions.applyTo g = .ok g1) :
    g.executeMove m =
      (if !m.drawnStone.empty then g1.moveStoneToPlayer m.drawnStone 0 else pure g1) >>=
        fun g3 =>
          if !m.orbMove.isNoMove then
            m.orbMove.applyTo { g3 with orbPositions := g.orbPositions.nextTurn }
          else pure { g3 with orbPositions := g.orbPositions.nextTurn } := by
  unfold GameState.executeMove
  rw [GameState.nextTurn_eq g hw]
  simp only [bind, Except.bind]
  rw [ActionSequence.sequence_withOrbs, ha]
  simp only [Except.map]
  by_cases hd : (!m.drawnStone.empty) = true
  · simp only [hd, if_true]
    rw [GameState.moveStoneToPlayer_withOrbs]
    cases g1.moveStoneToPlayer m.drawnStone 0 with
    | error e => rfl
    | ok g3 => rfl
  · simp only [hd, if_false]
    rfl

theorem mem_allRegularDraws (g : GameState) (d : Stone) (h : d ∈ g.allRegularDraws) :
    g.actionPools.active.full = false ∧ g.resourcePool.hasStone d = .ok true ∧
    d ∈ Stone.allNonEmpty := by
  unfold GameState.allRegularDraws at h
  split at h
  · cases h
  · rename_i hf
    unfold ResourcePool.allRegularDraws at h
    split at h
    · cases h
    · obtain ⟨h1, h2⟩ := List.mem_filter.mp h
      exact ⟨by simpa using hf, of_decide_eq_true h2, h1⟩

theorem allNonEmpty_not_empty : ∀ d ∈ Stone.allNonEmpty, d.empty = false := by decide

/-- A regular draw of `allRegularDraws` can be made. -/
theorem GameState.moveStoneToPlayer_succeeds (g : GameState) (hw : g.WF) (d : Stone)
    (h : d ∈ g.allRegularDraws) :
    ∃ rp pool1, g.resourcePool.take d = .ok rp ∧
      g.moveStoneToPlayer d 0 =
        .ok { g with resourcePool := rp, actionPools := g.actionPools.set 0 pool1 } := by
  obtain ⟨hfull, hhas, hne⟩ := mem_allRegularDraws g d h
  obtain ⟨hd, c, hc, hpos⟩ := ResourcePool.hasStone_true _ _ hhas
  have h6 := hw.2.2.2.1 _ (ActionPools.active_mem _ hw.2.2.1)
  obtain ⟨pool1, hp1⟩ := StonePool.stonePool_add_succeeds g.actionPools.active d
    (stones_ne_nil _ h6) hfull hd
  have hget : g.actionPools.get 0 = .ok g.actionPools.active := by
    unfold ActionPools.get
    rw [ActionPools.get?_active _ hw.2.2.1]
  have htake : g.resourcePool.take d =
      .ok ⟨g.resourcePool.stoneCounts.set (d.type - 1) (c - 1)⟩ := by
    unfold ResourcePool.take
    rw [hc]
    simp only [bind, Except.bind, pure, Except.pure]
    rw [if_neg (by omega)]
  refine ⟨_, pool1, htake, ?_⟩
  unfold GameState.moveStoneToPlayer
  simp [hhas, hget, htake, hp1, hfull, bind, Except.bind, pure, Except.pure]

theorem OrbMove.isNoMove_noMove : OrbMove.noMove.isNoMove = true := by decide

theorem OrbMove.isNoMove_of_orbs (o : OrbPositions) (m : OrbMove)
    (h1 : o.isOrbAt m.start = true) (h2 : o.isOrbAt m.stop = false) : m.isNoMove = false := by
  unfold OrbMove.isNoMove
  rw [beq_eq_false_iff_ne]
  intro e
  rw [e, h2] at h1
  cases h1

/-- What `executeMove` does with a move of `allMoves`: it succeeds; the board is the one
after the actions, the resource pool the one after the actions without the drawn stone,
and the orbs are those after `nextTurn` with the orb move applied to them. -/
theorem allMoves_executeMove (g : GameState) (hw : g.WF) (ho : g.orbPositions.Ordered)
    (fuel : Nat) (moves : List GameMove) (h : g.allMoves fuel = .ok (some moves))
    (m : GameMove) (hm : m ∈ moves) :
    ∃ g1 rp g', m.actions.applyTo g = .ok g1 ∧ g1.resourcePool.take m.drawnStone = .ok rp ∧
      g1.resourcePool.hasStone m.drawnStone = .ok true ∧
      g.executeMove m = .ok g' ∧ g'.board = g1.board ∧ g'.resourcePool = rp ∧
      ((m.orbMove = OrbMove.noMove ∧ g'.orbPositions = g.orbPositions.nextTurn) ∨
        (g.orbPositions.isOrbAt m.orbMove.start = true ∧
          g.orbPositions.isOrbAt m.orbMove.stop = false ∧ m.orbMove.start.OnBoard ∧
          ∃ g3, g3.orbPositions = g.orbPositions.nextTurn ∧ m.orbMove.applyTo g3 = .ok g')) := by
  obtain ⟨_, g1, oms, ha, hoo, hd, hom⟩ := (mem_allMoves fuel g moves h m).mp hm
  have hw1 := ActionSequence.actionSequence_applyTo_WF _ g g1 hw ha
  have horb1 := ActionSequence.sequence_applyTo_orbs _ g g1 ha
  obtain ⟨rp, pool1, htake, hmove⟩ := GameState.moveStoneToPlayer_succeeds g1 hw1 _ hd
  obtain ⟨_, hhas, hne⟩ := mem_allRegularDraws g1 _ hd
  have hde : (!m.drawnStone.empty) = true := by
    rw [allNonEmpty_not_empty _ hne]
    rfl
  have hex := GameState.executeMove_eq g g1 hw m ha
  rw [if_pos hde, hmove] at hex
  simp only [bind, Except.bind] at hex
  by_cases hnm : m.orbMove = OrbMove.noMove
  · rw [hnm, OrbMove.isNoMove_noMove] at hex
    exact ⟨g1, rp, _, ha, htake, hhas, hex, rfl, rfl, Or.inl ⟨hnm, rfl⟩⟩
  · have ho1 : g1.orbPositions.Ordered := by rw [horb1]; exact ho
    obtain ⟨hs, ht, hh, hsrc, ⟨f, hf, hstop⟩, hos, hot, hko⟩ :=
      allOrbMoves_move_facts g1 hw1 ho1 fuel oms hoo m.orbMove hom hnm
    rw [horb1] at hos hot hko
    have hon := OrbPositions.orbPositions_nextTurn_WF g.orbPositions hw.2.2.2.2.1 hw.2.2.2.2.2.1
    have hko1 : g.orbPositions.nextTurn.koPosition m.orbMove.start ≠ m.orbMove.stop := by
      rcases OrbPositions.nextTurn_koPosition g.orbPositions m.orbMove.start with e | e
      · rw [e]; exact hko
      · rw [e]
        intro hc
        have := onBoard_not_isInvalid _ ht
        rw [← hc] at this
        cases this
    obtain ⟨g', hg'⟩ := OrbMove.applyTo_accepts
      ({ board := g1.board, actionPools := g1.actionPools.set 0 pool1,
         orbPositions := g.orbPositions.nextTurn, resourcePool := rp } : GameState)
      hon.1 hon.2 (OrbPositions.nextTurn_ordered _ ho) m.orbMove.start m.orbMove.stop hs ht hh
      hsrc f hf hstop (by rw [nextTurn_isOrbAt]; exact hos)
      (by rw [nextTurn_isOrbAt]; exact hot) hko1
    rw [OrbMove.isNoMove_of_orbs g.orbPositions m.orbMove hos hot] at hex
    have hex' : g.executeMove m = .ok g' := by
      rw [hex]
      exact hg'
    obtain ⟨_, _, orbs, _, _, _, hres⟩ := OrbMove.applyTo_ok _ _ _ hg'
    have hb : g'.board = g1.board ∧ g'.resourcePool = rp := by
      rcases hres with e | ⟨orbs1, _, e⟩ <;> rw [e] <;> exact ⟨rfl, rfl⟩
    exact ⟨g1, rp, g', ha, htake, hhas, hex', hb.1, hb.2, Or.inr ⟨hos, hot, hs, _, rfl, hg'⟩⟩

/-! ### The following state tells the orb move -/

theorem OrbPositions.nextTurn_koLock (o : OrbPositions) (h : ∀ r ∈ o.positions, r.koLock ≤ 3) :
    ∀ x ∈ o.nextTurn.positions, x.koLock ≤ 2 := by
  intro x hx
  unfold OrbPositions.nextTurn at hx
  obtain ⟨r, hr, rfl⟩ := List.mem_map.mp hx
  have := h r hr
  split
  · split
    · exact Nat.zero_le _
    · show r.koLock - 1 ≤ 2
      omega
  · omega

/-- The orb records after an orb move: the moved orb with its ko position, the orb that
came into the source if one did, and records that were there before. -/
theorem OrbMove.applyTo_records (m : OrbMove) (g g' : GameState) (ho : g.orbPositions.Ordered)
    (hm : m.applyTo g = .ok g') :
    (⟨m.stop, 3, m.start⟩ : OrbPosition) ∈ g'.orbPositions.positions ∧
    ∀ x ∈ g'.orbPositions.positions, x ∈ g.orbPositions.positions ∨
      x = ⟨m.stop, 3, m.start⟩ ∨ x = ⟨m.start, 3, Position.invalid⟩ := by
  obtain ⟨_, _, orbs, _, _, hmv, hres⟩ := OrbMove.applyTo_ok m g g' hm
  obtain ⟨h1, h2, h3, _⟩ := moveOrb_ok _ _ _ _ hmv
  obtain ⟨r, o', hr, _, hmv', hperm, hord⟩ :=
    OrbPositions.moveOrb_perm g.orbPositions ho m.start m.stop h1 h2 h3
  rw [hmv] at hmv'
  cases hmv'
  have hin : (⟨m.stop, 3, m.start⟩ : OrbPosition) ∈ orbs.positions :=
    hperm.mem_iff.mpr (List.mem_cons_self _ _)
  have hall : ∀ x ∈ orbs.positions, x ∈ g.orbPositions.positions ∨ x = ⟨m.stop, 3, m.start⟩ := by
    intro x hx
    rcases List.mem_cons.mp (hperm.mem_iff.mp hx) with e | hx
    · exact Or.inr e
    · exact Or.inl (List.mem_of_mem_erase hx)
  rcases hres with e | ⟨orbs1, hmv1, e⟩
  · rw [e]
    exact ⟨hin, fun x hx => (hall x hx).elim Or.inl (fun e => Or.inr (Or.inl e))⟩
  · obtain ⟨k1, k2, k3, _⟩ := moveOrb_ok _ _ _ _ hmv1
    obtain ⟨r1, o1, hr1, hp1, hmv1', hperm1, _⟩ :=
      OrbPositions.moveOrb_perm orbs hord Position.invalid m.start k1 k2 k3
    rw [hmv1] at hmv1'
    cases hmv1'
    rw [e]
    refine ⟨?_, ?_⟩
    · refine hperm1.mem_iff.mpr (List.mem_cons_of_mem _ ((List.mem_erase_of_ne ?_).mpr hin))
      intro hc
      rw [← hc] at hp1
      simp only at hp1
      rw [hp1] at h1
      cases h1
    · intro x hx
      rcases List.mem_cons.mp (hperm1.mem_iff.mp hx) with e | hx
      · exact Or.inr (Or.inr e)
      · exact (hall x (List.mem_of_mem_erase hx)).elim Or.inl (fun e => Or.inr (Or.inl e))

/-- Two orb moves that start on the board and are applied to states with the same orb
records, none of which was moved in the turn before, are the same move when they leave
the same orb records. -/
theorem OrbMove.applyTo_inj (m m' : OrbMove) (g g1 g' g1' : GameState)
    (ho : g.orbPositions.Ordered) (hk : ∀ x ∈ g.orbPositions.positions, x.koLock ≤ 2)
    (heq : g1.orbPositions = g.orbPositions)
    (hs : m.start.OnBoard) (hs' : m'.start.OnBoard)
    (hm : m.applyTo g = .ok g') (hm' : m'.applyTo g1 = .ok g1')
    (hsame : g'.orbPositions = g1'.orbPositions) : m = m' := by
  obtain ⟨hin, _⟩ := OrbMove.applyTo_records m g g' ho hm
  obtain ⟨_, hall'⟩ := OrbMove.applyTo_records m' g1 g1' (by rw [heq]; exact ho) hm'
  rw [hsame] at hin
  rcases hall' _ hin with h | h | h
  · rw [heq] at h
    have := hk _ h
    simp only at this
    omega
  · simp only [OrbPosition.mk.injEq] at h
    cases m
    cases m'
    simp only at h
    rw [h.1, h.2.2]
  · simp only [OrbPosition.mk.injEq] at h
    have := onBoard_not_isInvalid _ hs
    rw [h.2.2] at this
    cases this

/-- An orb move leaves other orb records than no move. -/
theorem OrbMove.applyTo_changes (m : OrbMove) (g g' : GameState)
    (ho : g.orbPositions.Ordered) (hk : ∀ x ∈ g.orbPositions.positions, x.koLock ≤ 2)
    (hm : m.applyTo g = .ok g') : g'.orbPositions ≠ g.orbPositions := by
  intro hc
  obtain ⟨hin, _⟩ := OrbMove.applyTo_records m g g' ho hm
  rw [hc] at hin
  have := hk _ hin
  simp only at this
  omega

/-! ### The following state tells the draw -/

theorem Stone.type_inj : ∀ a b : Stone, a ≠ Stone.Empty → b ≠ Stone.Empty →
    a.type - 1 = b.type - 1 → a = b := by
  decide

/-- Two stones whose removal leaves the same resource pool are the same stone. -/
theorem ResourcePool.take_inj (r rp : ResourcePool) (d d' : Stone)
    (h : r.take d = .ok rp) (h' : r.take d' = .ok rp) : d = d' := by
  obtain ⟨hd, c, hc, hle, e⟩ := ResourcePool.resourcePool_take_ok r rp d 1 h
  obtain ⟨hd', c', hc', hle', e'⟩ := ResourcePool.resourcePool_take_ok r rp d' 1 h'
  by_cases hk : d.type - 1 = d'.type - 1
  · exact Stone.type_inj d d' hd hd' hk
  · exfalso
    rw [e] at e'
    have hl : d.type - 1 < r.stoneCounts.length := (List.get?_eq_some.mp hc).1
    have e1 := congrArg (fun x : ResourcePool => x.stoneCounts.get? (d.type - 1)) e'
    simp only [List.get?_eq_getElem?] at e1 hc
    rw [List.getElem?_set_self hl, List.getElem?_set_ne (fun x => hk x.symm), hc] at e1
    have := Option.some.inj e1
    omega

/-! ### The following board tells the placed stones -/

theorem set_differs_one {α : Type} (l : List α) (i : Nat) (a : α) (hi : i < l.length)
    (ha : l.get? i ≠ some a) (k : Nat) : (l.set i a).get? k ≠ l.get? k ↔ k = i := by
  simp only [List.get?_eq_getElem?] at ha ⊢
  constructor
  · intro h
    by_contra hne
    rw [List.getElem?_set_ne (fun x => hne x.symm)] at h
    exact h rfl
  · rintro rfl
    rw [List.getElem?_set_self hi]
    exact fun h => ha h.symm

theorem set_differs_two {α : Type} (l : List α) (i j : Nat) (a b : α) (hi : i < l.length)
    (hj : j < l.length) (hij : i ≠ j) (ha : l.get? i ≠ some a) (hb : l.get? j ≠ some b)
    (k : Nat) : ((l.set i a).set j b).get? k ≠ l.get? k ↔ k = i ∨ k = j := by
  simp only [List.get?_eq_getElem?] at ha hb ⊢
  constructor
  · intro h
    by_contra hne
    rw [not_or] at hne
    rw [List.getElem?_set_ne (fun x => hne.2 x.symm),
      List.getElem?_set_ne (fun x => hne.1 x.symm)] at h
    exact h rfl
  · rintro (rfl | rfl)
    · rw [List.getElem?_set_ne (fun x => hij x.symm), List.getElem?_set_self hi]
      exact fun h => ha h.symm
    · rw [List.getElem?_set_self (by rw [List.length_set]; exact hj)]
      exact fun h => hb h.symm

set_option maxRecDepth 100000 in
theorem normalizedOrientation_inj : ∀ (s : Stone) (o o' : Orientation),
    s.uniqueOrientations.contains o = true → s.uniqueOrientations.contains o' = true →
    s.normalizedOrientation o = s.normalizedOrientation o' → o = o' := by
  decide

/-- The effect of a place action on the board: the field was empty and holds the stone
afterwards. -/
theorem Action.createPlace_applyTo (g g' : GameState) (p : Position) (s : Stone)
    (o : Orientation) (h : (Action.createPlace p s o).applyTo g = .ok g') :
    s ≠ Stone.Empty ∧ Board.isStatic p = .ok false ∧
    ∃ f0, g.board.state.get? (Board.stateIndex p) = some f0 ∧ f0.stone = Stone.Empty ∧
      g'.board = ⟨g.board.state.set (Board.stateIndex p) (f0.setStone s o)⟩ := by
  have h1 : (Action.createPlace p s o).applyPlaceAction g = .ok g' := h
  unfold Action.applyPlaceAction at h1
  simp only [Except.throw_bind, Except.pure_bind_eq, Except.bind_eq_ok_iff,
    Except.ite_throw_eq_ok, Except.pure_eq_ok_iff, Bool.not_eq_true', Bool.not_eq_false] at h1
  obtain ⟨has, hhas, _, can, hcan, hct, b, hb, pool1, hp, rfl⟩ := h1
  subst hct
  have hs : s ≠ Stone.Empty := by
    intro e
    unfold StonePool.hasStone at hhas
    rw [if_pos (by exact e)] at hhas
    cases hhas
  obtain ⟨hst, f, hf, hfe⟩ := Board.canPlayerPlaceStone_true _ _ hcan
  obtain ⟨_, f0, hf0, _, hb'⟩ := Board.setField_ok _ _ _ _ _ hb
  have hff : f0 = f := by
    have h2 : g.board.stateField p = .ok f := hf
    have h3 : g.board.stateField p = .ok f0 := hf0
    rw [h2] at h3
    exact (Except.ok.inj h3).symm
  subst hff
  exact ⟨hs, hst, f0, ((Board.stateField_ok_iff _ _ _).mp hf).2.2, hfe, hb'⟩

theorem ActionSequence.one_applyTo (a : Action) (g : GameState) (ha : a.isNone = false) :
    (ActionSequence.one a).applyTo g = a.applyTo g := by
  unfold ActionSequence.applyTo ActionSequence.one
  simp only [List.foldlM_cons, List.foldlM_nil, ha, Bool.not_false, if_true]
  cases a.applyTo g with
  | error e => rfl
  | ok g1 => rfl

theorem ActionSequence.two_applyTo (a b : Action) (g : GameState) (ha : a.isNone = false)
    (hb : b.isNone = false) :
    (ActionSequence.two a b).applyTo g = a.applyTo g >>= fun g1 => b.applyTo g1 := by
  unfold ActionSequence.applyTo ActionSequence.two
  simp only [List.foldlM_cons, List.foldlM_nil, ha, hb, Bool.not_false, if_true]
  cases a.applyTo g with
  | error e => rfl
  | ok g1 =>
    show (b.applyTo g1 >>= fun g2 => pure g2) = b.applyTo g1
    cases b.applyTo g1 <;> rfl

/-- The sequences of `addActionsPlace`. -/
theorem mem_addActionsPlace (g : GameState) (n : Nat) (a : ActionSequence)
    (h : a ∈ ActionGenerator.addActionsPlace g n) :
    (∃ p s o, a = ActionSequence.one (Action.createPlace p s o) ∧
      p ∈ g.board.allPlaceOneActionPositions ∧ s.uniqueOrientations.contains o = true) ∨
    (∃ p q s t o r, a = ActionSequence.two (Action.createPlace p s o) (Action.createPlace q t r) ∧
      (p, q) ∈ g.board.allPlaceTwoActionPositions ∧ s.uniqueOrientations.contains o = true ∧
      t.uniqueOrientations.contains r = true) := by
  unfold ActionGenerator.addActionsPlace at h
  split at h
  · cases h
  · rcases List.mem_append.mp h with h | h
    · left
      obtain ⟨⟨p, s, o⟩, he, rfl⟩ := List.mem_map.mp h
      unfold ActionGenerator.forAllForPlaceOne at he
      obtain ⟨p', hp', he⟩ := List.mem_flatMap.mp he
      obtain ⟨s', _, he⟩ := List.mem_flatMap.mp he
      obtain ⟨o', ho', e⟩ := List.mem_map.mp he
      cases e
      exact ⟨p, s, o, rfl, hp', by simpa using (List.mem_filter.mp ho').2⟩
    · right
      split at h
      · cases h
      · obtain ⟨⟨⟨p, q⟩, ⟨s, t⟩, ⟨o, r⟩⟩, he, rfl⟩ := List.mem_map.mp h
        unfold ActionGenerator.forAllForPlaceTwo at he
        obtain ⟨pq, hpq, he⟩ := List.mem_flatMap.mp he
        obtain ⟨st, _, he⟩ := List.mem_flatMap.mp he
        obtain ⟨oo, hoo, e⟩ := List.mem_map.mp he
        cases e
        unfold ActionGenerator.orientationPairs at hoo
        obtain ⟨o1, _, hoo⟩ := List.mem_flatMap.mp hoo
        obtain ⟨r1, hr1, e⟩ := List.mem_map.mp hoo
        cases e
        have := (List.mem_filter.mp hr1).2
        simp only [Bool.and_eq_true] at this
        exact ⟨_, _, _, _, _, _, rfl, hpq, this.1, this.2⟩

theorem placeOne_nonStatic (b : Board) (p : Position) (h : p ∈ b.allPlaceOneActionPositions) :
    p ∈ Board.allNonStaticPositions :=
  (List.mem_filter.mp h).1

theorem place_field_inj (p p' : Position) (hp : p ∈ Board.allNonStaticPositions)
    (hp' : p' ∈ Board.allNonStaticPositions) (hi : Board.stateIndex p = Board.stateIndex p')
    (f0 f0' : Field) (s s' : Stone) (o o' : Orientation)
    (hc : s.uniqueOrientations.contains o = true) (hc' : s'.uniqueOrientations.contains o' = true)
    (hF : f0.setStone s o = f0'.setStone s' o') : p = p' ∧ s = s' ∧ o = o' := by
  have h1 : p = p' := by
    by_contra hne
    exact stateIndex_ne p p' hp hp' hne hi
  unfold Field.setStone at hF
  simp only [Field.mk.injEq] at hF
  obtain ⟨e1, e2, _⟩ := hF
  subst e1
  exact ⟨h1, rfl, normalizedOrientation_inj s o o' hc hc' e2⟩

/-- The board after a sequence of one place action. -/
theorem place_one_board (g g1 : GameState) (p : Position) (s : Stone) (o : Orientation)
    (h : (ActionSequence.one (Action.createPlace p s o)).applyTo g = .ok g1) :
    ∃ f0 : Field, Board.stateIndex p < g.board.state.length ∧
      g.board.state.get? (Board.stateIndex p) ≠ some (f0.setStone s o) ∧
      g1.board.state = g.board.state.set (Board.stateIndex p) (f0.setStone s o) := by
  rw [ActionSequence.one_applyTo _ _ (by rfl)] at h
  obtain ⟨hs, _, f0, hf0, he, hb⟩ := Action.createPlace_applyTo g g1 p s o h
  refine ⟨f0, (List.get?_eq_some.mp hf0).1, ?_, by rw [hb]⟩
  rw [hf0]
  intro hc
  have := congrArg Field.stone (Option.some.inj hc)
  rw [he] at this
  exact hs this.symm

/-- The board after a sequence of two place actions. -/
theorem place_two_board (g g1 : GameState) (p q : Position) (s t : Stone) (o r : Orientation)
    (h : (ActionSequence.two (Action.createPlace p s o) (Action.createPlace q t r)).applyTo g =
      .ok g1) :
    ∃ f0 f1 : Field, Board.stateIndex p < g.board.state.length ∧
      Board.stateIndex q < g.board.state.length ∧ Board.stateIndex p ≠ Board.stateIndex q ∧
      g.board.state.get? (Board.stateIndex p) ≠ some (f0.setStone s o) ∧
      g.board.state.get? (Board.stateIndex q) ≠ some (f1.setStone t r) ∧
      g1.board.state = (g.board.state.set (Board.stateIndex p) (f0.setStone s o)).set
        (Board.stateIndex q) (f1.setStone t r) := by
  rw [ActionSequence.two_applyTo _ _ _ (by rfl) (by rfl)] at h
  obtain ⟨gA, hA, hB⟩ := (Except.bind_eq_ok_iff _ _ _).mp h
  obtain ⟨hs, _, f0, hf0, he, hb⟩ := Action.createPlace_applyTo g gA p s o hA
  obtain ⟨ht, _, f1, hf1, he1, hb1⟩ := Action.createPlace_applyTo gA g1 q t r hB
  have hi := (List.get?_eq_some.mp hf0).1
  rw [hb] at hf1 hb1
  simp only at hf1 hb1
  have hne : Board.stateIndex p ≠ Board.stateIndex q := by
    intro e
    rw [← e, List.get?_eq_getElem?, List.getElem?_set_self hi] at hf1
    have := congrArg Field.stone (Option.some.inj hf1)
    rw [he1] at this
    exact hs this
  have hf1' : g.board.state.get? (Board.stateIndex q) = some f1 := by
    rw [List.get?_eq_getElem?, List.getElem?_set_ne hne] at hf1
    rw [List.get?_eq_getElem?]
    exact hf1
  refine ⟨f0, f1, hi, (List.get?_eq_some.mp hf1').1, hne, ?_, ?_, by rw [hb1]⟩
  · rw [hf0]
    intro hc
    have := congrArg Field.stone (Option.some.inj hc)
    rw [he] at this
    exact hs this.symm
  · rw [hf1']
    intro hc
    have := congrArg Field.stone (Option.some.inj hc)
    rw [he1] at this
    exact ht this.symm

/-- Two sequences of place actions of a state that leave the same board are the same
sequence. -/
theorem addActionsPlace_board_inj (g g1 g1' : GameState) (n : Nat) (a a' : ActionSequence)
    (ha : a ∈ ActionGenerator.addActionsPlace g n)
    (ha' : a' ∈ ActionGenerator.addActionsPlace g n)
    (h : a.applyTo g = .ok g1) (h' : a'.applyTo g = .ok g1')
    (hb : g1.board = g1'.board) : a = a' := by
  have hnd := placeOne_nodup g.board
  rcases mem_addActionsPlace g n a ha with ⟨p, s, o, rfl, hp, hc⟩ | ⟨p, q, s, t, o, r, rfl, hpq, hc, hd⟩ <;>
    rcases mem_addActionsPlace g n a' ha' with
      ⟨p', s', o', rfl, hp', hc'⟩ | ⟨p', q', s', t', o', r', rfl, hpq', hc', hd'⟩
  · obtain ⟨f0, hi, hn, e⟩ := place_one_board g g1 p s o h
    obtain ⟨f0', hi', hn', e'⟩ := place_one_board g g1' p' s' o' h'
    rw [hb, e'] at e
    have hk : ∀ k, k = Board.stateIndex p' ↔ k = Board.stateIndex p := by
      intro k
      rw [← set_differs_one _ _ _ hi' hn' k, ← set_differs_one _ _ _ hi hn k, e]
    have hii := (hk _).mp rfl
    have hF := congrArg (fun l : List Field => l.get? (Board.stateIndex p)) e
    simp only [List.get?_eq_getElem?] at hF
    rw [List.getElem?_set_self hi, ← hii, List.getElem?_set_self hi'] at hF
    obtain ⟨rfl, rfl, rfl⟩ := place_field_inj p p' (placeOne_nonStatic _ _ hp)
      (placeOne_nonStatic _ _ hp') hii.symm f0 f0' s s' o o' hc hc' (Option.some.inj hF).symm
    rfl
  · exfalso
    obtain ⟨f0, hi, hn, e⟩ := place_one_board g g1 p s o h
    obtain ⟨f0', f1', hi', hj', hne', hn', hm', e'⟩ := place_two_board g g1' p' q' s' t' o' r' h'
    rw [hb, e'] at e
    have hk : ∀ k, (k = Board.stateIndex p' ∨ k = Board.stateIndex q') ↔
        k = Board.stateIndex p := by
      intro k
      rw [← set_differs_two _ _ _ _ _ hi' hj' hne' hn' hm' k, ← set_differs_one _ _ _ hi hn k, e]
    exact hne' (((hk _).mp (Or.inl rfl)).trans ((hk _).mp (Or.inr rfl)).symm)
  · exfalso
    obtain ⟨f0, f1, hi, hj, hne, hn, hm, e⟩ := place_two_board g g1 p q s t o r h
    obtain ⟨f0', hi', hn', e'⟩ := place_one_board g g1' p' s' o' h'
    rw [hb, e'] at e
    have hk : ∀ k, k = Board.stateIndex p' ↔
        (k = Board.stateIndex p ∨ k = Board.stateIndex q) := by
      intro k
      rw [← set_differs_two _ _ _ _ _ hi hj hne hn hm k, ← set_differs_one _ _ _ hi' hn' k, e]
    exact hne (((hk _).mpr (Or.inl rfl)).trans ((hk _).mpr (Or.inr rfl)).symm)
  · obtain ⟨f0, f1, hi, hj, hne, hn, hm, e⟩ := place_two_board g g1 p q s t o r h
    obtain ⟨f0', f1', hi', hj', hne', hn', hm', e'⟩ := place_two_board g g1' p' q' s' t' o' r' h'
    rw [hb, e'] at e
    have hk : ∀ k, (k = Board.stateIndex p' ∨ k = Board.stateIndex q') ↔
        (k = Board.stateIndex p ∨ k = Board.stateIndex q) := by
      intro k
      rw [← set_differs_two _ _ _ _ _ hi' hj' hne' hn' hm' k,
        ← set_differs_two _ _ _ _ _ hi hj hne hn hm k, e]
    obtain ⟨hpm, hqm, _⟩ := mem_positionPairs _ p q hpq
    obtain ⟨hpm', hqm', _⟩ := mem_positionPairs _ p' q' hpq'
    have hpn := placeOne_nonStatic _ _ hpm
    have hqn := placeOne_nonStatic _ _ hqm
    have hpn' := placeOne_nonStatic _ _ hpm'
    have hqn' := placeOne_nonStatic _ _ hqm'
    have hFp := congrArg (fun l : List Field => l.get? (Board.stateIndex p)) e
    have hFq := congrArg (fun l : List Field => l.get? (Board.stateIndex q)) e
    simp only [List.get?_eq_getElem?] at hFp hFq
    rw [List.getElem?_set_ne (fun x => hne x.symm), List.getElem?_set_self hi] at hFp
    rw [List.getElem?_set_self (by rw [List.length_set]; exact hj)] at hFq
    rcases (hk _).mp (Or.inl rfl) with e1 | e1
    · have e2 : Board.stateIndex q' = Board.stateIndex q := by
        rcases (hk _).mp (Or.inr rfl) with e2 | e2
        · exact absurd (e1.trans e2.symm) hne'
        · exact e2
      rw [← e1, List.getElem?_set_ne (fun x => hne' x.symm), List.getElem?_set_self hi'] at hFp
      rw [← e2, List.getElem?_set_self (by rw [List.length_set]; exact hj')] at hFq
      obtain ⟨rfl, rfl, rfl⟩ := place_field_inj p p' hpn hpn' e1.symm f0 f0' s s' o o' hc hc'
        (Option.some.inj hFp).symm
      obtain ⟨rfl, rfl, rfl⟩ := place_field_inj q q' hqn hqn' e2.symm f1 f1' t t' r r' hd hd'
        (Option.some.inj hFq).symm
      rfl
    · exfalso
      have e2 : Board.stateIndex q' = Board.stateIndex p := by
        rcases (hk _).mp (Or.inr rfl) with e2 | e2
        · exact e2
        · exact absurd (e1.trans e2.symm) hne'
      have hp1 : p' = q := by
        by_contra hx
        exact stateIndex_ne p' q hpn' hqn hx e1
      have hq1 : q' = p := by
        by_contra hx
        exact stateIndex_ne q' p hqn' hpn hx e2
      subst hp1
      subst hq1
      exact combinedPairs_order _ hnd _ _ hpq hpq'

/-! ### The moves of the starting state -/

/-- In a state whose action sequences are all sequences of place actions, two moves of
`allMoves` with the same following state are the same move. -/
theorem executeMove_inj_of_place (g : GameState) (hw : g.WF) (ho : g.orbPositions.Ordered)
    (n : Nat) (hall : ∀ a ∈ g.allActions, a ∈ ActionGenerator.addActionsPlace g n)
    (fuel : Nat) (moves : List GameMove) (h : g.allMoves fuel = .ok (some moves))
    (m m' : GameMove) (hm : m ∈ moves) (hm' : m' ∈ moves)
    (heq : g.executeMove m = g.executeMove m') : m = m' := by
  obtain ⟨g1, rp, g', ha, htake, _, hex, hb, hr, horb⟩ :=
    allMoves_executeMove g hw ho fuel moves h m hm
  obtain ⟨g1', rp', g'', ha', htake', _, hex', hb', hr', horb'⟩ :=
    allMoves_executeMove g hw ho fuel moves h m' hm'
  rw [hex, hex'] at heq
  have hg := Except.ok.inj heq
  subst hg
  have hact : m.actions = m'.actions :=
    addActionsPlace_board_inj g g1 g1' n _ _
      (hall _ ((mem_allMoves fuel g moves h m).mp hm).1)
      (hall _ ((mem_allMoves fuel g moves h m').mp hm').1) ha ha' (hb.symm.trans hb')
  rw [← hact, ha] at ha'
  have hg1 := Except.ok.inj ha'
  subst hg1
  have hdraw : m.drawnStone = m'.drawnStone := by
    rw [← hr] at htake
    rw [← hr'] at htake'
    exact ResourcePool.take_inj _ _ _ _ htake htake'
  have hk := OrbPositions.nextTurn_koLock g.orbPositions
    (fun r hr => (hw.2.2.2.2.2.1 r hr).2.2.1)
  have hon := OrbPositions.nextTurn_ordered _ ho
  have hmove : m.orbMove = m'.orbMove := by
    rcases horb with ⟨e, ho1⟩ | ⟨_, _, hs, g3, h3, hap⟩ <;>
      rcases horb' with ⟨e', ho1'⟩ | ⟨_, _, hs', g3', h3', hap'⟩
    · rw [e, e']
    · exfalso
      refine OrbMove.applyTo_changes _ g3' g' (by rw [h3']; exact hon)
        (by rw [h3']; exact hk) hap' ?_
      rw [h3', ho1]
    · exfalso
      refine OrbMove.applyTo_changes _ g3 g' (by rw [h3]; exact hon)
        (by rw [h3]; exact hk) hap ?_
      rw [h3, ho1']
    · exact OrbMove.applyTo_inj _ _ g3 g3' g' g' (by rw [h3]; exact hon)
        (by rw [h3]; exact hk) (by rw [h3, h3']) hs hs' hap hap' rfl
  cases m
  cases m'
  simp only at hact hdraw hmove
  rw [hact, hdraw, hmove]

set_option maxRecDepth 100000 in
theorem startingState_only_places :
    ActionGenerator.addActionsReplace startingState
      startingState.actionPools.active.stoneCount = [] ∧
    ActionGenerator.addActionsRotate startingState
      startingState.actionPools.active.stoneCount = [] ∧
    ActionGenerator.addActionsExtraDraw startingState = [] := by
  decide

theorem startingState_allActions (a : ActionSequence) (h : a ∈ startingState.allActions) :
    a ∈ ActionGenerator.addActionsPlace startingState
      startingState.actionPools.active.stoneCount := by
  unfold GameState.allActions ActionGenerator.addAllActions at h
  obtain ⟨h1, h2, h3⟩ := startingState_only_places
  simp only [h1, h2, h3, List.append_nil] at h
  exact h

/-- C33, as amended: in every state the list of `allMoves` has no move twice; for the
starting state, which the test takes, the function returns with enough fuel for the orb
searches, every move of its list can be executed, and two moves of the list with the
same following state are the same move. -/
theorem allMoves_unique_at_start :
    (∀ (g : GameState) (fuel : Nat) (moves : List GameMove),
      g.allMoves fuel = .ok (some moves) → moves.Nodup) ∧
    ∃ N, ∀ fuel, N ≤ fuel → ∃ moves, startingState.allMoves fuel = .ok (some moves) ∧
      moves.Nodup ∧ (∀ m ∈ moves, ∃ g', startingState.executeMove m = .ok g') ∧
      ∀ m ∈ moves, ∀ m' ∈ moves,
        startingState.executeMove m = startingState.executeMove m' → m = m' := by
  refine ⟨fun g fuel moves h => allMoves_nodup fuel g moves h, ?_⟩
  obtain ⟨N, hN⟩ := allMoves_returns startingState startingState_WF startingState_canonical
  refine ⟨N, fun fuel hf => ⟨_, (hN fuel hf).1, allMoves_nodup fuel _ _ (hN fuel hf).1, ?_, ?_⟩⟩
  · intro m hm
    obtain ⟨_, _, g', _, _, _, hex, _⟩ := allMoves_executeMove startingState startingState_WF
      startingState_orbs.1 fuel _ (hN fuel hf).1 m hm
    exact ⟨g', hex⟩
  · intro m hm m' hm' heq
    exact executeMove_inj_of_place startingState startingState_WF startingState_orbs.1 _
      startingState_allActions fuel _ (hN fuel hf).1 m m' hm hm' heq

/-- C39 after the first move of a game: the state is reached by a move of `allMoves`,
has nine orb records, and its orbs in play stand on different cells. -/
theorem orbs_in_play_invariant_witness :
    ReachableByAllMoves stateAfterFirstMove ∧
    stateAfterFirstMove.orbPositions.positions.length = 9 ∧
    (inPlayPositions stateAfterFirstMove).Nodup :=
  ⟨stateAfterFirstMove_reachable,
    (orbs_in_play_invariant stateAfterFirstMove stateAfterFirstMove_reachable).1,
    (orbs_in_play_invariant stateAfterFirstMove stateAfterFirstMove_reachable).2.1⟩

end Metikoro
